import Mathlib

/-!
# HashTableTests: hash-table engines of `hash-tables.h` / `hash-tables-impl.h`

A shallow embedding of the container engines and a verification of their
contract.

Conventions of the embedding.

* `std::vector<T>` is a `List T`; `v[i]` reads with `List.getD` (the index is
  shown to be in range wherever a theorem depends on the value read) and
  writes with `List.set`.
* `size_t` values count elements of vectors held in memory, so `size * 3`,
  `buckets.size() * 2` and `(i + i*i) / 2` stay far below `2^64`; they are
  natural numbers. `hash & (n - 1)` is `Nat.land`.
* `Elem *` is `Option Nat`: `none` is `nullptr`, `some i` is `&elemPool[i]`.
* A failed `assert` (followed in the source by a null dereference) makes the
  operation return `none`; so does a loop over a linked chain that does not
  end.
* `HashKey<K>` returns a `uint32_t` computed by SpookyHash, which is not part
  of the repository: the digest is a parameter `digest : K → Nat` and
  `HashKey` reduces it to 32 bits.
* The `uint32_t` indices of `D0HashTable` are natural numbers; where a value
  is narrowed, `static_cast<uint32_t>(buckets.size() * 2)` in `Insert` and
  `static_cast<uint32_t>(buckets.size())` in `Rehash`, it is taken `% 2 ^ 32`,
  and the index `-1` is `2 ^ 32 - 1`. `Insert` writes `keyAndNexts[nextFree]`:
  outside the vector this is undefined behaviour and the operation returns
  `none`.
* `D1HashTable` counts its entries in the `uint32_t` member `size_`: `size_ * 3`,
  `++size_`, `--size_`, `keyEnd - 1` and the `maxSize * 3` of its `Reserve` are
  taken `% 2 ^ 32`. `Reserve` of `OLHashTable` and `OQHashTable` computes
  `maxSize * 3` in `size_t`, taken `% 2 ^ 64`.
* `v.clear(); v.resize(n);` gives `n` value-initialised elements,
  `List.replicate n default`.
-/

set_option autoImplicit false
set_option linter.unusedSectionVars false
set_option linter.unusedVariables false

namespace HashTableTests

/-! ## Part I. The embedding -/

/-- `s_hashTableInitialSize`. -/
def s_hashTableInitialSize : Nat := 16

/-- `s_62Bits`. -/
def s_62Bits : Nat := 0x3fffffffffffffff

/-- `s_63Bits`. -/
def s_63Bits : Nat := 0x7fffffffffffffff

/-- `HashKey<K>(key)`: the 32-bit digest of the key. -/
def HashKey {K : Type} (digest : K → Nat) (key : K) : Nat := digest key % 2 ^ 32

/-- The `BSTATE` enumeration of the open-addressing tables. -/
inductive BSTATE where
  | BSTATE_Empty
  | BSTATE_Filled
  | BSTATE_Removed
  deriving DecidableEq, Repr

instance : Inhabited BSTATE := ⟨BSTATE.BSTATE_Empty⟩

/-- `OLHashTable::Bucket` and `OQHashTable::Bucket`: stored hash, state, key, value.
The C++ `hash` is a bit-field of 62 (63) bits; the engines only store
`HashKey(key) & s_62Bits` (`& s_63Bits`), copies of a stored hash and 0 in it, all
below `2 ^ 32`, so no store truncates and the field is a `Nat`. -/
structure Bucket (K V : Type) where
  hash : Nat
  state : BSTATE
  key : K
  value : V
  deriving DecidableEq, Repr

/-- A value-initialised bucket: hash 0, state `BSTATE_Empty`, default key and value. -/
instance {K V : Type} [Inhabited K] [Inhabited V] : Inhabited (Bucket K V) :=
  ⟨⟨0, BSTATE.BSTATE_Empty, default, default⟩⟩

/-- `buckets[i]`. -/
def bucketAt {K V : Type} [Inhabited K] [Inhabited V] (bs : List (Bucket K V)) (i : Nat) :
    Bucket K V :=
  bs.getD i default

/-- "Search for an unused bucket": the loop body `if (b->state != BSTATE_Filled)
{ bTarget = b; break; }` run over the indices `ps` in order. -/
def searchUnused {K V : Type} [Inhabited K] [Inhabited V] (bs : List (Bucket K V)) :
    List Nat → Option Nat
  | [] => none
  | i :: rest =>
    if (bucketAt bs i).state ≠ BSTATE.BSTATE_Filled then some i else searchUnused bs rest

/-- Outcome of one scanning loop of `Lookup` / `Remove`. -/
inductive Scan where
  /-- The loop returned from the function at a matching Filled bucket. -/
  | found (i : Nat)
  /-- The loop returned from the function at an Empty bucket. -/
  | empty
  /-- The loop ran to its end. -/
  | exhausted
  deriving DecidableEq, Repr

/-- "Search the buckets until we hit an empty one": the `switch (b->state)` body of
`Lookup` and `Remove` run over the indices `ps` in order. -/
def scanKey {K V : Type} [Inhabited K] [Inhabited V] [DecidableEq K]
    (bs : List (Bucket K V)) (hash : Nat) (key : K) : List Nat → Scan
  | [] => Scan.exhausted
  | i :: rest =>
    match (bucketAt bs i).state with
    | BSTATE.BSTATE_Empty => Scan.empty
    | BSTATE.BSTATE_Filled =>
      if (bucketAt bs i).hash = hash ∧ (bucketAt bs i).key = key then Scan.found i
      else scanKey bs hash key rest
    | BSTATE.BSTATE_Removed => scanKey bs hash key rest

/-- A call of the common interface used by the unit tests. -/
inductive Op (K V : Type) where
  | insert (key : K) (value : V)
  | remove (key : K)
  deriving DecidableEq, Repr

/-- Run a sequence of `Insert` / `Remove` calls, collecting the results of the
`Remove` calls in order. `none` when a call fails. -/
def runOps {K V T : Type} (ins : T → K → V → Option T) (rem : T → K → Option (T × Bool)) :
    T → List (Op K V) → Option (T × List Bool)
  | t, [] => some (t, [])
  | t, Op.insert k v :: rest =>
    match ins t k v with
    | none => none
    | some t1 => runOps ins rem t1 rest
  | t, Op.remove k :: rest =>
    match rem t k with
    | none => none
    | some (t1, r) =>
      match runOps ins rem t1 rest with
      | none => none
      | some (t2, rs) => some (t2, r :: rs)

/-- A call of a member function that changes the table. -/
inductive Call (K V : Type) where
  | insert (key : K) (value : V)
  | remove (key : K)
  | reserve (maxSize : Nat)
  | rehash (bucketCountNew : Nat)
  | reset
  deriving DecidableEq, Repr

/-- The calls that leave the bucket count to the table: `Insert`, `Remove` and `Reset`. -/
def Call.basic {K V : Type} : Call K V → Bool
  | Call.insert _ _ => true
  | Call.remove _ => true
  | Call.reserve _ => false
  | Call.rehash _ => false
  | Call.reset => true

/-- The number `n` is a power of two. -/
def isPow2 (n : Nat) : Bool := (List.range (n + 1)).any (fun j => n == 2 ^ j)

/-- The calls `Insert(k, v)` for the pairs of a list, in order. -/
def inserts {K V : Type} (kvs : List (K × V)) : List (Call K V) :=
  kvs.map (fun p => Call.insert p.1 p.2)

/-- The bit smearing of `Reserve`: `maxSize |= maxSize >> 1; ... maxSize |= maxSize >> 16;`. -/
def smear (maxSize : Nat) : Nat :=
  let maxSize := maxSize ||| (maxSize >>> 1)
  let maxSize := maxSize ||| (maxSize >>> 2)
  let maxSize := maxSize ||| (maxSize >>> 4)
  let maxSize := maxSize ||| (maxSize >>> 8)
  let maxSize := maxSize ||| (maxSize >>> 16)
  maxSize

/-! ### The finite map a sequence of calls describes -/

namespace Model

variable {K V : Type} [DecidableEq K]

/-- No key is present. -/
def empty : K → Option V := fun _ => none

/-- Effect of one call on the finite map. -/
def step (m : K → Option V) : Op K V → K → Option V
  | Op.insert k v => fun x => if x = k then some v else m x
  | Op.remove k => fun x => if x = k then none else m x

/-- The finite map after a sequence of calls: a key maps to the value of its latest
`Insert` unless a `Remove` of the key came after it. -/
def run (m : K → Option V) : List (Op K V) → K → Option V
  | [] => m
  | op :: rest => run (step m op) rest

/-- The results the `Remove` calls must return: `true` exactly when the key is live. -/
def removes (m : K → Option V) : List (Op K V) → List Bool
  | [] => []
  | Op.insert k v :: rest => removes (step m (Op.insert k v)) rest
  | Op.remove k :: rest => (m k).isSome :: removes (step m (Op.remove k)) rest

/-- `Insert(k, v)` is never called while an entry for `k` is live. -/
def dupFree (m : K → Option V) : List (Op K V) → Bool
  | [] => true
  | Op.insert k v :: rest => (m k).isNone && dupFree (step m (Op.insert k v)) rest
  | Op.remove k :: rest => dupFree (step m (Op.remove k)) rest

/-- The number of live entries never exceeds `cap`: `live` counts the entries that are
live before the calls, every `Insert` adds one and every `Remove` of a live key takes
one away. -/
def fits (cap : Nat) (m : K → Option V) (live : Nat) : List (Op K V) → Bool
  | [] => true
  | Op.insert k v :: rest =>
    decide (live + 1 ≤ cap) && fits cap (step m (Op.insert k v)) (live + 1) rest
  | Op.remove k :: rest =>
    fits cap (step m (Op.remove k)) (if (m k).isSome then live - 1 else live) rest

/-- The shadowing order of the values inserted for `k` in a `C0HashTable`, first the
value `Lookup(k)` returns: `Insert(k, v)` puts `v` in front, and an `Insert` made while
the number `size` of entries equals the bucket count `cap` first doubles `cap`, which
reverses the order. `hist` is the order before the calls. -/
def shadow (k : K) : List (K × V) → Nat → Nat → List V → List V
  | [], _, _, hist => hist
  | (x, v) :: rest, size, cap, hist =>
    let hist1 := if size = cap then hist.reverse else hist
    let cap1 := if size = cap then cap * 2 else cap
    shadow k rest (size + 1) cap1 (if x = k then v :: hist1 else hist1)

/-- The number of entries per key when keys may repeat: `Insert(k, v)` adds an entry for
`k`, and `Remove(k)` takes one entry for `k` away when there is one. -/
def stepCount (cnt : K → Nat) : Op K V → K → Nat
  | Op.insert k _ => fun x => if x = k then cnt x + 1 else cnt x
  | Op.remove k => fun x => if x = k then cnt x - 1 else cnt x

/-- The number of live entries never exceeds `cap`, repeated keys allowed: before the
calls `cnt k` entries are live for key `k` and `live` entries in all; every `Insert`
adds one, and every `Remove` of a key that has an entry takes one away. -/
def fitsDup (cap : Nat) (cnt : K → Nat) (live : Nat) : List (Op K V) → Bool
  | [] => true
  | Op.insert k v :: rest =>
    decide (live + 1 ≤ cap) && fitsDup cap (stepCount cnt (Op.insert k v : Op K V)) (live + 1) rest
  | Op.remove k :: rest =>
    fitsDup cap (stepCount cnt (Op.remove k : Op K V))
      (if 0 < cnt k then live - 1 else live) rest

end Model

/-! ### OLHashTable: open addressing, linear probing -/

/-- `OLHashTable<K, V>`. -/
structure OLHashTable (K V : Type) where
  buckets : List (Bucket K V)
  size : Nat
  deriving DecidableEq, Repr

namespace OLHashTable

variable {K V : Type} [Inhabited K] [Inhabited V] [DecidableEq K]

/-- `OLHashTable::OLHashTable()`. -/
def new : OLHashTable K V :=
  { buckets := List.replicate s_hashTableInitialSize default, size := 0 }

/-- The two search loops of `Insert` and `Rehash`: `iBucketStart .. iEnd`, then
`0 .. iBucketStart` when the first found nothing. -/
def findTarget (bs : List (Bucket K V)) (iBucketStart iEnd : Nat) : Option Nat :=
  match searchUnused bs (List.range' iBucketStart (iEnd - iBucketStart)) with
  | some i => some i
  | none => searchUnused bs (List.range iBucketStart)

/-- The loop of `Rehash` over the old buckets `buckets[i]`, `i = 0 .. iEnd`. -/
def rehashLoop (bucketCountNew : Nat) :
    List (Bucket K V) → List (Bucket K V) → Option (List (Bucket K V))
  | [], bucketsNew => some bucketsNew
  | b :: rest, bucketsNew =>
    if b.state ≠ BSTATE.BSTATE_Filled then rehashLoop bucketCountNew rest bucketsNew
    else
      let hash := b.hash
      let iBucketStart := hash &&& (bucketCountNew - 1)
      match findTarget bucketsNew iBucketStart bucketCountNew with
      | none => none
      | some j =>
        rehashLoop bucketCountNew rest
          (bucketsNew.set j ⟨hash, BSTATE.BSTATE_Filled, b.key, b.value⟩)

/-- `OLHashTable::Rehash(bucketCountNew)`. -/
def Rehash (t : OLHashTable K V) (bucketCountNew : Nat) : Option (OLHashTable K V) :=
  let bucketCountNew := max (max bucketCountNew t.size) s_hashTableInitialSize
  match rehashLoop bucketCountNew t.buckets (List.replicate bucketCountNew default) with
  | none => none
  | some bucketsNew => some { buckets := bucketsNew, size := t.size }

/-- `OLHashTable::Insert(key, value)`. -/
def Insert (digest : K → Nat) (t : OLHashTable K V) (key : K) (value : V) :
    Option (OLHashTable K V) :=
  match (if t.size * 3 > t.buckets.length * 2 then Rehash t (t.buckets.length * 2)
         else some t) with
  | none => none
  | some t =>
    let hash := HashKey digest key &&& s_62Bits
    let iBucketStart := hash &&& (t.buckets.length - 1)
    match findTarget t.buckets iBucketStart t.buckets.length with
    | none => none
    | some i =>
      some { buckets := t.buckets.set i ⟨hash, BSTATE.BSTATE_Filled, key, value⟩,
             size := t.size + 1 }

/-- The two scanning loops of `Lookup` and `Remove`: the second runs only when the
first reached its end. -/
def scanTwo (bs : List (Bucket K V)) (hash : Nat) (key : K) (iBucketStart : Nat) : Scan :=
  match scanKey bs hash key (List.range' iBucketStart (bs.length - iBucketStart)) with
  | Scan.exhausted => scanKey bs hash key (List.range iBucketStart)
  | r => r

/-- `OLHashTable::Lookup(key)`: the value pointed to, `none` for `nullptr`. -/
def Lookup (digest : K → Nat) (t : OLHashTable K V) (key : K) : Option V :=
  let hash := HashKey digest key &&& s_62Bits
  let iBucketStart := hash &&& (t.buckets.length - 1)
  match scanTwo t.buckets hash key iBucketStart with
  | Scan.found i => some (bucketAt t.buckets i).value
  | _ => none

/-- `OLHashTable::Remove(key)`. -/
def Remove (digest : K → Nat) (t : OLHashTable K V) (key : K) : OLHashTable K V × Bool :=
  let hash := HashKey digest key &&& s_62Bits
  let iBucketStart := hash &&& (t.buckets.length - 1)
  match scanTwo t.buckets hash key iBucketStart with
  | Scan.found i =>
    ({ buckets := t.buckets.set i
         ⟨0, BSTATE.BSTATE_Removed, (bucketAt t.buckets i).key, (bucketAt t.buckets i).value⟩,
       size := t.size - 1 }, true)
  | _ => (t, false)

/-- A sequence of `Insert` / `Remove` calls on a table. -/
def run (digest : K → Nat) (t : OLHashTable K V) (ops : List (Op K V)) :
    Option (OLHashTable K V × List Bool) :=
  runOps (Insert digest) (fun t k => some (Remove digest t k)) t ops

/-- `OLHashTable::Reserve(maxSize)`: `maxSize * 3 / 2` in `size_t`, the bits below the
highest set bit set, then `Rehash`. -/
def Reserve (t : OLHashTable K V) (maxSize : Nat) : Option (OLHashTable K V) :=
  let maxSize := maxSize * 3 % 2 ^ 64 / 2
  Rehash t (smear maxSize)

/-- `OLHashTable::Reset()`: `buckets.clear(); buckets.resize(s_hashTableInitialSize);
size = 0;`. -/
def Reset (_t : OLHashTable K V) : OLHashTable K V :=
  { buckets := List.replicate s_hashTableInitialSize default, size := 0 }

/-- A sequence of calls on a table; `none` when an `assert(bTarget)` fails. -/
def runCalls (digest : K → Nat) : OLHashTable K V → List (Call K V) → Option (OLHashTable K V)
  | t, [] => some t
  | t, Call.insert k v :: rest =>
    match Insert digest t k v with
    | none => none
    | some t1 => runCalls digest t1 rest
  | t, Call.remove k :: rest => runCalls digest (Remove digest t k).1 rest
  | t, Call.reserve n :: rest =>
    match Reserve t n with
    | none => none
    | some t1 => runCalls digest t1 rest
  | t, Call.rehash n :: rest =>
    match Rehash t n with
    | none => none
    | some t1 => runCalls digest t1 rest
  | t, Call.reset :: rest => runCalls digest (Reset t) rest

end OLHashTable


/-! ### OQHashTable: open addressing, quadratic probing -/

/-- `OQHashTable<K, V>`. -/
structure OQHashTable (K V : Type) where
  buckets : List (Bucket K V)
  size : Nat
  deriving DecidableEq, Repr

namespace OQHashTable

variable {K V : Type} [Inhabited K] [Inhabited V] [DecidableEq K]

/-- `OQHashTable::OQHashTable()`. -/
def new : OQHashTable K V :=
  { buckets := List.replicate s_hashTableInitialSize default, size := 0 }

/-- The probing sequence: `size_t probe = (iBucketStart + (i + i*i) / 2) % iEnd`. -/
def probe (iBucketStart i iEnd : Nat) : Nat := (iBucketStart + (i + i * i) / 2) % iEnd

/-- The buckets probed by `for (size_t i = 0; i < iEnd; ++i)`, in order. -/
def probeOrder (iBucketStart iEnd : Nat) : List Nat :=
  (List.range iEnd).map (fun i => probe iBucketStart i iEnd)

/-- The loop of `Rehash` over the old buckets `buckets[i]`, `i = 0 .. iEnd`. -/
def rehashLoop (bucketCountNew : Nat) :
    List (Bucket K V) → List (Bucket K V) → Option (List (Bucket K V))
  | [], bucketsNew => some bucketsNew
  | b :: rest, bucketsNew =>
    if b.state ≠ BSTATE.BSTATE_Filled then rehashLoop bucketCountNew rest bucketsNew
    else
      let hash := b.hash
      let iBucketStart := hash &&& (bucketCountNew - 1)
      match searchUnused bucketsNew (probeOrder iBucketStart bucketCountNew) with
      | none => none
      | some j =>
        rehashLoop bucketCountNew rest
          (bucketsNew.set j ⟨hash, BSTATE.BSTATE_Filled, b.key, b.value⟩)

/-- `OQHashTable::Rehash(bucketCountNew)`. -/
def Rehash (t : OQHashTable K V) (bucketCountNew : Nat) : Option (OQHashTable K V) :=
  let bucketCountNew := max (max bucketCountNew t.size) s_hashTableInitialSize
  match rehashLoop bucketCountNew t.buckets (List.replicate bucketCountNew default) with
  | none => none
  | some bucketsNew => some { buckets := bucketsNew, size := t.size }

/-- `OQHashTable::Insert(key, value)`. -/
def Insert (digest : K → Nat) (t : OQHashTable K V) (key : K) (value : V) :
    Option (OQHashTable K V) :=
  match (if t.size * 3 > t.buckets.length * 2 then Rehash t (t.buckets.length * 2)
         else some t) with
  | none => none
  | some t =>
    let hash := HashKey digest key &&& s_62Bits
    let iBucketStart := hash &&& (t.buckets.length - 1)
    match searchUnused t.buckets (probeOrder iBucketStart t.buckets.length) with
    | none => none
    | some i =>
      some { buckets := t.buckets.set i ⟨hash, BSTATE.BSTATE_Filled, key, value⟩,
             size := t.size + 1 }

/-- `OQHashTable::Lookup(key)`: the value pointed to, `none` for `nullptr`. -/
def Lookup (digest : K → Nat) (t : OQHashTable K V) (key : K) : Option V :=
  let hash := HashKey digest key &&& s_62Bits
  let iBucketStart := hash &&& (t.buckets.length - 1)
  match scanKey t.buckets hash key (probeOrder iBucketStart t.buckets.length) with
  | Scan.found i => some (bucketAt t.buckets i).value
  | _ => none

/-- `OQHashTable::Remove(key)`. -/
def Remove (digest : K → Nat) (t : OQHashTable K V) (key : K) : OQHashTable K V × Bool :=
  let hash := HashKey digest key &&& s_62Bits
  let iBucketStart := hash &&& (t.buckets.length - 1)
  match scanKey t.buckets hash key (probeOrder iBucketStart t.buckets.length) with
  | Scan.found i =>
    ({ buckets := t.buckets.set i
         ⟨0, BSTATE.BSTATE_Removed, (bucketAt t.buckets i).key, (bucketAt t.buckets i).value⟩,
       size := t.size - 1 }, true)
  | _ => (t, false)

/-- A sequence of `Insert` / `Remove` calls on a table. -/
def run (digest : K → Nat) (t : OQHashTable K V) (ops : List (Op K V)) :
    Option (OQHashTable K V × List Bool) :=
  runOps (Insert digest) (fun t k => some (Remove digest t k)) t ops

/-- `OQHashTable::Reserve(maxSize)`: `maxSize * 3 / 2` in `size_t`, the bits below the
highest set bit set, then `Rehash`. -/
def Reserve (t : OQHashTable K V) (maxSize : Nat) : Option (OQHashTable K V) :=
  let maxSize := maxSize * 3 % 2 ^ 64 / 2
  Rehash t (smear maxSize)

/-- `OQHashTable::Reset()`: `buckets.clear(); buckets.resize(s_hashTableInitialSize);
size = 0;`. -/
def Reset (_t : OQHashTable K V) : OQHashTable K V :=
  { buckets := List.replicate s_hashTableInitialSize default, size := 0 }

/-- A sequence of calls on a table; `none` when an `assert(bTarget)` fails, in `Insert`
or in `Rehash`. -/
def runCalls (digest : K → Nat) : OQHashTable K V → List (Call K V) → Option (OQHashTable K V)
  | t, [] => some t
  | t, Call.insert k v :: rest =>
    match Insert digest t k v with
    | none => none
    | some t1 => runCalls digest t1 rest
  | t, Call.remove k :: rest => runCalls digest (Remove digest t k).1 rest
  | t, Call.reserve n :: rest =>
    match Reserve t n with
    | none => none
    | some t1 => runCalls digest t1 rest
  | t, Call.rehash n :: rest =>
    match Rehash t n with
    | none => none
    | some t1 => runCalls digest t1 rest
  | t, Call.reset :: rest => runCalls digest (Reset t) rest

end OQHashTable

/-! ### Linked chains in an element pool -/

/-- The loop `for (Elem * e = pHead; e; e = e->pNext) if (hit(e)) return e;` of the
chaining engines: `some (some e)` is the first node that satisfies `hit`, `some none`
the end of the chain. A chain of distinct nodes of the pool has at most as many
nodes as the pool, so callers pass the pool size as `fuel`; `none` reports a walk that
did not end within `fuel` nodes (a cyclic chain, on which the loop does not end). -/
def chainFind (next : Nat → Option Nat) (hit : Nat → Bool) :
    Nat → Option Nat → Option (Option Nat)
  | _, none => some none
  | 0, some _ => none
  | fuel + 1, some e => if hit e then some (some e) else chainFind next hit fuel (next e)

/-- The loop `for (e = pHead->pNext, ePrev = pHead; e; ePrev = e, e = e->pNext)` of
`Remove`: the first node that satisfies `hit`, with its predecessor. -/
def chainFindPrev (next : Nat → Option Nat) (hit : Nat → Bool) :
    Nat → Option Nat → Nat → Option (Option (Nat × Nat))
  | _, none, _ => some none
  | 0, some _, _ => none
  | fuel + 1, some e, ePrev =>
    if hit e then some (some (e, ePrev)) else chainFindPrev next hit fuel (next e) e

/-! ### C0HashTable: separate chaining, no inline element -/

/-- `C0HashTable::Elem`. -/
structure C0HashTable.Elem (K V : Type) where
  pNext : Option Nat
  hash : Nat
  key : K
  value : V
  deriving DecidableEq, Repr

/-- `C0HashTable::Bucket`. -/
structure C0HashTable.Bucket where
  pHead : Option Nat
  deriving DecidableEq, Repr

/-- `C0HashTable<K, V>`. -/
structure C0HashTable (K V : Type) where
  buckets : List C0HashTable.Bucket
  elemPool : List (C0HashTable.Elem K V)
  pElemFreeHead : Option Nat
  size : Nat
  deriving DecidableEq, Repr

namespace C0HashTable

variable {K V : Type} [Inhabited K] [Inhabited V] [DecidableEq K]

/-- A value-initialised element. -/
instance : Inhabited (Elem K V) := ⟨⟨none, 0, default, default⟩⟩

/-- A value-initialised bucket. -/
instance : Inhabited Bucket := ⟨⟨none⟩⟩

/-- `elemPool[i]`. -/
def elemAt (pool : List (Elem K V)) (i : Nat) : Elem K V := pool.getD i default

/-- `buckets[i].pHead`. -/
def headAt (bs : List Bucket) (i : Nat) : Option Nat := (bs.getD i default).pHead

/-- `e->pNext` as a function of the node. -/
def nextOf (pool : List (Elem K V)) : Nat → Option Nat := fun e => (elemAt pool e).pNext

/-- The test `e->hash == hash && e->key == key`. -/
def hitOf (pool : List (Elem K V)) (hash : Nat) (key : K) : Nat → Bool :=
  fun e => decide ((elemAt pool e).hash = hash ∧ (elemAt pool e).key = key)

/-- `for (i = lo; i < hi; ++i) elemPool[i].pNext = &elemPool[i+1];`, given as the number
`hi - lo` of iterations left. -/
def linkFree : Nat → Nat → List (Elem K V) → List (Elem K V)
  | 0, _, pool => pool
  | cnt + 1, i, pool =>
    linkFree cnt (i + 1)
      (pool.set i ⟨some (i + 1), (elemAt pool i).hash, (elemAt pool i).key,
        (elemAt pool i).value⟩)

/-- `C0HashTable::C0HashTable()`. -/
def new : C0HashTable K V :=
  { buckets := List.replicate s_hashTableInitialSize default,
    elemPool := linkFree (s_hashTableInitialSize - 1) 0
      (List.replicate s_hashTableInitialSize default),
    pElemFreeHead := some 0,
    size := 0 }

/-- The inner loop of `Rehash` over one chain: every element is copied to
`elemPoolNew[iElemNext]` and pushed on the chain of its new bucket. The state is
`(bucketsNew, elemPoolNew, iElemNext)`. -/
def rehashChain (pool : List (Elem K V)) (bucketCountNew : Nat) :
    Nat → Option Nat → List Bucket × List (Elem K V) × Nat →
      Option (List Bucket × List (Elem K V) × Nat)
  | _, none, st => some st
  | 0, some _, _ => none
  | fuel + 1, some e, (bucketsNew, elemPoolNew, iElemNext) =>
    let hash := (elemAt pool e).hash
    let bNew := hash &&& (bucketCountNew - 1)
    rehashChain pool bucketCountNew fuel (elemAt pool e).pNext
      (bucketsNew.set bNew ⟨some iElemNext⟩,
        elemPoolNew.set iElemNext
          ⟨headAt bucketsNew bNew, hash, (elemAt pool e).key, (elemAt pool e).value⟩,
        iElemNext + 1)

/-- The outer loop of `Rehash` over the old buckets. -/
def rehashBuckets (pool : List (Elem K V)) (bucketCountNew : Nat) :
    List Bucket → List Bucket × List (Elem K V) × Nat →
      Option (List Bucket × List (Elem K V) × Nat)
  | [], st => some st
  | b :: rest, st =>
    match rehashChain pool bucketCountNew pool.length b.pHead st with
    | none => none
    | some st1 => rehashBuckets pool bucketCountNew rest st1

/-- `C0HashTable::Rehash(bucketCountNew)`. -/
def Rehash (t : C0HashTable K V) (bucketCountNew : Nat) : Option (C0HashTable K V) :=
  let bucketCountNew := max (max bucketCountNew t.size) s_hashTableInitialSize
  match rehashBuckets t.elemPool bucketCountNew t.buckets
      (List.replicate bucketCountNew default, List.replicate bucketCountNew default, 0) with
  | none => none
  | some (bucketsNew, elemPoolNew, iElemNext) =>
    some { buckets := bucketsNew,
           elemPool := linkFree (elemPoolNew.length - 1 - iElemNext) iElemNext elemPoolNew,
           pElemFreeHead := if iElemNext < elemPoolNew.length then some iElemNext else none,
           size := t.size }

/-- `C0HashTable::Insert(key, value)`. -/
def Insert (digest : K → Nat) (t : C0HashTable K V) (key : K) (value : V) :
    Option (C0HashTable K V) :=
  match (if t.pElemFreeHead = none then Rehash t (t.buckets.length * 2) else some t) with
  | none => none
  | some t =>
    match t.pElemFreeHead with
    | none => none
    | some e =>
      let hash := HashKey digest key
      let b := hash &&& (t.buckets.length - 1)
      some { buckets := t.buckets.set b ⟨some e⟩,
             elemPool := t.elemPool.set e ⟨headAt t.buckets b, hash, key, value⟩,
             pElemFreeHead := (elemAt t.elemPool e).pNext,
             size := t.size + 1 }

/-- `C0HashTable::Lookup(key)`: `some none` for `nullptr`, `some (some v)` for a pointer
to the value `v`. -/
def Lookup (digest : K → Nat) (t : C0HashTable K V) (key : K) : Option (Option V) :=
  let hash := HashKey digest key
  let b := hash &&& (t.buckets.length - 1)
  match chainFind (nextOf t.elemPool) (hitOf t.elemPool hash key) t.elemPool.length
      (headAt t.buckets b) with
  | none => none
  | some none => some none
  | some (some e) => some (some (elemAt t.elemPool e).value)

/-- "Put eRemoved back on the free list". -/
def release (t : C0HashTable K V) (buckets : List Bucket) (pool : List (Elem K V))
    (eRemoved : Nat) : C0HashTable K V :=
  { buckets := buckets,
    elemPool := pool.set eRemoved
      ⟨t.pElemFreeHead, 0, (elemAt pool eRemoved).key, (elemAt pool eRemoved).value⟩,
    pElemFreeHead := some eRemoved,
    size := t.size - 1 }

/-- `C0HashTable::Remove(key)`. -/
def Remove (digest : K → Nat) (t : C0HashTable K V) (key : K) :
    Option (C0HashTable K V × Bool) :=
  let hash := HashKey digest key
  let b := hash &&& (t.buckets.length - 1)
  match headAt t.buckets b with
  | none => some (t, false)
  | some pHead =>
    if hitOf t.elemPool hash key pHead then
      some (release t (t.buckets.set b ⟨(elemAt t.elemPool pHead).pNext⟩) t.elemPool pHead,
        true)
    else
      match chainFindPrev (nextOf t.elemPool) (hitOf t.elemPool hash key) t.elemPool.length
          (elemAt t.elemPool pHead).pNext pHead with
      | none => none
      | some none => some (t, false)
      | some (some (e, ePrev)) =>
        some (release t t.buckets
          (t.elemPool.set ePrev
            ⟨(elemAt t.elemPool e).pNext, (elemAt t.elemPool ePrev).hash,
              (elemAt t.elemPool ePrev).key, (elemAt t.elemPool ePrev).value⟩) e, true)

/-- A sequence of `Insert` / `Remove` calls on a table. -/
def run (digest : K → Nat) (t : C0HashTable K V) (ops : List (Op K V)) :
    Option (C0HashTable K V × List Bool) :=
  runOps (Insert digest) (Remove digest) t ops

/-- `C0HashTable::Reserve(maxSize)`: the bits below the highest set bit are set, then
`Rehash`. -/
def Reserve (t : C0HashTable K V) (maxSize : Nat) : Option (C0HashTable K V) :=
  Rehash t (smear maxSize)

/-- `C0HashTable::Reset()`: the vectors are cleared and resized and the free list is
built as in the constructor. -/
def Reset (_t : C0HashTable K V) : C0HashTable K V :=
  { buckets := List.replicate s_hashTableInitialSize default,
    elemPool := linkFree (s_hashTableInitialSize - 1) 0
      (List.replicate s_hashTableInitialSize default),
    pElemFreeHead := some 0,
    size := 0 }

/-- A sequence of calls on a table; `none` when one of them fails. -/
def runCalls (digest : K → Nat) : C0HashTable K V → List (Call K V) → Option (C0HashTable K V)
  | t, [] => some t
  | t, Call.insert k v :: rest =>
    match Insert digest t k v with
    | none => none
    | some t1 => runCalls digest t1 rest
  | t, Call.remove k :: rest =>
    match Remove digest t k with
    | none => none
    | some (t1, _) => runCalls digest t1 rest
  | t, Call.reserve n :: rest =>
    match Reserve t n with
    | none => none
    | some t1 => runCalls digest t1 rest
  | t, Call.rehash n :: rest =>
    match Rehash t n with
    | none => none
    | some t1 => runCalls digest t1 rest
  | t, Call.reset :: rest => runCalls digest (Reset t) rest

/-- The nodes met by `for (Elem * e = pHead; e; e = e->pNext)`, in order; the walk is
cut after `fuel` nodes. -/
def walk (next : Nat → Option Nat) : Nat → Option Nat → List Nat
  | _, none => []
  | 0, some _ => []
  | fuel + 1, some e => e :: walk next fuel (next e)

/-- The entries of the chain of bucket `b`, key and value, in chain order. -/
def chainOf (t : C0HashTable K V) (b : Nat) : List (K × V) :=
  (walk (nextOf t.elemPool) t.elemPool.length (headAt t.buckets b)).map
    (fun e => ((elemAt t.elemPool e).key, (elemAt t.elemPool e).value))

end C0HashTable

/-! ### C1HashTable: separate chaining, one inline element per bucket -/

/-- `C1HashTable::Elem`: the same fields as `C0HashTable::Elem`. -/
abbrev C1HashTable.Elem (K V : Type) : Type := C0HashTable.Elem K V

/-- `C1HashTable::Bucket`: chain head, and the inline element with its `filled` bit.
The C++ `hash` is a bit-field of 63 bits; the engine only stores `HashKey(key) & s_63Bits`,
copies of a stored hash and 0 in it, all below `2 ^ 32`, so no store truncates and the
field is a `Nat`. -/
structure C1HashTable.Bucket (K V : Type) where
  pHead : Option Nat
  hash : Nat
  filled : Bool
  key : K
  value : V
  deriving DecidableEq, Repr

/-- `C1HashTable<K, V>`. -/
structure C1HashTable (K V : Type) where
  buckets : List (C1HashTable.Bucket K V)
  elemPool : List (C1HashTable.Elem K V)
  pElemFreeHead : Option Nat
  size : Nat
  deriving DecidableEq, Repr

namespace C1HashTable

open C0HashTable (elemAt nextOf hitOf linkFree)

variable {K V : Type} [Inhabited K] [Inhabited V] [DecidableEq K]

/-- A value-initialised bucket: not filled, no chain. -/
instance : Inhabited (Bucket K V) := ⟨⟨none, 0, false, default, default⟩⟩

/-- `buckets[i]`. -/
def bucketAt (bs : List (Bucket K V)) (i : Nat) : Bucket K V := bs.getD i default

/-- `C1HashTable::C1HashTable()`: 16 buckets and a pool of 8 elements. -/
def new : C1HashTable K V :=
  { buckets := List.replicate s_hashTableInitialSize default,
    elemPool := linkFree (s_hashTableInitialSize / 2 - 1) 0
      (List.replicate (s_hashTableInitialSize / 2) default),
    pElemFreeHead := some 0,
    size := 0 }

/-- Outcome of one pass of `Rehash` over the old table. -/
inductive Pass (σ : Type) where
  /-- Every entry was placed. -/
  | ok (st : σ)
  /-- "Escape hatch": the new pool is full and one more element is needed. -/
  | escape
  /-- A chain of the old table did not end. -/
  | stuck

/-- Placing one entry of the old table in `Rehash`: inline when the new bucket is not
filled, else in the next element of the new pool. The state is
`(bucketsNew, elemPoolNew, iElemNext)`; `none` is the escape hatch. -/
def placeEntry (bucketCountNew : Nat) (st : List (Bucket K V) × List (Elem K V) × Nat)
    (hash : Nat) (key : K) (value : V) : Option (List (Bucket K V) × List (Elem K V) × Nat) :=
  let bNew := hash &&& (bucketCountNew - 1)
  if (bucketAt st.1 bNew).filled = false then
    some (st.1.set bNew ⟨(bucketAt st.1 bNew).pHead, hash, true, key, value⟩, st.2.1, st.2.2)
  else if st.2.2 = st.2.1.length then none
  else
    some (st.1.set bNew ⟨some st.2.2, (bucketAt st.1 bNew).hash, (bucketAt st.1 bNew).filled,
        (bucketAt st.1 bNew).key, (bucketAt st.1 bNew).value⟩,
      st.2.1.set st.2.2 ⟨(bucketAt st.1 bNew).pHead, hash, key, value⟩,
      st.2.2 + 1)

/-- "Handle the elements in the chain": the inner loop of `Rehash`. -/
def rehashChain (pool : List (Elem K V)) (bucketCountNew : Nat) :
    Nat → Option Nat → List (Bucket K V) × List (Elem K V) × Nat →
      Pass (List (Bucket K V) × List (Elem K V) × Nat)
  | _, none, st => Pass.ok st
  | 0, some _, _ => Pass.stuck
  | fuel + 1, some e, st =>
    match placeEntry bucketCountNew st (elemAt pool e).hash (elemAt pool e).key
        (elemAt pool e).value with
    | none => Pass.escape
    | some st1 => rehashChain pool bucketCountNew fuel (elemAt pool e).pNext st1

/-- The outer loop of `Rehash` over the old buckets: the element in the bucket, then
the elements in its chain. -/
def rehashBuckets (pool : List (Elem K V)) (bucketCountNew : Nat) :
    List (Bucket K V) → List (Bucket K V) × List (Elem K V) × Nat →
      Pass (List (Bucket K V) × List (Elem K V) × Nat)
  | [], st => Pass.ok st
  | b :: rest, st =>
    if b.filled = false then rehashBuckets pool bucketCountNew rest st
    else
      match placeEntry bucketCountNew st b.hash b.key b.value with
      | none => Pass.escape
      | some st1 =>
        match rehashChain pool bucketCountNew pool.length b.pHead st1 with
        | Pass.ok st2 => rehashBuckets pool bucketCountNew rest st2
        | Pass.escape => Pass.escape
        | Pass.stuck => Pass.stuck

/-- `C1HashTable::Rehash(bucketCountNew)` with the depth of the escape-hatch recursion
bounded by `depth`; `none` when the bound is reached or a chain does not end. -/
def rehashAux (t : C1HashTable K V) : Nat → Nat → Option (C1HashTable K V)
  | 0, _ => none
  | depth + 1, bucketCountNew =>
    let bucketCountNew := max (max bucketCountNew t.size) s_hashTableInitialSize
    match rehashBuckets t.elemPool bucketCountNew t.buckets
        (List.replicate bucketCountNew default, List.replicate (bucketCountNew / 2) default,
          0) with
    | Pass.stuck => none
    | Pass.escape => rehashAux t depth (bucketCountNew * 2)
    | Pass.ok (bucketsNew, elemPoolNew, iElemNext) =>
      some { buckets := bucketsNew,
             elemPool := linkFree (elemPoolNew.length - 1 - iElemNext) iElemNext elemPoolNew,
             pElemFreeHead := if iElemNext < elemPoolNew.length then some iElemNext else none,
             size := t.size }

/-- `C1HashTable::Rehash(bucketCountNew)`. Every retry doubles `bucketCountNew`, a
`size_t`, so 64 levels bound the recursion. -/
def Rehash (t : C1HashTable K V) (bucketCountNew : Nat) : Option (C1HashTable K V) :=
  rehashAux t 64 bucketCountNew

/-- "Store it in the bucket. Done." -/
def storeInline (t : C1HashTable K V) (b hash : Nat) (key : K) (value : V) :
    C1HashTable K V :=
  { t with
    buckets := t.buckets.set b ⟨(bucketAt t.buckets b).pHead, hash, true, key, value⟩,
    size := t.size + 1 }

/-- "Grab the next element off the free list" and "Insert the new element into the
bucket"; `none` when `assert(pElemFreeHead)` fails. -/
def grabElem (t : C1HashTable K V) (b hash : Nat) (key : K) (value : V) :
    Option (C1HashTable K V) :=
  match t.pElemFreeHead with
  | none => none
  | some e =>
    some { buckets := t.buckets.set b ⟨some e, (bucketAt t.buckets b).hash,
             (bucketAt t.buckets b).filled, (bucketAt t.buckets b).key,
             (bucketAt t.buckets b).value⟩,
           elemPool := t.elemPool.set e ⟨(bucketAt t.buckets b).pHead, hash, key, value⟩,
           pElemFreeHead := (elemAt t.elemPool e).pNext,
           size := t.size + 1 }

/-- `C1HashTable::Insert(key, value)`. -/
def Insert (digest : K → Nat) (t : C1HashTable K V) (key : K) (value : V) :
    Option (C1HashTable K V) :=
  let hash := HashKey digest key &&& s_63Bits
  let b := hash &&& (t.buckets.length - 1)
  if (bucketAt t.buckets b).filled = false then some (storeInline t b hash key value)
  else
    match t.pElemFreeHead with
    | none =>
      match Rehash t (t.buckets.length * 2) with
      | none => none
      | some t1 =>
        let b1 := hash &&& (t1.buckets.length - 1)
        if (bucketAt t1.buckets b1).filled = false then
          some (storeInline t1 b1 hash key value)
        else grabElem t1 b1 hash key value
    | some _ => grabElem t b hash key value

/-- `C1HashTable::Lookup(key)`: `some none` for `nullptr`, `some (some v)` for a pointer
to the value `v`. -/
def Lookup (digest : K → Nat) (t : C1HashTable K V) (key : K) : Option (Option V) :=
  let hash := HashKey digest key &&& s_63Bits
  let b := hash &&& (t.buckets.length - 1)
  if (bucketAt t.buckets b).filled = false then some none
  else if (bucketAt t.buckets b).hash = hash ∧ (bucketAt t.buckets b).key = key then
    some (some (bucketAt t.buckets b).value)
  else
    match chainFind (nextOf t.elemPool) (hitOf t.elemPool hash key) t.elemPool.length
        (bucketAt t.buckets b).pHead with
    | none => none
    | some none => some none
    | some (some e) => some (some (elemAt t.elemPool e).value)

/-- "Put the removed element back on the free list". -/
def release (t : C1HashTable K V) (buckets : List (Bucket K V)) (pool : List (Elem K V))
    (eRemoved : Nat) : C1HashTable K V :=
  { buckets := buckets,
    elemPool := pool.set eRemoved
      ⟨t.pElemFreeHead, 0, (elemAt pool eRemoved).key, (elemAt pool eRemoved).value⟩,
    pElemFreeHead := some eRemoved,
    size := t.size - 1 }

/-- `C1HashTable::Remove(key)`. -/
def Remove (digest : K → Nat) (t : C1HashTable K V) (key : K) :
    Option (C1HashTable K V × Bool) :=
  let hash := HashKey digest key &&& s_63Bits
  let b := hash &&& (t.buckets.length - 1)
  if (bucketAt t.buckets b).filled = false then some (t, false)
  else if (bucketAt t.buckets b).hash = hash ∧ (bucketAt t.buckets b).key = key then
    match (bucketAt t.buckets b).pHead with
    | some pHead =>
      some (release t
        (t.buckets.set b ⟨(elemAt t.elemPool pHead).pNext, (elemAt t.elemPool pHead).hash,
          (bucketAt t.buckets b).filled, (elemAt t.elemPool pHead).key,
          (elemAt t.elemPool pHead).value⟩)
        t.elemPool pHead, true)
    | none =>
      some ({ t with
              buckets := t.buckets.set b
                ⟨none, 0, false, (bucketAt t.buckets b).key, (bucketAt t.buckets b).value⟩,
              size := t.size - 1 }, true)
  else
    match (bucketAt t.buckets b).pHead with
    | none => some (t, false)
    | some pHead =>
      if hitOf t.elemPool hash key pHead then
        some (release t
          (t.buckets.set b ⟨(elemAt t.elemPool pHead).pNext, (bucketAt t.buckets b).hash,
            (bucketAt t.buckets b).filled, (bucketAt t.buckets b).key,
            (bucketAt t.buckets b).value⟩)
          t.elemPool pHead, true)
      else
        match chainFindPrev (nextOf t.elemPool) (hitOf t.elemPool hash key)
            t.elemPool.length (elemAt t.elemPool pHead).pNext pHead with
        | none => none
        | some none => some (t, false)
        | some (some (e, ePrev)) =>
          some (release t t.buckets
            (t.elemPool.set ePrev
              ⟨(elemAt t.elemPool e).pNext, (elemAt t.elemPool ePrev).hash,
                (elemAt t.elemPool ePrev).key, (elemAt t.elemPool ePrev).value⟩) e, true)

/-- A sequence of `Insert` / `Remove` calls on a table. -/
def run (digest : K → Nat) (t : C1HashTable K V) (ops : List (Op K V)) :
    Option (C1HashTable K V × List Bool) :=
  runOps (Insert digest) (Remove digest) t ops

/-- `C1HashTable::Reserve(maxSize)`: the bits below the highest set bit are set, then
`Rehash`. -/
def Reserve (t : C1HashTable K V) (maxSize : Nat) : Option (C1HashTable K V) :=
  let maxSize := maxSize ||| (maxSize >>> 1)
  let maxSize := maxSize ||| (maxSize >>> 2)
  let maxSize := maxSize ||| (maxSize >>> 4)
  let maxSize := maxSize ||| (maxSize >>> 8)
  let maxSize := maxSize ||| (maxSize >>> 16)
  Rehash t maxSize

/-- `C1HashTable::Reset()`. -/
def Reset (_t : C1HashTable K V) : C1HashTable K V :=
  { buckets := List.replicate s_hashTableInitialSize default,
    elemPool := linkFree (s_hashTableInitialSize / 2 - 1) 0
      (List.replicate (s_hashTableInitialSize / 2) default),
    pElemFreeHead := some 0,
    size := 0 }

/-- A sequence of calls on a table; `none` when one of them fails. -/
def runCalls (digest : K → Nat) : C1HashTable K V → List (Call K V) → Option (C1HashTable K V)
  | t, [] => some t
  | t, Call.insert k v :: rest =>
    match Insert digest t k v with
    | none => none
    | some t1 => runCalls digest t1 rest
  | t, Call.remove k :: rest =>
    match Remove digest t k with
    | none => none
    | some (t1, _) => runCalls digest t1 rest
  | t, Call.reserve n :: rest =>
    match Reserve t n with
    | none => none
    | some t1 => runCalls digest t1 rest
  | t, Call.rehash n :: rest =>
    match Rehash t n with
    | none => none
    | some t1 => runCalls digest t1 rest
  | t, Call.reset :: rest => runCalls digest (Reset t) rest

/-- The finite map after a sequence of calls that starts with the finite map `m`. -/
def mapAfter (m : K → Option V) : List (Call K V) → K → Option V
  | [] => m
  | Call.insert k v :: rest => mapAfter (fun x => if x = k then some v else m x) rest
  | Call.remove k :: rest => mapAfter (fun x => if x = k then none else m x) rest
  | Call.reserve _ :: rest => mapAfter m rest
  | Call.rehash _ :: rest => mapAfter m rest
  | Call.reset :: rest => mapAfter (fun _ => none) rest

/-- At most one live entry per key: `Insert(k, v)` is never called while an entry for
`k` is live. -/
def oneLive (m : K → Option V) : List (Call K V) → Bool
  | [] => true
  | Call.insert k v :: rest =>
    (m k).isNone && oneLive (fun x => if x = k then some v else m x) rest
  | Call.remove k :: rest => oneLive (fun x => if x = k then none else m x) rest
  | Call.reserve _ :: rest => oneLive m rest
  | Call.rehash _ :: rest => oneLive m rest
  | Call.reset :: rest => oneLive (fun _ => none) rest

end C1HashTable

/-! ### D0HashTable: chaining through 32-bit indices into the pool -/

/-- `D0HashTable::KN`: a key and the index of the next node, a `uint32_t`. -/
structure D0HashTable.KN (K : Type) where
  key : K
  next : Nat
  deriving DecidableEq, Repr

/-- `D0HashTable<K, V>`: `buckets` holds the index of the first node of each chain and
`nextFree` the index of the first free node, both `uint32_t`. -/
structure D0HashTable (K V : Type) where
  buckets : List Nat
  keyAndNexts : List (D0HashTable.KN K)
  values : List V
  nextFree : Nat
  deriving DecidableEq, Repr

namespace D0HashTable

variable {K V : Type} [Inhabited K] [Inhabited V] [DecidableEq K]

/-- `static_cast<uint32_t>(-1)`, the index that ends a chain: `index == -1` compares a
`uint32_t` with `-1` converted to `uint32_t`. -/
def endIndex : Nat := 2 ^ 32 - 1

/-- A value-initialised node: default key, `next` 0. -/
instance : Inhabited (KN K) := ⟨⟨default, 0⟩⟩

/-- `buckets[i]`. -/
def indexAt (bs : List Nat) (i : Nat) : Nat := bs.getD i 0

/-- `keyAndNexts[i]`. -/
def knAt (kns : List (KN K)) (i : Nat) : KN K := kns.getD i default

/-- `values[i]`. -/
def valAt (vs : List V) (i : Nat) : V := vs.getD i default

/-- An index as the link of a chain: nothing when `index == -1`, the loop condition
`index != -1` of `Lookup`, `Remove` and `Rehash`. -/
def link (index : Nat) : Option Nat := if index = endIndex then none else some index

/-- The link `keyAndNexts[i].next` as a function of the node. -/
def nextOf (kns : List (KN K)) : Nat → Option Nat := fun i => link (knAt kns i).next

/-- The test `kn.key == key`. -/
def hitOf (kns : List (KN K)) (key : K) : Nat → Bool :=
  fun i => decide ((knAt kns i).key = key)

/-- `std::vector::resize(n)`: cut to `n` elements, or filled up with value-initialised
elements. -/
def resize {α : Type} [Inhabited α] (l : List α) (n : Nat) : List α :=
  l.take n ++ List.replicate (n - l.length) default

/-- `for (idx = lo; idx < hi; ++idx) keyAndNexts[idx].next = idx + 1;`, given as the
number `hi - lo` of iterations left. -/
def linkFree : Nat → Nat → List (KN K) → List (KN K)
  | 0, _, kns => kns
  | cnt + 1, idx, kns =>
    linkFree cnt (idx + 1) (kns.set idx ⟨(knAt kns idx).key, idx + 1⟩)

/-- `D0HashTable::D0HashTable()`. -/
def new : D0HashTable K V :=
  { buckets := List.replicate 16 endIndex,
    keyAndNexts :=
      (linkFree 15 0 (List.replicate 16 default)).set 15
        ⟨(knAt (linkFree 15 0 (List.replicate 16 (default : KN K))) 15).key, endIndex⟩,
    values := List.replicate 16 default,
    nextFree := 0 }

/-- The `while (index != -1)` loop of `Rehash` over one old chain: node `index` becomes
the head of the chain of its new bucket, in place. The state is
`(bucketsNew, keyAndNexts)`; `none` when the chain does not end within `fuel` nodes. -/
def rehashChain (digest : K → Nat) :
    Nat → Option Nat → List Nat × List (KN K) → Option (List Nat × List (KN K))
  | _, none, st => some st
  | 0, some _, _ => none
  | fuel + 1, some index, (bucketsNew, kns) =>
    let hash := HashKey digest (knAt kns index).key
    let newHashIndex := hash &&& (bucketsNew.length - 1)
    let newIndex := indexAt bucketsNew newHashIndex
    if newIndex = endIndex then
      rehashChain digest fuel (link (knAt kns index).next)
        (bucketsNew.set newHashIndex index, kns.set index ⟨(knAt kns index).key, endIndex⟩)
    else
      rehashChain digest fuel (link (knAt kns index).next)
        (bucketsNew.set newHashIndex index, kns.set index ⟨(knAt kns index).key, newIndex⟩)

/-- The loop `for (idx = 0; idx < size; ++idx)` of `Rehash` over the heads `buckets[idx]`
of the old chains. -/
def rehashBuckets (digest : K → Nat) :
    List Nat → List Nat × List (KN K) → Option (List Nat × List (KN K))
  | [], st => some st
  | index :: rest, st =>
    match rehashChain digest st.2.length (link index) st with
    | none => none
    | some st1 => rehashBuckets digest rest st1

/-- `D0HashTable::Rehash(bucketCountNew)`, for a `uint32_t` argument: the chains are
relinked in place in the enlarged pool and the new nodes are put in front of the free
list. -/
def Rehash (digest : K → Nat) (t : D0HashTable K V) (bucketCountNew : Nat) :
    Option (D0HashTable K V) :=
  let size := t.buckets.length % 2 ^ 32
  if bucketCountNew ≤ size then some t
  else
    match rehashBuckets digest (t.buckets.take size)
        (List.replicate bucketCountNew endIndex, resize t.keyAndNexts bucketCountNew) with
    | none => none
    | some (bucketsNew, kns) =>
      some { buckets := bucketsNew,
             keyAndNexts :=
               (linkFree (bucketCountNew - size) size kns).set (bucketCountNew - 1)
                 ⟨(knAt (linkFree (bucketCountNew - size) size kns) (bucketCountNew - 1)).key,
                   t.nextFree⟩,
             values := resize t.values bucketCountNew,
             nextFree := size }

/-- `D0HashTable::Insert(key, value)`. The argument of `Rehash` is
`static_cast<uint32_t>(buckets.size() * 2)`. An access outside a vector is undefined
behaviour: `none`. -/
def Insert (digest : K → Nat) (t : D0HashTable K V) (key : K) (value : V) :
    Option (D0HashTable K V) :=
  match (if t.nextFree = endIndex then Rehash digest t (t.buckets.length * 2 % 2 ^ 32)
      else some t) with
  | none => none
  | some t =>
    let index := t.nextFree
    let hash := HashKey digest key
    let b := hash &&& (t.buckets.length - 1)
    if b < t.buckets.length ∧ index < t.keyAndNexts.length ∧ index < t.values.length then
      some { buckets := t.buckets.set b index,
             keyAndNexts := t.keyAndNexts.set index ⟨key, indexAt t.buckets b⟩,
             values := t.values.set index value,
             nextFree := (knAt t.keyAndNexts index).next }
    else none

/-- `D0HashTable::Lookup(key)`: `some none` for `nullptr`, `some (some v)` for a pointer
to the value `v`; `none` when the chain does not end. -/
def Lookup (digest : K → Nat) (t : D0HashTable K V) (key : K) : Option (Option V) :=
  let hash := HashKey digest key
  match chainFind (nextOf t.keyAndNexts) (hitOf t.keyAndNexts key) t.keyAndNexts.length
      (link (indexAt t.buckets (hash &&& (t.buckets.length - 1)))) with
  | none => none
  | some none => some none
  | some (some index) => some (some (valAt t.values index))

/-- `D0HashTable::Remove(key)`. -/
def Remove (digest : K → Nat) (t : D0HashTable K V) (key : K) :
    Option (D0HashTable K V × Bool) :=
  let hash := HashKey digest key
  let hashIndex := hash &&& (t.buckets.length - 1)
  match link (indexAt t.buckets hashIndex) with
  | none => some (t, false)
  | some index =>
    if (knAt t.keyAndNexts index).key = key then
      some ({ t with
              buckets := t.buckets.set hashIndex (knAt t.keyAndNexts index).next,
              keyAndNexts := t.keyAndNexts.set index
                ⟨(knAt t.keyAndNexts index).key, t.nextFree⟩,
              nextFree := index }, true)
    else
      match chainFindPrev (nextOf t.keyAndNexts) (hitOf t.keyAndNexts key)
          t.keyAndNexts.length (link (knAt t.keyAndNexts index).next) index with
      | none => none
      | some none => some (t, false)
      | some (some (i, prev)) =>
        some ({ t with
                keyAndNexts :=
                  (t.keyAndNexts.set prev
                    ⟨(knAt t.keyAndNexts prev).key, (knAt t.keyAndNexts i).next⟩).set i
                    ⟨(knAt t.keyAndNexts i).key, t.nextFree⟩,
                nextFree := i }, true)

/-- A sequence of `Insert` / `Remove` calls on a table. -/
def run (digest : K → Nat) (t : D0HashTable K V) (ops : List (Op K V)) :
    Option (D0HashTable K V × List Bool) :=
  runOps (Insert digest) (Remove digest) t ops

/-- `D0HashTable::Reserve(maxSize)`, for a `uint32_t` argument. -/
def Reserve (digest : K → Nat) (t : D0HashTable K V) (maxSize : Nat) :
    Option (D0HashTable K V) :=
  Rehash digest t (smear maxSize)

/-- `D0HashTable::Reset()`. After `clear()`, `buckets.resize(16)` fills the vector with
value-initialised heads, the index 0; the constructor fills it with
`static_cast<uint32_t>(-1)`. -/
def Reset (_t : D0HashTable K V) : D0HashTable K V :=
  { buckets := List.replicate 16 0,
    keyAndNexts :=
      (linkFree 15 0 (List.replicate 16 default)).set 15
        ⟨(knAt (linkFree 15 0 (List.replicate 16 (default : KN K))) 15).key, endIndex⟩,
    values := List.replicate 16 default,
    nextFree := 0 }

end D0HashTable

/-! ### D1HashTable: open addressing, linear probing, keys and values in two vectors -/

/-- `D1HashTable::State`. -/
inductive D1HashTable.State where
  | EMPTY
  | FILLED
  | REMOVED
  deriving DecidableEq, Repr

/-- `D1HashTable::KS`: the state of a slot and its key. -/
structure D1HashTable.KS (K : Type) where
  state : D1HashTable.State
  key : K
  deriving DecidableEq, Repr

/-- `D1HashTable<K, V>`: `size_` is a `uint32_t`. -/
structure D1HashTable (K V : Type) where
  keyAndStates : List (D1HashTable.KS K)
  values : List V
  size_ : Nat
  deriving DecidableEq, Repr

namespace D1HashTable

variable {K V : Type} [Inhabited K] [Inhabited V] [DecidableEq K]

/-- A value-initialised slot: `EMPTY`, default key. -/
instance : Inhabited (KS K) := ⟨⟨State.EMPTY, default⟩⟩

/-- `keyAndStates[i]`. -/
def ksAt (kss : List (KS K)) (i : Nat) : KS K := kss.getD i default

/-- `D1HashTable::D1HashTable()`. -/
def new : D1HashTable K V :=
  { keyAndStates := List.replicate 16 default,
    values := List.replicate 16 default,
    size_ := 0 }

/-- The loop body `if (ks.state != FILLED) { ...; return; }` run over the indices `ps`
in order: the first slot that is not `FILLED`. -/
def searchSlot (kss : List (KS K)) : List Nat → Option Nat
  | [] => none
  | idx :: rest => if (ksAt kss idx).state ≠ State.FILLED then some idx else searchSlot kss rest

/-- The two loops of `Insert` and `Rehash`: `keyStart .. keyEnd`, then `0 .. keyStart`. -/
def findSlot (kss : List (KS K)) (keyStart keyEnd : Nat) : Option Nat :=
  match searchSlot kss (List.range' keyStart (keyEnd - keyStart)) with
  | some idx => some idx
  | none => searchSlot kss (List.range keyStart)

/-- The loop of `Rehash` over the old slots `i = start, start + 1, ...`: a `FILLED` slot
is placed again from the hash of its key; when both loops find no slot, control reaches
`L1` and the entry is not stored. The state is `(newKeyAndStates, newValues)`; a read
of `values[i]` outside the vector is undefined behaviour, `none`. -/
def rehashLoop (digest : K → Nat) (values : List V) (keyEnd : Nat) :
    Nat → List (KS K) → List (KS K) × List V → Option (List (KS K) × List V)
  | _, [], st => some st
  | i, ks :: rest, (newKeyAndStates, newValues) =>
    if ks.state ≠ State.FILLED then
      rehashLoop digest values keyEnd (i + 1) rest (newKeyAndStates, newValues)
    else
      let hash := HashKey digest ks.key
      let keyStart := hash &&& (keyEnd - 1)
      match findSlot newKeyAndStates keyStart keyEnd with
      | none => rehashLoop digest values keyEnd (i + 1) rest (newKeyAndStates, newValues)
      | some idx =>
        if i < values.length then
          rehashLoop digest values keyEnd (i + 1) rest
            (newKeyAndStates.set idx ⟨State.FILLED, ks.key⟩,
              newValues.set idx (values.getD i default))
        else none

/-- `D1HashTable::Rehash(bucketCountNew)`, for a `uint32_t` argument. -/
def Rehash (digest : K → Nat) (t : D1HashTable K V) (bucketCountNew : Nat) :
    Option (D1HashTable K V) :=
  let oldSize := t.keyAndStates.length % 2 ^ 32
  if bucketCountNew ≤ oldSize then some t
  else
    match rehashLoop digest t.values bucketCountNew 0 (t.keyAndStates.take oldSize)
        (List.replicate bucketCountNew default, List.replicate bucketCountNew default) with
    | none => none
    | some (newKeyAndStates, newValues) =>
      some { keyAndStates := newKeyAndStates, values := newValues, size_ := t.size_ }

/-- `D1HashTable::Insert(key, value)`. `size_ * 3` is computed in `uint32_t`, the
argument of `Rehash` is `static_cast<uint32_t>(keyAndStates.size() * 2)`, and
`keyEnd - 1` is computed in `uint32_t`. When both loops find no slot the function
returns with `size_` incremented and nothing stored. A write outside a vector is
undefined behaviour: `none`. -/
def Insert (digest : K → Nat) (t : D1HashTable K V) (key : K) (value : V) :
    Option (D1HashTable K V) :=
  match (if t.size_ * 3 % 2 ^ 32 > t.keyAndStates.length * 2 then
      Rehash digest t (t.keyAndStates.length * 2 % 2 ^ 32) else some t) with
  | none => none
  | some t =>
    let hash := HashKey digest key
    let keyEnd := t.keyAndStates.length % 2 ^ 32
    let keyStart := hash &&& ((keyEnd + 2 ^ 32 - 1) % 2 ^ 32)
    match findSlot t.keyAndStates keyStart keyEnd with
    | none => some { t with size_ := (t.size_ + 1) % 2 ^ 32 }
    | some idx =>
      if idx < t.keyAndStates.length ∧ idx < t.values.length then
        some { keyAndStates := t.keyAndStates.set idx ⟨State.FILLED, key⟩,
               values := t.values.set idx value,
               size_ := (t.size_ + 1) % 2 ^ 32 }
      else none

/-- The `switch (ks.state)` body of `Lookup` and `Remove` run over the indices `ps` in
order. -/
def scanSlots (kss : List (KS K)) (key : K) : List Nat → Scan
  | [] => Scan.exhausted
  | idx :: rest =>
    match (ksAt kss idx).state with
    | State.EMPTY => Scan.empty
    | State.FILLED =>
      if (ksAt kss idx).key = key then Scan.found idx else scanSlots kss key rest
    | State.REMOVED => scanSlots kss key rest

/-- The two scanning loops of `Lookup` and `Remove`. -/
def scanTwo (kss : List (KS K)) (key : K) (keyStart keyEnd : Nat) : Scan :=
  match scanSlots kss key (List.range' keyStart (keyEnd - keyStart)) with
  | Scan.exhausted => scanSlots kss key (List.range keyStart)
  | r => r

/-- `D1HashTable::Lookup(key)`: `some none` for `nullptr`, `some (some v)` for a pointer
to the value `v`; `none` when `values[idx]` is outside the vector. -/
def Lookup (digest : K → Nat) (t : D1HashTable K V) (key : K) : Option (Option V) :=
  let hash := HashKey digest key
  let keyEnd := t.keyAndStates.length % 2 ^ 32
  let keyStart := hash &&& ((keyEnd + 2 ^ 32 - 1) % 2 ^ 32)
  match scanTwo t.keyAndStates key keyStart keyEnd with
  | Scan.found idx =>
    if idx < t.values.length then some (some (t.values.getD idx default)) else none
  | _ => some none

/-- `D1HashTable::Remove(key)`: `--size_` is computed in `uint32_t`. -/
def Remove (digest : K → Nat) (t : D1HashTable K V) (key : K) : D1HashTable K V × Bool :=
  let hash := HashKey digest key
  let keyEnd := t.keyAndStates.length % 2 ^ 32
  let keyStart := hash &&& ((keyEnd + 2 ^ 32 - 1) % 2 ^ 32)
  match scanTwo t.keyAndStates key keyStart keyEnd with
  | Scan.found idx =>
    ({ t with
       keyAndStates := t.keyAndStates.set idx ⟨State.REMOVED, (ksAt t.keyAndStates idx).key⟩,
       size_ := (t.size_ + 2 ^ 32 - 1) % 2 ^ 32 }, true)
  | _ => (t, false)

/-- `D1HashTable::Reserve(maxSize)`, for a `uint32_t` argument: `maxSize * 3 / 2` is
computed in `uint32_t`. -/
def Reserve (digest : K → Nat) (t : D1HashTable K V) (maxSize : Nat) :
    Option (D1HashTable K V) :=
  let maxSize := maxSize * 3 % 2 ^ 32 / 2
  Rehash digest t (smear maxSize)

/-- `D1HashTable::Reset()`: `keyAndStates.clear(); values.clear();
keyAndStates.resize(16); buckets.resize(16); size_ = 0;`. The class declares no member
`buckets`: the fourth statement resizes nothing that belongs to the table, and `values`,
which the constructor resizes to 16, stays empty. -/
def Reset (_t : D1HashTable K V) : D1HashTable K V :=
  { keyAndStates := List.replicate 16 default,
    values := [],
    size_ := 0 }

/-- A sequence of `Insert` / `Remove` calls on a table. -/
def run (digest : K → Nat) (t : D1HashTable K V) (ops : List (Op K V)) :
    Option (D1HashTable K V × List Bool) :=
  runOps (Insert digest) (fun t k => some (Remove digest t k)) t ops

end D1HashTable

/-! ### DO1HashTable and DO2HashTable: open addressing, data-oriented layouts

The two tables keep the stored hash and the state of a bucket in `buckets` and its key
and value in parallel arrays: `keyvals` (DO1), or `keys` and `values` (DO2). The
constructor, `Rehash` and `Reset` give all arrays of a table the same length and no
other function changes a length, so `keyvals[i]`, `keys[i]`, `values[i]` with
`i < buckets.size()` are in range; reads are `getD`, writes are `List.set`. -/

/-- `DO1HashTable::Bucket` and `DO2HashTable::Bucket`: stored hash and state. -/
structure DataOriented.Bucket where
  hash : Nat
  state : BSTATE
  deriving DecidableEq, Repr

namespace DataOriented

/-- A value-initialised bucket: hash 0, state `BSTATE_Empty`. -/
instance : Inhabited DataOriented.Bucket := ⟨⟨0, BSTATE.BSTATE_Empty⟩⟩

/-- `buckets[i]`. -/
def bucketAt (bs : List DataOriented.Bucket) (i : Nat) : DataOriented.Bucket :=
  bs.getD i default

/-- "Search for an unused bucket": the loop body `if (b->state != BSTATE_Filled)
{ bTarget = b; ...; break; }` run over the indices `ps` in order. -/
def searchUnused (bs : List DataOriented.Bucket) : List Nat → Option Nat
  | [] => none
  | i :: rest =>
    if (bucketAt bs i).state ≠ BSTATE.BSTATE_Filled then some i else searchUnused bs rest

/-- The two search loops of `Insert` and `Rehash`: `iBucketStart .. iEnd`, then
`0 .. iBucketStart` when the first found nothing. -/
def findTarget (bs : List DataOriented.Bucket) (iBucketStart iEnd : Nat) : Option Nat :=
  match searchUnused bs (List.range' iBucketStart (iEnd - iBucketStart)) with
  | some i => some i
  | none => searchUnused bs (List.range iBucketStart)

/-- "Search the buckets until we hit an empty one": the `switch (b->state)` body of
`Lookup` and `Remove` run over the indices `ps` in order; `keyAt i` is `keyvals[i].key`
(DO1) or `keys[i]` (DO2), read only at a Filled bucket whose stored hash matches. -/
def scanKey {K : Type} [DecidableEq K] (bs : List DataOriented.Bucket) (keyAt : Nat → K)
    (hash : Nat) (key : K) : List Nat → Scan
  | [] => Scan.exhausted
  | i :: rest =>
    match (bucketAt bs i).state with
    | BSTATE.BSTATE_Empty => Scan.empty
    | BSTATE.BSTATE_Filled =>
      if (bucketAt bs i).hash = hash ∧ keyAt i = key then Scan.found i
      else scanKey bs keyAt hash key rest
    | BSTATE.BSTATE_Removed => scanKey bs keyAt hash key rest

/-- The two scanning loops of `Lookup` and `Remove`: the second runs only when the
first reached its end. -/
def scanTwo {K : Type} [DecidableEq K] (bs : List DataOriented.Bucket) (keyAt : Nat → K)
    (hash : Nat) (key : K) (iBucketStart : Nat) : Scan :=
  match scanKey bs keyAt hash key (List.range' iBucketStart (bs.length - iBucketStart)) with
  | Scan.exhausted => scanKey bs keyAt hash key (List.range iBucketStart)
  | r => r

end DataOriented

/-- `DO1HashTable::KV`: key and value of a bucket. -/
structure DO1HashTable.KV (K V : Type) where
  key : K
  value : V
  deriving DecidableEq, Repr

/-- `DO1HashTable<K, V>`. -/
structure DO1HashTable (K V : Type) where
  buckets : List DataOriented.Bucket
  keyvals : List (DO1HashTable.KV K V)
  size : Nat
  deriving DecidableEq, Repr

namespace DO1HashTable

variable {K V : Type} [Inhabited K] [Inhabited V] [DecidableEq K]

/-- A value-initialised `KV`. -/
instance : Inhabited (KV K V) := ⟨⟨default, default⟩⟩

/-- `keyvals[i]`. -/
def kvAt (kvs : List (KV K V)) (i : Nat) : KV K V := kvs.getD i default

/-- `DO1HashTable::DO1HashTable()`. -/
def new : DO1HashTable K V :=
  { buckets := List.replicate s_hashTableInitialSize default,
    keyvals := List.replicate s_hashTableInitialSize default,
    size := 0 }

/-- The loop of `Rehash` over the old buckets `buckets[i]`, `i = 0 .. iEnd`; `keyvals` is
the old key/value array, read at `i`. -/
def rehashLoop (keyvals : List (KV K V)) (bucketCountNew : Nat) :
    Nat → List DataOriented.Bucket → List DataOriented.Bucket → List (KV K V) →
      Option (List DataOriented.Bucket × List (KV K V))
  | _, [], bucketsNew, keyvalsNew => some (bucketsNew, keyvalsNew)
  | i, b :: rest, bucketsNew, keyvalsNew =>
    if b.state ≠ BSTATE.BSTATE_Filled then
      rehashLoop keyvals bucketCountNew (i + 1) rest bucketsNew keyvalsNew
    else
      let hash := b.hash
      let iBucketStart := hash &&& (bucketCountNew - 1)
      match DataOriented.findTarget bucketsNew iBucketStart bucketCountNew with
      | none => none
      | some j =>
        let kv := kvAt keyvals i
        rehashLoop keyvals bucketCountNew (i + 1) rest
          (bucketsNew.set j ⟨hash, BSTATE.BSTATE_Filled⟩)
          (keyvalsNew.set j ⟨kv.key, kv.value⟩)

/-- `DO1HashTable::Rehash(bucketCountNew)`. -/
def Rehash (t : DO1HashTable K V) (bucketCountNew : Nat) : Option (DO1HashTable K V) :=
  let bucketCountNew := max (max bucketCountNew t.size) s_hashTableInitialSize
  match rehashLoop t.keyvals bucketCountNew 0 t.buckets
      (List.replicate bucketCountNew default) (List.replicate bucketCountNew default) with
  | none => none
  | some (bucketsNew, keyvalsNew) =>
    some { buckets := bucketsNew, keyvals := keyvalsNew, size := t.size }

/-- `DO1HashTable::Insert(key, value)`. -/
def Insert (digest : K → Nat) (t : DO1HashTable K V) (key : K) (value : V) :
    Option (DO1HashTable K V) :=
  match (if t.size * 3 > t.buckets.length * 2 then Rehash t (t.buckets.length * 2)
         else some t) with
  | none => none
  | some t =>
    let hash := HashKey digest key &&& s_62Bits
    let iBucketStart := hash &&& (t.buckets.length - 1)
    match DataOriented.findTarget t.buckets iBucketStart t.buckets.length with
    | none => none
    | some i =>
      some { buckets := t.buckets.set i ⟨hash, BSTATE.BSTATE_Filled⟩,
             keyvals := t.keyvals.set i ⟨key, value⟩,
             size := t.size + 1 }

/-- `DO1HashTable::Lookup(key)`: the value pointed to, `none` for `nullptr`. -/
def Lookup (digest : K → Nat) (t : DO1HashTable K V) (key : K) : Option V :=
  let hash := HashKey digest key &&& s_62Bits
  let iBucketStart := hash &&& (t.buckets.length - 1)
  match DataOriented.scanTwo t.buckets (fun i => (kvAt t.keyvals i).key) hash key
      iBucketStart with
  | Scan.found i => some (kvAt t.keyvals i).value
  | _ => none

/-- `DO1HashTable::Remove(key)`. -/
def Remove (digest : K → Nat) (t : DO1HashTable K V) (key : K) : DO1HashTable K V × Bool :=
  let hash := HashKey digest key &&& s_62Bits
  let iBucketStart := hash &&& (t.buckets.length - 1)
  match DataOriented.scanTwo t.buckets (fun i => (kvAt t.keyvals i).key) hash key
      iBucketStart with
  | Scan.found i =>
    ({ t with buckets := t.buckets.set i ⟨0, BSTATE.BSTATE_Removed⟩, size := t.size - 1 },
      true)
  | _ => (t, false)

/-- `DO1HashTable::Reserve(maxSize)`. -/
def Reserve (t : DO1HashTable K V) (maxSize : Nat) : Option (DO1HashTable K V) :=
  let maxSize := maxSize * 3 % 2 ^ 64 / 2
  Rehash t (smear maxSize)

/-- `DO1HashTable::Reset()`. -/
def Reset (_t : DO1HashTable K V) : DO1HashTable K V :=
  { buckets := List.replicate s_hashTableInitialSize default,
    keyvals := List.replicate s_hashTableInitialSize default,
    size := 0 }

/-- A sequence of calls on a table; `none` when an `assert(bTarget)` fails. -/
def runCalls (digest : K → Nat) :
    DO1HashTable K V → List (Call K V) → Option (DO1HashTable K V)
  | t, [] => some t
  | t, Call.insert k v :: rest =>
    match Insert digest t k v with
    | none => none
    | some t1 => runCalls digest t1 rest
  | t, Call.remove k :: rest => runCalls digest (Remove digest t k).1 rest
  | t, Call.reserve n :: rest =>
    match Reserve t n with
    | none => none
    | some t1 => runCalls digest t1 rest
  | t, Call.rehash n :: rest =>
    match Rehash t n with
    | none => none
    | some t1 => runCalls digest t1 rest
  | t, Call.reset :: rest => runCalls digest (Reset t) rest

end DO1HashTable

/-- `DO2HashTable<K, V>`. -/
structure DO2HashTable (K V : Type) where
  buckets : List DataOriented.Bucket
  keys : List K
  values : List V
  size : Nat
  deriving DecidableEq, Repr

namespace DO2HashTable

variable {K V : Type} [Inhabited K] [Inhabited V] [DecidableEq K]

/-- `keys[i]`. -/
def keyAt (keys : List K) (i : Nat) : K := keys.getD i default

/-- `values[i]`. -/
def valAt (values : List V) (i : Nat) : V := values.getD i default

/-- `DO2HashTable::DO2HashTable()`. -/
def new : DO2HashTable K V :=
  { buckets := List.replicate s_hashTableInitialSize default,
    keys := List.replicate s_hashTableInitialSize default,
    values := List.replicate s_hashTableInitialSize default,
    size := 0 }

/-- The loop of `Rehash` over the old buckets `buckets[i]`, `i = 0 .. iEnd`; `keys` and
`values` are the old arrays, read at `i`. -/
def rehashLoop (keys : List K) (values : List V) (bucketCountNew : Nat) :
    Nat → List DataOriented.Bucket → List DataOriented.Bucket → List K → List V →
      Option (List DataOriented.Bucket × List K × List V)
  | _, [], bucketsNew, keysNew, valuesNew => some (bucketsNew, keysNew, valuesNew)
  | i, b :: rest, bucketsNew, keysNew, valuesNew =>
    if b.state ≠ BSTATE.BSTATE_Filled then
      rehashLoop keys values bucketCountNew (i + 1) rest bucketsNew keysNew valuesNew
    else
      let hash := b.hash
      let iBucketStart := hash &&& (bucketCountNew - 1)
      match DataOriented.findTarget bucketsNew iBucketStart bucketCountNew with
      | none => none
      | some iBucketTarget =>
        rehashLoop keys values bucketCountNew (i + 1) rest
          (bucketsNew.set iBucketTarget ⟨hash, BSTATE.BSTATE_Filled⟩)
          (keysNew.set iBucketTarget (keyAt keys i))
          (valuesNew.set iBucketTarget (valAt values i))

/-- `DO2HashTable::Rehash(bucketCountNew)`. -/
def Rehash (t : DO2HashTable K V) (bucketCountNew : Nat) : Option (DO2HashTable K V) :=
  let bucketCountNew := max (max bucketCountNew t.size) s_hashTableInitialSize
  match rehashLoop t.keys t.values bucketCountNew 0 t.buckets
      (List.replicate bucketCountNew default) (List.replicate bucketCountNew default)
      (List.replicate bucketCountNew default) with
  | none => none
  | some (bucketsNew, keysNew, valuesNew) =>
    some { buckets := bucketsNew, keys := keysNew, values := valuesNew, size := t.size }

/-- `DO2HashTable::Insert(key, value)`. -/
def Insert (digest : K → Nat) (t : DO2HashTable K V) (key : K) (value : V) :
    Option (DO2HashTable K V) :=
  match (if t.size * 3 > t.buckets.length * 2 then Rehash t (t.buckets.length * 2)
         else some t) with
  | none => none
  | some t =>
    let hash := HashKey digest key &&& s_62Bits
    let iBucketStart := hash &&& (t.buckets.length - 1)
    match DataOriented.findTarget t.buckets iBucketStart t.buckets.length with
    | none => none
    | some iBucketTarget =>
      some { buckets := t.buckets.set iBucketTarget ⟨hash, BSTATE.BSTATE_Filled⟩,
             keys := t.keys.set iBucketTarget key,
             values := t.values.set iBucketTarget value,
             size := t.size + 1 }

/-- `DO2HashTable::Lookup(key)`: the value pointed to, `none` for `nullptr`. -/
def Lookup (digest : K → Nat) (t : DO2HashTable K V) (key : K) : Option V :=
  let hash := HashKey digest key &&& s_62Bits
  let iBucketStart := hash &&& (t.buckets.length - 1)
  match DataOriented.scanTwo t.buckets (keyAt t.keys) hash key iBucketStart with
  | Scan.found i => some (valAt t.values i)
  | _ => none

/-- `DO2HashTable::Remove(key)`. -/
def Remove (digest : K → Nat) (t : DO2HashTable K V) (key : K) : DO2HashTable K V × Bool :=
  let hash := HashKey digest key &&& s_62Bits
  let iBucketStart := hash &&& (t.buckets.length - 1)
  match DataOriented.scanTwo t.buckets (keyAt t.keys) hash key iBucketStart with
  | Scan.found i =>
    ({ t with buckets := t.buckets.set i ⟨0, BSTATE.BSTATE_Removed⟩, size := t.size - 1 },
      true)
  | _ => (t, false)

/-- `DO2HashTable::Reserve(maxSize)`. -/
def Reserve (t : DO2HashTable K V) (maxSize : Nat) : Option (DO2HashTable K V) :=
  let maxSize := maxSize * 3 % 2 ^ 64 / 2
  Rehash t (smear maxSize)

/-- `DO2HashTable::Reset()`. -/
def Reset (_t : DO2HashTable K V) : DO2HashTable K V :=
  { buckets := List.replicate s_hashTableInitialSize default,
    keys := List.replicate s_hashTableInitialSize default,
    values := List.replicate s_hashTableInitialSize default,
    size := 0 }

/-- A sequence of calls on a table; `none` when an `assert(bTarget)` fails. -/
def runCalls (digest : K → Nat) :
    DO2HashTable K V → List (Call K V) → Option (DO2HashTable K V)
  | t, [] => some t
  | t, Call.insert k v :: rest =>
    match Insert digest t k v with
    | none => none
    | some t1 => runCalls digest t1 rest
  | t, Call.remove k :: rest => runCalls digest (Remove digest t k).1 rest
  | t, Call.reserve n :: rest =>
    match Reserve t n with
    | none => none
    | some t1 => runCalls digest t1 rest
  | t, Call.rehash n :: rest =>
    match Rehash t n with
    | none => none
    | some t1 => runCalls digest t1 rest
  | t, Call.reset :: rest => runCalls digest (Reset t) rest

end DO2HashTable

/-! ## Part II. Sequences of calls -/

section RunOps

variable {K V T : Type} [DecidableEq K]

/-- An engine whose `Insert` and `Remove` act on an abstract view like the updates of
a finite map follows the finite map along every duplicate-free sequence of calls. -/
theorem runOps_sim (P : T → Prop) (view : T → K → Option V)
    (ins : T → K → V → Option T) (rem : T → K → Option (T × Bool))
    (hins : ∀ t k v, P t → view t k = none →
      ∃ t1, ins t k v = some t1 ∧ P t1 ∧ ∀ x, view t1 x = if x = k then some v else view t x)
    (hrem : ∀ t k, P t →
      ∃ t1, rem t k = some (t1, (view t k).isSome) ∧ P t1 ∧
        ∀ x, view t1 x = if x = k then none else view t x) :
    ∀ (ops : List (Op K V)) (t : T) (m : K → Option V), P t → (∀ x, view t x = m x) →
      Model.dupFree m ops = true →
      ∃ t1, runOps ins rem t ops = some (t1, Model.removes m ops) ∧ P t1 ∧
        ∀ x, view t1 x = Model.run m ops x := by
  intro ops
  induction ops with
  | nil =>
    intro t m hP hv _
    exact ⟨t, rfl, hP, hv⟩
  | cons op rest ih =>
    intro t m hP hv hd
    cases op with
    | insert k v =>
      simp only [Model.dupFree, Bool.and_eq_true, Option.isNone_iff_eq_none] at hd
      obtain ⟨t1, h1, hP1, hv1⟩ := hins t k v hP (by rw [hv]; exact hd.1)
      obtain ⟨t2, h2, hP2, hv2⟩ := ih t1 (Model.step m (Op.insert k v)) hP1
        (by intro x; rw [hv1, hv]; rfl) hd.2
      exact ⟨t2, by simp only [runOps, h1, Model.removes]; exact h2, hP2, hv2⟩
    | remove k =>
      simp only [Model.dupFree] at hd
      obtain ⟨t1, h1, hP1, hv1⟩ := hrem t k hP
      obtain ⟨t2, h2, hP2, hv2⟩ := ih t1 (Model.step m (Op.remove k)) hP1
        (by intro x; rw [hv1, hv]; rfl) hd
      exact ⟨t2, by simp only [runOps, h1, h2, Model.removes, hv], hP2, hv2⟩

/-- The same with a count of the live entries: `P n t` says that the table `t` is well
formed and holds `n` entries, and `Insert` need only work while the count stays within
`cap`. -/
theorem runOps_sim_cap (cap : Nat) (P : Nat → T → Prop) (view : T → K → Option V)
    (ins : T → K → V → Option T) (rem : T → K → Option (T × Bool))
    (hins : ∀ t k v n, P n t → view t k = none → n + 1 ≤ cap →
      ∃ t1, ins t k v = some t1 ∧ P (n + 1) t1 ∧
        ∀ x, view t1 x = if x = k then some v else view t x)
    (hrem : ∀ t k n, P n t →
      ∃ t1, rem t k = some (t1, (view t k).isSome) ∧
        P (if (view t k).isSome then n - 1 else n) t1 ∧
        ∀ x, view t1 x = if x = k then none else view t x) :
    ∀ (ops : List (Op K V)) (t : T) (m : K → Option V) (n : Nat), P n t →
      (∀ x, view t x = m x) → Model.dupFree m ops = true → Model.fits cap m n ops = true →
      ∃ t1 n1, runOps ins rem t ops = some (t1, Model.removes m ops) ∧ P n1 t1 ∧
        ∀ x, view t1 x = Model.run m ops x := by
  intro ops
  induction ops with
  | nil =>
    intro t m n hP hv _ _
    exact ⟨t, n, rfl, hP, hv⟩
  | cons op rest ih =>
    intro t m n hP hv hd hf
    cases op with
    | insert k v =>
      simp only [Model.dupFree, Bool.and_eq_true, Option.isNone_iff_eq_none] at hd
      simp only [Model.fits, Bool.and_eq_true, decide_eq_true_eq] at hf
      obtain ⟨t1, h1, hP1, hv1⟩ := hins t k v n hP (by rw [hv]; exact hd.1) hf.1
      obtain ⟨t2, n2, h2, hP2, hv2⟩ := ih t1 (Model.step m (Op.insert k v)) (n + 1) hP1
        (by intro x; rw [hv1, hv]; rfl) hd.2 hf.2
      exact ⟨t2, n2, by simp only [runOps, h1, Model.removes]; exact h2, hP2, hv2⟩
    | remove k =>
      simp only [Model.dupFree] at hd
      simp only [Model.fits] at hf
      obtain ⟨t1, h1, hP1, hv1⟩ := hrem t k n hP
      rw [hv k] at h1 hP1
      obtain ⟨t2, n2, h2, hP2, hv2⟩ := ih t1 (Model.step m (Op.remove k)) _ hP1
        (by intro x; rw [hv1, hv]; rfl) hd hf
      exact ⟨t2, n2, by simp only [runOps, h1, h2, Model.removes], hP2, hv2⟩

/-- A property kept by every successful `Insert` and `Remove` holds in every state
reached by a sequence of calls. -/
theorem runOps_inv (P : T → Prop) (ins : T → K → V → Option T)
    (rem : T → K → Option (T × Bool))
    (hins : ∀ t k v t1, P t → ins t k v = some t1 → P t1)
    (hrem : ∀ t k t1 r, P t → rem t k = some (t1, r) → P t1) :
    ∀ (ops : List (Op K V)) (t t1 : T) (rs : List Bool), P t →
      runOps ins rem t ops = some (t1, rs) → P t1 := by
  intro ops
  induction ops with
  | nil =>
    intro t t1 rs hP h
    simp only [runOps, Option.some.injEq, Prod.mk.injEq] at h
    exact h.1 ▸ hP
  | cons op rest ih =>
    intro t t1 rs hP h
    cases op with
    | insert k v =>
      simp only [runOps] at h
      split at h
      · cases h
      · rename_i t2 h2
        exact ih t2 t1 rs (hins t k v t2 hP h2) h
    | remove k =>
      simp only [runOps] at h
      split at h
      · cases h
      · rename_i t2 r h2
        split at h
        · cases h
        · rename_i t3 rs3 h3
          simp only [Option.some.injEq, Prod.mk.injEq] at h
          exact h.1 ▸ ih t2 t3 rs3 (hrem t k t2 r hP h2) h3

/-- A sequence of `Insert` calls that is not about `k` leaves `k` as it was. -/
theorem model_run_inserts_other (m : K → Option V) (kvs : List (K × V)) (k : K)
    (hk : k ∉ kvs.map Prod.fst) :
    Model.run m (kvs.map (fun p => Op.insert p.1 p.2)) k = m k := by
  induction kvs generalizing m with
  | nil => rfl
  | cons p rest ih =>
    simp only [List.map_cons, List.mem_cons, not_or] at hk
    simp only [List.map_cons, Model.run]
    rw [ih _ hk.2]
    simp [Model.step, hk.1]

theorem model_run_inserts (m : K → Option V) (kvs : List (K × V))
    (hnd : (kvs.map Prod.fst).Nodup) (p : K × V) (hp : p ∈ kvs) :
    Model.run m (kvs.map (fun p => Op.insert p.1 p.2)) p.1 = some p.2 := by
  induction kvs generalizing m with
  | nil => simp at hp
  | cons q rest ih =>
    simp only [List.map_cons, List.nodup_cons] at hnd
    simp only [List.map_cons, Model.run]
    rcases List.mem_cons.mp hp with rfl | hp
    · rw [model_run_inserts_other _ _ _ hnd.1]
      simp [Model.step]
    · exact ih _ hnd.2 hp

theorem model_dupFree_inserts (m : K → Option V) (kvs : List (K × V))
    (hnd : (kvs.map Prod.fst).Nodup) (hm : ∀ k ∈ kvs.map Prod.fst, m k = none) :
    Model.dupFree m (kvs.map (fun p => Op.insert p.1 p.2)) = true := by
  induction kvs generalizing m with
  | nil => rfl
  | cons q rest ih =>
    simp only [List.map_cons, List.nodup_cons] at hnd
    simp only [List.map_cons, Model.dupFree, Bool.and_eq_true, Option.isNone_iff_eq_none]
    refine ⟨hm _ (by simp), ih _ hnd.2 ?_⟩
    intro k hk
    have hne : k ≠ q.1 := fun e => hnd.1 (e ▸ hk)
    simp only [Model.step, hne, if_false]
    exact hm k (by simp only [List.map_cons, List.mem_cons]; exact Or.inr hk)

theorem model_removes_inserts (m : K → Option V) (kvs : List (K × V)) :
    Model.removes m (kvs.map (fun p => Op.insert p.1 p.2)) = [] := by
  induction kvs generalizing m with
  | nil => rfl
  | cons q rest ih =>
    simp only [List.map_cons, Model.removes]
    exact ih _

end RunOps

/-! ### The bit smearing of `Reserve` -/

theorem le_lor_left (n m : Nat) : n ≤ n ||| m :=
  Nat.le_of_testBit (by
    intro i h
    rw [Nat.testBit_or, h]
    rfl)

theorem exists_of_isPow2 (n : Nat) (h : isPow2 n = true) : ∃ j, n = 2 ^ j := by
  unfold isPow2 at h
  rw [List.any_eq_true] at h
  obtain ⟨j, _, hj⟩ := h
  exact ⟨j, by simpa using hj⟩

/-- The bit smearing never lowers its argument. -/
theorem le_smear (m : Nat) : m ≤ smear m := by
  unfold smear
  simp only
  exact Nat.le_trans (le_lor_left m _) (Nat.le_trans (le_lor_left _ _)
    (Nat.le_trans (le_lor_left _ _) (Nat.le_trans (le_lor_left _ _) (le_lor_left _ _))))

/-- One step `m |= m >> w` doubles the window of bits of `n` that a bit of `m`
collects. -/
theorem smear_step (n m w : Nat)
    (h : ∀ i, m.testBit i = true ↔ ∃ j, j < w ∧ n.testBit (i + j) = true) :
    ∀ i, (m ||| (m >>> w)).testBit i = true ↔ ∃ j, j < 2 * w ∧ n.testBit (i + j) = true := by
  intro i
  rw [Nat.testBit_or, Nat.testBit_shiftRight, Bool.or_eq_true, h, h]
  constructor
  · rintro (⟨j, hj, hb⟩ | ⟨j, hj, hb⟩)
    · exact ⟨j, by omega, hb⟩
    · exact ⟨w + j, by omega, by rw [← hb]; congr 1; omega⟩
  · rintro ⟨j, hj, hb⟩
    by_cases hjw : j < w
    · exact Or.inl ⟨j, hjw, hb⟩
    · exact Or.inr ⟨j - w, by omega, by rw [← hb]; congr 1; omega⟩

/-- Bit `i` of the smeared number is set exactly when one of the bits `i, ..., i + 31`
of the argument is. -/
theorem testBit_smear (n i : Nat) :
    (smear n).testBit i = true ↔ ∃ j, j < 32 ∧ n.testBit (i + j) = true := by
  have h0 : ∀ i, n.testBit i = true ↔ ∃ j, j < 1 ∧ n.testBit (i + j) = true := by
    intro i
    constructor
    · exact fun h => ⟨0, by omega, h⟩
    · rintro ⟨j, hj, hb⟩
      have : j = 0 := by omega
      subst this
      exact hb
  have h1 := smear_step n _ 1 h0
  have h2 := smear_step n _ 2 h1
  have h4 := smear_step n _ 4 h2
  have h8 := smear_step n _ 8 h4
  have h16 := smear_step n _ 16 h8
  exact h16 i

/-- The smeared value of a number of `b` bits, `b ≤ 32`, is `2 ^ b - 1`. -/
theorem smear_eq (n b : Nat) (hb : b ≤ 32) (htop : n.testBit (b - 1) = true) (hb1 : 1 ≤ b)
    (hhigh : ∀ j, b ≤ j → n.testBit j = false) : smear n = 2 ^ b - 1 := by
  apply Nat.eq_of_testBit_eq
  intro i
  rw [Nat.testBit_two_pow_sub_one]
  by_cases hi : i < b
  · rw [decide_eq_true hi]
    rw [testBit_smear]
    exact ⟨b - 1 - i, by omega, by rw [← htop]; congr 1; omega⟩
  · rw [decide_eq_false hi]
    cases hs : (smear n).testBit i with
    | false => rfl
    | true =>
      obtain ⟨j, _, hj⟩ := (testBit_smear n i).mp hs
      rw [hhigh (i + j) (by omega)] at hj
      cases hj

/-- The bit smearing of a 32-bit number `n ≥ 1` of bit length `b`. -/
theorem smear_spec (n : Nat) (h1 : 1 ≤ n) (h32 : n < 2 ^ 32) :
    ∃ b, 1 ≤ b ∧ b ≤ 32 ∧ 2 ^ (b - 1) ≤ n ∧ n < 2 ^ b ∧ smear n = 2 ^ b - 1 := by
  obtain ⟨i, hi, hhigh⟩ := Nat.exists_most_significant_bit (n := n) (by omega)
  have hge : 2 ^ i ≤ n := Nat.testBit_implies_ge hi
  have hlt : n < 2 ^ (i + 1) := Nat.lt_pow_two_of_testBit n (fun j hj => hhigh j (by omega))
  have hi32 : i + 1 ≤ 32 := by
    by_contra hc
    have : 2 ^ 32 ≤ 2 ^ i := Nat.pow_le_pow_right (by decide) (by omega)
    omega
  exact ⟨i + 1, by omega, hi32, by simpa using hge, hlt,
    smear_eq n (i + 1) hi32 (by simpa using hi) (by omega) (fun j hj => hhigh j (by omega))⟩

/-- The number `2 ^ b - 1` is a power of two only for `b = 1`. -/
theorem pow_sub_one_pow (b j : Nat) (hb : 2 ≤ b) : 2 ^ b - 1 ≠ 2 ^ j := by
  have h1 : 2 ^ b = 4 * 2 ^ (b - 2) := by
    rw [show (4 : Nat) = 2 ^ 2 from rfl, ← pow_add]; congr 1; omega
  have hp : 0 < 2 ^ (b - 2) := Nat.two_pow_pos _
  cases j with
  | zero => simp only [pow_zero]; omega
  | succ j =>
    have h2 : 2 ^ (j + 1) = 2 * 2 ^ j := by rw [pow_succ]; ring
    omega

/-! ## Part III. Open addressing: the probe-order theory shared by the engines -/

namespace OpenAddr

variable {K V : Type} [Inhabited K] [Inhabited V] [DecidableEq K]

theorem bucketAt_eq_getElem (bs : List (Bucket K V)) (i : Nat) (h : i < bs.length) :
    bucketAt bs i = bs[i] := by
  simp [bucketAt, List.getD_eq_getElem?_getD, List.getElem?_eq_getElem h]

theorem bucketAt_mem (bs : List (Bucket K V)) (i : Nat) (h : i < bs.length) :
    bucketAt bs i ∈ bs := by
  rw [bucketAt_eq_getElem bs i h]; exact List.getElem_mem h

theorem bucketAt_of_ge (bs : List (Bucket K V)) (i : Nat) (h : bs.length ≤ i) :
    bucketAt bs i = default := by
  simp [bucketAt, List.getD_eq_getElem?_getD, List.getElem?_eq_none h]

theorem bucketAt_set (bs : List (Bucket K V)) (t i : Nat) (x : Bucket K V)
    (ht : t < bs.length) :
    bucketAt (bs.set t x) i = if i = t then x else bucketAt bs i := by
  unfold bucketAt
  by_cases h : i = t
  · subst h; simp [List.getD_eq_getElem?_getD, List.getElem?_set_self ht]
  · have h2 : t ≠ i := fun e => h e.symm
    simp [List.getD_eq_getElem?_getD, List.getElem?_set_ne h2, h]

theorem bucketAt_replicate (n i : Nat) :
    (bucketAt (List.replicate n (default : Bucket K V)) i).state = BSTATE.BSTATE_Empty := by
  by_cases h : i < n
  · rw [bucketAt_eq_getElem _ _ (by simpa using h)]; simp; rfl
  · rw [bucketAt_of_ge _ _ (by simpa using h)]; rfl

theorem state_lt_of_ne_empty (bs : List (Bucket K V)) (i : Nat)
    (h : (bucketAt bs i).state ≠ BSTATE.BSTATE_Empty) : i < bs.length := by
  by_contra hc
  exact h (by rw [bucketAt_of_ge bs i (by omega)]; rfl)

/-! ### The search for an unused bucket -/

theorem searchUnused_append (bs : List (Bucket K V)) (a b : List Nat) :
    searchUnused bs (a ++ b) =
      match searchUnused bs a with
      | some i => some i
      | none => searchUnused bs b := by
  induction a with
  | nil => simp [searchUnused]
  | cons x a ih =>
    simp only [List.cons_append, searchUnused]
    split <;> simp_all

theorem searchUnused_some (bs : List (Bucket K V)) (ps : List Nat) (i : Nat)
    (h : searchUnused bs ps = some i) :
    ∃ pre post, ps = pre ++ i :: post ∧
      (∀ x ∈ pre, (bucketAt bs x).state = BSTATE.BSTATE_Filled) ∧
      (bucketAt bs i).state ≠ BSTATE.BSTATE_Filled := by
  induction ps with
  | nil => simp [searchUnused] at h
  | cons x ps ih =>
    simp only [searchUnused] at h
    split at h
    · rename_i hx
      cases h
      exact ⟨[], ps, rfl, by simp, hx⟩
    · rename_i hx
      obtain ⟨pre, post, e, hpre, hi⟩ := ih h
      refine ⟨x :: pre, post, by simp [e], ?_, hi⟩
      intro y hy
      rcases List.mem_cons.mp hy with rfl | hy
      · exact not_not.mp hx
      · exact hpre y hy

theorem searchUnused_none (bs : List (Bucket K V)) (ps : List Nat)
    (h : searchUnused bs ps = none) :
    ∀ x ∈ ps, (bucketAt bs x).state = BSTATE.BSTATE_Filled := by
  induction ps with
  | nil => simp
  | cons x ps ih =>
    simp only [searchUnused] at h
    split at h
    · cases h
    · rename_i hx
      intro y hy
      rcases List.mem_cons.mp hy with rfl | hy
      · exact not_not.mp hx
      · exact ih h y hy

/-! ### The scan for a key -/

theorem scanKey_append (bs : List (Bucket K V)) (hash : Nat) (key : K) (a b : List Nat) :
    scanKey bs hash key (a ++ b) =
      match scanKey bs hash key a with
      | Scan.exhausted => scanKey bs hash key b
      | r => r := by
  induction a with
  | nil => simp [scanKey]
  | cons x a ih =>
    simp only [List.cons_append, scanKey]
    split
    · rfl
    · split
      · rfl
      · exact ih
    · exact ih

theorem scanKey_found (bs : List (Bucket K V)) (hash : Nat) (key : K) (ps : List Nat)
    (i : Nat) (h : scanKey bs hash key ps = Scan.found i) :
    i ∈ ps ∧ (bucketAt bs i).state = BSTATE.BSTATE_Filled ∧
      (bucketAt bs i).hash = hash ∧ (bucketAt bs i).key = key := by
  induction ps with
  | nil => simp [scanKey] at h
  | cons x ps ih =>
    simp only [scanKey] at h
    split at h
    · cases h
    · rename_i hst
      split at h
      · rename_i hm
        cases h
        exact ⟨List.mem_cons_self _ _, hst, hm.1, hm.2⟩
      · obtain ⟨h1, h2⟩ := ih h
        exact ⟨List.mem_cons_of_mem _ h1, h2⟩
    · obtain ⟨h1, h2⟩ := ih h
      exact ⟨List.mem_cons_of_mem _ h1, h2⟩

theorem scanKey_reaches (bs : List (Bucket K V)) (hash : Nat) (key : K)
    (pre post : List Nat) (j : Nat)
    (hpre : ∀ i ∈ pre, (bucketAt bs i).state ≠ BSTATE.BSTATE_Empty)
    (hj : (bucketAt bs j).state = BSTATE.BSTATE_Filled)
    (hh : (bucketAt bs j).hash = hash) (hk : (bucketAt bs j).key = key) :
    ∃ i, scanKey bs hash key (pre ++ j :: post) = Scan.found i := by
  induction pre with
  | nil =>
    refine ⟨j, ?_⟩
    simp [scanKey, hj, hh, hk]
  | cons x pre ih =>
    have hx := hpre x (List.mem_cons_self _ _)
    obtain ⟨i, hi⟩ := ih (fun y hy => hpre y (List.mem_cons_of_mem _ hy))
    simp only [List.cons_append, scanKey]
    split
    · rename_i hst; exact absurd hst hx
    · split
      · exact ⟨x, rfl⟩
      · exact ⟨i, hi⟩
    · exact ⟨i, hi⟩

/-! ### Counting Filled buckets -/

/-- Number of buckets in state `BSTATE_Filled`. -/
def filledCount (bs : List (Bucket K V)) : Nat :=
  bs.countP (fun b => decide (b.state = BSTATE.BSTATE_Filled))

theorem countP_set_add {α : Type} (p : α → Bool) (l : List α) (i : Nat) (x : α)
    (h : i < l.length) :
    (l.set i x).countP p + (if p l[i] then 1 else 0) =
      l.countP p + (if p x then 1 else 0) := by
  induction l generalizing i with
  | nil => simp at h
  | cons a l ih =>
    cases i with
    | zero =>
      simp only [List.set_cons_zero, List.countP_cons, List.getElem_cons_zero]
      omega
    | succ i =>
      have h2 : i < l.length := by simpa using h
      have := ih i h2
      simp only [List.set_cons_succ, List.countP_cons, List.getElem_cons_succ]
      omega

theorem filledCount_set_fill (bs : List (Bucket K V)) (i : Nat) (x : Bucket K V)
    (hi : i < bs.length) (hold : (bucketAt bs i).state ≠ BSTATE.BSTATE_Filled)
    (hx : x.state = BSTATE.BSTATE_Filled) :
    filledCount (bs.set i x) = filledCount bs + 1 := by
  have h := countP_set_add (fun b : Bucket K V => decide (b.state = BSTATE.BSTATE_Filled))
    bs i x hi
  rw [bucketAt_eq_getElem bs i hi] at hold
  simp [hx, hold] at h
  unfold filledCount
  omega

theorem filledCount_set_unfill (bs : List (Bucket K V)) (i : Nat) (x : Bucket K V)
    (hi : i < bs.length) (hold : (bucketAt bs i).state = BSTATE.BSTATE_Filled)
    (hx : x.state ≠ BSTATE.BSTATE_Filled) :
    filledCount (bs.set i x) + 1 = filledCount bs := by
  have h := countP_set_add (fun b : Bucket K V => decide (b.state = BSTATE.BSTATE_Filled))
    bs i x hi
  rw [bucketAt_eq_getElem bs i hi] at hold
  simp [hx, hold] at h
  unfold filledCount
  omega

theorem filledCount_le (bs : List (Bucket K V)) : filledCount bs ≤ bs.length :=
  List.countP_le_length _

theorem filledCount_replicate (n : Nat) :
    filledCount (List.replicate n (default : Bucket K V)) = 0 := by
  unfold filledCount
  rw [List.countP_eq_zero]
  intro a ha
  rw [List.mem_replicate] at ha
  rw [ha.2]
  simp [default]

theorem exists_unfilled (bs : List (Bucket K V)) (h : filledCount bs < bs.length) :
    ∃ j, j < bs.length ∧ (bucketAt bs j).state ≠ BSTATE.BSTATE_Filled := by
  by_contra hc
  have hall : ∀ a ∈ bs, decide (a.state = BSTATE.BSTATE_Filled) = true := by
    intro a ha
    obtain ⟨j, hj, rfl⟩ := List.getElem_of_mem ha
    by_contra hn
    apply hc
    refine ⟨j, hj, ?_⟩
    rw [bucketAt_eq_getElem bs j hj]
    simpa using hn
  have := (List.countP_eq_length (p := fun b : Bucket K V =>
    decide (b.state = BSTATE.BSTATE_Filled))).mpr hall
  unfold filledCount at h
  omega

/-! ### The invariant of an open-addressing bucket array -/

/-- The probe order `probes n s` of a table of `n` buckets started at `s` stays in
range and reaches every bucket. -/
def Covers (probes : Nat → Nat → List Nat) (n : Nat) : Prop :=
  ∀ s, s < n → (∀ i ∈ probes n s, i < n) ∧ ∀ j, j < n → j ∈ probes n s

/-- The pair `(k, v)` is held by a Filled bucket. -/
def Live (bs : List (Bucket K V)) (k : K) (v : V) : Prop :=
  ∃ j, (bucketAt bs j).state = BSTATE.BSTATE_Filled ∧ (bucketAt bs j).key = k ∧
    (bucketAt bs j).value = v

/-- Well-formedness of a bucket array holding at most one entry per key:
stored hashes are the hashes of the keys, keys of Filled buckets are distinct, and
no Empty bucket lies on the probe path of a Filled bucket before it. -/
structure Inv (hashOf : K → Nat) (probes : Nat → Nat → List Nat)
    (bs : List (Bucket K V)) : Prop where
  pos : 0 < bs.length
  covers : Covers probes bs.length
  hash_ok : ∀ j, (bucketAt bs j).state = BSTATE.BSTATE_Filled →
    (bucketAt bs j).hash = hashOf (bucketAt bs j).key
  uniq : ∀ i j, (bucketAt bs i).state = BSTATE.BSTATE_Filled →
    (bucketAt bs j).state = BSTATE.BSTATE_Filled →
    (bucketAt bs i).key = (bucketAt bs j).key → i = j
  path : ∀ j, (bucketAt bs j).state = BSTATE.BSTATE_Filled →
    ∃ pre post, probes bs.length ((bucketAt bs j).hash &&& (bs.length - 1)) =
        pre ++ j :: post ∧
      ∀ i ∈ pre, (bucketAt bs i).state ≠ BSTATE.BSTATE_Empty

/-- `Lookup` over an arbitrary probe order. -/
def lookupG (probes : Nat → Nat → List Nat) (bs : List (Bucket K V)) (hash : Nat)
    (key : K) : Option V :=
  match scanKey bs hash key (probes bs.length (hash &&& (bs.length - 1))) with
  | Scan.found i => some (bucketAt bs i).value
  | _ => none

theorem start_lt (h n : Nat) (hn : 0 < n) : h &&& (n - 1) < n := by
  have := Nat.and_le_right (n := h) (m := n - 1)
  omega

theorem filled_lt (bs : List (Bucket K V)) (j : Nat)
    (h : (bucketAt bs j).state = BSTATE.BSTATE_Filled) : j < bs.length :=
  state_lt_of_ne_empty bs j (by rw [h]; decide)

theorem lookupG_eq_some_iff {hashOf : K → Nat} {probes : Nat → Nat → List Nat}
    {bs : List (Bucket K V)} (h : Inv hashOf probes bs) (k : K) (v : V) :
    lookupG probes bs (hashOf k) k = some v ↔ Live bs k v := by
  constructor
  · intro hl
    unfold lookupG at hl
    split at hl
    · rename_i i hs
      obtain ⟨_, hst, _, hkey⟩ := scanKey_found _ _ _ _ _ hs
      exact ⟨i, hst, hkey, by simpa using hl⟩
    · cases hl
  · rintro ⟨j, hst, hkey, hval⟩
    obtain ⟨pre, post, hp, hpre⟩ := h.path j hst
    have hh := h.hash_ok j hst
    rw [hkey] at hh
    rw [hh] at hp
    obtain ⟨i, hi⟩ := scanKey_reaches bs (hashOf k) k pre post j hpre hst hh hkey
    obtain ⟨_, hst2, _, hkey2⟩ := scanKey_found _ _ _ _ _ (hp ▸ hi)
    have hij : i = j := h.uniq i j hst2 hst (by rw [hkey2, hkey])
    unfold lookupG
    rw [hp, hi, hij]
    simp [hval]

theorem lookupG_eq_none_iff {hashOf : K → Nat} {probes : Nat → Nat → List Nat}
    {bs : List (Bucket K V)} (h : Inv hashOf probes bs) (k : K) :
    lookupG probes bs (hashOf k) k = none ↔ ∀ v, ¬ Live bs k v := by
  constructor
  · intro hn v hv
    rw [(lookupG_eq_some_iff h k v).mpr hv] at hn
    cases hn
  · intro hn
    cases hl : lookupG probes bs (hashOf k) k with
    | none => rfl
    | some v => exact absurd ((lookupG_eq_some_iff h k v).mp hl) (hn v)

/-- Placing a new key: the search finds a bucket, and writing the entry there keeps
the invariant and adds exactly the pair `(k, v)`. -/
theorem place_spec {hashOf : K → Nat} {probes : Nat → Nat → List Nat}
    {bs : List (Bucket K V)} (h : Inv hashOf probes bs) (k : K) (v : V)
    (hk : ∀ w, ¬ Live bs k w) (hfree : filledCount bs < bs.length) :
    ∃ i, searchUnused bs (probes bs.length (hashOf k &&& (bs.length - 1))) = some i ∧
      i < bs.length ∧ (bucketAt bs i).state ≠ BSTATE.BSTATE_Filled ∧
      Inv hashOf probes (bs.set i ⟨hashOf k, BSTATE.BSTATE_Filled, k, v⟩) ∧
      (∀ k1 v1, Live (bs.set i ⟨hashOf k, BSTATE.BSTATE_Filled, k, v⟩) k1 v1 ↔
        (k1 = k ∧ v1 = v) ∨ Live bs k1 v1) ∧
      filledCount (bs.set i ⟨hashOf k, BSTATE.BSTATE_Filled, k, v⟩) = filledCount bs + 1 := by
  have hs := start_lt (hashOf k) bs.length h.pos
  obtain ⟨hrange, hcov⟩ := h.covers _ hs
  obtain ⟨j, hj, hjst⟩ := exists_unfilled bs hfree
  cases hsr : searchUnused bs (probes bs.length (hashOf k &&& (bs.length - 1))) with
  | none => exact absurd (searchUnused_none bs _ hsr j (hcov j hj)) hjst
  | some i =>
    obtain ⟨pre, post, hp, hpre, hist⟩ := searchUnused_some bs _ i hsr
    have hi : i < bs.length := hrange i (by rw [hp]; simp)
    have hat : ∀ y, bucketAt (bs.set i ⟨hashOf k, BSTATE.BSTATE_Filled, k, v⟩) y =
        if y = i then ⟨hashOf k, BSTATE.BSTATE_Filled, k, v⟩ else bucketAt bs y :=
      fun y => bucketAt_set bs i y _ hi
    refine ⟨i, rfl, hi, hist, ?_, ?_, filledCount_set_fill bs i _ hi hist rfl⟩
    · refine ⟨by simpa using h.pos, by simpa using h.covers, ?_, ?_, ?_⟩
      · intro y hy
        rw [hat] at hy ⊢
        by_cases hyi : y = i
        · simp [hyi]
        · simp only [hyi, if_false] at hy ⊢
          exact h.hash_ok y hy
      · intro a b ha hb hab
        rw [hat] at ha hb hab
        rw [hat] at hab
        by_cases hai : a = i <;> by_cases hbi : b = i
        · rw [hai, hbi]
        · simp only [hai, hbi, if_true, if_false] at hb hab
          exact absurd ⟨b, hb, hab.symm, rfl⟩ (hk _)
        · simp only [hai, hbi, if_true, if_false] at ha hab
          exact absurd ⟨a, ha, hab, rfl⟩ (hk _)
        · simp only [hai, hbi, if_false] at ha hb hab
          exact h.uniq a b ha hb hab
      · intro y hy
        rw [hat] at hy
        simp only [List.length_set]
        by_cases hyi : y = i
        · refine ⟨pre, post, ?_, ?_⟩
          · rw [hat, if_pos hyi, hyi]; exact hp
          · intro z hz
            rw [hat]
            split
            · simp
            · rw [hpre z hz]; simp
        · simp only [hyi, if_false] at hy
          obtain ⟨pre1, post1, hp1, hpre1⟩ := h.path y hy
          refine ⟨pre1, post1, ?_, ?_⟩
          · rw [hat, if_neg hyi]; exact hp1
          · intro z hz
            rw [hat]
            split
            · simp
            · exact hpre1 z hz
    · intro k1 v1
      constructor
      · rintro ⟨y, hy, hyk, hyv⟩
        rw [hat] at hy hyk hyv
        by_cases hyi : y = i
        · simp only [hyi, if_true] at hyk hyv
          exact Or.inl ⟨hyk.symm, hyv.symm⟩
        · simp only [hyi, if_false] at hy hyk hyv
          exact Or.inr ⟨y, hy, hyk, hyv⟩
      · rintro (⟨rfl, rfl⟩ | ⟨y, hy, hyk, hyv⟩)
        · exact ⟨i, by rw [hat]; simp, by rw [hat]; simp, by rw [hat]; simp⟩
        · have hyi : y ≠ i := fun e => hist (e ▸ hy)
          exact ⟨y, by rw [hat, if_neg hyi]; exact hy, by rw [hat, if_neg hyi]; exact hyk,
            by rw [hat, if_neg hyi]; exact hyv⟩

/-- Turning the Filled bucket of a key into a tombstone keeps the invariant and
removes exactly that key. -/
theorem unfill_spec {hashOf : K → Nat} {probes : Nat → Nat → List Nat}
    {bs : List (Bucket K V)} (h : Inv hashOf probes bs) (k : K) (i : Nat)
    (hst : (bucketAt bs i).state = BSTATE.BSTATE_Filled) (hkey : (bucketAt bs i).key = k)
    (x : Bucket K V) (hx : x.state = BSTATE.BSTATE_Removed) :
    Inv hashOf probes (bs.set i x) ∧
      (∀ k1 v1, Live (bs.set i x) k1 v1 ↔ k1 ≠ k ∧ Live bs k1 v1) ∧
      filledCount (bs.set i x) + 1 = filledCount bs := by
  have hi : i < bs.length := filled_lt bs i hst
  have hat : ∀ y, bucketAt (bs.set i x) y = if y = i then x else bucketAt bs y :=
    fun y => bucketAt_set bs i y _ hi
  have hfill : ∀ y, (bucketAt (bs.set i x) y).state = BSTATE.BSTATE_Filled →
      y ≠ i ∧ (bucketAt bs y).state = BSTATE.BSTATE_Filled := by
    intro y hy
    rw [hat] at hy
    by_cases hyi : y = i
    · simp [hyi, hx] at hy
    · simp only [hyi, if_false] at hy
      exact ⟨hyi, hy⟩
  refine ⟨⟨by simpa using h.pos, by simpa using h.covers, ?_, ?_, ?_⟩, ?_,
    filledCount_set_unfill bs i x hi hst (by rw [hx]; decide)⟩
  · intro y hy
    obtain ⟨hyi, hy1⟩ := hfill y hy
    rw [hat, if_neg hyi]
    exact h.hash_ok y hy1
  · intro a b ha hb hab
    obtain ⟨hai, ha1⟩ := hfill a ha
    obtain ⟨hbi, hb1⟩ := hfill b hb
    rw [hat, hat, if_neg hai, if_neg hbi] at hab
    exact h.uniq a b ha1 hb1 hab
  · intro y hy
    obtain ⟨hyi, hy1⟩ := hfill y hy
    obtain ⟨pre1, post1, hp1, hpre1⟩ := h.path y hy1
    refine ⟨pre1, post1, ?_, ?_⟩
    · rw [hat, if_neg hyi]; simpa using hp1
    · intro z hz
      rw [hat]
      split
      · rw [hx]; decide
      · exact hpre1 z hz
  · intro k1 v1
    constructor
    · rintro ⟨y, hy, hyk, hyv⟩
      obtain ⟨hyi, hy1⟩ := hfill y hy
      rw [hat, if_neg hyi] at hyk hyv
      refine ⟨?_, y, hy1, hyk, hyv⟩
      intro e
      exact hyi (h.uniq y i hy1 hst (by rw [hyk, hkey, e]))
    · rintro ⟨hne, y, hy, hyk, hyv⟩
      have hyi : y ≠ i := by
        intro e
        rw [e, hkey] at hyk
        exact hne hyk.symm
      exact ⟨y, by rw [hat, if_neg hyi]; exact hy, by rw [hat, if_neg hyi]; exact hyk,
        by rw [hat, if_neg hyi]; exact hyv⟩

theorem lookupG_congr {hashOf : K → Nat} {probes : Nat → Nat → List Nat}
    {bs bs1 : List (Bucket K V)} (h : Inv hashOf probes bs) (h1 : Inv hashOf probes bs1)
    (k : K) (hl : ∀ v, Live bs1 k v ↔ Live bs k v) :
    lookupG probes bs1 (hashOf k) k = lookupG probes bs (hashOf k) k := by
  apply Option.ext
  intro v
  show lookupG probes bs1 (hashOf k) k = some v ↔ lookupG probes bs (hashOf k) k = some v
  rw [lookupG_eq_some_iff h1, lookupG_eq_some_iff h, hl]

/-- The re-placement loop of `Rehash` over an arbitrary probe order. -/
def rehashG (probes : Nat → Nat → List Nat) (bucketCountNew : Nat) :
    List (Bucket K V) → List (Bucket K V) → Option (List (Bucket K V))
  | [], bucketsNew => some bucketsNew
  | b :: rest, bucketsNew =>
    if b.state ≠ BSTATE.BSTATE_Filled then rehashG probes bucketCountNew rest bucketsNew
    else
      match searchUnused bucketsNew
          (probes bucketCountNew (b.hash &&& (bucketCountNew - 1))) with
      | none => none
      | some j =>
        rehashG probes bucketCountNew rest
          (bucketsNew.set j ⟨b.hash, BSTATE.BSTATE_Filled, b.key, b.value⟩)

theorem inv_replicate (hashOf : K → Nat) (probes : Nat → Nat → List Nat) (n : Nat)
    (hn : 0 < n) (hc : Covers probes n) :
    Inv hashOf probes (List.replicate n (default : Bucket K V)) := by
  have hne : ∀ j, (bucketAt (List.replicate n (default : Bucket K V)) j).state ≠
      BSTATE.BSTATE_Filled := by
    intro j; rw [bucketAt_replicate]; decide
  exact ⟨by simpa using hn, by simpa using hc, fun j hj => absurd hj (hne j),
    fun i j hi => absurd hi (hne i), fun j hj => absurd hj (hne j)⟩

theorem not_live_replicate (n : Nat) (k : K) (v : V) :
    ¬ Live (List.replicate n (default : Bucket K V)) k v := by
  rintro ⟨j, hj, _⟩
  rw [bucketAt_replicate] at hj
  cases hj

theorem live_iff_mem (bs : List (Bucket K V)) (k : K) (v : V) :
    Live bs k v ↔ ∃ b ∈ bs, b.state = BSTATE.BSTATE_Filled ∧ b.key = k ∧ b.value = v := by
  constructor
  · rintro ⟨j, hj, hk, hv⟩
    exact ⟨bucketAt bs j, bucketAt_mem bs j (filled_lt bs j hj), hj, hk, hv⟩
  · rintro ⟨b, hb, hst, hk, hv⟩
    obtain ⟨j, hj, rfl⟩ := List.getElem_of_mem hb
    refine ⟨j, ?_, ?_, ?_⟩ <;> rw [bucketAt_eq_getElem bs j hj] <;> assumption

theorem filledCount_cons (b : Bucket K V) (bs : List (Bucket K V)) :
    filledCount (b :: bs) =
      filledCount bs + (if b.state = BSTATE.BSTATE_Filled then 1 else 0) := by
  unfold filledCount
  rw [List.countP_cons]
  simp

/-- The re-placement loop succeeds and moves exactly the Filled entries of the old
buckets into the new array. -/
theorem rehashG_spec (hashOf : K → Nat) (probes : Nat → Nat → List Nat) (n : Nat) :
    ∀ (old acc : List (Bucket K V)), Inv hashOf probes acc → acc.length = n →
      (∀ b ∈ old, b.state = BSTATE.BSTATE_Filled → b.hash = hashOf b.key) →
      old.Pairwise (fun b c => b.state = BSTATE.BSTATE_Filled →
        c.state = BSTATE.BSTATE_Filled → b.key ≠ c.key) →
      (∀ b ∈ old, b.state = BSTATE.BSTATE_Filled → ∀ w, ¬ Live acc b.key w) →
      filledCount acc + filledCount old ≤ n →
      ∃ res, rehashG probes n old acc = some res ∧ Inv hashOf probes res ∧
        res.length = n ∧ filledCount res = filledCount acc + filledCount old ∧
        ∀ k v, Live res k v ↔
          Live acc k v ∨ ∃ b ∈ old, b.state = BSTATE.BSTATE_Filled ∧ b.key = k ∧ b.value = v := by
  intro old
  induction old with
  | nil =>
    intro acc hinv hlen _ _ _ _
    exact ⟨acc, rfl, hinv, hlen, by simp [filledCount], by simp⟩
  | cons b rest ih =>
    intro acc hinv hlen hhash hpw hfresh hcount
    rw [List.pairwise_cons] at hpw
    rw [filledCount_cons] at hcount ⊢
    by_cases hb : b.state = BSTATE.BSTATE_Filled
    · simp only [hb, if_true] at hcount ⊢
      have hbh := hhash b (List.mem_cons_self _ _) hb
      obtain ⟨i, hsr, hi, hist, hinv1, hlive1, hcnt1⟩ :=
        place_spec hinv b.key b.value (hfresh b (List.mem_cons_self _ _) hb)
          (by rw [hlen]; omega)
      rw [← hbh, hlen] at hsr
      rw [← hbh] at hinv1 hlive1 hcnt1
      obtain ⟨res, hres, hinv2, hlen2, hcnt2, hlive2⟩ :=
        ih _ hinv1 (by simpa using hlen)
          (fun c hc => hhash c (List.mem_cons_of_mem _ hc)) hpw.2
          (by
            intro c hc hcst w hw
            rcases (hlive1 c.key w).mp hw with ⟨e, _⟩ | hw1
            · exact hpw.1 c hc hb hcst e.symm
            · exact hfresh c (List.mem_cons_of_mem _ hc) hcst w hw1)
          (by rw [hcnt1]; omega)
      refine ⟨res, ?_, hinv2, hlen2, by rw [hcnt2, hcnt1]; omega, ?_⟩
      · simp only [rehashG, hb, ne_eq, not_true_eq_false, if_false, hsr]
        exact hres
      · intro k v
        rw [hlive2, hlive1]
        constructor
        · rintro ((⟨rfl, rfl⟩ | h1) | ⟨c, hc, h2⟩)
          · exact Or.inr ⟨b, List.mem_cons_self _ _, hb, rfl, rfl⟩
          · exact Or.inl h1
          · exact Or.inr ⟨c, List.mem_cons_of_mem _ hc, h2⟩
        · rintro (h1 | ⟨c, hc, h2⟩)
          · exact Or.inl (Or.inr h1)
          · rcases List.mem_cons.mp hc with rfl | hc
            · exact Or.inl (Or.inl ⟨h2.2.1.symm, h2.2.2.symm⟩)
            · exact Or.inr ⟨c, hc, h2⟩
    · simp only [hb, if_false, Nat.add_zero] at hcount ⊢
      obtain ⟨res, hres, hinv2, hlen2, hcnt2, hlive2⟩ :=
        ih acc hinv hlen (fun c hc => hhash c (List.mem_cons_of_mem _ hc)) hpw.2
          (fun c hc => hfresh c (List.mem_cons_of_mem _ hc)) hcount
      refine ⟨res, ?_, hinv2, hlen2, hcnt2, ?_⟩
      · simp only [rehashG, hb, ne_eq, not_false_eq_true, if_true]
        exact hres
      · intro k v
        rw [hlive2]
        constructor
        · rintro (h1 | ⟨c, hc, h2⟩)
          · exact Or.inl h1
          · exact Or.inr ⟨c, List.mem_cons_of_mem _ hc, h2⟩
        · rintro (h1 | ⟨c, hc, h2⟩)
          · exact Or.inl h1
          · rcases List.mem_cons.mp hc with rfl | hc
            · exact absurd h2.1 hb
            · exact Or.inr ⟨c, hc, h2⟩

/-- Rebuilding a well-formed bucket array into a fresh array of `n` buckets. -/
theorem rehashG_table {hashOf : K → Nat} {probes : Nat → Nat → List Nat}
    {bs : List (Bucket K V)} (h : Inv hashOf probes bs) (n : Nat) (hn : 0 < n)
    (hc : Covers probes n) (hsz : filledCount bs ≤ n) :
    ∃ res, rehashG probes n bs (List.replicate n default) = some res ∧
      Inv hashOf probes res ∧ res.length = n ∧ filledCount res = filledCount bs ∧
      ∀ k v, Live res k v ↔ Live bs k v := by
  obtain ⟨res, hres, hinv, hlen, hcnt, hlive⟩ :=
    rehashG_spec hashOf probes n bs (List.replicate n default)
      (inv_replicate hashOf probes n hn hc) (by simp)
      (by
        intro b hb hst
        obtain ⟨j, hj, rfl⟩ := List.getElem_of_mem hb
        have := h.hash_ok j (by rw [bucketAt_eq_getElem bs j hj]; exact hst)
        rwa [bucketAt_eq_getElem bs j hj] at this)
      (by
        rw [List.pairwise_iff_getElem]
        intro i j hi hj hij hsi hsj hk
        have := h.uniq i j (by rw [bucketAt_eq_getElem bs i hi]; exact hsi)
          (by rw [bucketAt_eq_getElem bs j hj]; exact hsj)
          (by rw [bucketAt_eq_getElem bs i hi, bucketAt_eq_getElem bs j hj]; exact hk)
        omega)
      (fun b _ _ w => not_live_replicate n b.key w)
      (by rw [filledCount_replicate]; omega)
  refine ⟨res, hres, hinv, hlen, by rw [hcnt, filledCount_replicate]; omega, ?_⟩
  intro k v
  rw [hlive, live_iff_mem bs]
  constructor
  · rintro (h1 | h2)
    · exact absurd h1 (not_live_replicate n k v)
    · exact h2
  · exact Or.inr

/-- With a bucket that is not Filled, the search along a covering probe order
finds one. -/
theorem search_finds (probes : Nat → Nat → List Nat) (bs : List (Bucket K V)) (s : Nat)
    (hs : s < bs.length) (hc : Covers probes bs.length)
    (hfree : filledCount bs < bs.length) :
    ∃ i, searchUnused bs (probes bs.length s) = some i ∧ i < bs.length ∧
      (bucketAt bs i).state ≠ BSTATE.BSTATE_Filled := by
  obtain ⟨hrange, hcov⟩ := hc s hs
  obtain ⟨j, hj, hjst⟩ := exists_unfilled bs hfree
  cases hsr : searchUnused bs (probes bs.length s) with
  | none => exact absurd (searchUnused_none bs _ hsr j (hcov j hj)) hjst
  | some i =>
    obtain ⟨pre, post, hp, _, hist⟩ := searchUnused_some bs _ i hsr
    exact ⟨i, rfl, hrange i (by rw [hp]; simp), hist⟩

/-- The re-placement loop succeeds whenever the new array has room, whatever the
keys are; it fills one bucket per Filled old bucket. -/
theorem rehashG_count (probes : Nat → Nat → List Nat) (n : Nat) (hn : 0 < n)
    (hc : Covers probes n) :
    ∀ (old acc : List (Bucket K V)), acc.length = n →
      filledCount acc + filledCount old ≤ n →
      ∃ res, rehashG probes n old acc = some res ∧ res.length = n ∧
        filledCount res = filledCount acc + filledCount old := by
  intro old
  induction old with
  | nil =>
    intro acc hlen _
    exact ⟨acc, rfl, hlen, by simp [filledCount]⟩
  | cons b rest ih =>
    intro acc hlen hcount
    rw [filledCount_cons] at hcount ⊢
    by_cases hb : b.state = BSTATE.BSTATE_Filled
    · simp only [hb, if_true] at hcount ⊢
      obtain ⟨i, hsr, hi, hist⟩ := search_finds probes acc (b.hash &&& (n - 1))
        (by rw [hlen]; exact start_lt _ _ hn) (by rw [hlen]; exact hc)
        (by rw [hlen]; omega)
      rw [hlen] at hsr
      have hcnt1 := filledCount_set_fill acc i
        ⟨b.hash, BSTATE.BSTATE_Filled, b.key, b.value⟩ hi hist rfl
      obtain ⟨res, hres, hlen2, hcnt2⟩ :=
        ih (acc.set i ⟨b.hash, BSTATE.BSTATE_Filled, b.key, b.value⟩)
          (by simpa using hlen) (by rw [hcnt1]; omega)
      refine ⟨res, ?_, hlen2, by rw [hcnt2, hcnt1]; omega⟩
      simp only [rehashG, hb, ne_eq, not_true_eq_false, if_false, hsr]
      exact hres
    · simp only [hb, if_false, Nat.add_zero] at hcount ⊢
      obtain ⟨res, hres, hlen2, hcnt2⟩ := ih acc hlen hcount
      refine ⟨res, ?_, hlen2, hcnt2⟩
      simp only [rehashG, hb, ne_eq, not_false_eq_true, if_true]
      exact hres

/-! ### Bucket arrays that hold a key several times -/

/-- Well-formedness of a bucket array, repeated keys allowed: stored hashes are the
hashes of the keys, and no Empty bucket lies on the probe path of a Filled bucket
before it. -/
structure InvD (hashOf : K → Nat) (probes : Nat → Nat → List Nat)
    (bs : List (Bucket K V)) : Prop where
  pos : 0 < bs.length
  covers : Covers probes bs.length
  hash_ok : ∀ j, (bucketAt bs j).state = BSTATE.BSTATE_Filled →
    (bucketAt bs j).hash = hashOf (bucketAt bs j).key
  path : ∀ j, (bucketAt bs j).state = BSTATE.BSTATE_Filled →
    ∃ pre post, probes bs.length ((bucketAt bs j).hash &&& (bs.length - 1)) =
        pre ++ j :: post ∧
      ∀ i ∈ pre, (bucketAt bs i).state ≠ BSTATE.BSTATE_Empty

/-- What the scan finds is held by a Filled bucket. -/
theorem lookupG_live (probes : Nat → Nat → List Nat) (bs : List (Bucket K V)) (hash : Nat)
    (k : K) (v : V) (h : lookupG probes bs hash k = some v) : Live bs k v := by
  unfold lookupG at h
  split at h
  · rename_i i hs
    obtain ⟨_, hst, _, hkey⟩ := scanKey_found _ _ _ _ _ hs
    exact ⟨i, hst, hkey, by simpa using h⟩
  · cases h

/-- A key held by a Filled bucket is found, in that bucket or in an earlier one of its
probe path. -/
theorem lookupG_of_live {hashOf : K → Nat} {probes : Nat → Nat → List Nat}
    {bs : List (Bucket K V)} (h : InvD hashOf probes bs) (k : K) (w : V) (hl : Live bs k w) :
    ∃ v, lookupG probes bs (hashOf k) k = some v := by
  obtain ⟨j, hst, hkey, _⟩ := hl
  obtain ⟨pre, post, hp, hpre⟩ := h.path j hst
  have hh := h.hash_ok j hst
  rw [hkey] at hh
  rw [hh] at hp
  obtain ⟨i, hi⟩ := scanKey_reaches bs (hashOf k) k pre post j hpre hst hh hkey
  unfold lookupG
  rw [hp, hi]
  exact ⟨_, rfl⟩

/-- Placing an entry, whether or not its key is held already: the search finds a
bucket, and writing the entry there keeps the invariant and adds the pair `(k, v)`. -/
theorem place_dup {hashOf : K → Nat} {probes : Nat → Nat → List Nat}
    {bs : List (Bucket K V)} (h : InvD hashOf probes bs) (k : K) (v : V)
    (hfree : filledCount bs < bs.length) :
    ∃ i, searchUnused bs (probes bs.length (hashOf k &&& (bs.length - 1))) = some i ∧
      i < bs.length ∧ (bucketAt bs i).state ≠ BSTATE.BSTATE_Filled ∧
      InvD hashOf probes (bs.set i ⟨hashOf k, BSTATE.BSTATE_Filled, k, v⟩) ∧
      (∀ k1 v1, Live (bs.set i ⟨hashOf k, BSTATE.BSTATE_Filled, k, v⟩) k1 v1 ↔
        (k1 = k ∧ v1 = v) ∨ Live bs k1 v1) ∧
      filledCount (bs.set i ⟨hashOf k, BSTATE.BSTATE_Filled, k, v⟩) = filledCount bs + 1 := by
  have hs := start_lt (hashOf k) bs.length h.pos
  obtain ⟨hrange, hcov⟩ := h.covers _ hs
  obtain ⟨j, hj, hjst⟩ := exists_unfilled bs hfree
  cases hsr : searchUnused bs (probes bs.length (hashOf k &&& (bs.length - 1))) with
  | none => exact absurd (searchUnused_none bs _ hsr j (hcov j hj)) hjst
  | some i =>
    obtain ⟨pre, post, hp, hpre, hist⟩ := searchUnused_some bs _ i hsr
    have hi : i < bs.length := hrange i (by rw [hp]; simp)
    have hat : ∀ y, bucketAt (bs.set i ⟨hashOf k, BSTATE.BSTATE_Filled, k, v⟩) y =
        if y = i then ⟨hashOf k, BSTATE.BSTATE_Filled, k, v⟩ else bucketAt bs y :=
      fun y => bucketAt_set bs i y _ hi
    refine ⟨i, rfl, hi, hist, ?_, ?_, filledCount_set_fill bs i _ hi hist rfl⟩
    · refine ⟨by simpa using h.pos, by simpa using h.covers, ?_, ?_⟩
      · intro y hy
        rw [hat] at hy ⊢
        by_cases hyi : y = i
        · simp [hyi]
        · simp only [hyi, if_false] at hy ⊢
          exact h.hash_ok y hy
      · intro y hy
        rw [hat] at hy
        simp only [List.length_set]
        by_cases hyi : y = i
        · refine ⟨pre, post, ?_, ?_⟩
          · rw [hat, if_pos hyi, hyi]; exact hp
          · intro z hz
            rw [hat]
            split
            · simp
            · rw [hpre z hz]; simp
        · simp only [hyi, if_false] at hy
          obtain ⟨pre1, post1, hp1, hpre1⟩ := h.path y hy
          refine ⟨pre1, post1, ?_, ?_⟩
          · rw [hat, if_neg hyi]; exact hp1
          · intro z hz
            rw [hat]
            split
            · simp
            · exact hpre1 z hz
    · intro k1 v1
      constructor
      · rintro ⟨y, hy, hyk, hyv⟩
        rw [hat] at hy hyk hyv
        by_cases hyi : y = i
        · simp only [hyi, if_true] at hyk hyv
          exact Or.inl ⟨hyk.symm, hyv.symm⟩
        · simp only [hyi, if_false] at hy hyk hyv
          exact Or.inr ⟨y, hy, hyk, hyv⟩
      · rintro (⟨rfl, rfl⟩ | ⟨y, hy, hyk, hyv⟩)
        · exact ⟨i, by rw [hat]; simp, by rw [hat]; simp, by rw [hat]; simp⟩
        · have hyi : y ≠ i := fun e => hist (e ▸ hy)
          exact ⟨y, by rw [hat, if_neg hyi]; exact hy, by rw [hat, if_neg hyi]; exact hyk,
            by rw [hat, if_neg hyi]; exact hyv⟩

theorem invD_replicate (hashOf : K → Nat) (probes : Nat → Nat → List Nat) (n : Nat)
    (hn : 0 < n) (hc : Covers probes n) :
    InvD hashOf probes (List.replicate n (default : Bucket K V)) := by
  have hne : ∀ j, (bucketAt (List.replicate n (default : Bucket K V)) j).state ≠
      BSTATE.BSTATE_Filled := by
    intro j; rw [bucketAt_replicate]; decide
  exact ⟨by simpa using hn, by simpa using hc, fun j hj => absurd hj (hne j),
    fun j hj => absurd hj (hne j)⟩

/-- The re-placement loop on entries whose keys may repeat: it succeeds and moves the
Filled entries of the old buckets into the new array. -/
theorem rehashG_dup (hashOf : K → Nat) (probes : Nat → Nat → List Nat) (n : Nat) :
    ∀ (old acc : List (Bucket K V)), InvD hashOf probes acc → acc.length = n →
      (∀ b ∈ old, b.state = BSTATE.BSTATE_Filled → b.hash = hashOf b.key) →
      filledCount acc + filledCount old ≤ n →
      ∃ res, rehashG probes n old acc = some res ∧ InvD hashOf probes res ∧
        res.length = n ∧ filledCount res = filledCount acc + filledCount old ∧
        ∀ k v, Live res k v ↔
          Live acc k v ∨ ∃ b ∈ old, b.state = BSTATE.BSTATE_Filled ∧ b.key = k ∧ b.value = v := by
  intro old
  induction old with
  | nil =>
    intro acc hinv hlen _ _
    exact ⟨acc, rfl, hinv, hlen, by simp [filledCount], by simp⟩
  | cons b rest ih =>
    intro acc hinv hlen hhash hcount
    rw [filledCount_cons] at hcount ⊢
    by_cases hb : b.state = BSTATE.BSTATE_Filled
    · simp only [hb, if_true] at hcount ⊢
      have hbh := hhash b (List.mem_cons_self _ _) hb
      obtain ⟨i, hsr, hi, hist, hinv1, hlive1, hcnt1⟩ :=
        place_dup hinv b.key b.value (by rw [hlen]; omega)
      rw [← hbh, hlen] at hsr
      rw [← hbh] at hinv1 hlive1 hcnt1
      obtain ⟨res, hres, hinv2, hlen2, hcnt2, hlive2⟩ :=
        ih _ hinv1 (by simpa using hlen)
          (fun c hc => hhash c (List.mem_cons_of_mem _ hc)) (by rw [hcnt1]; omega)
      refine ⟨res, ?_, hinv2, hlen2, by rw [hcnt2, hcnt1]; omega, ?_⟩
      · simp only [rehashG, hb, ne_eq, not_true_eq_false, if_false, hsr]
        exact hres
      · intro k v
        rw [hlive2, hlive1]
        constructor
        · rintro ((⟨rfl, rfl⟩ | h1) | ⟨c, hc, h2⟩)
          · exact Or.inr ⟨b, List.mem_cons_self _ _, hb, rfl, rfl⟩
          · exact Or.inl h1
          · exact Or.inr ⟨c, List.mem_cons_of_mem _ hc, h2⟩
        · rintro (h1 | ⟨c, hc, h2⟩)
          · exact Or.inl (Or.inr h1)
          · rcases List.mem_cons.mp hc with rfl | hc
            · exact Or.inl (Or.inl ⟨h2.2.1.symm, h2.2.2.symm⟩)
            · exact Or.inr ⟨c, hc, h2⟩
    · simp only [hb, if_false, Nat.add_zero] at hcount ⊢
      obtain ⟨res, hres, hinv2, hlen2, hcnt2, hlive2⟩ :=
        ih acc hinv hlen (fun c hc => hhash c (List.mem_cons_of_mem _ hc)) hcount
      refine ⟨res, ?_, hinv2, hlen2, hcnt2, ?_⟩
      · simp only [rehashG, hb, ne_eq, not_false_eq_true, if_true]
        exact hres
      · intro k v
        rw [hlive2]
        constructor
        · rintro (h1 | ⟨c, hc, h2⟩)
          · exact Or.inl h1
          · exact Or.inr ⟨c, List.mem_cons_of_mem _ hc, h2⟩
        · rintro (h1 | ⟨c, hc, h2⟩)
          · exact Or.inl h1
          · rcases List.mem_cons.mp hc with rfl | hc
            · exact absurd h2.1 hb
            · exact Or.inr ⟨c, hc, h2⟩

/-- Rebuilding a bucket array, repeated keys allowed, into a fresh array of `n`
buckets. -/
theorem rehashG_table_dup {hashOf : K → Nat} {probes : Nat → Nat → List Nat}
    {bs : List (Bucket K V)} (h : InvD hashOf probes bs) (n : Nat) (hn : 0 < n)
    (hc : Covers probes n) (hsz : filledCount bs ≤ n) :
    ∃ res, rehashG probes n bs (List.replicate n default) = some res ∧
      InvD hashOf probes res ∧ res.length = n ∧ filledCount res = filledCount bs ∧
      ∀ k v, Live res k v ↔ Live bs k v := by
  obtain ⟨res, hres, hinv, hlen, hcnt, hlive⟩ :=
    rehashG_dup hashOf probes n bs (List.replicate n default)
      (invD_replicate hashOf probes n hn hc) (by simp)
      (by
        intro b hb hst
        obtain ⟨j, hj, rfl⟩ := List.getElem_of_mem hb
        have := h.hash_ok j (by rw [bucketAt_eq_getElem bs j hj]; exact hst)
        rwa [bucketAt_eq_getElem bs j hj] at this)
      (by rw [filledCount_replicate]; omega)
  refine ⟨res, hres, hinv, hlen, by rw [hcnt, filledCount_replicate]; omega, ?_⟩
  intro k v
  rw [hlive, live_iff_mem bs]
  constructor
  · rintro (h1 | h2)
    · exact absurd h1 (not_live_replicate n k v)
    · exact h2
  · exact Or.inr

/-! ### Tombstones and the entries of a bucket array -/

/-- Removing an entry from an array that may hold a key several times: the bucket
becomes a tombstone, which is not Empty, so every probe path stays unbroken. -/
theorem unfill_dup {hashOf : K → Nat} {probes : Nat → Nat → List Nat}
    {bs : List (Bucket K V)} (h : InvD hashOf probes bs) (i : Nat)
    (hst : (bucketAt bs i).state = BSTATE.BSTATE_Filled)
    (x : Bucket K V) (hx : x.state = BSTATE.BSTATE_Removed) :
    InvD hashOf probes (bs.set i x) ∧ filledCount (bs.set i x) + 1 = filledCount bs := by
  have hi : i < bs.length := filled_lt bs i hst
  have hat : ∀ y, bucketAt (bs.set i x) y = if y = i then x else bucketAt bs y :=
    fun y => bucketAt_set bs i y _ hi
  have hfill : ∀ y, (bucketAt (bs.set i x) y).state = BSTATE.BSTATE_Filled →
      y ≠ i ∧ (bucketAt bs y).state = BSTATE.BSTATE_Filled := by
    intro y hy
    rw [hat] at hy
    by_cases hyi : y = i
    · simp [hyi, hx] at hy
    · simp only [hyi, if_false] at hy
      exact ⟨hyi, hy⟩
  refine ⟨⟨by simpa using h.pos, by simpa using h.covers, ?_, ?_⟩,
    filledCount_set_unfill bs i x hi hst (by rw [hx]; decide)⟩
  · intro y hy
    obtain ⟨hyi, hy1⟩ := hfill y hy
    rw [hat, if_neg hyi]
    exact h.hash_ok y hy1
  · intro y hy
    obtain ⟨hyi, hy1⟩ := hfill y hy
    obtain ⟨pre1, post1, hp1, hpre1⟩ := h.path y hy1
    refine ⟨pre1, post1, ?_, ?_⟩
    · rw [hat, if_neg hyi]; simpa using hp1
    · intro z hz
      rw [hat]
      split
      · rw [hx]; decide
      · exact hpre1 z hz

/-- The `(hash, key, value)` triples of the Filled buckets, in index order. -/
def filledTriples (bs : List (Bucket K V)) : List (Nat × K × V) :=
  (bs.filter (fun b => decide (b.state = BSTATE.BSTATE_Filled))).map
    (fun b => (b.hash, b.key, b.value))

theorem filledTriples_cons (b : Bucket K V) (bs : List (Bucket K V)) :
    filledTriples (b :: bs) =
      if b.state = BSTATE.BSTATE_Filled then (b.hash, b.key, b.value) :: filledTriples bs
      else filledTriples bs := by
  unfold filledTriples
  by_cases hb : b.state = BSTATE.BSTATE_Filled
  · simp [List.filter_cons, hb]
  · simp [List.filter_cons, hb]

theorem filledTriples_replicate (n : Nat) :
    filledTriples (List.replicate n (default : Bucket K V)) = [] := by
  induction n with
  | zero => rfl
  | succ n ih =>
    rw [List.replicate_succ, filledTriples_cons, ih]
    rfl

/-- Filling a bucket that was not Filled adds its triple to the triples held. -/
theorem filledTriples_set_fill (bs : List (Bucket K V)) (i : Nat) (x : Bucket K V)
    (hi : i < bs.length) (hst : (bucketAt bs i).state ≠ BSTATE.BSTATE_Filled)
    (hx : x.state = BSTATE.BSTATE_Filled) :
    (filledTriples (bs.set i x)).Perm ((x.hash, x.key, x.value) :: filledTriples bs) := by
  induction bs generalizing i with
  | nil => simp at hi
  | cons b bs ih =>
    cases i with
    | zero =>
      have hb : b.state ≠ BSTATE.BSTATE_Filled := by simpa [bucketAt] using hst
      rw [List.set_cons_zero, filledTriples_cons, filledTriples_cons, if_pos hx, if_neg hb]
    | succ i =>
      have hst1 : (bucketAt bs i).state ≠ BSTATE.BSTATE_Filled := by
        simpa [bucketAt] using hst
      have := ih i (by simpa using hi) hst1
      rw [List.set_cons_succ, filledTriples_cons, filledTriples_cons]
      split
      · exact (List.Perm.cons _ this).trans (List.Perm.swap _ _ _)
      · exact this

/-- The re-placement loop writes no tombstone and moves the triples of the Filled old
buckets into the new array. -/
theorem rehashG_triples (probes : Nat → Nat → List Nat) (n : Nat) (hn : 0 < n)
    (hc : Covers probes n) :
    ∀ (old acc res : List (Bucket K V)), acc.length = n →
      rehashG probes n old acc = some res →
      (∀ j, (bucketAt acc j).state ≠ BSTATE.BSTATE_Removed) →
      (∀ j, (bucketAt res j).state ≠ BSTATE.BSTATE_Removed) ∧
        (filledTriples res).Perm (filledTriples old ++ filledTriples acc) := by
  intro old
  induction old with
  | nil =>
    intro acc res _ hr hacc
    simp only [rehashG, Option.some.injEq] at hr
    subst hr
    exact ⟨hacc, by simp [filledTriples]⟩
  | cons b rest ih =>
    intro acc res hlen hr hacc
    rw [filledTriples_cons]
    by_cases hb : b.state = BSTATE.BSTATE_Filled
    · simp only [rehashG, hb, ne_eq, not_true_eq_false, if_false] at hr
      rw [if_pos hb]
      cases hsr : searchUnused acc (probes n (b.hash &&& (n - 1))) with
      | none => simp [hsr] at hr
      | some i =>
        simp only [hsr] at hr
        obtain ⟨pre, post, hp, _, hist⟩ := searchUnused_some acc _ i hsr
        have hi : i < n := (hc _ (start_lt b.hash n hn)).1 i (by rw [hp]; simp)
        have hat : ∀ y, bucketAt (acc.set i ⟨b.hash, BSTATE.BSTATE_Filled, b.key, b.value⟩) y =
            if y = i then ⟨b.hash, BSTATE.BSTATE_Filled, b.key, b.value⟩ else bucketAt acc y :=
          fun y => bucketAt_set acc i y _ (by rw [hlen]; exact hi)
        obtain ⟨h1, h2⟩ := ih _ res (by simpa using hlen) hr (by
          intro j
          rw [hat]
          split
          · simp
          · exact hacc j)
        refine ⟨h1, h2.trans ?_⟩
        have h3 := filledTriples_set_fill acc i ⟨b.hash, BSTATE.BSTATE_Filled, b.key, b.value⟩
          (by rw [hlen]; exact hi) hist rfl
        exact ((List.Perm.append_left _ h3).trans List.perm_middle)
    · simp only [rehashG, hb, ne_eq, not_false_eq_true, if_true] at hr
      rw [if_neg hb]
      exact ih acc res hlen hr hacc

/-! ### Counting the entries of a key -/

/-- Number of Filled buckets that hold the key `k`. -/
def keyCount (bs : List (Bucket K V)) (k : K) : Nat :=
  bs.countP (fun b => decide (b.state = BSTATE.BSTATE_Filled ∧ b.key = k))

theorem keyCount_cons (b : Bucket K V) (bs : List (Bucket K V)) (k : K) :
    keyCount (b :: bs) k =
      keyCount bs k + (if b.state = BSTATE.BSTATE_Filled ∧ b.key = k then 1 else 0) := by
  unfold keyCount
  rw [List.countP_cons]
  by_cases h : b.state = BSTATE.BSTATE_Filled ∧ b.key = k
  · simp [h]
  · simp [h]

theorem keyCount_replicate (n : Nat) (k : K) :
    keyCount (List.replicate n (default : Bucket K V)) k = 0 := by
  induction n with
  | zero => rfl
  | succ n ih =>
    rw [List.replicate_succ, keyCount_cons, ih]
    have : ¬ ((default : Bucket K V).state = BSTATE.BSTATE_Filled ∧
        (default : Bucket K V).key = k) := fun h => by cases h.1
    rw [if_neg this]

/-- The entries of a key are counted by the triples of the Filled buckets. -/
theorem keyCount_eq_triples (bs : List (Bucket K V)) (k : K) :
    keyCount bs k = (filledTriples bs).countP (fun p => decide (p.2.1 = k)) := by
  induction bs with
  | nil => rfl
  | cons b bs ih =>
    rw [keyCount_cons, filledTriples_cons, ih]
    by_cases hb : b.state = BSTATE.BSTATE_Filled
    · rw [if_pos hb, List.countP_cons]
      by_cases hk : b.key = k
      · simp [hb, hk]
      · simp [hb, hk]
    · rw [if_neg hb, if_neg (fun h => hb h.1)]
      rfl

theorem keyCount_perm (bs bs1 : List (Bucket K V))
    (h : (filledTriples bs1).Perm (filledTriples bs)) (k : K) :
    keyCount bs1 k = keyCount bs k := by
  rw [keyCount_eq_triples, keyCount_eq_triples]
  exact h.countP_eq _

/-- Filling a bucket that was not Filled adds an entry for the key written. -/
theorem keyCount_set_fill (bs : List (Bucket K V)) (i : Nat) (x : Bucket K V)
    (hi : i < bs.length) (hst : (bucketAt bs i).state ≠ BSTATE.BSTATE_Filled)
    (hx : x.state = BSTATE.BSTATE_Filled) (k : K) :
    keyCount (bs.set i x) k = keyCount bs k + (if x.key = k then 1 else 0) := by
  have h := countP_set_add
    (fun b : Bucket K V => decide (b.state = BSTATE.BSTATE_Filled ∧ b.key = k)) bs i x hi
  rw [bucketAt_eq_getElem bs i hi] at hst
  have h1 : decide (bs[i].state = BSTATE.BSTATE_Filled ∧ bs[i].key = k) = false :=
    decide_eq_false (fun e => hst e.1)
  simp only [h1, Bool.false_eq_true, if_false, Nat.add_zero, hx, true_and,
    decide_eq_true_eq] at h
  unfold keyCount
  exact h

/-- Emptying a Filled bucket takes an entry for its key away. -/
theorem keyCount_set_unfill (bs : List (Bucket K V)) (i : Nat) (x : Bucket K V)
    (hi : i < bs.length) (hold : (bucketAt bs i).state = BSTATE.BSTATE_Filled)
    (hx : x.state ≠ BSTATE.BSTATE_Filled) (k : K) :
    keyCount (bs.set i x) k + (if (bucketAt bs i).key = k then 1 else 0) = keyCount bs k := by
  have h := countP_set_add
    (fun b : Bucket K V => decide (b.state = BSTATE.BSTATE_Filled ∧ b.key = k)) bs i x hi
  rw [bucketAt_eq_getElem bs i hi] at hold ⊢
  have h1 : decide (x.state = BSTATE.BSTATE_Filled ∧ x.key = k) = false :=
    decide_eq_false (fun e => hx e.1)
  simp only [h1, Bool.false_eq_true, if_false, Nat.add_zero, hold, true_and,
    decide_eq_true_eq] at h
  unfold keyCount
  exact h

/-- A key has an entry exactly when a Filled bucket holds it. -/
theorem keyCount_pos_iff (bs : List (Bucket K V)) (k : K) :
    0 < keyCount bs k ↔
      ∃ j, (bucketAt bs j).state = BSTATE.BSTATE_Filled ∧ (bucketAt bs j).key = k := by
  unfold keyCount
  rw [List.countP_pos_iff]
  constructor
  · rintro ⟨b, hb, hp⟩
    obtain ⟨j, hj, rfl⟩ := List.getElem_of_mem hb
    simp only [decide_eq_true_eq] at hp
    exact ⟨j, by rw [bucketAt_eq_getElem bs j hj]; exact hp.1,
      by rw [bucketAt_eq_getElem bs j hj]; exact hp.2⟩
  · rintro ⟨j, hst, hk⟩
    have hj := filled_lt bs j hst
    rw [bucketAt_eq_getElem bs j hj] at hst hk
    exact ⟨bs[j], List.getElem_mem hj, by simp [hst, hk]⟩

end OpenAddr

/-! ## Part IV. OLHashTable -/

namespace OLHashTable

open OpenAddr

variable {K V : Type} [Inhabited K] [Inhabited V] [DecidableEq K]

/-- The hash `Insert`, `Lookup` and `Remove` compute for a key. -/
def hashOf (digest : K → Nat) (key : K) : Nat := HashKey digest key &&& s_62Bits

/-- Linear probe order: `iBucketStart .. iEnd - 1`, then `0 .. iBucketStart - 1`. -/
def linProbes (iEnd iBucketStart : Nat) : List Nat :=
  List.range' iBucketStart (iEnd - iBucketStart) ++ List.range iBucketStart

theorem ol_covers_linProbes (n : Nat) : Covers linProbes n := by
  intro s hs
  constructor
  · intro i hi
    simp only [linProbes, List.mem_append, List.mem_range'_1, List.mem_range] at hi
    omega
  · intro j hj
    simp only [linProbes, List.mem_append, List.mem_range'_1, List.mem_range]
    omega

theorem ol_findTarget_eq (bs : List (Bucket K V)) (s n : Nat) :
    findTarget bs s n = searchUnused bs (linProbes n s) := by
  unfold findTarget linProbes
  rw [searchUnused_append]

theorem ol_scanTwo_eq (bs : List (Bucket K V)) (hash : Nat) (key : K) (s : Nat) :
    scanTwo bs hash key s = scanKey bs hash key (linProbes bs.length s) := by
  unfold scanTwo linProbes
  rw [scanKey_append]

theorem ol_rehashLoop_eq (n : Nat) (old acc : List (Bucket K V)) :
    rehashLoop n old acc = rehashG linProbes n old acc := by
  induction old generalizing acc with
  | nil => rfl
  | cons b rest ih =>
    simp only [rehashLoop, rehashG, ol_findTarget_eq]
    split
    · exact ih acc
    · split <;> simp_all

theorem ol_Lookup_eq (digest : K → Nat) (t : OLHashTable K V) (key : K) :
    Lookup digest t key = lookupG linProbes t.buckets (hashOf digest key) key := by
  unfold Lookup lookupG
  simp only [ol_scanTwo_eq]
  rfl

/-- Shape of a table, duplicates allowed: `size` counts the Filled buckets. -/
structure Shape (t : OLHashTable K V) : Prop where
  pos : 0 < t.buckets.length
  size_eq : t.size = filledCount t.buckets

/-- Well-formedness of a table holding at most one entry per key. -/
structure WF (digest : K → Nat) (t : OLHashTable K V) : Prop where
  inv : Inv (hashOf digest) linProbes t.buckets
  size_eq : t.size = filledCount t.buckets

theorem WF.ol_shape {digest : K → Nat} {t : OLHashTable K V} (h : WF digest t) : Shape t :=
  ⟨h.inv.pos, h.size_eq⟩

theorem ol_shape_new : Shape (new : OLHashTable K V) :=
  ⟨by simp [new, s_hashTableInitialSize], by simp [new, filledCount_replicate]⟩

theorem ol_wf_new (digest : K → Nat) : WF digest (new : OLHashTable K V) :=
  ⟨inv_replicate _ _ _ (by decide) (ol_covers_linProbes _), by simp [new, filledCount_replicate]⟩

theorem ol_Lookup_new (digest : K → Nat) (k : K) :
    Lookup digest (new : OLHashTable K V) k = none := by
  rw [ol_Lookup_eq, lookupG_eq_none_iff (ol_wf_new digest).inv]
  exact fun v => not_live_replicate _ k v

theorem ol_Rehash_shape {t : OLHashTable K V} (h : Shape t) (n : Nat) :
    ∃ t1, Rehash t n = some t1 ∧ Shape t1 ∧ t1.size = t.size ∧
      t1.buckets.length = max (max n t.size) s_hashTableInitialSize := by
  have hpos : 0 < max (max n t.size) s_hashTableInitialSize := by
    simp [s_hashTableInitialSize]
  obtain ⟨res, hres, hlen, hcnt⟩ := rehashG_count linProbes _ hpos (ol_covers_linProbes _)
    t.buckets (List.replicate (max (max n t.size) s_hashTableInitialSize) default) (by simp)
    (by rw [filledCount_replicate, ← h.size_eq]; omega)
  refine ⟨⟨res, t.size⟩, ?_, ⟨by simpa [hlen] using hpos, ?_⟩, rfl, hlen⟩
  · simp only [Rehash, ol_rehashLoop_eq, hres]
  · simp [hcnt, filledCount_replicate, h.size_eq]

theorem ol_Rehash_spec {digest : K → Nat} {t : OLHashTable K V} (h : WF digest t) (n : Nat) :
    ∃ t1, Rehash t n = some t1 ∧ WF digest t1 ∧ t1.size = t.size ∧
      t1.buckets.length = max (max n t.size) s_hashTableInitialSize ∧
      ∀ k, Lookup digest t1 k = Lookup digest t k := by
  have hpos : 0 < max (max n t.size) s_hashTableInitialSize := by
    simp [s_hashTableInitialSize]
  obtain ⟨res, hres, hinv, hlen, hcnt, hlive⟩ := rehashG_table h.inv _ hpos
    (ol_covers_linProbes _) (by rw [← h.size_eq]; omega)
  refine ⟨⟨res, t.size⟩, ?_, ⟨hinv, ?_⟩, rfl, hlen, ?_⟩
  · simp only [Rehash, ol_rehashLoop_eq, hres]
  · simp [hcnt, h.size_eq]
  · intro k
    rw [ol_Lookup_eq, ol_Lookup_eq]
    exact lookupG_congr h.inv hinv k (hlive k)

/-- The growth step at the head of `Insert`, duplicates allowed. -/
theorem ol_grow_shape {t : OLHashTable K V} (h : Shape t) :
    ∃ t0, (if t.size * 3 > t.buckets.length * 2 then Rehash t (t.buckets.length * 2)
        else some t) = some t0 ∧ Shape t0 ∧ t0.size = t.size ∧
      3 * t0.size ≤ 2 * t0.buckets.length ∧
      (t0.buckets.length = t.buckets.length ∨
        (t.size * 3 > t.buckets.length * 2 ∧
          t0.buckets.length = max (t.buckets.length * 2) s_hashTableInitialSize)) := by
  have hle := filledCount_le t.buckets
  rw [← h.size_eq] at hle
  by_cases hc : t.size * 3 > t.buckets.length * 2
  · obtain ⟨t0, h0, hs0, hsz, hlen⟩ := ol_Rehash_shape h (t.buckets.length * 2)
    refine ⟨t0, by rw [if_pos hc]; exact h0, hs0, hsz, ?_, Or.inr ⟨hc, ?_⟩⟩
    · rw [hlen, hsz]; omega
    · rw [hlen]; omega
  · exact ⟨t, by rw [if_neg hc], h, rfl, by omega, Or.inl rfl⟩

/-- The growth step at the head of `Insert` on a table with one entry per key. -/
theorem ol_grow_spec {digest : K → Nat} {t : OLHashTable K V} (h : WF digest t) :
    ∃ t0, (if t.size * 3 > t.buckets.length * 2 then Rehash t (t.buckets.length * 2)
        else some t) = some t0 ∧ WF digest t0 ∧ t0.size = t.size ∧
      3 * t0.size ≤ 2 * t0.buckets.length ∧ ∀ k, Lookup digest t0 k = Lookup digest t k := by
  have hle := filledCount_le t.buckets
  rw [← h.size_eq] at hle
  by_cases hc : t.size * 3 > t.buckets.length * 2
  · obtain ⟨t0, h0, hs0, hsz, hlen, hl⟩ := ol_Rehash_spec h (t.buckets.length * 2)
    refine ⟨t0, by rw [if_pos hc]; exact h0, hs0, hsz, ?_, hl⟩
    rw [hlen, hsz]; omega
  · exact ⟨t, by rw [if_neg hc], h, rfl, by omega, fun _ => rfl⟩

/-- `Insert` on any table whose `size` counts its Filled buckets: it succeeds, and the
load factor exceeds 2/3 by at most the entry just inserted. -/
theorem ol_Insert_shape (digest : K → Nat) {t : OLHashTable K V} (h : Shape t) (k : K) (v : V) :
    ∃ t1, Insert digest t k v = some t1 ∧ Shape t1 ∧ t1.size = t.size + 1 ∧
      3 * t1.size ≤ 2 * t1.buckets.length + 3 := by
  obtain ⟨t0, h0, hs0, hsz, hload, _⟩ := ol_grow_shape h
  have hfree : filledCount t0.buckets < t0.buckets.length := by
    have := hs0.pos
    rw [← hs0.size_eq]; omega
  obtain ⟨i, hsr, hi, hist⟩ := search_finds linProbes t0.buckets
    ((HashKey digest k &&& s_62Bits) &&& (t0.buckets.length - 1))
    (start_lt _ _ hs0.pos) (ol_covers_linProbes _) hfree
  refine ⟨⟨t0.buckets.set i ⟨HashKey digest k &&& s_62Bits, BSTATE.BSTATE_Filled, k, v⟩,
    t0.size + 1⟩, ?_, ⟨by simpa using hs0.pos, ?_⟩, by simp [hsz], ?_⟩
  · simp only [Insert, h0, ol_findTarget_eq, hsr]
  · simp only
    rw [filledCount_set_fill _ _ _ hi hist rfl, hs0.size_eq]
  · simp only [List.length_set]
    omega

theorem ol_Insert_spec (digest : K → Nat) {t : OLHashTable K V} (h : WF digest t) (k : K)
    (v : V) (hk : Lookup digest t k = none) :
    ∃ t1, Insert digest t k v = some t1 ∧ WF digest t1 ∧
      ∀ x, Lookup digest t1 x = if x = k then some v else Lookup digest t x := by
  obtain ⟨t0, h0, hw0, hsz, hload, hl0⟩ := ol_grow_spec h
  have hfree : filledCount t0.buckets < t0.buckets.length := by
    have := hw0.inv.pos
    rw [← hw0.size_eq]; omega
  have hk0 : ∀ w, ¬ Live t0.buckets k w := by
    rw [← lookupG_eq_none_iff hw0.inv, ← ol_Lookup_eq, hl0, hk]
  obtain ⟨i, hsr, hi, hist, hinv1, hlive1, hcnt1⟩ := place_spec hw0.inv k v hk0 hfree
  refine ⟨⟨t0.buckets.set i ⟨hashOf digest k, BSTATE.BSTATE_Filled, k, v⟩, t0.size + 1⟩,
    ?_, ⟨hinv1, ?_⟩, ?_⟩
  · simp only [Insert, h0, ol_findTarget_eq]
    simp only [hashOf] at hsr
    simp only [hsr]
    rfl
  · simp only
    rw [hcnt1, hw0.size_eq]
  · intro x
    by_cases hx : x = k
    · rw [if_pos hx, hx, ol_Lookup_eq, lookupG_eq_some_iff hinv1]
      exact (hlive1 k v).mpr (Or.inl ⟨rfl, rfl⟩)
    · rw [if_neg hx, ← hl0, ol_Lookup_eq, ol_Lookup_eq]
      apply lookupG_congr hw0.inv hinv1
      intro w
      rw [hlive1]
      constructor
      · rintro (⟨e, _⟩ | hw)
        · exact absurd e hx
        · exact hw
      · exact Or.inr

theorem ol_Remove_shape (digest : K → Nat) {t : OLHashTable K V} (h : Shape t) (k : K) :
    Shape (Remove digest t k).1 := by
  unfold Remove
  simp only
  split
  · rename_i i hs
    rw [ol_scanTwo_eq] at hs
    obtain ⟨_, hst, _, _⟩ := scanKey_found _ _ _ _ _ hs
    have hi := filled_lt _ _ hst
    refine ⟨by simpa using h.pos, ?_⟩
    have := filledCount_set_unfill t.buckets i
      ⟨0, BSTATE.BSTATE_Removed, (bucketAt t.buckets i).key, (bucketAt t.buckets i).value⟩
      hi hst (by simp)
    simp only
    rw [h.size_eq]
    omega
  · exact h

theorem ol_Remove_spec (digest : K → Nat) {t : OLHashTable K V} (h : WF digest t) (k : K) :
    (Remove digest t k).2 = (Lookup digest t k).isSome ∧ WF digest (Remove digest t k).1 ∧
      ∀ x, Lookup digest (Remove digest t k).1 x =
        if x = k then none else Lookup digest t x := by
  cases hs : scanTwo t.buckets (HashKey digest k &&& s_62Bits) k
      ((HashKey digest k &&& s_62Bits) &&& (t.buckets.length - 1)) with
  | found i =>
    have hs1 := hs
    rw [ol_scanTwo_eq] at hs1
    obtain ⟨_, hst, _, hkey⟩ := scanKey_found _ _ _ _ _ hs1
    obtain ⟨hinv1, hlive1, hcnt1⟩ := unfill_spec h.inv k i hst hkey
      ⟨0, BSTATE.BSTATE_Removed, (bucketAt t.buckets i).key, (bucketAt t.buckets i).value⟩ rfl
    have hR : Remove digest t k =
        (⟨t.buckets.set i ⟨0, BSTATE.BSTATE_Removed, (bucketAt t.buckets i).key,
            (bucketAt t.buckets i).value⟩, t.size - 1⟩, true) := by
      simp only [Remove, hs]
    have hL : Lookup digest t k = some (bucketAt t.buckets i).value := by
      simp only [Lookup, hs]
    rw [hR, hL]
    refine ⟨rfl, ⟨hinv1, ?_⟩, ?_⟩
    · simp only
      rw [h.size_eq]
      omega
    · intro x
      by_cases hx : x = k
      · rw [if_pos hx, hx, ol_Lookup_eq, lookupG_eq_none_iff hinv1]
        intro w hw
        exact ((hlive1 k w).mp hw).1 rfl
      · rw [if_neg hx, ol_Lookup_eq, ol_Lookup_eq]
        apply lookupG_congr h.inv hinv1
        intro w
        rw [hlive1]
        exact ⟨fun hw => hw.2, fun hw => ⟨hx, hw⟩⟩
  | empty =>
    have hR : Remove digest t k = (t, false) := by simp only [Remove, hs]
    have hL : Lookup digest t k = none := by simp only [Lookup, hs]
    rw [hR, hL]
    refine ⟨rfl, h, ?_⟩
    intro x
    by_cases hx : x = k
    · rw [if_pos hx, hx, hL]
    · rw [if_neg hx]
  | exhausted =>
    have hR : Remove digest t k = (t, false) := by simp only [Remove, hs]
    have hL : Lookup digest t k = none := by simp only [Lookup, hs]
    rw [hR, hL]
    refine ⟨rfl, h, ?_⟩
    intro x
    by_cases hx : x = k
    · rw [if_pos hx, hx, hL]
    · rw [if_neg hx]

/-- Every table reached from a fresh one by a duplicate-free sequence of calls is
well formed and agrees with the finite map of the sequence. -/
theorem ol_run_spec (digest : K → Nat) (ops : List (Op K V))
    (hd : Model.dupFree Model.empty ops = true) :
    ∃ t, run digest new ops = some (t, Model.removes Model.empty ops) ∧ WF digest t ∧
      ∀ k, Lookup digest t k = Model.run Model.empty ops k := by
  apply runOps_sim (WF digest) (Lookup digest) (Insert digest)
    (fun t k => some (Remove digest t k))
  · intro t k v hw hk
    exact ol_Insert_spec digest hw k v hk
  · intro t k hw
    obtain ⟨h1, h2, h3⟩ := ol_Remove_spec digest hw k
    exact ⟨(Remove digest t k).1, by rw [← h1], h2, h3⟩
  · exact ol_wf_new digest
  · intro x
    exact ol_Lookup_new digest x
  · exact hd

/-- Every table reached from a fresh one by any sequence of calls has `size` equal to
its number of Filled buckets. -/
theorem ol_run_shape (digest : K → Nat) (ops : List (Op K V)) (t : OLHashTable K V)
    (rs : List Bool) (h : run digest new ops = some (t, rs)) : Shape t := by
  apply runOps_inv Shape (Insert digest) (fun t k => some (Remove digest t k)) _ _ ops
    new t rs ol_shape_new h
  · intro t k v t1 hs h1
    obtain ⟨t2, h2, hs2, _⟩ := ol_Insert_shape digest hs k v
    rw [h1] at h2
    cases h2
    exact hs2
  · intro t k t1 r hs h1
    simp only [Option.some.injEq] at h1
    have := ol_Remove_shape digest hs k
    rw [h1] at this
    exact this

/-! ### `Reserve`, `Reset` and sequences of calls -/

theorem ol_Reset_eq (t : OLHashTable K V) : Reset t = new := rfl

/-- Every table reached by calls from a table whose `size` counts its Filled buckets
has the same property, and every call on such a table returns. -/
theorem ol_calls_shape (digest : K → Nat) :
    ∀ (calls : List (Call K V)) (t : OLHashTable K V), Shape t →
      ∃ t1, runCalls digest t calls = some t1 ∧ Shape t1 := by
  intro calls
  induction calls with
  | nil => exact fun t h => ⟨t, rfl, h⟩
  | cons c rest ih =>
    intro t h
    cases c with
    | insert k v =>
      obtain ⟨t1, h1, hs1, _⟩ := ol_Insert_shape digest h k v
      obtain ⟨t2, h2, hs2⟩ := ih t1 hs1
      exact ⟨t2, by simp only [runCalls, h1, h2], hs2⟩
    | remove k =>
      obtain ⟨t2, h2, hs2⟩ := ih _ (ol_Remove_shape digest h k)
      exact ⟨t2, by simp only [runCalls, h2], hs2⟩
    | reserve n =>
      obtain ⟨t1, h1, hs1, _⟩ := ol_Rehash_shape h (smear (n * 3 % 2 ^ 64 / 2))
      obtain ⟨t2, h2, hs2⟩ := ih t1 hs1
      exact ⟨t2, by simp only [runCalls, Reserve, h1, h2], hs2⟩
    | rehash n =>
      obtain ⟨t1, h1, hs1, _⟩ := ol_Rehash_shape h n
      obtain ⟨t2, h2, hs2⟩ := ih t1 hs1
      exact ⟨t2, by simp only [runCalls, h1, h2], hs2⟩
    | reset =>
      obtain ⟨t2, h2, hs2⟩ := ih (Reset t) ol_shape_new
      exact ⟨t2, by simp only [runCalls, h2], hs2⟩

/-- Every `Rehash` call of the sequence has a power of two, not below the number of live
entries, as its argument, and the sequence has no `Reserve` call. -/
def pow2Calls (digest : K → Nat) : OLHashTable K V → List (Call K V) → Bool
  | _, [] => true
  | t, Call.insert k v :: rest =>
    match Insert digest t k v with
    | none => true
    | some t1 => pow2Calls digest t1 rest
  | t, Call.remove k :: rest => pow2Calls digest (Remove digest t k).1 rest
  | _, Call.reserve _ :: _ => false
  | t, Call.rehash n :: rest =>
    isPow2 n && decide (t.size ≤ n) &&
      match Rehash t n with
      | none => true
      | some t1 => pow2Calls digest t1 rest
  | t, Call.reset :: rest => pow2Calls digest (Reset t) rest

/-- A table whose bucket count is a power of two, at least 16. -/
def Pow2 (t : OLHashTable K V) : Prop := ∃ j, 4 ≤ j ∧ t.buckets.length = 2 ^ j

theorem ol_pow2_new : Pow2 (new : OLHashTable K V) := ⟨4, le_refl 4, rfl⟩

/-- `Insert` on any table whose `size` counts its Filled buckets, with the bucket count
of the result: unchanged, or doubled when the load factor was over 2/3. -/
theorem ol_Insert_length (digest : K → Nat) {t : OLHashTable K V} (h : Shape t) (k : K)
    (v : V) :
    ∃ t1, Insert digest t k v = some t1 ∧ Shape t1 ∧ t1.size = t.size + 1 ∧
      (t1.buckets.length = t.buckets.length ∨
        (t.size * 3 > t.buckets.length * 2 ∧
          t1.buckets.length = max (t.buckets.length * 2) s_hashTableInitialSize)) := by
  obtain ⟨t0, h0, hs0, hsz, hload, hlen⟩ := ol_grow_shape h
  obtain ⟨t1, h1, hs1, hsz1, _⟩ := ol_Insert_shape digest h k v
  refine ⟨t1, h1, hs1, hsz1, ?_⟩
  have hfree : filledCount t0.buckets < t0.buckets.length := by
    have := hs0.pos
    rw [← hs0.size_eq]; omega
  obtain ⟨i, hsr, hi, hist⟩ := search_finds linProbes t0.buckets
    ((HashKey digest k &&& s_62Bits) &&& (t0.buckets.length - 1))
    (start_lt _ _ hs0.pos) (ol_covers_linProbes _) hfree
  have e : Insert digest t k v = some ⟨t0.buckets.set i
      ⟨HashKey digest k &&& s_62Bits, BSTATE.BSTATE_Filled, k, v⟩, t0.size + 1⟩ := by
    simp only [Insert, h0, ol_findTarget_eq, hsr]
  rw [e] at h1
  rw [← Option.some.inj h1]
  simp only [List.length_set]
  exact hlen

theorem ol_Insert_pow2 (digest : K → Nat) {t : OLHashTable K V} (h : Shape t) (hp : Pow2 t)
    (k : K) (v : V) :
    ∃ t1, Insert digest t k v = some t1 ∧ Shape t1 ∧ Pow2 t1 := by
  obtain ⟨t1, h1, hs1, _, hlen⟩ := ol_Insert_length digest h k v
  refine ⟨t1, h1, hs1, ?_⟩
  obtain ⟨j, hj4, hj⟩ := hp
  have h16 : 16 ≤ t.buckets.length := by
    rw [hj]
    calc 16 = 2 ^ 4 := rfl
      _ ≤ 2 ^ j := Nat.pow_le_pow_right (by decide) hj4
  rcases hlen with hl | ⟨_, hl⟩
  · exact ⟨j, hj4, by rw [hl, hj]⟩
  · refine ⟨j + 1, by omega, ?_⟩
    rw [hl, pow_succ, ← hj]
    simp only [s_hashTableInitialSize]
    omega

theorem ol_Remove_length (digest : K → Nat) (t : OLHashTable K V) (k : K) :
    (Remove digest t k).1.buckets.length = t.buckets.length := by
  unfold Remove
  simp only
  split <;> simp

theorem ol_Rehash_pow2 {t : OLHashTable K V} (h : Shape t) (n : Nat)
    (hn : isPow2 n = true) (hsz : t.size ≤ n) :
    ∃ t1, Rehash t n = some t1 ∧ Shape t1 ∧ Pow2 t1 := by
  obtain ⟨t1, h1, hs1, _, hlen⟩ := ol_Rehash_shape h n
  refine ⟨t1, h1, hs1, ?_⟩
  obtain ⟨j, hj⟩ := exists_of_isPow2 n hn
  by_cases h4 : 4 ≤ j
  · refine ⟨j, h4, ?_⟩
    have h16 : 16 ≤ n := by
      rw [hj]
      calc 16 = 2 ^ 4 := rfl
        _ ≤ 2 ^ j := Nat.pow_le_pow_right (by decide) h4
    rw [hlen, ← hj]
    simp only [s_hashTableInitialSize]
    omega
  · refine ⟨4, le_refl 4, ?_⟩
    have h16 : n ≤ 16 := by
      rw [hj]
      calc 2 ^ j ≤ 2 ^ 4 := Nat.pow_le_pow_right (by decide) (by omega)
        _ = 16 := rfl
    rw [hlen]
    simp only [s_hashTableInitialSize]
    omega

/-- Every table reached from a table of `2 ^ j` buckets by `Insert`, `Remove`, `Reset` and
by `Rehash` calls with a power of two that is at least the number of live entries has a
power of two as its bucket count. -/
theorem ol_calls_pow2 (digest : K → Nat) :
    ∀ (calls : List (Call K V)) (t t1 : OLHashTable K V), Shape t → Pow2 t →
      pow2Calls digest t calls = true → runCalls digest t calls = some t1 → Pow2 t1 := by
  intro calls
  induction calls with
  | nil =>
    intro t t1 _ hp _ hrun
    simp only [runCalls, Option.some.injEq] at hrun
    rw [← hrun]
    exact hp
  | cons c rest ih =>
    intro t t1 h hp hok hrun
    cases c with
    | insert k v =>
      obtain ⟨t2, h2, hs2, hp2⟩ := ol_Insert_pow2 digest h hp k v
      simp only [runCalls, pow2Calls, h2] at hrun hok
      exact ih t2 t1 hs2 hp2 hok hrun
    | remove k =>
      simp only [runCalls, pow2Calls] at hrun hok
      refine ih _ t1 (ol_Remove_shape digest h k) ?_ hok hrun
      obtain ⟨j, hj4, hj⟩ := hp
      exact ⟨j, hj4, by rw [ol_Remove_length, hj]⟩
    | reserve n => simp [pow2Calls] at hok
    | rehash n =>
      simp only [pow2Calls, Bool.and_eq_true, decide_eq_true_eq] at hok
      obtain ⟨t2, h2, hs2, hp2⟩ := ol_Rehash_pow2 h n hok.1.1 hok.1.2
      simp only [runCalls, h2] at hrun
      rw [h2] at hok
      exact ih t2 t1 hs2 hp2 hok.2 hrun
    | reset =>
      simp only [runCalls, pow2Calls] at hrun hok
      exact ih _ t1 ol_shape_new ol_pow2_new hok hrun

/-- Insertions that stay within the load factor: no growth. -/
theorem ol_inserts_fit (digest : K → Nat) :
    ∀ (kvs : List (K × V)) (t : OLHashTable K V), Shape t →
      (t.size + kvs.length) * 3 ≤ t.buckets.length * 2 + 3 →
      ∃ t1, runCalls digest t (inserts kvs) = some t1 ∧ Shape t1 ∧
        t1.buckets.length = t.buckets.length ∧ t1.size = t.size + kvs.length := by
  intro kvs
  induction kvs with
  | nil => exact fun t h _ => ⟨t, rfl, h, rfl, rfl⟩
  | cons p rest ih =>
    intro t h hfit
    simp only [List.length_cons] at hfit
    obtain ⟨t1, h1, hs1, hsz1, hlen⟩ := ol_Insert_length digest h p.1 p.2
    have hlen1 : t1.buckets.length = t.buckets.length := by
      rcases hlen with hl | ⟨hgt, _⟩
      · exact hl
      · omega
    obtain ⟨t2, h2, hs2, hlen2, hsz2⟩ := ih t1 hs1 (by rw [hsz1, hlen1]; omega)
    refine ⟨t2, ?_, hs2, by rw [hlen2, hlen1], by rw [hsz2, hsz1, List.length_cons]; omega⟩
    simp only [inserts, List.map_cons, runCalls, h1]
    exact h2

/-- `Reserve(n)` on a fresh table leaves no entry and at least `n * 3 / 2` buckets. -/
theorem ol_Reserve_new (n : Nat) (hn : n < 2 ^ 32) :
    ∃ t0, Reserve (new : OLHashTable K V) n = some t0 ∧ Shape t0 ∧ t0.size = 0 ∧
      t0.buckets.length = max (smear (n * 3 / 2)) s_hashTableInitialSize := by
  have hmod : n * 3 % 2 ^ 64 = n * 3 := Nat.mod_eq_of_lt (by omega)
  obtain ⟨t0, h0, hs0, hsz, hlen⟩ := ol_Rehash_shape (ol_shape_new (K := K) (V := V))
    (smear (n * 3 / 2))
  refine ⟨t0, ?_, hs0, hsz, ?_⟩
  · simp only [Reserve, hmod]
    exact h0
  · rw [hlen]
    simp [new]

/-! ### Repeated keys -/

/-- Well-formedness of a table that may hold a key several times. -/
structure WFD (digest : K → Nat) (t : OLHashTable K V) : Prop where
  inv : InvD (hashOf digest) linProbes t.buckets
  size_eq : t.size = filledCount t.buckets

theorem WFD.ol_shapeD {digest : K → Nat} {t : OLHashTable K V} (h : WFD digest t) : Shape t :=
  ⟨h.inv.pos, h.size_eq⟩

theorem ol_wfd_new (digest : K → Nat) : WFD digest (new : OLHashTable K V) :=
  ⟨invD_replicate _ _ _ (by decide) (ol_covers_linProbes _),
    by simp [new, filledCount_replicate]⟩

theorem ol_Rehash_dup {digest : K → Nat} {t : OLHashTable K V} (h : WFD digest t) (n : Nat) :
    ∃ t1, Rehash t n = some t1 ∧ WFD digest t1 ∧ t1.size = t.size ∧
      t1.buckets.length = max (max n t.size) s_hashTableInitialSize ∧
      ∀ k v, Live t1.buckets k v ↔ Live t.buckets k v := by
  have hpos : 0 < max (max n t.size) s_hashTableInitialSize := by
    simp [s_hashTableInitialSize]
  obtain ⟨res, hres, hinv, hlen, hcnt, hlive⟩ := rehashG_table_dup h.inv _ hpos
    (ol_covers_linProbes _) (by rw [← h.size_eq]; omega)
  refine ⟨⟨res, t.size⟩, ?_, ⟨hinv, ?_⟩, rfl, hlen, hlive⟩
  · simp only [Rehash, ol_rehashLoop_eq, hres]
  · simp [hcnt, h.size_eq]

/-- `Insert` of a key that may be live already: a further entry is added. -/
theorem ol_Insert_dup (digest : K → Nat) {t : OLHashTable K V} (h : WFD digest t) (k : K)
    (v : V) :
    ∃ t1, Insert digest t k v = some t1 ∧ WFD digest t1 ∧
      ∀ x w, Live t1.buckets x w ↔ (x = k ∧ w = v) ∨ Live t.buckets x w := by
  have hle := filledCount_le t.buckets
  rw [← h.size_eq] at hle
  obtain ⟨t0, h0, hw0, hsz, hload, hl0⟩ : ∃ t0,
      (if t.size * 3 > t.buckets.length * 2 then Rehash t (t.buckets.length * 2)
        else some t) = some t0 ∧ WFD digest t0 ∧ t0.size = t.size ∧
        3 * t0.size ≤ 2 * t0.buckets.length ∧
        ∀ x w, Live t0.buckets x w ↔ Live t.buckets x w := by
    by_cases hc : t.size * 3 > t.buckets.length * 2
    · obtain ⟨t0, h0, hs0, hsz, hlen, hl⟩ := ol_Rehash_dup h (t.buckets.length * 2)
      exact ⟨t0, by rw [if_pos hc]; exact h0, hs0, hsz, by rw [hlen, hsz]; omega, hl⟩
    · exact ⟨t, by rw [if_neg hc], h, rfl, by omega, fun _ _ => Iff.rfl⟩
  have hfree : filledCount t0.buckets < t0.buckets.length := by
    have := hw0.inv.pos
    rw [← hw0.size_eq]; omega
  obtain ⟨i, hsr, hi, hist, hinv1, hlive1, hcnt1⟩ := place_dup hw0.inv k v hfree
  refine ⟨⟨t0.buckets.set i ⟨hashOf digest k, BSTATE.BSTATE_Filled, k, v⟩, t0.size + 1⟩,
    ?_, ⟨hinv1, ?_⟩, ?_⟩
  · simp only [Insert, h0, ol_findTarget_eq]
    simp only [hashOf] at hsr
    simp only [hsr]
    rfl
  · simp only
    rw [hcnt1, hw0.size_eq]
  · intro x w
    rw [hlive1, hl0]

/-- After any sequence of `Insert` calls the table holds exactly the pairs inserted. -/
theorem ol_inserts_dup (digest : K → Nat) :
    ∀ (kvs : List (K × V)) (t : OLHashTable K V), WFD digest t →
      ∃ t1, runCalls digest t (inserts kvs) = some t1 ∧ WFD digest t1 ∧
        ∀ x w, Live t1.buckets x w ↔ (x, w) ∈ kvs ∨ Live t.buckets x w := by
  intro kvs
  induction kvs with
  | nil => exact fun t h => ⟨t, rfl, h, fun x w => by simp⟩
  | cons p rest ih =>
    intro t h
    obtain ⟨t1, h1, hw1, hl1⟩ := ol_Insert_dup digest h p.1 p.2
    obtain ⟨t2, h2, hw2, hl2⟩ := ih t1 hw1
    refine ⟨t2, ?_, hw2, ?_⟩
    · simp only [inserts, List.map_cons, runCalls, h1]
      exact h2
    · intro x w
      rw [hl2, hl1, List.mem_cons]
      constructor
      · rintro (h3 | ⟨rfl, rfl⟩ | h3)
        · exact Or.inl (Or.inr h3)
        · exact Or.inl (Or.inl rfl)
        · exact Or.inr h3
      · rintro ((h3 | h3) | h3)
        · right; left
          exact ⟨by rw [← h3], by rw [← h3]⟩
        · exact Or.inl h3
        · exact Or.inr (Or.inr h3)

/-- `Insert` step by step: after the growth step, which leaves a table that is not over
the load factor, one bucket that is not Filled receives the entry. -/
theorem ol_Insert_adds (digest : K → Nat) {t : OLHashTable K V} (h : Shape t) (k : K) (v : V) :
    ∃ t0 t1 i, (if t.size * 3 > t.buckets.length * 2 then Rehash t (t.buckets.length * 2)
        else some t) = some t0 ∧ Insert digest t k v = some t1 ∧ t0.size = t.size ∧
      t1.size = t.size + 1 ∧ i < t0.buckets.length ∧
      (bucketAt t0.buckets i).state ≠ BSTATE.BSTATE_Filled ∧
      t1.buckets = t0.buckets.set i ⟨hashOf digest k, BSTATE.BSTATE_Filled, k, v⟩ ∧
      filledCount t1.buckets = filledCount t.buckets + 1 := by
  obtain ⟨t0, h0, hs0, hsz, hload, _⟩ := ol_grow_shape h
  have hfree : filledCount t0.buckets < t0.buckets.length := by
    have := hs0.pos
    rw [← hs0.size_eq]; omega
  obtain ⟨i, hsr, hi, hist⟩ := search_finds linProbes t0.buckets
    ((HashKey digest k &&& s_62Bits) &&& (t0.buckets.length - 1))
    (start_lt _ _ hs0.pos) (ol_covers_linProbes _) hfree
  refine ⟨t0, ⟨t0.buckets.set i ⟨hashOf digest k, BSTATE.BSTATE_Filled, k, v⟩, t0.size + 1⟩,
    i, h0, ?_, hsz, by simp [hsz], hi, hist, rfl, ?_⟩
  · simp only [Insert, h0, ol_findTarget_eq, hsr]
    rfl
  · simp only
    rw [filledCount_set_fill _ _ _ hi hist rfl, ← hs0.size_eq, hsz, h.size_eq]

/-- The bucket found by the two search loops is inside the table. -/
theorem ol_findTarget_lt (bs : List (Bucket K V)) (s n j : Nat) (hs : s < n)
    (h : findTarget bs s n = some j) : j < n := by
  rw [ol_findTarget_eq] at h
  obtain ⟨pre, post, hp, _, _⟩ := searchUnused_some bs _ j h
  exact (ol_covers_linProbes n s hs).1 j (by rw [hp]; simp)

/-! ### Tombstones -/

/-- `Rehash` drops the tombstones and keeps the triples of the Filled buckets. -/
theorem ol_Rehash_triples {t : OLHashTable K V} (h : Shape t) (n : Nat) :
    ∃ t1, Rehash t n = some t1 ∧ Shape t1 ∧ t1.size = t.size ∧
      t1.buckets.length = max (max n t.size) s_hashTableInitialSize ∧
      (∀ j, (bucketAt t1.buckets j).state ≠ BSTATE.BSTATE_Removed) ∧
      (filledTriples t1.buckets).Perm (filledTriples t.buckets) := by
  obtain ⟨t1, h1, hs1, hsz, hlen⟩ := ol_Rehash_shape h n
  have hpos : 0 < max (max n t.size) s_hashTableInitialSize := by
    simp [s_hashTableInitialSize]
  have hr : rehashG linProbes (max (max n t.size) s_hashTableInitialSize) t.buckets
      (List.replicate (max (max n t.size) s_hashTableInitialSize) default) =
      some t1.buckets := by
    have := h1
    simp only [Rehash, ol_rehashLoop_eq] at this
    split at this
    · cases this
    · rename_i res hres
      cases this
      exact hres
  obtain ⟨h2, h3⟩ := rehashG_triples linProbes _ hpos (ol_covers_linProbes _) t.buckets _ _
    (by simp) hr (by intro j; rw [bucketAt_replicate]; decide)
  refine ⟨t1, h1, hs1, hsz, hlen, h2, ?_⟩
  rw [filledTriples_replicate, List.append_nil] at h3
  exact h3

/-- `Remove` on a table that may hold a key several times. -/
theorem ol_Remove_dup (digest : K → Nat) {t : OLHashTable K V} (h : WFD digest t) (k : K) :
    WFD digest (Remove digest t k).1 := by
  unfold Remove
  simp only
  split
  · rename_i i hs
    rw [ol_scanTwo_eq] at hs
    obtain ⟨_, hst, _, _⟩ := scanKey_found _ _ _ _ _ hs
    obtain ⟨hinv, hcnt⟩ := unfill_dup h.inv i hst
      ⟨0, BSTATE.BSTATE_Removed, (bucketAt t.buckets i).key, (bucketAt t.buckets i).value⟩ rfl
    refine ⟨hinv, ?_⟩
    simp only
    rw [h.size_eq]
    omega
  · exact h

/-- Every table reached by calls from a well-formed table, repeated keys allowed, is
well-formed, and every call returns. -/
theorem ol_calls_dup (digest : K → Nat) :
    ∀ (calls : List (Call K V)) (t : OLHashTable K V), WFD digest t →
      ∃ t1, runCalls digest t calls = some t1 ∧ WFD digest t1 := by
  intro calls
  induction calls with
  | nil => exact fun t h => ⟨t, rfl, h⟩
  | cons c rest ih =>
    intro t h
    cases c with
    | insert k v =>
      obtain ⟨t1, h1, hs1, _⟩ := ol_Insert_dup digest h k v
      obtain ⟨t2, h2, hs2⟩ := ih t1 hs1
      exact ⟨t2, by simp only [runCalls, h1, h2], hs2⟩
    | remove k =>
      obtain ⟨t2, h2, hs2⟩ := ih _ (ol_Remove_dup digest h k)
      exact ⟨t2, by simp only [runCalls, h2], hs2⟩
    | reserve n =>
      obtain ⟨t1, h1, hs1, _⟩ := ol_Rehash_dup h (smear (n * 3 % 2 ^ 64 / 2))
      obtain ⟨t2, h2, hs2⟩ := ih t1 hs1
      exact ⟨t2, by simp only [runCalls, Reserve, h1, h2], hs2⟩
    | rehash n =>
      obtain ⟨t1, h1, hs1, _⟩ := ol_Rehash_dup h n
      obtain ⟨t2, h2, hs2⟩ := ih t1 hs1
      exact ⟨t2, by simp only [runCalls, h1, h2], hs2⟩
    | reset =>
      obtain ⟨t2, h2, hs2⟩ := ih (Reset t) (ol_wfd_new digest)
      exact ⟨t2, by simp only [runCalls, h2], hs2⟩

/-- The search of `Insert` after the growth step: it finds the first bucket in cyclic
order from the start bucket that is not Filled. -/
theorem ol_Insert_first (digest : K → Nat) {t : OLHashTable K V} (h : Shape t) (k : K) :
    ∃ t0 i pre post, (if t.size * 3 > t.buckets.length * 2 then
        Rehash t (t.buckets.length * 2) else some t) = some t0 ∧
      findTarget t0.buckets ((HashKey digest k &&& s_62Bits) &&& (t0.buckets.length - 1))
        t0.buckets.length = some i ∧
      i < t0.buckets.length ∧ (bucketAt t0.buckets i).state ≠ BSTATE.BSTATE_Filled ∧
      linProbes t0.buckets.length
        ((HashKey digest k &&& s_62Bits) &&& (t0.buckets.length - 1)) = pre ++ i :: post ∧
      ∀ x ∈ pre, (bucketAt t0.buckets x).state = BSTATE.BSTATE_Filled := by
  obtain ⟨t0, h0, hs0, hsz, hload, _⟩ := ol_grow_shape h
  have hfree : filledCount t0.buckets < t0.buckets.length := by
    have := hs0.pos
    rw [← hs0.size_eq]; omega
  obtain ⟨i, hsr, hi, hist⟩ := search_finds linProbes t0.buckets
    ((HashKey digest k &&& s_62Bits) &&& (t0.buckets.length - 1))
    (start_lt _ _ hs0.pos) (ol_covers_linProbes _) hfree
  obtain ⟨pre, post, hp, hpre, _⟩ := searchUnused_some _ _ _ hsr
  exact ⟨t0, i, pre, post, h0, by rw [ol_findTarget_eq]; exact hsr, hi, hist, hp, hpre⟩

/-! ### The entries of a key under the calls -/

theorem ol_Rehash_keyCount {t t1 : OLHashTable K V} (h : Shape t) (n : Nat)
    (hr : Rehash t n = some t1) (k : K) :
    keyCount t1.buckets k = keyCount t.buckets k := by
  obtain ⟨t2, h2, _, _, _, _, hp⟩ := ol_Rehash_triples h n
  rw [hr] at h2
  rw [← Option.some.inj h2] at hp
  exact keyCount_perm _ _ hp k

/-- `Insert(k, v)` adds one entry for `k`, whether or not `k` has entries. -/
theorem ol_Insert_keyCount (digest : K → Nat) {t t1 : OLHashTable K V} (h : Shape t)
    (k : K) (v : V) (hi : Insert digest t k v = some t1) (x : K) :
    keyCount t1.buckets x = keyCount t.buckets x + (if k = x then 1 else 0) := by
  obtain ⟨t0, t2, i, h0, h2, _, _, hlt, hist, hbs, _⟩ := ol_Insert_adds digest h k v
  rw [hi] at h2
  rw [← Option.some.inj h2] at hbs
  have h0k : keyCount t0.buckets x = keyCount t.buckets x := by
    by_cases hc : t.size * 3 > t.buckets.length * 2
    · rw [if_pos hc] at h0
      exact ol_Rehash_keyCount h _ h0 x
    · rw [if_neg hc] at h0
      rw [← Option.some.inj h0]
  rw [hbs, keyCount_set_fill _ _ _ hlt hist rfl, h0k]

/-- `Remove(k)` on a table that may hold a key several times returns `true` exactly when
`k` has an entry, and then takes one entry for `k` away. -/
theorem ol_Remove_keyCount (digest : K → Nat) {t : OLHashTable K V} (h : WFD digest t)
    (k : K) :
    (Remove digest t k).2 = decide (0 < keyCount t.buckets k) ∧
      (∀ x, keyCount (Remove digest t k).1.buckets x =
        if x = k then keyCount t.buckets x - 1 else keyCount t.buckets x) ∧
      (Remove digest t k).1.size = if 0 < keyCount t.buckets k then t.size - 1 else t.size := by
  cases hs : scanTwo t.buckets (HashKey digest k &&& s_62Bits) k
      ((HashKey digest k &&& s_62Bits) &&& (t.buckets.length - 1)) with
  | found i =>
    have hs1 := hs
    rw [ol_scanTwo_eq] at hs1
    obtain ⟨_, hst, _, hkey⟩ := scanKey_found _ _ _ _ _ hs1
    have hi := filled_lt _ _ hst
    have hpos : 0 < keyCount t.buckets k := (keyCount_pos_iff _ _).mpr ⟨i, hst, hkey⟩
    have hR : Remove digest t k = (⟨t.buckets.set i
          ⟨0, BSTATE.BSTATE_Removed, (bucketAt t.buckets i).key, (bucketAt t.buckets i).value⟩,
        t.size - 1⟩, true) := by
      simp only [Remove, hs]
    rw [hR]
    refine ⟨by simp [hpos], ?_, by simp [hpos]⟩
    intro x
    have hc := keyCount_set_unfill t.buckets i
      ⟨0, BSTATE.BSTATE_Removed, (bucketAt t.buckets i).key, (bucketAt t.buckets i).value⟩
      hi hst (by simp) x
    simp only [hkey] at hc ⊢
    by_cases hx : x = k
    · rw [if_pos hx]
      rw [if_pos hx.symm] at hc
      omega
    · rw [if_neg hx]
      rw [if_neg (fun e => hx e.symm)] at hc
      omega
  | empty =>
    have hzero : ¬ 0 < keyCount t.buckets k := by
      intro hpos
      obtain ⟨j, hst, hkey⟩ := (keyCount_pos_iff _ _).mp hpos
      obtain ⟨v, hv⟩ := lookupG_of_live h.inv k (bucketAt t.buckets j).value ⟨j, hst, hkey, rfl⟩
      rw [← ol_Lookup_eq] at hv
      simp only [Lookup, hs] at hv
      cases hv
    have hR : Remove digest t k = (t, false) := by
      simp only [Remove, hs]
    rw [hR]
    refine ⟨by simp [hzero], ?_, by simp [hzero]⟩
    intro x
    split
    · rename_i hx
      subst hx
      simp only
      omega
    · rfl
  | exhausted =>
    have hzero : ¬ 0 < keyCount t.buckets k := by
      intro hpos
      obtain ⟨j, hst, hkey⟩ := (keyCount_pos_iff _ _).mp hpos
      obtain ⟨v, hv⟩ := lookupG_of_live h.inv k (bucketAt t.buckets j).value ⟨j, hst, hkey, rfl⟩
      rw [← ol_Lookup_eq] at hv
      simp only [Lookup, hs] at hv
      cases hv
    have hR : Remove digest t k = (t, false) := by
      simp only [Remove, hs]
    rw [hR]
    refine ⟨by simp [hzero], ?_, by simp [hzero]⟩
    intro x
    split
    · rename_i hx
      subst hx
      simp only
      omega
    · rfl

/-! ### Sequences of calls with at most one live entry per key -/

/-- Every sequence of calls on a well-formed table, none of them an `Insert` of a live
key, returns a well-formed table that agrees with the finite map of the calls. -/
theorem ol_calls_spec (digest : K → Nat) :
    ∀ (calls : List (Call K V)) (t : OLHashTable K V) (m : K → Option V), WF digest t →
      (∀ x, Lookup digest t x = m x) → C1HashTable.oneLive m calls = true →
      ∃ t1, runCalls digest t calls = some t1 ∧ WF digest t1 ∧
        ∀ x, Lookup digest t1 x = C1HashTable.mapAfter m calls x := by
  intro calls
  induction calls with
  | nil =>
    intro t m hw hl _
    exact ⟨t, rfl, hw, hl⟩
  | cons c rest ih =>
    intro t m hw hl hone
    cases c with
    | insert k v =>
      simp only [C1HashTable.oneLive, Bool.and_eq_true, Option.isNone_iff_eq_none] at hone
      obtain ⟨t1, h1, hw1, hl1⟩ := ol_Insert_spec digest hw k v (by rw [hl, hone.1])
      obtain ⟨t2, h2, hw2, hl2⟩ := ih t1 (fun x => if x = k then some v else m x) hw1
        (fun x => by rw [hl1, hl]) hone.2
      exact ⟨t2, by simp only [runCalls, h1, h2], hw2, hl2⟩
    | remove k =>
      simp only [C1HashTable.oneLive] at hone
      obtain ⟨_, hw1, hl1⟩ := ol_Remove_spec digest hw k
      obtain ⟨t2, h2, hw2, hl2⟩ := ih _ (fun x => if x = k then none else m x) hw1
        (fun x => by rw [hl1, hl]) hone
      exact ⟨t2, by simp only [runCalls, h2], hw2, hl2⟩
    | reserve n =>
      simp only [C1HashTable.oneLive] at hone
      obtain ⟨t1, h1, hw1, _, _, hl1⟩ := ol_Rehash_spec hw (smear (n * 3 % 2 ^ 64 / 2))
      obtain ⟨t2, h2, hw2, hl2⟩ := ih t1 m hw1 (fun x => by rw [hl1, hl]) hone
      exact ⟨t2, by simp only [runCalls, Reserve, h1, h2], hw2, hl2⟩
    | rehash n =>
      simp only [C1HashTable.oneLive] at hone
      obtain ⟨t1, h1, hw1, _, _, hl1⟩ := ol_Rehash_spec hw n
      obtain ⟨t2, h2, hw2, hl2⟩ := ih t1 m hw1 (fun x => by rw [hl1, hl]) hone
      exact ⟨t2, by simp only [runCalls, h1, h2], hw2, hl2⟩
    | reset =>
      simp only [C1HashTable.oneLive] at hone
      obtain ⟨t2, h2, hw2, hl2⟩ := ih (Reset t) (fun _ => none) (ol_wf_new digest)
        (fun x => ol_Lookup_new digest x) hone
      exact ⟨t2, by simp only [runCalls, h2], hw2, hl2⟩

end OLHashTable

/-! ## Part V. OQHashTable -/

namespace OQHashTable

open OpenAddr

variable {K V : Type} [Inhabited K] [Inhabited V] [DecidableEq K]

/-! ### The triangular-number probe sequence on a power-of-two table -/

theorem two_mul_tri (i : Nat) : 2 * ((i + i * i) / 2) = i + i * i := by
  have h : (i + i * i) % 2 = 0 := by
    have : i + i * i = i * (i + 1) := by ring
    rw [this]
    exact Nat.even_iff.mp (Nat.even_mul_succ_self i)
  omega

theorem tri_mono (i j : Nat) (h : i ≤ j) : (i + i * i) / 2 ≤ (j + j * j) / 2 := by
  apply Nat.div_le_div_right
  have := Nat.mul_le_mul h h
  omega

theorem coprime_two_pow_of_odd (a m : Nat) (h : a % 2 = 1) : Nat.Coprime (2 ^ m) a := by
  apply Nat.Coprime.pow_left
  rw [Nat.coprime_two_left]
  exact Nat.odd_iff.mpr h

/-- Two different steps of the probe sequence never meet within one pass over a
table of `2 ^ n` buckets. -/
theorem probe_ne_of_lt (n s i j : Nat) (hij : i < j) (hj : j < 2 ^ n)
    (h : probe s i (2 ^ n) = probe s j (2 ^ n)) : False := by
  unfold probe at h
  have hmono := tri_mono i j (Nat.le_of_lt hij)
  have hdvd : 2 ^ n ∣ (j + j * j) / 2 - (i + i * i) / 2 := by
    have h1 : (s + (j + j * j) / 2 - (s + (i + i * i) / 2)) % 2 ^ n = 0 :=
      Nat.sub_mod_eq_zero_of_mod_eq h.symm
    have h2 : s + (j + j * j) / 2 - (s + (i + i * i) / 2) =
        (j + j * j) / 2 - (i + i * i) / 2 := by
      omega
    rw [h2] at h1
    exact Nat.dvd_of_mod_eq_zero h1
  have hdvd2 : 2 ^ (n + 1) ∣ (j - i) * (j + i + 1) := by
    have e : (j - i) * (j + i + 1) = 2 * ((j + j * j) / 2 - (i + i * i) / 2) := by
      rw [Nat.mul_sub, two_mul_tri, two_mul_tri]
      obtain ⟨d, rfl⟩ := Nat.exists_eq_add_of_lt hij
      have : i + d + 1 - i = d + 1 := by omega
      rw [this]
      have e2 : i + d + 1 + (i + d + 1) * (i + d + 1) =
          (d + 1) * (i + d + 1 + i + 1) + (i + i * i) := by ring
      rw [e2]
      omega
    rw [e, pow_succ, Nat.mul_comm]
    exact Nat.mul_dvd_mul_left 2 hdvd
  have hpow : 2 ^ (n + 1) = 2 * 2 ^ n := by rw [pow_succ, Nat.mul_comm]
  rcases Nat.mod_two_eq_zero_or_one (j - i) with he | ho
  · have ho2 : (j + i + 1) % 2 = 1 := by omega
    have hc := coprime_two_pow_of_odd (j + i + 1) (n + 1) ho2
    have := Nat.le_of_dvd (by omega) (hc.dvd_of_dvd_mul_right hdvd2)
    omega
  · have hc := coprime_two_pow_of_odd (j - i) (n + 1) ho
    have := Nat.le_of_dvd (by omega) (hc.dvd_of_dvd_mul_left hdvd2)
    omega

theorem probe_injOn (n s : Nat) :
    Set.InjOn (fun i => probe s i (2 ^ n)) (Set.Iio (2 ^ n)) := by
  intro i hi j hj h
  simp only [Set.mem_Iio] at hi hj
  rcases Nat.lt_trichotomy i j with hlt | heq | hgt
  · exact (probe_ne_of_lt n s i j hlt hj h).elim
  · exact heq
  · exact (probe_ne_of_lt n s j i hgt hi h.symm).elim

theorem probe_surj (n s j : Nat) (hj : j < 2 ^ n) :
    ∃ i, i < 2 ^ n ∧ probe s i (2 ^ n) = j := by
  have hpos : 0 < 2 ^ n := Nat.two_pow_pos n
  have := Finset.surj_on_of_inj_on_of_card_le (s := Finset.range (2 ^ n))
    (t := Finset.range (2 ^ n)) (fun i _ => probe s i (2 ^ n))
    (fun a _ => Finset.mem_range.mpr (Nat.mod_lt _ hpos))
    (fun a b ha hb h => probe_injOn n s (by simpa using ha) (by simpa using hb) h)
    (le_refl _) j (Finset.mem_range.mpr hj)
  obtain ⟨i, hi, e⟩ := this
  exact ⟨i, Finset.mem_range.mp hi, e.symm⟩

/-! ### The table -/

/-- The hash `Insert`, `Lookup` and `Remove` compute for a key. -/
def hashOf (digest : K → Nat) (key : K) : Nat := HashKey digest key &&& s_62Bits

/-- Quadratic probe order of a table of `iEnd` buckets. -/
def quadProbes (iEnd iBucketStart : Nat) : List Nat := probeOrder iBucketStart iEnd

theorem covers_quadProbes (m : Nat) : Covers quadProbes (2 ^ m) := by
  intro s _
  constructor
  · intro i hi
    simp only [quadProbes, probeOrder, List.mem_map, List.mem_range] at hi
    obtain ⟨a, _, rfl⟩ := hi
    exact Nat.mod_lt _ (Nat.two_pow_pos m)
  · intro j hj
    simp only [quadProbes, probeOrder, List.mem_map, List.mem_range]
    obtain ⟨i, hi, e⟩ := probe_surj m s j hj
    exact ⟨i, hi, e⟩

theorem oq_rehashLoop_eq (n : Nat) (old acc : List (Bucket K V)) :
    rehashLoop n old acc = rehashG quadProbes n old acc := by
  induction old generalizing acc with
  | nil => rfl
  | cons b rest ih =>
    simp only [rehashLoop, rehashG, quadProbes]
    split
    · exact ih acc
    · split
      · rfl
      · exact ih _

theorem oq_Lookup_eq (digest : K → Nat) (t : OQHashTable K V) (key : K) :
    Lookup digest t key = lookupG quadProbes t.buckets (hashOf digest key) key := rfl

/-- Well-formedness of a table holding at most one entry per key; the bucket count is
a power of two, at least 16. -/
structure WF (digest : K → Nat) (t : OQHashTable K V) : Prop where
  inv : Inv (hashOf digest) quadProbes t.buckets
  size_eq : t.size = filledCount t.buckets
  pow2 : ∃ m, 4 ≤ m ∧ t.buckets.length = 2 ^ m

theorem oq_wf_new (digest : K → Nat) : WF digest (new : OQHashTable K V) :=
  ⟨inv_replicate _ _ _ (by decide) (covers_quadProbes 4),
    by simp [new, filledCount_replicate], ⟨4, le_refl _, by simp [new, s_hashTableInitialSize]⟩⟩

theorem oq_Lookup_new (digest : K → Nat) (k : K) :
    Lookup digest (new : OQHashTable K V) k = none := by
  rw [oq_Lookup_eq, lookupG_eq_none_iff (oq_wf_new digest).inv]
  exact fun v => not_live_replicate _ k v

/-- The `Rehash` that `Insert` calls: the bucket count doubles and stays a power of
two, so the probe sequence still reaches every bucket. -/
theorem oq_Rehash_double {digest : K → Nat} {t : OQHashTable K V} (h : WF digest t) :
    ∃ t1, Rehash t (t.buckets.length * 2) = some t1 ∧ WF digest t1 ∧ t1.size = t.size ∧
      t1.buckets.length = t.buckets.length * 2 ∧
      ∀ k, Lookup digest t1 k = Lookup digest t k := by
  obtain ⟨m, hm, hlen⟩ := h.pow2
  have hle := filledCount_le t.buckets
  rw [← h.size_eq] at hle
  have h16 : 16 ≤ 2 ^ m := by
    calc 16 = 2 ^ 4 := by norm_num
      _ ≤ 2 ^ m := Nat.pow_le_pow_right (by decide) hm
  have hN : max (max (t.buckets.length * 2) t.size) s_hashTableInitialSize = 2 ^ (m + 1) := by
    rw [pow_succ, ← hlen]
    simp only [s_hashTableInitialSize]
    omega
  obtain ⟨res, hres, hinv, hlen1, hcnt, hlive⟩ := rehashG_table h.inv (2 ^ (m + 1))
    (Nat.two_pow_pos _) (covers_quadProbes _)
    (by rw [← h.size_eq, pow_succ, ← hlen]; omega)
  refine ⟨⟨res, t.size⟩, ?_, ⟨hinv, ?_, ⟨m + 1, by omega, hlen1⟩⟩, rfl, ?_, ?_⟩
  · simp only [Rehash, oq_rehashLoop_eq, hN, hres]
  · simp [hcnt, h.size_eq]
  · simp only [hlen1, pow_succ, hlen]
  · intro k
    rw [oq_Lookup_eq, oq_Lookup_eq]
    exact lookupG_congr h.inv hinv k (hlive k)

theorem oq_grow_spec {digest : K → Nat} {t : OQHashTable K V} (h : WF digest t) :
    ∃ t0, (if t.size * 3 > t.buckets.length * 2 then Rehash t (t.buckets.length * 2)
        else some t) = some t0 ∧ WF digest t0 ∧ t0.size = t.size ∧
      3 * t0.size ≤ 2 * t0.buckets.length ∧ ∀ k, Lookup digest t0 k = Lookup digest t k := by
  have hle := filledCount_le t.buckets
  rw [← h.size_eq] at hle
  by_cases hc : t.size * 3 > t.buckets.length * 2
  · obtain ⟨t0, h0, hs0, hsz, hlen, hl⟩ := oq_Rehash_double h
    refine ⟨t0, by rw [if_pos hc]; exact h0, hs0, hsz, ?_, hl⟩
    rw [hlen, hsz]; omega
  · exact ⟨t, by rw [if_neg hc], h, rfl, by omega, fun _ => rfl⟩

theorem oq_Insert_spec (digest : K → Nat) {t : OQHashTable K V} (h : WF digest t) (k : K)
    (v : V) (hk : Lookup digest t k = none) :
    ∃ t1, Insert digest t k v = some t1 ∧ WF digest t1 ∧
      ∀ x, Lookup digest t1 x = if x = k then some v else Lookup digest t x := by
  obtain ⟨t0, h0, hw0, hsz, hload, hl0⟩ := oq_grow_spec h
  have hfree : filledCount t0.buckets < t0.buckets.length := by
    have := hw0.inv.pos
    rw [← hw0.size_eq]; omega
  have hk0 : ∀ w, ¬ Live t0.buckets k w := by
    rw [← lookupG_eq_none_iff hw0.inv, ← oq_Lookup_eq, hl0, hk]
  obtain ⟨i, hsr, hi, hist, hinv1, hlive1, hcnt1⟩ := place_spec hw0.inv k v hk0 hfree
  refine ⟨⟨t0.buckets.set i ⟨hashOf digest k, BSTATE.BSTATE_Filled, k, v⟩, t0.size + 1⟩,
    ?_, ⟨hinv1, ?_, ?_⟩, ?_⟩
  · simp only [Insert, h0]
    simp only [hashOf, quadProbes] at hsr
    simp only [hsr]
    rfl
  · simp only
    rw [hcnt1, hw0.size_eq]
  · simpa using hw0.pow2
  · intro x
    by_cases hx : x = k
    · rw [if_pos hx, hx, oq_Lookup_eq, lookupG_eq_some_iff hinv1]
      exact (hlive1 k v).mpr (Or.inl ⟨rfl, rfl⟩)
    · rw [if_neg hx, ← hl0, oq_Lookup_eq, oq_Lookup_eq]
      apply lookupG_congr hw0.inv hinv1
      intro w
      rw [hlive1]
      constructor
      · rintro (⟨e, _⟩ | hw)
        · exact absurd e hx
        · exact hw
      · exact Or.inr

theorem oq_Remove_spec (digest : K → Nat) {t : OQHashTable K V} (h : WF digest t) (k : K) :
    (Remove digest t k).2 = (Lookup digest t k).isSome ∧ WF digest (Remove digest t k).1 ∧
      ∀ x, Lookup digest (Remove digest t k).1 x =
        if x = k then none else Lookup digest t x := by
  cases hs : scanKey t.buckets (HashKey digest k &&& s_62Bits) k
      (probeOrder ((HashKey digest k &&& s_62Bits) &&& (t.buckets.length - 1))
        t.buckets.length) with
  | found i =>
    obtain ⟨_, hst, _, hkey⟩ := scanKey_found _ _ _ _ _ hs
    obtain ⟨hinv1, hlive1, hcnt1⟩ := unfill_spec h.inv k i hst hkey
      ⟨0, BSTATE.BSTATE_Removed, (bucketAt t.buckets i).key, (bucketAt t.buckets i).value⟩ rfl
    have hR : Remove digest t k =
        (⟨t.buckets.set i ⟨0, BSTATE.BSTATE_Removed, (bucketAt t.buckets i).key,
            (bucketAt t.buckets i).value⟩, t.size - 1⟩, true) := by
      simp only [Remove, hs]
    have hL : Lookup digest t k = some (bucketAt t.buckets i).value := by
      simp only [Lookup, hs]
    rw [hR, hL]
    refine ⟨rfl, ⟨hinv1, ?_, by simpa using h.pow2⟩, ?_⟩
    · simp only
      rw [h.size_eq]
      omega
    · intro x
      by_cases hx : x = k
      · rw [if_pos hx, hx, oq_Lookup_eq, lookupG_eq_none_iff hinv1]
        intro w hw
        exact ((hlive1 k w).mp hw).1 rfl
      · rw [if_neg hx, oq_Lookup_eq, oq_Lookup_eq]
        apply lookupG_congr h.inv hinv1
        intro w
        rw [hlive1]
        exact ⟨fun hw => hw.2, fun hw => ⟨hx, hw⟩⟩
  | empty =>
    have hR : Remove digest t k = (t, false) := by simp only [Remove, hs]
    have hL : Lookup digest t k = none := by simp only [Lookup, hs]
    rw [hR, hL]
    refine ⟨rfl, h, ?_⟩
    intro x
    by_cases hx : x = k
    · rw [if_pos hx, hx, hL]
    · rw [if_neg hx]
  | exhausted =>
    have hR : Remove digest t k = (t, false) := by simp only [Remove, hs]
    have hL : Lookup digest t k = none := by simp only [Lookup, hs]
    rw [hR, hL]
    refine ⟨rfl, h, ?_⟩
    intro x
    by_cases hx : x = k
    · rw [if_pos hx, hx, hL]
    · rw [if_neg hx]

/-- Every table reached from a fresh one by a duplicate-free sequence of calls is
well formed and agrees with the finite map of the sequence. -/
theorem oq_run_spec (digest : K → Nat) (ops : List (Op K V))
    (hd : Model.dupFree Model.empty ops = true) :
    ∃ t, run digest new ops = some (t, Model.removes Model.empty ops) ∧ WF digest t ∧
      ∀ k, Lookup digest t k = Model.run Model.empty ops k := by
  apply runOps_sim (WF digest) (Lookup digest) (Insert digest)
    (fun t k => some (Remove digest t k))
  · intro t k v hw hk
    exact oq_Insert_spec digest hw k v hk
  · intro t k hw
    obtain ⟨h1, h2, h3⟩ := oq_Remove_spec digest hw k
    exact ⟨(Remove digest t k).1, by rw [← h1], h2, h3⟩
  · exact oq_wf_new digest
  · intro x
    exact oq_Lookup_new digest x
  · exact hd

/-! ### Tables grown by doubling, duplicates allowed -/

/-- Shape of a table grown by doubling, duplicates allowed: `size` counts the Filled
buckets and the bucket count is a power of two, at least 16. -/
structure Grown (t : OQHashTable K V) : Prop where
  size_eq : t.size = filledCount t.buckets
  pow2 : ∃ m, 4 ≤ m ∧ t.buckets.length = 2 ^ m

theorem oq_grown_new : Grown (new : OQHashTable K V) :=
  ⟨by simp [new, filledCount_replicate], ⟨4, le_refl _, by simp [new, s_hashTableInitialSize]⟩⟩

theorem oq_sixteen_le {t : OQHashTable K V} (h : Grown t) : 16 ≤ t.buckets.length := by
  obtain ⟨m, hm, hlen⟩ := h.pow2
  rw [hlen]
  calc 16 = 2 ^ 4 := rfl
    _ ≤ 2 ^ m := Nat.pow_le_pow_right (by decide) hm

/-- The `Rehash` that `Insert` calls re-places every Filled bucket, whatever the keys
are: the doubled bucket count is a power of two, where the probe sequence reaches every
bucket. -/
theorem oq_Rehash_grown {t : OQHashTable K V} (h : Grown t) :
    ∃ t1, Rehash t (t.buckets.length * 2) = some t1 ∧ Grown t1 ∧ t1.size = t.size ∧
      t1.buckets.length = t.buckets.length * 2 := by
  obtain ⟨m, hm, hlen⟩ := h.pow2
  have h16 := oq_sixteen_le h
  have hle := filledCount_le t.buckets
  rw [← h.size_eq] at hle
  have hN : max (max (t.buckets.length * 2) t.size) s_hashTableInitialSize = 2 ^ (m + 1) := by
    rw [pow_succ, ← hlen]
    simp only [s_hashTableInitialSize]
    omega
  obtain ⟨res, hres, hlen1, hcnt⟩ := rehashG_count quadProbes (2 ^ (m + 1))
    (Nat.two_pow_pos _) (covers_quadProbes _) t.buckets
    (List.replicate (2 ^ (m + 1)) default) (by simp)
    (by rw [filledCount_replicate, ← h.size_eq, pow_succ, ← hlen]; omega)
  refine ⟨⟨res, t.size⟩, ?_, ⟨?_, ⟨m + 1, by omega, hlen1⟩⟩, rfl, ?_⟩
  · simp only [Rehash, oq_rehashLoop_eq, hN, hres]
  · simp [hcnt, filledCount_replicate, h.size_eq]
  · simp only [hlen1, pow_succ, hlen]

/-- `Insert` on a table grown by doubling finds a bucket that is not Filled, whatever
the keys are. -/
theorem oq_Insert_grown (digest : K → Nat) {t : OQHashTable K V} (h : Grown t) (k : K)
    (v : V) :
    ∃ t1, Insert digest t k v = some t1 ∧ Grown t1 ∧ t1.size = t.size + 1 := by
  have hle := filledCount_le t.buckets
  rw [← h.size_eq] at hle
  have h16 := oq_sixteen_le h
  obtain ⟨t0, h0, hg0, hsz, hload⟩ : ∃ t0,
      (if t.size * 3 > t.buckets.length * 2 then Rehash t (t.buckets.length * 2)
        else some t) = some t0 ∧ Grown t0 ∧ t0.size = t.size ∧
        3 * t0.size ≤ 2 * t0.buckets.length := by
    by_cases hc : t.size * 3 > t.buckets.length * 2
    · obtain ⟨t0, h0, hg0, hsz, hlen⟩ := oq_Rehash_grown h
      exact ⟨t0, by rw [if_pos hc]; exact h0, hg0, hsz, by rw [hlen, hsz]; omega⟩
    · exact ⟨t, by rw [if_neg hc], h, rfl, by omega⟩
  have h16' := oq_sixteen_le hg0
  have hfree : filledCount t0.buckets < t0.buckets.length := by
    rw [← hg0.size_eq]; omega
  obtain ⟨m, _, hm⟩ := hg0.pow2
  obtain ⟨i, hsr, hi, hist⟩ := search_finds quadProbes t0.buckets
    ((HashKey digest k &&& s_62Bits) &&& (t0.buckets.length - 1))
    (start_lt _ _ (by omega)) (by rw [hm]; exact covers_quadProbes m) hfree
  refine ⟨⟨t0.buckets.set i ⟨HashKey digest k &&& s_62Bits, BSTATE.BSTATE_Filled, k, v⟩,
    t0.size + 1⟩, ?_, ⟨?_, by simpa using hg0.pow2⟩, by simp [hsz]⟩
  · simp only [quadProbes] at hsr
    simp only [Insert, h0, hsr]
  · simp only
    rw [filledCount_set_fill _ _ _ hi hist rfl, hg0.size_eq]

theorem oq_Remove_grown (digest : K → Nat) {t : OQHashTable K V} (h : Grown t) (k : K) :
    Grown (Remove digest t k).1 := by
  unfold Remove
  simp only
  split
  · rename_i i hs
    obtain ⟨_, hst, _, _⟩ := scanKey_found _ _ _ _ _ hs
    have hi := filled_lt _ _ hst
    refine ⟨?_, by simpa using h.pow2⟩
    have := filledCount_set_unfill t.buckets i
      ⟨0, BSTATE.BSTATE_Removed, (bucketAt t.buckets i).key, (bucketAt t.buckets i).value⟩
      hi hst (by simp)
    simp only
    rw [h.size_eq]
    omega
  · exact h

/-- Every sequence of `Insert`, `Remove` and `Reset` calls on a table grown by doubling
returns: no `assert(bTarget)` fails, in `Insert` or in the `Rehash` it calls. -/
theorem oq_calls_grown (digest : K → Nat) :
    ∀ (calls : List (Call K V)) (t : OQHashTable K V), Grown t →
      calls.all Call.basic = true →
      ∃ t1, runCalls digest t calls = some t1 ∧ Grown t1 := by
  intro calls
  induction calls with
  | nil => exact fun t h _ => ⟨t, rfl, h⟩
  | cons c rest ih =>
    intro t h hb
    simp only [List.all_cons, Bool.and_eq_true] at hb
    cases c with
    | insert k v =>
      obtain ⟨t1, h1, hg1, _⟩ := oq_Insert_grown digest h k v
      obtain ⟨t2, h2, hg2⟩ := ih t1 hg1 hb.2
      exact ⟨t2, by simp only [runCalls, h1, h2], hg2⟩
    | remove k =>
      obtain ⟨t2, h2, hg2⟩ := ih _ (oq_Remove_grown digest h k) hb.2
      exact ⟨t2, by simp only [runCalls, h2], hg2⟩
    | reserve n => simp [Call.basic] at hb
    | rehash n => simp [Call.basic] at hb
    | reset =>
      obtain ⟨t2, h2, hg2⟩ := ih (Reset t) oq_grown_new hb.2
      exact ⟨t2, by simp only [runCalls, h2], hg2⟩

end OQHashTable

/-! ## Part VI. Linked chains -/

namespace Chain

/-- `l` lists the nodes of the chain that starts at `h`, in order, up to its end. -/
def IsChain (next : Nat → Option Nat) : Option Nat → List Nat → Prop
  | h, [] => h = none
  | h, i :: l => h = some i ∧ IsChain next (next i) l

theorem isChain_congr {next next1 : Nat → Option Nat} {l : List Nat} {h : Option Nat}
    (hc : ∀ i ∈ l, next1 i = next i) (hl : IsChain next h l) : IsChain next1 h l := by
  induction l generalizing h with
  | nil => exact hl
  | cons i l ih =>
    obtain ⟨h1, h2⟩ := hl
    refine ⟨h1, ?_⟩
    rw [hc i (List.mem_cons_self _ _)]
    exact ih (fun j hj => hc j (List.mem_cons_of_mem _ hj)) h2

theorem isChain_update {next : Nat → Option Nat} {l : List Nat} {h : Option Nat}
    (i : Nat) (x : Option Nat) (hi : i ∉ l) (hl : IsChain next h l) :
    IsChain (Function.update next i x) h l := by
  apply isChain_congr _ hl
  intro j hj
  have : j ≠ i := fun e => hi (e ▸ hj)
  simp [Function.update, this]

theorem isChain_unique {next : Nat → Option Nat} {l l1 : List Nat} {h : Option Nat}
    (hl : IsChain next h l) (hl1 : IsChain next h l1) : l = l1 := by
  induction l generalizing h l1 with
  | nil =>
    cases l1 with
    | nil => rfl
    | cons j l1 =>
      have h1 : h = none := hl
      have h2 : h = some j := hl1.1
      rw [h1] at h2; cases h2
  | cons i l ih =>
    cases l1 with
    | nil =>
      have h1 : h = some i := hl.1
      have h2 : h = none := hl1
      rw [h1] at h2; cases h2
    | cons j l1 =>
      have h1 : h = some i := hl.1
      have h2 : h = some j := hl1.1
      rw [h1] at h2
      cases h2
      rw [ih hl.2 hl1.2]

theorem chainFind_spec (next : Nat → Option Nat) (hit : Nat → Bool) :
    ∀ (l : List Nat) (fuel : Nat) (h : Option Nat), IsChain next h l → l.length ≤ fuel →
      chainFind next hit fuel h = some (l.find? hit) := by
  intro l
  induction l with
  | nil =>
    intro fuel h hl _
    have : h = none := hl
    subst this
    cases fuel <;> rfl
  | cons i l ih =>
    intro fuel h hl hf
    obtain ⟨h1, h2⟩ := hl
    subst h1
    cases fuel with
    | zero => simp at hf
    | succ fuel =>
      simp only [chainFind, List.find?_cons]
      cases hh : hit i with
      | true => simp
      | false =>
        simp only [Bool.false_eq_true, if_false]
        exact ih fuel _ h2 (by simpa using hf)

/-- First node of `l` that satisfies `hit`, with its predecessor (`q` before the
head). -/
def findPrev (hit : Nat → Bool) : Nat → List Nat → Option (Nat × Nat)
  | _, [] => none
  | q, e :: l => if hit e then some (e, q) else findPrev hit e l

theorem chainFindPrev_spec (next : Nat → Option Nat) (hit : Nat → Bool) :
    ∀ (l : List Nat) (fuel : Nat) (h : Option Nat) (q : Nat), IsChain next h l →
      l.length ≤ fuel → chainFindPrev next hit fuel h q = some (findPrev hit q l) := by
  intro l
  induction l with
  | nil =>
    intro fuel h q hl _
    have : h = none := hl
    subst this
    cases fuel <;> rfl
  | cons i l ih =>
    intro fuel h q hl hf
    obtain ⟨h1, h2⟩ := hl
    subst h1
    cases fuel with
    | zero => simp at hf
    | succ fuel =>
      simp only [chainFindPrev, findPrev]
      cases hh : hit i with
      | true => simp
      | false =>
        simp only [Bool.false_eq_true, if_false]
        exact ih fuel _ i h2 (by simpa using hf)

theorem findPrev_some (hit : Nat → Bool) :
    ∀ (l : List Nat) (q e p : Nat), hit q = false → findPrev hit q l = some (e, p) →
      ∃ A post, q :: l = A ++ p :: e :: post ∧ (∀ x ∈ A, hit x = false) ∧
        hit p = false ∧ hit e = true := by
  intro l
  induction l with
  | nil => intro q e p _ h; simp [findPrev] at h
  | cons i l ih =>
    intro q e p hq h
    simp only [findPrev] at h
    cases hh : hit i with
    | true =>
      simp only [hh, if_true, Option.some.injEq, Prod.mk.injEq] at h
      obtain ⟨rfl, rfl⟩ := h
      exact ⟨[], l, rfl, by simp, hq, hh⟩
    | false =>
      simp only [hh, Bool.false_eq_true, if_false] at h
      obtain ⟨A, post, e1, hA, hp, he⟩ := ih i e p hh h
      refine ⟨q :: A, post, by simp [e1], ?_, hp, he⟩
      intro x hx
      rcases List.mem_cons.mp hx with rfl | hx
      · exact hq
      · exact hA x hx

theorem findPrev_none (hit : Nat → Bool) :
    ∀ (l : List Nat) (q : Nat), findPrev hit q l = none → ∀ x ∈ l, hit x = false := by
  intro l
  induction l with
  | nil => intro q _ x hx; simp at hx
  | cons i l ih =>
    intro q h x hx
    simp only [findPrev] at h
    cases hh : hit i with
    | true => simp [hh] at h
    | false =>
      simp only [hh, Bool.false_eq_true, if_false] at h
      rcases List.mem_cons.mp hx with rfl | hx
      · exact hh
      · exact ih i h x hx

/-- Unlinking the node `e` after `p`: `p->pNext = e->pNext`. -/
theorem isChain_unlink {next : Nat → Option Nat} :
    ∀ (A : List Nat) (p e : Nat) (post : List Nat) (h : Option Nat),
      IsChain next h (A ++ p :: e :: post) → (A ++ p :: e :: post).Nodup →
      IsChain (Function.update next p (next e)) h (A ++ p :: post) := by
  intro A
  induction A with
  | nil =>
    intro p e post h hl hn
    simp only [List.nil_append, List.nodup_cons, List.mem_cons, not_or] at hl hn ⊢
    obtain ⟨h1, h2, h3⟩ := hl
    refine ⟨h1, ?_⟩
    simp only [Function.update_same]
    exact isChain_update p _ hn.1.2 h3
  | cons x A ih =>
    intro p e post h hl hn
    simp only [List.cons_append, List.nodup_cons] at hl hn ⊢
    obtain ⟨h1, h2⟩ := hl
    refine ⟨h1, ?_⟩
    have hxp : x ≠ p := by
      intro e1
      apply hn.1
      rw [e1]
      simp
    rw [Function.update_noteq hxp]
    exact ih p e post _ h2 hn.2

end Chain

/-! ## Part VII. C0HashTable -/

namespace C0HashTable

open Chain

variable {K V : Type} [Inhabited K] [Inhabited V] [DecidableEq K]

theorem c0_elemAt_set (pool : List (Elem K V)) (i j : Nat) (x : Elem K V)
    (hi : i < pool.length) :
    elemAt (pool.set i x) j = if j = i then x else elemAt pool j := by
  unfold elemAt
  by_cases h : j = i
  · subst h; simp [List.getD_eq_getElem?_getD, List.getElem?_set_self hi]
  · have h2 : i ≠ j := fun e => h e.symm
    simp [List.getD_eq_getElem?_getD, List.getElem?_set_ne h2, h]

theorem c0_elemAt_set_ne (pool : List (Elem K V)) (i j : Nat) (x : Elem K V) (h : j ≠ i) :
    elemAt (pool.set i x) j = elemAt pool j := by
  unfold elemAt
  have h2 : i ≠ j := fun e => h e.symm
  simp [List.getD_eq_getElem?_getD, List.getElem?_set_ne h2]

theorem c0_headAt_set (bs : List Bucket) (b c : Nat) (x : Bucket) (hb : b < bs.length) :
    headAt (bs.set b x) c = if c = b then x.pHead else headAt bs c := by
  unfold headAt
  by_cases h : c = b
  · subst h; simp [List.getD_eq_getElem?_getD, List.getElem?_set_self hb]
  · have h2 : b ≠ c := fun e => h e.symm
    simp [List.getD_eq_getElem?_getD, List.getElem?_set_ne h2, h]

theorem c0_nextOf_set (pool : List (Elem K V)) (i : Nat) (x : Elem K V)
    (hi : i < pool.length) :
    nextOf (pool.set i x) = Function.update (nextOf pool) i x.pNext := by
  funext j
  unfold nextOf
  rw [c0_elemAt_set pool i j x hi]
  by_cases h : j = i
  · subst h; simp
  · simp [h]

/-- The bucket of a key. -/
def bucketOf (digest : K → Nat) (t : C0HashTable K V) (key : K) : Nat :=
  HashKey digest key &&& (t.buckets.length - 1)

/-- Structure of a table: `L b` lists the chain of bucket `b`, `F` the free list and
`used` the nodes of all chains. -/
structure Shape (digest : K → Nat) (t : C0HashTable K V) (L : Nat → List Nat)
    (F used : List Nat) : Prop where
  pos : 0 < t.buckets.length
  pool_len : t.elemPool.length = t.buckets.length
  chain : ∀ b, b < t.buckets.length → IsChain (nextOf t.elemPool) (headAt t.buckets b) (L b)
  free : IsChain (nextOf t.elemPool) t.pElemFreeHead F
  nodupL : ∀ b, b < t.buckets.length → (L b).Nodup
  nodupF : F.Nodup
  nodupU : used.Nodup
  used_iff : ∀ i, i ∈ used ↔ ∃ b, b < t.buckets.length ∧ i ∈ L b
  disj : ∀ i, i ∈ used → i ∉ F
  bound : ∀ i, (i ∈ used ∨ i ∈ F) → i < t.elemPool.length
  cover : F.length + used.length = t.elemPool.length
  home : ∀ b, b < t.buckets.length → ∀ i ∈ L b,
    (elemAt t.elemPool i).hash &&& (t.buckets.length - 1) = b
  hash_ok : ∀ i ∈ used, (elemAt t.elemPool i).hash = HashKey digest (elemAt t.elemPool i).key
  size_eq : t.size = used.length

/-- At most one chain node per key. -/
def KeysInj (t : C0HashTable K V) (used : List Nat) : Prop :=
  ∀ i ∈ used, ∀ j ∈ used, (elemAt t.elemPool i).key = (elemAt t.elemPool j).key → i = j

/-- Well-formedness of a table holding at most one entry per key. -/
def WF (digest : K → Nat) (t : C0HashTable K V) : Prop :=
  ∃ L F used, Shape digest t L F used ∧ KeysInj t used

/-- The pair `(k, v)` is held by a chain node. -/
def Holds (t : C0HashTable K V) (used : List Nat) (k : K) (v : V) : Prop :=
  ∃ i ∈ used, (elemAt t.elemPool i).key = k ∧ (elemAt t.elemPool i).value = v

theorem c0_chain_length_le {digest : K → Nat} {t : C0HashTable K V} {L : Nat → List Nat}
    {F used : List Nat} (h : Shape digest t L F used) (b : Nat) (hb : b < t.buckets.length) :
    (L b).length ≤ t.elemPool.length := by
  have h1 : (L b).length ≤ used.length :=
    (List.Nodup.subperm (h.nodupL b hb)
      (fun i hi => (h.used_iff i).mpr ⟨b, hb, hi⟩)).length_le
  have := h.cover
  omega

theorem c0_bucketOf_lt (digest : K → Nat) (t : C0HashTable K V) (k : K)
    (hpos : 0 < t.buckets.length) : bucketOf digest t k < t.buckets.length :=
  OpenAddr.start_lt _ _ hpos

theorem c0_Lookup_shape {digest : K → Nat} {t : C0HashTable K V} {L : Nat → List Nat}
    {F used : List Nat} (h : Shape digest t L F used) (k : K) :
    Lookup digest t k =
      some (((L (bucketOf digest t k)).find? (hitOf t.elemPool (HashKey digest k) k)).map
        (fun e => (elemAt t.elemPool e).value)) := by
  have hb := c0_bucketOf_lt digest t k h.pos
  have hf := chainFind_spec (nextOf t.elemPool) (hitOf t.elemPool (HashKey digest k) k)
    (L (bucketOf digest t k)) t.elemPool.length _ (h.chain _ hb) (c0_chain_length_le h _ hb)
  unfold bucketOf at hf ⊢
  simp only [Lookup, hf]
  cases (L (HashKey digest k &&& (t.buckets.length - 1))).find?
    (hitOf t.elemPool (HashKey digest k) k) <;> rfl

theorem c0_Lookup_holds {digest : K → Nat} {t : C0HashTable K V} {L : Nat → List Nat}
    {F used : List Nat} (h : Shape digest t L F used) (hk : KeysInj t used) (k : K) (v : V)
    (hv : Holds t used k v) : Lookup digest t k = some (some v) := by
  obtain ⟨i, hi, hik, hiv⟩ := hv
  obtain ⟨b, hb, hib⟩ := (h.used_iff i).mp hi
  have hbk : bucketOf digest t k = b := by
    unfold bucketOf
    rw [← hik, ← h.hash_ok i hi]
    exact h.home b hb i hib
  rw [c0_Lookup_shape h k, hbk]
  have hhit : hitOf t.elemPool (HashKey digest k) k i = true := by
    simp [hitOf, hik, h.hash_ok i hi]
  cases hf : (L b).find? (hitOf t.elemPool (HashKey digest k) k) with
  | none =>
    have := List.find?_eq_none.mp hf i hib
    simp [hhit] at this
  | some j =>
    have hj := List.find?_some hf
    have hjm := List.mem_of_find?_eq_some hf
    simp only [hitOf, decide_eq_true_eq] at hj
    have : j = i := hk j ((h.used_iff j).mpr ⟨b, hb, hjm⟩) i hi (by rw [hj.2, hik])
    simp [this, hiv]

theorem c0_Lookup_absent {digest : K → Nat} {t : C0HashTable K V} {L : Nat → List Nat}
    {F used : List Nat} (h : Shape digest t L F used) (k : K)
    (hv : ∀ v, ¬ Holds t used k v) : Lookup digest t k = some none := by
  have hb := c0_bucketOf_lt digest t k h.pos
  rw [c0_Lookup_shape h k]
  cases hf : (L (bucketOf digest t k)).find? (hitOf t.elemPool (HashKey digest k) k) with
  | none => rfl
  | some j =>
    have hj := List.find?_some hf
    have hjm := List.mem_of_find?_eq_some hf
    simp only [hitOf, decide_eq_true_eq] at hj
    exact absurd ⟨j, (h.used_iff j).mpr ⟨_, hb, hjm⟩, hj.2, rfl⟩ (hv _)

theorem c0_Lookup_iff {digest : K → Nat} {t : C0HashTable K V} {L : Nat → List Nat}
    {F used : List Nat} (h : Shape digest t L F used) (hk : KeysInj t used) (k : K) (v : V) :
    Lookup digest t k = some (some v) ↔ Holds t used k v := by
  constructor
  · intro hl
    by_contra hn
    by_cases hex : ∃ w, Holds t used k w
    · obtain ⟨w, hw⟩ := hex
      have := c0_Lookup_holds h hk k w hw
      rw [hl] at this
      simp only [Option.some.injEq] at this
      exact hn (this ▸ hw)
    · have := c0_Lookup_absent h k (fun w hw => hex ⟨w, hw⟩)
      rw [hl] at this
      cases this
  · exact c0_Lookup_holds h hk k v

/-- Two well-formed tables that hold the same pairs for `k` answer `Lookup(k)` alike. -/
theorem c0_Lookup_congr {digest : K → Nat} {t t1 : C0HashTable K V} {L L1 : Nat → List Nat}
    {F F1 used used1 : List Nat} (h : Shape digest t L F used) (hk : KeysInj t used)
    (h1 : Shape digest t1 L1 F1 used1) (hk1 : KeysInj t1 used1) (k : K)
    (hh : ∀ v, Holds t1 used1 k v ↔ Holds t used k v) :
    Lookup digest t1 k = Lookup digest t k := by
  by_cases hex : ∃ w, Holds t used k w
  · obtain ⟨w, hw⟩ := hex
    rw [c0_Lookup_holds h hk k w hw, c0_Lookup_holds h1 hk1 k w ((hh w).mpr hw)]
  · rw [c0_Lookup_absent h k (fun w hw => hex ⟨w, hw⟩),
      c0_Lookup_absent h1 k (fun w hw => hex ⟨w, (hh w).mp hw⟩)]

/-- The second half of `Insert`: the head `e` of the free list becomes the head of the
chain of the key's bucket. -/
theorem c0_push_spec {digest : K → Nat} {t : C0HashTable K V} {L : Nat → List Nat}
    {F used : List Nat} (h : Shape digest t L F used) (hk : KeysInj t used) (e : Nat)
    (he : t.pElemFreeHead = some e) (k : K) (v : V) (hnew : ∀ w, ¬ Holds t used k w) :
    let t1 : C0HashTable K V :=
      { buckets := t.buckets.set (bucketOf digest t k) ⟨some e⟩,
        elemPool := t.elemPool.set e
          ⟨headAt t.buckets (bucketOf digest t k), HashKey digest k, k, v⟩,
        pElemFreeHead := (elemAt t.elemPool e).pNext,
        size := t.size + 1 }
    Shape digest t1 (Function.update L (bucketOf digest t k) (e :: L (bucketOf digest t k)))
        F.tail (e :: used) ∧
      KeysInj t1 (e :: used) ∧
      ∀ x w, Holds t1 (e :: used) x w ↔ (x = k ∧ w = v) ∨ Holds t used x w := by
  intro t1
  have hb := c0_bucketOf_lt digest t k h.pos
  -- the free list starts with `e`
  obtain ⟨F1, hF⟩ : ∃ F1, F = e :: F1 := by
    have hfree := h.free
    rw [he] at hfree
    cases F with
    | nil => cases hfree
    | cons a F1 =>
      have : some e = some a := hfree.1
      cases this
      exact ⟨F1, rfl⟩
  subst hF
  have hfree := h.free
  rw [he] at hfree
  have heF : e ∉ F1 := (List.nodup_cons.mp h.nodupF).1
  have heU : e ∉ used := fun hu => h.disj e hu (List.mem_cons_self _ _)
  have hepool : e < t.elemPool.length := h.bound e (Or.inr (List.mem_cons_self _ _))
  have hat : ∀ j, elemAt t1.elemPool j =
      if j = e then ⟨headAt t.buckets (bucketOf digest t k), HashKey digest k, k, v⟩
      else elemAt t.elemPool j := fun j => c0_elemAt_set _ _ _ _ hepool
  have hnext : nextOf t1.elemPool =
      Function.update (nextOf t.elemPool) e (headAt t.buckets (bucketOf digest t k)) :=
    c0_nextOf_set _ _ _ hepool
  have hhead : ∀ c, headAt t1.buckets c =
      if c = bucketOf digest t k then some e else headAt t.buckets c :=
    fun c => c0_headAt_set _ _ _ _ hb
  have hlen : t1.buckets.length = t.buckets.length := by simp [t1]
  have hnotin : ∀ b, b < t.buckets.length → e ∉ L b :=
    fun b hb1 hm => heU ((h.used_iff e).mpr ⟨b, hb1, hm⟩)
  have hold : ∀ i, i ∈ used → elemAt t1.elemPool i = elemAt t.elemPool i := by
    intro i hi
    rw [hat, if_neg (by rintro rfl; exact heU hi)]
  refine ⟨⟨by rw [hlen]; exact h.pos, by simp [t1, h.pool_len], ?_, ?_, ?_, ?_, ?_, ?_, ?_,
    ?_, ?_, ?_, ?_, ?_⟩, ?_, ?_⟩
  · -- chain
    intro c hc
    rw [hlen] at hc
    rw [hhead, hnext]
    by_cases hcb : c = bucketOf digest t k
    · subst hcb
      simp only [if_true, Function.update_same]
      refine ⟨rfl, ?_⟩
      simp only [Function.update_same]
      exact isChain_update e _ (hnotin _ hc) (h.chain _ hc)
    · simp only [hcb, if_false, ne_eq, not_false_eq_true, Function.update_noteq]
      exact isChain_update e _ (hnotin _ hc) (h.chain _ hc)
  · -- free
    show IsChain (nextOf t1.elemPool) (elemAt t.elemPool e).pNext F1
    rw [hnext]
    exact isChain_update e _ heF hfree.2
  · -- nodupL
    intro c hc
    rw [hlen] at hc
    by_cases hcb : c = bucketOf digest t k
    · subst hcb
      simp only [Function.update_same]
      exact List.nodup_cons.mpr ⟨hnotin _ hc, h.nodupL _ hc⟩
    · simp only [ne_eq, hcb, not_false_eq_true, Function.update_noteq]
      exact h.nodupL _ hc
  · exact (List.nodup_cons.mp h.nodupF).2
  · exact List.nodup_cons.mpr ⟨heU, h.nodupU⟩
  · -- used_iff
    intro i
    rw [hlen]
    constructor
    · intro hi
      rcases List.mem_cons.mp hi with rfl | hi
      · exact ⟨bucketOf digest t k, hb, by simp⟩
      · obtain ⟨c, hc, hic⟩ := (h.used_iff i).mp hi
        refine ⟨c, hc, ?_⟩
        by_cases hcb : c = bucketOf digest t k
        · subst hcb; simp [hic]
        · simp [hcb, hic]
    · rintro ⟨c, hc, hic⟩
      by_cases hcb : c = bucketOf digest t k
      · subst hcb
        simp only [Function.update_same, List.mem_cons] at hic
        rcases hic with rfl | hic
        · exact List.mem_cons_self _ _
        · exact List.mem_cons_of_mem _ ((h.used_iff i).mpr ⟨_, hc, hic⟩)
      · simp only [ne_eq, hcb, not_false_eq_true, Function.update_noteq] at hic
        exact List.mem_cons_of_mem _ ((h.used_iff i).mpr ⟨_, hc, hic⟩)
  · -- disj
    intro i hi
    simp only [List.tail_cons]
    rcases List.mem_cons.mp hi with rfl | hi
    · exact heF
    · exact fun hm => h.disj i hi (List.mem_cons_of_mem _ hm)
  · -- bound
    intro i hi
    simp only [t1, List.length_set]
    rcases hi with hi | hi
    · rcases List.mem_cons.mp hi with rfl | hi
      · exact hepool
      · exact h.bound i (Or.inl hi)
    · exact h.bound i (Or.inr (List.mem_cons_of_mem _ hi))
  · -- cover
    have := h.cover
    simp only [List.length_cons, List.tail_cons, t1, List.length_set] at this ⊢
    omega
  · -- home
    intro c hc i hi
    rw [hlen] at hc ⊢
    by_cases hcb : c = bucketOf digest t k
    · subst hcb
      simp only [Function.update_same, List.mem_cons] at hi
      rcases hi with rfl | hi
      · rw [hat, if_pos rfl]; rfl
      · rw [hold i ((h.used_iff i).mpr ⟨_, hc, hi⟩)]
        exact h.home _ hc i hi
    · simp only [ne_eq, hcb, not_false_eq_true, Function.update_noteq] at hi
      rw [hold i ((h.used_iff i).mpr ⟨_, hc, hi⟩)]
      exact h.home _ hc i hi
  · -- hash_ok
    intro i hi
    rcases List.mem_cons.mp hi with rfl | hi
    · rw [hat, if_pos rfl]
    · rw [hold i hi]; exact h.hash_ok i hi
  · -- size
    simp [t1, h.size_eq]
  · -- keys
    intro i hi j hj hij
    by_cases hie : i = e <;> by_cases hje : j = e
    · rw [hie, hje]
    · have hju : j ∈ used := (List.mem_cons.mp hj).resolve_left hje
      rw [hie, hat, if_pos rfl, hold j hju] at hij
      exact absurd ⟨j, hju, hij.symm, rfl⟩ (hnew _)
    · have hiu : i ∈ used := (List.mem_cons.mp hi).resolve_left hie
      rw [hje, hat e, if_pos rfl, hold i hiu] at hij
      exact absurd ⟨i, hiu, hij, rfl⟩ (hnew _)
    · have hiu : i ∈ used := (List.mem_cons.mp hi).resolve_left hie
      have hju : j ∈ used := (List.mem_cons.mp hj).resolve_left hje
      rw [hold i hiu, hold j hju] at hij
      exact hk i hiu j hju hij
  · -- holds
    intro x w
    constructor
    · rintro ⟨i, hi, hik, hiv⟩
      rcases List.mem_cons.mp hi with rfl | hi
      · rw [hat, if_pos rfl] at hik hiv
        exact Or.inl ⟨hik.symm, hiv.symm⟩
      · rw [hold i hi] at hik hiv
        exact Or.inr ⟨i, hi, hik, hiv⟩
    · rintro (⟨rfl, rfl⟩ | ⟨i, hi, hik, hiv⟩)
      · exact ⟨e, List.mem_cons_self _ _, by rw [hat, if_pos rfl], by rw [hat, if_pos rfl]⟩
      · exact ⟨i, List.mem_cons_of_mem _ hi, by rw [hold i hi]; exact hik,
          by rw [hold i hi]; exact hiv⟩

theorem c0_chain_disjoint {digest : K → Nat} {t : C0HashTable K V} {L : Nat → List Nat}
    {F used : List Nat} (h : Shape digest t L F used) (b c i : Nat)
    (hb : b < t.buckets.length) (hc : c < t.buckets.length) (hib : i ∈ L b) (hic : i ∈ L c) :
    b = c := by
  rw [← h.home b hb i hib, ← h.home c hc i hic]

/-- "Put eRemoved back on the free list", after the node `e` was unlinked from the
chain of bucket `b`, whose nodes are now `l1`. -/
theorem c0_release_spec {digest : K → Nat} {t : C0HashTable K V} {L : Nat → List Nat}
    {F used : List Nat} (h : Shape digest t L F used) (hk : KeysInj t used) (b e : Nat)
    (hb : b < t.buckets.length) (he : e ∈ L b) (k : K) (hek : (elemAt t.elemPool e).key = k)
    (buckets1 : List Bucket) (pool1 : List (Elem K V)) (l1 : List Nat)
    (hlenb : buckets1.length = t.buckets.length) (hlenp : pool1.length = t.elemPool.length)
    (hl1n : l1.Nodup) (hl1 : ∀ i, i ∈ l1 ↔ i ∈ L b ∧ i ≠ e)
    (hch : IsChain (nextOf pool1) (headAt buckets1 b) l1)
    (hhead : ∀ c, c ≠ b → headAt buckets1 c = headAt t.buckets c)
    (hnext : ∀ j, j ∉ L b → nextOf pool1 j = nextOf t.elemPool j)
    (hhash : ∀ j, (elemAt pool1 j).hash = (elemAt t.elemPool j).hash)
    (hkey : ∀ j, (elemAt pool1 j).key = (elemAt t.elemPool j).key)
    (hval : ∀ j, (elemAt pool1 j).value = (elemAt t.elemPool j).value) :
    Shape digest (release t buckets1 pool1 e) (Function.update L b l1) (e :: F)
        (used.erase e) ∧
      KeysInj (release t buckets1 pool1 e) (used.erase e) ∧
      ∀ x w, Holds (release t buckets1 pool1 e) (used.erase e) x w ↔
        x ≠ k ∧ Holds t used x w := by
  have heU : e ∈ used := (h.used_iff e).mpr ⟨b, hb, he⟩
  have heF : e ∉ F := h.disj e heU
  have hepool : e < pool1.length := by rw [hlenp]; exact h.bound e (Or.inl heU)
  have hmemU : ∀ i, i ∈ used.erase e ↔ i ≠ e ∧ i ∈ used :=
    fun i => List.Nodup.mem_erase_iff h.nodupU
  have hat : ∀ j, j ≠ e → elemAt (release t buckets1 pool1 e).elemPool j = elemAt pool1 j :=
    fun j hj => c0_elemAt_set_ne _ _ _ _ hj
  have hnx : nextOf (release t buckets1 pool1 e).elemPool =
      Function.update (nextOf pool1) e t.pElemFreeHead :=
    c0_nextOf_set _ _ _ hepool
  have hlen : (release t buckets1 pool1 e).buckets.length = t.buckets.length := hlenb
  have hother : ∀ c, c < t.buckets.length → c ≠ b → ∀ j ∈ L c, j ∉ L b ∧ j ≠ e := by
    intro c hc hcb j hj
    constructor
    · intro hjb
      exact hcb (c0_chain_disjoint h c b j hc hb hj hjb)
    · rintro rfl
      exact hcb (c0_chain_disjoint h c b j hc hb hj he)
  refine ⟨⟨by rw [hlen]; exact h.pos, ?_, ?_, ?_, ?_, ?_, ?_, ?_, ?_, ?_, ?_, ?_, ?_, ?_⟩,
    ?_, ?_⟩
  · simp [release, hlenp, hlenb, h.pool_len]
  · -- chain
    intro c hc
    rw [hlen] at hc
    rw [hnx]
    show IsChain _ (headAt buckets1 c) _
    by_cases hcb : c = b
    · subst hcb
      simp only [Function.update_same]
      exact isChain_update e _ (fun hm => ((hl1 e).mp hm).2 rfl) hch
    · simp only [ne_eq, hcb, not_false_eq_true, Function.update_noteq]
      rw [hhead c hcb]
      apply isChain_congr _ (h.chain c hc)
      intro j hj
      obtain ⟨h1, h2⟩ := hother c hc hcb j hj
      rw [Function.update_noteq h2, hnext j h1]
  · -- free
    show IsChain (nextOf (release t buckets1 pool1 e).elemPool) (some e) (e :: F)
    refine ⟨rfl, ?_⟩
    rw [hnx]
    simp only [Function.update_same]
    apply isChain_congr _ h.free
    intro j hj
    have hje : j ≠ e := by rintro rfl; exact heF hj
    have hjb : j ∉ L b := fun hm => h.disj j ((h.used_iff j).mpr ⟨b, hb, hm⟩) hj
    rw [Function.update_noteq hje, hnext j hjb]
  · -- nodupL
    intro c hc
    rw [hlen] at hc
    by_cases hcb : c = b
    · subst hcb; simpa using hl1n
    · simp only [ne_eq, hcb, not_false_eq_true, Function.update_noteq]
      exact h.nodupL c hc
  · exact List.nodup_cons.mpr ⟨heF, h.nodupF⟩
  · exact h.nodupU.erase e
  · -- used_iff
    intro i
    rw [hlen, hmemU]
    constructor
    · rintro ⟨hie, hi⟩
      obtain ⟨c, hc, hic⟩ := (h.used_iff i).mp hi
      refine ⟨c, hc, ?_⟩
      by_cases hcb : c = b
      · subst hcb
        simp only [Function.update_same]
        exact (hl1 i).mpr ⟨hic, hie⟩
      · simp [hcb, hic]
    · rintro ⟨c, hc, hic⟩
      by_cases hcb : c = b
      · subst hcb
        simp only [Function.update_same] at hic
        obtain ⟨h1, h2⟩ := (hl1 i).mp hic
        exact ⟨h2, (h.used_iff i).mpr ⟨c, hc, h1⟩⟩
      · simp only [ne_eq, hcb, not_false_eq_true, Function.update_noteq] at hic
        exact ⟨(hother c hc hcb i hic).2, (h.used_iff i).mpr ⟨c, hc, hic⟩⟩
  · -- disj
    intro i hi hm
    obtain ⟨hie, hiu⟩ := (hmemU i).mp hi
    rcases List.mem_cons.mp hm with h1 | h1
    · exact hie h1
    · exact h.disj i hiu h1
  · -- bound
    intro i hi
    simp only [release, List.length_set, hlenp]
    rcases hi with hi | hi
    · exact h.bound i (Or.inl ((hmemU i).mp hi).2)
    · rcases List.mem_cons.mp hi with rfl | hi
      · exact h.bound i (Or.inl heU)
      · exact h.bound i (Or.inr hi)
  · -- cover
    have := h.cover
    have h2 := List.length_erase_of_mem heU
    have h3 : 0 < used.length := List.length_pos_of_mem heU
    simp only [release, List.length_set, List.length_cons, hlenp, h2]
    omega
  · -- home
    intro c hc i hi
    rw [hlen] at hc ⊢
    by_cases hcb : c = b
    · subst hcb
      simp only [Function.update_same] at hi
      obtain ⟨h1, h2⟩ := (hl1 i).mp hi
      rw [hat i h2, hhash]
      exact h.home c hc i h1
    · simp only [ne_eq, hcb, not_false_eq_true, Function.update_noteq] at hi
      rw [hat i (hother c hc hcb i hi).2, hhash]
      exact h.home c hc i hi
  · -- hash_ok
    intro i hi
    obtain ⟨hie, hiu⟩ := (hmemU i).mp hi
    rw [hat i hie, hhash, hkey]
    exact h.hash_ok i hiu
  · -- size
    have h2 := List.length_erase_of_mem heU
    simp [release, h.size_eq, h2]
  · -- keys
    intro i hi j hj hij
    obtain ⟨hie, hiu⟩ := (hmemU i).mp hi
    obtain ⟨hje, hju⟩ := (hmemU j).mp hj
    rw [hat i hie, hat j hje, hkey, hkey] at hij
    exact hk i hiu j hju hij
  · -- holds
    intro x w
    constructor
    · rintro ⟨i, hi, hik, hiv⟩
      obtain ⟨hie, hiu⟩ := (hmemU i).mp hi
      rw [hat i hie, hkey] at hik
      rw [hat i hie, hval] at hiv
      refine ⟨?_, i, hiu, hik, hiv⟩
      rintro rfl
      exact hie (hk i hiu e heU (by rw [hik, hek]))
    · rintro ⟨hxk, i, hiu, hik, hiv⟩
      have hie : i ≠ e := by
        rintro rfl
        exact hxk (hik.symm.trans hek)
      exact ⟨i, (hmemU i).mpr ⟨hie, hiu⟩, by rw [hat i hie, hkey]; exact hik,
        by rw [hat i hie, hval]; exact hiv⟩

theorem c0_remove_finish {digest : K → Nat} {t t1 : C0HashTable K V}
    {L L1 : Nat → List Nat} {F F1 used used1 : List Nat} (h : Shape digest t L F used)
    (hk : KeysInj t used) (e : Nat) (he : e ∈ used) (k : K)
    (hek : (elemAt t.elemPool e).key = k)
    (h1 : Shape digest t1 L1 F1 used1 ∧ KeysInj t1 used1 ∧
      ∀ x w, Holds t1 used1 x w ↔ x ≠ k ∧ Holds t used x w) :
    (Lookup digest t k).join.isSome = true ∧ WF digest t1 ∧
      ∀ x, Lookup digest t1 x = if x = k then some none else Lookup digest t x := by
  obtain ⟨hs1, hk1, hh⟩ := h1
  refine ⟨?_, ⟨L1, F1, used1, hs1, hk1⟩, ?_⟩
  · rw [c0_Lookup_holds h hk k _ ⟨e, he, hek, rfl⟩]
    rfl
  · intro x
    by_cases hx : x = k
    · rw [if_pos hx, hx]
      exact c0_Lookup_absent hs1 k (fun w hw => ((hh k w).mp hw).1 rfl)
    · rw [if_neg hx]
      apply c0_Lookup_congr h hk hs1 hk1
      intro w
      rw [hh]
      exact ⟨fun hw => hw.2, fun hw => ⟨hx, hw⟩⟩

theorem c0_remove_miss {digest : K → Nat} {t : C0HashTable K V}
    {L : Nat → List Nat} {F used : List Nat} (h : Shape digest t L F used)
    (hk : KeysInj t used) (k : K)
    (hmiss : ∀ x ∈ L (bucketOf digest t k), hitOf t.elemPool (HashKey digest k) k x = false) :
    (Lookup digest t k).join.isSome = false ∧ WF digest t ∧
      ∀ x, Lookup digest t x = if x = k then some none else Lookup digest t x := by
  have hl : Lookup digest t k = some none := by
    rw [c0_Lookup_shape h k]
    have : (L (bucketOf digest t k)).find? (hitOf t.elemPool (HashKey digest k) k) = none := by
      rw [List.find?_eq_none]
      intro x hx
      rw [hmiss x hx]
      simp
    rw [this]
    rfl
  refine ⟨by rw [hl]; rfl, ⟨L, F, used, h, hk⟩, ?_⟩
  intro x
  by_cases hx : x = k
  · rw [if_pos hx, hx, hl]
  · rw [if_neg hx]

theorem c0_Remove_spec (digest : K → Nat) {t : C0HashTable K V} (h : WF digest t) (k : K) :
    ∃ t1, Remove digest t k = some (t1, (Lookup digest t k).join.isSome) ∧ WF digest t1 ∧
      ∀ x, Lookup digest t1 x = if x = k then some none else Lookup digest t x := by
  obtain ⟨L, F, used, hs, hk⟩ := h
  have hb := c0_bucketOf_lt digest t k hs.pos
  have hchain := hs.chain _ hb
  have hnodup := hs.nodupL _ hb
  have hlenle := c0_chain_length_le hs _ hb
  cases hL : L (bucketOf digest t k) with
  | nil =>
    rw [hL] at hchain
    have hhead : headAt t.buckets (HashKey digest k &&& (t.buckets.length - 1)) = none :=
      hchain
    obtain ⟨h1, h2, h3⟩ := c0_remove_miss hs hk k (by rw [hL]; simp)
    refine ⟨t, ?_, h2, h3⟩
    simp only [Remove, hhead, h1]
  | cons q l =>
    rw [hL] at hchain hnodup hlenle
    obtain ⟨hhead, hrest⟩ := hchain
    have hhead1 : headAt t.buckets (HashKey digest k &&& (t.buckets.length - 1)) = some q :=
      hhead
    have hqL : q ∈ L (bucketOf digest t k) := by rw [hL]; simp
    have hqU : q ∈ used := (hs.used_iff q).mpr ⟨_, hb, hqL⟩
    cases hq : hitOf t.elemPool (HashKey digest k) k q with
    | true =>
      have hqk : (elemAt t.elemPool q).key = k := by
        simp only [hitOf, decide_eq_true_eq] at hq
        exact hq.2
      have hrel := c0_release_spec hs hk (bucketOf digest t k) q hb hqL k hqk
        (t.buckets.set (bucketOf digest t k) ⟨(elemAt t.elemPool q).pNext⟩) t.elemPool l
        (by simp) rfl (List.nodup_cons.mp hnodup).2
        (by
          intro i
          rw [hL]
          constructor
          · intro hi
            exact ⟨List.mem_cons_of_mem _ hi, fun e1 => (List.nodup_cons.mp hnodup).1 (e1 ▸ hi)⟩
          · rintro ⟨hi, hne⟩
            exact (List.mem_cons.mp hi).resolve_left hne)
        (by rw [c0_headAt_set _ _ _ _ hb, if_pos rfl]; exact hrest)
        (by intro c hc; rw [c0_headAt_set _ _ _ _ hb, if_neg hc])
        (fun _ _ => rfl) (fun _ => rfl) (fun _ => rfl) (fun _ => rfl)
      obtain ⟨h1, h2, h3⟩ := c0_remove_finish hs hk q hqU k hqk hrel
      refine ⟨_, ?_, h2, h3⟩
      simp only [Remove, hhead1, hq, if_true, h1]
      rfl
    | false =>
      have hfp : chainFindPrev (nextOf t.elemPool) (hitOf t.elemPool (HashKey digest k) k)
          t.elemPool.length (elemAt t.elemPool q).pNext q =
          some (findPrev (hitOf t.elemPool (HashKey digest k) k) q l) :=
        chainFindPrev_spec (nextOf t.elemPool) (hitOf t.elemPool (HashKey digest k) k)
          l t.elemPool.length _ q hrest (by simp at hlenle; omega)
      cases hfind : findPrev (hitOf t.elemPool (HashKey digest k) k) q l with
      | none =>
        rw [hfind] at hfp
        have hall := findPrev_none _ l q hfind
        obtain ⟨h1, h2, h3⟩ := c0_remove_miss hs hk k (by
          rw [hL]
          intro x hx
          rcases List.mem_cons.mp hx with rfl | hx
          · exact hq
          · exact hall x hx)
        refine ⟨t, ?_, h2, h3⟩
        simp only [Remove, hhead1, hq, Bool.false_eq_true, if_false, h1]
        simp only [hfp]
      | some ep =>
        obtain ⟨e, p⟩ := ep
        rw [hfind] at hfp
        obtain ⟨A, post, hsplit, hA, hp, he⟩ := findPrev_some _ l q e p hq hfind
        rw [hsplit] at hnodup
        have heL : e ∈ L (bucketOf digest t k) := by rw [hL, hsplit]; simp
        have hpL : p ∈ L (bucketOf digest t k) := by rw [hL, hsplit]; simp
        have heU : e ∈ used := (hs.used_iff e).mpr ⟨_, hb, heL⟩
        have hpU : p ∈ used := (hs.used_iff p).mpr ⟨_, hb, hpL⟩
        have hppool : p < t.elemPool.length := hs.bound p (Or.inl hpU)
        have hek : (elemAt t.elemPool e).key = k := by
          simp only [hitOf, decide_eq_true_eq] at he
          exact he.2
        have hchainb : IsChain (nextOf t.elemPool) (headAt t.buckets (bucketOf digest t k))
            (A ++ p :: e :: post) := by
          rw [← hsplit, ← hL]; exact hs.chain _ hb
        have hent : ∀ j, elemAt (t.elemPool.set p
            ⟨(elemAt t.elemPool e).pNext, (elemAt t.elemPool p).hash,
              (elemAt t.elemPool p).key, (elemAt t.elemPool p).value⟩) j =
            if j = p then ⟨(elemAt t.elemPool e).pNext, (elemAt t.elemPool p).hash,
              (elemAt t.elemPool p).key, (elemAt t.elemPool p).value⟩
            else elemAt t.elemPool j := fun j => c0_elemAt_set _ _ _ _ hppool
        have hrel := c0_release_spec hs hk (bucketOf digest t k) e hb heL k hek
          t.buckets (t.elemPool.set p
            ⟨(elemAt t.elemPool e).pNext, (elemAt t.elemPool p).hash,
              (elemAt t.elemPool p).key, (elemAt t.elemPool p).value⟩) (A ++ p :: post)
          rfl (by simp)
          (by
            have := hnodup
            simp only [List.nodup_append, List.nodup_cons, List.mem_cons, not_or,
              List.disjoint_cons_right] at this ⊢
            tauto)
          (by
            intro i
            rw [hL, hsplit]
            have := hnodup
            simp only [List.nodup_append, List.nodup_cons, List.mem_cons, not_or,
              List.disjoint_cons_right, List.mem_append] at this ⊢
            constructor
            · intro hi
              refine ⟨by tauto, ?_⟩
              rintro rfl
              tauto
            · tauto)
          (by
            rw [c0_nextOf_set _ _ _ hppool]
            exact isChain_unlink A p e post _ hchainb hnodup)
          (fun _ _ => rfl)
          (by
            intro j hj
            have hjp : j ≠ p := by rintro rfl; exact hj hpL
            unfold nextOf
            rw [hent, if_neg hjp])
          (by intro j; rw [hent]; split <;> simp_all)
          (by intro j; rw [hent]; split <;> simp_all)
          (by intro j; rw [hent]; split <;> simp_all)
        obtain ⟨h1, h2, h3⟩ := c0_remove_finish hs hk e heU k hek hrel
        refine ⟨_, ?_, h2, h3⟩
        simp only [Remove, hhead1, hq, Bool.false_eq_true, if_false, h1]
        simp only [hfp]

/-! ### Rebuilding the free list -/

theorem c0_length_linkFree (cnt i : Nat) (pool : List (Elem K V)) :
    (linkFree cnt i pool).length = pool.length := by
  induction cnt generalizing i pool with
  | zero => rfl
  | succ cnt ih => simp [linkFree, ih]

theorem c0_elemAt_linkFree (cnt i : Nat) (pool : List (Elem K V))
    (h : i + cnt ≤ pool.length) (j : Nat) :
    elemAt (linkFree cnt i pool) j =
      if i ≤ j ∧ j < i + cnt then
        ⟨some (j + 1), (elemAt pool j).hash, (elemAt pool j).key, (elemAt pool j).value⟩
      else elemAt pool j := by
  induction cnt generalizing i pool with
  | zero =>
    simp only [linkFree, Nat.add_zero]
    rw [if_neg (by omega)]
  | succ cnt ih =>
    simp only [linkFree]
    rw [ih (i + 1) _ (by simp; omega)]
    rw [c0_elemAt_set _ _ _ _ (by omega)]
    by_cases hji : j = i
    · subst hji
      rw [if_neg (by omega), if_pos rfl, if_pos (by omega)]
    · rw [if_neg hji]
      by_cases hr : i + 1 ≤ j ∧ j < i + 1 + cnt
      · rw [if_pos hr, if_pos (by omega)]
      · rw [if_neg hr, if_neg (by omega)]

/-- The free list built by `linkFree` over the nodes `m .. n - 1`. -/
theorem c0_isChain_range' (next : Nat → Option Nat) (n : Nat) :
    ∀ (cnt m : Nat), m + cnt = n → (∀ j, m ≤ j → j + 1 < n → next j = some (j + 1)) →
      (m < n → next (n - 1) = none) →
      IsChain next (if m < n then some m else none) (List.range' m cnt) := by
  intro cnt
  induction cnt with
  | zero =>
    intro m hm _ _
    rw [if_neg (by omega)]
    rfl
  | succ cnt ih =>
    intro m hm hnext hlast
    rw [if_pos (by omega), List.range'_succ]
    refine ⟨rfl, ?_⟩
    have := ih (m + 1) (by omega) (fun j hj hj2 => hnext j (by omega) hj2)
      (fun _ => hlast (by omega))
    by_cases hc : m + 1 < n
    · rw [if_pos hc] at this
      rw [hnext m (le_refl _) hc]
      exact this
    · rw [if_neg hc] at this
      have hmn : m = n - 1 := by omega
      rw [hmn, hlast (by omega)]
      rw [hmn] at this
      have e : n - 1 + 1 = m + 1 := by omega
      rw [e]
      rw [hmn] 
      exact this

/-! ### The loops of `Rehash` as a fold over the nodes of the old chains -/

/-- One step of `Rehash`: the content of the old node `e` goes to the new node
`iElemNext`, pushed on the chain of its new bucket. -/
def pushNode (pool : List (Elem K V)) (bucketCountNew : Nat)
    (st : List Bucket × List (Elem K V) × Nat) (e : Nat) :
    List Bucket × List (Elem K V) × Nat :=
  (st.1.set ((elemAt pool e).hash &&& (bucketCountNew - 1)) ⟨some st.2.2⟩,
    st.2.1.set st.2.2
      ⟨headAt st.1 ((elemAt pool e).hash &&& (bucketCountNew - 1)), (elemAt pool e).hash,
        (elemAt pool e).key, (elemAt pool e).value⟩,
    st.2.2 + 1)

theorem c0_rehashChain_eq (pool : List (Elem K V)) (n1 : Nat) :
    ∀ (l : List Nat) (fuel : Nat) (h : Option Nat) (st : List Bucket × List (Elem K V) × Nat),
      IsChain (nextOf pool) h l → l.length ≤ fuel →
      rehashChain pool n1 fuel h st = some (l.foldl (pushNode pool n1) st) := by
  intro l
  induction l with
  | nil =>
    intro fuel h st hl _
    have : h = none := hl
    subst this
    cases fuel <;> rfl
  | cons i l ih =>
    intro fuel h st hl hf
    obtain ⟨h1, h2⟩ := hl
    subst h1
    obtain ⟨bsN, plN, m⟩ := st
    cases fuel with
    | zero => simp at hf
    | succ fuel =>
      simp only [rehashChain, List.foldl_cons]
      exact ih fuel _ _ h2 (by simpa using hf)

theorem c0_rehashBuckets_eq (pool : List (Elem K V)) (n1 : Nat) (L : Nat → List Nat) :
    ∀ (bs : List Bucket) (j : Nat) (st : List Bucket × List (Elem K V) × Nat),
      (∀ i, i < bs.length → IsChain (nextOf pool) (headAt bs i) (L (j + i)) ∧
        (L (j + i)).length ≤ pool.length) →
      rehashBuckets pool n1 bs st =
        some (((List.range' j bs.length).flatMap L).foldl (pushNode pool n1) st) := by
  intro bs
  induction bs with
  | nil => intro j st _; rfl
  | cons b rest ih =>
    intro j st hb
    have h0 := hb 0 (by simp)
    simp only [Nat.add_zero] at h0
    have hc := c0_rehashChain_eq pool n1 (L j) pool.length b.pHead st h0.1 h0.2
    simp only [rehashBuckets, hc, List.length_cons, List.range'_succ, List.flatMap_cons,
      List.foldl_append]
    apply ih (j + 1)
    intro i hi
    have := hb (i + 1) (by simpa using hi)
    have e : j + (i + 1) = j + 1 + i := by omega
    rw [e] at this
    exact this

/-- Hash, key and value of a node. -/
def entry (pool : List (Elem K V)) (e : Nat) : Nat × K × V :=
  ((elemAt pool e).hash, (elemAt pool e).key, (elemAt pool e).value)

/-- State of `Rehash` after the old nodes `done` were moved: `L1 b` is the new chain of
bucket `b`, the new nodes are `0 .. iElemNext - 1` and node `p` holds the content of
the old node `done[p]`. -/
structure Build (pool : List (Elem K V)) (n1 : Nat)
    (st : List Bucket × List (Elem K V) × Nat) (L1 : Nat → List Nat) (done : List Nat) :
    Prop where
  lenb : st.1.length = n1
  lenp : st.2.1.length = n1
  cnt : st.2.2 = done.length
  chain : ∀ b, b < n1 → IsChain (nextOf st.2.1) (headAt st.1 b) (L1 b)
  nodupL : ∀ b, b < n1 → (L1 b).Nodup
  used_iff : ∀ i, i < st.2.2 ↔ ∃ b, b < n1 ∧ i ∈ L1 b
  home : ∀ b, b < n1 → ∀ i ∈ L1 b, (elemAt st.2.1 i).hash &&& (n1 - 1) = b
  content : ∀ p, p < done.length → entry st.2.1 p = entry pool (done.getD p 0)
  rest : ∀ p, st.2.2 ≤ p → (elemAt st.2.1 p).pNext = none

theorem c0_build_init (pool : List (Elem K V)) (n1 : Nat) :
    Build pool n1 (List.replicate n1 default, List.replicate n1 default, 0)
      (fun _ => []) [] := by
  refine ⟨by simp, by simp, rfl, ?_, by simp, by simp, by simp, by simp, ?_⟩
  · intro b hb
    show headAt (List.replicate n1 default) b = none
    unfold headAt
    rw [List.getD_eq_getElem?_getD, List.getElem?_replicate]
    simp [hb]
    rfl
  · intro p _
    show (elemAt (List.replicate n1 default) p).pNext = none
    unfold elemAt
    rw [List.getD_eq_getElem?_getD, List.getElem?_replicate]
    split <;> rfl

theorem c0_build_step {pool : List (Elem K V)} {n1 : Nat}
    {st : List Bucket × List (Elem K V) × Nat} {L1 : Nat → List Nat} {done : List Nat}
    (h : Build pool n1 st L1 done) (hn : 0 < n1) (hroom : done.length < n1) (e : Nat) :
    Build pool n1 (pushNode pool n1 st e)
      (Function.update L1 ((elemAt pool e).hash &&& (n1 - 1))
        (st.2.2 :: L1 ((elemAt pool e).hash &&& (n1 - 1))))
      (done ++ [e]) := by
  obtain ⟨bsN, plN, m⟩ := st
  have hlenb : bsN.length = n1 := h.lenb
  have hlenp : plN.length = n1 := h.lenp
  have hcnt : m = done.length := h.cnt
  have hb : (elemAt pool e).hash &&& (n1 - 1) < n1 := OpenAddr.start_lt _ _ hn
  have hm : m < plN.length := by omega
  have hat : ∀ j, elemAt (pushNode pool n1 (bsN, plN, m) e).2.1 j =
      if j = m then ⟨headAt bsN ((elemAt pool e).hash &&& (n1 - 1)), (elemAt pool e).hash,
        (elemAt pool e).key, (elemAt pool e).value⟩ else elemAt plN j :=
    fun j => c0_elemAt_set _ _ _ _ hm
  have hnx : nextOf (pushNode pool n1 (bsN, plN, m) e).2.1 =
      Function.update (nextOf plN) m (headAt bsN ((elemAt pool e).hash &&& (n1 - 1))) :=
    c0_nextOf_set _ _ _ hm
  have hhd : ∀ c, headAt (pushNode pool n1 (bsN, plN, m) e).1 c =
      if c = (elemAt pool e).hash &&& (n1 - 1) then some m else headAt bsN c :=
    fun c => c0_headAt_set _ _ _ _ (by rw [hlenb]; exact hb)
  have hnotin : ∀ b, b < n1 → m ∉ L1 b := by
    intro b hb1 hmem
    have := (h.used_iff m).mpr ⟨b, hb1, hmem⟩
    simp at this
  have hltm : ∀ b, b < n1 → ∀ i ∈ L1 b, i < m :=
    fun b hb1 i hi => (h.used_iff i).mpr ⟨b, hb1, hi⟩
  refine ⟨by simp [pushNode, hlenb], by simp [pushNode, hlenp], by simp [pushNode, hcnt],
    ?_, ?_, ?_, ?_, ?_, ?_⟩
  · intro c hc
    rw [hhd, hnx]
    by_cases hcb : c = (elemAt pool e).hash &&& (n1 - 1)
    · subst hcb
      simp only [if_true, Function.update_same]
      refine ⟨rfl, ?_⟩
      simp only [Function.update_same]
      exact isChain_update m _ (hnotin _ hc) (h.chain _ hc)
    · simp only [hcb, if_false, ne_eq, not_false_eq_true, Function.update_noteq]
      exact isChain_update m _ (hnotin _ hc) (h.chain _ hc)
  · intro c hc
    by_cases hcb : c = (elemAt pool e).hash &&& (n1 - 1)
    · subst hcb
      simp only [Function.update_same]
      exact List.nodup_cons.mpr ⟨hnotin _ hc, h.nodupL _ hc⟩
    · simp only [ne_eq, hcb, not_false_eq_true, Function.update_noteq]
      exact h.nodupL _ hc
  · intro i
    show i < m + 1 ↔ _
    constructor
    · intro hi
      by_cases him : i = m
      · exact ⟨_, hb, by rw [him]; simp⟩
      · obtain ⟨c, hc, hic⟩ := (h.used_iff i).mp (show i < m by omega)
        refine ⟨c, hc, ?_⟩
        by_cases hcb : c = (elemAt pool e).hash &&& (n1 - 1)
        · subst hcb; simp [hic]
        · simp [hcb, hic]
    · rintro ⟨c, hc, hic⟩
      by_cases hcb : c = (elemAt pool e).hash &&& (n1 - 1)
      · subst hcb
        simp only [Function.update_same, List.mem_cons] at hic
        rcases hic with rfl | hic
        · omega
        · have := hltm _ hc i hic; omega
      · simp only [ne_eq, hcb, not_false_eq_true, Function.update_noteq] at hic
        have := hltm _ hc i hic; omega
  · intro c hc i hi
    by_cases hcb : c = (elemAt pool e).hash &&& (n1 - 1)
    · subst hcb
      simp only [Function.update_same, List.mem_cons] at hi
      rcases hi with rfl | hi
      · rw [hat, if_pos rfl]
      · have := hltm _ hc i hi
        rw [hat, if_neg (by omega)]
        exact h.home _ hc i hi
    · simp only [ne_eq, hcb, not_false_eq_true, Function.update_noteq] at hi
      have := hltm _ hc i hi
      rw [hat, if_neg (by omega)]
      exact h.home _ hc i hi
  · intro p hp
    simp only [List.length_append, List.length_singleton] at hp
    unfold entry
    rw [hat]
    by_cases hpm : p = m
    · rw [if_pos hpm]
      have : (done ++ [e]).getD p 0 = e := by
        rw [List.getD_eq_getElem?_getD, List.getElem?_append_right (by omega)]
        simp [hpm, hcnt]
      rw [this]
    · rw [if_neg hpm]
      have hp2 : p < done.length := by omega
      have : (done ++ [e]).getD p 0 = done.getD p 0 := List.getD_append _ _ _ _ hp2
      rw [this]
      exact h.content p hp2
  · intro p hp
    have hp1 : m + 1 ≤ p := hp
    rw [hat, if_neg (by omega)]
    exact h.rest p (by show m ≤ p; omega)

theorem c0_build_fold {pool : List (Elem K V)} {n1 : Nat} (hn : 0 < n1) :
    ∀ (todo : List Nat) (st : List Bucket × List (Elem K V) × Nat) (L1 : Nat → List Nat)
      (done : List Nat), Build pool n1 st L1 done → done.length + todo.length ≤ n1 →
      ∃ L2, Build pool n1 (todo.foldl (pushNode pool n1) st) L2 (done ++ todo) := by
  intro todo
  induction todo with
  | nil =>
    intro st L1 done h _
    exact ⟨L1, by simpa using h⟩
  | cons e todo ih =>
    intro st L1 done h hlen
    simp only [List.length_cons] at hlen
    have hstep := c0_build_step h hn (by omega) e
    obtain ⟨L2, h2⟩ := ih _ _ _ hstep (by simp; omega)
    exact ⟨L2, by simpa using h2⟩

/-- The nodes of all chains in the order `Rehash` visits them. -/
def traversal (n : Nat) (L : Nat → List Nat) : List Nat := (List.range n).flatMap L

theorem c0_mem_traversal {digest : K → Nat} {t : C0HashTable K V} {L : Nat → List Nat}
    {F used : List Nat} (h : Shape digest t L F used) (i : Nat) :
    i ∈ traversal t.buckets.length L ↔ i ∈ used := by
  unfold traversal
  rw [List.mem_flatMap, h.used_iff]
  simp only [List.mem_range]

theorem c0_nodup_traversal {digest : K → Nat} {t : C0HashTable K V} {L : Nat → List Nat}
    {F used : List Nat} (h : Shape digest t L F used) :
    (traversal t.buckets.length L).Nodup := by
  unfold traversal
  rw [List.nodup_flatMap]
  refine ⟨fun b hb => h.nodupL b (List.mem_range.mp hb), ?_⟩
  apply List.Nodup.pairwise_of_forall_ne (List.nodup_range _)
  intro a ha b hb hab
  intro i hia hib
  exact hab (c0_chain_disjoint h a b i (List.mem_range.mp ha) (List.mem_range.mp hb) hia hib)

theorem c0_length_traversal {digest : K → Nat} {t : C0HashTable K V} {L : Nat → List Nat}
    {F used : List Nat} (h : Shape digest t L F used) :
    (traversal t.buckets.length L).length = t.size := by
  rw [h.size_eq]
  apply List.Perm.length_eq
  rw [List.perm_ext_iff_of_nodup (c0_nodup_traversal h) h.nodupU]
  exact c0_mem_traversal h

theorem c0_Rehash_spec {digest : K → Nat} {t : C0HashTable K V} (h : WF digest t) (n : Nat) :
    ∃ t1, Rehash t n = some t1 ∧ WF digest t1 ∧ t1.size = t.size ∧
      t1.buckets.length = max (max n t.size) s_hashTableInitialSize ∧
      (∀ k, Lookup digest t1 k = Lookup digest t k) ∧
      (t.size < max (max n t.size) s_hashTableInitialSize → t1.pElemFreeHead ≠ none) := by
  obtain ⟨L, F, used, hs, hk⟩ := h
  have hn1 : 0 < max (max n t.size) s_hashTableInitialSize := by
    simp [s_hashTableInitialSize]
  have hTlen := c0_length_traversal hs
  have hTnd := c0_nodup_traversal hs
  have hTmem := c0_mem_traversal hs
  have hloops := c0_rehashBuckets_eq t.elemPool (max (max n t.size) s_hashTableInitialSize) L
    t.buckets 0 (List.replicate (max (max n t.size) s_hashTableInitialSize) default,
      List.replicate (max (max n t.size) s_hashTableInitialSize) default, 0)
    (by
      intro i hi
      rw [Nat.zero_add]
      exact ⟨hs.chain i hi, c0_chain_length_le hs i hi⟩)
  rw [← List.range_eq_range'] at hloops
  obtain ⟨L2, hB⟩ := c0_build_fold hn1 (traversal t.buckets.length L) _ _ []
    (c0_build_init t.elemPool (max (max n t.size) s_hashTableInitialSize))
    (by simp only [List.length_nil, Nat.zero_add]; rw [hTlen]; omega)
  simp only [List.nil_append] at hB
  change rehashBuckets t.elemPool _ t.buckets _ =
    some ((traversal t.buckets.length L).foldl _ _) at hloops
  generalize hst : (traversal t.buckets.length L).foldl
    (pushNode t.elemPool (max (max n t.size) s_hashTableInitialSize))
    (List.replicate (max (max n t.size) s_hashTableInitialSize) default,
      List.replicate (max (max n t.size) s_hashTableInitialSize) default, 0) = stF at hloops hB
  obtain ⟨bsF, plF, m⟩ := stF
  have hlenb : bsF.length = max (max n t.size) s_hashTableInitialSize := hB.lenb
  have hlenp : plF.length = max (max n t.size) s_hashTableInitialSize := hB.lenp
  have hm : m = t.size := by rw [← hTlen]; exact hB.cnt
  have hmT : m = (traversal t.buckets.length L).length := hB.cnt
  have hmle : m ≤ plF.length := by rw [hlenp, hm]; omega
  have hat : ∀ j, elemAt (linkFree (plF.length - 1 - m) m plF) j =
      if m ≤ j ∧ j < m + (plF.length - 1 - m) then
        ⟨some (j + 1), (elemAt plF j).hash, (elemAt plF j).key, (elemAt plF j).value⟩
      else elemAt plF j := fun j => c0_elemAt_linkFree _ _ _ (by omega) j
  have hlow : ∀ j, j < m → elemAt (linkFree (plF.length - 1 - m) m plF) j = elemAt plF j := by
    intro j hj
    rw [hat, if_neg (by omega)]
  have hhash : ∀ j, (elemAt (linkFree (plF.length - 1 - m) m plF) j).hash =
      (elemAt plF j).hash := by
    intro j; rw [hat]; split <;> rfl
  have hkey : ∀ j, (elemAt (linkFree (plF.length - 1 - m) m plF) j).key =
      (elemAt plF j).key := by
    intro j; rw [hat]; split <;> rfl
  have hval : ∀ j, (elemAt (linkFree (plF.length - 1 - m) m plF) j).value =
      (elemAt plF j).value := by
    intro j; rw [hat]; split <;> rfl
  have hltm : ∀ b, b < max (max n t.size) s_hashTableInitialSize → ∀ i ∈ L2 b, i < m :=
    fun b hb1 i hi => (hB.used_iff i).mpr ⟨b, hb1, hi⟩
  -- the old node behind a new node
  have hold : ∀ p, p < m → (traversal t.buckets.length L).getD p 0 ∈ used ∧
      entry plF p = entry t.elemPool ((traversal t.buckets.length L).getD p 0) := by
    intro p hp
    have hp2 : p < (traversal t.buckets.length L).length := by omega
    refine ⟨?_, hB.content p hp2⟩
    rw [← hTmem, List.getD_eq_getElem _ _ hp2]
    exact List.getElem_mem hp2
  have hentry : ∀ p, entry plF p = ((elemAt plF p).hash, (elemAt plF p).key,
      (elemAt plF p).value) := fun _ => rfl
  have hShape : Shape digest
      ({ buckets := bsF, elemPool := linkFree (plF.length - 1 - m) m plF,
         pElemFreeHead := if m < plF.length then some m else none, size := t.size } :
        C0HashTable K V) L2 (List.range' m (plF.length - m)) (List.range m) := by
    refine ⟨by simp only [hlenb]; exact hn1, by simp [c0_length_linkFree, hlenb, hlenp],
      ?_, ?_, ?_, List.nodup_range' _ _, List.nodup_range _, ?_, ?_, ?_, ?_, ?_, ?_, ?_⟩
    · intro b hb
      simp only [hlenb] at hb
      apply isChain_congr _ (hB.chain b hb)
      intro i hi
      unfold nextOf
      rw [hlow i (hltm b hb i hi)]
    · apply c0_isChain_range' _ plF.length (plF.length - m) m (by omega)
      · intro j hj hj2
        show (elemAt (linkFree (plF.length - 1 - m) m plF) j).pNext = some (j + 1)
        rw [hat, if_pos (by omega)]
      · intro hlt
        show (elemAt (linkFree (plF.length - 1 - m) m plF) (plF.length - 1)).pNext = none
        rw [hat, if_neg (by omega)]
        exact hB.rest _ (by show m ≤ plF.length - 1; omega)
    · intro b hb
      simp only [hlenb] at hb
      exact hB.nodupL b hb
    · intro i
      simp only [List.mem_range, hlenb]
      exact hB.used_iff i
    · intro i hi
      simp only [List.mem_range] at hi
      simp only [List.mem_range'_1, not_and, not_lt]
      omega
    · intro i hi
      simp only [List.mem_range, List.mem_range'_1, c0_length_linkFree] at hi ⊢
      omega
    · simp only [List.length_range', List.length_range, c0_length_linkFree]
      omega
    · intro b hb i hi
      simp only [hlenb] at hb ⊢
      rw [hhash]
      exact hB.home b hb i hi
    · intro i hi
      simp only [List.mem_range] at hi
      obtain ⟨hu, he⟩ := hold i hi
      rw [hhash, hkey]
      have h1 := hs.hash_ok _ hu
      simp only [entry, Prod.mk.injEq] at he
      rw [he.1, he.2.1]
      exact h1
    · simp [hm]
  have hKeys : KeysInj
      ({ buckets := bsF, elemPool := linkFree (plF.length - 1 - m) m plF,
         pElemFreeHead := if m < plF.length then some m else none, size := t.size } :
        C0HashTable K V) (List.range m) := by
    intro i hi j hj hij
    simp only [List.mem_range] at hi hj
    obtain ⟨hui, hei⟩ := hold i hi
    obtain ⟨huj, hej⟩ := hold j hj
    simp only [entry, Prod.mk.injEq] at hei hej
    have hij2 : (elemAt plF i).key = (elemAt plF j).key := by
      have := hij
      simp only [hkey] at this
      exact this
    rw [hei.2.1, hej.2.1] at hij2
    have heq := hk _ hui _ huj hij2
    have hi2 : i < (traversal t.buckets.length L).length := by omega
    have hj2 : j < (traversal t.buckets.length L).length := by omega
    rw [List.getD_eq_getElem _ _ hi2, List.getD_eq_getElem _ _ hj2] at heq
    exact (List.Nodup.getElem_inj_iff hTnd).mp heq
  refine ⟨{ buckets := bsF, elemPool := linkFree (plF.length - 1 - m) m plF,
            pElemFreeHead := if m < plF.length then some m else none, size := t.size },
    ?_, ⟨L2, List.range' m (plF.length - m), List.range m, hShape, hKeys⟩, rfl, hlenb, ?_, ?_⟩
  · simp only [Rehash, hloops]
  · intro x
    apply c0_Lookup_congr hs hk hShape hKeys
    intro w
    constructor
    · rintro ⟨i, hi, hik, hiv⟩
      simp only [List.mem_range] at hi
      obtain ⟨hu, he⟩ := hold i hi
      simp only [entry, Prod.mk.injEq] at he
      simp only [hkey, hval] at hik hiv
      exact ⟨_, hu, by rw [← he.2.1]; exact hik, by rw [← he.2.2]; exact hiv⟩
    · rintro ⟨i, hi, hik, hiv⟩
      obtain ⟨p, hp, hpe⟩ := List.getElem_of_mem ((hTmem i).mpr hi)
      have hpm : p < m := by omega
      obtain ⟨_, he⟩ := hold p hpm
      rw [List.getD_eq_getElem _ _ hp, hpe] at he
      simp only [entry, Prod.mk.injEq] at he
      refine ⟨p, List.mem_range.mpr hpm, ?_, ?_⟩
      · show (elemAt (linkFree (plF.length - 1 - m) m plF) p).key = x
        rw [hkey, he.2.1]; exact hik
      · show (elemAt (linkFree (plF.length - 1 - m) m plF) p).value = w
        rw [hval, he.2.2]; exact hiv
  · intro hlt
    simp only
    rw [if_pos (by rw [hlenp, hm]; exact hlt)]
    simp

theorem c0_headAt_replicate (n b : Nat) : headAt (List.replicate n default) b = none := by
  unfold headAt
  rw [List.getD_eq_getElem?_getD, List.getElem?_replicate]
  split <;> rfl

theorem c0_wf_new (digest : K → Nat) : WF digest (new : C0HashTable K V) := by
  have hat : ∀ j, elemAt (new : C0HashTable K V).elemPool j =
      if 0 ≤ j ∧ j < 0 + (s_hashTableInitialSize - 1) then
        ⟨some (j + 1), (elemAt (List.replicate s_hashTableInitialSize
            (default : Elem K V)) j).hash,
          (elemAt (List.replicate s_hashTableInitialSize (default : Elem K V)) j).key,
          (elemAt (List.replicate s_hashTableInitialSize (default : Elem K V)) j).value⟩
      else elemAt (List.replicate s_hashTableInitialSize (default : Elem K V)) j :=
    fun j => c0_elemAt_linkFree _ _ _ (by simp [s_hashTableInitialSize]) j
  refine ⟨fun _ => [], List.range' 0 s_hashTableInitialSize, [], ⟨?_, ?_, ?_, ?_, ?_, ?_, ?_,
    ?_, ?_, ?_, ?_, ?_, ?_, ?_⟩, ?_⟩
  · simp [new, s_hashTableInitialSize]
  · simp [new, c0_length_linkFree]
  · intro b _
    exact c0_headAt_replicate _ b
  · have := c0_isChain_range' (nextOf (new : C0HashTable K V).elemPool)
      s_hashTableInitialSize s_hashTableInitialSize 0 (by simp)
      (by
        intro j _ hj
        show (elemAt (new : C0HashTable K V).elemPool j).pNext = some (j + 1)
        rw [hat, if_pos (by omega)])
      (by
        intro _
        show (elemAt (new : C0HashTable K V).elemPool (s_hashTableInitialSize - 1)).pNext = none
        rw [hat, if_neg (by simp [s_hashTableInitialSize])]
        unfold elemAt
        rw [List.getD_eq_getElem?_getD, List.getElem?_replicate]
        split <;> rfl)
    simpa [s_hashTableInitialSize] using this
  · intro b _; exact List.nodup_nil
  · exact List.nodup_range' _ _
  · exact List.nodup_nil
  · intro i; simp
  · intro i hi; simp at hi
  · intro i hi
    simp only [List.not_mem_nil, false_or, List.mem_range'_1] at hi
    simp only [new, c0_length_linkFree, List.length_replicate]
    omega
  · simp [new, c0_length_linkFree]
  · intro b _ i hi; simp at hi
  · intro i hi; simp at hi
  · rfl
  · intro i hi; simp at hi

/-- In a well-formed table `Lookup` always returns. -/
theorem c0_Lookup_total {digest : K → Nat} {t : C0HashTable K V} (h : WF digest t) (k : K) :
    ∃ r, Lookup digest t k = some r := by
  obtain ⟨L, F, used, hs, _⟩ := h
  exact ⟨_, c0_Lookup_shape hs k⟩

theorem c0_Lookup_new (digest : K → Nat) (k : K) :
    Lookup digest (new : C0HashTable K V) k = some none := by
  obtain ⟨L, F, used, hs, hk⟩ := c0_wf_new (K := K) (V := V) digest
  rw [c0_Lookup_shape hs k]
  have : L (bucketOf digest (new : C0HashTable K V) k) = [] := by
    have hc := hs.chain _ (c0_bucketOf_lt digest _ k hs.pos)
    have hh : headAt (new : C0HashTable K V).buckets
        (bucketOf digest (new : C0HashTable K V) k) = none := c0_headAt_replicate _ _
    rw [hh] at hc
    cases hl : L (bucketOf digest (new : C0HashTable K V) k) with
    | nil => rfl
    | cons a l =>
      rw [hl] at hc
      cases hc.1
  rw [this]
  rfl

/-- The growth step at the head of `Insert`. -/
theorem c0_grow_spec {digest : K → Nat} {t : C0HashTable K V} (h : WF digest t) :
    ∃ t0, (if t.pElemFreeHead = none then Rehash t (t.buckets.length * 2) else some t) =
        some t0 ∧ WF digest t0 ∧ (∃ e, t0.pElemFreeHead = some e) ∧
      ∀ k, Lookup digest t0 k = Lookup digest t k := by
  by_cases hc : t.pElemFreeHead = none
  · obtain ⟨t0, h0, hw0, _, _, hl, hfree⟩ := c0_Rehash_spec h (t.buckets.length * 2)
    obtain ⟨L, F, used, hs, _⟩ := h
    have hlt : t.size < max (max (t.buckets.length * 2) t.size) s_hashTableInitialSize := by
      have h1 := hs.cover
      have h2 := hs.pool_len
      have h3 := hs.size_eq
      have h4 := hs.pos
      omega
    refine ⟨t0, by rw [if_pos hc]; exact h0, hw0, ?_, hl⟩
    cases hf : t0.pElemFreeHead with
    | none => exact absurd hf (hfree hlt)
    | some e => exact ⟨e, rfl⟩
  · refine ⟨t, by rw [if_neg hc], h, ?_, fun _ => rfl⟩
    cases hf : t.pElemFreeHead with
    | none => exact absurd hf hc
    | some e => exact ⟨e, rfl⟩

theorem c0_Insert_spec (digest : K → Nat) {t : C0HashTable K V} (h : WF digest t) (k : K)
    (v : V) (hk : Lookup digest t k = some none) :
    ∃ t1, Insert digest t k v = some t1 ∧ WF digest t1 ∧
      ∀ x, Lookup digest t1 x = if x = k then some (some v) else Lookup digest t x := by
  obtain ⟨t0, h0, hw0, ⟨e, he⟩, hl0⟩ := c0_grow_spec h
  obtain ⟨L, F, used, hs, hki⟩ := hw0
  have hnew : ∀ w, ¬ Holds t0 used k w := by
    intro w hw
    have := c0_Lookup_holds hs hki k w hw
    rw [hl0, hk] at this
    cases this
  obtain ⟨hs1, hk1, hh1⟩ := c0_push_spec hs hki e he k v hnew
  refine ⟨_, ?_, ⟨_, _, _, hs1, hk1⟩, ?_⟩
  · simp only [Insert, h0, he]
    rfl
  · intro x
    by_cases hx : x = k
    · rw [if_pos hx, hx]
      exact c0_Lookup_holds hs1 hk1 k v ((hh1 k v).mpr (Or.inl ⟨rfl, rfl⟩))
    · rw [if_neg hx, ← hl0]
      apply c0_Lookup_congr hs hki hs1 hk1
      intro w
      rw [hh1]
      constructor
      · rintro (⟨e1, _⟩ | hw)
        · exact absurd e1 hx
        · exact hw
      · exact Or.inr

/-- What `Lookup` finds, once it has returned. -/
def view (digest : K → Nat) (t : C0HashTable K V) (k : K) : Option V :=
  (Lookup digest t k).join

/-- Every table reached from a fresh one by a duplicate-free sequence of calls is
well formed and agrees with the finite map of the sequence. -/
theorem c0_run_spec (digest : K → Nat) (ops : List (Op K V))
    (hd : Model.dupFree Model.empty ops = true) :
    ∃ t, run digest new ops = some (t, Model.removes Model.empty ops) ∧ WF digest t ∧
      ∀ k, Lookup digest t k = some (Model.run Model.empty ops k) := by
  have hsim := runOps_sim (WF digest) (view digest) (Insert digest) (Remove digest)
    (by
      intro t k v hw hk
      obtain ⟨r, hr⟩ := c0_Lookup_total hw k
      have hr2 : Lookup digest t k = some none := by
        unfold view at hk
        rw [hr] at hk ⊢
        cases r with
        | none => rfl
        | some a => simp at hk
      obtain ⟨t1, h1, hw1, hl1⟩ := c0_Insert_spec digest hw k v hr2
      refine ⟨t1, h1, hw1, ?_⟩
      intro x
      unfold view
      rw [hl1]
      split <;> rfl)
    (by
      intro t k hw
      obtain ⟨t1, h1, hw1, hl1⟩ := c0_Remove_spec digest hw k
      refine ⟨t1, h1, hw1, ?_⟩
      intro x
      unfold view
      rw [hl1]
      split <;> rfl)
    ops new Model.empty (c0_wf_new digest)
    (by intro x; unfold view; rw [c0_Lookup_new]; rfl) hd
  obtain ⟨t, h1, hw, hl⟩ := hsim
  refine ⟨t, h1, hw, ?_⟩
  intro k
  obtain ⟨r, hr⟩ := c0_Lookup_total hw k
  have := hl k
  unfold view at this
  rw [hr] at this ⊢
  rw [← this]
  rfl

/-! ### Tables that hold a key several times -/

/-- The second half of `Insert` on a table that may hold the key already: the head `e`
of the free list becomes the head of the chain of the key's bucket. -/
theorem c0_push_shape {digest : K → Nat} {t : C0HashTable K V} {L : Nat → List Nat}
    {F used : List Nat} (h : Shape digest t L F used) (e : Nat)
    (he : t.pElemFreeHead = some e) (k : K) (v : V) :
    let t1 : C0HashTable K V :=
      { buckets := t.buckets.set (bucketOf digest t k) ⟨some e⟩,
        elemPool := t.elemPool.set e
          ⟨headAt t.buckets (bucketOf digest t k), HashKey digest k, k, v⟩,
        pElemFreeHead := (elemAt t.elemPool e).pNext,
        size := t.size + 1 }
    Shape digest t1 (Function.update L (bucketOf digest t k) (e :: L (bucketOf digest t k)))
        F.tail (e :: used) ∧
      e ∉ used ∧
      elemAt t1.elemPool e =
        ⟨headAt t.buckets (bucketOf digest t k), HashKey digest k, k, v⟩ ∧
      ∀ i, i ∈ used → elemAt t1.elemPool i = elemAt t.elemPool i := by
  intro t1
  have hb := c0_bucketOf_lt digest t k h.pos
  -- the free list starts with `e`
  obtain ⟨F1, hF⟩ : ∃ F1, F = e :: F1 := by
    have hfree := h.free
    rw [he] at hfree
    cases F with
    | nil => cases hfree
    | cons a F1 =>
      have : some e = some a := hfree.1
      cases this
      exact ⟨F1, rfl⟩
  subst hF
  have hfree := h.free
  rw [he] at hfree
  have heF : e ∉ F1 := (List.nodup_cons.mp h.nodupF).1
  have heU : e ∉ used := fun hu => h.disj e hu (List.mem_cons_self _ _)
  have hepool : e < t.elemPool.length := h.bound e (Or.inr (List.mem_cons_self _ _))
  have hat : ∀ j, elemAt t1.elemPool j =
      if j = e then ⟨headAt t.buckets (bucketOf digest t k), HashKey digest k, k, v⟩
      else elemAt t.elemPool j := fun j => c0_elemAt_set _ _ _ _ hepool
  have hnext : nextOf t1.elemPool =
      Function.update (nextOf t.elemPool) e (headAt t.buckets (bucketOf digest t k)) :=
    c0_nextOf_set _ _ _ hepool
  have hhead : ∀ c, headAt t1.buckets c =
      if c = bucketOf digest t k then some e else headAt t.buckets c :=
    fun c => c0_headAt_set _ _ _ _ hb
  have hlen : t1.buckets.length = t.buckets.length := by simp [t1]
  have hnotin : ∀ b, b < t.buckets.length → e ∉ L b :=
    fun b hb1 hm => heU ((h.used_iff e).mpr ⟨b, hb1, hm⟩)
  have hold : ∀ i, i ∈ used → elemAt t1.elemPool i = elemAt t.elemPool i := by
    intro i hi
    rw [hat, if_neg (by rintro rfl; exact heU hi)]
  refine ⟨⟨by rw [hlen]; exact h.pos, by simp [t1, h.pool_len], ?_, ?_, ?_, ?_, ?_, ?_, ?_,
    ?_, ?_, ?_, ?_, ?_⟩, heU, by rw [hat, if_pos rfl], hold⟩
  · -- chain
    intro c hc
    rw [hlen] at hc
    rw [hhead, hnext]
    by_cases hcb : c = bucketOf digest t k
    · subst hcb
      simp only [if_true, Function.update_same]
      refine ⟨rfl, ?_⟩
      simp only [Function.update_same]
      exact isChain_update e _ (hnotin _ hc) (h.chain _ hc)
    · simp only [hcb, if_false, ne_eq, not_false_eq_true, Function.update_noteq]
      exact isChain_update e _ (hnotin _ hc) (h.chain _ hc)
  · -- free
    show IsChain (nextOf t1.elemPool) (elemAt t.elemPool e).pNext F1
    rw [hnext]
    exact isChain_update e _ heF hfree.2
  · -- nodupL
    intro c hc
    rw [hlen] at hc
    by_cases hcb : c = bucketOf digest t k
    · subst hcb
      simp only [Function.update_same]
      exact List.nodup_cons.mpr ⟨hnotin _ hc, h.nodupL _ hc⟩
    · simp only [ne_eq, hcb, not_false_eq_true, Function.update_noteq]
      exact h.nodupL _ hc
  · exact (List.nodup_cons.mp h.nodupF).2
  · exact List.nodup_cons.mpr ⟨heU, h.nodupU⟩
  · -- used_iff
    intro i
    rw [hlen]
    constructor
    · intro hi
      rcases List.mem_cons.mp hi with rfl | hi
      · exact ⟨bucketOf digest t k, hb, by simp⟩
      · obtain ⟨c, hc, hic⟩ := (h.used_iff i).mp hi
        refine ⟨c, hc, ?_⟩
        by_cases hcb : c = bucketOf digest t k
        · subst hcb; simp [hic]
        · simp [hcb, hic]
    · rintro ⟨c, hc, hic⟩
      by_cases hcb : c = bucketOf digest t k
      · subst hcb
        simp only [Function.update_same, List.mem_cons] at hic
        rcases hic with rfl | hic
        · exact List.mem_cons_self _ _
        · exact List.mem_cons_of_mem _ ((h.used_iff i).mpr ⟨_, hc, hic⟩)
      · simp only [ne_eq, hcb, not_false_eq_true, Function.update_noteq] at hic
        exact List.mem_cons_of_mem _ ((h.used_iff i).mpr ⟨_, hc, hic⟩)
  · -- disj
    intro i hi
    simp only [List.tail_cons]
    rcases List.mem_cons.mp hi with rfl | hi
    · exact heF
    · exact fun hm => h.disj i hi (List.mem_cons_of_mem _ hm)
  · -- bound
    intro i hi
    simp only [t1, List.length_set]
    rcases hi with hi | hi
    · rcases List.mem_cons.mp hi with rfl | hi
      · exact hepool
      · exact h.bound i (Or.inl hi)
    · exact h.bound i (Or.inr (List.mem_cons_of_mem _ hi))
  · -- cover
    have := h.cover
    simp only [List.length_cons, List.tail_cons, t1, List.length_set] at this ⊢
    omega
  · -- home
    intro c hc i hi
    rw [hlen] at hc ⊢
    by_cases hcb : c = bucketOf digest t k
    · subst hcb
      simp only [Function.update_same, List.mem_cons] at hi
      rcases hi with rfl | hi
      · rw [hat, if_pos rfl]; rfl
      · rw [hold i ((h.used_iff i).mpr ⟨_, hc, hi⟩)]
        exact h.home _ hc i hi
    · simp only [ne_eq, hcb, not_false_eq_true, Function.update_noteq] at hi
      rw [hold i ((h.used_iff i).mpr ⟨_, hc, hi⟩)]
      exact h.home _ hc i hi
  · -- hash_ok
    intro i hi
    rcases List.mem_cons.mp hi with rfl | hi
    · rw [hat, if_pos rfl]
    · rw [hold i hi]; exact h.hash_ok i hi
  · -- size
    simp [t1, h.size_eq]

/-- "Put eRemoved back on the free list" on a table that may hold a key several times,
after the node `e` was unlinked from the chain of bucket `b`, whose nodes are now
`l1`. -/
theorem c0_release_shape {digest : K → Nat} {t : C0HashTable K V} {L : Nat → List Nat}
    {F used : List Nat} (h : Shape digest t L F used) (b e : Nat)
    (hb : b < t.buckets.length) (he : e ∈ L b)
    (buckets1 : List Bucket) (pool1 : List (Elem K V)) (l1 : List Nat)
    (hlenb : buckets1.length = t.buckets.length) (hlenp : pool1.length = t.elemPool.length)
    (hl1n : l1.Nodup) (hl1 : ∀ i, i ∈ l1 ↔ i ∈ L b ∧ i ≠ e)
    (hch : IsChain (nextOf pool1) (headAt buckets1 b) l1)
    (hhead : ∀ c, c ≠ b → headAt buckets1 c = headAt t.buckets c)
    (hnext : ∀ j, j ∉ L b → nextOf pool1 j = nextOf t.elemPool j)
    (hhash : ∀ j, (elemAt pool1 j).hash = (elemAt t.elemPool j).hash)
    (hkey : ∀ j, (elemAt pool1 j).key = (elemAt t.elemPool j).key)
    (hval : ∀ j, (elemAt pool1 j).value = (elemAt t.elemPool j).value) :
    Shape digest (release t buckets1 pool1 e) (Function.update L b l1) (e :: F)
        (used.erase e) ∧
      ∀ j, j ≠ e → elemAt (release t buckets1 pool1 e).elemPool j = elemAt pool1 j := by
  have heU : e ∈ used := (h.used_iff e).mpr ⟨b, hb, he⟩
  have heF : e ∉ F := h.disj e heU
  have hepool : e < pool1.length := by rw [hlenp]; exact h.bound e (Or.inl heU)
  have hmemU : ∀ i, i ∈ used.erase e ↔ i ≠ e ∧ i ∈ used :=
    fun i => List.Nodup.mem_erase_iff h.nodupU
  have hat : ∀ j, j ≠ e → elemAt (release t buckets1 pool1 e).elemPool j = elemAt pool1 j :=
    fun j hj => c0_elemAt_set_ne _ _ _ _ hj
  have hnx : nextOf (release t buckets1 pool1 e).elemPool =
      Function.update (nextOf pool1) e t.pElemFreeHead :=
    c0_nextOf_set _ _ _ hepool
  have hlen : (release t buckets1 pool1 e).buckets.length = t.buckets.length := hlenb
  have hother : ∀ c, c < t.buckets.length → c ≠ b → ∀ j ∈ L c, j ∉ L b ∧ j ≠ e := by
    intro c hc hcb j hj
    constructor
    · intro hjb
      exact hcb (c0_chain_disjoint h c b j hc hb hj hjb)
    · rintro rfl
      exact hcb (c0_chain_disjoint h c b j hc hb hj he)
  refine ⟨⟨by rw [hlen]; exact h.pos, ?_, ?_, ?_, ?_, ?_, ?_, ?_, ?_, ?_, ?_, ?_, ?_, ?_⟩,
    hat⟩
  · simp [release, hlenp, hlenb, h.pool_len]
  · -- chain
    intro c hc
    rw [hlen] at hc
    rw [hnx]
    show IsChain _ (headAt buckets1 c) _
    by_cases hcb : c = b
    · subst hcb
      simp only [Function.update_same]
      exact isChain_update e _ (fun hm => ((hl1 e).mp hm).2 rfl) hch
    · simp only [ne_eq, hcb, not_false_eq_true, Function.update_noteq]
      rw [hhead c hcb]
      apply isChain_congr _ (h.chain c hc)
      intro j hj
      obtain ⟨h1, h2⟩ := hother c hc hcb j hj
      rw [Function.update_noteq h2, hnext j h1]
  · -- free
    show IsChain (nextOf (release t buckets1 pool1 e).elemPool) (some e) (e :: F)
    refine ⟨rfl, ?_⟩
    rw [hnx]
    simp only [Function.update_same]
    apply isChain_congr _ h.free
    intro j hj
    have hje : j ≠ e := by rintro rfl; exact heF hj
    have hjb : j ∉ L b := fun hm => h.disj j ((h.used_iff j).mpr ⟨b, hb, hm⟩) hj
    rw [Function.update_noteq hje, hnext j hjb]
  · -- nodupL
    intro c hc
    rw [hlen] at hc
    by_cases hcb : c = b
    · subst hcb; simpa using hl1n
    · simp only [ne_eq, hcb, not_false_eq_true, Function.update_noteq]
      exact h.nodupL c hc
  · exact List.nodup_cons.mpr ⟨heF, h.nodupF⟩
  · exact h.nodupU.erase e
  · -- used_iff
    intro i
    rw [hlen, hmemU]
    constructor
    · rintro ⟨hie, hi⟩
      obtain ⟨c, hc, hic⟩ := (h.used_iff i).mp hi
      refine ⟨c, hc, ?_⟩
      by_cases hcb : c = b
      · subst hcb
        simp only [Function.update_same]
        exact (hl1 i).mpr ⟨hic, hie⟩
      · simp [hcb, hic]
    · rintro ⟨c, hc, hic⟩
      by_cases hcb : c = b
      · subst hcb
        simp only [Function.update_same] at hic
        obtain ⟨h1, h2⟩ := (hl1 i).mp hic
        exact ⟨h2, (h.used_iff i).mpr ⟨c, hc, h1⟩⟩
      · simp only [ne_eq, hcb, not_false_eq_true, Function.update_noteq] at hic
        exact ⟨(hother c hc hcb i hic).2, (h.used_iff i).mpr ⟨c, hc, hic⟩⟩
  · -- disj
    intro i hi hm
    obtain ⟨hie, hiu⟩ := (hmemU i).mp hi
    rcases List.mem_cons.mp hm with h1 | h1
    · exact hie h1
    · exact h.disj i hiu h1
  · -- bound
    intro i hi
    simp only [release, List.length_set, hlenp]
    rcases hi with hi | hi
    · exact h.bound i (Or.inl ((hmemU i).mp hi).2)
    · rcases List.mem_cons.mp hi with rfl | hi
      · exact h.bound i (Or.inl heU)
      · exact h.bound i (Or.inr hi)
  · -- cover
    have := h.cover
    have h2 := List.length_erase_of_mem heU
    have h3 : 0 < used.length := List.length_pos_of_mem heU
    simp only [release, List.length_set, List.length_cons, hlenp, h2]
    omega
  · -- home
    intro c hc i hi
    rw [hlen] at hc ⊢
    by_cases hcb : c = b
    · subst hcb
      simp only [Function.update_same] at hi
      obtain ⟨h1, h2⟩ := (hl1 i).mp hi
      rw [hat i h2, hhash]
      exact h.home c hc i h1
    · simp only [ne_eq, hcb, not_false_eq_true, Function.update_noteq] at hi
      rw [hat i (hother c hc hcb i hi).2, hhash]
      exact h.home c hc i hi
  · -- hash_ok
    intro i hi
    obtain ⟨hie, hiu⟩ := (hmemU i).mp hi
    rw [hat i hie, hhash, hkey]
    exact h.hash_ok i hiu
  · -- size
    have h2 := List.length_erase_of_mem heU
    simp [release, h.size_eq, h2]

theorem c0_find_split (hit : Nat → Bool) (A : List Nat) (e : Nat) (post : List Nat)
    (hA : ∀ x ∈ A, hit x = false) (he : hit e = true) :
    (A ++ e :: post).find? hit = some e := by
  induction A with
  | nil => simp [List.find?_cons, he]
  | cons a A ih =>
    have ha := hA a (List.mem_cons_self _ _)
    simp only [List.cons_append, List.find?_cons, ha]
    exact ih (fun x hx => hA x (List.mem_cons_of_mem _ hx))

/-- `Remove` on a table that may hold a key several times: the first node of the chain
of the key's bucket that holds the key is unlinked and goes to the free list; the other
nodes keep their content and their order. -/
theorem c0_Remove_shape (digest : K → Nat) {t : C0HashTable K V} {L : Nat → List Nat}
    {F used : List Nat} (hs : Shape digest t L F used) (k : K) :
    ((L (bucketOf digest t k)).find? (hitOf t.elemPool (HashKey digest k) k) = none ∧
        Remove digest t k = some (t, false)) ∨
      ∃ e t1 F1 used1,
        (L (bucketOf digest t k)).find? (hitOf t.elemPool (HashKey digest k) k) = some e ∧
        Remove digest t k = some (t1, true) ∧
        Shape digest t1
          (Function.update L (bucketOf digest t k) ((L (bucketOf digest t k)).erase e))
          F1 used1 ∧
        t1.buckets.length = t.buckets.length ∧ t1.size + 1 = t.size ∧
        ∀ j, j ≠ e → entry t1.elemPool j = entry t.elemPool j := by
  have hb := c0_bucketOf_lt digest t k hs.pos
  have hchain := hs.chain _ hb
  have hnodup := hs.nodupL _ hb
  have hlenle := c0_chain_length_le hs _ hb
  have hsize : ∀ e, e ∈ used → 0 < t.size := by
    intro e he
    rw [hs.size_eq]
    exact List.length_pos_of_mem he
  cases hL : L (bucketOf digest t k) with
  | nil =>
    rw [hL] at hchain
    have hhead : headAt t.buckets (HashKey digest k &&& (t.buckets.length - 1)) = none :=
      hchain
    left
    refine ⟨rfl, ?_⟩
    simp only [Remove, hhead]
  | cons q l =>
    rw [hL] at hchain hnodup hlenle
    obtain ⟨hhead, hrest⟩ := hchain
    have hhead1 : headAt t.buckets (HashKey digest k &&& (t.buckets.length - 1)) = some q :=
      hhead
    have hqL : q ∈ L (bucketOf digest t k) := by rw [hL]; simp
    have hqU : q ∈ used := (hs.used_iff q).mpr ⟨_, hb, hqL⟩
    cases hq : hitOf t.elemPool (HashKey digest k) k q with
    | true =>
      have hrel := c0_release_shape hs (bucketOf digest t k) q hb hqL
        (t.buckets.set (bucketOf digest t k) ⟨(elemAt t.elemPool q).pNext⟩) t.elemPool l
        (by simp) rfl (List.nodup_cons.mp hnodup).2
        (by
          intro i
          rw [hL]
          constructor
          · intro hi
            exact ⟨List.mem_cons_of_mem _ hi, fun e1 => (List.nodup_cons.mp hnodup).1 (e1 ▸ hi)⟩
          · rintro ⟨hi, hne⟩
            exact (List.mem_cons.mp hi).resolve_left hne)
        (by rw [c0_headAt_set _ _ _ _ hb, if_pos rfl]; exact hrest)
        (by intro c hc; rw [c0_headAt_set _ _ _ _ hb, if_neg hc])
        (fun _ _ => rfl) (fun _ => rfl) (fun _ => rfl) (fun _ => rfl)
      right
      refine ⟨q, release t (t.buckets.set (bucketOf digest t k) ⟨(elemAt t.elemPool q).pNext⟩)
        t.elemPool q, q :: F, used.erase q, by simp [List.find?_cons, hq], ?_, ?_, ?_, ?_, ?_⟩
      · simp only [Remove, hhead1, hq, if_true]
        rfl
      · rw [List.erase_cons_head]
        exact hrel.1
      · simp [release]
      · have := hsize q hqU
        simp only [release]
        omega
      · intro j hj
        simp only [entry, hrel.2 j hj]
    | false =>
      have hfp : chainFindPrev (nextOf t.elemPool) (hitOf t.elemPool (HashKey digest k) k)
          t.elemPool.length (elemAt t.elemPool q).pNext q =
          some (findPrev (hitOf t.elemPool (HashKey digest k) k) q l) :=
        chainFindPrev_spec (nextOf t.elemPool) (hitOf t.elemPool (HashKey digest k) k)
          l t.elemPool.length _ q hrest (by simp at hlenle; omega)
      cases hfind : findPrev (hitOf t.elemPool (HashKey digest k) k) q l with
      | none =>
        rw [hfind] at hfp
        have hall := findPrev_none _ l q hfind
        left
        refine ⟨?_, ?_⟩
        · rw [List.find?_eq_none]
          intro x hx
          rcases List.mem_cons.mp hx with rfl | hx
          · simp [hq]
          · simp [hall x hx]
        · simp only [Remove, hhead1, hq, Bool.false_eq_true, if_false]
          simp only [hfp]
      | some ep =>
        obtain ⟨e, p⟩ := ep
        rw [hfind] at hfp
        obtain ⟨A, post, hsplit, hA, hp, he⟩ := findPrev_some _ l q e p hq hfind
        rw [hsplit] at hnodup
        have heL : e ∈ L (bucketOf digest t k) := by rw [hL, hsplit]; simp
        have hpL : p ∈ L (bucketOf digest t k) := by rw [hL, hsplit]; simp
        have heU : e ∈ used := (hs.used_iff e).mpr ⟨_, hb, heL⟩
        have hpU : p ∈ used := (hs.used_iff p).mpr ⟨_, hb, hpL⟩
        have hppool : p < t.elemPool.length := hs.bound p (Or.inl hpU)
        have hchainb : IsChain (nextOf t.elemPool) (headAt t.buckets (bucketOf digest t k))
            (A ++ p :: e :: post) := by
          rw [← hsplit, ← hL]; exact hs.chain _ hb
        have hent : ∀ j, elemAt (t.elemPool.set p
            ⟨(elemAt t.elemPool e).pNext, (elemAt t.elemPool p).hash,
              (elemAt t.elemPool p).key, (elemAt t.elemPool p).value⟩) j =
            if j = p then ⟨(elemAt t.elemPool e).pNext, (elemAt t.elemPool p).hash,
              (elemAt t.elemPool p).key, (elemAt t.elemPool p).value⟩
            else elemAt t.elemPool j := fun j => c0_elemAt_set _ _ _ _ hppool
        have hrel := c0_release_shape hs (bucketOf digest t k) e hb heL
          t.buckets (t.elemPool.set p
            ⟨(elemAt t.elemPool e).pNext, (elemAt t.elemPool p).hash,
              (elemAt t.elemPool p).key, (elemAt t.elemPool p).value⟩) (A ++ p :: post)
          rfl (by simp)
          (by
            have := hnodup
            simp only [List.nodup_append, List.nodup_cons, List.mem_cons, not_or,
              List.disjoint_cons_right] at this ⊢
            tauto)
          (by
            intro i
            rw [hL, hsplit]
            have := hnodup
            simp only [List.nodup_append, List.nodup_cons, List.mem_cons, not_or,
              List.disjoint_cons_right, List.mem_append] at this ⊢
            constructor
            · intro hi
              refine ⟨by tauto, ?_⟩
              rintro rfl
              tauto
            · tauto)
          (by
            rw [c0_nextOf_set _ _ _ hppool]
            exact isChain_unlink A p e post _ hchainb hnodup)
          (fun _ _ => rfl)
          (by
            intro j hj
            have hjp : j ≠ p := by rintro rfl; exact hj hpL
            unfold nextOf
            rw [hent, if_neg hjp])
          (by intro j; rw [hent]; split <;> simp_all)
          (by intro j; rw [hent]; split <;> simp_all)
          (by intro j; rw [hent]; split <;> simp_all)
        have hfind2 : (q :: l).find? (hitOf t.elemPool (HashKey digest k) k) = some e := by
          rw [hsplit, show A ++ p :: e :: post = (A ++ [p]) ++ e :: post by simp]
          apply c0_find_split _ _ _ _ _ he
          intro x hx
          rcases List.mem_append.mp hx with hx | hx
          · exact hA x hx
          · simp only [List.mem_singleton] at hx
            rw [hx]; exact hp
        have herase : (q :: l).erase e = A ++ p :: post := by
          rw [hsplit, show A ++ p :: e :: post = (A ++ [p]) ++ e :: post by simp]
          rw [List.erase_append_right, List.erase_cons_head]
          · simp
          · have := hnodup
            simp only [List.nodup_append, List.nodup_cons, List.mem_cons, not_or,
              List.disjoint_cons_right, List.mem_append, List.mem_singleton] at this ⊢
            tauto
        right
        refine ⟨e, release t t.buckets (t.elemPool.set p
            ⟨(elemAt t.elemPool e).pNext, (elemAt t.elemPool p).hash,
              (elemAt t.elemPool p).key, (elemAt t.elemPool p).value⟩) e, e :: F,
          used.erase e, hfind2, ?_, ?_, ?_, ?_, ?_⟩
        · simp only [Remove, hhead1, hq, Bool.false_eq_true, if_false]
          simp only [hfp]
        · rw [herase]
          exact hrel.1
        · simp [release]
        · have := hsize e heU
          simp only [release]
          omega
        · intro j hj
          simp only [entry, hrel.2 j hj]
          rw [hent]
          split <;> simp_all

theorem c0_walk_eq (next : Nat → Option Nat) :
    ∀ (l : List Nat) (fuel : Nat) (h : Option Nat), IsChain next h l → l.length ≤ fuel →
      walk next fuel h = l := by
  intro l
  induction l with
  | nil =>
    intro fuel h hl _
    have : h = none := hl
    subst this
    cases fuel <;> rfl
  | cons i l ih =>
    intro fuel h hl hf
    obtain ⟨h1, h2⟩ := hl
    subst h1
    cases fuel with
    | zero => simp at hf
    | succ fuel =>
      simp only [walk]
      rw [ih fuel _ h2 (by simpa using hf)]

/-- The entries of a chain are the entries of its nodes. -/
theorem c0_chainOf_eq {digest : K → Nat} {t : C0HashTable K V} {L : Nat → List Nat}
    {F used : List Nat} (h : Shape digest t L F used) (b : Nat) (hb : b < t.buckets.length) :
    chainOf t b =
      (L b).map (fun e => ((elemAt t.elemPool e).key, (elemAt t.elemPool e).value)) := by
  unfold chainOf
  rw [c0_walk_eq _ (L b) _ _ (h.chain b hb) (c0_chain_length_le h b hb)]

/-- While `Rehash` moves nodes, the new chains list the moved entries of their bucket,
the entry moved last first. -/
theorem c0_build_fold_order {pool : List (Elem K V)} {n1 : Nat} (hn : 0 < n1) :
    ∀ (todo : List Nat) (st : List Bucket × List (Elem K V) × Nat) (L1 : Nat → List Nat)
      (done : List Nat), Build pool n1 st L1 done → done.length + todo.length ≤ n1 →
      ∃ L2, Build pool n1 (todo.foldl (pushNode pool n1) st) L2 (done ++ todo) ∧
        ∀ b, b < n1 → (L2 b).map (entry (todo.foldl (pushNode pool n1) st).2.1) =
          ((todo.map (entry pool)).filter
              (fun x => decide (x.1 &&& (n1 - 1) = b))).reverse ++
            (L1 b).map (entry st.2.1) := by
  intro todo
  induction todo with
  | nil =>
    intro st L1 done h _
    exact ⟨L1, by simpa using h, fun b _ => by simp⟩
  | cons e todo ih =>
    intro st L1 done h hlen
    simp only [List.length_cons] at hlen
    have hstep := c0_build_step h hn (by omega) e
    obtain ⟨L2, h2, hord⟩ := ih _ _ _ hstep (by simp; omega)
    refine ⟨L2, by simpa using h2, ?_⟩
    intro b hb
    simp only [List.foldl_cons]
    rw [hord b hb]
    have hm : st.2.2 = done.length := h.cnt
    have hnew : entry (pushNode pool n1 st e).2.1 st.2.2 = entry pool e := by
      have := hstep.content st.2.2 (by simp [hm])
      rw [this, hm]
      simp [List.getD_eq_getElem?_getD]
    have hold : ∀ i ∈ L1 b, entry (pushNode pool n1 st e).2.1 i = entry st.2.1 i := by
      intro i hi
      have hi1 : i < done.length := by
        rw [← hm]; exact (h.used_iff i).mpr ⟨b, hb, hi⟩
      have h1 := hstep.content i (by simp; omega)
      have h2 := h.content i hi1
      rw [h1, h2]
      congr 1
      simp [List.getD_eq_getElem?_getD, List.getElem?_append_left hi1]
    have hmap : (L1 b).map (entry (pushNode pool n1 st e).2.1) = (L1 b).map (entry st.2.1) :=
      List.map_congr_left hold
    simp only [List.map_cons, List.filter_cons]
    by_cases hbe : (elemAt pool e).hash &&& (n1 - 1) = b
    · have hd : decide ((entry pool e).1 &&& (n1 - 1) = b) = true := by
        simp [entry, hbe]
      rw [if_pos hd, hbe, Function.update_same]
      simp only [List.map_cons, List.reverse_cons, List.append_assoc, List.singleton_append]
      rw [hnew, hmap]
    · have hd : ¬ decide ((entry pool e).1 &&& (n1 - 1) = b) = true := by
        simp [entry, hbe]
      rw [if_neg hd, Function.update_noteq (fun e1 => hbe e1.symm)]
      rw [hmap]

/-- `Rehash` on a table that may hold a key several times: the new chain of a bucket
lists the old entries that belong to it, in the reverse of the order in which the old
chains are walked. -/
theorem c0_Rehash_shape {digest : K → Nat} {t : C0HashTable K V} {L : Nat → List Nat}
    {F used : List Nat} (hs : Shape digest t L F used) (n : Nat) :
    ∃ t1 L2 F2 used2, Rehash t n = some t1 ∧ Shape digest t1 L2 F2 used2 ∧
      t1.size = t.size ∧
      t1.buckets.length = max (max n t.size) s_hashTableInitialSize ∧
      (t.size < max (max n t.size) s_hashTableInitialSize → t1.pElemFreeHead ≠ none) ∧
      ∀ b, b < max (max n t.size) s_hashTableInitialSize →
        (L2 b).map (entry t1.elemPool) =
          (((traversal t.buckets.length L).map (entry t.elemPool)).filter
            (fun x => decide (x.1 &&& (max (max n t.size) s_hashTableInitialSize - 1) = b))
            ).reverse := by
  have hn1 : 0 < max (max n t.size) s_hashTableInitialSize := by
    simp [s_hashTableInitialSize]
  have hTlen := c0_length_traversal hs
  have hTnd := c0_nodup_traversal hs
  have hTmem := c0_mem_traversal hs
  have hloops := c0_rehashBuckets_eq t.elemPool (max (max n t.size) s_hashTableInitialSize) L
    t.buckets 0 (List.replicate (max (max n t.size) s_hashTableInitialSize) default,
      List.replicate (max (max n t.size) s_hashTableInitialSize) default, 0)
    (by
      intro i hi
      rw [Nat.zero_add]
      exact ⟨hs.chain i hi, c0_chain_length_le hs i hi⟩)
  rw [← List.range_eq_range'] at hloops
  obtain ⟨L2, hB, hord⟩ := c0_build_fold_order hn1 (traversal t.buckets.length L) _ _ []
    (c0_build_init t.elemPool (max (max n t.size) s_hashTableInitialSize))
    (by simp only [List.length_nil, Nat.zero_add]; rw [hTlen]; omega)
  simp only [List.nil_append, List.map_nil, List.append_nil] at hB hord
  change rehashBuckets t.elemPool _ t.buckets _ =
    some ((traversal t.buckets.length L).foldl _ _) at hloops
  generalize hst : (traversal t.buckets.length L).foldl
    (pushNode t.elemPool (max (max n t.size) s_hashTableInitialSize))
    (List.replicate (max (max n t.size) s_hashTableInitialSize) default,
      List.replicate (max (max n t.size) s_hashTableInitialSize) default, 0) = stF
    at hloops hB hord
  obtain ⟨bsF, plF, m⟩ := stF
  have hlenb : bsF.length = max (max n t.size) s_hashTableInitialSize := hB.lenb
  have hlenp : plF.length = max (max n t.size) s_hashTableInitialSize := hB.lenp
  have hm : m = t.size := by rw [← hTlen]; exact hB.cnt
  have hmT : m = (traversal t.buckets.length L).length := hB.cnt
  have hmle : m ≤ plF.length := by rw [hlenp, hm]; omega
  have hat : ∀ j, elemAt (linkFree (plF.length - 1 - m) m plF) j =
      if m ≤ j ∧ j < m + (plF.length - 1 - m) then
        ⟨some (j + 1), (elemAt plF j).hash, (elemAt plF j).key, (elemAt plF j).value⟩
      else elemAt plF j := fun j => c0_elemAt_linkFree _ _ _ (by omega) j
  have hlow : ∀ j, j < m → elemAt (linkFree (plF.length - 1 - m) m plF) j = elemAt plF j := by
    intro j hj
    rw [hat, if_neg (by omega)]
  have hhash : ∀ j, (elemAt (linkFree (plF.length - 1 - m) m plF) j).hash =
      (elemAt plF j).hash := by
    intro j; rw [hat]; split <;> rfl
  have hkey : ∀ j, (elemAt (linkFree (plF.length - 1 - m) m plF) j).key =
      (elemAt plF j).key := by
    intro j; rw [hat]; split <;> rfl
  have hval : ∀ j, (elemAt (linkFree (plF.length - 1 - m) m plF) j).value =
      (elemAt plF j).value := by
    intro j; rw [hat]; split <;> rfl
  have hltm : ∀ b, b < max (max n t.size) s_hashTableInitialSize → ∀ i ∈ L2 b, i < m :=
    fun b hb1 i hi => (hB.used_iff i).mpr ⟨b, hb1, hi⟩
  have hold : ∀ p, p < m → (traversal t.buckets.length L).getD p 0 ∈ used ∧
      entry plF p = entry t.elemPool ((traversal t.buckets.length L).getD p 0) := by
    intro p hp
    have hp2 : p < (traversal t.buckets.length L).length := by omega
    refine ⟨?_, hB.content p hp2⟩
    rw [← hTmem, List.getD_eq_getElem _ _ hp2]
    exact List.getElem_mem hp2
  have hShape : Shape digest
      ({ buckets := bsF, elemPool := linkFree (plF.length - 1 - m) m plF,
         pElemFreeHead := if m < plF.length then some m else none, size := t.size } :
        C0HashTable K V) L2 (List.range' m (plF.length - m)) (List.range m) := by
    refine ⟨by simp only [hlenb]; exact hn1, by simp [c0_length_linkFree, hlenb, hlenp],
      ?_, ?_, ?_, List.nodup_range' _ _, List.nodup_range _, ?_, ?_, ?_, ?_, ?_, ?_, ?_⟩
    · intro b hb
      simp only [hlenb] at hb
      apply isChain_congr _ (hB.chain b hb)
      intro i hi
      unfold nextOf
      rw [hlow i (hltm b hb i hi)]
    · apply c0_isChain_range' _ plF.length (plF.length - m) m (by omega)
      · intro j hj hj2
        show (elemAt (linkFree (plF.length - 1 - m) m plF) j).pNext = some (j + 1)
        rw [hat, if_pos (by omega)]
      · intro hlt
        show (elemAt (linkFree (plF.length - 1 - m) m plF) (plF.length - 1)).pNext = none
        rw [hat, if_neg (by omega)]
        exact hB.rest _ (by show m ≤ plF.length - 1; omega)
    · intro b hb
      simp only [hlenb] at hb
      exact hB.nodupL b hb
    · intro i
      simp only [List.mem_range, hlenb]
      exact hB.used_iff i
    · intro i hi
      simp only [List.mem_range] at hi
      simp only [List.mem_range'_1, not_and, not_lt]
      omega
    · intro i hi
      simp only [List.mem_range, List.mem_range'_1, c0_length_linkFree] at hi ⊢
      omega
    · simp only [List.length_range', List.length_range, c0_length_linkFree]
      omega
    · intro b hb i hi
      simp only [hlenb] at hb ⊢
      rw [hhash]
      exact hB.home b hb i hi
    · intro i hi
      simp only [List.mem_range] at hi
      obtain ⟨hu, he⟩ := hold i hi
      rw [hhash, hkey]
      have h1 := hs.hash_ok _ hu
      simp only [entry, Prod.mk.injEq] at he
      rw [he.1, he.2.1]
      exact h1
    · simp [hm]
  refine ⟨{ buckets := bsF, elemPool := linkFree (plF.length - 1 - m) m plF,
            pElemFreeHead := if m < plF.length then some m else none, size := t.size },
    L2, List.range' m (plF.length - m), List.range m, ?_, hShape, rfl, hlenb, ?_, ?_⟩
  · simp only [Rehash, hloops]
  · intro hlt
    simp only
    rw [if_pos (by rw [hlenp, hm]; exact hlt)]
    simp
  · intro b hb
    rw [← hord b hb]
    apply List.map_congr_left
    intro i hi
    simp only [entry, hlow i (hltm b hb i hi)]

theorem c0_shape_new (digest : K → Nat) :
    ∃ L F used, Shape digest (new : C0HashTable K V) L F used := by
  obtain ⟨L, F, used, h, _⟩ := c0_wf_new (V := V) digest
  exact ⟨L, F, used, h⟩

/-- The free list is empty exactly when every element of the pool is in a chain. -/
theorem c0_free_none_iff {digest : K → Nat} {t : C0HashTable K V} {L : Nat → List Nat}
    {F used : List Nat} (hs : Shape digest t L F used) :
    t.pElemFreeHead = none ↔ t.size = t.buckets.length := by
  have hc := hs.cover
  rw [← hs.size_eq, hs.pool_len] at hc
  have hfree := hs.free
  constructor
  · intro hn
    rw [hn] at hfree
    cases F with
    | nil => simp at hc; omega
    | cons a F1 => cases hfree.1
  · intro hsz
    cases F with
    | nil => exact hfree
    | cons a F1 => simp at hc; omega

/-- `Insert` on a table that may hold the key already: after the growth step, which
leaves a free node, the entry becomes the head of the chain of its bucket. -/
theorem c0_Insert_shape (digest : K → Nat) {t : C0HashTable K V} {L : Nat → List Nat}
    {F used : List Nat} (hs : Shape digest t L F used) (k : K) (v : V) :
    ∃ t0 L0 F0 used0 e t1,
      (if t.pElemFreeHead = none then Rehash t (t.buckets.length * 2) else some t) = some t0 ∧
      Shape digest t0 L0 F0 used0 ∧ t0.pElemFreeHead = some e ∧
      Insert digest t k v = some t1 ∧
      Shape digest t1
        (Function.update L0 (bucketOf digest t0 k) (e :: L0 (bucketOf digest t0 k)))
        F0.tail (e :: used0) ∧
      t1.buckets.length = t0.buckets.length ∧ t1.size = t.size + 1 ∧ t0.size = t.size ∧
      e ∉ used0 ∧ entry t1.elemPool e = (HashKey digest k, k, v) ∧
      (∀ i, i ∈ used0 → entry t1.elemPool i = entry t0.elemPool i) ∧
      ((t.pElemFreeHead ≠ none ∧ t0 = t ∧ L0 = L) ∨
        (t.pElemFreeHead = none ∧
          t0.buckets.length = max (max (t.buckets.length * 2) t.size) s_hashTableInitialSize ∧
          ∀ b, b < t0.buckets.length →
            (L0 b).map (entry t0.elemPool) =
              (((traversal t.buckets.length L).map (entry t.elemPool)).filter
                (fun x => decide (x.1 &&& (t0.buckets.length - 1) = b))).reverse)) := by
  obtain ⟨t0, L0, F0, used0, h0, hs0, hsz0, hfree0, hrel⟩ : ∃ t0 L0 F0 used0,
      (if t.pElemFreeHead = none then Rehash t (t.buckets.length * 2) else some t) = some t0 ∧
      Shape digest t0 L0 F0 used0 ∧ t0.size = t.size ∧ t0.pElemFreeHead ≠ none ∧
      ((t.pElemFreeHead ≠ none ∧ t0 = t ∧ L0 = L) ∨
        (t.pElemFreeHead = none ∧
          t0.buckets.length = max (max (t.buckets.length * 2) t.size) s_hashTableInitialSize ∧
          ∀ b, b < t0.buckets.length →
            (L0 b).map (entry t0.elemPool) =
              (((traversal t.buckets.length L).map (entry t.elemPool)).filter
                (fun x => decide (x.1 &&& (t0.buckets.length - 1) = b))).reverse)) := by
    by_cases hf : t.pElemFreeHead = none
    · obtain ⟨t0, L0, F0, used0, h0, hs0, hsz0, hlen0, hfr, hord⟩ :=
        c0_Rehash_shape hs (t.buckets.length * 2)
      have hsz := (c0_free_none_iff hs).mp hf
      have hpos := hs.pos
      refine ⟨t0, L0, F0, used0, by rw [if_pos hf]; exact h0, hs0, hsz0, ?_, Or.inr ⟨hf, hlen0, ?_⟩⟩
      · apply hfr
        rw [hsz]
        have : t.buckets.length * 2 ≤
            max (max (t.buckets.length * 2) t.buckets.length) s_hashTableInitialSize :=
          le_trans (Nat.le_max_left _ _) (Nat.le_max_left _ _)
        omega
      · intro b hb
        rw [hlen0] at hb ⊢
        exact hord b hb
    · exact ⟨t, L, F, used, by rw [if_neg hf], hs, rfl, hf, Or.inl ⟨hf, rfl, rfl⟩⟩
  obtain ⟨e, he⟩ : ∃ e, t0.pElemFreeHead = some e := by
    cases hfe : t0.pElemFreeHead with
    | none => exact absurd hfe hfree0
    | some e => exact ⟨e, rfl⟩
  have hpush := c0_push_shape hs0 e he k v
  simp only at hpush
  obtain ⟨hs1, heU, hnew, hold⟩ := hpush
  refine ⟨t0, L0, F0, used0, e, _, h0, hs0, he, ?_, hs1, by simp, by simp [hsz0], hsz0, heU,
    ?_, ?_, hrel⟩
  · simp only [Insert, h0, he]
    rfl
  · simp only [entry, hnew]
  · intro i hi
    simp only [entry, hold i hi]

/-- Every sequence of calls returns, whether or not keys repeat, and leaves a table of
well-formed chains. -/
theorem c0_calls_shape (digest : K → Nat) :
    ∀ (calls : List (Call K V)) (t : C0HashTable K V),
      (∃ L F used, Shape digest t L F used) →
      ∃ t1, runCalls digest t calls = some t1 ∧ ∃ L F used, Shape digest t1 L F used := by
  intro calls
  induction calls with
  | nil => exact fun t h => ⟨t, rfl, h⟩
  | cons c rest ih =>
    intro t h
    obtain ⟨L, F, used, hs⟩ := h
    cases c with
    | insert k v =>
      obtain ⟨t0, L0, F0, used0, e, t1, _, _, _, h1, hs1, _⟩ := c0_Insert_shape digest hs k v
      obtain ⟨t2, h2, hs2⟩ := ih t1 ⟨_, _, _, hs1⟩
      exact ⟨t2, by simp only [runCalls, h1]; exact h2, hs2⟩
    | remove k =>
      rcases c0_Remove_shape digest hs k with ⟨_, h1⟩ | ⟨e, t1, F1, used1, _, h1, hs1, _⟩
      · obtain ⟨t2, h2, hs2⟩ := ih t ⟨_, _, _, hs⟩
        exact ⟨t2, by simp only [runCalls, h1]; exact h2, hs2⟩
      · obtain ⟨t2, h2, hs2⟩ := ih t1 ⟨_, _, _, hs1⟩
        exact ⟨t2, by simp only [runCalls, h1]; exact h2, hs2⟩
    | reserve n =>
      obtain ⟨t1, L1, F1, used1, h1, hs1, _⟩ := c0_Rehash_shape hs (smear n)
      obtain ⟨t2, h2, hs2⟩ := ih t1 ⟨_, _, _, hs1⟩
      exact ⟨t2, by simp only [runCalls, Reserve, h1]; exact h2, hs2⟩
    | rehash n =>
      obtain ⟨t1, L1, F1, used1, h1, hs1, _⟩ := c0_Rehash_shape hs n
      obtain ⟨t2, h2, hs2⟩ := ih t1 ⟨_, _, _, hs1⟩
      exact ⟨t2, by simp only [runCalls, h1]; exact h2, hs2⟩
    | reset =>
      obtain ⟨t2, h2, hs2⟩ := ih (Reset t) (c0_shape_new digest)
      exact ⟨t2, by simp only [runCalls]; exact h2, hs2⟩

/-! ### The shadowing order of the entries of a key -/

/-- The values held for `k`, in the order of the chain of its bucket. -/
def histOf (digest : K → Nat) (t : C0HashTable K V) (L : Nat → List Nat) (k : K) : List V :=
  ((L (bucketOf digest t k)).filter (fun e => decide ((elemAt t.elemPool e).key = k))).map
    (fun e => (elemAt t.elemPool e).value)

theorem c0_find_congr {p q : Nat → Bool} :
    ∀ (l : List Nat), (∀ x ∈ l, p x = q x) → l.find? p = l.find? q := by
  intro l
  induction l with
  | nil => intro _; rfl
  | cons a l ih =>
    intro h
    simp only [List.find?_cons, h a (List.mem_cons_self _ _)]
    rw [ih (fun x hx => h x (List.mem_cons_of_mem _ hx))]

/-- On the chain of the bucket of `k` the test of `Lookup` and `Remove` is the
comparison of the keys. -/
theorem c0_hit_iff {digest : K → Nat} {t : C0HashTable K V} {L : Nat → List Nat}
    {F used : List Nat} (hs : Shape digest t L F used) (k : K) (e : Nat) (he : e ∈ used) :
    hitOf t.elemPool (HashKey digest k) k e = decide ((elemAt t.elemPool e).key = k) := by
  have := hs.hash_ok e he
  unfold hitOf
  by_cases hk : (elemAt t.elemPool e).key = k
  · simp [hk, this]
  · simp [hk]

/-- `Lookup(k)` returns the first value of the shadowing order. -/
theorem c0_Lookup_hist {digest : K → Nat} {t : C0HashTable K V} {L : Nat → List Nat}
    {F used : List Nat} (hs : Shape digest t L F used) (k : K) :
    Lookup digest t k = some (histOf digest t L k).head? := by
  have hb := c0_bucketOf_lt digest t k hs.pos
  rw [c0_Lookup_shape hs k]
  unfold histOf
  rw [List.head?_map, List.filter_head?]
  rw [c0_find_congr (L (bucketOf digest t k))
    (fun x hx => c0_hit_iff hs k x ((hs.used_iff x).mpr ⟨_, hb, hx⟩))]

theorem c0_flatMap_nil (g : Nat → List Nat) :
    ∀ (l : List Nat), (∀ c ∈ l, g c = []) → l.flatMap g = [] := by
  intro l
  induction l with
  | nil => intro _; rfl
  | cons a l ih =>
    intro h
    simp only [List.flatMap_cons, h a (List.mem_cons_self _ _), List.nil_append]
    exact ih (fun c hc => h c (List.mem_cons_of_mem _ hc))

theorem c0_flatMap_single (g : Nat → List Nat) (b : Nat) :
    ∀ (n : Nat), b < n → (∀ c, c < n → c ≠ b → g c = []) →
      (List.range n).flatMap g = g b := by
  intro n
  induction n with
  | zero => intro h; omega
  | succ n ih =>
    intro hb h
    rw [List.range_succ, List.flatMap_append]
    simp only [List.flatMap_cons, List.flatMap_nil, List.append_nil]
    by_cases hbn : b = n
    · subst hbn
      rw [c0_flatMap_nil g (List.range b) (fun c hc =>
        h c (by have := List.mem_range.mp hc; omega) (by have := List.mem_range.mp hc; omega))]
      rfl
    · rw [ih (by omega) (fun c hc hcb => h c (by omega) hcb), h n (by omega) (fun e => hbn e.symm)]
      simp

/-- The nodes of all chains that hold `k` are those of the chain of the bucket of
`k`. -/
theorem c0_traversal_filter {digest : K → Nat} {t : C0HashTable K V} {L : Nat → List Nat}
    {F used : List Nat} (hs : Shape digest t L F used) (k : K) :
    (traversal t.buckets.length L).filter (fun e => decide ((elemAt t.elemPool e).key = k)) =
      (L (bucketOf digest t k)).filter (fun e => decide ((elemAt t.elemPool e).key = k)) := by
  have hb := c0_bucketOf_lt digest t k hs.pos
  unfold traversal
  rw [List.filter_flatMap]
  apply c0_flatMap_single _ _ _ hb
  intro c hc hcb
  rw [List.filter_eq_nil_iff]
  intro e he
  simp only [decide_eq_true_eq]
  intro hk
  apply hcb
  have h1 := hs.home c hc e he
  have h2 := hs.hash_ok e ((hs.used_iff e).mpr ⟨c, hc, he⟩)
  rw [← h1, h2, hk]
  rfl

/-- `Rehash` reverses the shadowing order of every key. -/
theorem c0_Rehash_hist {digest : K → Nat} {t t0 : C0HashTable K V} {L L0 : Nat → List Nat}
    {F used F0 used0 : List Nat} (hs : Shape digest t L F used)
    (hs0 : Shape digest t0 L0 F0 used0)
    (hord : ∀ b, b < t0.buckets.length →
      (L0 b).map (entry t0.elemPool) =
        (((traversal t.buckets.length L).map (entry t.elemPool)).filter
          (fun x => decide (x.1 &&& (t0.buckets.length - 1) = b))).reverse) (k : K) :
    histOf digest t0 L0 k = (histOf digest t L k).reverse := by
  have hb0 := c0_bucketOf_lt digest t0 k hs0.pos
  have hmem := c0_mem_traversal hs
  have e1 : histOf digest t0 L0 k =
      ((((L0 (bucketOf digest t0 k)).map (entry t0.elemPool)).filter
        (fun x => decide (x.2.1 = k))).map (fun x => x.2.2)) := by
    unfold histOf
    rw [List.filter_map, List.map_map]
    rfl
  rw [e1, hord _ hb0, List.filter_reverse, List.filter_filter, List.map_reverse]
  congr 1
  rw [List.filter_map, List.map_map]
  have e2 : (traversal t.buckets.length L).filter
      ((fun a => decide (a.2.1 = k) &&
        decide (a.1 &&& (t0.buckets.length - 1) = bucketOf digest t0 k)) ∘ entry t.elemPool) =
      (traversal t.buckets.length L).filter
        (fun e => decide ((elemAt t.elemPool e).key = k)) := by
    apply List.filter_congr
    intro e he
    have hu := (hmem e).mp he
    have hh := hs.hash_ok e hu
    simp only [Function.comp, entry]
    by_cases hk : (elemAt t.elemPool e).key = k
    · simp only [hk, decide_True, Bool.true_and, decide_eq_true_eq]
      rw [hh, hk]
      rfl
    · simp [hk]
  rw [e2, c0_traversal_filter hs k]
  unfold histOf
  rfl

/-- The second half of `Insert` puts the value in front of the shadowing order of its
key and leaves the order of the other keys. -/
theorem c0_push_hist {digest : K → Nat} {t0 t1 : C0HashTable K V} {L0 : Nat → List Nat}
    {F0 used0 : List Nat} (hs0 : Shape digest t0 L0 F0 used0) (e : Nat) (k : K) (v : V)
    (hlen : t1.buckets.length = t0.buckets.length) (heU : e ∉ used0)
    (hnew : entry t1.elemPool e = (HashKey digest k, k, v))
    (hold : ∀ i, i ∈ used0 → entry t1.elemPool i = entry t0.elemPool i) (x : K) :
    histOf digest t1
        (Function.update L0 (bucketOf digest t0 k) (e :: L0 (bucketOf digest t0 k))) x =
      if k = x then v :: histOf digest t0 L0 x else histOf digest t0 L0 x := by
  have hbx : bucketOf digest t1 x = bucketOf digest t0 x := by
    unfold bucketOf; rw [hlen]
  have hbxlt := c0_bucketOf_lt digest t0 x hs0.pos
  have hcongr : ∀ (l : List Nat), (∀ i ∈ l, i ∈ used0) →
      (l.filter (fun e => decide ((elemAt t1.elemPool e).key = x))).map
          (fun e => (elemAt t1.elemPool e).value) =
        (l.filter (fun e => decide ((elemAt t0.elemPool e).key = x))).map
          (fun e => (elemAt t0.elemPool e).value) := by
    intro l
    induction l with
    | nil => intro _; rfl
    | cons a l ih =>
      intro h
      have ha := hold a (h a (List.mem_cons_self _ _))
      simp only [entry, Prod.mk.injEq] at ha
      simp only [List.filter_cons, ha.2.1]
      split
      · simp only [List.map_cons, ha.2.2]
        rw [ih (fun i hi => h i (List.mem_cons_of_mem _ hi))]
      · exact ih (fun i hi => h i (List.mem_cons_of_mem _ hi))
  have hL : ∀ i ∈ L0 (bucketOf digest t0 x), i ∈ used0 :=
    fun i hi => (hs0.used_iff i).mpr ⟨_, hbxlt, hi⟩
  simp only [entry, Prod.mk.injEq] at hnew
  unfold histOf
  rw [hbx]
  by_cases hkx : k = x
  · subst hkx
    rw [if_pos rfl, Function.update_same]
    simp only [List.filter_cons, hnew.2.1, decide_True, if_true, List.map_cons, hnew.2.2]
    rw [hcongr _ hL]
  · rw [if_neg hkx]
    by_cases hb : bucketOf digest t0 x = bucketOf digest t0 k
    · rw [hb, Function.update_same]
      simp only [List.filter_cons, hnew.2.1, hkx, decide_False, Bool.false_eq_true, if_false]
      rw [← hb]
      exact hcongr _ hL
    · rw [Function.update_noteq hb]
      exact hcongr _ hL

/-- A sequence of `Insert` calls, repeated keys allowed, returns and leaves the
shadowing order the model computes. -/
theorem c0_inserts_hist (digest : K → Nat) :
    ∀ (kvs : List (K × V)) (t : C0HashTable K V) (L : Nat → List Nat) (F used : List Nat),
      Shape digest t L F used → 16 ≤ t.buckets.length →
      ∃ t1 L1 F1 used1, runCalls digest t (inserts kvs) = some t1 ∧
        Shape digest t1 L1 F1 used1 ∧
        ∀ x, histOf digest t1 L1 x =
          Model.shadow x kvs t.size t.buckets.length (histOf digest t L x) := by
  intro kvs
  induction kvs with
  | nil =>
    intro t L F used hs _
    exact ⟨t, L, F, used, rfl, hs, fun x => rfl⟩
  | cons p rest ih =>
    intro t L F used hs h16
    obtain ⟨k, v⟩ := p
    obtain ⟨t0, L0, F0, used0, e, t1, h0, hs0, he, h1, hs1, hlen1, hsz1, hsz0, heU, hnew, hold, hrel⟩ :=
      c0_Insert_shape digest hs k v
    have hpush := c0_push_hist hs0 e k v hlen1 heU hnew hold
    have hfree := c0_free_none_iff hs
    rcases hrel with ⟨hf, rfl, rfl⟩ | ⟨hf, hlen0, hord⟩
    · have hne : t0.size ≠ t0.buckets.length := fun e1 => hf (hfree.mpr e1)
      obtain ⟨t2, L2, F2, used2, h2, hs2, hh2⟩ := ih t1 _ _ _ hs1 (by rw [hlen1]; exact h16)
      refine ⟨t2, L2, F2, used2, ?_, hs2, ?_⟩
      · simp only [inserts, List.map_cons, runCalls, h1]
        exact h2
      · intro x
        rw [hh2 x, hpush x, hsz1, hlen1]
        simp only [Model.shadow, if_neg hne]
    · have heq : t.size = t.buckets.length := hfree.mp hf
      have hlen0b : t0.buckets.length = t.buckets.length * 2 := by
        rw [hlen0, heq]
        simp only [s_hashTableInitialSize]
        omega
      have hrh := fun x => c0_Rehash_hist hs hs0 hord x
      obtain ⟨t2, L2, F2, used2, h2, hs2, hh2⟩ := ih t1 _ _ _ hs1 (by rw [hlen1, hlen0b]; omega)
      refine ⟨t2, L2, F2, used2, ?_, hs2, ?_⟩
      · simp only [inserts, List.map_cons, runCalls, h1]
        exact h2
      · intro x
        rw [hh2 x, hpush x, hrh x, hsz1, hlen1, hlen0b]
        simp only [Model.shadow, if_pos heq]

/-- The shadowing order holds the values inserted for the key, and no others. -/
theorem c0_mem_shadow (k : K) :
    ∀ (kvs : List (K × V)) (size cap : Nat) (hist : List V) (v : V),
      v ∈ Model.shadow k kvs size cap hist ↔ (k, v) ∈ kvs ∨ v ∈ hist := by
  intro kvs
  induction kvs with
  | nil => intro size cap hist v; simp [Model.shadow]
  | cons p rest ih =>
    intro size cap hist v
    obtain ⟨x, w⟩ := p
    simp only [Model.shadow]
    rw [ih]
    by_cases hx : x = k
    · subst hx
      simp only [if_true, List.mem_cons, Prod.mk.injEq, true_and]
      split <;> (try simp only [List.mem_reverse]) <;> tauto
    · have hx2 : ¬ k = x := fun e => hx e.symm
      simp only [hx, if_false, List.mem_cons, Prod.mk.injEq, hx2, false_and, false_or]
      split <;> simp

/-- While the table does not grow the shadowing order is the order of the calls, most
recent first. -/
theorem c0_shadow_fit (k : K) :
    ∀ (kvs : List (K × V)) (size cap : Nat) (hist : List V), size + kvs.length ≤ cap →
      Model.shadow k kvs size cap hist =
        ((kvs.filter (fun p => decide (p.1 = k))).map Prod.snd).reverse ++ hist := by
  intro kvs
  induction kvs with
  | nil => intro size cap hist _; simp [Model.shadow]
  | cons p rest ih =>
    intro size cap hist hle
    obtain ⟨x, w⟩ := p
    simp only [List.length_cons] at hle
    have hne : size ≠ cap := by omega
    simp only [Model.shadow, if_neg hne]
    rw [ih _ _ _ (by omega)]
    by_cases hx : x = k
    · simp [hx, List.filter_cons]
    · simp [hx, List.filter_cons]

theorem c0_find_some_split {p : Nat → Bool} :
    ∀ (l : List Nat) (e : Nat), l.find? p = some e →
      ∃ A P, l = A ++ e :: P ∧ (∀ x ∈ A, p x = false) ∧ p e = true := by
  intro l
  induction l with
  | nil => intro e h; simp at h
  | cons a l ih =>
    intro e h
    simp only [List.find?_cons] at h
    cases hp : p a with
    | true =>
      rw [hp] at h
      simp only [Option.some.injEq] at h
      subst h
      exact ⟨[], l, rfl, by simp, hp⟩
    | false =>
      rw [hp] at h
      obtain ⟨A, P, h1, h2, h3⟩ := ih e h
      refine ⟨a :: A, P, by simp [h1], ?_, h3⟩
      intro x hx
      rcases List.mem_cons.mp hx with rfl | hx
      · exact hp
      · exact h2 x hx

/-- `Remove(k)` of a live key in terms of the entries of the chains: the first entry for
`k` in the chain of its bucket goes, the other entries of the chain keep their order,
the other chains are unchanged, and `Lookup(k)` then finds the next entry for `k`. -/
theorem c0_Remove_first (digest : K → Nat) {t : C0HashTable K V} {L : Nat → List Nat}
    {F used : List Nat} (hs : Shape digest t L F used) (k : K) (v : V)
    (hlive : Lookup digest t k = some (some v)) :
    ∃ t1 pre post, Remove digest t k = some (t1, true) ∧
      chainOf t (bucketOf digest t k) = pre ++ (k, v) :: post ∧
      (∀ p ∈ pre, p.1 ≠ k) ∧
      chainOf t1 (bucketOf digest t k) = pre ++ post ∧
      (∀ b, b < t.buckets.length → b ≠ bucketOf digest t k → chainOf t1 b = chainOf t b) ∧
      t1.buckets.length = t.buckets.length ∧ t1.size + 1 = t.size ∧
      Lookup digest t1 k = some ((post.find? (fun p => decide (p.1 = k))).map Prod.snd) := by
  have hb := c0_bucketOf_lt digest t k hs.pos
  rw [c0_Lookup_shape hs k] at hlive
  rcases c0_Remove_shape digest hs k with ⟨hnone, _⟩ | ⟨e, t1, F1, used1, hfind, hrem, hs1, hlen, hsz, hent⟩
  · rw [hnone] at hlive
    cases hlive
  · rw [hfind] at hlive
    simp only [Option.map_some', Option.some.injEq] at hlive
    obtain ⟨A, P, hsplit, hA, he⟩ := c0_find_some_split _ e hfind
    have hnodup := hs.nodupL _ hb
    rw [hsplit] at hnodup
    have heA : e ∉ A := by
      have := hnodup
      simp only [List.nodup_append, List.nodup_cons, List.disjoint_cons_right] at this
      tauto
    have heP : e ∉ P := by
      have := hnodup
      simp only [List.nodup_append, List.nodup_cons, List.disjoint_cons_right] at this
      tauto
    have herase : (L (bucketOf digest t k)).erase e = A ++ P := by
      rw [hsplit, List.erase_append_right _ heA, List.erase_cons_head]
    have hb1 : bucketOf digest t1 k = bucketOf digest t k := by
      unfold bucketOf; rw [hlen]
    have hkv : ∀ j, j ≠ e →
        ((elemAt t1.elemPool j).key, (elemAt t1.elemPool j).value) =
          ((elemAt t.elemPool j).key, (elemAt t.elemPool j).value) := by
      intro j hj
      have := hent j hj
      simp only [entry, Prod.mk.injEq] at this
      rw [this.2.1, this.2.2]
    have hmapne : ∀ (l : List Nat), e ∉ l →
        l.map (fun e => ((elemAt t1.elemPool e).key, (elemAt t1.elemPool e).value)) =
          l.map (fun e => ((elemAt t.elemPool e).key, (elemAt t.elemPool e).value)) := by
      intro l hl
      apply List.map_congr_left
      intro j hj
      exact hkv j (fun e1 => hl (e1 ▸ hj))
    have hUsed : ∀ x, x ∈ L (bucketOf digest t k) → x ∈ used :=
      fun x hx => (hs.used_iff x).mpr ⟨_, hb, hx⟩
    have hek : (elemAt t.elemPool e).key = k := by
      simp only [hitOf, decide_eq_true_eq] at he
      exact he.2
    have hAk : ∀ x ∈ A, (elemAt t.elemPool x).key ≠ k := by
      intro x hx hk
      have hxL : x ∈ L (bucketOf digest t k) := by rw [hsplit]; simp [hx]
      have := c0_hit_iff hs k x (hUsed x hxL)
      rw [hA x hx] at this
      simp [hk] at this
    refine ⟨t1, A.map (fun e => ((elemAt t.elemPool e).key, (elemAt t.elemPool e).value)),
      P.map (fun e => ((elemAt t.elemPool e).key, (elemAt t.elemPool e).value)), hrem, ?_, ?_,
      ?_, ?_, hlen, hsz, ?_⟩
    · rw [c0_chainOf_eq hs _ hb, hsplit]
      simp only [List.map_append, List.map_cons, hek, hlive]
    · intro p hp
      obtain ⟨x, hx, rfl⟩ := List.mem_map.mp hp
      exact hAk x hx
    · rw [← hlen] at hb
      rw [c0_chainOf_eq hs1 _ hb, Function.update_same, herase, List.map_append,
        hmapne A heA, hmapne P heP]
    · intro b hbl hbne
      rw [c0_chainOf_eq hs b hbl, c0_chainOf_eq hs1 b (by rw [hlen]; exact hbl),
        Function.update_noteq hbne]
      apply hmapne
      intro heb
      exact hbne (c0_chain_disjoint hs b _ e hbl hb heb (by rw [hsplit]; simp))
    · rw [c0_Lookup_shape hs1 k, hb1, Function.update_same, herase]
      congr 1
      have hhit1 : ∀ x, x ∈ A ++ P →
          hitOf t1.elemPool (HashKey digest k) k x =
            decide ((elemAt t.elemPool x).key = k) := by
        intro x hx
        have hxe : x ≠ e := by
          rintro rfl
          rcases List.mem_append.mp hx with h1 | h1
          · exact heA h1
          · exact heP h1
        have hxL : x ∈ L (bucketOf digest t k) := by
          rw [hsplit]
          rcases List.mem_append.mp hx with h1 | h1
          · simp [h1]
          · simp [h1]
        have h1 := hent x hxe
        simp only [entry, Prod.mk.injEq] at h1
        have h2 := c0_hit_iff hs k x (hUsed x hxL)
        rw [← h2]
        unfold hitOf
        rw [h1.1, h1.2.1]
      rw [c0_find_congr _ hhit1, List.find?_append]
      have hAn : A.find? (fun x => decide ((elemAt t.elemPool x).key = k)) = none := by
        rw [List.find?_eq_none]
        intro x hx
        simp [hAk x hx]
      rw [hAn, Option.none_or, List.find?_map]
      cases hP : P.find? (fun x => decide ((elemAt t.elemPool x).key = k)) with
      | none =>
        have : List.find? ((fun p => decide (p.1 = k)) ∘
            fun e => ((elemAt t.elemPool e).key, (elemAt t.elemPool e).value)) P = none := hP
        rw [this]
        rfl
      | some y =>
        have : List.find? ((fun p => decide (p.1 = k)) ∘
            fun e => ((elemAt t.elemPool e).key, (elemAt t.elemPool e).value)) P = some y := hP
        rw [this]
        have hyP := List.mem_of_find?_eq_some hP
        have hye : y ≠ e := fun e1 => heP (e1 ▸ hyP)
        have h1 := hent y hye
        simp only [entry, Prod.mk.injEq] at h1
        simp only [Option.map_some', h1.2.2]

theorem c0_hist_empty {digest : K → Nat} {t : C0HashTable K V} {L : Nat → List Nat}
    {F used : List Nat} (hs : Shape digest t L F used) (hsz : t.size = 0) (k : K) :
    histOf digest t L k = [] := by
  have hb := c0_bucketOf_lt digest t k hs.pos
  have hu : used = [] := List.length_eq_zero.mp (by rw [← hs.size_eq]; exact hsz)
  have hL : L (bucketOf digest t k) = [] := by
    apply List.eq_nil_iff_forall_not_mem.mpr
    intro i hi
    have := (hs.used_iff i).mpr ⟨_, hb, hi⟩
    rw [hu] at this
    cases this
  unfold histOf
  rw [hL]
  rfl

/-! ### The pool as the free list and the chains -/

/-- A list of `n` distinct numbers below `n` lists every number below `n` once. -/
theorem c0_perm_range (l : List Nat) (n : Nat) (hnd : l.Nodup) (hlt : ∀ x ∈ l, x < n)
    (hlen : l.length = n) : l.Perm (List.range n) :=
  (List.subperm_of_subset hnd (fun x hx => List.mem_range.mpr (hlt x hx))).perm_of_length_le
    (by rw [hlen, List.length_range])

/-- The walks from the bucket heads and from the head of the free list list the chains
and the free list, and these hold every node of the pool once. -/
theorem c0_pool_partition {digest : K → Nat} {t : C0HashTable K V} {L : Nat → List Nat}
    {F used : List Nat} (hs : Shape digest t L F used) :
    (∀ b, b < t.buckets.length →
      walk (nextOf t.elemPool) t.elemPool.length (headAt t.buckets b) = L b) ∧
    walk (nextOf t.elemPool) t.elemPool.length t.pElemFreeHead = F ∧
    (List.range t.buckets.length).flatMap
      (fun b => walk (nextOf t.elemPool) t.elemPool.length (headAt t.buckets b)) =
      traversal t.buckets.length L ∧
    (F ++ traversal t.buckets.length L).Perm (List.range t.elemPool.length) := by
  have hw : ∀ b, b < t.buckets.length →
      walk (nextOf t.elemPool) t.elemPool.length (headAt t.buckets b) = L b :=
    fun b hb => c0_walk_eq _ (L b) _ _ (hs.chain b hb) (c0_chain_length_le hs b hb)
  have hc := hs.cover
  refine ⟨hw, c0_walk_eq _ F _ _ hs.free (by omega), ?_, ?_⟩
  · unfold traversal
    simp only [List.flatMap]
    congr 1
    apply List.map_congr_left
    intro b hb
    exact hw b (List.mem_range.mp hb)
  · apply c0_perm_range
    · rw [List.nodup_append]
      refine ⟨hs.nodupF, c0_nodup_traversal hs, ?_⟩
      intro i hF hT
      exact hs.disj i ((c0_mem_traversal hs i).mp hT) hF
    · intro i hi
      rcases List.mem_append.mp hi with h1 | h1
      · exact hs.bound i (Or.inr h1)
      · exact hs.bound i (Or.inl ((c0_mem_traversal hs i).mp h1))
    · rw [List.length_append, c0_length_traversal hs, hs.size_eq]
      exact hc

end C0HashTable

/-! ## Part VIII. C1HashTable -/

namespace C1HashTable

open Chain
open C0HashTable (elemAt nextOf hitOf linkFree c0_elemAt_set c0_elemAt_set_ne c0_nextOf_set
  c0_length_linkFree c0_elemAt_linkFree c0_isChain_range')

variable {K V : Type} [Inhabited K] [Inhabited V] [DecidableEq K]

theorem c1_bucketAt_set (bs : List (Bucket K V)) (b c : Nat) (x : Bucket K V)
    (hb : b < bs.length) :
    bucketAt (bs.set b x) c = if c = b then x else bucketAt bs c := by
  unfold bucketAt
  by_cases h : c = b
  · subst h; simp [List.getD_eq_getElem?_getD, List.getElem?_set_self hb]
  · have h2 : b ≠ c := fun e => h e.symm
    simp [List.getD_eq_getElem?_getD, List.getElem?_set_ne h2, h]

theorem c1_bucketAt_replicate (n b : Nat) :
    bucketAt (List.replicate n (default : Bucket K V)) b = default := by
  unfold bucketAt
  rw [List.getD_eq_getElem?_getD, List.getElem?_replicate]
  split <;> rfl

theorem c1_bucketAt_eq_getElem (bs : List (Bucket K V)) (i : Nat) (h : i < bs.length) :
    bucketAt bs i = bs[i] := by
  simp [bucketAt, List.getD_eq_getElem?_getD, List.getElem?_eq_getElem h]

/-- The hash `Insert`, `Lookup` and `Remove` compute for a key. -/
def hashOf (digest : K → Nat) (key : K) : Nat := HashKey digest key &&& s_63Bits

/-- The bucket of a key. -/
def bucketOf (digest : K → Nat) (t : C1HashTable K V) (key : K) : Nat :=
  hashOf digest key &&& (t.buckets.length - 1)

/-- Number of buckets whose inline element is filled. -/
def filledCount (bs : List (Bucket K V)) : Nat := bs.countP (fun b => b.filled)

/-- Structure of a table: `L b` lists the chain of bucket `b`, `F` the free list and
`used` the nodes of all chains. -/
structure Shape (digest : K → Nat) (t : C1HashTable K V) (L : Nat → List Nat)
    (F used : List Nat) : Prop where
  pos : 0 < t.buckets.length
  pool_len : t.elemPool.length = t.buckets.length / 2
  chain : ∀ b, b < t.buckets.length →
    IsChain (nextOf t.elemPool) (bucketAt t.buckets b).pHead (L b)
  empty : ∀ b, b < t.buckets.length → (bucketAt t.buckets b).filled = false → L b = []
  free : IsChain (nextOf t.elemPool) t.pElemFreeHead F
  nodupL : ∀ b, b < t.buckets.length → (L b).Nodup
  nodupF : F.Nodup
  nodupU : used.Nodup
  used_iff : ∀ i, i ∈ used ↔ ∃ b, b < t.buckets.length ∧ i ∈ L b
  disj : ∀ i, i ∈ used → i ∉ F
  bound : ∀ i, (i ∈ used ∨ i ∈ F) → i < t.elemPool.length
  cover : F.length + used.length = t.elemPool.length
  home : ∀ b, b < t.buckets.length → ∀ i ∈ L b,
    (elemAt t.elemPool i).hash &&& (t.buckets.length - 1) = b
  homeB : ∀ b, b < t.buckets.length → (bucketAt t.buckets b).filled = true →
    (bucketAt t.buckets b).hash &&& (t.buckets.length - 1) = b
  hash_ok : ∀ i ∈ used, (elemAt t.elemPool i).hash = hashOf digest (elemAt t.elemPool i).key
  hash_okB : ∀ b, b < t.buckets.length → (bucketAt t.buckets b).filled = true →
    (bucketAt t.buckets b).hash = hashOf digest (bucketAt t.buckets b).key
  size_eq : t.size = filledCount t.buckets + used.length

/-- At most one entry per key, inline or chained. -/
structure KeysInj (t : C1HashTable K V) (used : List Nat) : Prop where
  nodes : ∀ i ∈ used, ∀ j ∈ used,
    (elemAt t.elemPool i).key = (elemAt t.elemPool j).key → i = j
  slots : ∀ b c, b < t.buckets.length → c < t.buckets.length →
    (bucketAt t.buckets b).filled = true → (bucketAt t.buckets c).filled = true →
    (bucketAt t.buckets b).key = (bucketAt t.buckets c).key → b = c
  cross : ∀ b, b < t.buckets.length → (bucketAt t.buckets b).filled = true →
    ∀ i ∈ used, (bucketAt t.buckets b).key ≠ (elemAt t.elemPool i).key

/-- Well-formedness of a table holding at most one entry per key. -/
def WF (digest : K → Nat) (t : C1HashTable K V) : Prop :=
  ∃ L F used, Shape digest t L F used ∧ KeysInj t used

/-- The pair `(k, v)` is held inline by bucket `b`. -/
def HoldsB (t : C1HashTable K V) (k : K) (v : V) : Prop :=
  ∃ b, b < t.buckets.length ∧ (bucketAt t.buckets b).filled = true ∧
    (bucketAt t.buckets b).key = k ∧ (bucketAt t.buckets b).value = v

/-- The pair `(k, v)` is held by a chain node. -/
def HoldsN (t : C1HashTable K V) (used : List Nat) (k : K) (v : V) : Prop :=
  ∃ i ∈ used, (elemAt t.elemPool i).key = k ∧ (elemAt t.elemPool i).value = v

/-- The pair `(k, v)` is held by the table. -/
def Holds (t : C1HashTable K V) (used : List Nat) (k : K) (v : V) : Prop :=
  HoldsB t k v ∨ HoldsN t used k v

theorem c1_chain_length_le {digest : K → Nat} {t : C1HashTable K V} {L : Nat → List Nat}
    {F used : List Nat} (h : Shape digest t L F used) (b : Nat) (hb : b < t.buckets.length) :
    (L b).length ≤ t.elemPool.length := by
  have h1 : (L b).length ≤ used.length :=
    (List.Nodup.subperm (h.nodupL b hb)
      (fun i hi => (h.used_iff i).mpr ⟨b, hb, hi⟩)).length_le
  have := h.cover
  omega

theorem c1_bucketOf_lt (digest : K → Nat) (t : C1HashTable K V) (k : K)
    (hpos : 0 < t.buckets.length) : bucketOf digest t k < t.buckets.length :=
  OpenAddr.start_lt _ _ hpos

theorem c1_chain_disjoint {digest : K → Nat} {t : C1HashTable K V} {L : Nat → List Nat}
    {F used : List Nat} (h : Shape digest t L F used) (b c i : Nat)
    (hb : b < t.buckets.length) (hc : c < t.buckets.length) (hib : i ∈ L b) (hic : i ∈ L c) :
    b = c := by
  rw [← h.home b hb i hib, ← h.home c hc i hic]

/-- `Lookup` in terms of the chain of the key's bucket. -/
theorem c1_Lookup_shape {digest : K → Nat} {t : C1HashTable K V} {L : Nat → List Nat}
    {F used : List Nat} (h : Shape digest t L F used) (k : K) :
    Lookup digest t k =
      if (bucketAt t.buckets (bucketOf digest t k)).filled = false then some none
      else if (bucketAt t.buckets (bucketOf digest t k)).hash = hashOf digest k ∧
          (bucketAt t.buckets (bucketOf digest t k)).key = k then
        some (some (bucketAt t.buckets (bucketOf digest t k)).value)
      else some (((L (bucketOf digest t k)).find? (hitOf t.elemPool (hashOf digest k) k)).map
        (fun e => (elemAt t.elemPool e).value)) := by
  have hb := c1_bucketOf_lt digest t k h.pos
  have hf := chainFind_spec (nextOf t.elemPool) (hitOf t.elemPool (hashOf digest k) k)
    (L (bucketOf digest t k)) t.elemPool.length _ (h.chain _ hb) (c1_chain_length_le h _ hb)
  unfold bucketOf hashOf at hf ⊢
  simp only [Lookup, hf]
  split
  · rfl
  · split
    · rfl
    · cases (L (HashKey digest k &&& s_63Bits &&& (t.buckets.length - 1))).find?
        (hitOf t.elemPool (HashKey digest k &&& s_63Bits) k) <;> rfl

theorem c1_Lookup_total {digest : K → Nat} {t : C1HashTable K V} (h : WF digest t) (k : K) :
    ∃ r, Lookup digest t k = some r := by
  obtain ⟨L, F, used, hs, _⟩ := h
  rw [c1_Lookup_shape hs k]
  split
  · exact ⟨_, rfl⟩
  · split <;> exact ⟨_, rfl⟩

theorem c1_Lookup_holds {digest : K → Nat} {t : C1HashTable K V} {L : Nat → List Nat}
    {F used : List Nat} (h : Shape digest t L F used) (hk : KeysInj t used) (k : K) (v : V)
    (hv : Holds t used k v) : Lookup digest t k = some (some v) := by
  rw [c1_Lookup_shape h k]
  rcases hv with ⟨b, hb, hfill, hbk, hbv⟩ | ⟨i, hi, hik, hiv⟩
  · have hbk2 : bucketOf digest t k = b := by
      unfold bucketOf
      rw [← hbk, ← h.hash_okB b hb hfill]
      exact h.homeB b hb hfill
    rw [hbk2, hfill]
    simp only [Bool.true_eq_false, if_false]
    rw [if_pos ⟨by rw [h.hash_okB b hb hfill, hbk], hbk⟩, hbv]
  · obtain ⟨b, hb, hib⟩ := (h.used_iff i).mp hi
    have hbk : bucketOf digest t k = b := by
      unfold bucketOf
      rw [← hik, ← h.hash_ok i hi]
      exact h.home b hb i hib
    rw [hbk]
    have hfill : (bucketAt t.buckets b).filled = true := by
      cases hf : (bucketAt t.buckets b).filled with
      | true => rfl
      | false =>
        have := h.empty b hb hf
        rw [this] at hib
        simp at hib
    rw [hfill]
    simp only [Bool.true_eq_false, if_false]
    rw [if_neg (by
      rintro ⟨_, hkk⟩
      exact hk.cross b hb hfill i hi (by rw [hkk, hik]))]
    have hhit : hitOf t.elemPool (hashOf digest k) k i = true := by
      simp [hitOf, hik, h.hash_ok i hi]
    cases hf : (L b).find? (hitOf t.elemPool (hashOf digest k) k) with
    | none =>
      have := List.find?_eq_none.mp hf i hib
      simp [hhit] at this
    | some j =>
      have hj := List.find?_some hf
      have hjm := List.mem_of_find?_eq_some hf
      simp only [hitOf, decide_eq_true_eq] at hj
      have : j = i := hk.nodes j ((h.used_iff j).mpr ⟨b, hb, hjm⟩) i hi (by rw [hj.2, hik])
      simp [this, hiv]

theorem c1_Lookup_absent {digest : K → Nat} {t : C1HashTable K V} {L : Nat → List Nat}
    {F used : List Nat} (h : Shape digest t L F used) (k : K)
    (hv : ∀ v, ¬ Holds t used k v) : Lookup digest t k = some none := by
  have hb := c1_bucketOf_lt digest t k h.pos
  rw [c1_Lookup_shape h k]
  split
  · rfl
  · rename_i hfill
    have hfill2 : (bucketAt t.buckets (bucketOf digest t k)).filled = true := by
      simpa using hfill
    split
    · rename_i hm
      exact absurd (Or.inl ⟨_, hb, hfill2, hm.2, rfl⟩) (hv _)
    · cases hf : (L (bucketOf digest t k)).find? (hitOf t.elemPool (hashOf digest k) k) with
      | none => rfl
      | some j =>
        have hj := List.find?_some hf
        have hjm := List.mem_of_find?_eq_some hf
        simp only [hitOf, decide_eq_true_eq] at hj
        exact absurd (Or.inr ⟨j, (h.used_iff j).mpr ⟨_, hb, hjm⟩, hj.2, rfl⟩) (hv _)

/-- Two well-formed tables that hold the same pairs for `k` answer `Lookup(k)` alike. -/
theorem c1_Lookup_congr {digest : K → Nat} {t t1 : C1HashTable K V} {L L1 : Nat → List Nat}
    {F F1 used used1 : List Nat} (h : Shape digest t L F used) (hk : KeysInj t used)
    (h1 : Shape digest t1 L1 F1 used1) (hk1 : KeysInj t1 used1) (k : K)
    (hh : ∀ v, Holds t1 used1 k v ↔ Holds t used k v) :
    Lookup digest t1 k = Lookup digest t k := by
  by_cases hex : ∃ w, Holds t used k w
  · obtain ⟨w, hw⟩ := hex
    rw [c1_Lookup_holds h hk k w hw, c1_Lookup_holds h1 hk1 k w ((hh w).mpr hw)]
  · rw [c1_Lookup_absent h k (fun w hw => hex ⟨w, hw⟩),
      c1_Lookup_absent h1 k (fun w hw => hex ⟨w, (hh w).mp hw⟩)]

theorem c1_filledCount_set (bs : List (Bucket K V)) (b : Nat) (x : Bucket K V)
    (hb : b < bs.length) :
    filledCount (bs.set b x) + (if (bucketAt bs b).filled = true then 1 else 0) =
      filledCount bs + (if x.filled = true then 1 else 0) := by
  have := OpenAddr.countP_set_add (fun c : Bucket K V => c.filled) bs b x hb
  rw [c1_bucketAt_eq_getElem bs b hb]
  exact this

/-- "Store it in the bucket. Done."; the bucket of the key is not filled. -/
theorem c1_storeInline_spec {digest : K → Nat} {t : C1HashTable K V} {L : Nat → List Nat}
    {F used : List Nat} (h : Shape digest t L F used) (hk : KeysInj t used) (k : K) (v : V)
    (hfill : (bucketAt t.buckets (bucketOf digest t k)).filled = false)
    (hnew : ∀ w, ¬ Holds t used k w) :
    Shape digest (storeInline t (bucketOf digest t k) (hashOf digest k) k v) L F used ∧
      KeysInj (storeInline t (bucketOf digest t k) (hashOf digest k) k v) used ∧
      ∀ x w, Holds (storeInline t (bucketOf digest t k) (hashOf digest k) k v) used x w ↔
        (x = k ∧ w = v) ∨ Holds t used x w := by
  have hb := c1_bucketOf_lt digest t k h.pos
  have hat : ∀ c, bucketAt (storeInline t (bucketOf digest t k) (hashOf digest k) k v).buckets c =
      if c = bucketOf digest t k then
        ⟨(bucketAt t.buckets (bucketOf digest t k)).pHead, hashOf digest k, true, k, v⟩
      else bucketAt t.buckets c := fun c => c1_bucketAt_set _ _ _ _ hb
  have hlen : (storeInline t (bucketOf digest t k) (hashOf digest k) k v).buckets.length =
      t.buckets.length := by simp [storeInline]
  have hcnt := c1_filledCount_set t.buckets (bucketOf digest t k)
    ⟨(bucketAt t.buckets (bucketOf digest t k)).pHead, hashOf digest k, true, k, v⟩ hb
  simp only [hfill, Bool.false_eq_true, if_false, if_true, Nat.add_zero] at hcnt
  refine ⟨⟨by rw [hlen]; exact h.pos, by rw [hlen]; exact h.pool_len, ?_, ?_, h.free, ?_,
    h.nodupF, h.nodupU, ?_, h.disj, h.bound, h.cover, ?_, ?_, h.hash_ok, ?_, ?_⟩, ?_, ?_⟩
  · intro c hc
    rw [hlen] at hc
    rw [hat]
    by_cases hcb : c = bucketOf digest t k
    · rw [if_pos hcb, hcb]; exact h.chain _ hb
    · rw [if_neg hcb]; exact h.chain c hc
  · intro c hc hf
    rw [hlen] at hc
    rw [hat] at hf
    by_cases hcb : c = bucketOf digest t k
    · rw [if_pos hcb] at hf; cases hf
    · rw [if_neg hcb] at hf; exact h.empty c hc hf
  · intro c hc; rw [hlen] at hc; exact h.nodupL c hc
  · intro i; rw [hlen]; exact h.used_iff i
  · intro c hc; rw [hlen] at hc ⊢; exact h.home c hc
  · intro c hc hf
    rw [hlen] at hc ⊢
    rw [hat] at hf ⊢
    by_cases hcb : c = bucketOf digest t k
    · rw [if_pos hcb, hcb]; rfl
    · rw [if_neg hcb] at hf ⊢; exact h.homeB c hc hf
  · intro c hc hf
    rw [hlen] at hc
    rw [hat] at hf ⊢
    by_cases hcb : c = bucketOf digest t k
    · rw [if_pos hcb]
    · rw [if_neg hcb] at hf ⊢; exact h.hash_okB c hc hf
  · show t.size + 1 = filledCount (t.buckets.set _ _) + used.length
    rw [hcnt, h.size_eq]; omega
  · refine ⟨hk.nodes, ?_, ?_⟩
    · intro c d hc hd hfc hfd hcd
      rw [hlen] at hc hd
      rw [hat] at hfc hcd
      rw [hat d] at hfd hcd
      by_cases hcb : c = bucketOf digest t k <;> by_cases hdb : d = bucketOf digest t k
      · rw [hcb, hdb]
      · simp only [hcb, hdb, if_true, if_false] at hfd hcd
        exact absurd (Or.inl ⟨d, hd, hfd, hcd.symm, rfl⟩) (hnew _)
      · simp only [hcb, hdb, if_true, if_false] at hfc hcd
        exact absurd (Or.inl ⟨c, hc, hfc, hcd, rfl⟩) (hnew _)
      · simp only [hcb, hdb, if_false] at hfc hfd hcd
        exact hk.slots c d hc hd hfc hfd hcd
    · intro c hc hfc i hi hci
      rw [hlen] at hc
      rw [hat] at hfc hci
      by_cases hcb : c = bucketOf digest t k
      · simp only [hcb, if_true] at hci
        exact absurd (Or.inr ⟨i, hi, hci.symm, rfl⟩) (hnew _)
      · simp only [hcb, if_false] at hfc hci
        exact hk.cross c hc hfc i hi hci
  · intro x w
    constructor
    · rintro (⟨c, hc, hfc, hck, hcv⟩ | hn)
      · rw [hlen] at hc
        rw [hat] at hfc hck hcv
        by_cases hcb : c = bucketOf digest t k
        · simp only [hcb, if_true] at hck hcv
          exact Or.inl ⟨hck.symm, hcv.symm⟩
        · simp only [hcb, if_false] at hfc hck hcv
          exact Or.inr (Or.inl ⟨c, hc, hfc, hck, hcv⟩)
      · exact Or.inr (Or.inr hn)
    · rintro (⟨rfl, rfl⟩ | ⟨c, hc, hfc, hck, hcv⟩ | hn)
      · exact Or.inl ⟨_, by rw [hlen]; exact hb, by rw [hat, if_pos rfl],
          by rw [hat, if_pos rfl], by rw [hat, if_pos rfl]⟩
      · have hcb : c ≠ bucketOf digest t k := by
          rintro rfl
          rw [hfill] at hfc
          cases hfc
        exact Or.inl ⟨c, by rw [hlen]; exact hc, by rw [hat, if_neg hcb]; exact hfc,
          by rw [hat, if_neg hcb]; exact hck, by rw [hat, if_neg hcb]; exact hcv⟩
      · exact Or.inr hn

/-- "Grab the next element off the free list": the bucket of the key is filled and
the head `e` of the free list becomes the head of its chain. -/
theorem c1_grabElem_spec {digest : K → Nat} {t : C1HashTable K V} {L : Nat → List Nat}
    {F used : List Nat} (h : Shape digest t L F used) (hk : KeysInj t used) (e : Nat)
    (he : t.pElemFreeHead = some e) (k : K) (v : V)
    (hfill : (bucketAt t.buckets (bucketOf digest t k)).filled = true)
    (hnew : ∀ w, ¬ Holds t used k w) :
    ∃ t1, grabElem t (bucketOf digest t k) (hashOf digest k) k v = some t1 ∧
      Shape digest t1 (Function.update L (bucketOf digest t k) (e :: L (bucketOf digest t k)))
        F.tail (e :: used) ∧
      KeysInj t1 (e :: used) ∧
      ∀ x w, Holds t1 (e :: used) x w ↔ (x = k ∧ w = v) ∨ Holds t used x w := by
  have hb := c1_bucketOf_lt digest t k h.pos
  obtain ⟨F1, hF⟩ : ∃ F1, F = e :: F1 := by
    have hfree := h.free
    rw [he] at hfree
    cases F with
    | nil => cases hfree
    | cons a F1 =>
      have : some e = some a := hfree.1
      cases this
      exact ⟨F1, rfl⟩
  subst hF
  have hfree := h.free
  rw [he] at hfree
  have heF : e ∉ F1 := (List.nodup_cons.mp h.nodupF).1
  have heU : e ∉ used := fun hu => h.disj e hu (List.mem_cons_self _ _)
  have hepool : e < t.elemPool.length := h.bound e (Or.inr (List.mem_cons_self _ _))
  obtain ⟨t1, ht1⟩ : ∃ t1, grabElem t (bucketOf digest t k) (hashOf digest k) k v = some t1 := by
    simp only [grabElem, he]
    exact ⟨_, rfl⟩
  refine ⟨t1, ht1, ?_⟩
  simp only [grabElem, he, Option.some.injEq] at ht1
  have hb1 : t1.buckets = t.buckets.set (bucketOf digest t k)
      ⟨some e, (bucketAt t.buckets (bucketOf digest t k)).hash,
        (bucketAt t.buckets (bucketOf digest t k)).filled,
        (bucketAt t.buckets (bucketOf digest t k)).key,
        (bucketAt t.buckets (bucketOf digest t k)).value⟩ := by rw [← ht1]
  have hp1 : t1.elemPool = t.elemPool.set e
      ⟨(bucketAt t.buckets (bucketOf digest t k)).pHead, hashOf digest k, k, v⟩ := by
    rw [← ht1]
  have hf1 : t1.pElemFreeHead = (elemAt t.elemPool e).pNext := by rw [← ht1]
  have hs1 : t1.size = t.size + 1 := by rw [← ht1]
  clear ht1
  have hat : ∀ j, elemAt t1.elemPool j =
      if j = e then ⟨(bucketAt t.buckets (bucketOf digest t k)).pHead, hashOf digest k, k, v⟩
      else elemAt t.elemPool j := fun j => by rw [hp1]; exact c0_elemAt_set _ _ _ _ hepool
  have hnext : nextOf t1.elemPool =
      Function.update (nextOf t.elemPool) e (bucketAt t.buckets (bucketOf digest t k)).pHead := by
    rw [hp1]; exact c0_nextOf_set _ _ _ hepool
  have hbat : ∀ c, bucketAt t1.buckets c =
      if c = bucketOf digest t k then
        ⟨some e, (bucketAt t.buckets (bucketOf digest t k)).hash,
          (bucketAt t.buckets (bucketOf digest t k)).filled,
          (bucketAt t.buckets (bucketOf digest t k)).key,
          (bucketAt t.buckets (bucketOf digest t k)).value⟩
      else bucketAt t.buckets c := fun c => by rw [hb1]; exact c1_bucketAt_set _ _ _ _ hb
  have hbfill : ∀ c, (bucketAt t1.buckets c).filled = (bucketAt t.buckets c).filled := by
    intro c; rw [hbat]; split
    · rename_i hc; rw [hc]
    · rfl
  have hbkey : ∀ c, (bucketAt t1.buckets c).key = (bucketAt t.buckets c).key := by
    intro c; rw [hbat]; split
    · rename_i hc; rw [hc]
    · rfl
  have hbval : ∀ c, (bucketAt t1.buckets c).value = (bucketAt t.buckets c).value := by
    intro c; rw [hbat]; split
    · rename_i hc; rw [hc]
    · rfl
  have hbhash : ∀ c, (bucketAt t1.buckets c).hash = (bucketAt t.buckets c).hash := by
    intro c; rw [hbat]; split
    · rename_i hc; rw [hc]
    · rfl
  have hlen : t1.buckets.length = t.buckets.length := by rw [hb1]; simp
  have hplen : t1.elemPool.length = t.elemPool.length := by rw [hp1]; simp
  have hnotin : ∀ b, b < t.buckets.length → e ∉ L b :=
    fun b hb1 hm => heU ((h.used_iff e).mpr ⟨b, hb1, hm⟩)
  have hold : ∀ i, i ∈ used → elemAt t1.elemPool i = elemAt t.elemPool i := by
    intro i hi
    rw [hat, if_neg (by rintro rfl; exact heU hi)]
  have hcnt := c1_filledCount_set t.buckets (bucketOf digest t k)
    ⟨some e, (bucketAt t.buckets (bucketOf digest t k)).hash,
      (bucketAt t.buckets (bucketOf digest t k)).filled,
      (bucketAt t.buckets (bucketOf digest t k)).key,
      (bucketAt t.buckets (bucketOf digest t k)).value⟩ hb
  rw [if_pos hfill] at hcnt
  have hcnt2 : filledCount t1.buckets = filledCount t.buckets := by
    rw [hb1]
    omega
  refine ⟨⟨by rw [hlen]; exact h.pos, by rw [hlen, hplen]; exact h.pool_len, ?_, ?_, ?_, ?_,
    ?_, ?_, ?_, ?_, ?_, ?_, ?_, ?_, ?_, ?_, ?_⟩, ⟨?_, ?_, ?_⟩, ?_⟩
  · -- chain
    intro c hc
    rw [hlen] at hc
    rw [hbat, hnext]
    by_cases hcb : c = bucketOf digest t k
    · subst hcb
      simp only [if_true, Function.update_same]
      refine ⟨rfl, ?_⟩
      simp only [Function.update_same]
      exact isChain_update e _ (hnotin _ hc) (h.chain _ hc)
    · simp only [hcb, if_false, ne_eq, not_false_eq_true, Function.update_noteq]
      exact isChain_update e _ (hnotin _ hc) (h.chain _ hc)
  · -- empty
    intro c hc hf
    rw [hlen] at hc
    rw [hbfill] at hf
    by_cases hcb : c = bucketOf digest t k
    · rw [hcb, hfill] at hf; cases hf
    · simp only [ne_eq, hcb, not_false_eq_true, Function.update_noteq]
      exact h.empty c hc hf
  · -- free
    rw [hf1, hnext]
    exact isChain_update e _ heF hfree.2
  · -- nodupL
    intro c hc
    rw [hlen] at hc
    by_cases hcb : c = bucketOf digest t k
    · subst hcb
      simp only [Function.update_same]
      exact List.nodup_cons.mpr ⟨hnotin _ hc, h.nodupL _ hc⟩
    · simp only [ne_eq, hcb, not_false_eq_true, Function.update_noteq]
      exact h.nodupL _ hc
  · exact (List.nodup_cons.mp h.nodupF).2
  · exact List.nodup_cons.mpr ⟨heU, h.nodupU⟩
  · -- used_iff
    intro i
    rw [hlen]
    constructor
    · intro hi
      rcases List.mem_cons.mp hi with rfl | hi
      · exact ⟨bucketOf digest t k, hb, by simp⟩
      · obtain ⟨c, hc, hic⟩ := (h.used_iff i).mp hi
        refine ⟨c, hc, ?_⟩
        by_cases hcb : c = bucketOf digest t k
        · subst hcb; simp [hic]
        · simp [hcb, hic]
    · rintro ⟨c, hc, hic⟩
      by_cases hcb : c = bucketOf digest t k
      · subst hcb
        simp only [Function.update_same, List.mem_cons] at hic
        rcases hic with rfl | hic
        · exact List.mem_cons_self _ _
        · exact List.mem_cons_of_mem _ ((h.used_iff i).mpr ⟨_, hc, hic⟩)
      · simp only [ne_eq, hcb, not_false_eq_true, Function.update_noteq] at hic
        exact List.mem_cons_of_mem _ ((h.used_iff i).mpr ⟨_, hc, hic⟩)
  · -- disj
    intro i hi
    simp only [List.tail_cons]
    rcases List.mem_cons.mp hi with rfl | hi
    · exact heF
    · exact fun hm => h.disj i hi (List.mem_cons_of_mem _ hm)
  · -- bound
    intro i hi
    rw [hplen]
    rcases hi with hi | hi
    · rcases List.mem_cons.mp hi with rfl | hi
      · exact hepool
      · exact h.bound i (Or.inl hi)
    · exact h.bound i (Or.inr (List.mem_cons_of_mem _ hi))
  · -- cover
    have := h.cover
    simp only [List.length_cons, List.tail_cons, hplen] at this ⊢
    omega
  · -- home
    intro c hc i hi
    rw [hlen] at hc ⊢
    by_cases hcb : c = bucketOf digest t k
    · subst hcb
      simp only [Function.update_same, List.mem_cons] at hi
      rcases hi with rfl | hi
      · rw [hat, if_pos rfl]; rfl
      · rw [hold i ((h.used_iff i).mpr ⟨_, hc, hi⟩)]
        exact h.home _ hc i hi
    · simp only [ne_eq, hcb, not_false_eq_true, Function.update_noteq] at hi
      rw [hold i ((h.used_iff i).mpr ⟨_, hc, hi⟩)]
      exact h.home _ hc i hi
  · -- homeB
    intro c hc hf
    rw [hlen] at hc ⊢
    rw [hbfill] at hf
    rw [hbhash]
    exact h.homeB c hc hf
  · -- hash_ok
    intro i hi
    rcases List.mem_cons.mp hi with rfl | hi
    · rw [hat, if_pos rfl]
    · rw [hold i hi]; exact h.hash_ok i hi
  · -- hash_okB
    intro c hc hf
    rw [hlen] at hc
    rw [hbfill] at hf
    rw [hbhash, hbkey]
    exact h.hash_okB c hc hf
  · -- size
    rw [hs1, hcnt2, h.size_eq]
    simp only [List.length_cons]
    omega
  · -- keys: nodes
    intro i hi j hj hij
    by_cases hie : i = e <;> by_cases hje : j = e
    · rw [hie, hje]
    · have hju : j ∈ used := (List.mem_cons.mp hj).resolve_left hje
      rw [hie, hat, if_pos rfl, hold j hju] at hij
      exact absurd (Or.inr ⟨j, hju, hij.symm, rfl⟩) (hnew _)
    · have hiu : i ∈ used := (List.mem_cons.mp hi).resolve_left hie
      rw [hje, hat e, if_pos rfl, hold i hiu] at hij
      exact absurd (Or.inr ⟨i, hiu, hij, rfl⟩) (hnew _)
    · have hiu : i ∈ used := (List.mem_cons.mp hi).resolve_left hie
      have hju : j ∈ used := (List.mem_cons.mp hj).resolve_left hje
      rw [hold i hiu, hold j hju] at hij
      exact hk.nodes i hiu j hju hij
  · -- keys: slots
    intro c d hc hd hfc hfd hcd
    rw [hlen] at hc hd
    rw [hbfill] at hfc hfd
    rw [hbkey, hbkey] at hcd
    exact hk.slots c d hc hd hfc hfd hcd
  · -- keys: cross
    intro c hc hfc i hi hci
    rw [hlen] at hc
    rw [hbfill] at hfc
    rw [hbkey] at hci
    by_cases hie : i = e
    · rw [hie, hat, if_pos rfl] at hci
      exact absurd (Or.inl ⟨c, hc, hfc, hci, rfl⟩) (hnew _)
    · have hiu : i ∈ used := (List.mem_cons.mp hi).resolve_left hie
      rw [hold i hiu] at hci
      exact hk.cross c hc hfc i hiu hci
  · -- holds
    intro x w
    constructor
    · rintro (⟨c, hc, hfc, hck, hcv⟩ | ⟨i, hi, hik, hiv⟩)
      · rw [hlen] at hc
        rw [hbfill] at hfc
        rw [hbkey] at hck
        rw [hbval] at hcv
        exact Or.inr (Or.inl ⟨c, hc, hfc, hck, hcv⟩)
      · by_cases hie : i = e
        · rw [hie, hat, if_pos rfl] at hik hiv
          exact Or.inl ⟨hik.symm, hiv.symm⟩
        · have hiu : i ∈ used := (List.mem_cons.mp hi).resolve_left hie
          rw [hold i hiu] at hik hiv
          exact Or.inr (Or.inr ⟨i, hiu, hik, hiv⟩)
    · rintro (⟨rfl, rfl⟩ | ⟨c, hc, hfc, hck, hcv⟩ | ⟨i, hi, hik, hiv⟩)
      · exact Or.inr ⟨e, List.mem_cons_self _ _, by rw [hat, if_pos rfl],
          by rw [hat, if_pos rfl]⟩
      · exact Or.inl ⟨c, by rw [hlen]; exact hc, by rw [hbfill]; exact hfc,
          by rw [hbkey]; exact hck, by rw [hbval]; exact hcv⟩
      · exact Or.inr ⟨i, List.mem_cons_of_mem _ hi, by rw [hold i hi]; exact hik,
          by rw [hold i hi]; exact hiv⟩

/-- `Remove` of the inline element of a bucket without chain: "The bucket is now
empty". -/
theorem c1_clear_spec {digest : K → Nat} {t : C1HashTable K V} {L : Nat → List Nat}
    {F used : List Nat} (h : Shape digest t L F used) (hk : KeysInj t used) (b : Nat)
    (hb : b < t.buckets.length) (hfill : (bucketAt t.buckets b).filled = true)
    (hhead : (bucketAt t.buckets b).pHead = none) (t1 : C1HashTable K V)
    (hb1 : t1.buckets = t.buckets.set b
      ⟨none, 0, false, (bucketAt t.buckets b).key, (bucketAt t.buckets b).value⟩)
    (hp1 : t1.elemPool = t.elemPool) (hf1 : t1.pElemFreeHead = t.pElemFreeHead)
    (hs1 : t1.size = t.size - 1) :
    Shape digest t1 L F used ∧ KeysInj t1 used ∧
      ∀ x w, Holds t1 used x w ↔ x ≠ (bucketAt t.buckets b).key ∧ Holds t used x w := by
  have hbat : ∀ c, bucketAt t1.buckets c =
      if c = b then ⟨none, 0, false, (bucketAt t.buckets b).key, (bucketAt t.buckets b).value⟩
      else bucketAt t.buckets c := fun c => by rw [hb1]; exact c1_bucketAt_set _ _ _ _ hb
  have hlen : t1.buckets.length = t.buckets.length := by rw [hb1]; simp
  have hLb : L b = [] := by
    have := h.chain b hb
    rw [hhead] at this
    cases hl : L b with
    | nil => rfl
    | cons a l => rw [hl] at this; cases this.1
  have hcnt := c1_filledCount_set t.buckets b
    ⟨none, 0, false, (bucketAt t.buckets b).key, (bucketAt t.buckets b).value⟩ hb
  rw [if_pos hfill] at hcnt
  simp only [Bool.false_eq_true, if_false, Nat.add_zero] at hcnt
  refine ⟨⟨by rw [hlen]; exact h.pos, by rw [hlen, hp1]; exact h.pool_len, ?_, ?_,
    by rw [hp1, hf1]; exact h.free, ?_, h.nodupF, h.nodupU, ?_, h.disj,
    by rw [hp1]; exact h.bound, by rw [hp1]; exact h.cover, ?_, ?_,
    by rw [hp1]; exact h.hash_ok, ?_, ?_⟩, ⟨?_, ?_, ?_⟩, ?_⟩
  · intro c hc
    rw [hlen] at hc
    rw [hbat, hp1]
    by_cases hcb : c = b
    · rw [if_pos hcb, hcb, hLb]; rfl
    · rw [if_neg hcb]; exact h.chain c hc
  · intro c hc hf
    rw [hlen] at hc
    rw [hbat] at hf
    by_cases hcb : c = b
    · rw [hcb, hLb]
    · rw [if_neg hcb] at hf; exact h.empty c hc hf
  · intro c hc; rw [hlen] at hc; exact h.nodupL c hc
  · intro i; rw [hlen]; exact h.used_iff i
  · intro c hc; rw [hlen] at hc ⊢; rw [hp1]; exact h.home c hc
  · intro c hc hf
    rw [hlen] at hc ⊢
    rw [hbat] at hf ⊢
    by_cases hcb : c = b
    · rw [if_pos hcb] at hf; cases hf
    · rw [if_neg hcb] at hf ⊢; exact h.homeB c hc hf
  · intro c hc hf
    rw [hlen] at hc
    rw [hbat] at hf ⊢
    by_cases hcb : c = b
    · rw [if_pos hcb] at hf; cases hf
    · rw [if_neg hcb] at hf ⊢; exact h.hash_okB c hc hf
  · rw [hs1, hb1, h.size_eq]; omega
  · rw [hp1]; exact hk.nodes
  · intro c d hc hd hfc hfd hcd
    rw [hlen] at hc hd
    rw [hbat] at hfc hcd
    rw [hbat d] at hfd hcd
    by_cases hcb : c = b
    · rw [if_pos hcb] at hfc; cases hfc
    · by_cases hdb : d = b
      · rw [if_pos hdb] at hfd; cases hfd
      · rw [if_neg hcb] at hfc hcd
        rw [if_neg hdb] at hfd hcd
        exact hk.slots c d hc hd hfc hfd hcd
  · intro c hc hfc i hi
    rw [hlen] at hc
    rw [hbat] at hfc ⊢
    by_cases hcb : c = b
    · rw [if_pos hcb] at hfc; cases hfc
    · rw [if_neg hcb] at hfc ⊢
      rw [hp1]
      exact hk.cross c hc hfc i hi
  · intro x w
    constructor
    · rintro (⟨c, hc, hfc, hck, hcv⟩ | ⟨i, hi, hik, hiv⟩)
      · rw [hlen] at hc
        rw [hbat] at hfc hck hcv
        by_cases hcb : c = b
        · rw [if_pos hcb] at hfc; cases hfc
        · rw [if_neg hcb] at hfc hck hcv
          refine ⟨?_, Or.inl ⟨c, hc, hfc, hck, hcv⟩⟩
          rintro rfl
          exact hcb (hk.slots c b hc hb hfc hfill hck)
      · rw [hp1] at hik hiv
        refine ⟨?_, Or.inr ⟨i, hi, hik, hiv⟩⟩
        rintro rfl
        exact hk.cross b hb hfill i hi hik.symm
    · rintro ⟨hx, ⟨c, hc, hfc, hck, hcv⟩ | ⟨i, hi, hik, hiv⟩⟩
      · have hcb : c ≠ b := by
          rintro rfl
          exact hx hck.symm
        exact Or.inl ⟨c, by rw [hlen]; exact hc, by rw [hbat, if_neg hcb]; exact hfc,
          by rw [hbat, if_neg hcb]; exact hck, by rw [hbat, if_neg hcb]; exact hcv⟩
      · exact Or.inr ⟨i, hi, by rw [hp1]; exact hik, by rw [hp1]; exact hiv⟩

/-- `Remove` of the inline element of a bucket with a chain: the first element of the
chain moves into the bucket and its node returns to the free list. -/
theorem c1_promote_spec {digest : K → Nat} {t : C1HashTable K V} {L : Nat → List Nat}
    {F used : List Nat} (h : Shape digest t L F used) (hk : KeysInj t used) (b q : Nat)
    (hb : b < t.buckets.length) (hfill : (bucketAt t.buckets b).filled = true)
    (hhead : (bucketAt t.buckets b).pHead = some q) :
    Shape digest (release t
        (t.buckets.set b ⟨(elemAt t.elemPool q).pNext, (elemAt t.elemPool q).hash, true,
          (elemAt t.elemPool q).key, (elemAt t.elemPool q).value⟩) t.elemPool q)
        (Function.update L b (L b).tail) (q :: F) (used.erase q) ∧
      KeysInj (release t
        (t.buckets.set b ⟨(elemAt t.elemPool q).pNext, (elemAt t.elemPool q).hash, true,
          (elemAt t.elemPool q).key, (elemAt t.elemPool q).value⟩) t.elemPool q)
        (used.erase q) ∧
      ∀ x w, Holds (release t
        (t.buckets.set b ⟨(elemAt t.elemPool q).pNext, (elemAt t.elemPool q).hash, true,
          (elemAt t.elemPool q).key, (elemAt t.elemPool q).value⟩) t.elemPool q)
        (used.erase q) x w ↔ x ≠ (bucketAt t.buckets b).key ∧ Holds t used x w := by
  generalize ht1 : release t
        (t.buckets.set b ⟨(elemAt t.elemPool q).pNext, (elemAt t.elemPool q).hash, true,
          (elemAt t.elemPool q).key, (elemAt t.elemPool q).value⟩) t.elemPool q = t1
  have hb1 : t1.buckets = t.buckets.set b ⟨(elemAt t.elemPool q).pNext,
      (elemAt t.elemPool q).hash, true, (elemAt t.elemPool q).key,
      (elemAt t.elemPool q).value⟩ := by rw [← ht1]; rfl
  have hp1 : t1.elemPool = t.elemPool.set q
      ⟨t.pElemFreeHead, 0, (elemAt t.elemPool q).key, (elemAt t.elemPool q).value⟩ := by
    rw [← ht1]; rfl
  have hf1 : t1.pElemFreeHead = some q := by rw [← ht1]; rfl
  have hs1 : t1.size = t.size - 1 := by rw [← ht1]; rfl
  clear ht1
  obtain ⟨l, hL⟩ : ∃ l, L b = q :: l := by
    have := h.chain b hb
    rw [hhead] at this
    cases hl : L b with
    | nil => rw [hl] at this; cases this
    | cons a l =>
      rw [hl] at this
      have : some q = some a := this.1
      cases this
      exact ⟨l, rfl⟩
  have hchain := h.chain b hb
  rw [hhead, hL] at hchain
  have hnd := h.nodupL b hb
  rw [hL] at hnd
  have hql : q ∉ l := (List.nodup_cons.mp hnd).1
  have hqL : q ∈ L b := by rw [hL]; simp
  have hqU : q ∈ used := (h.used_iff q).mpr ⟨b, hb, hqL⟩
  have hqF : q ∉ F := h.disj q hqU
  have hqpool : q < t.elemPool.length := h.bound q (Or.inl hqU)
  have hmemU : ∀ i, i ∈ used.erase q ↔ i ≠ q ∧ i ∈ used :=
    fun i => List.Nodup.mem_erase_iff h.nodupU
  have hat : ∀ j, j ≠ q → elemAt t1.elemPool j = elemAt t.elemPool j :=
    fun j hj => by rw [hp1]; exact c0_elemAt_set_ne _ _ _ _ hj
  have hnx : nextOf t1.elemPool = Function.update (nextOf t.elemPool) q t.pElemFreeHead := by
    rw [hp1]; exact c0_nextOf_set _ _ _ hqpool
  have hbat : ∀ c, bucketAt t1.buckets c =
      if c = b then ⟨(elemAt t.elemPool q).pNext, (elemAt t.elemPool q).hash, true,
        (elemAt t.elemPool q).key, (elemAt t.elemPool q).value⟩
      else bucketAt t.buckets c := fun c => by rw [hb1]; exact c1_bucketAt_set _ _ _ _ hb
  have hlen : t1.buckets.length = t.buckets.length := by rw [hb1]; simp
  have hplen : t1.elemPool.length = t.elemPool.length := by rw [hp1]; simp
  have hother : ∀ c, c < t.buckets.length → c ≠ b → ∀ j ∈ L c, j ≠ q := by
    intro c hc hcb j hj
    rintro rfl
    exact hcb (c1_chain_disjoint h c b j hc hb hj hqL)
  have hcnt := c1_filledCount_set t.buckets b
    ⟨(elemAt t.elemPool q).pNext, (elemAt t.elemPool q).hash, true,
      (elemAt t.elemPool q).key, (elemAt t.elemPool q).value⟩ hb
  rw [if_pos hfill] at hcnt
  simp only [if_true] at hcnt
  have hLtail : (L b).tail = l := by rw [hL]; rfl
  rw [hLtail]
  refine ⟨⟨by rw [hlen]; exact h.pos, by rw [hlen, hplen]; exact h.pool_len, ?_, ?_, ?_, ?_,
    ?_, ?_, ?_, ?_, ?_, ?_, ?_, ?_, ?_, ?_, ?_⟩, ⟨?_, ?_, ?_⟩, ?_⟩
  · -- chain
    intro c hc
    rw [hlen] at hc
    rw [hbat, hnx]
    by_cases hcb : c = b
    · rw [if_pos hcb, hcb]
      simp only [Function.update_same]
      exact isChain_update q _ hql hchain.2
    · rw [if_neg hcb]
      simp only [ne_eq, hcb, not_false_eq_true, Function.update_noteq]
      exact isChain_update q _ (fun hm => hother c hc hcb q hm rfl) (h.chain c hc)
  · -- empty
    intro c hc hf
    rw [hlen] at hc
    rw [hbat] at hf
    by_cases hcb : c = b
    · rw [if_pos hcb] at hf; cases hf
    · rw [if_neg hcb] at hf
      simp only [ne_eq, hcb, not_false_eq_true, Function.update_noteq]
      exact h.empty c hc hf
  · -- free
    rw [hf1]
    refine ⟨rfl, ?_⟩
    rw [hnx]
    simp only [Function.update_same]
    exact isChain_update q _ hqF h.free
  · -- nodupL
    intro c hc
    rw [hlen] at hc
    by_cases hcb : c = b
    · rw [hcb]; simp only [Function.update_same]; exact (List.nodup_cons.mp hnd).2
    · simp only [ne_eq, hcb, not_false_eq_true, Function.update_noteq]
      exact h.nodupL c hc
  · exact List.nodup_cons.mpr ⟨hqF, h.nodupF⟩
  · exact h.nodupU.erase q
  · -- used_iff
    intro i
    rw [hlen, hmemU]
    constructor
    · rintro ⟨hiq, hi⟩
      obtain ⟨c, hc, hic⟩ := (h.used_iff i).mp hi
      refine ⟨c, hc, ?_⟩
      by_cases hcb : c = b
      · rw [hcb]
        simp only [Function.update_same]
        rw [hcb, hL] at hic
        exact (List.mem_cons.mp hic).resolve_left hiq
      · simp [hcb, hic]
    · rintro ⟨c, hc, hic⟩
      by_cases hcb : c = b
      · rw [hcb] at hic
        simp only [Function.update_same] at hic
        refine ⟨fun e1 => hql (e1 ▸ hic), (h.used_iff i).mpr ⟨b, hb, ?_⟩⟩
        rw [hL]; exact List.mem_cons_of_mem _ hic
      · simp only [ne_eq, hcb, not_false_eq_true, Function.update_noteq] at hic
        exact ⟨hother c hc hcb i hic, (h.used_iff i).mpr ⟨c, hc, hic⟩⟩
  · -- disj
    intro i hi hm
    obtain ⟨hiq, hiu⟩ := (hmemU i).mp hi
    rcases List.mem_cons.mp hm with h1 | h1
    · exact hiq h1
    · exact h.disj i hiu h1
  · -- bound
    intro i hi
    rw [hplen]
    rcases hi with hi | hi
    · exact h.bound i (Or.inl ((hmemU i).mp hi).2)
    · rcases List.mem_cons.mp hi with rfl | hi
      · exact hqpool
      · exact h.bound i (Or.inr hi)
  · -- cover
    have := h.cover
    have h2 := List.length_erase_of_mem hqU
    have h3 : 0 < used.length := List.length_pos_of_mem hqU
    simp only [List.length_cons, hplen, h2]
    omega
  · -- home
    intro c hc i hi
    rw [hlen] at hc ⊢
    by_cases hcb : c = b
    · rw [hcb] at hi ⊢
      simp only [Function.update_same] at hi
      rw [hat i (fun e1 => hql (e1 ▸ hi))]
      exact h.home b hb i (by rw [hL]; exact List.mem_cons_of_mem _ hi)
    · simp only [ne_eq, hcb, not_false_eq_true, Function.update_noteq] at hi
      rw [hat i (hother c hc hcb i hi)]
      exact h.home c hc i hi
  · -- homeB
    intro c hc hf
    rw [hlen] at hc ⊢
    rw [hbat] at hf ⊢
    by_cases hcb : c = b
    · rw [if_pos hcb, hcb]
      exact h.home b hb q hqL
    · rw [if_neg hcb] at hf ⊢; exact h.homeB c hc hf
  · -- hash_ok
    intro i hi
    obtain ⟨hiq, hiu⟩ := (hmemU i).mp hi
    rw [hat i hiq]
    exact h.hash_ok i hiu
  · -- hash_okB
    intro c hc hf
    rw [hlen] at hc
    rw [hbat] at hf ⊢
    by_cases hcb : c = b
    · rw [if_pos hcb]
      exact h.hash_ok q hqU
    · rw [if_neg hcb] at hf ⊢; exact h.hash_okB c hc hf
  · -- size
    have h2 := List.length_erase_of_mem hqU
    have h3 : 0 < used.length := List.length_pos_of_mem hqU
    rw [hs1, hb1, h.size_eq, h2]
    omega
  · -- nodes
    intro i hi j hj hij
    obtain ⟨hiq, hiu⟩ := (hmemU i).mp hi
    obtain ⟨hjq, hju⟩ := (hmemU j).mp hj
    rw [hat i hiq, hat j hjq] at hij
    exact hk.nodes i hiu j hju hij
  · -- slots
    intro c d hc hd hfc hfd hcd
    rw [hlen] at hc hd
    rw [hbat] at hfc hcd
    rw [hbat d] at hfd hcd
    by_cases hcb : c = b <;> by_cases hdb : d = b
    · rw [hcb, hdb]
    · rw [if_pos hcb, if_neg hdb] at hcd
      rw [if_neg hdb] at hfd
      exact absurd hcd.symm (hk.cross d hd hfd q hqU)
    · rw [if_neg hcb, if_pos hdb] at hcd
      rw [if_neg hcb] at hfc
      exact absurd hcd (hk.cross c hc hfc q hqU)
    · rw [if_neg hcb] at hfc hcd
      rw [if_neg hdb] at hfd hcd
      exact hk.slots c d hc hd hfc hfd hcd
  · -- cross
    intro c hc hfc i hi hci
    rw [hlen] at hc
    obtain ⟨hiq, hiu⟩ := (hmemU i).mp hi
    rw [hbat] at hfc hci
    rw [hat i hiq] at hci
    by_cases hcb : c = b
    · rw [if_pos hcb] at hci
      exact hiq (hk.nodes q hqU i hiu hci).symm
    · rw [if_neg hcb] at hfc hci
      exact hk.cross c hc hfc i hiu hci
  · -- holds
    intro x w
    constructor
    · rintro (⟨c, hc, hfc, hck, hcv⟩ | ⟨i, hi, hik, hiv⟩)
      · rw [hlen] at hc
        rw [hbat] at hfc hck hcv
        by_cases hcb : c = b
        · rw [if_pos hcb] at hck hcv
          refine ⟨?_, Or.inr ⟨q, hqU, hck, hcv⟩⟩
          rintro rfl
          exact hk.cross b hb hfill q hqU hck.symm
        · rw [if_neg hcb] at hfc hck hcv
          refine ⟨?_, Or.inl ⟨c, hc, hfc, hck, hcv⟩⟩
          rintro rfl
          exact hcb (hk.slots c b hc hb hfc hfill hck)
      · obtain ⟨hiq, hiu⟩ := (hmemU i).mp hi
        rw [hat i hiq] at hik hiv
        refine ⟨?_, Or.inr ⟨i, hiu, hik, hiv⟩⟩
        rintro rfl
        exact hk.cross b hb hfill i hiu hik.symm
    · rintro ⟨hx, ⟨c, hc, hfc, hck, hcv⟩ | ⟨i, hi, hik, hiv⟩⟩
      · have hcb : c ≠ b := by
          rintro rfl
          exact hx hck.symm
        exact Or.inl ⟨c, by rw [hlen]; exact hc, by rw [hbat, if_neg hcb]; exact hfc,
          by rw [hbat, if_neg hcb]; exact hck, by rw [hbat, if_neg hcb]; exact hcv⟩
      · by_cases hiq : i = q
        · rw [hiq] at hik hiv
          exact Or.inl ⟨b, by rw [hlen]; exact hb, by rw [hbat, if_pos rfl],
            by rw [hbat, if_pos rfl]; exact hik, by rw [hbat, if_pos rfl]; exact hiv⟩
        · exact Or.inr ⟨i, (hmemU i).mpr ⟨hiq, hi⟩, by rw [hat i hiq]; exact hik,
            by rw [hat i hiq]; exact hiv⟩

/-- "Put eRemoved back on the free list", after the node `e` was unlinked from the
chain of bucket `b`, whose nodes are now `l1`; the inline elements are untouched. -/
theorem c1_release_spec {digest : K → Nat} {t : C1HashTable K V} {L : Nat → List Nat}
    {F used : List Nat} (h : Shape digest t L F used) (hk : KeysInj t used) (b e : Nat)
    (hb : b < t.buckets.length) (he : e ∈ L b) (k : K) (hek : (elemAt t.elemPool e).key = k)
    (buckets1 : List (Bucket K V)) (pool1 : List (Elem K V)) (l1 : List Nat)
    (hlenb : buckets1.length = t.buckets.length) (hlenp : pool1.length = t.elemPool.length)
    (hl1n : l1.Nodup) (hl1 : ∀ i, i ∈ l1 ↔ i ∈ L b ∧ i ≠ e)
    (hch : IsChain (nextOf pool1) (bucketAt buckets1 b).pHead l1)
    (hhead : ∀ c, c ≠ b → (bucketAt buckets1 c).pHead = (bucketAt t.buckets c).pHead)
    (hbhash : ∀ c, (bucketAt buckets1 c).hash = (bucketAt t.buckets c).hash)
    (hbfill : ∀ c, (bucketAt buckets1 c).filled = (bucketAt t.buckets c).filled)
    (hbkey : ∀ c, (bucketAt buckets1 c).key = (bucketAt t.buckets c).key)
    (hbval : ∀ c, (bucketAt buckets1 c).value = (bucketAt t.buckets c).value)
    (hcnt : filledCount buckets1 = filledCount t.buckets)
    (hnext : ∀ j, j ∉ L b → nextOf pool1 j = nextOf t.elemPool j)
    (hhash : ∀ j, (elemAt pool1 j).hash = (elemAt t.elemPool j).hash)
    (hkey : ∀ j, (elemAt pool1 j).key = (elemAt t.elemPool j).key)
    (hval : ∀ j, (elemAt pool1 j).value = (elemAt t.elemPool j).value) :
    Shape digest (release t buckets1 pool1 e) (Function.update L b l1) (e :: F)
        (used.erase e) ∧
      KeysInj (release t buckets1 pool1 e) (used.erase e) ∧
      ∀ x w, Holds (release t buckets1 pool1 e) (used.erase e) x w ↔
        x ≠ k ∧ Holds t used x w := by
  have heU : e ∈ used := (h.used_iff e).mpr ⟨b, hb, he⟩
  have heF : e ∉ F := h.disj e heU
  have hepool : e < pool1.length := by rw [hlenp]; exact h.bound e (Or.inl heU)
  have hmemU : ∀ i, i ∈ used.erase e ↔ i ≠ e ∧ i ∈ used :=
    fun i => List.Nodup.mem_erase_iff h.nodupU
  have hat : ∀ j, j ≠ e → elemAt (release t buckets1 pool1 e).elemPool j = elemAt pool1 j :=
    fun j hj => c0_elemAt_set_ne _ _ _ _ hj
  have hnx : nextOf (release t buckets1 pool1 e).elemPool =
      Function.update (nextOf pool1) e t.pElemFreeHead :=
    c0_nextOf_set _ _ _ hepool
  have hlen : (release t buckets1 pool1 e).buckets.length = t.buckets.length := hlenb
  have hbs : (release t buckets1 pool1 e).buckets = buckets1 := rfl
  have hfillb : (bucketAt t.buckets b).filled = true := by
    cases hf : (bucketAt t.buckets b).filled with
    | true => rfl
    | false =>
      have := h.empty b hb hf
      rw [this] at he
      simp at he
  have hother : ∀ c, c < t.buckets.length → c ≠ b → ∀ j ∈ L c, j ∉ L b ∧ j ≠ e := by
    intro c hc hcb j hj
    constructor
    · intro hjb
      exact hcb (c1_chain_disjoint h c b j hc hb hj hjb)
    · rintro rfl
      exact hcb (c1_chain_disjoint h c b j hc hb hj he)
  refine ⟨⟨by rw [hlen]; exact h.pos, ?_, ?_, ?_, ?_, ?_, ?_, ?_, ?_, ?_, ?_, ?_, ?_, ?_, ?_,
    ?_, ?_⟩, ⟨?_, ?_, ?_⟩, ?_⟩
  · simp [release, hlenp, hlenb, h.pool_len]
  · -- chain
    intro c hc
    rw [hlen] at hc
    rw [hnx, hbs]
    by_cases hcb : c = b
    · subst hcb
      simp only [Function.update_same]
      exact isChain_update e _ (fun hm => ((hl1 e).mp hm).2 rfl) hch
    · simp only [ne_eq, hcb, not_false_eq_true, Function.update_noteq]
      rw [hhead c hcb]
      apply isChain_congr _ (h.chain c hc)
      intro j hj
      obtain ⟨h1, h2⟩ := hother c hc hcb j hj
      rw [Function.update_noteq h2, hnext j h1]
  · -- empty
    intro c hc hf
    rw [hlen] at hc
    rw [hbs, hbfill] at hf
    by_cases hcb : c = b
    · rw [hcb, hfillb] at hf; cases hf
    · simp only [ne_eq, hcb, not_false_eq_true, Function.update_noteq]
      exact h.empty c hc hf
  · -- free
    show IsChain (nextOf (release t buckets1 pool1 e).elemPool) (some e) (e :: F)
    refine ⟨rfl, ?_⟩
    rw [hnx]
    simp only [Function.update_same]
    apply isChain_congr _ h.free
    intro j hj
    have hje : j ≠ e := by rintro rfl; exact heF hj
    have hjb : j ∉ L b := fun hm => h.disj j ((h.used_iff j).mpr ⟨b, hb, hm⟩) hj
    rw [Function.update_noteq hje, hnext j hjb]
  · -- nodupL
    intro c hc
    rw [hlen] at hc
    by_cases hcb : c = b
    · subst hcb; simpa using hl1n
    · simp only [ne_eq, hcb, not_false_eq_true, Function.update_noteq]
      exact h.nodupL c hc
  · exact List.nodup_cons.mpr ⟨heF, h.nodupF⟩
  · exact h.nodupU.erase e
  · -- used_iff
    intro i
    rw [hlen, hmemU]
    constructor
    · rintro ⟨hie, hi⟩
      obtain ⟨c, hc, hic⟩ := (h.used_iff i).mp hi
      refine ⟨c, hc, ?_⟩
      by_cases hcb : c = b
      · subst hcb
        simp only [Function.update_same]
        exact (hl1 i).mpr ⟨hic, hie⟩
      · simp [hcb, hic]
    · rintro ⟨c, hc, hic⟩
      by_cases hcb : c = b
      · subst hcb
        simp only [Function.update_same] at hic
        obtain ⟨h1, h2⟩ := (hl1 i).mp hic
        exact ⟨h2, (h.used_iff i).mpr ⟨c, hc, h1⟩⟩
      · simp only [ne_eq, hcb, not_false_eq_true, Function.update_noteq] at hic
        exact ⟨(hother c hc hcb i hic).2, (h.used_iff i).mpr ⟨c, hc, hic⟩⟩
  · -- disj
    intro i hi hm
    obtain ⟨hie, hiu⟩ := (hmemU i).mp hi
    rcases List.mem_cons.mp hm with h1 | h1
    · exact hie h1
    · exact h.disj i hiu h1
  · -- bound
    intro i hi
    simp only [release, List.length_set, hlenp]
    rcases hi with hi | hi
    · exact h.bound i (Or.inl ((hmemU i).mp hi).2)
    · rcases List.mem_cons.mp hi with rfl | hi
      · exact h.bound i (Or.inl heU)
      · exact h.bound i (Or.inr hi)
  · -- cover
    have := h.cover
    have h2 := List.length_erase_of_mem heU
    have h3 : 0 < used.length := List.length_pos_of_mem heU
    simp only [release, List.length_set, List.length_cons, hlenp, h2]
    omega
  · -- home
    intro c hc i hi
    rw [hlen] at hc ⊢
    by_cases hcb : c = b
    · subst hcb
      simp only [Function.update_same] at hi
      obtain ⟨h1, h2⟩ := (hl1 i).mp hi
      rw [hat i h2, hhash]
      exact h.home c hc i h1
    · simp only [ne_eq, hcb, not_false_eq_true, Function.update_noteq] at hi
      rw [hat i (hother c hc hcb i hi).2, hhash]
      exact h.home c hc i hi
  · -- homeB
    intro c hc hf
    rw [hlen] at hc ⊢
    rw [hbs, hbfill] at hf
    rw [hbs, hbhash]
    exact h.homeB c hc hf
  · -- hash_ok
    intro i hi
    obtain ⟨hie, hiu⟩ := (hmemU i).mp hi
    rw [hat i hie, hhash, hkey]
    exact h.hash_ok i hiu
  · -- hash_okB
    intro c hc hf
    rw [hlen] at hc
    rw [hbs, hbfill] at hf
    rw [hbs, hbhash, hbkey]
    exact h.hash_okB c hc hf
  · -- size
    have h2 := List.length_erase_of_mem heU
    have h3 : 0 < used.length := List.length_pos_of_mem heU
    show t.size - 1 = filledCount buckets1 + (used.erase e).length
    rw [hcnt, h.size_eq, h2]
    omega
  · -- nodes
    intro i hi j hj hij
    obtain ⟨hie, hiu⟩ := (hmemU i).mp hi
    obtain ⟨hje, hju⟩ := (hmemU j).mp hj
    rw [hat i hie, hat j hje, hkey, hkey] at hij
    exact hk.nodes i hiu j hju hij
  · -- slots
    intro c d hc hd hfc hfd hcd
    rw [hlen] at hc hd
    rw [hbs, hbfill] at hfc hfd
    rw [hbs, hbkey, hbkey] at hcd
    exact hk.slots c d hc hd hfc hfd hcd
  · -- cross
    intro c hc hfc i hi hci
    rw [hlen] at hc
    obtain ⟨hie, hiu⟩ := (hmemU i).mp hi
    rw [hbs, hbfill] at hfc
    rw [hbs, hbkey, hat i hie, hkey] at hci
    exact hk.cross c hc hfc i hiu hci
  · -- holds
    intro x w
    constructor
    · rintro (⟨c, hc, hfc, hck, hcv⟩ | ⟨i, hi, hik, hiv⟩)
      · rw [hlen] at hc
        rw [hbs, hbfill] at hfc
        rw [hbs, hbkey] at hck
        rw [hbs, hbval] at hcv
        refine ⟨?_, Or.inl ⟨c, hc, hfc, hck, hcv⟩⟩
        rintro rfl
        exact hk.cross c hc hfc e heU (by rw [hck, hek])
      · obtain ⟨hie, hiu⟩ := (hmemU i).mp hi
        rw [hat i hie, hkey] at hik
        rw [hat i hie, hval] at hiv
        refine ⟨?_, Or.inr ⟨i, hiu, hik, hiv⟩⟩
        rintro rfl
        exact hie (hk.nodes i hiu e heU (by rw [hik, hek]))
    · rintro ⟨hxk, ⟨c, hc, hfc, hck, hcv⟩ | ⟨i, hiu, hik, hiv⟩⟩
      · exact Or.inl ⟨c, by rw [hlen]; exact hc, by rw [hbs, hbfill]; exact hfc,
          by rw [hbs, hbkey]; exact hck, by rw [hbs, hbval]; exact hcv⟩
      · have hie : i ≠ e := by
          rintro rfl
          exact hxk (hik.symm.trans hek)
        exact Or.inr ⟨i, (hmemU i).mpr ⟨hie, hiu⟩, by rw [hat i hie, hkey]; exact hik,
          by rw [hat i hie, hval]; exact hiv⟩

theorem c1_nodup_unlink (A post : List Nat) (p e : Nat)
    (hn : (A ++ p :: e :: post).Nodup) : (A ++ p :: post).Nodup := by
  simp only [List.nodup_append, List.nodup_cons, List.mem_cons, not_or,
    List.disjoint_cons_right] at hn ⊢
  tauto

theorem c1_mem_unlink (A post : List Nat) (p e : Nat)
    (hn : (A ++ p :: e :: post).Nodup) (i : Nat) :
    i ∈ A ++ p :: post ↔ i ∈ A ++ p :: e :: post ∧ i ≠ e := by
  simp only [List.nodup_append, List.nodup_cons, List.mem_cons, not_or,
    List.disjoint_cons_right, List.mem_append] at hn ⊢
  constructor
  · intro hi
    refine ⟨by tauto, ?_⟩
    rintro rfl
    tauto
  · tauto

theorem c1_remove_finish {digest : K → Nat} {t t1 : C1HashTable K V}
    {L L1 : Nat → List Nat} {F F1 used used1 : List Nat} (h : Shape digest t L F used)
    (hk : KeysInj t used) (k : K) (v0 : V) (hv0 : Holds t used k v0)
    (h1 : Shape digest t1 L1 F1 used1 ∧ KeysInj t1 used1 ∧
      ∀ x w, Holds t1 used1 x w ↔ x ≠ k ∧ Holds t used x w) :
    (Lookup digest t k).join.isSome = true ∧ WF digest t1 ∧
      ∀ x, Lookup digest t1 x = if x = k then some none else Lookup digest t x := by
  obtain ⟨hs1, hk1, hh⟩ := h1
  refine ⟨?_, ⟨L1, F1, used1, hs1, hk1⟩, ?_⟩
  · rw [c1_Lookup_holds h hk k v0 hv0]
    rfl
  · intro x
    by_cases hx : x = k
    · rw [if_pos hx, hx]
      exact c1_Lookup_absent hs1 k (fun w hw => ((hh k w).mp hw).1 rfl)
    · rw [if_neg hx]
      apply c1_Lookup_congr h hk hs1 hk1
      intro w
      rw [hh]
      exact ⟨fun hw => hw.2, fun hw => ⟨hx, hw⟩⟩

theorem c1_remove_miss {digest : K → Nat} {t : C1HashTable K V} (hw : WF digest t) (k : K)
    (hl : Lookup digest t k = some none) :
    (Lookup digest t k).join.isSome = false ∧ WF digest t ∧
      ∀ x, Lookup digest t x = if x = k then some none else Lookup digest t x := by
  refine ⟨by rw [hl]; rfl, hw, ?_⟩
  intro x
  by_cases hx : x = k
  · rw [if_pos hx, hx, hl]
  · rw [if_neg hx]

theorem c1_Remove_spec (digest : K → Nat) {t : C1HashTable K V} (h : WF digest t) (k : K) :
    ∃ t1, Remove digest t k = some (t1, (Lookup digest t k).join.isSome) ∧ WF digest t1 ∧
      ∀ x, Lookup digest t1 x = if x = k then some none else Lookup digest t x := by
  have hwf := h
  obtain ⟨L, F, used, hs, hk⟩ := h
  have hb := c1_bucketOf_lt digest t k hs.pos
  have hchain := hs.chain _ hb
  have hnodup := hs.nodupL _ hb
  have hlenle := c1_chain_length_le hs _ hb
  have hlk := c1_Lookup_shape hs k
  cases hfill : (bucketAt t.buckets (bucketOf digest t k)).filled with
  | false =>
    have hfill1 : (bucketAt t.buckets
        (HashKey digest k &&& s_63Bits &&& (t.buckets.length - 1))).filled = false := hfill
    rw [hfill, if_pos rfl] at hlk
    obtain ⟨h1, h2, h3⟩ := c1_remove_miss hwf k hlk
    refine ⟨t, ?_, h2, h3⟩
    simp only [Remove, hfill1, if_true, h1]
  | true =>
    have hfill1 : (bucketAt t.buckets
        (HashKey digest k &&& s_63Bits &&& (t.buckets.length - 1))).filled = true := hfill
    rw [hfill, if_neg (by simp)] at hlk
    by_cases hin : (bucketAt t.buckets (bucketOf digest t k)).hash = hashOf digest k ∧
        (bucketAt t.buckets (bucketOf digest t k)).key = k
    · have hin1 : (bucketAt t.buckets
          (HashKey digest k &&& s_63Bits &&& (t.buckets.length - 1))).hash =
            HashKey digest k &&& s_63Bits ∧
          (bucketAt t.buckets
            (HashKey digest k &&& s_63Bits &&& (t.buckets.length - 1))).key = k := hin
      have hv0 : Holds t used k (bucketAt t.buckets (bucketOf digest t k)).value :=
        Or.inl ⟨_, hb, hfill, hin.2, rfl⟩
      cases hhd : (bucketAt t.buckets (bucketOf digest t k)).pHead with
      | none =>
        have hhd1 : (bucketAt t.buckets
            (HashKey digest k &&& s_63Bits &&& (t.buckets.length - 1))).pHead = none := hhd
        have hcl := c1_clear_spec hs hk (bucketOf digest t k) hb hfill hhd
          { t with
            buckets := t.buckets.set (bucketOf digest t k)
              ⟨none, 0, false, (bucketAt t.buckets (bucketOf digest t k)).key,
                (bucketAt t.buckets (bucketOf digest t k)).value⟩,
            size := t.size - 1 } rfl rfl rfl rfl
        rw [hin.2] at hcl
        obtain ⟨h1, h2, h3⟩ := c1_remove_finish hs hk k _ hv0 hcl
        refine ⟨_, ?_, h2, h3⟩
        simp only [Remove, hfill1, Bool.true_eq_false, if_false, hin1, and_self, if_true,
          hhd1, h1]
        rfl
      | some q =>
        have hhd1 : (bucketAt t.buckets
            (HashKey digest k &&& s_63Bits &&& (t.buckets.length - 1))).pHead = some q := hhd
        have hpr := c1_promote_spec hs hk (bucketOf digest t k) q hb hfill hhd
        rw [hin.2] at hpr
        obtain ⟨h1, h2, h3⟩ := c1_remove_finish hs hk k _ hv0 hpr
        refine ⟨_, ?_, h2, h3⟩
        simp only [Remove, hfill1, Bool.true_eq_false, if_false, hin1, and_self, if_true,
          hhd1, h1]
        rfl
    · have hin1 : ¬ ((bucketAt t.buckets
          (HashKey digest k &&& s_63Bits &&& (t.buckets.length - 1))).hash =
            HashKey digest k &&& s_63Bits ∧
          (bucketAt t.buckets
            (HashKey digest k &&& s_63Bits &&& (t.buckets.length - 1))).key = k) := hin
      rw [if_neg hin] at hlk
      cases hL : L (bucketOf digest t k) with
      | nil =>
        rw [hL] at hchain hlk
        have hhd1 : (bucketAt t.buckets
            (HashKey digest k &&& s_63Bits &&& (t.buckets.length - 1))).pHead = none := hchain
        obtain ⟨h1, h2, h3⟩ := c1_remove_miss hwf k hlk
        refine ⟨t, ?_, h2, h3⟩
        simp only [Remove, hfill1, Bool.true_eq_false, if_false, hin1, hhd1, h1]
      | cons q l =>
        rw [hL] at hchain hnodup hlenle hlk
        obtain ⟨hhead, hrest⟩ := hchain
        have hhd1 : (bucketAt t.buckets
            (HashKey digest k &&& s_63Bits &&& (t.buckets.length - 1))).pHead = some q := hhead
        have hqL : q ∈ L (bucketOf digest t k) := by rw [hL]; simp
        have hqU : q ∈ used := (hs.used_iff q).mpr ⟨_, hb, hqL⟩
        have hcntset : ∀ x : Option Nat, filledCount (t.buckets.set (bucketOf digest t k)
            ⟨x, (bucketAt t.buckets (bucketOf digest t k)).hash,
              (bucketAt t.buckets (bucketOf digest t k)).filled,
              (bucketAt t.buckets (bucketOf digest t k)).key,
              (bucketAt t.buckets (bucketOf digest t k)).value⟩) = filledCount t.buckets :=
          fun x => Nat.add_right_cancel (c1_filledCount_set t.buckets _ _ hb)
        have hbat : ∀ (x : Option Nat) c, bucketAt (t.buckets.set (bucketOf digest t k)
            ⟨x, (bucketAt t.buckets (bucketOf digest t k)).hash,
              (bucketAt t.buckets (bucketOf digest t k)).filled,
              (bucketAt t.buckets (bucketOf digest t k)).key,
              (bucketAt t.buckets (bucketOf digest t k)).value⟩) c =
            if c = bucketOf digest t k then
              ⟨x, (bucketAt t.buckets (bucketOf digest t k)).hash,
                (bucketAt t.buckets (bucketOf digest t k)).filled,
                (bucketAt t.buckets (bucketOf digest t k)).key,
                (bucketAt t.buckets (bucketOf digest t k)).value⟩
            else bucketAt t.buckets c := fun x c => c1_bucketAt_set _ _ _ _ hb
        cases hq : hitOf t.elemPool (hashOf digest k) k q with
        | true =>
          have hq1 : hitOf t.elemPool (HashKey digest k &&& s_63Bits) k q = true := hq
          have hqk : (elemAt t.elemPool q).key = k := by
            simp only [hitOf, decide_eq_true_eq] at hq
            exact hq.2
          have hrel := c1_release_spec hs hk (bucketOf digest t k) q hb hqL k hqk
            (t.buckets.set (bucketOf digest t k)
              ⟨(elemAt t.elemPool q).pNext, (bucketAt t.buckets (bucketOf digest t k)).hash,
                (bucketAt t.buckets (bucketOf digest t k)).filled,
                (bucketAt t.buckets (bucketOf digest t k)).key,
                (bucketAt t.buckets (bucketOf digest t k)).value⟩) t.elemPool l
            (by simp) rfl (List.nodup_cons.mp hnodup).2
            (by
              intro i
              rw [hL]
              constructor
              · intro hi
                exact ⟨List.mem_cons_of_mem _ hi,
                  fun e1 => (List.nodup_cons.mp hnodup).1 (e1 ▸ hi)⟩
              · rintro ⟨hi, hne⟩
                exact (List.mem_cons.mp hi).resolve_left hne)
            (by rw [hbat, if_pos rfl]; exact hrest)
            (by intro c hc; rw [hbat, if_neg hc])
            (by intro c; rw [hbat]; split <;> simp_all)
            (by intro c; rw [hbat]; split <;> simp_all)
            (by intro c; rw [hbat]; split <;> simp_all)
            (by intro c; rw [hbat]; split <;> simp_all)
            (hcntset _)
            (fun _ _ => rfl) (fun _ => rfl) (fun _ => rfl) (fun _ => rfl)
          obtain ⟨h1, h2, h3⟩ := c1_remove_finish hs hk k _
            (Or.inr ⟨q, hqU, hqk, rfl⟩) hrel
          refine ⟨_, ?_, h2, h3⟩
          simp only [Remove, hfill1, Bool.true_eq_false, if_false, hin1, hhd1, hq1, if_true, h1]
          rw [hfill]
          rfl
        | false =>
          have hq1 : hitOf t.elemPool (HashKey digest k &&& s_63Bits) k q = false := hq
          have hfp : chainFindPrev (nextOf t.elemPool)
              (hitOf t.elemPool (HashKey digest k &&& s_63Bits) k)
              t.elemPool.length (elemAt t.elemPool q).pNext q =
              some (findPrev (hitOf t.elemPool (hashOf digest k) k) q l) :=
            chainFindPrev_spec (nextOf t.elemPool) (hitOf t.elemPool (hashOf digest k) k)
              l t.elemPool.length _ q hrest (by simp at hlenle; omega)
          cases hfind : findPrev (hitOf t.elemPool (hashOf digest k) k) q l with
          | none =>
            rw [hfind] at hfp
            have hall := findPrev_none _ l q hfind
            have hnone : (q :: l).find? (hitOf t.elemPool (hashOf digest k) k) = none := by
              rw [List.find?_eq_none]
              intro x hx
              rcases List.mem_cons.mp hx with rfl | hx
              · rw [hq]; simp
              · rw [hall x hx]; simp
            rw [hnone] at hlk
            obtain ⟨h1, h2, h3⟩ := c1_remove_miss hwf k hlk
            refine ⟨t, ?_, h2, h3⟩
            simp only [Remove, hfill1, Bool.true_eq_false, if_false, hin1, hhd1, hq1, h1]
            simp only [hfp, Bool.false_eq_true, if_false]
          | some ep =>
            obtain ⟨e, p⟩ := ep
            rw [hfind] at hfp
            obtain ⟨A, post, hsplit, hA, hp, he⟩ := findPrev_some _ l q e p hq hfind
            rw [hsplit] at hnodup
            have heL : e ∈ L (bucketOf digest t k) := by rw [hL, hsplit]; simp
            have hpL : p ∈ L (bucketOf digest t k) := by rw [hL, hsplit]; simp
            have heU : e ∈ used := (hs.used_iff e).mpr ⟨_, hb, heL⟩
            have hpU : p ∈ used := (hs.used_iff p).mpr ⟨_, hb, hpL⟩
            have hppool : p < t.elemPool.length := hs.bound p (Or.inl hpU)
            have hek : (elemAt t.elemPool e).key = k := by
              simp only [hitOf, decide_eq_true_eq] at he
              exact he.2
            have hchainb : IsChain (nextOf t.elemPool)
                (bucketAt t.buckets (bucketOf digest t k)).pHead (A ++ p :: e :: post) := by
              rw [← hsplit, ← hL]; exact hs.chain _ hb
            have hent : ∀ j, elemAt (t.elemPool.set p
                ⟨(elemAt t.elemPool e).pNext, (elemAt t.elemPool p).hash,
                  (elemAt t.elemPool p).key, (elemAt t.elemPool p).value⟩) j =
                if j = p then ⟨(elemAt t.elemPool e).pNext, (elemAt t.elemPool p).hash,
                  (elemAt t.elemPool p).key, (elemAt t.elemPool p).value⟩
                else elemAt t.elemPool j := fun j => c0_elemAt_set _ _ _ _ hppool
            have hl1n : (A ++ p :: post).Nodup := c1_nodup_unlink A post p e hnodup
            have hl1 : ∀ i, i ∈ A ++ p :: post ↔ i ∈ L (bucketOf digest t k) ∧ i ≠ e := by
              intro i
              rw [hL, hsplit]
              exact c1_mem_unlink A post p e hnodup i
            have hch1 : IsChain (nextOf (t.elemPool.set p
                ⟨(elemAt t.elemPool e).pNext, (elemAt t.elemPool p).hash,
                  (elemAt t.elemPool p).key, (elemAt t.elemPool p).value⟩))
                (bucketAt t.buckets (bucketOf digest t k)).pHead (A ++ p :: post) := by
              rw [c0_nextOf_set _ _ _ hppool]
              exact isChain_unlink A p e post _ hchainb hnodup
            have hnx1 : ∀ j, j ∉ L (bucketOf digest t k) → nextOf (t.elemPool.set p
                ⟨(elemAt t.elemPool e).pNext, (elemAt t.elemPool p).hash,
                  (elemAt t.elemPool p).key, (elemAt t.elemPool p).value⟩) j =
                nextOf t.elemPool j := by
              intro j hj
              have hjp : j ≠ p := by rintro rfl; exact hj hpL
              unfold nextOf
              rw [hent, if_neg hjp]
            have hrel := c1_release_spec hs hk (bucketOf digest t k) e hb heL k hek
              t.buckets (t.elemPool.set p
                ⟨(elemAt t.elemPool e).pNext, (elemAt t.elemPool p).hash,
                  (elemAt t.elemPool p).key, (elemAt t.elemPool p).value⟩) (A ++ p :: post)
              rfl (by simp) hl1n hl1 hch1
              (fun _ _ => rfl) (fun _ => rfl) (fun _ => rfl) (fun _ => rfl) (fun _ => rfl) rfl
              hnx1
              (by intro j; rw [hent]; split <;> simp_all)
              (by intro j; rw [hent]; split <;> simp_all)
              (by intro j; rw [hent]; split <;> simp_all)
            obtain ⟨h1, h2, h3⟩ := c1_remove_finish hs hk k _
              (Or.inr ⟨e, heU, hek, rfl⟩) hrel
            refine ⟨_, ?_, h2, h3⟩
            simp only [Remove, hfill1, Bool.true_eq_false, if_false, hin1, hhd1, hq1, h1]
            simp only [hfp, Bool.false_eq_true, if_false]

/-! ### The loops of `Rehash` as a run of `placeEntry` over the entries of the old table -/

/-- The entries `(hash, key, value)` placed one after the other; `none` is the escape
hatch. -/
def placeAll (bucketCountNew : Nat) :
    List (Nat × K × V) → List (Bucket K V) × List (Elem K V) × Nat →
      Option (List (Bucket K V) × List (Elem K V) × Nat)
  | [], st => some st
  | e :: rest, st =>
    match placeEntry bucketCountNew st e.1 e.2.1 e.2.2 with
    | none => none
    | some st1 => placeAll bucketCountNew rest st1

/-- The outcome of a pass whose chains all end. -/
def passOf {σ : Type} : Option σ → Pass σ
  | none => Pass.escape
  | some st => Pass.ok st

/-- Hash, key and value of a node. -/
def entry (pool : List (Elem K V)) (e : Nat) : Nat × K × V :=
  ((elemAt pool e).hash, (elemAt pool e).key, (elemAt pool e).value)

/-- The entries of a bucket with the chain nodes `l`, in the order `Rehash` visits
them: the inline element, then the chain. -/
def bucketEntries (pool : List (Elem K V)) (b : Bucket K V) (l : List Nat) :
    List (Nat × K × V) :=
  if b.filled = false then [] else (b.hash, b.key, b.value) :: l.map (entry pool)

theorem c1_placeAll_append (n1 : Nat) (a b : List (Nat × K × V)) :
    ∀ st, placeAll n1 (a ++ b) st = (placeAll n1 a st).bind (placeAll n1 b) := by
  induction a with
  | nil => intro st; rfl
  | cons e a ih =>
    intro st
    simp only [List.cons_append, placeAll]
    cases placeEntry n1 st e.1 e.2.1 e.2.2 with
    | none => rfl
    | some st1 => exact ih st1

theorem c1_rehashChain_eq (pool : List (Elem K V)) (n1 : Nat) :
    ∀ (l : List Nat) (fuel : Nat) (h : Option Nat)
      (st : List (Bucket K V) × List (Elem K V) × Nat),
      IsChain (nextOf pool) h l → l.length ≤ fuel →
      rehashChain pool n1 fuel h st = passOf (placeAll n1 (l.map (entry pool)) st) := by
  intro l
  induction l with
  | nil =>
    intro fuel h st hl _
    have : h = none := hl
    subst this
    cases fuel <;> rfl
  | cons i l ih =>
    intro fuel h st hl hf
    obtain ⟨h1, h2⟩ := hl
    subst h1
    cases fuel with
    | zero => simp at hf
    | succ fuel =>
      simp only [rehashChain, List.map_cons, placeAll, entry]
      cases placeEntry n1 st (elemAt pool i).hash (elemAt pool i).key (elemAt pool i).value with
      | none => rfl
      | some st1 => exact ih fuel _ st1 h2 (by simpa using hf)

theorem c1_bucketAt_cons_succ (b : Bucket K V) (rest : List (Bucket K V)) (i : Nat) :
    bucketAt (b :: rest) (i + 1) = bucketAt rest i := rfl

theorem c1_rehashBuckets_eq (pool : List (Elem K V)) (n1 : Nat) (L : Nat → List Nat)
    (B : Nat → Bucket K V) :
    ∀ (bs : List (Bucket K V)) (j : Nat) (st : List (Bucket K V) × List (Elem K V) × Nat),
      (∀ i, i < bs.length → bucketAt bs i = B (j + i) ∧
        IsChain (nextOf pool) (B (j + i)).pHead (L (j + i)) ∧
        (L (j + i)).length ≤ pool.length) →
      rehashBuckets pool n1 bs st =
        passOf (placeAll n1
          ((List.range' j bs.length).flatMap (fun b => bucketEntries pool (B b) (L b))) st) := by
  intro bs
  induction bs with
  | nil => intro j st _; rfl
  | cons b rest ih =>
    intro j st hb
    have h0 := hb 0 (by simp)
    simp only [Nat.add_zero] at h0
    have hb0 : b = B j := h0.1
    have hnext : ∀ i, i < rest.length → bucketAt rest i = B (j + 1 + i) ∧
        IsChain (nextOf pool) (B (j + 1 + i)).pHead (L (j + 1 + i)) ∧
        (L (j + 1 + i)).length ≤ pool.length := by
      intro i hi
      have := hb (i + 1) (by simpa using hi)
      have e : j + (i + 1) = j + 1 + i := by omega
      rw [e, c1_bucketAt_cons_succ] at this
      exact this
    have hrest := fun st => ih (j + 1) st hnext
    simp only [rehashBuckets, List.length_cons, List.range'_succ, List.flatMap_cons,
      c1_placeAll_append]
    rw [← hb0]
    cases hfill : b.filled with
    | false =>
      simp only [bucketEntries, hfill, if_true, placeAll, Option.some_bind]
      exact hrest st
    | true =>
      simp only [bucketEntries, hfill, Bool.true_eq_false, if_false, placeAll]
      cases placeEntry n1 st b.hash b.key b.value with
      | none => rfl
      | some st1 =>
        have hc := c1_rehashChain_eq pool n1 (L j) pool.length b.pHead st1
          (by rw [hb0]; exact h0.2.1) h0.2.2
        simp only [hc, c1_placeAll_append]
        cases placeAll n1 (List.map (entry pool) (L j)) st1 with
        | none => rfl
        | some st2 =>
          simp only [passOf, Option.some_bind]
          exact hrest st2

/-! ### The table under construction -/

/-- The state `(bucketsNew, elemPoolNew, iElemNext)` of `Rehash` as a table: what the
last lines of `Rehash` would install, were the loops to stop here. -/
def tableOf (st : List (Bucket K V) × List (Elem K V) × Nat) (size : Nat) : C1HashTable K V :=
  { buckets := st.1,
    elemPool := linkFree (st.2.1.length - 1 - st.2.2) st.2.2 st.2.1,
    pElemFreeHead := if st.2.2 < st.2.1.length then some st.2.2 else none,
    size := size }

theorem c1_linkFree_set_comm (m : Nat) (x : Elem K V) :
    ∀ (cnt i : Nat) (pl : List (Elem K V)), m < i →
      linkFree cnt i (pl.set m x) = (linkFree cnt i pl).set m x := by
  intro cnt
  induction cnt with
  | zero => intro i pl _; rfl
  | succ cnt ih =>
    intro i pl hm
    simp only [linkFree]
    have hmi : m ≠ i := by omega
    rw [c0_elemAt_set_ne _ _ _ _ (Ne.symm hmi), List.set_comm x _ pl hmi,
      ih (i + 1) _ (by omega)]

/-- Placing an entry inline is `storeInline` on the table under construction. -/
theorem c1_tableOf_store (bs : List (Bucket K V)) (pl : List (Elem K V)) (m sz b hash : Nat)
    (k : K) (v : V) :
    tableOf (bs.set b ⟨(bucketAt bs b).pHead, hash, true, k, v⟩, pl, m) (sz + 1) =
      storeInline (tableOf (bs, pl, m) sz) b hash k v := rfl

/-- Placing an entry in the next element of the new pool is `grabElem` on the table
under construction. -/
theorem c1_tableOf_grab (bs : List (Bucket K V)) (pl : List (Elem K V)) (m sz b hash : Nat)
    (k : K) (v : V) (hm : m < pl.length)
    (hrest : ∀ p, m ≤ p → (elemAt pl p).pNext = none) :
    grabElem (tableOf (bs, pl, m) sz) b hash k v =
      some (tableOf (bs.set b ⟨some m, (bucketAt bs b).hash, (bucketAt bs b).filled,
          (bucketAt bs b).key, (bucketAt bs b).value⟩,
        pl.set m ⟨(bucketAt bs b).pHead, hash, k, v⟩, m + 1) (sz + 1)) := by
  have hfree : (tableOf (bs, pl, m) sz).pElemFreeHead = some m := by
    simp only [tableOf, if_pos hm]
  have hat := c0_elemAt_linkFree (pl.length - 1 - m) m pl (by omega) m
  simp only [grabElem, hfree, Option.some.injEq]
  simp only [tableOf, List.length_set, C1HashTable.mk.injEq, true_and, and_true]
  constructor
  · by_cases hlast : m + 1 < pl.length
    · have hc : pl.length - 1 - m = (pl.length - 1 - (m + 1)) + 1 := by omega
      rw [hc]
      simp only [linkFree]
      rw [c1_linkFree_set_comm m _ _ _ _ (by omega), c1_linkFree_set_comm m _ _ _ _ (by omega),
        List.set_set]
    · have h0 : pl.length - 1 - m = 0 := by omega
      have h1 : pl.length - 1 - (m + 1) = 0 := by omega
      rw [h0, h1]
      rfl
  · rw [hat]
    by_cases hlast : m + 1 < pl.length
    · rw [if_pos (by omega), if_pos hlast]
    · rw [if_neg (by omega), if_neg hlast]
      exact hrest m (le_refl m)

theorem c1_filledCount_pos (bs : List (Bucket K V)) (b : Nat) (hb : b < bs.length)
    (hfill : (bucketAt bs b).filled = true) : 0 < filledCount bs := by
  unfold filledCount
  rw [List.countP_pos_iff]
  rw [c1_bucketAt_eq_getElem bs b hb] at hfill
  exact ⟨bs[b], List.getElem_mem hb, hfill⟩

/-- Invariant of the loops of `Rehash`: after the entries `done` were placed, the table
under construction is well formed and holds exactly these entries. -/
def Built (digest : K → Nat) (n1 : Nat) (st : List (Bucket K V) × List (Elem K V) × Nat)
    (done : List (Nat × K × V)) : Prop :=
  st.1.length = n1 ∧ st.2.2 ≤ st.2.1.length ∧
    (∀ p, st.2.2 ≤ p → (elemAt st.2.1 p).pNext = none) ∧
    ∃ L F used, Shape digest (tableOf st done.length) L F used ∧
      KeysInj (tableOf st done.length) used ∧
      ∀ x w, Holds (tableOf st done.length) used x w ↔ (hashOf digest x, x, w) ∈ done

/-- One entry more: it is placed and the invariant holds again, or the new pool is full,
and then more entries were placed than the pool has elements. -/
theorem c1_built_step {digest : K → Nat} {n1 : Nat}
    {st : List (Bucket K V) × List (Elem K V) × Nat} {done : List (Nat × K × V)}
    (h : Built digest n1 st done) (e : Nat × K × V) (he : e.1 = hashOf digest e.2.1)
    (hnew : e.2.1 ∉ done.map (fun d => d.2.1)) :
    (placeEntry n1 st e.1 e.2.1 e.2.2 = none ∧ n1 / 2 + 1 ≤ done.length) ∨
      ∃ st1, placeEntry n1 st e.1 e.2.1 e.2.2 = some st1 ∧ Built digest n1 st1 (done ++ [e]) := by
  obtain ⟨bs, pl, m⟩ := st
  obtain ⟨hk0, k, v⟩ := e
  obtain ⟨hlen, hmle, hrest, L, F, used, hs, hki, hh⟩ := h
  simp only at he hlen hmle hrest hnew
  subst he
  subst hlen
  have hnoth : ∀ w, ¬ Holds (tableOf (bs, pl, m) done.length) used k w := by
    intro w hw
    apply hnew
    rw [List.mem_map]
    exact ⟨_, (hh k w).mp hw, rfl⟩
  have hb : hashOf digest k &&& (bs.length - 1) < bs.length :=
    c1_bucketOf_lt digest (tableOf (bs, pl, m) done.length) k hs.pos
  have hmem : ∀ x w, ((x = k ∧ w = v) ∨ (hashOf digest x, x, w) ∈ done) ↔
      (hashOf digest x, x, w) ∈ done ++ [(hashOf digest k, k, v)] := by
    intro x w
    simp only [List.mem_append, List.mem_singleton, Prod.mk.injEq]
    constructor
    · rintro (⟨rfl, rfl⟩ | hd)
      · exact Or.inr ⟨rfl, rfl, rfl⟩
      · exact Or.inl hd
    · rintro (hd | ⟨_, h1, h2⟩)
      · exact Or.inr hd
      · exact Or.inl ⟨h1, h2⟩
  cases hfill : (bucketAt bs (hashOf digest k &&& (bs.length - 1))).filled with
  | false =>
    right
    obtain ⟨h1, h2, h3⟩ := c1_storeInline_spec hs hki k v hfill hnoth
    refine ⟨(bs.set (hashOf digest k &&& (bs.length - 1))
        ⟨(bucketAt bs (hashOf digest k &&& (bs.length - 1))).pHead, hashOf digest k, true, k,
          v⟩, pl, m), by simp only [placeEntry, hfill, if_true], by simp, hmle, hrest,
      L, F, used, ?_⟩
    simp only [List.length_append, List.length_singleton]
    rw [c1_tableOf_store]
    refine ⟨h1, h2, ?_⟩
    intro x w
    rw [← hmem, ← hh]
    exact h3 x w
  | true =>
    by_cases hfull : m = pl.length
    · left
      refine ⟨by simp only [placeEntry, hfill, Bool.true_eq_false, if_false, hfull, if_true],
        ?_⟩
      have hfree := hs.free
      have hF : F = [] := by
        have hnone : (tableOf (bs, pl, m) done.length).pElemFreeHead = none := by
          simp only [tableOf, hfull, lt_irrefl, if_false]
        rw [hnone] at hfree
        cases F with
        | nil => rfl
        | cons a F1 => cases hfree.1
      have hcov := hs.cover
      have hsz := hs.size_eq
      have hpl := hs.pool_len
      have hpos := c1_filledCount_pos bs _ hb hfill
      rw [hF] at hcov
      simp only [List.length_nil, Nat.zero_add] at hcov
      have hsz2 : done.length = filledCount bs + used.length := hsz
      have hpl2 : (tableOf (bs, pl, m) done.length).elemPool.length = bs.length / 2 := hpl
      omega
    · right
      have hm : m < pl.length := by omega
      have hfree : (tableOf (bs, pl, m) done.length).pElemFreeHead = some m := by
        simp only [tableOf, if_pos hm]
      obtain ⟨t1, ht1, h1, h2, h3⟩ := c1_grabElem_spec hs hki m hfree k v hfill hnoth
      have hgr := c1_tableOf_grab bs pl m done.length (hashOf digest k &&& (bs.length - 1))
        (hashOf digest k) k v hm hrest
      have ht1b : grabElem (tableOf (bs, pl, m) done.length)
          (hashOf digest k &&& (bs.length - 1)) (hashOf digest k) k v = some t1 := ht1
      rw [hgr] at ht1b
      have ht1c := Option.some.inj ht1b
      refine ⟨(bs.set (hashOf digest k &&& (bs.length - 1))
          ⟨some m, (bucketAt bs (hashOf digest k &&& (bs.length - 1))).hash,
            (bucketAt bs (hashOf digest k &&& (bs.length - 1))).filled,
            (bucketAt bs (hashOf digest k &&& (bs.length - 1))).key,
            (bucketAt bs (hashOf digest k &&& (bs.length - 1))).value⟩,
          pl.set m ⟨(bucketAt bs (hashOf digest k &&& (bs.length - 1))).pHead, hashOf digest k,
            k, v⟩, m + 1),
        by simp only [placeEntry, hfill, Bool.true_eq_false, if_false, hfull], by simp,
        by simp only [List.length_set]; omega, ?_, ?_⟩
      · intro p hp
        have hp1 : m + 1 ≤ p := hp
        show (elemAt (pl.set m _) p).pNext = none
        rw [c0_elemAt_set_ne _ _ _ _ (by omega)]
        exact hrest p (by omega)
      · simp only [List.length_append, List.length_singleton]
        rw [ht1c]
        refine ⟨_, _, _, h1, h2, ?_⟩
        intro x w
        rw [← hmem, ← hh]
        exact h3 x w

theorem c1_built_fold {digest : K → Nat} {n1 : Nat} :
    ∀ (todo : List (Nat × K × V)) (st : List (Bucket K V) × List (Elem K V) × Nat)
      (done : List (Nat × K × V)), Built digest n1 st done →
      (∀ e ∈ todo, e.1 = hashOf digest e.2.1) →
      ((done ++ todo).map (fun d => d.2.1)).Nodup →
      (placeAll n1 todo st = none ∧ n1 / 2 + 2 ≤ (done ++ todo).length) ∨
        ∃ st1, placeAll n1 todo st = some st1 ∧ Built digest n1 st1 (done ++ todo) := by
  intro todo
  induction todo with
  | nil =>
    intro st done h _ _
    exact Or.inr ⟨st, rfl, by simpa using h⟩
  | cons e todo ih =>
    intro st done h hhash hnd
    have hnew : e.2.1 ∉ done.map (fun d => d.2.1) := by
      intro hmem
      rw [List.map_append, List.map_cons] at hnd
      have := (List.nodup_append.mp hnd).2.2
      exact this hmem (List.mem_cons_self _ _)
    rcases c1_built_step h e (hhash e (List.mem_cons_self _ _)) hnew with ⟨h1, h2⟩ | ⟨st1, h1, h2⟩
    · left
      refine ⟨by simp only [placeAll, h1], ?_⟩
      simp only [List.length_append, List.length_cons]
      omega
    · have hdt : done ++ e :: todo = (done ++ [e]) ++ todo := by simp
      rw [hdt] at hnd ⊢
      rcases ih st1 (done ++ [e]) h2 (fun x hx => hhash x (List.mem_cons_of_mem _ hx)) hnd with
        ⟨h3, h4⟩ | ⟨st2, h3, h4⟩
      · exact Or.inl ⟨by simp only [placeAll, h1, h3], h4⟩
      · exact Or.inr ⟨st2, by simp only [placeAll, h1, h3], h4⟩

theorem c1_filledCount_replicate (n : Nat) :
    filledCount (List.replicate n (default : Bucket K V)) = 0 := by
  unfold filledCount
  rw [List.countP_eq_zero]
  intro a ha
  rw [List.eq_of_mem_replicate ha]
  simp only [Bool.not_eq_true]
  rfl

/-- The table under construction before the first entry is placed. -/
theorem c1_built_init (digest : K → Nat) (n1 : Nat) (hn : 0 < n1) :
    Built digest n1
      (List.replicate n1 (default : Bucket K V), List.replicate (n1 / 2) (default : Elem K V), 0)
      [] := by
  have hat : ∀ j, elemAt (linkFree (n1 / 2 - 1 - 0) 0
      (List.replicate (n1 / 2) (default : Elem K V))) j =
      if 0 ≤ j ∧ j < 0 + (n1 / 2 - 1 - 0) then
        ⟨some (j + 1), (elemAt (List.replicate (n1 / 2) (default : Elem K V)) j).hash,
          (elemAt (List.replicate (n1 / 2) (default : Elem K V)) j).key,
          (elemAt (List.replicate (n1 / 2) (default : Elem K V)) j).value⟩
      else elemAt (List.replicate (n1 / 2) (default : Elem K V)) j :=
    fun j => c0_elemAt_linkFree _ _ _ (by simp) j
  have hdef : ∀ p, (elemAt (List.replicate (n1 / 2) (default : Elem K V)) p).pNext = none := by
    intro p
    unfold elemAt
    rw [List.getD_eq_getElem?_getD, List.getElem?_replicate]
    split <;> rfl
  have hfalse : ∀ b, (bucketAt (List.replicate n1 (default : Bucket K V)) b).filled = false := by
    intro b
    rw [c1_bucketAt_replicate]
    rfl
  have hcontra : ∀ b, (bucketAt (tableOf (List.replicate n1 (default : Bucket K V),
      List.replicate (n1 / 2) (default : Elem K V), 0) 0).buckets b).filled = true → False :=
    fun b hf => Bool.noConfusion ((hfalse b).symm.trans hf)
  refine ⟨by simp, Nat.zero_le _, fun p _ => hdef p, fun _ => [], List.range' 0 (n1 / 2), [],
    ⟨?_, ?_, ?_, ?_, ?_, ?_, ?_, ?_, ?_, ?_, ?_, ?_, ?_, ?_, ?_, ?_, ?_⟩, ⟨?_, ?_, ?_⟩, ?_⟩
  · simp [tableOf, hn]
  · simp [tableOf, c0_length_linkFree]
  · intro b _
    show IsChain _ (bucketAt (List.replicate n1 (default : Bucket K V)) b).pHead []
    rw [c1_bucketAt_replicate]
    rfl
  · intro b _ _; rfl
  · have := c0_isChain_range' (nextOf (tableOf (List.replicate n1 (default : Bucket K V),
        List.replicate (n1 / 2) (default : Elem K V), 0) 0).elemPool) (n1 / 2) (n1 / 2) 0
      (by simp)
      (by
        intro j _ hj
        show (elemAt (linkFree (_ - 1 - 0) 0 _) j).pNext = some (j + 1)
        simp only [List.length_replicate]
        rw [hat, if_pos (by omega)])
      (by
        intro _
        show (elemAt (linkFree (_ - 1 - 0) 0 _) (n1 / 2 - 1)).pNext = none
        simp only [List.length_replicate]
        rw [hat, if_neg (by omega)]
        exact hdef _)
    simpa [tableOf] using this
  · intro b _; exact List.nodup_nil
  · exact List.nodup_range' _ _
  · exact List.nodup_nil
  · intro i; simp
  · intro i hi; simp at hi
  · intro i hi
    simp only [List.not_mem_nil, false_or, List.mem_range'_1] at hi
    simp only [tableOf, c0_length_linkFree, List.length_replicate]
    omega
  · simp [tableOf, c0_length_linkFree]
  · intro b _ i hi; simp at hi
  · intro b _ hf
    exact (hcontra b hf).elim
  · intro i hi; simp at hi
  · intro b _ hf
    exact (hcontra b hf).elim
  · show 0 = filledCount (List.replicate n1 (default : Bucket K V)) + 0
    rw [c1_filledCount_replicate]
  · intro i hi; simp at hi
  · intro b c _ _ hf
    exact (hcontra b hf).elim
  · intro b _ hf
    exact (hcontra b hf).elim
  · intro x w
    simp only [List.not_mem_nil, iff_false]
    rintro (⟨b, _, hf, _⟩ | ⟨i, hi, _⟩)
    · exact hcontra b hf
    · simp at hi

/-! ### The entries of the old table -/

/-- The places of bucket `b` in the order `Rehash` visits them: its inline element
`Sum.inl b`, then the nodes `Sum.inr i` of its chain. -/
def placesAt (bs : List (Bucket K V)) (L : Nat → List Nat) (b : Nat) : List (Nat ⊕ Nat) :=
  if (bucketAt bs b).filled = false then [] else Sum.inl b :: (L b).map Sum.inr

/-- The places of a table in the order `Rehash` visits them. -/
def places (bs : List (Bucket K V)) (L : Nat → List Nat) : List (Nat ⊕ Nat) :=
  (List.range bs.length).flatMap (placesAt bs L)

/-- Hash, key and value stored at a place. -/
def contentOf (bs : List (Bucket K V)) (pool : List (Elem K V)) : Nat ⊕ Nat → Nat × K × V
  | Sum.inl b => ((bucketAt bs b).hash, (bucketAt bs b).key, (bucketAt bs b).value)
  | Sum.inr i => entry pool i

/-- The entries of a table in the order `Rehash` visits them. -/
def entries (t : C1HashTable K V) (L : Nat → List Nat) : List (Nat × K × V) :=
  (List.range t.buckets.length).flatMap
    (fun b => bucketEntries t.elemPool (bucketAt t.buckets b) (L b))

theorem c1_entries_eq (t : C1HashTable K V) (L : Nat → List Nat) :
    entries t L = (places t.buckets L).map (contentOf t.buckets t.elemPool) := by
  unfold entries places
  rw [List.map_flatMap]
  congr 1
  funext b
  unfold bucketEntries placesAt
  split
  · rfl
  · simp only [List.map_cons, List.map_map, contentOf]
    rfl

theorem c1_mem_places_inl {digest : K → Nat} {t : C1HashTable K V} {L : Nat → List Nat}
    {F used : List Nat} (h : Shape digest t L F used) (b : Nat) :
    Sum.inl b ∈ places t.buckets L ↔
      b < t.buckets.length ∧ (bucketAt t.buckets b).filled = true := by
  unfold places placesAt
  simp only [List.mem_flatMap, List.mem_range]
  constructor
  · rintro ⟨c, hc, hm⟩
    split at hm
    · simp at hm
    · rename_i hf
      simp only [List.mem_cons, Sum.inl.injEq, List.mem_map, reduceCtorEq, and_false,
        exists_false, or_false] at hm
      subst hm
      exact ⟨hc, by simpa using hf⟩
  · rintro ⟨hb, hf⟩
    refine ⟨b, hb, ?_⟩
    rw [if_neg (by simp [hf])]
    exact List.mem_cons_self _ _

theorem c1_mem_places_inr {digest : K → Nat} {t : C1HashTable K V} {L : Nat → List Nat}
    {F used : List Nat} (h : Shape digest t L F used) (i : Nat) :
    Sum.inr i ∈ places t.buckets L ↔ i ∈ used := by
  unfold places placesAt
  simp only [List.mem_flatMap, List.mem_range]
  rw [h.used_iff]
  constructor
  · rintro ⟨c, hc, hm⟩
    split at hm
    · simp at hm
    · simp only [List.mem_cons, reduceCtorEq, List.mem_map, Sum.inr.injEq, exists_eq_right,
        false_or] at hm
      exact ⟨c, hc, hm⟩
  · rintro ⟨c, hc, hm⟩
    refine ⟨c, hc, ?_⟩
    have hf : ¬ (bucketAt t.buckets c).filled = false := by
      intro hf
      rw [h.empty c hc hf] at hm
      simp at hm
    rw [if_neg hf]
    simp [hm]

theorem c1_nodup_places {digest : K → Nat} {t : C1HashTable K V} {L : Nat → List Nat}
    {F used : List Nat} (h : Shape digest t L F used) : (places t.buckets L).Nodup := by
  unfold places
  rw [List.nodup_flatMap]
  constructor
  · intro b hb
    unfold placesAt
    split
    · exact List.nodup_nil
    · rw [List.nodup_cons]
      refine ⟨by simp, ?_⟩
      exact List.Nodup.map (fun a b hab => Sum.inr.inj hab) (h.nodupL b (List.mem_range.mp hb))
  · apply List.Nodup.pairwise_of_forall_ne (List.nodup_range _)
    intro a ha b hb hab
    intro p hpa hpb
    unfold placesAt at hpa hpb
    split at hpa
    · simp at hpa
    · split at hpb
      · simp at hpb
      · cases p with
        | inl c =>
          simp only [List.mem_cons, Sum.inl.injEq, List.mem_map, reduceCtorEq, and_false,
            exists_false, or_false] at hpa hpb
          exact hab (hpa.symm.trans hpb)
        | inr i =>
          simp only [List.mem_cons, reduceCtorEq, List.mem_map, Sum.inr.injEq,
            exists_eq_right, false_or] at hpa hpb
          exact hab (c1_chain_disjoint h a b i (List.mem_range.mp ha) (List.mem_range.mp hb)
            hpa hpb)

theorem c1_filledCount_eq (bs : List (Bucket K V)) :
    filledCount bs =
      ((List.range bs.length).filter (fun b => (bucketAt bs b).filled)).length := by
  have hbs : bs = (List.range bs.length).map (bucketAt bs) := by
    apply List.ext_getElem
    · simp
    · intro i h1 h2
      simp [c1_bucketAt_eq_getElem bs i h1]
  unfold filledCount
  conv_lhs => rw [hbs]
  rw [List.countP_map, List.countP_eq_length_filter]
  rfl

theorem c1_length_places {digest : K → Nat} {t : C1HashTable K V} {L : Nat → List Nat}
    {F used : List Nat} (h : Shape digest t L F used) :
    (places t.buckets L).length = t.size := by
  have hperm : (places t.buckets L).Perm
      (((List.range t.buckets.length).filter (fun b => (bucketAt t.buckets b).filled)).map
        Sum.inl ++ used.map Sum.inr) := by
    rw [List.perm_ext_iff_of_nodup (c1_nodup_places h)]
    · intro p
      cases p with
      | inl b =>
        rw [c1_mem_places_inl h]
        simp
      | inr i =>
        rw [c1_mem_places_inr h]
        simp
    · rw [List.nodup_append]
      refine ⟨?_, ?_, ?_⟩
      · exact List.Nodup.map (fun a b hab => Sum.inl.inj hab)
          (List.Nodup.filter _ (List.nodup_range _))
      · exact List.Nodup.map (fun a b hab => Sum.inr.inj hab) h.nodupU
      · intro p hp1 hp2
        simp only [List.mem_map] at hp1 hp2
        obtain ⟨a, _, rfl⟩ := hp1
        obtain ⟨b, _, hb⟩ := hp2
        cases hb
  rw [hperm.length_eq, List.length_append, List.length_map, List.length_map,
    ← c1_filledCount_eq, h.size_eq]

theorem c1_length_entries {digest : K → Nat} {t : C1HashTable K V} {L : Nat → List Nat}
    {F used : List Nat} (h : Shape digest t L F used) : (entries t L).length = t.size := by
  rw [c1_entries_eq, List.length_map, c1_length_places h]

theorem c1_mem_entries {digest : K → Nat} {t : C1HashTable K V} {L : Nat → List Nat}
    {F used : List Nat} (h : Shape digest t L F used) (e : Nat × K × V) :
    e ∈ entries t L ↔
      (∃ b, b < t.buckets.length ∧ (bucketAt t.buckets b).filled = true ∧
        e = ((bucketAt t.buckets b).hash, (bucketAt t.buckets b).key,
          (bucketAt t.buckets b).value)) ∨
      ∃ i ∈ used, e = entry t.elemPool i := by
  rw [c1_entries_eq, List.mem_map]
  constructor
  · rintro ⟨p, hp, rfl⟩
    cases p with
    | inl b =>
      obtain ⟨hb, hf⟩ := (c1_mem_places_inl h b).mp hp
      exact Or.inl ⟨b, hb, hf, rfl⟩
    | inr i => exact Or.inr ⟨i, (c1_mem_places_inr h i).mp hp, rfl⟩
  · rintro (⟨b, hb, hf, rfl⟩ | ⟨i, hi, rfl⟩)
    · exact ⟨Sum.inl b, (c1_mem_places_inl h b).mpr ⟨hb, hf⟩, rfl⟩
    · exact ⟨Sum.inr i, (c1_mem_places_inr h i).mpr hi, rfl⟩

theorem c1_hash_entries {digest : K → Nat} {t : C1HashTable K V} {L : Nat → List Nat}
    {F used : List Nat} (h : Shape digest t L F used) :
    ∀ e ∈ entries t L, e.1 = hashOf digest e.2.1 := by
  intro e he
  rcases (c1_mem_entries h e).mp he with ⟨b, hb, hf, rfl⟩ | ⟨i, hi, rfl⟩
  · exact h.hash_okB b hb hf
  · exact h.hash_ok i hi

theorem c1_holds_entries {digest : K → Nat} {t : C1HashTable K V} {L : Nat → List Nat}
    {F used : List Nat} (h : Shape digest t L F used) (x : K) (w : V) :
    (hashOf digest x, x, w) ∈ entries t L ↔ Holds t used x w := by
  rw [c1_mem_entries h]
  constructor
  · rintro (⟨b, hb, hf, he⟩ | ⟨i, hi, he⟩)
    · simp only [Prod.mk.injEq] at he
      exact Or.inl ⟨b, hb, hf, he.2.1.symm, he.2.2.symm⟩
    · simp only [entry, Prod.mk.injEq] at he
      exact Or.inr ⟨i, hi, he.2.1.symm, he.2.2.symm⟩
  · rintro (⟨b, hb, hf, hk, hv⟩ | ⟨i, hi, hk, hv⟩)
    · refine Or.inl ⟨b, hb, hf, ?_⟩
      rw [h.hash_okB b hb hf, hk, hv]
    · refine Or.inr ⟨i, hi, ?_⟩
      unfold entry
      rw [h.hash_ok i hi, hk, hv]

theorem c1_nodup_entries {digest : K → Nat} {t : C1HashTable K V} {L : Nat → List Nat}
    {F used : List Nat} (h : Shape digest t L F used) (hk : KeysInj t used) :
    ((entries t L).map (fun d => d.2.1)).Nodup := by
  rw [c1_entries_eq, List.map_map]
  apply List.Nodup.map_on _ (c1_nodup_places h)
  intro p hp q hq hpq
  cases p with
  | inl b =>
    obtain ⟨hb, hfb⟩ := (c1_mem_places_inl h b).mp hp
    cases q with
    | inl c =>
      obtain ⟨hc, hfc⟩ := (c1_mem_places_inl h c).mp hq
      rw [hk.slots b c hb hc hfb hfc hpq]
    | inr j =>
      exact absurd hpq (hk.cross b hb hfb j ((c1_mem_places_inr h j).mp hq))
  | inr i =>
    have hi := (c1_mem_places_inr h i).mp hp
    cases q with
    | inl c =>
      obtain ⟨hc, hfc⟩ := (c1_mem_places_inl h c).mp hq
      exact absurd hpq.symm (hk.cross c hc hfc i hi)
    | inr j =>
      rw [hk.nodes i hi j ((c1_mem_places_inr h j).mp hq) hpq]

/-! ### `Rehash` -/

/-- One pass of `Rehash` over a well-formed table either places every entry, or takes
the escape hatch, and then the table has more entries than the new pool has elements. -/
theorem c1_pass_spec {digest : K → Nat} {t : C1HashTable K V} {L : Nat → List Nat}
    {F used : List Nat} (hs : Shape digest t L F used) (hk : KeysInj t used) (n1 : Nat)
    (hn : 0 < n1) :
    (rehashBuckets t.elemPool n1 t.buckets
        (List.replicate n1 default, List.replicate (n1 / 2) default, 0) = Pass.escape ∧
      n1 / 2 + 2 ≤ t.size) ∨
    ∃ st, rehashBuckets t.elemPool n1 t.buckets
        (List.replicate n1 default, List.replicate (n1 / 2) default, 0) = Pass.ok st ∧
      Built digest n1 st (entries t L) := by
  have hloops := c1_rehashBuckets_eq t.elemPool n1 L (bucketAt t.buckets) t.buckets 0
    (List.replicate n1 default, List.replicate (n1 / 2) default, 0)
    (by
      intro i hi
      rw [Nat.zero_add]
      exact ⟨rfl, hs.chain i hi, c1_chain_length_le hs i hi⟩)
  rw [← List.range_eq_range'] at hloops
  change rehashBuckets t.elemPool n1 t.buckets _ = passOf (placeAll n1 (entries t L) _)
    at hloops
  rw [hloops]
  rcases c1_built_fold (entries t L) _ [] (c1_built_init digest n1 hn)
    (c1_hash_entries hs) (by simpa using c1_nodup_entries hs hk) with ⟨h1, h2⟩ | ⟨st, h1, h2⟩
  · left
    rw [h1]
    refine ⟨rfl, ?_⟩
    simp only [List.nil_append] at h2
    rw [c1_length_entries hs] at h2
    exact h2
  · right
    rw [h1]
    exact ⟨st, rfl, by simpa using h2⟩

theorem c1_rehashAux_ok (t : C1HashTable K V) (depth n : Nat)
    (st : List (Bucket K V) × List (Elem K V) × Nat)
    (h : rehashBuckets t.elemPool (max (max n t.size) s_hashTableInitialSize) t.buckets
      (List.replicate (max (max n t.size) s_hashTableInitialSize) default,
        List.replicate (max (max n t.size) s_hashTableInitialSize / 2) default, 0) =
      Pass.ok st) :
    rehashAux t (depth + 1) n = some (tableOf st t.size) := by
  simp only [rehashAux, h]
  rfl

theorem c1_rehashAux_escape (t : C1HashTable K V) (depth n : Nat)
    (h : rehashBuckets t.elemPool (max (max n t.size) s_hashTableInitialSize) t.buckets
      (List.replicate (max (max n t.size) s_hashTableInitialSize) default,
        List.replicate (max (max n t.size) s_hashTableInitialSize / 2) default, 0) =
      Pass.escape) :
    rehashAux t (depth + 1) n =
      rehashAux t depth (max (max n t.size) s_hashTableInitialSize * 2) := by
  simp only [rehashAux, h]

/-- The table `Rehash` installs after a pass that placed every entry. -/
theorem c1_built_table {digest : K → Nat} {t : C1HashTable K V} {L : Nat → List Nat}
    {F used : List Nat} (hs : Shape digest t L F used) (n1 : Nat)
    (st : List (Bucket K V) × List (Elem K V) × Nat)
    (hb : Built digest n1 st (entries t L)) :
    (tableOf st t.size).buckets.length = n1 ∧
      ∃ L1 F1 used1, Shape digest (tableOf st t.size) L1 F1 used1 ∧
        KeysInj (tableOf st t.size) used1 ∧
        ∀ x w, Holds (tableOf st t.size) used1 x w ↔ Holds t used x w := by
  obtain ⟨hlen, _, _, L1, F1, used1, h1, h2, h3⟩ := hb
  rw [c1_length_entries hs] at h1 h2 h3
  refine ⟨hlen, L1, F1, used1, h1, h2, ?_⟩
  intro x w
  rw [h3, c1_holds_entries hs]

/-- `Rehash(n)` on a well-formed table returns, after at most one retry through the
escape hatch, a well-formed table that holds the same entries. -/
theorem c1_Rehash_spec {digest : K → Nat} {t : C1HashTable K V} {L : Nat → List Nat}
    {F used : List Nat} (hs : Shape digest t L F used) (hk : KeysInj t used) (n : Nat) :
    ∃ t1, Rehash t n = some t1 ∧ t1.size = t.size ∧
      (t1.buckets.length = max (max n t.size) s_hashTableInitialSize ∨
        t1.buckets.length = max (max n t.size) s_hashTableInitialSize * 2) ∧
      ∃ L1 F1 used1, Shape digest t1 L1 F1 used1 ∧ KeysInj t1 used1 ∧
        ∀ x w, Holds t1 used1 x w ↔ Holds t used x w := by
  have hn0 : 0 < max (max n t.size) s_hashTableInitialSize := by
    simp [s_hashTableInitialSize]
  unfold Rehash
  rcases c1_pass_spec hs hk _ hn0 with ⟨h1, h2⟩ | ⟨st, h1, h2⟩
  · rw [c1_rehashAux_escape t 63 n h1]
    have hmax : max (max (max (max n t.size) s_hashTableInitialSize * 2) t.size)
        s_hashTableInitialSize = max (max n t.size) s_hashTableInitialSize * 2 := by
      simp only [s_hashTableInitialSize]
      omega
    have hn1 : 0 < max (max n t.size) s_hashTableInitialSize * 2 := by omega
    rcases c1_pass_spec hs hk _ hn1 with ⟨_, h4⟩ | ⟨st, h3, h4⟩
    · exfalso
      have h5 : t.size ≤ max (max n t.size) s_hashTableInitialSize := by omega
      omega
    · rw [← hmax] at h3
      rw [c1_rehashAux_ok t 62 _ st h3]
      obtain ⟨h5, h6⟩ := c1_built_table hs _ st h4
      exact ⟨_, rfl, rfl, Or.inr h5, h6⟩
  · rw [c1_rehashAux_ok t 63 n st h1]
    obtain ⟨h5, h6⟩ := c1_built_table hs _ st h2
    exact ⟨_, rfl, rfl, Or.inl h5, h6⟩
/-! ### The fresh table -/

theorem c1_new_eq : (new : C1HashTable K V) =
    tableOf (List.replicate s_hashTableInitialSize default,
      List.replicate (s_hashTableInitialSize / 2) default, 0) 0 := rfl

theorem c1_wf_new (digest : K → Nat) : WF digest (new : C1HashTable K V) := by
  obtain ⟨_, _, _, L, F, used, hs, hk, _⟩ :=
    c1_built_init (K := K) (V := V) digest s_hashTableInitialSize (by decide)
  exact ⟨L, F, used, hs, hk⟩

theorem c1_Lookup_new (digest : K → Nat) (k : K) :
    Lookup digest (new : C1HashTable K V) k = some none := by
  obtain ⟨_, _, _, L, F, used, hs, hk, hh⟩ :=
    c1_built_init (K := K) (V := V) digest s_hashTableInitialSize (by decide)
  apply c1_Lookup_absent hs k
  intro v hv
  have := (hh k v).mp hv
  simp at this

/-! ### Growth keeps the inline elements apart -/

/-- The bucket of a key the table holds is filled. -/
theorem c1_holds_filled {digest : K → Nat} {t : C1HashTable K V} {L : Nat → List Nat}
    {F used : List Nat} (h : Shape digest t L F used) (k : K) (v : V)
    (hv : Holds t used k v) : (bucketAt t.buckets (bucketOf digest t k)).filled = true := by
  rcases hv with ⟨b, hb, hfill, hbk, _⟩ | ⟨i, hi, hik, _⟩
  · have hbk2 : bucketOf digest t k = b := by
      unfold bucketOf
      rw [← hbk, ← h.hash_okB b hb hfill]
      exact h.homeB b hb hfill
    rw [hbk2]
    exact hfill
  · obtain ⟨b, hb, hib⟩ := (h.used_iff i).mp hi
    have hbk2 : bucketOf digest t k = b := by
      unfold bucketOf
      rw [← hik, ← h.hash_ok i hi]
      exact h.home b hb i hib
    rw [hbk2]
    cases hf : (bucketAt t.buckets b).filled with
    | true => rfl
    | false =>
      rw [h.empty b hb hf] at hib
      simp at hib

theorem c1_mask_mask (x a a1 : Nat) (h : a ≤ a1) :
    (x &&& (2 ^ a1 - 1)) &&& (2 ^ a - 1) = x &&& (2 ^ a - 1) := by
  rw [Nat.and_pow_two_sub_one_eq_mod, Nat.and_pow_two_sub_one_eq_mod,
    Nat.and_pow_two_sub_one_eq_mod]
  exact Nat.mod_mod_of_dvd x (Nat.pow_dvd_pow 2 h)

/-- A table with a power-of-two bucket count that holds the entries of a smaller such
table has at least as many filled buckets: the inline elements of the smaller table
go to distinct buckets. -/
theorem c1_filled_mono {digest : K → Nat} {t t1 : C1HashTable K V} {L L1 : Nat → List Nat}
    {F F1 used used1 : List Nat} (hs : Shape digest t L F used)
    (hs1 : Shape digest t1 L1 F1 used1)
    (hh : ∀ x w, Holds t used x w → Holds t1 used1 x w) (a a1 : Nat)
    (ha : t.buckets.length = 2 ^ a) (ha1 : t1.buckets.length = 2 ^ a1) (hle : a ≤ a1) :
    filledCount t.buckets ≤ filledCount t1.buckets := by
  rw [c1_filledCount_eq, c1_filledCount_eq]
  have hmem : ∀ b, b ∈ (List.range t.buckets.length).filter
      (fun b => (bucketAt t.buckets b).filled) ↔
      b < t.buckets.length ∧ (bucketAt t.buckets b).filled = true := by
    intro b
    simp [List.mem_filter]
  have hsub : ∀ x ∈ ((List.range t.buckets.length).filter
      (fun b => (bucketAt t.buckets b).filled)).map
        (fun b => bucketOf digest t1 (bucketAt t.buckets b).key),
      x ∈ (List.range t1.buckets.length).filter (fun b => (bucketAt t1.buckets b).filled) := by
    intro x hx
    rw [List.mem_map] at hx
    obtain ⟨b, hb, rfl⟩ := hx
    obtain ⟨hb1, hb2⟩ := (hmem b).mp hb
    have h1 := hh _ _ (Or.inl ⟨b, hb1, hb2, rfl, rfl⟩)
    have h2 := c1_holds_filled hs1 _ _ h1
    simp only [List.mem_filter, List.mem_range]
    exact ⟨c1_bucketOf_lt digest t1 _ hs1.pos, h2⟩
  have hnd : (((List.range t.buckets.length).filter
      (fun b => (bucketAt t.buckets b).filled)).map
        (fun b => bucketOf digest t1 (bucketAt t.buckets b).key)).Nodup := by
    apply List.Nodup.map_on _ (List.Nodup.filter _ (List.nodup_range _))
    intro b hb c hc hbc
    obtain ⟨hb1, hb2⟩ := (hmem b).mp hb
    obtain ⟨hc1, hc2⟩ := (hmem c).mp hc
    have hbc2 := congrArg (fun x => x &&& (2 ^ a - 1)) hbc
    simp only [bucketOf, ha1] at hbc2
    rw [c1_mask_mask _ a a1 hle, c1_mask_mask _ a a1 hle, ← hs.hash_okB b hb1 hb2,
      ← hs.hash_okB c hc1 hc2, ← ha, hs.homeB b hb1 hb2, hs.homeB c hc1 hc2] at hbc2
    exact hbc2
  have := (List.Nodup.subperm hnd hsub).length_le
  rw [List.length_map] at this
  exact this

/-! ### `Insert` -/

/-- The two ways `Insert` stores the new entry: inline, or in the element at the head
of the free list. -/
theorem c1_place_spec {digest : K → Nat} {t : C1HashTable K V} {L : Nat → List Nat}
    {F used : List Nat} (hs : Shape digest t L F used) (hk : KeysInj t used) (k : K) (v : V)
    (hnew : ∀ w, ¬ Holds t used k w)
    (hfree : (bucketAt t.buckets (bucketOf digest t k)).filled = true →
      ∃ e, t.pElemFreeHead = some e) :
    ∃ t1, (if (bucketAt t.buckets (bucketOf digest t k)).filled = false then
          some (storeInline t (bucketOf digest t k) (hashOf digest k) k v)
        else grabElem t (bucketOf digest t k) (hashOf digest k) k v) = some t1 ∧
      t1.buckets.length = t.buckets.length ∧
      ∃ L1 F1 used1, Shape digest t1 L1 F1 used1 ∧ KeysInj t1 used1 ∧
        ∀ x w, Holds t1 used1 x w ↔ (x = k ∧ w = v) ∨ Holds t used x w := by
  cases hfill : (bucketAt t.buckets (bucketOf digest t k)).filled with
  | false =>
    obtain ⟨h1, h2, h3⟩ := c1_storeInline_spec hs hk k v hfill hnew
    exact ⟨_, by rw [if_pos rfl], by simp [storeInline], L, F, used, h1, h2, h3⟩
  | true =>
    obtain ⟨e, he⟩ := hfree hfill
    obtain ⟨t1, ht1, h1, h2, h3⟩ := c1_grabElem_spec hs hk e he k v hfill hnew
    refine ⟨t1, by rw [if_neg (by simp)]; exact ht1, ?_, _, _, _, h1, h2, h3⟩
    simp only [grabElem, he, Option.some.injEq] at ht1
    rw [← ht1]
    simp

/-- Well-formedness of the tables `Insert` and `Remove` build from a fresh one: the
bucket count is a power of two. -/
def WF2 (digest : K → Nat) (t : C1HashTable K V) : Prop :=
  WF digest t ∧ ∃ a, 4 ≤ a ∧ t.buckets.length = 2 ^ a

theorem c1_filledCount_le (bs : List (Bucket K V)) : filledCount bs ≤ bs.length :=
  List.countP_le_length _

theorem c1_Insert_spec (digest : K → Nat) {t : C1HashTable K V} (h : WF2 digest t) (k : K)
    (v : V) (hkn : Lookup digest t k = some none) :
    ∃ t1, Insert digest t k v = some t1 ∧ WF2 digest t1 ∧
      ∀ x, Lookup digest t1 x = if x = k then some (some v) else Lookup digest t x := by
  obtain ⟨⟨L, F, used, hs, hk⟩, a, ha4, ha⟩ := h
  have hnew : ∀ w, ¬ Holds t used k w := by
    intro w hw
    have := c1_Lookup_holds hs hk k w hw
    rw [hkn] at this
    cases this
  -- what remains once the entry is stored
  have hfinish : ∀ (t0 t1 : C1HashTable K V) (L0 F0 used0 L1 F1 used1 : _),
      Shape digest t0 L0 F0 used0 → KeysInj t0 used0 →
      (∀ x w, Holds t0 used0 x w ↔ Holds t used x w) →
      Shape digest t1 L1 F1 used1 → KeysInj t1 used1 →
      (∀ x w, Holds t1 used1 x w ↔ (x = k ∧ w = v) ∨ Holds t0 used0 x w) →
      ∀ x, Lookup digest t1 x = if x = k then some (some v) else Lookup digest t x := by
    intro t0 t1 L0 F0 used0 L1 F1 used1 hs0 hk0 hh0 hs1 hk1 hh1 x
    by_cases hx : x = k
    · rw [if_pos hx, hx]
      exact c1_Lookup_holds hs1 hk1 k v ((hh1 k v).mpr (Or.inl ⟨rfl, rfl⟩))
    · rw [if_neg hx]
      apply c1_Lookup_congr hs hk hs1 hk1
      intro w
      rw [hh1, hh0]
      constructor
      · rintro (⟨e1, _⟩ | hw)
        · exact absurd e1 hx
        · exact hw
      · exact Or.inr
  have hunf : Insert digest t k v =
      if (bucketAt t.buckets (bucketOf digest t k)).filled = false then
        some (storeInline t (bucketOf digest t k) (hashOf digest k) k v)
      else
        match t.pElemFreeHead with
        | none =>
          match Rehash t (t.buckets.length * 2) with
          | none => none
          | some t1 =>
            if (bucketAt t1.buckets (bucketOf digest t1 k)).filled = false then
              some (storeInline t1 (bucketOf digest t1 k) (hashOf digest k) k v)
            else grabElem t1 (bucketOf digest t1 k) (hashOf digest k) k v
        | some _ => grabElem t (bucketOf digest t k) (hashOf digest k) k v := rfl
  rw [hunf]
  cases hfree : t.pElemFreeHead with
  | some e =>
    obtain ⟨t1, h1, h2, L1, F1, used1, h3, h4, h5⟩ :=
      c1_place_spec hs hk k v hnew (fun _ => ⟨e, hfree⟩)
    refine ⟨t1, ?_, ⟨⟨L1, F1, used1, h3, h4⟩, a, ha4, by rw [h2]; exact ha⟩,
      hfinish t t1 L F used L1 F1 used1 hs hk (fun _ _ => Iff.rfl) h3 h4 h5⟩
    rw [← h1]
  | none =>
    by_cases hfill : (bucketAt t.buckets (bucketOf digest t k)).filled = false
    · obtain ⟨t1, h1, h2, L1, F1, used1, h3, h4, h5⟩ :=
        c1_place_spec hs hk k v hnew (fun hf => by rw [hfill] at hf; cases hf)
      refine ⟨t1, ?_, ⟨⟨L1, F1, used1, h3, h4⟩, a, ha4, by rw [h2]; exact ha⟩,
        hfinish t t1 L F used L1 F1 used1 hs hk (fun _ _ => Iff.rfl) h3 h4 h5⟩
      rw [← h1, if_pos hfill, if_pos hfill]
    · rw [if_neg hfill]
      simp only
      -- the free list is empty: every element of the pool is in a chain
      have hF : F = [] := by
        have hfr := hs.free
        rw [hfree] at hfr
        cases F with
        | nil => rfl
        | cons x F1 => cases hfr.1
      have hcov := hs.cover
      rw [hF] at hcov
      simp only [List.length_nil, Nat.zero_add] at hcov
      have hpl := hs.pool_len
      have hsz := hs.size_eq
      have hfl := c1_filledCount_le t.buckets
      have hpow : 16 ≤ t.buckets.length := by
        rw [ha]
        calc 16 = 2 ^ 4 := rfl
          _ ≤ 2 ^ a := Nat.pow_le_pow_right (by decide) ha4
      have hmax : max (max (t.buckets.length * 2) t.size) s_hashTableInitialSize =
          t.buckets.length * 2 := by
        simp only [s_hashTableInitialSize]
        omega
      obtain ⟨t0, h0, hsz0, hlen0, L0, F0, used0, hs0, hk0, hh0⟩ :=
        c1_Rehash_spec hs hk (t.buckets.length * 2)
      rw [hmax] at hlen0
      obtain ⟨a0, ha0le, ha0⟩ : ∃ a0, a + 1 ≤ a0 ∧ t0.buckets.length = 2 ^ a0 := by
        rcases hlen0 with h | h
        · exact ⟨a + 1, le_refl _, by rw [h, ha, pow_succ]⟩
        · exact ⟨a + 2, by omega, by rw [h, ha, pow_succ, pow_succ]⟩
      have hmono := c1_filled_mono hs hs0 (fun x w hw => (hh0 x w).mpr hw) a a0 ha ha0
        (by omega)
      have hlen0le : t.buckets.length * 2 ≤ t0.buckets.length := by
        rcases hlen0 with h | h <;> omega
      have hfree0 : ∃ e, t0.pElemFreeHead = some e := by
        have hcov0 := hs0.cover
        have hpl0 := hs0.pool_len
        have hsz1 := hs0.size_eq
        have hFpos : 0 < F0.length := by omega
        have hfr := hs0.free
        cases hF0 : F0 with
        | nil => rw [hF0] at hFpos; simp at hFpos
        | cons e F1 =>
          rw [hF0] at hfr
          exact ⟨e, hfr.1⟩
      have hnew0 : ∀ w, ¬ Holds t0 used0 k w := fun w hw => hnew w ((hh0 k w).mp hw)
      obtain ⟨t1, h1, h2, L1, F1, used1, h3, h4, h5⟩ :=
        c1_place_spec hs0 hk0 k v hnew0 (fun _ => hfree0)
      refine ⟨t1, ?_, ⟨⟨L1, F1, used1, h3, h4⟩, a0, by omega, by rw [h2]; exact ha0⟩,
        hfinish t0 t1 L0 F0 used0 L1 F1 used1 hs0 hk0 hh0 h3 h4 h5⟩
      rw [h0]
      exact h1

/-! ### Sequences of calls -/

theorem c1_Remove_length (digest : K → Nat) (t t1 : C1HashTable K V) (k : K) (r : Bool)
    (h : Remove digest t k = some (t1, r)) : t1.buckets.length = t.buckets.length := by
  unfold Remove at h
  simp only at h
  repeat' split at h
  all_goals cases h
  all_goals first
    | rfl
    | simp [release]

/-- What `Lookup` finds, once it has returned. -/
def view (digest : K → Nat) (t : C1HashTable K V) (k : K) : Option V :=
  (Lookup digest t k).join

theorem c1_wf2_new (digest : K → Nat) : WF2 digest (new : C1HashTable K V) :=
  ⟨c1_wf_new digest, 4, le_refl 4, by simp [new, s_hashTableInitialSize]⟩

/-- Every table reached from a fresh one by a duplicate-free sequence of calls is
well formed and agrees with the finite map of the sequence. -/
theorem c1_run_spec (digest : K → Nat) (ops : List (Op K V))
    (hd : Model.dupFree Model.empty ops = true) :
    ∃ t, run digest new ops = some (t, Model.removes Model.empty ops) ∧ WF2 digest t ∧
      ∀ k, Lookup digest t k = some (Model.run Model.empty ops k) := by
  have hsim := runOps_sim (WF2 digest) (view digest) (Insert digest) (Remove digest)
    (by
      intro t k v hw hk
      obtain ⟨r, hr⟩ := c1_Lookup_total hw.1 k
      have hr2 : Lookup digest t k = some none := by
        unfold view at hk
        rw [hr] at hk ⊢
        cases r with
        | none => rfl
        | some a => simp at hk
      obtain ⟨t1, h1, hw1, hl1⟩ := c1_Insert_spec digest hw k v hr2
      refine ⟨t1, h1, hw1, ?_⟩
      intro x
      unfold view
      rw [hl1]
      split <;> rfl)
    (by
      intro t k hw
      obtain ⟨t1, h1, hw1, hl1⟩ := c1_Remove_spec digest hw.1 k
      obtain ⟨a, ha4, ha⟩ := hw.2
      refine ⟨t1, h1, ⟨hw1, a, ha4, ?_⟩, ?_⟩
      · rw [c1_Remove_length digest t t1 k _ h1]
        exact ha
      · intro x
        unfold view
        rw [hl1]
        split <;> rfl)
    ops new Model.empty (c1_wf2_new digest)
    (by intro x; unfold view; rw [c1_Lookup_new]; rfl) hd
  obtain ⟨t, h1, hw, hl⟩ := hsim
  refine ⟨t, h1, hw, ?_⟩
  intro k
  obtain ⟨r, hr⟩ := c1_Lookup_total hw.1 k
  have := hl k
  unfold view at this
  rw [hr] at this ⊢
  rw [← this]
  rfl

/-- `Rehash(n)` keeps what `Lookup` returns, for every well-formed table. -/
theorem c1_Rehash_lookup {digest : K → Nat} {t : C1HashTable K V} (h : WF digest t) (n : Nat) :
    ∃ t1, Rehash t n = some t1 ∧ WF digest t1 ∧
      ∀ k, Lookup digest t1 k = Lookup digest t k := by
  obtain ⟨L, F, used, hs, hk⟩ := h
  obtain ⟨t1, h1, _, _, L1, F1, used1, hs1, hk1, hh⟩ := c1_Rehash_spec hs hk n
  exact ⟨t1, h1, ⟨L1, F1, used1, hs1, hk1⟩,
    fun k => c1_Lookup_congr hs hk hs1 hk1 k (fun v => hh k v)⟩

/-! ### Every reachable table -/

/-- An `Insert` that returns keeps the table well formed, also when the bucket count is
not a power of two. -/
theorem c1_Insert_ok (digest : K → Nat) {t t1 : C1HashTable K V} (h : WF digest t) (k : K)
    (v : V) (hkn : Lookup digest t k = some none) (hins : Insert digest t k v = some t1) :
    WF digest t1 ∧
      ∀ x, Lookup digest t1 x = if x = k then some (some v) else Lookup digest t x := by
  obtain ⟨L, F, used, hs, hk⟩ := h
  have hnew : ∀ w, ¬ Holds t used k w := by
    intro w hw
    have := c1_Lookup_holds hs hk k w hw
    rw [hkn] at this
    cases this
  have hfinish : ∀ (t0 t1 : C1HashTable K V) (L0 F0 used0 L1 F1 used1 : _),
      Shape digest t0 L0 F0 used0 → KeysInj t0 used0 →
      (∀ x w, Holds t0 used0 x w ↔ Holds t used x w) →
      Shape digest t1 L1 F1 used1 → KeysInj t1 used1 →
      (∀ x w, Holds t1 used1 x w ↔ (x = k ∧ w = v) ∨ Holds t0 used0 x w) →
      ∀ x, Lookup digest t1 x = if x = k then some (some v) else Lookup digest t x := by
    intro t0 t1 L0 F0 used0 L1 F1 used1 hs0 hk0 hh0 hs1 hk1 hh1 x
    by_cases hx : x = k
    · rw [if_pos hx, hx]
      exact c1_Lookup_holds hs1 hk1 k v ((hh1 k v).mpr (Or.inl ⟨rfl, rfl⟩))
    · rw [if_neg hx]
      apply c1_Lookup_congr hs hk hs1 hk1
      intro w
      rw [hh1, hh0]
      constructor
      · rintro (⟨e1, _⟩ | hw)
        · exact absurd e1 hx
        · exact hw
      · exact Or.inr
  have hunf : Insert digest t k v =
      if (bucketAt t.buckets (bucketOf digest t k)).filled = false then
        some (storeInline t (bucketOf digest t k) (hashOf digest k) k v)
      else
        match t.pElemFreeHead with
        | none =>
          match Rehash t (t.buckets.length * 2) with
          | none => none
          | some t1 =>
            if (bucketAt t1.buckets (bucketOf digest t1 k)).filled = false then
              some (storeInline t1 (bucketOf digest t1 k) (hashOf digest k) k v)
            else grabElem t1 (bucketOf digest t1 k) (hashOf digest k) k v
        | some _ => grabElem t (bucketOf digest t k) (hashOf digest k) k v := rfl
  rw [hunf] at hins
  -- the entry is stored in the table `t0`, which is `t` or `t` after `Rehash`
  have hstore : ∀ (t0 : C1HashTable K V) (L0 F0 used0 : _), Shape digest t0 L0 F0 used0 →
      KeysInj t0 used0 → (∀ x w, Holds t0 used0 x w ↔ Holds t used x w) →
      (if (bucketAt t0.buckets (bucketOf digest t0 k)).filled = false then
          some (storeInline t0 (bucketOf digest t0 k) (hashOf digest k) k v)
        else grabElem t0 (bucketOf digest t0 k) (hashOf digest k) k v) = some t1 →
      WF digest t1 ∧
        ∀ x, Lookup digest t1 x = if x = k then some (some v) else Lookup digest t x := by
    intro t0 L0 F0 used0 hs0 hk0 hh0 hst
    have hfree : (bucketAt t0.buckets (bucketOf digest t0 k)).filled = true →
        ∃ e, t0.pElemFreeHead = some e := by
      intro hfill
      rw [if_neg (by simp [hfill])] at hst
      cases hf : t0.pElemFreeHead with
      | none => simp [grabElem, hf] at hst
      | some e => exact ⟨e, rfl⟩
    obtain ⟨t2, h1, _, L1, F1, used1, h3, h4, h5⟩ :=
      c1_place_spec hs0 hk0 k v (fun w hw => hnew w ((hh0 k w).mp hw)) hfree
    rw [h1] at hst
    have e : t2 = t1 := Option.some.inj hst
    rw [← e]
    exact ⟨⟨L1, F1, used1, h3, h4⟩,
      hfinish t0 t2 L0 F0 used0 L1 F1 used1 hs0 hk0 hh0 h3 h4 h5⟩
  by_cases hfill : (bucketAt t.buckets (bucketOf digest t k)).filled = false
  · exact hstore t L F used hs hk (fun _ _ => Iff.rfl) (by rw [if_pos hfill] at hins ⊢; exact hins)
  · rw [if_neg hfill] at hins
    cases hfree : t.pElemFreeHead with
    | some e =>
      rw [hfree] at hins
      exact hstore t L F used hs hk (fun _ _ => Iff.rfl) (by rw [if_neg hfill]; exact hins)
    | none =>
      rw [hfree] at hins
      obtain ⟨t0, h0, _, _, L0, F0, used0, hs0, hk0, hh0⟩ :=
        c1_Rehash_spec hs hk (t.buckets.length * 2)
      rw [h0] at hins
      exact hstore t0 L0 F0 used0 hs0 hk0 hh0 hins

theorem c1_Reset_eq (t : C1HashTable K V) : Reset t = new := rfl

/-- `Reserve(n)` keeps what `Lookup` returns, for every well-formed table. -/
theorem c1_Reserve_lookup {digest : K → Nat} {t : C1HashTable K V} (h : WF digest t)
    (n : Nat) :
    ∃ t1, Reserve t n = some t1 ∧ WF digest t1 ∧
      ∀ k, Lookup digest t1 k = Lookup digest t k := by
  unfold Reserve
  exact c1_Rehash_lookup h _

/-- Every table reached from a well-formed one by calls that return, none of them an
`Insert` of a live key, is well formed and agrees with the finite map of the calls. -/
theorem c1_calls_spec (digest : K → Nat) :
    ∀ (calls : List (Call K V)) (t t1 : C1HashTable K V) (m : K → Option V), WF digest t →
      (∀ x, Lookup digest t x = some (m x)) → oneLive m calls = true →
      runCalls digest t calls = some t1 →
      WF digest t1 ∧ ∀ x, Lookup digest t1 x = some (mapAfter m calls x) := by
  intro calls
  induction calls with
  | nil =>
    intro t t1 m hw hl _ hrun
    simp only [runCalls, Option.some.injEq] at hrun
    subst hrun
    exact ⟨hw, hl⟩
  | cons c rest ih =>
    intro t t1 m hw hl hone hrun
    cases c with
    | insert k v =>
      simp only [oneLive, Bool.and_eq_true, Option.isNone_iff_eq_none] at hone
      simp only [runCalls] at hrun
      cases hi : Insert digest t k v with
      | none => rw [hi] at hrun; cases hrun
      | some t2 =>
        rw [hi] at hrun
        obtain ⟨hw2, hl2⟩ := c1_Insert_ok digest hw k v (by rw [hl, hone.1]) hi
        refine ih t2 t1 _ hw2 ?_ hone.2 hrun
        intro x
        rw [hl2, hl]
        split <;> rfl
    | remove k =>
      simp only [oneLive] at hone
      simp only [runCalls] at hrun
      obtain ⟨t2, h2, hw2, hl2⟩ := c1_Remove_spec digest hw k
      rw [h2] at hrun
      refine ih t2 t1 _ hw2 ?_ hone hrun
      intro x
      rw [hl2, hl]
      split <;> rfl
    | reserve n =>
      simp only [oneLive] at hone
      simp only [runCalls] at hrun
      obtain ⟨t2, h2, hw2, hl2⟩ := c1_Reserve_lookup hw n
      rw [h2] at hrun
      exact ih t2 t1 m hw2 (fun x => by rw [hl2, hl]) hone hrun
    | rehash n =>
      simp only [oneLive] at hone
      simp only [runCalls] at hrun
      obtain ⟨t2, h2, hw2, hl2⟩ := c1_Rehash_lookup hw n
      rw [h2] at hrun
      exact ih t2 t1 m hw2 (fun x => by rw [hl2, hl]) hone hrun
    | reset =>
      simp only [oneLive] at hone
      simp only [runCalls] at hrun
      exact ih (Reset t) t1 _ (c1_wf_new digest) (fun x => c1_Lookup_new digest x) hone hrun

/-! ### The free list under insertions of arbitrary keys -/

/-- The free list of a table, whatever its chains hold: `F` lists the nodes reached from
`pElemFreeHead`, which are distinct nodes of the pool. -/
structure FreeList (t : C1HashTable K V) (F : List Nat) : Prop where
  pos : 0 < t.buckets.length
  chain : IsChain (nextOf t.elemPool) t.pElemFreeHead F
  nodup : F.Nodup
  bound : ∀ i ∈ F, i < t.elemPool.length

theorem c1_freeList_of_shape {digest : K → Nat} {t : C1HashTable K V} {L : Nat → List Nat}
    {F used : List Nat} (h : Shape digest t L F used) : FreeList t F :=
  ⟨h.pos, h.free, h.nodupF, fun i hi => h.bound i (Or.inr hi)⟩

/-- `Insert` with a node on the free list whenever the bucket of the key is filled: no
growth, and the free list loses at most its head. -/
theorem c1_Insert_free (digest : K → Nat) {t : C1HashTable K V} {F : List Nat}
    (h : FreeList t F) (k : K) (v : V)
    (hroom : (bucketAt t.buckets (bucketOf digest t k)).filled = true → F ≠ []) :
    ∃ t1 F1, Insert digest t k v = some t1 ∧ FreeList t1 F1 ∧
      t1.buckets.length = t.buckets.length ∧ t1.elemPool.length = t.elemPool.length ∧
      t1.size = t.size + 1 ∧ 0 < filledCount t1.buckets ∧
      (if (bucketAt t.buckets (bucketOf digest t k)).filled = true then F1.length + 1 = F.length
        else F1 = F) := by
  have hb := c1_bucketOf_lt digest t k h.pos
  have hunf : Insert digest t k v =
      if (bucketAt t.buckets (bucketOf digest t k)).filled = false then
        some (storeInline t (bucketOf digest t k) (hashOf digest k) k v)
      else
        match t.pElemFreeHead with
        | none =>
          match Rehash t (t.buckets.length * 2) with
          | none => none
          | some t1 =>
            if (bucketAt t1.buckets (bucketOf digest t1 k)).filled = false then
              some (storeInline t1 (bucketOf digest t1 k) (hashOf digest k) k v)
            else grabElem t1 (bucketOf digest t1 k) (hashOf digest k) k v
        | some _ => grabElem t (bucketOf digest t k) (hashOf digest k) k v := rfl
  rw [hunf]
  cases hfill : (bucketAt t.buckets (bucketOf digest t k)).filled with
  | false =>
    refine ⟨storeInline t (bucketOf digest t k) (hashOf digest k) k v, F, by rw [if_pos rfl],
      ⟨by simpa [storeInline] using h.pos, h.chain, h.nodup, h.bound⟩, by simp [storeInline],
      rfl, rfl, ?_, by simp⟩
    apply c1_filledCount_pos _ (bucketOf digest t k) (by simpa [storeInline] using hb)
    simp only [storeInline]
    rw [c1_bucketAt_set _ _ _ _ hb, if_pos rfl]
  | true =>
    obtain ⟨e, F1, hF⟩ : ∃ e F1, F = e :: F1 := by
      cases F with
      | nil => exact absurd rfl (hroom hfill)
      | cons e F1 => exact ⟨e, F1, rfl⟩
    subst hF
    have hch := h.chain
    have he : t.pElemFreeHead = some e := hch.1
    have hepool : e < t.elemPool.length := h.bound e (List.mem_cons_self _ _)
    have heF : e ∉ F1 := (List.nodup_cons.mp h.nodup).1
    rw [if_neg (by simp), he]
    simp only [grabElem, he]
    refine ⟨_, F1, rfl, ⟨by simpa using h.pos, ?_, (List.nodup_cons.mp h.nodup).2, ?_⟩,
      by simp, by simp, rfl, ?_, by simp⟩
    · simp only
      rw [c0_nextOf_set _ _ _ hepool]
      exact isChain_update e _ heF hch.2
    · intro i hi
      simp only [List.length_set]
      exact h.bound i (List.mem_cons_of_mem _ hi)
    · apply c1_filledCount_pos _ (bucketOf digest t k) (by simpa using hb)
      simp only
      rw [c1_bucketAt_set _ _ _ _ hb, if_pos rfl]
      exact hfill

/-- Insertions while the pool has a free node for every insertion but the first that
fills a bucket: no growth. -/
theorem c1_inserts_free (digest : K → Nat) :
    ∀ (kvs : List (K × V)) (t : C1HashTable K V) (F : List Nat), FreeList t F →
      t.elemPool.length + min 1 (filledCount t.buckets) ≤ F.length + t.size →
      t.size + kvs.length ≤ t.elemPool.length + 1 →
      ∃ t1, runCalls digest t (inserts kvs) = some t1 ∧
        t1.buckets.length = t.buckets.length ∧ t1.size = t.size + kvs.length := by
  intro kvs
  induction kvs with
  | nil => exact fun t F _ _ _ => ⟨t, rfl, rfl, rfl⟩
  | cons p rest ih =>
    intro t F h hpot hfit
    simp only [List.length_cons] at hfit
    have hroom : (bucketAt t.buckets (bucketOf digest t p.1)).filled = true → F ≠ [] := by
      intro hf
      have hpos := c1_filledCount_pos t.buckets (bucketOf digest t p.1)
        (c1_bucketOf_lt digest t p.1 h.pos) hf
      intro e
      rw [e] at hpot
      simp only [List.length_nil] at hpot
      omega
    obtain ⟨t1, F1, h1, hf1, hlen1, hpl1, hsz1, hfc1, hF1⟩ := c1_Insert_free digest h p.1 p.2 hroom
    have hpot1 : t1.elemPool.length + min 1 (filledCount t1.buckets) ≤ F1.length + t1.size := by
      rw [hpl1, hsz1]
      by_cases hf : (bucketAt t.buckets (bucketOf digest t p.1)).filled = true
      · rw [if_pos hf] at hF1
        have hpos := c1_filledCount_pos t.buckets (bucketOf digest t p.1)
          (c1_bucketOf_lt digest t p.1 h.pos) hf
        omega
      · rw [if_neg hf] at hF1
        rw [hF1]
        omega
    obtain ⟨t2, h2, hlen2, hsz2⟩ := ih t1 F1 hf1 hpot1 (by rw [hsz1, hpl1]; omega)
    refine ⟨t2, ?_, by rw [hlen2, hlen1], by rw [hsz2, hsz1, List.length_cons]; omega⟩
    simp only [inserts, List.map_cons, runCalls, h1]
    exact h2

/-- `Rehash(n)` on a well-formed table with at most `max(n, size, 16) / 2 + 1` entries
places every entry in its first pass: the escape hatch is not taken. -/
theorem c1_Rehash_exact {digest : K → Nat} {t : C1HashTable K V} {L : Nat → List Nat}
    {F used : List Nat} (hs : Shape digest t L F used) (hk : KeysInj t used) (n : Nat)
    (hsz : t.size ≤ max (max n t.size) s_hashTableInitialSize / 2 + 1) :
    ∃ t1, Rehash t n = some t1 ∧ t1.size = t.size ∧
      t1.buckets.length = max (max n t.size) s_hashTableInitialSize ∧
      ∃ L1 F1 used1, Shape digest t1 L1 F1 used1 ∧ KeysInj t1 used1 ∧
        ∀ x w, Holds t1 used1 x w ↔ Holds t used x w := by
  have hn0 : 0 < max (max n t.size) s_hashTableInitialSize := by
    simp [s_hashTableInitialSize]
  unfold Rehash
  rcases c1_pass_spec hs hk _ hn0 with ⟨_, h2⟩ | ⟨st, h1, h2⟩
  · omega
  · rw [c1_rehashAux_ok t 63 n st h1]
    obtain ⟨h5, h6⟩ := c1_built_table hs _ st h2
    exact ⟨_, rfl, rfl, h5, h6⟩

/-- `Reserve(n)` on a fresh table returns a table without entries whose free list holds
the whole pool, half as many nodes as there are buckets. -/
theorem c1_Reserve_new (digest : K → Nat) (n : Nat) :
    ∃ t0 F, Reserve (new : C1HashTable K V) n = some t0 ∧ FreeList t0 F ∧ t0.size = 0 ∧
      t0.buckets.length = max (smear n) s_hashTableInitialSize ∧
      t0.elemPool.length = t0.buckets.length / 2 ∧ F.length = t0.elemPool.length ∧
      filledCount t0.buckets = 0 := by
  obtain ⟨L, F, used, hs, hk⟩ := c1_wf_new (K := K) (V := V) digest
  have hsz0 : (new : C1HashTable K V).size = 0 := rfl
  obtain ⟨t0, h0, hsz, hlen, L1, F1, used1, hs1, _, _⟩ := c1_Rehash_exact hs hk (smear n)
    (by rw [hsz0]; omega)
  rw [hsz0] at hsz hlen
  have hse := hs1.size_eq
  have hcov := hs1.cover
  refine ⟨t0, F1, h0, c1_freeList_of_shape hs1, hsz, ?_, hs1.pool_len, ?_, ?_⟩
  · rw [hlen, Nat.max_zero]
  · omega
  · omega

/-! ### Tables that hold a key several times: tagged keys

`Insert`, `Rehash` and `Reset` never compare keys, and `Remove(k)` takes out the first
entry whose key is `k`. A table that holds a key several times is therefore the image
of a table whose keys carry distinct tags, under the map that forgets the tags, and
what is proved of tables with at most one entry per key carries over. -/

/-- A bucket without the tag of its key. -/
def untagB (b : Bucket (K × Nat) V) : Bucket K V :=
  ⟨b.pHead, b.hash, b.filled, b.key.1, b.value⟩

/-- An element without the tag of its key. -/
def untagE (e : Elem (K × Nat) V) : Elem K V := ⟨e.pNext, e.hash, e.key.1, e.value⟩

/-- A table without the tags of its keys. -/
def untag (t : C1HashTable (K × Nat) V) : C1HashTable K V :=
  { buckets := t.buckets.map untagB, elemPool := t.elemPool.map untagE,
    pElemFreeHead := t.pElemFreeHead, size := t.size }

/-- A state of `Rehash` without the tags of its keys. -/
def untagS (st : List (Bucket (K × Nat) V) × List (Elem (K × Nat) V) × Nat) :
    List (Bucket K V) × List (Elem K V) × Nat :=
  (st.1.map untagB, st.2.1.map untagE, st.2.2)

/-- The digest of a tagged key is the digest of the key. -/
def tagged (digest : K → Nat) : K × Nat → Nat := fun p => digest p.1

/-- The outcome of a pass under a map of the states. -/
def passMap {σ τ : Type} (f : σ → τ) : Pass σ → Pass τ
  | Pass.ok st => Pass.ok (f st)
  | Pass.escape => Pass.escape
  | Pass.stuck => Pass.stuck

theorem c1_untag_bucketAt (bs : List (Bucket (K × Nat) V)) (i : Nat) :
    bucketAt (bs.map untagB) i = untagB (bucketAt bs i) :=
  List.getD_map bs default untagB

theorem c1_untag_elemAt (pool : List (Elem (K × Nat) V)) (i : Nat) :
    elemAt (pool.map untagE) i = untagE (elemAt pool i) :=
  List.getD_map pool default untagE

theorem c1_untag_nextOf (pool : List (Elem (K × Nat) V)) :
    nextOf (pool.map untagE) = nextOf pool := by
  funext i
  unfold nextOf
  rw [c1_untag_elemAt]
  rfl

theorem c1_untag_linkFree :
    ∀ (cnt i : Nat) (pool : List (Elem (K × Nat) V)),
      linkFree cnt i (pool.map untagE) = (linkFree cnt i pool).map untagE := by
  intro cnt
  induction cnt with
  | zero => intro i pool; rfl
  | succ cnt ih =>
    intro i pool
    simp only [linkFree]
    rw [← ih, List.map_set, c1_untag_elemAt]
    rfl

theorem c1_untag_placeEntry (n : Nat)
    (st : List (Bucket (K × Nat) V) × List (Elem (K × Nat) V) × Nat) (hash : Nat)
    (k : K × Nat) (v : V) :
    placeEntry n (untagS st) hash k.1 v = (placeEntry n st hash k v).map untagS := by
  obtain ⟨bs, pl, m⟩ := st
  simp only [placeEntry, untagS, c1_untag_bucketAt, List.length_map]
  by_cases h1 : (bucketAt bs (hash &&& (n - 1))).filled = false
  · have h2 : (untagB (bucketAt bs (hash &&& (n - 1)))).filled = false := h1
    rw [if_pos h1, if_pos h2]
    simp only [Option.map_some', untagS, List.map_set]
    rfl
  · have h2 : ¬ (untagB (bucketAt bs (hash &&& (n - 1)))).filled = false := h1
    rw [if_neg h1, if_neg h2]
    by_cases h3 : m = pl.length
    · rw [if_pos h3, if_pos h3]
      rfl
    · rw [if_neg h3, if_neg h3]
      simp only [Option.map_some', untagS, List.map_set]
      rfl

theorem c1_untag_rehashChain (pool : List (Elem (K × Nat) V)) (n : Nat) :
    ∀ (fuel : Nat) (h : Option Nat)
      (st : List (Bucket (K × Nat) V) × List (Elem (K × Nat) V) × Nat),
      rehashChain (pool.map untagE) n fuel h (untagS st) =
        passMap untagS (rehashChain pool n fuel h st) := by
  intro fuel
  induction fuel with
  | zero =>
    intro h st
    cases h <;> rfl
  | succ fuel ih =>
    intro h st
    cases h with
    | none => rfl
    | some e =>
      simp only [rehashChain, c1_untag_elemAt]
      have hp := c1_untag_placeEntry n st (elemAt pool e).hash (elemAt pool e).key
        (elemAt pool e).value
      have hp2 : placeEntry n (untagS st) (untagE (elemAt pool e)).hash
          (untagE (elemAt pool e)).key (untagE (elemAt pool e)).value =
          (placeEntry n st (elemAt pool e).hash (elemAt pool e).key
            (elemAt pool e).value).map untagS := hp
      rw [hp2]
      cases placeEntry n st (elemAt pool e).hash (elemAt pool e).key (elemAt pool e).value with
      | none => rfl
      | some st1 =>
        simp only [Option.map_some']
        exact ih _ st1

theorem c1_untag_rehashBuckets (pool : List (Elem (K × Nat) V)) (n : Nat) :
    ∀ (bs : List (Bucket (K × Nat) V))
      (st : List (Bucket (K × Nat) V) × List (Elem (K × Nat) V) × Nat),
      rehashBuckets (pool.map untagE) n (bs.map untagB) (untagS st) =
        passMap untagS (rehashBuckets pool n bs st) := by
  intro bs
  induction bs with
  | nil => intro st; rfl
  | cons b rest ih =>
    intro st
    simp only [List.map_cons, rehashBuckets, List.length_map]
    by_cases hf : b.filled = false
    · have hf2 : (untagB b).filled = false := hf
      rw [if_pos hf, if_pos hf2]
      exact ih st
    · have hf2 : ¬ (untagB b).filled = false := hf
      rw [if_neg hf, if_neg hf2]
      have hp : placeEntry n (untagS st) (untagB b).hash (untagB b).key (untagB b).value =
          (placeEntry n st b.hash b.key b.value).map untagS :=
        c1_untag_placeEntry n st b.hash b.key b.value
      rw [hp]
      cases placeEntry n st b.hash b.key b.value with
      | none => rfl
      | some st1 =>
        simp only [Option.map_some']
        have hc : rehashChain (pool.map untagE) n pool.length (untagB b).pHead (untagS st1) =
            passMap untagS (rehashChain pool n pool.length b.pHead st1) :=
          c1_untag_rehashChain pool n pool.length b.pHead st1
        rw [hc]
        cases rehashChain pool n pool.length b.pHead st1 with
        | ok st2 => exact ih st2
        | escape => rfl
        | stuck => rfl

theorem c1_untag_rehashAux (t : C1HashTable (K × Nat) V) :
    ∀ (depth n : Nat), rehashAux (untag t) depth n = (rehashAux t depth n).map untag := by
  intro depth
  induction depth with
  | zero => intro n; rfl
  | succ depth ih =>
    intro n
    simp only [rehashAux]
    have hinit : (List.replicate (max (max n t.size) s_hashTableInitialSize)
          (default : Bucket K V),
        List.replicate (max (max n t.size) s_hashTableInitialSize / 2) (default : Elem K V),
        0) =
        untagS (List.replicate (max (max n t.size) s_hashTableInitialSize) default,
          List.replicate (max (max n t.size) s_hashTableInitialSize / 2) default, 0) := by
      simp only [untagS, List.map_replicate]
      rfl
    have hb := c1_untag_rehashBuckets t.elemPool (max (max n t.size) s_hashTableInitialSize)
      t.buckets (List.replicate (max (max n t.size) s_hashTableInitialSize) default,
        List.replicate (max (max n t.size) s_hashTableInitialSize / 2) default, 0)
    rw [← hinit] at hb
    have hb2 : rehashBuckets (untag t).elemPool
        (max (max n (untag t).size) s_hashTableInitialSize) (untag t).buckets
        (List.replicate (max (max n (untag t).size) s_hashTableInitialSize) default,
          List.replicate (max (max n (untag t).size) s_hashTableInitialSize / 2) default, 0) =
        passMap untagS (rehashBuckets t.elemPool
          (max (max n t.size) s_hashTableInitialSize) t.buckets
          (List.replicate (max (max n t.size) s_hashTableInitialSize) default,
            List.replicate (max (max n t.size) s_hashTableInitialSize / 2) default, 0)) := hb
    rw [hb2]
    cases rehashBuckets t.elemPool (max (max n t.size) s_hashTableInitialSize) t.buckets
        (List.replicate (max (max n t.size) s_hashTableInitialSize) default,
          List.replicate (max (max n t.size) s_hashTableInitialSize / 2) default, 0) with
    | stuck => rfl
    | escape => exact ih _
    | ok st =>
      obtain ⟨bs, pl, m⟩ := st
      simp only [passMap, untagS, Option.map_some', untag, List.length_map,
        c1_untag_linkFree]

theorem c1_untag_Rehash (t : C1HashTable (K × Nat) V) (n : Nat) :
    Rehash (untag t) n = (Rehash t n).map untag :=
  c1_untag_rehashAux t 64 n

theorem c1_untag_Reserve (t : C1HashTable (K × Nat) V) (n : Nat) :
    Reserve (untag t) n = (Reserve t n).map untag := by
  unfold Reserve
  exact c1_untag_Rehash t _

theorem c1_untag_storeInline (t : C1HashTable (K × Nat) V) (b hash : Nat) (k : K × Nat)
    (v : V) : storeInline (untag t) b hash k.1 v = untag (storeInline t b hash k v) := by
  simp only [storeInline, untag, c1_untag_bucketAt, List.map_set]
  rfl

theorem c1_untag_grabElem (t : C1HashTable (K × Nat) V) (b hash : Nat) (k : K × Nat)
    (v : V) : grabElem (untag t) b hash k.1 v = (grabElem t b hash k v).map untag := by
  unfold grabElem
  have hf : (untag t).pElemFreeHead = t.pElemFreeHead := rfl
  rw [hf]
  cases t.pElemFreeHead with
  | none => rfl
  | some e =>
    simp only [Option.map_some', untag, c1_untag_bucketAt, c1_untag_elemAt, List.map_set]
    rfl

theorem c1_untag_new : untag (new : C1HashTable (K × Nat) V) = (new : C1HashTable K V) := by
  simp only [untag, new, ← c1_untag_linkFree, List.map_replicate]
  rfl

/-- `Insert(k, v)` is `Insert` of `k` with any tag, without the tags. -/
theorem c1_untag_Insert (digest : K → Nat) (t : C1HashTable (K × Nat) V) (k : K) (n : Nat)
    (v : V) :
    Insert digest (untag t) k v = (Insert (tagged digest) t (k, n) v).map untag := by
  have hh : HashKey (tagged digest) (k, n) = HashKey digest k := rfl
  have hlen : (untag t).buckets.length = t.buckets.length := by simp [untag]
  have hbk : ∀ i, (bucketAt (untag t).buckets i).filled = (bucketAt t.buckets i).filled := by
    intro i
    show (bucketAt (t.buckets.map untagB) i).filled = _
    rw [c1_untag_bucketAt]
    rfl
  simp only [Insert, hh, hlen, hbk]
  by_cases hf : (bucketAt t.buckets
      ((HashKey digest k &&& s_63Bits) &&& (t.buckets.length - 1))).filled = false
  · rw [if_pos hf, if_pos hf]
    simp only [Option.map_some']
    exact congrArg some (c1_untag_storeInline t _ _ (k, n) v)
  · rw [if_neg hf, if_neg hf]
    have hfree : (untag t).pElemFreeHead = t.pElemFreeHead := rfl
    rw [hfree]
    cases t.pElemFreeHead with
    | some e => exact c1_untag_grabElem t _ _ (k, n) v
    | none =>
      simp only [c1_untag_Rehash]
      cases Rehash t (t.buckets.length * 2) with
      | none => rfl
      | some t1 =>
        have hlen1 : (untag t1).buckets.length = t1.buckets.length := by simp [untag]
        have hbk1 : ∀ i, (bucketAt (untag t1).buckets i).filled =
            (bucketAt t1.buckets i).filled := by
          intro i
          show (bucketAt (t1.buckets.map untagB) i).filled = _
          rw [c1_untag_bucketAt]
          rfl
        simp only [Option.map_some', hlen1, hbk1]
        by_cases hf1 : (bucketAt t1.buckets
            ((HashKey digest k &&& s_63Bits) &&& (t1.buckets.length - 1))).filled = false
        · rw [if_pos hf1, if_pos hf1]
          simp only [Option.map_some']
          exact congrArg some (c1_untag_storeInline t1 _ _ (k, n) v)
        · rw [if_neg hf1, if_neg hf1]
          exact c1_untag_grabElem t1 _ _ (k, n) v

theorem c1_chainFindPrev_hit (next : Nat → Option Nat) (hit : Nat → Bool) :
    ∀ (fuel : Nat) (h : Option Nat) (q e p : Nat),
      chainFindPrev next hit fuel h q = some (some (e, p)) → hit e = true := by
  intro fuel
  induction fuel with
  | zero =>
    intro h q e p hr
    cases h <;> simp [chainFindPrev] at hr
  | succ fuel ih =>
    intro h q e p hr
    cases h with
    | none => simp [chainFindPrev] at hr
    | some x =>
      simp only [chainFindPrev] at hr
      by_cases hx : hit x = true
      · rw [if_pos hx] at hr
        simp only [Option.some.injEq, Prod.mk.injEq] at hr
        rw [← hr.1]
        exact hx
      · rw [if_neg hx] at hr
        exact ih _ _ _ _ hr

/-- Two tests find the same node when the second holds only where the first does and
holds at the node the first finds. -/
theorem c1_chainFindPrev_agree (next : Nat → Option Nat) (hit hit1 : Nat → Bool)
    (hsub : ∀ x, hit1 x = true → hit x = true) :
    ∀ (fuel : Nat) (h : Option Nat) (q : Nat),
      (∀ e p, chainFindPrev next hit fuel h q = some (some (e, p)) → hit1 e = true) →
      chainFindPrev next hit1 fuel h q = chainFindPrev next hit fuel h q := by
  intro fuel
  induction fuel with
  | zero =>
    intro h q _
    cases h <;> rfl
  | succ fuel ih =>
    intro h q hfound
    cases h with
    | none => rfl
    | some x =>
      simp only [chainFindPrev] at hfound ⊢
      by_cases hx : hit x = true
      · rw [if_pos hx] at hfound ⊢
        rw [if_pos (hfound x q rfl)]
      · rw [if_neg hx] at hfound ⊢
        rw [if_neg (fun h1 => hx (hsub x h1))]
        exact ih _ _ hfound

theorem c1_untag_release (t : C1HashTable (K × Nat) V) (bs : List (Bucket (K × Nat) V))
    (pool : List (Elem (K × Nat) V)) (e : Nat) :
    release (untag t) (bs.map untagB) (pool.map untagE) e = untag (release t bs pool e) := by
  simp only [release, untag, c1_untag_elemAt, List.map_set]
  rfl

/-- The tag of the entry `Remove(key)` takes out of the table without tags: the tag of
the first entry that holds `key`, in the bucket or in its chain. -/
def tagFor (digest : K → Nat) (t : C1HashTable (K × Nat) V) (key : K) : Nat :=
  let hash := HashKey digest key &&& s_63Bits
  let b := hash &&& (t.buckets.length - 1)
  if (bucketAt t.buckets b).hash = hash ∧ (bucketAt t.buckets b).key.1 = key then
    (bucketAt t.buckets b).key.2
  else
    match (bucketAt t.buckets b).pHead with
    | none => 0
    | some pHead =>
      if hitOf (t.elemPool.map untagE) hash key pHead then (elemAt t.elemPool pHead).key.2
      else
        match chainFindPrev (nextOf t.elemPool) (hitOf (t.elemPool.map untagE) hash key)
            t.elemPool.length (elemAt t.elemPool pHead).pNext pHead with
        | some (some (e, _)) => (elemAt t.elemPool e).key.2
        | _ => 0

theorem c1_hitOf_untag (pool : List (Elem (K × Nat) V)) (hash : Nat) (key : K) (x : Nat) :
    hitOf (pool.map untagE) hash key x =
      decide ((elemAt pool x).hash = hash ∧ (elemAt pool x).key.1 = key) := by
  unfold hitOf
  rw [c1_untag_elemAt]
  rfl

theorem c1_hitOf_tagged (pool : List (Elem (K × Nat) V)) (hash : Nat) (key : K) (n x : Nat) :
    hitOf pool hash (key, n) x =
      decide ((elemAt pool x).hash = hash ∧ (elemAt pool x).key.1 = key ∧
        (elemAt pool x).key.2 = n) := by
  unfold hitOf
  congr 1
  rw [Prod.ext_iff]

/-- `Remove(key)` is `Remove` of `key` with the tag of the first entry that holds it,
without the tags. -/
theorem c1_untag_Remove (digest : K → Nat) (t : C1HashTable (K × Nat) V) (key : K) :
    Remove digest (untag t) key =
      (Remove (tagged digest) t (key, tagFor digest t key)).map
        (fun r => (untag r.1, r.2)) := by
  have hh : ∀ m, HashKey (tagged digest) (key, m) = HashKey digest key := fun _ => rfl
  have hlen : (untag t).buckets.length = t.buckets.length := by simp [untag]
  have hplen : (untag t).elemPool.length = t.elemPool.length := by simp [untag]
  have hB : ∀ i, bucketAt (untag t).buckets i = untagB (bucketAt t.buckets i) :=
    fun i => c1_untag_bucketAt t.buckets i
  have hE : ∀ i, elemAt (untag t).elemPool i = untagE (elemAt t.elemPool i) :=
    fun i => c1_untag_elemAt t.elemPool i
  have hN : nextOf (untag t).elemPool = nextOf t.elemPool := c1_untag_nextOf t.elemPool
  have hbs : (untag t).buckets = t.buckets.map untagB := rfl
  have hpl : (untag t).elemPool = t.elemPool.map untagE := rfl
  generalize hn : tagFor digest t key = n
  unfold tagFor at hn
  simp only at hn
  unfold Remove
  simp only [hh, hlen, hplen, hB, hE, hN]
  generalize hb : (HashKey digest key &&& s_63Bits) &&& (t.buckets.length - 1) = b at hn ⊢
  generalize hhash : HashKey digest key &&& s_63Bits = hash at hn ⊢
  have hfl : (untagB (bucketAt t.buckets b)).filled = (bucketAt t.buckets b).filled := rfl
  have hhs : (untagB (bucketAt t.buckets b)).hash = (bucketAt t.buckets b).hash := rfl
  have hky : (untagB (bucketAt t.buckets b)).key = (bucketAt t.buckets b).key.1 := rfl
  have hvl : (untagB (bucketAt t.buckets b)).value = (bucketAt t.buckets b).value := rfl
  have hph : (untagB (bucketAt t.buckets b)).pHead = (bucketAt t.buckets b).pHead := rfl
  simp only [hfl, hhs, hky, hvl, hph]
  by_cases hf : (bucketAt t.buckets b).filled = false
  · rw [if_pos hf, if_pos hf]
    rfl
  · rw [if_neg hf, if_neg hf]
    by_cases hin : (bucketAt t.buckets b).hash = hash ∧ (bucketAt t.buckets b).key.1 = key
    · rw [if_pos hin] at hn
      have hin2 : (bucketAt t.buckets b).hash = hash ∧ (bucketAt t.buckets b).key = (key, n) :=
        ⟨hin.1, Prod.ext hin.2 hn⟩
      rw [if_pos hin, if_pos hin2]
      cases hp : (bucketAt t.buckets b).pHead with
      | some q =>
        simp only [Option.map_some']
        rw [hbs, hpl, ← c1_untag_release]
        simp only [List.map_set]
        rfl
      | none =>
        simp only [Option.map_some', untag, List.map_set]
        rfl
    · rw [if_neg hin] at hn
      have hin2 : ¬ ((bucketAt t.buckets b).hash = hash ∧
          (bucketAt t.buckets b).key = (key, n)) := by
        rintro ⟨h1, h2⟩
        exact hin ⟨h1, by rw [h2]⟩
      rw [if_neg hin, if_neg hin2]
      cases hp : (bucketAt t.buckets b).pHead with
      | none => rfl
      | some q =>
        rw [hp] at hn
        simp only at hn ⊢
        rw [hpl]
        by_cases hq : hitOf (t.elemPool.map untagE) hash key q = true
        · rw [if_pos hq] at hn
          have hq2 : hitOf t.elemPool hash (key, n) q = true := by
            rw [c1_hitOf_untag] at hq
            rw [c1_hitOf_tagged]
            simp only [decide_eq_true_eq] at hq ⊢
            exact ⟨hq.1, hq.2, hn⟩
          rw [if_pos hq, if_pos hq2]
          simp only [Option.map_some']
          rw [hbs, ← c1_untag_release]
          simp only [List.map_set]
          rfl
        · rw [if_neg hq] at hn
          have hq2 : ¬ hitOf t.elemPool hash (key, n) q = true := by
            intro h2
            apply hq
            rw [c1_hitOf_tagged] at h2
            rw [c1_hitOf_untag]
            simp only [decide_eq_true_eq] at h2 ⊢
            exact ⟨h2.1, h2.2.1⟩
          rw [if_neg hq, if_neg hq2]
          have hnx : (untagE (elemAt t.elemPool q)).pNext = (elemAt t.elemPool q).pNext := rfl
          rw [hnx]
          have hsub : ∀ x, hitOf t.elemPool hash (key, n) x = true →
              hitOf (t.elemPool.map untagE) hash key x = true := by
            intro x h2
            rw [c1_hitOf_tagged] at h2
            rw [c1_hitOf_untag]
            simp only [decide_eq_true_eq] at h2 ⊢
            exact ⟨h2.1, h2.2.1⟩
          have hagree := c1_chainFindPrev_agree (nextOf t.elemPool)
            (hitOf (t.elemPool.map untagE) hash key) (hitOf t.elemPool hash (key, n)) hsub
            t.elemPool.length (elemAt t.elemPool q).pNext q (by
              intro e p hr
              rw [hr] at hn
              simp only at hn
              have he := c1_chainFindPrev_hit _ _ _ _ _ _ _ hr
              rw [c1_hitOf_untag] at he
              rw [c1_hitOf_tagged]
              simp only [decide_eq_true_eq] at he ⊢
              exact ⟨he.1, he.2, hn⟩)
          rw [hagree]
          cases chainFindPrev (nextOf t.elemPool) (hitOf (t.elemPool.map untagE) hash key)
              t.elemPool.length (elemAt t.elemPool q).pNext q with
          | none => rfl
          | some r =>
            cases r with
            | none => rfl
            | some ep =>
              obtain ⟨e, p⟩ := ep
              simp only [Option.map_some']
              rw [← hpl, hbs]
              have : ((untag t).elemPool.set p
                  ⟨(untagE (elemAt t.elemPool e)).pNext, (untagE (elemAt t.elemPool p)).hash,
                    (untagE (elemAt t.elemPool p)).key,
                    (untagE (elemAt t.elemPool p)).value⟩) =
                  (t.elemPool.set p ⟨(elemAt t.elemPool e).pNext, (elemAt t.elemPool p).hash,
                    (elemAt t.elemPool p).key, (elemAt t.elemPool p).value⟩).map untagE := by
                rw [hpl, List.map_set]
                rfl
              rw [this, ← c1_untag_release]

/-- The structure of a table is the structure of the table without tags. -/
theorem c1_untag_shape {digest : K → Nat} {t : C1HashTable (K × Nat) V}
    {L : Nat → List Nat} {F used : List Nat} (h : Shape (tagged digest) t L F used) :
    Shape digest (untag t) L F used := by
  have hlen : (untag t).buckets.length = t.buckets.length := by simp [untag]
  have hplen : (untag t).elemPool.length = t.elemPool.length := by simp [untag]
  have hB : ∀ i, bucketAt (untag t).buckets i = untagB (bucketAt t.buckets i) :=
    fun i => c1_untag_bucketAt t.buckets i
  have hE : ∀ i, elemAt (untag t).elemPool i = untagE (elemAt t.elemPool i) :=
    fun i => c1_untag_elemAt t.elemPool i
  have hN : nextOf (untag t).elemPool = nextOf t.elemPool := c1_untag_nextOf t.elemPool
  have hcnt : filledCount (untag t).buckets = filledCount t.buckets := by
    show filledCount (t.buckets.map untagB) = _
    unfold filledCount
    rw [List.countP_map]
    rfl
  refine ⟨by rw [hlen]; exact h.pos, by rw [hplen, hlen]; exact h.pool_len, ?_, ?_, ?_,
    ?_, h.nodupF, h.nodupU, ?_, h.disj, ?_, ?_, ?_, ?_, ?_, ?_, ?_⟩
  · intro b hb
    rw [hlen] at hb
    rw [hN, hB]
    exact h.chain b hb
  · intro b hb hf
    rw [hlen] at hb
    rw [hB] at hf
    exact h.empty b hb hf
  · rw [hN]
    exact h.free
  · intro b hb
    rw [hlen] at hb
    exact h.nodupL b hb
  · intro i
    rw [hlen]
    exact h.used_iff i
  · intro i hi
    rw [hplen]
    exact h.bound i hi
  · rw [hplen]
    exact h.cover
  · intro b hb i hi
    rw [hlen] at hb ⊢
    rw [hE]
    exact h.home b hb i hi
  · intro b hb hf
    rw [hlen] at hb ⊢
    rw [hB] at hf ⊢
    exact h.homeB b hb hf
  · intro i hi
    rw [hE]
    exact h.hash_ok i hi
  · intro b hb hf
    rw [hlen] at hb
    rw [hB] at hf ⊢
    exact h.hash_okB b hb hf
  · rw [hcnt]
    exact h.size_eq

/-- No entry of the table carries a tag from `N` on. -/
def Fresh (digest : K → Nat) (t : C1HashTable (K × Nat) V) (N : Nat) : Prop :=
  ∀ k m, N ≤ m → Lookup (tagged digest) t (k, m) = some none

theorem c1_fresh_new (digest : K → Nat) : Fresh digest (new : C1HashTable (K × Nat) V) 0 :=
  fun k m _ => c1_Lookup_new (tagged digest) (k, m)

/-- Every table reached by calls that return, whatever keys they insert, is a table of
tagged keys, with at most one entry per tagged key, without its tags. -/
theorem c1_tagged_calls (digest : K → Nat) :
    ∀ (calls : List (Call K V)) (t : C1HashTable (K × Nat) V) (N : Nat)
      (t1 : C1HashTable K V), WF (tagged digest) t → Fresh digest t N →
      runCalls digest (untag t) calls = some t1 →
      ∃ t2 N2, t1 = untag t2 ∧ WF (tagged digest) t2 ∧ Fresh digest t2 N2 := by
  intro calls
  induction calls with
  | nil =>
    intro t N t1 hw hf hrun
    simp only [runCalls, Option.some.injEq] at hrun
    exact ⟨t, N, hrun.symm, hw, hf⟩
  | cons c rest ih =>
    intro t N t1 hw hf hrun
    cases c with
    | insert k v =>
      simp only [runCalls, c1_untag_Insert digest t k N v] at hrun
      cases hi : Insert (tagged digest) t (k, N) v with
      | none => rw [hi] at hrun; cases hrun
      | some t2 =>
        rw [hi] at hrun
        simp only [Option.map_some'] at hrun
        obtain ⟨hw2, hl2⟩ := c1_Insert_ok (tagged digest) hw (k, N) v (hf k N (le_refl N)) hi
        refine ih t2 (N + 1) t1 hw2 ?_ hrun
        intro x m hm
        rw [hl2, if_neg (by intro e; have := congrArg Prod.snd e; simp at this; omega)]
        exact hf x m (by omega)
    | remove k =>
      simp only [runCalls, c1_untag_Remove digest t k] at hrun
      obtain ⟨t2, h2, hw2, hl2⟩ := c1_Remove_spec (tagged digest) hw (k, tagFor digest t k)
      rw [h2] at hrun
      simp only [Option.map_some'] at hrun
      refine ih t2 N t1 hw2 ?_ hrun
      intro x m hm
      rw [hl2]
      split
      · rfl
      · exact hf x m hm
    | reserve n =>
      simp only [runCalls, c1_untag_Reserve] at hrun
      obtain ⟨t2, h2, hw2, hl2⟩ := c1_Reserve_lookup hw n
      rw [h2] at hrun
      simp only [Option.map_some'] at hrun
      exact ih t2 N t1 hw2 (fun x m hm => by rw [hl2]; exact hf x m hm) hrun
    | rehash n =>
      simp only [runCalls, c1_untag_Rehash] at hrun
      obtain ⟨t2, h2, hw2, hl2⟩ := c1_Rehash_lookup hw n
      rw [h2] at hrun
      simp only [Option.map_some'] at hrun
      exact ih t2 N t1 hw2 (fun x m hm => by rw [hl2]; exact hf x m hm) hrun
    | reset =>
      simp only [runCalls] at hrun
      have : Reset (untag t) = untag (new : C1HashTable (K × Nat) V) := by
        rw [c1_untag_new]; rfl
      rw [this] at hrun
      exact ih new 0 t1 (c1_wf_new (tagged digest)) (c1_fresh_new digest) hrun

/-- Every sequence of `Insert`, `Remove` and `Reset` calls returns, whatever keys it
inserts, and the bucket count stays a power of two. -/
theorem c1_tagged_basic (digest : K → Nat) :
    ∀ (calls : List (Call K V)) (t : C1HashTable (K × Nat) V) (N : Nat),
      WF2 (tagged digest) t → Fresh digest t N → calls.all Call.basic = true →
      ∃ t2 N2, runCalls digest (untag t) calls = some (untag t2) ∧
        WF2 (tagged digest) t2 ∧ Fresh digest t2 N2 := by
  intro calls
  induction calls with
  | nil =>
    intro t N hw hf _
    exact ⟨t, N, rfl, hw, hf⟩
  | cons c rest ih =>
    intro t N hw hf hb
    simp only [List.all_cons, Bool.and_eq_true] at hb
    obtain ⟨hb1, hb2⟩ := hb
    cases c with
    | insert k v =>
      obtain ⟨t2, h2, hw2, hl2⟩ :=
        c1_Insert_spec (tagged digest) hw (k, N) v (hf k N (le_refl N))
      obtain ⟨t3, N3, h3, hw3, hf3⟩ := ih t2 (N + 1) hw2 (by
        intro x m hm
        rw [hl2, if_neg (by intro e; have := congrArg Prod.snd e; simp at this; omega)]
        exact hf x m (by omega)) hb2
      refine ⟨t3, N3, ?_, hw3, hf3⟩
      simp only [runCalls, c1_untag_Insert digest t k N v, h2, Option.map_some']
      exact h3
    | remove k =>
      obtain ⟨t2, h2, hw2, hl2⟩ :=
        c1_Remove_spec (tagged digest) hw.1 (k, tagFor digest t k)
      have hlen := c1_Remove_length _ _ _ _ _ h2
      obtain ⟨a, ha4, ha⟩ := hw.2
      obtain ⟨t3, N3, h3, hw3, hf3⟩ := ih t2 N ⟨hw2, a, ha4, by rw [hlen]; exact ha⟩ (by
        intro x m hm
        rw [hl2]
        split
        · rfl
        · exact hf x m hm) hb2
      refine ⟨t3, N3, ?_, hw3, hf3⟩
      simp only [runCalls, c1_untag_Remove digest t k, h2, Option.map_some']
      exact h3
    | reserve n => simp [Call.basic] at hb1
    | rehash n => simp [Call.basic] at hb1
    | reset =>
      obtain ⟨t3, N3, h3, hw3, hf3⟩ := ih new 0 (c1_wf2_new (tagged digest))
        (c1_fresh_new digest) hb2
      refine ⟨t3, N3, ?_, hw3, hf3⟩
      have : Reset (untag t) = untag (new : C1HashTable (K × Nat) V) := by
        rw [c1_untag_new]; rfl
      simp only [runCalls, this]
      exact h3

/-- Every table reached from a fresh one by calls that return has well-formed chains. -/
theorem c1_calls_shape (digest : K → Nat) (calls : List (Call K V)) (t : C1HashTable K V)
    (hrun : runCalls digest new calls = some t) :
    ∃ L F used, Shape digest t L F used := by
  rw [← c1_untag_new] at hrun
  obtain ⟨t2, N2, h2, ⟨L, F, used, hs, _⟩, _⟩ :=
    c1_tagged_calls digest calls new 0 t (c1_wf_new (tagged digest)) (c1_fresh_new digest) hrun
  rw [h2]
  exact ⟨L, F, used, c1_untag_shape hs⟩

/-- After `Insert`, `Remove` and `Reset` calls one more `Insert` returns, whatever the
keys. -/
theorem c1_basic_insert (digest : K → Nat) (calls : List (Call K V))
    (hb : calls.all Call.basic = true) (k : K) (v : V) :
    ∃ t t1, runCalls digest new calls = some t ∧ Insert digest t k v = some t1 ∧
      (∃ a, 4 ≤ a ∧ t.buckets.length = 2 ^ a) ∧ ∃ L F used, Shape digest t L F used := by
  obtain ⟨t2, N2, h2, hw2, hf2⟩ := c1_tagged_basic digest calls new 0
    (c1_wf2_new (tagged digest)) (c1_fresh_new digest) hb
  rw [c1_untag_new] at h2
  obtain ⟨t3, h3, _, _⟩ := c1_Insert_spec (tagged digest) hw2 (k, N2) v (hf2 k N2 (le_refl _))
  obtain ⟨⟨L, F, used, hs, _⟩, a, ha4, ha⟩ := hw2
  refine ⟨untag t2, untag t3, h2, ?_, ⟨a, ha4, by simp [untag, ha]⟩,
    L, F, used, c1_untag_shape hs⟩
  rw [c1_untag_Insert digest t2 k N2 v, h3]
  rfl

/-- An `Insert` that returns found a free element whenever the bucket of the key was
filled after the growth step. -/
theorem c1_Insert_free_of_some (digest : K → Nat) (t t1 : C1HashTable K V) (k : K) (v : V)
    (h : Insert digest t k v = some t1) :
    ∃ t0, (if (bucketAt t.buckets (bucketOf digest t k)).filled = true ∧
          t.pElemFreeHead = none then Rehash t (t.buckets.length * 2) else some t) = some t0 ∧
      ((bucketAt t0.buckets (bucketOf digest t0 k)).filled = true →
        t0.pElemFreeHead ≠ none) := by
  unfold Insert at h
  simp only at h
  unfold bucketOf hashOf
  by_cases hf : (bucketAt t.buckets
      ((HashKey digest k &&& s_63Bits) &&& (t.buckets.length - 1))).filled = false
  · refine ⟨t, by rw [if_neg (by simp [hf])], ?_⟩
    intro h1
    rw [hf] at h1
    cases h1
  · rw [if_neg hf] at h
    have hf1 : (bucketAt t.buckets
        ((HashKey digest k &&& s_63Bits) &&& (t.buckets.length - 1))).filled = true := by
      simpa using hf
    cases hfree : t.pElemFreeHead with
    | some e =>
      refine ⟨t, by rw [if_neg (by simp [hfree])], ?_⟩
      intro _
      rw [hfree]
      simp
    | none =>
      rw [hfree] at h
      simp only at h
      rw [if_pos ⟨hf1, rfl⟩]
      cases hr : Rehash t (t.buckets.length * 2) with
      | none => rw [hr] at h; cases h
      | some t0 =>
        rw [hr] at h
        simp only at h
        refine ⟨t0, rfl, ?_⟩
        intro h1
        rw [if_neg (by simp [h1])] at h
        intro hnone
        simp [grabElem, hnone] at h

/-- `Remove` reports what `Lookup` finds, leaves the table alone when it finds nothing
and else takes one entry away. -/
theorem c1_Remove_result (digest : K → Nat) {t : C1HashTable K V} {L : Nat → List Nat}
    {F used : List Nat} (hs : Shape digest t L F used) (k : K) :
    ∃ t1, Remove digest t k = some (t1, (Lookup digest t k).join.isSome) ∧
      ((Lookup digest t k).join.isSome = false → t1 = t) ∧
      ((Lookup digest t k).join.isSome = true → t1.size + 1 = t.size) := by
  have hb := c1_bucketOf_lt digest t k hs.pos
  have hchain := hs.chain _ hb
  have hlenle := c1_chain_length_le hs _ hb
  have hlk := c1_Lookup_shape hs k
  have hunf : Remove digest t k =
      if (bucketAt t.buckets (bucketOf digest t k)).filled = false then some (t, false)
      else if (bucketAt t.buckets (bucketOf digest t k)).hash = hashOf digest k ∧
          (bucketAt t.buckets (bucketOf digest t k)).key = k then
        match (bucketAt t.buckets (bucketOf digest t k)).pHead with
        | some pHead =>
          some (release t
            (t.buckets.set (bucketOf digest t k)
              ⟨(elemAt t.elemPool pHead).pNext, (elemAt t.elemPool pHead).hash,
                (bucketAt t.buckets (bucketOf digest t k)).filled,
                (elemAt t.elemPool pHead).key, (elemAt t.elemPool pHead).value⟩)
            t.elemPool pHead, true)
        | none =>
          some ({ t with
                  buckets := t.buckets.set (bucketOf digest t k)
                    ⟨none, 0, false, (bucketAt t.buckets (bucketOf digest t k)).key,
                      (bucketAt t.buckets (bucketOf digest t k)).value⟩,
                  size := t.size - 1 }, true)
      else
        match (bucketAt t.buckets (bucketOf digest t k)).pHead with
        | none => some (t, false)
        | some pHead =>
          if hitOf t.elemPool (hashOf digest k) k pHead then
            some (release t
              (t.buckets.set (bucketOf digest t k)
                ⟨(elemAt t.elemPool pHead).pNext,
                  (bucketAt t.buckets (bucketOf digest t k)).hash,
                  (bucketAt t.buckets (bucketOf digest t k)).filled,
                  (bucketAt t.buckets (bucketOf digest t k)).key,
                  (bucketAt t.buckets (bucketOf digest t k)).value⟩)
              t.elemPool pHead, true)
          else
            match chainFindPrev (nextOf t.elemPool) (hitOf t.elemPool (hashOf digest k) k)
                t.elemPool.length (elemAt t.elemPool pHead).pNext pHead with
            | none => none
            | some none => some (t, false)
            | some (some (e, ePrev)) =>
              some (release t t.buckets
                (t.elemPool.set ePrev
                  ⟨(elemAt t.elemPool e).pNext, (elemAt t.elemPool ePrev).hash,
                    (elemAt t.elemPool ePrev).key, (elemAt t.elemPool ePrev).value⟩) e,
                true) := rfl
  rw [hunf, hlk]
  by_cases hf : (bucketAt t.buckets (bucketOf digest t k)).filled = false
  · rw [if_pos hf, if_pos hf]
    exact ⟨t, rfl, fun _ => rfl, fun h => by simp at h⟩
  · rw [if_neg hf, if_neg hf]
    have hf1 : (bucketAt t.buckets (bucketOf digest t k)).filled = true := by simpa using hf
    have hpos : 0 < t.size := by
      have := c1_filledCount_pos t.buckets _ hb hf1
      rw [hs.size_eq]
      omega
    by_cases hin : (bucketAt t.buckets (bucketOf digest t k)).hash = hashOf digest k ∧
        (bucketAt t.buckets (bucketOf digest t k)).key = k
    · rw [if_pos hin, if_pos hin]
      cases (bucketAt t.buckets (bucketOf digest t k)).pHead with
      | some q =>
        refine ⟨_, rfl, fun h => ?_, fun _ => ?_⟩
        · simp at h
        · show t.size - 1 + 1 = t.size
          omega
      | none =>
        refine ⟨_, rfl, fun h => ?_, fun _ => ?_⟩
        · simp at h
        · show t.size - 1 + 1 = t.size
          omega
    · rw [if_neg hin, if_neg hin]
      cases hL : L (bucketOf digest t k) with
      | nil =>
        rw [hL] at hchain
        have hhead : (bucketAt t.buckets (bucketOf digest t k)).pHead = none := hchain
        rw [hhead]
        exact ⟨t, rfl, fun _ => rfl, fun h => by simp at h⟩
      | cons q l =>
        rw [hL] at hchain hlenle
        obtain ⟨hhead, hrest⟩ := hchain
        rw [hhead]
        simp only
        cases hq : hitOf t.elemPool (hashOf digest k) k q with
        | true =>
          simp only [if_true, List.find?_cons, hq]
          refine ⟨_, rfl, fun h => ?_, fun _ => ?_⟩
          · simp at h
          · show t.size - 1 + 1 = t.size
            omega
        | false =>
          have hfp : chainFindPrev (nextOf t.elemPool) (hitOf t.elemPool (hashOf digest k) k)
              t.elemPool.length (elemAt t.elemPool q).pNext q =
              some (findPrev (hitOf t.elemPool (hashOf digest k) k) q l) :=
            chainFindPrev_spec (nextOf t.elemPool)
              (hitOf t.elemPool (hashOf digest k) k) l t.elemPool.length _ q hrest
              (by simp at hlenle; omega)
          simp only [Bool.false_eq_true, if_false, hfp, List.find?_cons, hq]
          cases hfind : findPrev (hitOf t.elemPool (hashOf digest k) k) q l with
          | none =>
            have hall := findPrev_none _ l q hfind
            have : l.find? (hitOf t.elemPool (hashOf digest k) k) = none := by
              rw [List.find?_eq_none]
              intro x hx
              simp [hall x hx]
            rw [this]
            exact ⟨t, rfl, fun _ => rfl, fun h => by simp at h⟩
          | some ep =>
            obtain ⟨e, p⟩ := ep
            obtain ⟨A, post, hsplit, hA, hp, he⟩ := findPrev_some _ l q e p hq hfind
            have hsome : ∃ y, l.find? (hitOf t.elemPool (hashOf digest k) k) = some y := by
              cases hfl : l.find? (hitOf t.elemPool (hashOf digest k) k) with
              | some y => exact ⟨y, rfl⟩
              | none =>
                rw [List.find?_eq_none] at hfl
                have hel : e ∈ l := by
                  have : e ∈ q :: l := by rw [hsplit]; simp
                  rcases List.mem_cons.mp this with h1 | h1
                  · rw [h1] at he; rw [he] at hq; cases hq
                  · exact h1
                exact absurd he (hfl e hel)
            obtain ⟨y, hy⟩ := hsome
            rw [hy]
            refine ⟨_, rfl, fun h => ?_, fun _ => ?_⟩
            · simp at h
            · show t.size - 1 + 1 = t.size
              omega

/-! ### The escape hatch of `Rehash` -/

/-- One pass of `Rehash` over a table of tagged keys, without its tags. -/
theorem c1_untag_pass (t : C1HashTable (K × Nat) V) (m : Nat) :
    rehashBuckets (untag t).elemPool m (untag t).buckets
        (List.replicate m default, List.replicate (m / 2) default, 0) =
      passMap untagS (rehashBuckets t.elemPool m t.buckets
        (List.replicate m default, List.replicate (m / 2) default, 0)) := by
  have hinit : (List.replicate m (default : Bucket K V),
      List.replicate (m / 2) (default : Elem K V), 0) =
      untagS (List.replicate m default, List.replicate (m / 2) default, 0) := by
    simp only [untagS, List.map_replicate]
    rfl
  have hb := c1_untag_rehashBuckets t.elemPool m t.buckets
    (List.replicate m default, List.replicate (m / 2) default, 0)
  rw [← hinit] at hb
  exact hb

/-- One pass of `Rehash` over any table of tagged keys, without its tags: it places
every entry in the new buckets, or it takes the escape hatch and then the table has more
entries than the new pool has elements. -/
theorem c1_pass_untag {digest : K → Nat} {t : C1HashTable (K × Nat) V}
    (hw : WF (tagged digest) t) (m : Nat) (hm : 0 < m) :
    (rehashBuckets (untag t).elemPool m (untag t).buckets
        (List.replicate m default, List.replicate (m / 2) default, 0) = Pass.escape ∧
      m / 2 + 2 ≤ t.size) ∨
    ∃ st, rehashBuckets (untag t).elemPool m (untag t).buckets
        (List.replicate m default, List.replicate (m / 2) default, 0) = Pass.ok st ∧
      (tableOf st t.size).buckets.length = m := by
  obtain ⟨L, F, used, hs, hk⟩ := hw
  rw [c1_untag_pass]
  rcases c1_pass_spec hs hk m hm with ⟨h1, h2⟩ | ⟨st, h1, hb⟩
  · left
    rw [h1]
    exact ⟨rfl, h2⟩
  · right
    rw [h1]
    obtain ⟨hlen, _⟩ := c1_built_table hs m st hb
    refine ⟨untagS st, rfl, ?_⟩
    have : (tableOf (untagS st) t.size).buckets.length = (tableOf st t.size).buckets.length := by
      simp only [tableOf, untagS, List.length_map]
    rw [this]
    exact hlen

/-- `Rehash(n)` on any table of tagged keys, without its tags: the first pass, over
`max(n, size, 16)` buckets, places every entry, or it takes the escape hatch and the
pass over twice as many buckets places every entry. -/
theorem c1_Rehash_retries {digest : K → Nat} {t : C1HashTable (K × Nat) V}
    (hw : WF (tagged digest) t) (n : Nat) :
    ∃ j t1, j ≤ 1 ∧ Rehash (untag t) n = some t1 ∧
      t1.buckets.length = max (max n t.size) s_hashTableInitialSize * 2 ^ j ∧
      (∀ i, i < j →
        rehashBuckets (untag t).elemPool
          (max (max n t.size) s_hashTableInitialSize * 2 ^ i) (untag t).buckets
          (List.replicate (max (max n t.size) s_hashTableInitialSize * 2 ^ i) default,
            List.replicate (max (max n t.size) s_hashTableInitialSize * 2 ^ i / 2) default,
            0) = Pass.escape) ∧
      ∃ st, rehashBuckets (untag t).elemPool
          (max (max n t.size) s_hashTableInitialSize * 2 ^ j) (untag t).buckets
          (List.replicate (max (max n t.size) s_hashTableInitialSize * 2 ^ j) default,
            List.replicate (max (max n t.size) s_hashTableInitialSize * 2 ^ j / 2) default,
            0) = Pass.ok st := by
  have hn0 : 0 < max (max n t.size) s_hashTableInitialSize := by
    simp [s_hashTableInitialSize]
  have hsz : (untag t).size = t.size := rfl
  rcases c1_pass_untag hw _ hn0 with ⟨h2, h3⟩ | ⟨st, h2, hl2⟩
  · have hn1 : 0 < max (max n t.size) s_hashTableInitialSize * 2 := by omega
    rcases c1_pass_untag hw _ hn1 with ⟨_, h5⟩ | ⟨st, h4, hl4⟩
    · exfalso
      have h6 : t.size ≤ max (max n t.size) s_hashTableInitialSize := by omega
      omega
    · have hmax : max (max (max (max n t.size) s_hashTableInitialSize * 2) t.size)
          s_hashTableInitialSize = max (max n t.size) s_hashTableInitialSize * 2 := by
        simp only [s_hashTableInitialSize]
        omega
      have hR2 : Rehash (untag t) n = some (tableOf st t.size) := by
        unfold Rehash
        rw [c1_rehashAux_escape (untag t) 63 n (by rw [hsz]; exact h2)]
        rw [hsz]
        have h4b := h4
        rw [← hmax] at h4b
        exact c1_rehashAux_ok (untag t) 62 _ st (by rw [hsz]; exact h4b)
      refine ⟨1, _, le_refl 1, hR2, by rw [hl4, pow_one], ?_, ⟨st, by simpa using h4⟩⟩
      intro i hi
      have : i = 0 := by omega
      subst this
      simpa using h2
  · have hR2 : Rehash (untag t) n = some (tableOf st t.size) :=
      c1_rehashAux_ok (untag t) 63 n st (by rw [hsz]; exact h2)
    refine ⟨0, _, by omega, hR2, by rw [hl2, pow_zero, Nat.mul_one], ?_,
      ⟨st, by simpa using h2⟩⟩
    intro i hi
    omega

/-- A pass of `Rehash` into a pool that has an element for every entry but one does
not take the escape hatch. -/
theorem c1_pass_room {digest : K → Nat} {t : C1HashTable (K × Nat) V}
    (hw : WF (tagged digest) t) (m : Nat) (hm : 0 < m) (hroom : t.size ≤ m / 2 + 1) :
    ∃ st, rehashBuckets (untag t).elemPool m (untag t).buckets
        (List.replicate m default, List.replicate (m / 2) default, 0) = Pass.ok st := by
  rcases c1_pass_untag hw m hm with ⟨_, h2⟩ | ⟨st, h1, _⟩
  · omega
  · exact ⟨st, h1⟩

end C1HashTable

/-! ## Part IX. D0HashTable -/

namespace D0HashTable

open Chain

variable {K V : Type} [Inhabited K] [Inhabited V] [DecidableEq K]

theorem d0_indexAt_set (bs : List Nat) (b c x : Nat) (hb : b < bs.length) :
    indexAt (bs.set b x) c = if c = b then x else indexAt bs c := by
  unfold indexAt
  by_cases h : c = b
  · subst h; simp [List.getD_eq_getElem?_getD, List.getElem?_set_self hb]
  · have h2 : b ≠ c := fun e => h e.symm
    simp [List.getD_eq_getElem?_getD, List.getElem?_set_ne h2, h]

theorem d0_knAt_set (kns : List (KN K)) (i j : Nat) (x : KN K) (hi : i < kns.length) :
    knAt (kns.set i x) j = if j = i then x else knAt kns j := by
  unfold knAt
  by_cases h : j = i
  · subst h; simp [List.getD_eq_getElem?_getD, List.getElem?_set_self hi]
  · have h2 : i ≠ j := fun e => h e.symm
    simp [List.getD_eq_getElem?_getD, List.getElem?_set_ne h2, h]

theorem d0_knAt_set_ne (kns : List (KN K)) (i j : Nat) (x : KN K) (h : j ≠ i) :
    knAt (kns.set i x) j = knAt kns j := by
  unfold knAt
  have h2 : i ≠ j := fun e => h e.symm
  simp [List.getD_eq_getElem?_getD, List.getElem?_set_ne h2]

theorem d0_valAt_set (vs : List V) (i j : Nat) (x : V) (hi : i < vs.length) :
    valAt (vs.set i x) j = if j = i then x else valAt vs j := by
  unfold valAt
  by_cases h : j = i
  · subst h; simp [List.getD_eq_getElem?_getD, List.getElem?_set_self hi]
  · have h2 : i ≠ j := fun e => h e.symm
    simp [List.getD_eq_getElem?_getD, List.getElem?_set_ne h2, h]

theorem d0_link_of_lt (i : Nat) (h : i < endIndex) : link i = some i := by
  unfold link
  rw [if_neg (by omega)]

theorem d0_link_endIndex : link endIndex = none := by
  unfold link
  rw [if_pos rfl]

theorem d0_link_eq_none (x : Nat) : link x = none ↔ x = endIndex := by
  unfold link
  split <;> simp_all

theorem d0_link_eq_some (x i : Nat) (h : link x = some i) : x = i := by
  unfold link at h
  split at h
  · cases h
  · exact Option.some.inj h

theorem d0_find_congr (hit hit1 : Nat → Bool) (l : List Nat)
    (h : ∀ x ∈ l, hit1 x = hit x) : l.find? hit1 = l.find? hit := by
  induction l with
  | nil => rfl
  | cons a l ih =>
    simp only [List.find?_cons, h a (List.mem_cons_self _ _)]
    rw [ih (fun x hx => h x (List.mem_cons_of_mem _ hx))]

theorem d0_findPrev_congr (hit hit1 : Nat → Bool) (l : List Nat)
    (h : ∀ x ∈ l, hit1 x = hit x) (q : Nat) : findPrev hit1 q l = findPrev hit q l := by
  induction l generalizing q with
  | nil => rfl
  | cons a l ih =>
    simp only [findPrev, h a (List.mem_cons_self _ _)]
    rw [ih (fun x hx => h x (List.mem_cons_of_mem _ hx))]

/-! ### `D0HashTable` simulated by `C0HashTable`

Apart from `Rehash`, `D0HashTable` is `C0HashTable` with indices for pointers and
without the stored hash. -/

/-- The pointer-linked table `c` has the links, keys and values of the index-linked
table `d`. -/
structure Sim (d : D0HashTable K V) (c : C0HashTable K V) : Prop where
  buckets : c.buckets = d.buckets.map (fun x => ⟨link x⟩)
  free : c.pElemFreeHead = link d.nextFree
  lenk : d.keyAndNexts.length = c.elemPool.length
  lenv : d.values.length = c.elemPool.length
  small : c.elemPool.length ≤ endIndex
  next : ∀ i, i < c.elemPool.length →
    (C0HashTable.elemAt c.elemPool i).pNext = link (knAt d.keyAndNexts i).next
  key : ∀ i, i < c.elemPool.length →
    (C0HashTable.elemAt c.elemPool i).key = (knAt d.keyAndNexts i).key
  value : ∀ i, i < c.elemPool.length →
    (C0HashTable.elemAt c.elemPool i).value = valAt d.values i

theorem d0_sim_len {d : D0HashTable K V} {c : C0HashTable K V} (h : Sim d c) :
    c.buckets.length = d.buckets.length := by
  rw [h.buckets, List.length_map]

theorem d0_sim_head {d : D0HashTable K V} {c : C0HashTable K V} (h : Sim d c) (b : Nat)
    (hb : b < d.buckets.length) :
    C0HashTable.headAt c.buckets b = link (indexAt d.buckets b) := by
  unfold C0HashTable.headAt indexAt
  rw [h.buckets, List.getD_eq_getElem?_getD, List.getD_eq_getElem?_getD, List.getElem?_map,
    List.getElem?_eq_getElem hb]
  rfl

/-- The chains of `c` are chains of `d`. -/
theorem d0_sim_chain {d : D0HashTable K V} {c : C0HashTable K V} (h : Sim d c)
    (l : List Nat) (hd : Option Nat) (hl : ∀ i ∈ l, i < c.elemPool.length)
    (hc : IsChain (C0HashTable.nextOf c.elemPool) hd l) :
    IsChain (nextOf d.keyAndNexts) hd l := by
  apply isChain_congr _ hc
  intro i hi
  unfold nextOf C0HashTable.nextOf
  rw [h.next i (hl i hi)]

theorem d0_sim_hit {digest : K → Nat} {d : D0HashTable K V} {c : C0HashTable K V}
    {L : Nat → List Nat} {F used : List Nat} (h : Sim d c)
    (hs : C0HashTable.Shape digest c L F used) (k : K) (i : Nat) (hi : i ∈ used) :
    hitOf d.keyAndNexts k i = C0HashTable.hitOf c.elemPool (HashKey digest k) k i := by
  have hb := hs.bound i (Or.inl hi)
  unfold hitOf C0HashTable.hitOf
  rw [hs.hash_ok i hi, h.key i hb]
  by_cases hk : (knAt d.keyAndNexts i).key = k
  · simp [hk]
  · simp [hk]

/-- `Lookup` of the two tables agree. -/
theorem d0_Lookup_sim {digest : K → Nat} {d : D0HashTable K V} {c : C0HashTable K V}
    {L : Nat → List Nat} {F used : List Nat} (h : Sim d c)
    (hs : C0HashTable.Shape digest c L F used) (k : K) :
    Lookup digest d k = C0HashTable.Lookup digest c k := by
  have hlen := d0_sim_len h
  have hb : C0HashTable.bucketOf digest c k < c.buckets.length :=
    C0HashTable.c0_bucketOf_lt digest c k hs.pos
  have hbd : HashKey digest k &&& (d.buckets.length - 1) < d.buckets.length := by
    rw [← hlen]; exact hb
  have hmem : ∀ i ∈ L (C0HashTable.bucketOf digest c k), i ∈ used :=
    fun i hi => (hs.used_iff i).mpr ⟨_, hb, hi⟩
  have hbound : ∀ i ∈ L (C0HashTable.bucketOf digest c k), i < c.elemPool.length :=
    fun i hi => hs.bound i (Or.inl (hmem i hi))
  have hch := d0_sim_chain h _ _ hbound (hs.chain _ hb)
  rw [d0_sim_head h _ (by rw [← hlen]; exact hb)] at hch
  have hf := chainFind_spec (nextOf d.keyAndNexts) (hitOf d.keyAndNexts k)
    (L (C0HashTable.bucketOf digest c k)) d.keyAndNexts.length _ hch
    (by rw [h.lenk]; exact C0HashTable.c0_chain_length_le hs _ hb)
  rw [C0HashTable.c0_Lookup_shape hs k]
  unfold C0HashTable.bucketOf at hf hmem hbound ⊢
  rw [hlen] at hf hmem hbound ⊢
  simp only [Lookup, hf]
  rw [d0_find_congr _ _ _ (fun x hx => d0_sim_hit h hs k x (hmem x hx))]
  cases hfd : (L (HashKey digest k &&& (d.buckets.length - 1))).find?
    (C0HashTable.hitOf c.elemPool (HashKey digest k) k) with
  | none => rfl
  | some e =>
    have he := List.mem_of_find?_eq_some hfd
    simp only [Option.map_some', Option.some.injEq]
    exact (h.value e (hbound e he)).symm

/-- The second half of `Insert` on both tables: the head `e` of the free list becomes
the head of the chain of the key's bucket. -/
theorem d0_push_sim (digest : K → Nat) {d : D0HashTable K V} {c : C0HashTable K V}
    (h : Sim d c) (e : Nat) (he : c.pElemFreeHead = some e) (hep : e < c.elemPool.length)
    (hpos : 0 < c.buckets.length) (k : K) (v : V) :
    d.nextFree = e ∧
    Sim
      { buckets := d.buckets.set (HashKey digest k &&& (d.buckets.length - 1)) e,
        keyAndNexts := d.keyAndNexts.set e
          ⟨k, indexAt d.buckets (HashKey digest k &&& (d.buckets.length - 1))⟩,
        values := d.values.set e v,
        nextFree := (knAt d.keyAndNexts e).next }
      { buckets := c.buckets.set (C0HashTable.bucketOf digest c k) ⟨some e⟩,
        elemPool := c.elemPool.set e
          ⟨C0HashTable.headAt c.buckets (C0HashTable.bucketOf digest c k), HashKey digest k,
            k, v⟩,
        pElemFreeHead := (C0HashTable.elemAt c.elemPool e).pNext,
        size := c.size + 1 } := by
  have hlen := d0_sim_len h
  have hne : d.nextFree = e := by
    have := h.free
    rw [he] at this
    exact d0_link_eq_some _ _ this.symm
  have hb : HashKey digest k &&& (d.buckets.length - 1) < d.buckets.length := by
    rw [← hlen]; exact C0HashTable.c0_bucketOf_lt digest c k hpos
  have hle : link e = some e := d0_link_of_lt e (by have := h.small; omega)
  refine ⟨hne, ⟨?_, ?_, ?_, ?_, ?_, ?_, ?_, ?_⟩⟩
  · simp only [C0HashTable.bucketOf, hlen, List.map_set, hle]
    rw [h.buckets]
  · exact h.next e hep
  · simp only [List.length_set]; exact h.lenk
  · simp only [List.length_set]; exact h.lenv
  · simp only [List.length_set]; exact h.small
  · intro i hi
    simp only [List.length_set] at hi
    simp only
    rw [C0HashTable.c0_elemAt_set _ _ _ _ hep, d0_knAt_set _ _ _ _ (by rw [h.lenk]; exact hep)]
    by_cases hie : i = e
    · simp only [hie, if_true]
      unfold C0HashTable.bucketOf
      rw [hlen]
      exact d0_sim_head h _ hb
    · simp only [hie, if_false]
      exact h.next i hi
  · intro i hi
    simp only [List.length_set] at hi
    simp only
    rw [C0HashTable.c0_elemAt_set _ _ _ _ hep, d0_knAt_set _ _ _ _ (by rw [h.lenk]; exact hep)]
    by_cases hie : i = e
    · simp only [hie, if_true]
    · simp only [hie, if_false]
      exact h.key i hi
  · intro i hi
    simp only [List.length_set] at hi
    simp only
    rw [C0HashTable.c0_elemAt_set _ _ _ _ hep, d0_valAt_set _ _ _ _ (by rw [h.lenv]; exact hep)]
    by_cases hie : i = e
    · simp only [hie, if_true]
    · simp only [hie, if_false]
      exact h.value i hi

/-- "Put the removed node back on the free list" on both tables. -/
theorem d0_release_sim {d : D0HashTable K V} {c : C0HashTable K V} (h : Sim d c)
    (buckets1 : List C0HashTable.Bucket) (pool1 : List (C0HashTable.Elem K V))
    (bs1 : List Nat) (kns1 : List (KN K)) (e : Nat) (kk : K)
    (hbs : buckets1 = bs1.map (fun x => ⟨link x⟩))
    (hlenp : pool1.length = c.elemPool.length) (hlenk : kns1.length = c.elemPool.length)
    (he : e < c.elemPool.length) (hkk : kk = (knAt kns1 e).key)
    (hnext : ∀ i, i < c.elemPool.length →
      (C0HashTable.elemAt pool1 i).pNext = link (knAt kns1 i).next)
    (hkey : ∀ i, i < c.elemPool.length → (C0HashTable.elemAt pool1 i).key = (knAt kns1 i).key)
    (hval : ∀ i, i < c.elemPool.length → (C0HashTable.elemAt pool1 i).value = valAt d.values i) :
    Sim
      { buckets := bs1, keyAndNexts := kns1.set e ⟨kk, d.nextFree⟩, values := d.values,
        nextFree := e }
      (C0HashTable.release c buckets1 pool1 e) := by
  have hle : link e = some e := d0_link_of_lt e (by have := h.small; omega)
  have hep : e < pool1.length := by rw [hlenp]; exact he
  have hek : e < kns1.length := by rw [hlenk]; exact he
  refine ⟨hbs, hle.symm, ?_, ?_, ?_, ?_, ?_, ?_⟩
  · simp [C0HashTable.release, hlenp, hlenk]
  · simp [C0HashTable.release, hlenp, h.lenv]
  · simp only [C0HashTable.release, List.length_set, hlenp]; exact h.small
  · intro i hi
    simp only [C0HashTable.release, List.length_set, hlenp] at hi ⊢
    rw [C0HashTable.c0_elemAt_set _ _ _ _ hep, d0_knAt_set _ _ _ _ hek]
    by_cases hie : i = e
    · simp only [hie, if_true]
      exact h.free
    · simp only [hie, if_false]
      exact hnext i hi
  · intro i hi
    simp only [C0HashTable.release, List.length_set, hlenp] at hi ⊢
    rw [C0HashTable.c0_elemAt_set _ _ _ _ hep, d0_knAt_set _ _ _ _ hek]
    by_cases hie : i = e
    · simp only [hie, if_true]
      rw [hkk]
      exact hkey e he
    · simp only [hie, if_false]
      exact hkey i hi
  · intro i hi
    simp only [C0HashTable.release, List.length_set, hlenp] at hi ⊢
    rw [C0HashTable.c0_elemAt_set _ _ _ _ hep]
    by_cases hie : i = e
    · simp only [hie, if_true]
      exact hval e he
    · simp only [hie, if_false]
      exact hval i hi

/-- `Remove` of the two tables agree. -/
theorem d0_Remove_sim {digest : K → Nat} {d : D0HashTable K V} {c : C0HashTable K V}
    {L : Nat → List Nat} {F used : List Nat} (h : Sim d c)
    (hs : C0HashTable.Shape digest c L F used) (k : K) :
    ∃ c1 d1 r, C0HashTable.Remove digest c k = some (c1, r) ∧
      Remove digest d k = some (d1, r) ∧ Sim d1 c1 ∧
      d1.buckets.length = d.buckets.length := by
  have hlen := d0_sim_len h
  have hb : C0HashTable.bucketOf digest c k < c.buckets.length :=
    C0HashTable.c0_bucketOf_lt digest c k hs.pos
  have hbd : HashKey digest k &&& (d.buckets.length - 1) < d.buckets.length := by
    rw [← hlen]; exact hb
  have hmem : ∀ i ∈ L (C0HashTable.bucketOf digest c k), i ∈ used :=
    fun i hi => (hs.used_iff i).mpr ⟨_, hb, hi⟩
  have hbound : ∀ i ∈ L (C0HashTable.bucketOf digest c k), i < c.elemPool.length :=
    fun i hi => hs.bound i (Or.inl (hmem i hi))
  have hchain := hs.chain _ hb
  have hlenle := C0HashTable.c0_chain_length_le hs _ hb
  have hheadeq := d0_sim_head h _ hbd
  have hbeq : C0HashTable.bucketOf digest c k =
      HashKey digest k &&& (d.buckets.length - 1) := by
    unfold C0HashTable.bucketOf; rw [hlen]
  rw [hbeq] at hmem hbound hchain hlenle
  have hheadc : C0HashTable.headAt c.buckets (HashKey digest k &&& (c.buckets.length - 1)) =
      C0HashTable.headAt c.buckets (HashKey digest k &&& (d.buckets.length - 1)) := by
    rw [hlen]
  cases hL : L (HashKey digest k &&& (d.buckets.length - 1)) with
  | nil =>
    rw [hL] at hchain
    have hhead : C0HashTable.headAt c.buckets
        (HashKey digest k &&& (d.buckets.length - 1)) = none := hchain
    refine ⟨c, d, false, ?_, ?_, h, rfl⟩
    · simp only [C0HashTable.Remove, hheadc, hhead]
    · rw [hhead] at hheadeq
      simp only [Remove, ← hheadeq]
  | cons q l =>
    rw [hL] at hchain hlenle hmem hbound
    obtain ⟨hhead, hrest⟩ := hchain
    have hhead1 : C0HashTable.headAt c.buckets
        (HashKey digest k &&& (d.buckets.length - 1)) = some q := hhead
    rw [hhead1] at hheadeq
    have hqU : q ∈ used := hmem q (List.mem_cons_self _ _)
    have hqp : q < c.elemPool.length := hbound q (List.mem_cons_self _ _)
    have hhitq := d0_sim_hit h hs k q hqU
    cases hq : C0HashTable.hitOf c.elemPool (HashKey digest k) k q with
    | true =>
      rw [hq] at hhitq
      have hkq : (knAt d.keyAndNexts q).key = k := by
        simpa [hitOf] using hhitq
      refine ⟨C0HashTable.release c
          (c.buckets.set (HashKey digest k &&& (d.buckets.length - 1))
            ⟨(C0HashTable.elemAt c.elemPool q).pNext⟩) c.elemPool q,
        { buckets := d.buckets.set (HashKey digest k &&& (d.buckets.length - 1))
            (knAt d.keyAndNexts q).next,
          keyAndNexts := d.keyAndNexts.set q ⟨(knAt d.keyAndNexts q).key, d.nextFree⟩,
          values := d.values, nextFree := q }, true, ?_, ?_, ?_, ?_⟩
      · simp only [C0HashTable.Remove, hheadc, hhead1, hq, if_true]
        rw [hlen]
      · simp only [Remove, ← hheadeq, hkq, if_true]
      · apply d0_release_sim h _ _ _ _ q _ ?_ rfl h.lenk hqp rfl h.next h.key h.value
        rw [h.buckets, List.map_set, h.next q hqp]
      · simp
    | false =>
      rw [hq] at hhitq
      have hkq : ¬ (knAt d.keyAndNexts q).key = k := by
        simpa [hitOf] using hhitq
      have hfpc := chainFindPrev_spec (C0HashTable.nextOf c.elemPool)
        (C0HashTable.hitOf c.elemPool (HashKey digest k) k) l c.elemPool.length _ q hrest
        (by simp at hlenle; omega)
      have hrestd : IsChain (nextOf d.keyAndNexts) (link (knAt d.keyAndNexts q).next) l := by
        have := d0_sim_chain h l _ (fun i hi => hbound i (List.mem_cons_of_mem _ hi)) hrest
        unfold C0HashTable.nextOf at this
        rw [h.next q hqp] at this
        exact this
      have hfpd := chainFindPrev_spec (nextOf d.keyAndNexts) (hitOf d.keyAndNexts k) l
        d.keyAndNexts.length _ q hrestd (by rw [h.lenk]; simp at hlenle; omega)
      rw [d0_findPrev_congr _ _ l
        (fun x hx => d0_sim_hit h hs k x (hmem x (List.mem_cons_of_mem _ hx))) q] at hfpd
      have hfpc1 : chainFindPrev (C0HashTable.nextOf c.elemPool)
          (C0HashTable.hitOf c.elemPool (HashKey digest k) k) c.elemPool.length
          (C0HashTable.elemAt c.elemPool q).pNext q = _ := hfpc
      cases hfind : findPrev (C0HashTable.hitOf c.elemPool (HashKey digest k) k) q l with
      | none =>
        rw [hfind] at hfpc1 hfpd
        refine ⟨c, d, false, ?_, ?_, h, rfl⟩
        · simp only [C0HashTable.Remove, hheadc, hhead1, hq, Bool.false_eq_true, if_false,
            hfpc1]
        · simp only [Remove, ← hheadeq, hkq, if_false, hfpd]
      | some ep =>
        obtain ⟨e, p⟩ := ep
        rw [hfind] at hfpc1 hfpd
        obtain ⟨A, post, hsplit, hA, hp, he⟩ := findPrev_some _ l q e p hq hfind
        have heL : e ∈ q :: l := by rw [hsplit]; simp
        have hpL : p ∈ q :: l := by rw [hsplit]; simp
        have hep : e < c.elemPool.length := hbound e heL
        have hpp : p < c.elemPool.length := hbound p hpL
        have hpe : p ≠ e := by
          have hnd := hs.nodupL _ hb
          rw [hbeq, hL, hsplit] at hnd
          intro hpe
          have h1 := (List.nodup_cons.mp (List.nodup_append.mp hnd).2.1).1
          exact h1 (by rw [hpe]; exact List.mem_cons_self _ _)
        refine ⟨C0HashTable.release c c.buckets
            (c.elemPool.set p
              ⟨(C0HashTable.elemAt c.elemPool e).pNext, (C0HashTable.elemAt c.elemPool p).hash,
                (C0HashTable.elemAt c.elemPool p).key,
                (C0HashTable.elemAt c.elemPool p).value⟩) e,
          { buckets := d.buckets,
            keyAndNexts :=
              (d.keyAndNexts.set p
                ⟨(knAt d.keyAndNexts p).key, (knAt d.keyAndNexts e).next⟩).set e
                ⟨(knAt d.keyAndNexts e).key, d.nextFree⟩,
            values := d.values, nextFree := e }, true, ?_, ?_, ?_, ?_⟩
        · simp only [C0HashTable.Remove, hheadc, hhead1, hq, Bool.false_eq_true, if_false,
            hfpc1]
        · simp only [Remove, ← hheadeq, hkq, if_false, hfpd]
        · apply d0_release_sim h _ _ _ _ e _ h.buckets (by simp) (by simp [h.lenk]) hep
          · rw [d0_knAt_set_ne _ _ _ _ (Ne.symm hpe)]
          · intro i hi
            rw [C0HashTable.c0_elemAt_set _ _ _ _ hpp,
              d0_knAt_set _ _ _ _ (by rw [h.lenk]; exact hpp)]
            by_cases hip : i = p
            · simp only [hip, if_true]
              exact h.next e hep
            · simp only [hip, if_false]
              exact h.next i hi
          · intro i hi
            rw [C0HashTable.c0_elemAt_set _ _ _ _ hpp,
              d0_knAt_set _ _ _ _ (by rw [h.lenk]; exact hpp)]
            by_cases hip : i = p
            · simp only [hip, if_true]
              exact h.key p hpp
            · simp only [hip, if_false]
              exact h.key i hi
          · intro i hi
            rw [C0HashTable.c0_elemAt_set _ _ _ _ hpp]
            by_cases hip : i = p
            · simp only [hip, if_true]
              exact h.value p hpp
            · simp only [hip, if_false]
              exact h.value i hi
        · rfl

/-! ### `Rehash`: the chains are relinked in place -/

theorem d0_nextOf_set (kns : List (KN K)) (i : Nat) (x : KN K) (hi : i < kns.length) :
    nextOf (kns.set i x) = Function.update (nextOf kns) i (link x.next) := by
  funext j
  unfold nextOf
  rw [d0_knAt_set kns i j x hi]
  by_cases h : j = i
  · subst h; simp
  · simp [h]

/-- One step of the loops of `Rehash`: node `i` becomes the head of the chain of its
new bucket. -/
def relink (digest : K → Nat) (st : List Nat × List (KN K)) (i : Nat) :
    List Nat × List (KN K) :=
  (st.1.set (HashKey digest (knAt st.2 i).key &&& (st.1.length - 1)) i,
    st.2.set i ⟨(knAt st.2 i).key,
      indexAt st.1 (HashKey digest (knAt st.2 i).key &&& (st.1.length - 1))⟩)

theorem d0_rehashChain_step (digest : K → Nat) (fuel i : Nat) (st : List Nat × List (KN K)) :
    rehashChain digest (fuel + 1) (some i) st =
      rehashChain digest fuel (link (knAt st.2 i).next) (relink digest st i) := by
  obtain ⟨bn, ks⟩ := st
  simp only [rehashChain, relink]
  split
  · rename_i hnew
    rw [hnew]
  · rfl

theorem d0_length_relink (digest : K → Nat) (l : List Nat) :
    ∀ st : List Nat × List (KN K), (l.foldl (relink digest) st).1.length = st.1.length ∧
      (l.foldl (relink digest) st).2.length = st.2.length := by
  induction l with
  | nil => intro st; exact ⟨rfl, rfl⟩
  | cons i l ih =>
    intro st
    simp only [List.foldl_cons]
    obtain ⟨h1, h2⟩ := ih (relink digest st i)
    rw [h1, h2]
    simp [relink]

theorem d0_knAt_relink (digest : K → Nat) (l : List Nat) (j : Nat) (hj : j ∉ l) :
    ∀ st : List Nat × List (KN K), knAt (l.foldl (relink digest) st).2 j = knAt st.2 j := by
  induction l with
  | nil => intro st; rfl
  | cons i l ih =>
    intro st
    simp only [List.mem_cons, not_or] at hj
    simp only [List.foldl_cons]
    rw [ih hj.2]
    exact d0_knAt_set_ne _ _ _ _ hj.1

theorem d0_rehashChain_eq (digest : K → Nat) :
    ∀ (l : List Nat) (fuel : Nat) (h : Option Nat) (st : List Nat × List (KN K)),
      IsChain (nextOf st.2) h l → l.Nodup → (∀ i ∈ l, i < st.2.length) → l.length ≤ fuel →
      rehashChain digest fuel h st = some (l.foldl (relink digest) st) := by
  intro l
  induction l with
  | nil =>
    intro fuel h st hl _ _ _
    have : h = none := hl
    subst this
    cases fuel <;> rfl
  | cons i l ih =>
    intro fuel h st hl hnd hb hf
    obtain ⟨h1, h2⟩ := hl
    subst h1
    cases fuel with
    | zero => simp at hf
    | succ fuel =>
      rw [d0_rehashChain_step, List.foldl_cons]
      have hi : i < st.2.length := hb i (List.mem_cons_self _ _)
      apply ih fuel _ _ _ (List.nodup_cons.mp hnd).2
      · intro x hx
        simp only [relink, List.length_set]
        exact hb x (List.mem_cons_of_mem _ hx)
      · simpa using hf
      · simp only [relink]
        rw [d0_nextOf_set _ _ _ hi]
        exact isChain_update i _ (List.nodup_cons.mp hnd).1 h2

theorem d0_rehashBuckets_eq (digest : K → Nat) (L : Nat → List Nat) :
    ∀ (hs : List Nat) (j : Nat) (st : List Nat × List (KN K)),
      (∀ i, i < hs.length → IsChain (nextOf st.2) (link (indexAt hs i)) (L (j + i)) ∧
        (L (j + i)).Nodup ∧ (∀ x ∈ L (j + i), x < st.2.length) ∧
        (L (j + i)).length ≤ st.2.length) →
      (∀ i i1, i < hs.length → i1 < hs.length → i ≠ i1 → ∀ x ∈ L (j + i), x ∉ L (j + i1)) →
      rehashBuckets digest hs st =
        some (((List.range' j hs.length).flatMap L).foldl (relink digest) st) := by
  intro hs
  induction hs with
  | nil => intro j st _ _; rfl
  | cons b rest ih =>
    intro j st hb hdis
    have h0 := hb 0 (by simp)
    simp only [Nat.add_zero] at h0
    have hc := d0_rehashChain_eq digest (L j) st.2.length (link b) st h0.1 h0.2.1 h0.2.2.1
      h0.2.2.2
    simp only [rehashBuckets, hc, List.length_cons, List.range'_succ, List.flatMap_cons,
      List.foldl_append]
    apply ih (j + 1)
    · intro i hi
      have := hb (i + 1) (by simpa using hi)
      have e : j + (i + 1) = j + 1 + i := by omega
      rw [e] at this
      obtain ⟨h1, h2, h3, h4⟩ := this
      have hlen := (d0_length_relink digest (L j) st).2
      refine ⟨?_, h2, ?_, ?_⟩
      · have h1b : IsChain (nextOf st.2) (link (indexAt rest i)) (L (j + 1 + i)) := h1
        apply isChain_congr _ h1b
        intro x hx
        unfold nextOf
        rw [d0_knAt_relink digest (L j) x]
        intro hxj
        have := hdis (i + 1) 0 (by simpa using hi) (by simp) (by omega) x
          (by rw [e]; exact hx)
        exact this hxj
      · intro x hx; rw [hlen]; exact h3 x hx
      · rw [hlen]; exact h4
    · intro i i1 hi hi1 hne x hx
      have := hdis (i + 1) (i1 + 1) (by simpa using hi) (by simpa using hi1) (by omega) x
        (by rw [show j + (i + 1) = j + 1 + i by omega]; exact hx)
      rw [show j + (i1 + 1) = j + 1 + i1 by omega] at this
      exact this

/-- State of the loops of `Rehash` after the nodes `done` were relinked: `L1 b` is the
new chain of bucket `b`, the keys are where they were, and the nodes not yet relinked
still have their old link. -/
structure Relinked (digest : K → Nat) (n1 : Nat) (kns0 : List (KN K))
    (st : List Nat × List (KN K)) (L1 : Nat → List Nat) (done : List Nat) : Prop where
  lenb : st.1.length = n1
  lenk : st.2.length = kns0.length
  key : ∀ j, (knAt st.2 j).key = (knAt kns0 j).key
  next : ∀ j, j ∉ done → (knAt st.2 j).next = (knAt kns0 j).next
  chain : ∀ b, b < n1 → IsChain (nextOf st.2) (link (indexAt st.1 b)) (L1 b)
  nodupL : ∀ b, b < n1 → (L1 b).Nodup
  mem : ∀ i, i ∈ done ↔ ∃ b, b < n1 ∧ i ∈ L1 b
  home : ∀ b, b < n1 → ∀ i ∈ L1 b, HashKey digest (knAt kns0 i).key &&& (n1 - 1) = b

theorem d0_indexAt_replicate (n b x : Nat) (hb : b < n) :
    indexAt (List.replicate n x) b = x := by
  unfold indexAt
  rw [List.getD_eq_getElem?_getD, List.getElem?_replicate]
  simp [hb]

theorem d0_relinked_init (digest : K → Nat) (n1 : Nat) (kns0 : List (KN K)) :
    Relinked digest n1 kns0 (List.replicate n1 endIndex, kns0) (fun _ => []) [] := by
  refine ⟨by simp, rfl, fun _ => rfl, fun _ _ => rfl, ?_, fun _ _ => List.nodup_nil,
    by simp, by simp⟩
  intro b hb
  show link (indexAt (List.replicate n1 endIndex) b) = none
  rw [d0_indexAt_replicate _ _ _ hb]
  exact d0_link_endIndex

theorem d0_relinked_step {digest : K → Nat} {n1 : Nat} {kns0 : List (KN K)}
    {st : List Nat × List (KN K)} {L1 : Nat → List Nat} {done : List Nat}
    (h : Relinked digest n1 kns0 st L1 done) (hn : 0 < n1) (i : Nat) (hi : i ∉ done)
    (hik : i < kns0.length) (hie : i < endIndex) :
    Relinked digest n1 kns0 (relink digest st i)
      (Function.update L1 (HashKey digest (knAt kns0 i).key &&& (n1 - 1))
        (i :: L1 (HashKey digest (knAt kns0 i).key &&& (n1 - 1))))
      (done ++ [i]) := by
  obtain ⟨bn, ks⟩ := st
  have hlenb : bn.length = n1 := h.lenb
  have hlenk : ks.length = kns0.length := h.lenk
  have hkey : (knAt ks i).key = (knAt kns0 i).key := h.key i
  have hb : HashKey digest (knAt kns0 i).key &&& (n1 - 1) < n1 := OpenAddr.start_lt _ _ hn
  have hrl : relink digest (bn, ks) i =
      (bn.set (HashKey digest (knAt kns0 i).key &&& (n1 - 1)) i,
        ks.set i ⟨(knAt kns0 i).key,
          indexAt bn (HashKey digest (knAt kns0 i).key &&& (n1 - 1))⟩) := by
    simp only [relink, hkey, hlenb]
  rw [hrl]
  have hiks : i < ks.length := by rw [hlenk]; exact hik
  have hat : ∀ j, knAt (ks.set i ⟨(knAt kns0 i).key,
      indexAt bn (HashKey digest (knAt kns0 i).key &&& (n1 - 1))⟩) j =
      if j = i then ⟨(knAt kns0 i).key,
        indexAt bn (HashKey digest (knAt kns0 i).key &&& (n1 - 1))⟩ else knAt ks j :=
    fun j => d0_knAt_set _ _ _ _ hiks
  have hhd : ∀ c, indexAt (bn.set (HashKey digest (knAt kns0 i).key &&& (n1 - 1)) i) c =
      if c = HashKey digest (knAt kns0 i).key &&& (n1 - 1) then i else indexAt bn c :=
    fun c => d0_indexAt_set _ _ _ _ (by rw [hlenb]; exact hb)
  have hnotin : ∀ b, b < n1 → i ∉ L1 b :=
    fun b hb1 hmem => hi ((h.mem i).mpr ⟨b, hb1, hmem⟩)
  refine ⟨by simp [hlenb], by simp [hlenk], ?_, ?_, ?_, ?_, ?_, ?_⟩
  · intro j
    show (knAt (ks.set i _) j).key = _
    rw [hat]
    by_cases hji : j = i
    · rw [if_pos hji, hji]
    · rw [if_neg hji]; exact h.key j
  · intro j hj
    simp only [List.mem_append, List.mem_singleton, not_or] at hj
    show (knAt (ks.set i _) j).next = _
    rw [hat, if_neg hj.2]
    exact h.next j hj.1
  · intro c hc
    show IsChain (nextOf (ks.set i _)) (link (indexAt (bn.set _ i) c)) _
    rw [hhd, d0_nextOf_set _ _ _ hiks]
    by_cases hcb : c = HashKey digest (knAt kns0 i).key &&& (n1 - 1)
    · subst hcb
      simp only [if_true, Function.update_same]
      refine ⟨d0_link_of_lt i hie, ?_⟩
      simp only [Function.update_same]
      exact isChain_update i _ (hnotin _ hc) (h.chain _ hc)
    · simp only [hcb, if_false, ne_eq, not_false_eq_true, Function.update_noteq]
      exact isChain_update i _ (hnotin _ hc) (h.chain _ hc)
  · intro c hc
    by_cases hcb : c = HashKey digest (knAt kns0 i).key &&& (n1 - 1)
    · subst hcb
      simp only [Function.update_same]
      exact List.nodup_cons.mpr ⟨hnotin _ hc, h.nodupL _ hc⟩
    · simp only [ne_eq, hcb, not_false_eq_true, Function.update_noteq]
      exact h.nodupL _ hc
  · intro x
    simp only [List.mem_append, List.mem_singleton]
    constructor
    · rintro (hx | hx)
      · obtain ⟨c, hc, hxc⟩ := (h.mem x).mp hx
        refine ⟨c, hc, ?_⟩
        by_cases hcb : c = HashKey digest (knAt kns0 i).key &&& (n1 - 1)
        · subst hcb; simp [hxc]
        · simp [hcb, hxc]
      · exact ⟨_, hb, by rw [hx]; simp⟩
    · rintro ⟨c, hc, hxc⟩
      by_cases hcb : c = HashKey digest (knAt kns0 i).key &&& (n1 - 1)
      · subst hcb
        simp only [Function.update_same, List.mem_cons] at hxc
        rcases hxc with hxi | hxc
        · exact Or.inr hxi
        · exact Or.inl ((h.mem x).mpr ⟨_, hc, hxc⟩)
      · simp only [ne_eq, hcb, not_false_eq_true, Function.update_noteq] at hxc
        exact Or.inl ((h.mem x).mpr ⟨c, hc, hxc⟩)
  · intro c hc x hx
    by_cases hcb : c = HashKey digest (knAt kns0 i).key &&& (n1 - 1)
    · subst hcb
      simp only [Function.update_same, List.mem_cons] at hx
      rcases hx with hxi | hx
      · rw [hxi]
      · exact h.home _ hc x hx
    · simp only [ne_eq, hcb, not_false_eq_true, Function.update_noteq] at hx
      exact h.home _ hc x hx

theorem d0_relinked_fold (digest : K → Nat) {n1 : Nat} {kns0 : List (KN K)} (hn : 0 < n1) :
    ∀ (todo : List Nat) (st : List Nat × List (KN K)) (L1 : Nat → List Nat)
      (done : List Nat), Relinked digest n1 kns0 st L1 done → (done ++ todo).Nodup →
      (∀ i ∈ todo, i < kns0.length ∧ i < endIndex) →
      ∃ L2, Relinked digest n1 kns0 (todo.foldl (relink digest) st) L2 (done ++ todo) := by
  intro todo
  induction todo with
  | nil =>
    intro st L1 done h _ _
    exact ⟨L1, by simpa using h⟩
  | cons i todo ih =>
    intro st L1 done h hnd hb
    have hi : i ∉ done := by
      intro hmem
      exact (List.nodup_append.mp hnd).2.2 hmem (List.mem_cons_self _ _)
    obtain ⟨h1, h2⟩ := hb i (List.mem_cons_self _ _)
    have hstep := d0_relinked_step h hn i hi h1 h2
    have hdt : done ++ i :: todo = (done ++ [i]) ++ todo := by simp
    rw [hdt] at hnd ⊢
    exact ih _ _ _ hstep hnd (fun x hx => hb x (List.mem_cons_of_mem _ hx))

/-! ### The pointer-linked table of an index-linked table -/

/-- The `C0HashTable` with the links, keys and values of `d`; `size` is not stored by
`D0HashTable` and given. -/
def abs (digest : K → Nat) (d : D0HashTable K V) (size : Nat) : C0HashTable K V :=
  { buckets := d.buckets.map (fun x => ⟨link x⟩),
    elemPool := (List.range d.keyAndNexts.length).map (fun i =>
      ⟨link (knAt d.keyAndNexts i).next, HashKey digest (knAt d.keyAndNexts i).key,
        (knAt d.keyAndNexts i).key, valAt d.values i⟩),
    pElemFreeHead := link d.nextFree,
    size := size }

theorem d0_elemAt_abs (digest : K → Nat) (d : D0HashTable K V) (size i : Nat)
    (hi : i < d.keyAndNexts.length) :
    C0HashTable.elemAt (abs digest d size).elemPool i =
      ⟨link (knAt d.keyAndNexts i).next, HashKey digest (knAt d.keyAndNexts i).key,
        (knAt d.keyAndNexts i).key, valAt d.values i⟩ := by
  unfold C0HashTable.elemAt abs
  simp only
  rw [List.getD_eq_getElem?_getD, List.getElem?_map, List.getElem?_range hi]
  rfl

theorem d0_sim_abs (digest : K → Nat) (d : D0HashTable K V) (size : Nat)
    (hv : d.values.length = d.keyAndNexts.length) (hsmall : d.keyAndNexts.length ≤ endIndex) :
    Sim d (abs digest d size) := by
  have hlen : (abs digest d size).elemPool.length = d.keyAndNexts.length := by
    simp [abs]
  refine ⟨rfl, rfl, hlen.symm, by rw [hlen]; exact hv, by rw [hlen]; exact hsmall, ?_, ?_, ?_⟩
  · intro i hi
    rw [d0_elemAt_abs digest d size i (by rw [← hlen]; exact hi)]
  · intro i hi
    rw [d0_elemAt_abs digest d size i (by rw [← hlen]; exact hi)]
  · intro i hi
    rw [d0_elemAt_abs digest d size i (by rw [← hlen]; exact hi)]

/-- The chains of `d` are chains of `c`. -/
theorem d0_sim_chain_rev {d : D0HashTable K V} {c : C0HashTable K V} (h : Sim d c)
    (l : List Nat) (hd : Option Nat) (hl : ∀ i ∈ l, i < c.elemPool.length)
    (hc : IsChain (nextOf d.keyAndNexts) hd l) :
    IsChain (C0HashTable.nextOf c.elemPool) hd l := by
  apply isChain_congr _ hc
  intro i hi
  unfold nextOf C0HashTable.nextOf
  rw [h.next i (hl i hi)]

/-! ### The enlarged pool and its free list -/

theorem d0_length_resize {α : Type} [Inhabited α] (l : List α) (n : Nat) :
    (resize l n).length = n := by
  simp only [resize, List.length_append, List.length_take, List.length_replicate]
  omega

theorem d0_getD_resize {α : Type} [Inhabited α] (l : List α) (n j : Nat)
    (h : l.length ≤ n) : (resize l n).getD j default = l.getD j default := by
  unfold resize
  rw [List.take_of_length_le h, List.getD_eq_getElem?_getD, List.getD_eq_getElem?_getD]
  by_cases hj : j < l.length
  · rw [List.getElem?_append_left hj]
  · rw [List.getElem?_append_right (by omega), List.getElem?_replicate,
      List.getElem?_eq_none (by omega)]
    split <;> rfl

theorem d0_length_linkFree (cnt i : Nat) (kns : List (KN K)) :
    (linkFree cnt i kns).length = kns.length := by
  induction cnt generalizing i kns with
  | zero => rfl
  | succ cnt ih => simp [linkFree, ih]

theorem d0_knAt_linkFree (cnt i : Nat) (kns : List (KN K)) (h : i + cnt ≤ kns.length)
    (j : Nat) :
    knAt (linkFree cnt i kns) j =
      if i ≤ j ∧ j < i + cnt then ⟨(knAt kns j).key, j + 1⟩ else knAt kns j := by
  induction cnt generalizing i kns with
  | zero =>
    simp only [linkFree, Nat.add_zero]
    rw [if_neg (by omega)]
  | succ cnt ih =>
    simp only [linkFree]
    rw [ih (i + 1) _ (by simp; omega)]
    rw [d0_knAt_set _ _ _ _ (by omega)]
    by_cases hji : j = i
    · subst hji
      rw [if_neg (by omega), if_pos rfl, if_pos (by omega)]
    · rw [if_neg hji]
      by_cases hr : i + 1 ≤ j ∧ j < i + 1 + cnt
      · rw [if_pos hr, if_pos (by omega)]
      · rw [if_neg hr, if_neg (by omega)]

/-- The nodes `m .. n1 - 1`, each linked to the next and the last to the chain `B`. -/
theorem d0_isChain_segment (next : Nat → Option Nat) (n1 : Nat) (hB : Option Nat)
    (B : List Nat) (hchB : IsChain next hB B) :
    ∀ (cnt m : Nat), m + cnt = n1 → (∀ j, m ≤ j → j + 1 < n1 → next j = some (j + 1)) →
      (0 < n1 → next (n1 - 1) = hB) →
      IsChain next (if 0 < cnt then some m else hB) (List.range' m cnt ++ B) := by
  intro cnt
  induction cnt with
  | zero =>
    intro m _ _ _
    simpa using hchB
  | succ cnt ih =>
    intro m hm hnext hlast
    rw [if_pos (by omega), List.range'_succ, List.cons_append]
    refine ⟨rfl, ?_⟩
    have := ih (m + 1) (by omega) (fun j hj hj2 => hnext j (by omega) hj2) hlast
    by_cases hc : 0 < cnt
    · rw [if_pos hc] at this
      rw [hnext m (le_refl _) (by omega)]
      exact this
    · rw [if_neg hc] at this
      have hmn : m = n1 - 1 := by omega
      rw [hmn, hlast (by omega)]
      rw [hmn] at this
      have e : n1 - 1 + 1 = m + 1 := by omega
      rw [e, hmn]
      exact this

/-- `Rehash(n1)` with more buckets than before relinks the chains in place: the nodes
in use, their keys and values stay, and the new nodes come in front of the free list. -/
theorem d0_Rehash_spec {digest : K → Nat} {d : D0HashTable K V} {c : C0HashTable K V}
    {L : Nat → List Nat} {F used : List Nat} (h : Sim d c)
    (hs : C0HashTable.Shape digest c L F used) (hk : C0HashTable.KeysInj c used)
    (n1 : Nat) (hgrow : d.buckets.length < n1) (hn1 : n1 ≤ endIndex) :
    ∃ d1 L1, Rehash digest d n1 = some d1 ∧ d1.buckets.length = n1 ∧
      d1.keyAndNexts.length = n1 ∧ d1.values.length = n1 ∧
      C0HashTable.Shape digest (abs digest d1 c.size) L1
        (List.range' d.buckets.length (n1 - d.buckets.length) ++ F) used ∧
      C0HashTable.KeysInj (abs digest d1 c.size) used ∧
      ∀ x w, C0HashTable.Holds (abs digest d1 c.size) used x w ↔
        C0HashTable.Holds c used x w := by
  have hlen := d0_sim_len h
  have hpool : c.elemPool.length = d.buckets.length := by rw [hs.pool_len, hlen]
  have hkl : d.keyAndNexts.length = d.buckets.length := by rw [h.lenk, hpool]
  have hvl : d.values.length = d.buckets.length := by rw [h.lenv, hpool]
  have hend : endIndex = 2 ^ 32 - 1 := rfl
  have hn1pos : 0 < n1 := by omega
  have hsize : d.buckets.length % 2 ^ 32 = d.buckets.length :=
    Nat.mod_eq_of_lt (by omega)
  have hk0len : (resize d.keyAndNexts n1).length = n1 := d0_length_resize _ _
  have hk0at : ∀ j, knAt (resize d.keyAndNexts n1) j = knAt d.keyAndNexts j :=
    fun j => d0_getD_resize _ _ j (by omega)
  have hv0at : ∀ j, valAt (resize d.values n1) j = valAt d.values j :=
    fun j => d0_getD_resize _ _ j (by omega)
  have hnx0 : nextOf (resize d.keyAndNexts n1) = nextOf d.keyAndNexts := by
    funext j
    unfold nextOf
    rw [hk0at]
  have hTmem := C0HashTable.c0_mem_traversal hs
  have hTnd := C0HashTable.c0_nodup_traversal hs
  have hUlt : ∀ i ∈ used, i < d.buckets.length :=
    fun i hi => by rw [← hpool]; exact hs.bound i (Or.inl hi)
  have hFlt : ∀ i ∈ F, i < d.buckets.length :=
    fun i hi => by rw [← hpool]; exact hs.bound i (Or.inr hi)
  have hLU : ∀ b, b < d.buckets.length → ∀ i ∈ L b, i ∈ used :=
    fun b hb i hi => (hs.used_iff i).mpr ⟨b, by rw [hlen]; exact hb, hi⟩
  -- the loops
  have hloops := d0_rehashBuckets_eq digest L d.buckets 0
    (List.replicate n1 endIndex, resize d.keyAndNexts n1)
    (by
      intro i hi
      rw [Nat.zero_add]
      have hic : i < c.buckets.length := by rw [hlen]; exact hi
      refine ⟨?_, hs.nodupL i hic, ?_, ?_⟩
      · show IsChain (nextOf (resize d.keyAndNexts n1)) _ _
        rw [hnx0, ← d0_sim_head h i hi]
        exact d0_sim_chain h _ _
          (fun x hx => by rw [hpool]; exact hUlt x (hLU i hi x hx)) (hs.chain i hic)
      · intro x hx
        show x < (resize d.keyAndNexts n1).length
        rw [hk0len]
        have := hUlt x (hLU i hi x hx)
        omega
      · show (L i).length ≤ (resize d.keyAndNexts n1).length
        rw [hk0len]
        have := C0HashTable.c0_chain_length_le hs i hic
        omega)
    (by
      intro i i1 hi hi1 hne x hx hx1
      rw [Nat.zero_add] at hx hx1
      exact hne (C0HashTable.c0_chain_disjoint hs i i1 x (by rw [hlen]; exact hi)
        (by rw [hlen]; exact hi1) hx hx1))
  rw [← List.range_eq_range'] at hloops
  have hTdef : (List.range d.buckets.length).flatMap L =
      C0HashTable.traversal c.buckets.length L := by
    unfold C0HashTable.traversal; rw [hlen]
  rw [hTdef] at hloops
  obtain ⟨L2, hR⟩ := d0_relinked_fold digest hn1pos
    (C0HashTable.traversal c.buckets.length L)
    (List.replicate n1 endIndex, resize d.keyAndNexts n1) (fun _ => []) []
    (d0_relinked_init digest n1 (resize d.keyAndNexts n1))
    (by simpa using hTnd)
    (by
      intro i hi
      have := hUlt i ((hTmem i).mp hi)
      rw [hk0len]
      omega)
  simp only [List.nil_append] at hR
  generalize hst : (C0HashTable.traversal c.buckets.length L).foldl (relink digest)
    (List.replicate n1 endIndex, resize d.keyAndNexts n1) = stF at hloops hR
  obtain ⟨bnF, ksF⟩ := stF
  have hbnF : bnF.length = n1 := hR.lenb
  have hksF : ksF.length = n1 := by rw [← hk0len]; exact hR.lenk
  have hL2U : ∀ b, b < n1 → ∀ i ∈ L2 b, i ∈ used :=
    fun b hb i hi => (hTmem i).mp ((hR.mem i).mpr ⟨b, hb, hi⟩)
  -- the final pool
  have hLat : ∀ j, knAt (linkFree (n1 - d.buckets.length) d.buckets.length ksF) j =
      if d.buckets.length ≤ j ∧ j < d.buckets.length + (n1 - d.buckets.length) then
        ⟨(knAt ksF j).key, j + 1⟩ else knAt ksF j :=
    fun j => d0_knAt_linkFree _ _ _ (by omega) j
  have hZat : ∀ j, knAt ((linkFree (n1 - d.buckets.length) d.buckets.length ksF).set (n1 - 1)
      ⟨(knAt (linkFree (n1 - d.buckets.length) d.buckets.length ksF) (n1 - 1)).key,
        d.nextFree⟩) j =
      if j = n1 - 1 then
        ⟨(knAt (linkFree (n1 - d.buckets.length) d.buckets.length ksF) (n1 - 1)).key,
          d.nextFree⟩
      else knAt (linkFree (n1 - d.buckets.length) d.buckets.length ksF) j :=
    fun j => d0_knAt_set _ _ _ _ (by rw [d0_length_linkFree]; omega)
  generalize hksZ : (linkFree (n1 - d.buckets.length) d.buckets.length ksF).set (n1 - 1)
      ⟨(knAt (linkFree (n1 - d.buckets.length) d.buckets.length ksF) (n1 - 1)).key,
        d.nextFree⟩ = ksZ at hZat
  have hZlen : ksZ.length = n1 := by
    rw [← hksZ, List.length_set, d0_length_linkFree, hksF]
  have hFkey : ∀ j, (knAt ksF j).key = (knAt d.keyAndNexts j).key := by
    intro j; rw [hR.key j, hk0at]
  have hZkey : ∀ j, (knAt ksZ j).key = (knAt d.keyAndNexts j).key := by
    intro j
    rw [hZat]
    by_cases hj : j = n1 - 1
    · rw [if_pos hj, hLat]
      simp only
      rw [← hj]
      split <;> exact hFkey j
    · rw [if_neg hj, hLat]
      split <;> exact hFkey j
  have hZlow : ∀ j, j < d.buckets.length → (knAt ksZ j).next = (knAt ksF j).next := by
    intro j hj
    rw [hZat, if_neg (by omega), hLat, if_neg (by omega)]
  have hZmid : ∀ j, d.buckets.length ≤ j → j + 1 < n1 → (knAt ksZ j).next = j + 1 := by
    intro j hj hj2
    rw [hZat, if_neg (by omega), hLat, if_pos (by omega)]
  have hZlast : (knAt ksZ (n1 - 1)).next = d.nextFree := by
    rw [hZat, if_pos rfl]
  have hZfree : ∀ j, j ∈ F → (knAt ksZ j).next = (knAt d.keyAndNexts j).next := by
    intro j hj
    have hjU : j ∉ used := fun hu => hs.disj j hu hj
    rw [hZlow j (hFlt j hj), hR.next j (fun hT => hjU ((hTmem j).mp hT)), hk0at]
  -- the new table
  have hvlen : (resize d.values n1).length = n1 := d0_length_resize _ _
  have hsim1 : Sim (⟨bnF, ksZ, resize d.values n1, d.buckets.length⟩ : D0HashTable K V)
      (abs digest (⟨bnF, ksZ, resize d.values n1, d.buckets.length⟩ : D0HashTable K V)
        c.size) :=
    d0_sim_abs digest _ c.size (by rw [hvlen]; exact hZlen.symm) (by rw [hZlen]; exact hn1)
  generalize hc1 : abs digest
      (⟨bnF, ksZ, resize d.values n1, d.buckets.length⟩ : D0HashTable K V) c.size = c1
    at hsim1
  have hc1b : c1.buckets.length = n1 := by rw [d0_sim_len hsim1]; exact hbnF
  have hc1p : c1.elemPool.length = n1 := by rw [← hsim1.lenk]; exact hZlen
  have hc1s : c1.size = c.size := by rw [← hc1]; rfl
  have hc1h : ∀ i, i < n1 → (C0HashTable.elemAt c1.elemPool i).hash =
      HashKey digest (knAt d.keyAndNexts i).key := by
    intro i hi
    rw [← hc1, d0_elemAt_abs digest _ c.size i (by show i < ksZ.length; rw [hZlen]; exact hi)]
    show HashKey digest (knAt ksZ i).key = _
    rw [hZkey]
  have hc1k : ∀ i, i < d.buckets.length → (C0HashTable.elemAt c1.elemPool i).key =
      (C0HashTable.elemAt c.elemPool i).key := by
    intro i hi
    rw [hsim1.key i (by rw [hc1p]; omega), h.key i (by rw [hpool]; exact hi)]
    exact hZkey i
  have hc1v : ∀ i, i < d.buckets.length → (C0HashTable.elemAt c1.elemPool i).value =
      (C0HashTable.elemAt c.elemPool i).value := by
    intro i hi
    rw [hsim1.value i (by rw [hc1p]; omega), h.value i (by rw [hpool]; exact hi)]
    exact hv0at i
  have hShape : C0HashTable.Shape digest c1 L2
      (List.range' d.buckets.length (n1 - d.buckets.length) ++ F) used := by
    refine ⟨by rw [hc1b]; exact hn1pos, by rw [hc1p, hc1b], ?_, ?_, ?_, ?_, hs.nodupU, ?_, ?_,
      ?_, ?_, ?_, ?_, ?_⟩
    · intro b hb
      rw [hc1b] at hb
      rw [d0_sim_head hsim1 b (by show b < bnF.length; rw [hbnF]; exact hb)]
      apply d0_sim_chain_rev hsim1 _ _
        (fun x hx => by rw [hc1p]; have := hUlt x (hL2U b hb x hx); omega)
      show IsChain (nextOf ksZ) (link (indexAt bnF b)) (L2 b)
      apply isChain_congr _ (hR.chain b hb)
      intro x hx
      unfold nextOf
      rw [hZlow x (hUlt x (hL2U b hb x hx))]
    · rw [hsim1.free]
      apply d0_sim_chain_rev hsim1 _ _
        (fun x hx => by
          rw [hc1p]
          rcases List.mem_append.mp hx with hx | hx
          · rw [List.mem_range'_1] at hx; omega
          · have := hFlt x hx; omega)
      show IsChain (nextOf ksZ) (link d.buckets.length) _
      have hFch : IsChain (nextOf ksZ) (link d.nextFree) F := by
        have h1 := d0_sim_chain h F _ (fun x hx => by rw [hpool]; exact hFlt x hx) hs.free
        rw [h.free] at h1
        apply isChain_congr _ h1
        intro x hx
        unfold nextOf
        rw [hZfree x hx]
      have := d0_isChain_segment (nextOf ksZ) n1 (link d.nextFree) F hFch
        (n1 - d.buckets.length) d.buckets.length (by omega)
        (by
          intro j hj hj2
          unfold nextOf
          rw [hZmid j hj hj2]
          exact d0_link_of_lt _ (by omega))
        (by
          intro _
          unfold nextOf
          rw [hZlast])
      rw [if_pos (by omega)] at this
      rw [d0_link_of_lt _ (by omega)]
      exact this
    · intro b hb
      rw [hc1b] at hb
      exact hR.nodupL b hb
    · rw [List.nodup_append]
      refine ⟨List.nodup_range' _ _, hs.nodupF, ?_⟩
      intro x hx1 hx2
      rw [List.mem_range'_1] at hx1
      have := hFlt x hx2
      omega
    · intro i
      rw [hc1b, ← hTmem i]
      exact hR.mem i
    · intro i hi hiF
      rcases List.mem_append.mp hiF with hx | hx
      · rw [List.mem_range'_1] at hx
        have := hUlt i hi
        omega
      · exact hs.disj i hi hx
    · intro i hi
      rw [hc1p]
      rcases hi with hi | hi
      · have := hUlt i hi; omega
      · rcases List.mem_append.mp hi with hx | hx
        · rw [List.mem_range'_1] at hx; omega
        · have := hFlt i hx; omega
    · rw [List.length_append, List.length_range', hc1p]
      have := hs.cover
      rw [hpool] at this
      omega
    · intro b hb i hi
      rw [hc1b] at hb ⊢
      rw [hc1h i (by have := hUlt i (hL2U b hb i hi); omega), ← hk0at]
      exact hR.home b hb i hi
    · intro i hi
      have hin := hUlt i hi
      rw [hc1h i (by omega), hsim1.key i (by rw [hc1p]; omega)]
      show _ = HashKey digest (knAt ksZ i).key
      rw [hZkey]
    · rw [hc1s]; exact hs.size_eq
  have hKeys : C0HashTable.KeysInj c1 used := by
    intro i hi j hj hij
    rw [hc1k i (hUlt i hi), hc1k j (hUlt j hj)] at hij
    exact hk i hi j hj hij
  refine ⟨⟨bnF, ksZ, resize d.values n1, d.buckets.length⟩, L2, ?_, hbnF, hZlen, hvlen,
    ?_, ?_, ?_⟩
  · simp only [Rehash, hsize, if_neg (not_le.mpr hgrow),
      List.take_of_length_le (le_refl d.buckets.length), hloops]
    rw [hksZ]
  · rw [hc1]; exact hShape
  · rw [hc1]; exact hKeys
  · rw [hc1]
    intro x w
    constructor
    · rintro ⟨i, hi, hik, hiv⟩
      exact ⟨i, hi, by rw [← hc1k i (hUlt i hi)]; exact hik,
        by rw [← hc1v i (hUlt i hi)]; exact hiv⟩
    · rintro ⟨i, hi, hik, hiv⟩
      exact ⟨i, hi, by rw [hc1k i (hUlt i hi)]; exact hik,
        by rw [hc1v i (hUlt i hi)]; exact hiv⟩

/-! ### Well-formed tables -/

/-- Well-formedness of a table that holds `size` entries, at most one per key: it is
simulated by a well-formed `C0HashTable` of that size. -/
def Inv (digest : K → Nat) (d : D0HashTable K V) (size : Nat) : Prop :=
  ∃ c, Sim d c ∧ C0HashTable.WF digest c ∧ c.size = size

theorem d0_getD_replicate {α : Type} (n j : Nat) (x : α) :
    (List.replicate n x).getD j x = x := by
  rw [List.getD_eq_getElem?_getD, List.getElem?_replicate]
  split <;> rfl

theorem d0_sim_new : Sim (new : D0HashTable K V) (C0HashTable.new : C0HashTable K V) := by
  have hlen : (C0HashTable.new : C0HashTable K V).elemPool.length = 16 := by
    simp [C0HashTable.new, C0HashTable.c0_length_linkFree, s_hashTableInitialSize]
  have hend : endIndex = 2 ^ 32 - 1 := rfl
  have hrepc : ∀ j, C0HashTable.elemAt
      (List.replicate 16 (default : C0HashTable.Elem K V)) j = default :=
    fun j => d0_getD_replicate 16 j default
  have hrepd : ∀ j, knAt (List.replicate 16 (default : KN K)) j = default :=
    fun j => d0_getD_replicate 16 j default
  have hrepv : ∀ j, valAt (List.replicate 16 (default : V)) j = default :=
    fun j => d0_getD_replicate 16 j default
  have hatc : ∀ j, C0HashTable.elemAt (C0HashTable.new : C0HashTable K V).elemPool j =
      if 0 ≤ j ∧ j < 0 + 15 then
        ⟨some (j + 1), (default : C0HashTable.Elem K V).hash,
          (default : C0HashTable.Elem K V).key, (default : C0HashTable.Elem K V).value⟩
      else default := by
    intro j
    have := C0HashTable.c0_elemAt_linkFree 15 0
      (List.replicate 16 (default : C0HashTable.Elem K V)) (by simp) j
    rw [hrepc] at this
    exact this
  have hatl : ∀ j, knAt (linkFree 15 0 (List.replicate 16 (default : KN K))) j =
      if 0 ≤ j ∧ j < 0 + 15 then ⟨(default : KN K).key, j + 1⟩ else default := by
    intro j
    have := d0_knAt_linkFree 15 0 (List.replicate 16 (default : KN K)) (by simp) j
    rw [hrepd] at this
    exact this
  have hnewk : (new : D0HashTable K V).keyAndNexts =
      (linkFree 15 0 (List.replicate 16 (default : KN K))).set 15
        ⟨(knAt (linkFree 15 0 (List.replicate 16 (default : KN K))) 15).key, endIndex⟩ := by
    simp only [new]
  have hatd : ∀ j, knAt (new : D0HashTable K V).keyAndNexts j =
      if j = 15 then ⟨(knAt (linkFree 15 0 (List.replicate 16 (default : KN K))) 15).key,
        endIndex⟩
      else knAt (linkFree 15 0 (List.replicate 16 (default : KN K))) j := by
    intro j
    rw [hnewk]
    exact d0_knAt_set (linkFree 15 0 (List.replicate 16 (default : KN K))) 15 j _
      (by rw [d0_length_linkFree]; simp)
  have hnewb : (new : D0HashTable K V).buckets = List.replicate 16 endIndex := by
    simp only [new]
  have hnewv : (new : D0HashTable K V).values = List.replicate 16 default := by
    simp only [new]
  have hnewf : (new : D0HashTable K V).nextFree = 0 := by
    simp only [new]
  refine ⟨?_, ?_, ?_, ?_, ?_, ?_, ?_, ?_⟩
  · rw [hnewb, List.map_replicate, d0_link_endIndex]
    rfl
  · rw [hnewf, d0_link_of_lt 0 (by rw [hend]; omega)]
    rfl
  · rw [hlen, hnewk, List.length_set, d0_length_linkFree, List.length_replicate]
  · rw [hlen, hnewv, List.length_replicate]
  · rw [hlen, hend]; omega
  · intro i hi
    rw [hlen] at hi
    rw [hatc, hatd]
    by_cases h15 : i = 15
    · rw [if_neg (by omega), if_pos h15]
      exact d0_link_endIndex.symm
    · rw [if_pos (by omega), if_neg h15, hatl, if_pos (by omega)]
      exact (d0_link_of_lt _ (by omega)).symm
  · intro i hi
    rw [hatc, hatd]
    by_cases h15 : i = 15
    · rw [if_neg (by omega), if_pos h15, hatl, if_neg (by omega)]
      rfl
    · rw [if_neg h15, hatl]
      split <;> rfl
  · intro i hi
    rw [hatc, hnewv, hrepv]
    split <;> rfl

theorem d0_inv_new (digest : K → Nat) : Inv digest (new : D0HashTable K V) 0 :=
  ⟨C0HashTable.new, d0_sim_new, C0HashTable.c0_wf_new digest, rfl⟩

theorem d0_Lookup_new (digest : K → Nat) (k : K) :
    Lookup digest (new : D0HashTable K V) k = some none := by
  obtain ⟨L, F, used, hs, _⟩ := C0HashTable.c0_wf_new (K := K) (V := V) digest
  rw [d0_Lookup_sim d0_sim_new hs k]
  exact C0HashTable.c0_Lookup_new digest k

theorem d0_Lookup_total {digest : K → Nat} {d : D0HashTable K V} {size : Nat}
    (h : Inv digest d size) (k : K) : ∃ r, Lookup digest d k = some r := by
  obtain ⟨c, hsim, hwf, _⟩ := h
  obtain ⟨r, hr⟩ := C0HashTable.c0_Lookup_total hwf k
  obtain ⟨L, F, used, hs, _⟩ := hwf
  exact ⟨r, by rw [d0_Lookup_sim hsim hs k]; exact hr⟩

/-- The free list is empty exactly when the table holds as many entries as it has
buckets. -/
theorem d0_full_iff {digest : K → Nat} {d : D0HashTable K V} {size : Nat}
    (h : Inv digest d size) :
    (d.nextFree = endIndex ↔ size = d.buckets.length) ∧ size ≤ d.buckets.length ∧
      0 < d.buckets.length ∧ d.keyAndNexts.length = d.buckets.length ∧
      d.buckets.length ≤ endIndex := by
  obtain ⟨c, hsim, ⟨L, F, used, hs, hk⟩, hsz⟩ := h
  have hlen := d0_sim_len hsim
  have hcov := hs.cover
  have hpl := hs.pool_len
  have hse := hs.size_eq
  have hpos := hs.pos
  have hsmall := hsim.small
  have hlk := hsim.lenk
  refine ⟨?_, by omega, by omega, by omega, by omega⟩
  have hfree := hs.free
  rw [hsim.free] at hfree
  constructor
  · intro hfull
    rw [hfull, d0_link_endIndex] at hfree
    cases F with
    | nil => simp at hcov; omega
    | cons a F1 => cases hfree.1
  · intro hfull
    have hF : F = [] := by
      apply List.eq_nil_of_length_eq_zero
      omega
    rw [hF] at hfree
    exact (d0_link_eq_none _).mp hfree

/-! ### `Insert` -/

/-- The second half of `Insert`: the node at the head of the free list takes the entry
and becomes the head of the chain of its bucket. -/
def place (digest : K → Nat) (t : D0HashTable K V) (key : K) (value : V) :
    Option (D0HashTable K V) :=
  if HashKey digest key &&& (t.buckets.length - 1) < t.buckets.length ∧
      t.nextFree < t.keyAndNexts.length ∧ t.nextFree < t.values.length then
    some { buckets := t.buckets.set (HashKey digest key &&& (t.buckets.length - 1)) t.nextFree,
           keyAndNexts := t.keyAndNexts.set t.nextFree
             ⟨key, indexAt t.buckets (HashKey digest key &&& (t.buckets.length - 1))⟩,
           values := t.values.set t.nextFree value,
           nextFree := (knAt t.keyAndNexts t.nextFree).next }
  else none

theorem d0_Insert_unfold (digest : K → Nat) (t : D0HashTable K V) (key : K) (value : V) :
    Insert digest t key value =
      match (if t.nextFree = endIndex then Rehash digest t (t.buckets.length * 2 % 2 ^ 32)
          else some t) with
      | none => none
      | some t => place digest t key value := rfl

theorem d0_place_spec {digest : K → Nat} {d : D0HashTable K V} {c : C0HashTable K V}
    {L : Nat → List Nat} {F used : List Nat} (h : Sim d c)
    (hs : C0HashTable.Shape digest c L F used) (hk : C0HashTable.KeysInj c used)
    (hfree : c.pElemFreeHead ≠ none) (k : K) (v : V)
    (hnew : ∀ w, ¬ C0HashTable.Holds c used k w) :
    ∃ d1, place digest d k v = some d1 ∧ Inv digest d1 (c.size + 1) ∧
      d1.buckets.length = d.buckets.length ∧
      ∀ x, Lookup digest d1 x =
        if x = k then some (some v) else C0HashTable.Lookup digest c x := by
  obtain ⟨e, he⟩ : ∃ e, c.pElemFreeHead = some e := by
    cases hf : c.pElemFreeHead with
    | none => exact absurd hf hfree
    | some e => exact ⟨e, rfl⟩
  have heF : e ∈ F := by
    have hfr := hs.free
    rw [he] at hfr
    cases F with
    | nil => cases hfr
    | cons a F1 =>
      have : some e = some a := hfr.1
      cases this
      exact List.mem_cons_self _ _
  have hep : e < c.elemPool.length := hs.bound e (Or.inr heF)
  obtain ⟨hne, hsim1⟩ := d0_push_sim digest h e he hep hs.pos k v
  obtain ⟨hs1, hk1, hh1⟩ := C0HashTable.c0_push_spec hs hk e he k v hnew
  have hlen := d0_sim_len h
  have hb : HashKey digest k &&& (d.buckets.length - 1) < d.buckets.length := by
    rw [← hlen]; exact C0HashTable.c0_bucketOf_lt digest c k hs.pos
  refine ⟨_, ?_, ⟨_, hsim1, ⟨_, _, _, hs1, hk1⟩, rfl⟩, by simp, ?_⟩
  · unfold place
    rw [if_pos ⟨hb, by rw [hne, h.lenk]; exact hep, by rw [hne, h.lenv]; exact hep⟩, hne]
  · intro x
    rw [d0_Lookup_sim hsim1 hs1 x]
    by_cases hx : x = k
    · rw [if_pos hx, hx]
      exact C0HashTable.c0_Lookup_holds hs1 hk1 k v ((hh1 k v).mpr (Or.inl ⟨rfl, rfl⟩))
    · rw [if_neg hx]
      apply C0HashTable.c0_Lookup_congr hs hk hs1 hk1
      intro w
      rw [hh1]
      constructor
      · rintro (⟨e1, _⟩ | hw)
        · exact absurd e1 hx
        · exact hw
      · exact Or.inr

theorem d0_Insert_spec (digest : K → Nat) {d : D0HashTable K V} {size : Nat}
    (h : Inv digest d size) (k : K) (v : V) (hkn : Lookup digest d k = some none)
    (hcap : size + 1 ≤ 2 ^ 31) :
    ∃ d1, Insert digest d k v = some d1 ∧ Inv digest d1 (size + 1) ∧
      d1.buckets.length =
        (if d.nextFree = endIndex then d.buckets.length * 2 else d.buckets.length) ∧
      ∀ x, Lookup digest d1 x = if x = k then some (some v) else Lookup digest d x := by
  obtain ⟨hfull, hle, hpos, hkl, hsmall⟩ := d0_full_iff h
  obtain ⟨c, hsim, ⟨L, F, used, hs, hk⟩, hsz⟩ := h
  have hend : endIndex = 2 ^ 32 - 1 := rfl
  have hnew : ∀ w, ¬ C0HashTable.Holds c used k w := by
    intro w hw
    have := C0HashTable.c0_Lookup_holds hs hk k w hw
    rw [← d0_Lookup_sim hsim hs k, hkn] at this
    cases this
  rw [d0_Insert_unfold]
  by_cases hf : d.nextFree = endIndex
  · rw [if_pos hf, if_pos hf]
    have hsn : size = d.buckets.length := hfull.mp hf
    have hmod : d.buckets.length * 2 % 2 ^ 32 = d.buckets.length * 2 :=
      Nat.mod_eq_of_lt (by omega)
    obtain ⟨d0, L1, hre, hb0, hkl0, hvl0, hs0, hk0, hh0⟩ :=
      d0_Rehash_spec hsim hs hk (d.buckets.length * 2) (by omega) (by omega)
    rw [hmod, hre]
    have hsim0 := d0_sim_abs digest d0 c.size (hvl0.trans hkl0.symm) (by rw [hkl0]; omega)
    have hfree0 : (abs digest d0 c.size).pElemFreeHead ≠ none := by
      have hfr := hs0.free
      have hcnt : d.buckets.length * 2 - d.buckets.length = (d.buckets.length - 1) + 1 := by
        omega
      rw [hcnt, List.range'_succ, List.cons_append] at hfr
      rw [hfr.1]
      simp
    obtain ⟨d1, h1, h2, h3, h4⟩ := d0_place_spec hsim0 hs0 hk0 hfree0 k v
      (fun w hw => hnew w ((hh0 k w).mp hw))
    refine ⟨d1, h1, ?_, by rw [h3, hb0], ?_⟩
    · have : (abs digest d0 c.size).size = size := hsz
      rw [this] at h2
      exact h2
    · intro x
      rw [h4]
      by_cases hx : x = k
      · rw [if_pos hx, if_pos hx]
      · rw [if_neg hx, if_neg hx, d0_Lookup_sim hsim hs x]
        exact C0HashTable.c0_Lookup_congr hs hk hs0 hk0 x (hh0 x)
  · rw [if_neg hf, if_neg hf]
    have hfree : c.pElemFreeHead ≠ none := by
      rw [hsim.free]
      intro hn
      exact hf ((d0_link_eq_none _).mp hn)
    obtain ⟨d1, h1, h2, h3, h4⟩ := d0_place_spec hsim hs hk hfree k v hnew
    refine ⟨d1, h1, by rw [hsz] at h2; exact h2, h3, ?_⟩
    intro x
    rw [h4, d0_Lookup_sim hsim hs x]

/-! ### `Remove` -/

theorem d0_c0_Remove_size (digest : K → Nat) (c c1 : C0HashTable K V) (k : K) (r : Bool)
    (h : C0HashTable.Remove digest c k = some (c1, r)) :
    c1.size = if r = true then c.size - 1 else c.size := by
  unfold C0HashTable.Remove at h
  simp only at h
  repeat' split at h
  all_goals cases h
  all_goals rfl

theorem d0_Remove_spec (digest : K → Nat) {d : D0HashTable K V} {size : Nat}
    (h : Inv digest d size) (k : K) :
    ∃ d1, Remove digest d k = some (d1, (Lookup digest d k).join.isSome) ∧
      Inv digest d1 (if (Lookup digest d k).join.isSome = true then size - 1 else size) ∧
      d1.buckets.length = d.buckets.length ∧
      ∀ x, Lookup digest d1 x = if x = k then some none else Lookup digest d x := by
  obtain ⟨c, hsim, hwf, hsz⟩ := h
  obtain ⟨c1, hc1, hwf1, hl1⟩ := C0HashTable.c0_Remove_spec digest hwf k
  obtain ⟨L, F, used, hs, hk⟩ := hwf
  obtain ⟨c2, d1, r, hc2, hd1, hsim1, hlen1⟩ := d0_Remove_sim hsim hs k
  rw [hc1] at hc2
  simp only [Option.some.injEq, Prod.mk.injEq] at hc2
  obtain ⟨hcc, hr⟩ := hc2
  subst hcc
  have hlk : ∀ x, Lookup digest d x = C0HashTable.Lookup digest c x :=
    fun x => d0_Lookup_sim hsim hs x
  have hsize := d0_c0_Remove_size digest c c1 k _ hc1
  rw [hlk k]
  refine ⟨d1, by rw [hd1, hr], ⟨c1, hsim1, hwf1, by rw [hsize, hsz]⟩, hlen1, ?_⟩
  intro x
  obtain ⟨L1, F1, used1, hs1, _⟩ := hwf1
  rw [d0_Lookup_sim hsim1 hs1 x, hl1 x, hlk x]

/-! ### Sequences of calls -/

/-- What `Lookup` finds, once it has returned. -/
def view (digest : K → Nat) (t : D0HashTable K V) (k : K) : Option V :=
  (Lookup digest t k).join

/-- Every table reached from a fresh one by a duplicate-free sequence of calls that
never holds more than `2 ^ 31` entries is well formed and agrees with the finite map
of the sequence. -/
theorem d0_run_spec (digest : K → Nat) (ops : List (Op K V))
    (hd : Model.dupFree Model.empty ops = true)
    (hf : Model.fits (2 ^ 31) Model.empty 0 ops = true) :
    ∃ t n, run digest new ops = some (t, Model.removes Model.empty ops) ∧ Inv digest t n ∧
      ∀ k, Lookup digest t k = some (Model.run Model.empty ops k) := by
  have hsim := runOps_sim_cap (2 ^ 31) (fun n t => Inv digest t n) (view digest)
    (Insert digest) (Remove digest)
    (by
      intro t k v n hw hk hcap
      obtain ⟨r, hr⟩ := d0_Lookup_total hw k
      have hr2 : Lookup digest t k = some none := by
        unfold view at hk
        rw [hr] at hk ⊢
        cases r with
        | none => rfl
        | some a => simp at hk
      obtain ⟨t1, h1, hw1, _, hl1⟩ := d0_Insert_spec digest hw k v hr2 hcap
      refine ⟨t1, h1, hw1, ?_⟩
      intro x
      unfold view
      rw [hl1]
      split <;> rfl)
    (by
      intro t k n hw
      obtain ⟨t1, h1, hw1, _, hl1⟩ := d0_Remove_spec digest hw k
      refine ⟨t1, h1, hw1, ?_⟩
      intro x
      unfold view
      rw [hl1]
      split <;> rfl)
    ops new Model.empty 0 (d0_inv_new digest)
    (by intro x; unfold view; rw [d0_Lookup_new]; rfl) hd hf
  obtain ⟨t, n, h1, hw, hl⟩ := hsim
  refine ⟨t, n, h1, hw, ?_⟩
  intro k
  obtain ⟨r, hr⟩ := d0_Lookup_total hw k
  have := hl k
  unfold view at this
  rw [hr] at this ⊢
  rw [← this]
  rfl

/-! ### The capacity of the 32-bit indices -/

/-- The calls `Insert(0, 0)`, ..., `Insert(m - 1, m - 1)`. -/
def fill (m : Nat) : List (Op Nat Nat) := (List.range m).map (fun i => Op.insert i i)

theorem d0_fill_succ (m : Nat) : fill (m + 1) = fill m ++ [Op.insert m m] := by
  unfold fill
  rw [List.range_succ, List.map_append]
  rfl

theorem d0_runOps_snoc {T : Type} (ins : T → Nat → Nat → Option T)
    (rem : T → Nat → Option (T × Bool)) (k v : Nat) :
    ∀ (ops : List (Op Nat Nat)) (t t1 : T) (rs : List Bool),
      runOps ins rem t ops = some (t1, rs) →
      runOps ins rem t (ops ++ [Op.insert k v]) = (ins t1 k v).map (fun t2 => (t2, rs)) := by
  intro ops
  induction ops with
  | nil =>
    intro t t1 rs h
    simp only [runOps, Option.some.injEq, Prod.mk.injEq] at h
    obtain ⟨rfl, rfl⟩ := h
    simp only [List.nil_append, runOps]
    cases ins t k v <;> rfl
  | cons op rest ih =>
    intro t t1 rs h
    cases op with
    | insert k1 v1 =>
      simp only [List.cons_append, runOps] at h ⊢
      cases hi : ins t k1 v1 with
      | none => rw [hi] at h; cases h
      | some t2 =>
        rw [hi] at h
        simp only at h ⊢
        exact ih t2 t1 rs h
    | remove k1 =>
      simp only [List.cons_append, runOps] at h ⊢
      cases hr : rem t k1 with
      | none => rw [hr] at h; cases h
      | some p =>
        obtain ⟨t2, r⟩ := p
        rw [hr] at h
        simp only at h ⊢
        cases hrest : runOps ins rem t2 rest with
        | none => rw [hrest] at h; cases h
        | some q =>
          obtain ⟨t3, rs3⟩ := q
          rw [hrest] at h
          simp only [Option.some.injEq, Prod.mk.injEq] at h
          obtain ⟨rfl, rfl⟩ := h
          have e := ih t2 t3 rs3 hrest
          change runOps ins rem t2 (rest.append [Op.insert k v]) = _ at e
          rw [e]
          cases ins t3 k v <;> rfl

/-- The table after `m` insertions of distinct keys, `m` up to `2 ^ 31`: the bucket count
is a power of two that was doubled only when the table was full. -/
theorem d0_fill_spec (digest : Nat → Nat) :
    ∀ m, m ≤ 2 ^ 31 →
      ∃ t, run digest (new : D0HashTable Nat Nat) (fill m) = some (t, []) ∧
        Inv digest t m ∧ (∃ a, 4 ≤ a ∧ t.buckets.length = 2 ^ a) ∧
        (t.buckets.length = 16 ∨ t.buckets.length < 2 * m) ∧
        ∀ x, Lookup digest t x = if x < m then some (some x) else some none := by
  intro m
  induction m with
  | zero =>
    intro _
    refine ⟨new, rfl, d0_inv_new digest, ⟨4, le_refl 4, ?_⟩, Or.inl ?_, ?_⟩
    · simp only [new, List.length_replicate]; rfl
    · simp only [new, List.length_replicate]
    · intro x
      rw [d0_Lookup_new, if_neg (by omega)]
  | succ m ih =>
    intro hm
    obtain ⟨t, hrun, hinv, ⟨a, ha4, ha⟩, hgrown, hlook⟩ := ih (by omega)
    obtain ⟨hfull, _, _, _, _⟩ := d0_full_iff hinv
    obtain ⟨t1, h1, h2, h3, h4⟩ := d0_Insert_spec digest hinv m m
      (by rw [hlook, if_neg (by omega)]) hm
    refine ⟨t1, ?_, h2, ?_, ?_, ?_⟩
    · rw [d0_fill_succ]
      unfold run at hrun ⊢
      rw [d0_runOps_snoc _ _ m m (fill m) new t [] hrun, h1]
      rfl
    · by_cases hf : t.nextFree = endIndex
      · rw [if_pos hf] at h3
        exact ⟨a + 1, by omega, by rw [h3, ha, pow_succ]⟩
      · rw [if_neg hf] at h3
        exact ⟨a, ha4, by rw [h3, ha]⟩
    · by_cases hf : t.nextFree = endIndex
      · rw [if_pos hf] at h3
        have := hfull.mp hf
        right
        omega
      · rw [if_neg hf] at h3
        rcases hgrown with hg | hg
        · left; omega
        · right; omega
    · intro x
      rw [h4, hlook]
      by_cases hx : x = m
      · rw [if_pos hx, if_pos (by omega), hx]
      · rw [if_neg hx]
        by_cases hxm : x < m
        · rw [if_pos hxm, if_pos (by omega)]
        · rw [if_neg hxm, if_neg (by omega)]

/-- With `2 ^ 31` entries in `2 ^ 31` buckets the free list is empty and
`static_cast<uint32_t>(buckets.size() * 2)` is 0: `Rehash(0)` returns at once and
`Insert` uses the index `-1`. -/
theorem d0_Insert_full (digest : Nat → Nat) (t : D0HashTable Nat Nat)
    (h : Inv digest t (2 ^ 31)) (hlen : t.buckets.length = 2 ^ 31) (k v : Nat) :
    Insert digest t k v = none := by
  obtain ⟨hfull, _, _, hkl, _⟩ := d0_full_iff h
  have hf : t.nextFree = endIndex := hfull.mpr hlen.symm
  have hmod : (2 : Nat) ^ 31 * 2 % 2 ^ 32 = 0 := by norm_num
  rw [d0_Insert_unfold, if_pos hf, hlen, hmod]
  have hre : Rehash digest t 0 = some t := by
    unfold Rehash
    simp only [Nat.zero_le, if_true]
  rw [hre]
  simp only
  unfold place
  rw [if_neg]
  rw [hf, hkl, hlen]
  intro hc
  have h1 := hc.2.1
  have hend : endIndex = 2 ^ 32 - 1 := rfl
  rw [hend] at h1
  norm_num at h1

theorem d0_fill_overflow (digest : Nat → Nat) :
    run digest (new : D0HashTable Nat Nat) (fill (2 ^ 31 + 1)) = none := by
  obtain ⟨t, hrun, hinv, ⟨a, ha4, ha⟩, hgrown, _⟩ := d0_fill_spec digest (2 ^ 31) (le_refl _)
  obtain ⟨_, hle, _, _, _⟩ := d0_full_iff hinv
  have hlen : t.buckets.length = 2 ^ 31 := by
    have h16 : (16 : Nat) < 2 ^ 31 := by norm_num
    have hlt : t.buckets.length < 2 ^ 32 := by
      rcases hgrown with hg | hg
      · rw [hg]; norm_num
      · have e : (2 : Nat) ^ 32 = 2 * 2 ^ 31 := by norm_num
        rw [e]; exact hg
    rw [ha] at hlt hle ⊢
    have h1 : a < 32 := (Nat.pow_lt_pow_iff_right (by norm_num)).mp hlt
    have h2 : 31 ≤ a := (Nat.pow_le_pow_iff_right (by norm_num)).mp hle
    have : a = 31 := by omega
    rw [this]
  rw [d0_fill_succ]
  unfold run at hrun ⊢
  rw [d0_runOps_snoc _ _ _ _ (fill (2 ^ 31)) new t [] hrun,
    d0_Insert_full digest t hinv hlen]
  rfl

theorem d0_fill_dupFree (m : Nat) : Model.dupFree Model.empty (fill m) = true := by
  have h := model_dupFree_inserts (Model.empty : Nat → Option Nat)
    ((List.range m).map (fun i => (i, i)))
    (by
      rw [List.map_map]
      exact List.Nodup.map (fun a b hab => hab) (List.nodup_range m))
    (fun _ _ => rfl)
  rw [List.map_map] at h
  exact h

/-! ### `Reset` -/

/-- After `Reset` every bucket head is the index 0. -/
theorem d0_Reset_head (t : D0HashTable K V) (b : Nat) : indexAt (Reset t).buckets b = 0 := by
  have hb : (Reset t).buckets = List.replicate 16 0 := by simp only [Reset]
  rw [hb]
  exact d0_getD_replicate 16 b 0

/-- After `Reset` node 0 holds the default key and is linked to node 1. -/
theorem d0_Reset_node (t : D0HashTable K V) :
    knAt (Reset t).keyAndNexts 0 = ⟨default, 1⟩ := by
  have hk : (Reset t).keyAndNexts =
      (linkFree 15 0 (List.replicate 16 (default : KN K))).set 15
        ⟨(knAt (linkFree 15 0 (List.replicate 16 (default : KN K))) 15).key, endIndex⟩ := by
    simp only [Reset]
  rw [hk, d0_knAt_set _ 15 0 _ (by rw [d0_length_linkFree]; simp), if_neg (by omega),
    d0_knAt_linkFree 15 0 _ (by simp) 0, if_pos (by omega)]
  have : knAt (List.replicate 16 (default : KN K)) 0 = default := d0_getD_replicate 16 0 default
  rw [this]
  rfl

/-- A walk along a chain whose first node is its own successor and holds another key
does not end. -/
theorem d0_chainFind_loop (next : Nat → Option Nat) (hit : Nat → Bool) (e : Nat)
    (hn : next e = some e) (hh : hit e = false) :
    ∀ fuel, chainFind next hit fuel (some e) = none := by
  intro fuel
  induction fuel with
  | zero => rfl
  | succ fuel ih =>
    simp only [chainFind, hh, Bool.false_eq_true, if_false, hn]
    exact ih

theorem d0_link_zero : link 0 = some 0 :=
  d0_link_of_lt 0 (by
    have hend : endIndex = 2 ^ 32 - 1 := rfl
    rw [hend]
    norm_num)

theorem d0_chainFind_hit (next : Nat → Option Nat) (hit : Nat → Bool) (fuel e : Nat)
    (hh : hit e = true) : chainFind next hit (fuel + 1) (some e) = some (some e) := by
  simp only [chainFind, hh, if_true]

/-- On a table that was `Reset`, `Lookup` of the default key finds node 0 of the free
list. -/
theorem d0_Reset_lookup (digest : K → Nat) (t : D0HashTable K V) :
    Lookup digest (Reset t) default = some (some default) := by
  have hlen : (Reset t).keyAndNexts.length = 15 + 1 := by
    simp only [Reset, List.length_set, d0_length_linkFree, List.length_replicate]
  have hv : valAt (Reset t).values 0 = default := by
    have hv0 : (Reset t).values = List.replicate 16 default := by simp only [Reset]
    rw [hv0]
    exact d0_getD_replicate 16 0 default
  have hhit : hitOf (Reset t).keyAndNexts (default : K) 0 = true := by
    simp [hitOf, d0_Reset_node]
  unfold Lookup
  simp only
  rw [d0_Reset_head, d0_link_zero, hlen, d0_chainFind_hit _ _ _ _ hhit]
  simp only [hv]

/-- On a table that was `Reset`, `Insert(k, v)` links node 0 to itself in every bucket:
`Lookup` finds `k` and its chain walk does not end for any other key. -/
theorem d0_Reset_insert (digest : K → Nat) (t : D0HashTable K V) (k : K) (v : V) (x : K)
    (hx : x ≠ k) :
    ∃ t1, Insert digest (Reset t) k v = some t1 ∧ Lookup digest t1 k = some (some v) ∧
      Lookup digest t1 x = none := by
  have hb : HashKey digest k &&& (16 - 1) < 16 := by
    have := Nat.and_le_right (n := HashKey digest k) (m := 16 - 1)
    omega
  have hlenb : (Reset t).buckets.length = 16 := by simp only [Reset, List.length_replicate]
  have hlenk : (Reset t).keyAndNexts.length = 15 + 1 := by
    simp only [Reset, List.length_set, d0_length_linkFree, List.length_replicate]
  have hlenv : (Reset t).values.length = 16 := by simp only [Reset, List.length_replicate]
  have hnf : (Reset t).nextFree = 0 := by simp only [Reset]
  have hend : endIndex = 2 ^ 32 - 1 := rfl
  have hI : Insert digest (Reset t) k v =
      some { buckets := (Reset t).buckets.set (HashKey digest k &&& (16 - 1)) 0,
             keyAndNexts := (Reset t).keyAndNexts.set 0 ⟨k, 0⟩,
             values := (Reset t).values.set 0 v,
             nextFree := 1 } := by
    unfold Insert
    have h0 : (Reset t).nextFree ≠ endIndex := by rw [hnf, hend]; norm_num
    rw [if_neg h0]
    simp only
    rw [hlenb, hnf, if_pos ⟨hb, by rw [hlenk]; norm_num, by rw [hlenv]; norm_num⟩,
      d0_Reset_head, d0_Reset_node]
  have hhead : ∀ b,
      indexAt ((Reset t).buckets.set (HashKey digest k &&& (16 - 1)) 0) b = 0 := by
    intro b
    rw [d0_indexAt_set _ _ _ _ (by rw [hlenb]; exact hb)]
    split
    · rfl
    · exact d0_Reset_head t b
  have hnode : knAt ((Reset t).keyAndNexts.set 0 ⟨k, 0⟩) 0 = ⟨k, 0⟩ := by
    rw [d0_knAt_set _ 0 0 _ (by rw [hlenk]; norm_num), if_pos rfl]
  have hval : valAt ((Reset t).values.set 0 v) 0 = v := by
    rw [d0_valAt_set _ 0 0 _ (by rw [hlenv]; norm_num), if_pos rfl]
  refine ⟨_, hI, ?_, ?_⟩
  · have hhit : hitOf ((Reset t).keyAndNexts.set 0 ⟨k, 0⟩) k 0 = true := by
      simp [hitOf, hnode]
    unfold Lookup
    simp only
    rw [hhead, d0_link_zero, List.length_set, hlenk, d0_chainFind_hit _ _ _ _ hhit]
    simp only [hval]
  · have hmiss : hitOf ((Reset t).keyAndNexts.set 0 ⟨k, 0⟩) x 0 = false := by
      simp only [hitOf, hnode]
      exact decide_eq_false (fun e => hx e.symm)
    have hnext : nextOf ((Reset t).keyAndNexts.set 0 ⟨k, 0⟩) 0 = some 0 := by
      simp only [nextOf, hnode]
      exact d0_link_zero
    unfold Lookup
    simp only
    rw [hhead, d0_link_zero, d0_chainFind_loop _ _ 0 hnext hmiss]

/-! ### `Rehash` with an argument that does not grow the table -/

theorem d0_Rehash_small (digest : K → Nat) (t : D0HashTable K V) (n : Nat)
    (hlen : t.buckets.length < 2 ^ 32) (hn : n ≤ t.buckets.length) :
    Rehash digest t n = some t := by
  unfold Rehash
  simp only
  rw [Nat.mod_eq_of_lt hlen, if_pos hn]

/-! ### The chains after `Reset` and `Insert` -/

/-- The predecessor-tracking walk of `Remove` along a chain whose node is its own
successor and holds another key does not end. -/
theorem d0_chainFindPrev_loop (next : Nat → Option Nat) (hit : Nat → Bool) (e : Nat)
    (hn : next e = some e) (hh : hit e = false) :
    ∀ fuel prev, chainFindPrev next hit fuel (some e) prev = none := by
  intro fuel
  induction fuel with
  | zero => intro prev; rfl
  | succ fuel ih =>
    intro prev
    simp only [chainFindPrev, hh, Bool.false_eq_true, if_false, hn]
    exact ih e

/-- The walk along a chain whose node is its own successor meets that node again and
again. -/
theorem d0_walk_loop (next : Nat → Option Nat) (e : Nat) (hn : next e = some e) :
    ∀ fuel, C0HashTable.walk next fuel (some e) = List.replicate fuel e := by
  intro fuel
  induction fuel with
  | zero => rfl
  | succ fuel ih =>
    simp only [C0HashTable.walk, hn, List.replicate_succ]
    rw [ih]

/-- In a table whose bucket heads all are node 0 and whose node 0 is its own successor,
no chain walk reaches the end marker, and `Lookup` and `Remove` of a key other than the
key of node 0 do not return. -/
theorem d0_cycle_loops (digest : K → Nat) (t : D0HashTable K V)
    (h0 : ∀ b, indexAt t.buckets b = 0) (hnx : (knAt t.keyAndNexts 0).next = 0) :
    (∀ b fuel, C0HashTable.walk (nextOf t.keyAndNexts) fuel (link (indexAt t.buckets b)) =
        List.replicate fuel 0) ∧
      ∀ x, x ≠ (knAt t.keyAndNexts 0).key → Lookup digest t x = none ∧
        Remove digest t x = none := by
  have hnext : nextOf t.keyAndNexts 0 = some 0 := by
    simp only [nextOf, hnx]
    exact d0_link_zero
  constructor
  · intro b fuel
    rw [h0, d0_link_zero]
    exact d0_walk_loop _ 0 hnext fuel
  · intro x hx
    have hmiss : hitOf t.keyAndNexts x 0 = false := by
      simp only [hitOf]
      exact decide_eq_false (fun e => hx e.symm)
    constructor
    · unfold Lookup
      simp only
      rw [h0, d0_link_zero, d0_chainFind_loop _ _ 0 hnext hmiss]
    · unfold Remove
      simp only
      rw [h0, d0_link_zero]
      simp only
      rw [if_neg (fun e => hx e.symm), hnx, d0_link_zero,
        d0_chainFindPrev_loop _ _ 0 hnext hmiss]

/-- On a table that was `Reset`, `Insert(k, v)` returns a table in which every bucket
head is node 0 and node 0, which holds `k`, is its own successor. -/
theorem d0_Reset_cycle (digest : K → Nat) (t : D0HashTable K V) (k : K) (v : V) :
    ∃ t1, Insert digest (Reset t) k v = some t1 ∧
      (∀ b, indexAt t1.buckets b = 0) ∧ knAt t1.keyAndNexts 0 = ⟨k, 0⟩ := by
  have hb : HashKey digest k &&& (16 - 1) < 16 := by
    have := Nat.and_le_right (n := HashKey digest k) (m := 16 - 1)
    omega
  have hlenb : (Reset t).buckets.length = 16 := by simp only [Reset, List.length_replicate]
  have hlenk : (Reset t).keyAndNexts.length = 15 + 1 := by
    simp only [Reset, List.length_set, d0_length_linkFree, List.length_replicate]
  have hlenv : (Reset t).values.length = 16 := by simp only [Reset, List.length_replicate]
  have hnf : (Reset t).nextFree = 0 := by simp only [Reset]
  have hend : endIndex = 2 ^ 32 - 1 := rfl
  have hI : Insert digest (Reset t) k v =
      some { buckets := (Reset t).buckets.set (HashKey digest k &&& (16 - 1)) 0,
             keyAndNexts := (Reset t).keyAndNexts.set 0 ⟨k, 0⟩,
             values := (Reset t).values.set 0 v,
             nextFree := 1 } := by
    unfold Insert
    have h0 : (Reset t).nextFree ≠ endIndex := by rw [hnf, hend]; norm_num
    rw [if_neg h0]
    simp only
    rw [hlenb, hnf, if_pos ⟨hb, by rw [hlenk]; norm_num, by rw [hlenv]; norm_num⟩,
      d0_Reset_head, d0_Reset_node]
  have hhead : ∀ b,
      indexAt ((Reset t).buckets.set (HashKey digest k &&& (16 - 1)) 0) b = 0 := by
    intro b
    rw [d0_indexAt_set _ _ _ _ (by rw [hlenb]; exact hb)]
    split
    · rfl
    · exact d0_Reset_head t b
  have hnode : knAt ((Reset t).keyAndNexts.set 0 ⟨k, 0⟩) 0 = ⟨k, 0⟩ := by
    rw [d0_knAt_set _ 0 0 _ (by rw [hlenk]; norm_num), if_pos rfl]
  refine ⟨_, hI, ?_, ?_⟩
  · intro b
    dsimp only
    exact hhead b
  · dsimp only
    exact hnode

end D0HashTable

/-! ## Part X. D1HashTable -/

namespace D1HashTable

variable {K V : Type} [Inhabited K] [Inhabited V] [DecidableEq K]

/-! ### `Reset` -/

/-- `Reset` leaves the `values` vector empty, and the next `Insert` writes outside
it. -/
theorem d1_Reset_insert (digest : K → Nat) (t : D1HashTable K V) (k : K) (v : V) :
    Insert digest (Reset t) k v = none := by
  have hb : HashKey digest k &&& 15 < 16 := by
    have := Nat.and_le_right (n := HashKey digest k) (m := 15)
    omega
  have hks : (Reset t).keyAndStates = List.replicate 16 default := by simp only [Reset]
  have hsz : (Reset t).size_ = 0 := by simp only [Reset]
  have hvs : (Reset t).values = [] := by simp only [Reset]
  unfold Insert
  have h0 : ¬ ((Reset t).size_ * 3 % 2 ^ 32 > (Reset t).keyAndStates.length * 2) := by
    rw [hsz]; norm_num
  rw [if_neg h0]
  have hlen : (Reset t).keyAndStates.length % 2 ^ 32 = 16 := by
    rw [hks, List.length_replicate]
    norm_num
  have hm : (16 + 2 ^ 32 - 1) % 2 ^ 32 = 15 := by norm_num
  simp only [hlen, hm]
  generalize HashKey digest k &&& 15 = s at hb
  have hfind : ∃ idx, findSlot (Reset t).keyAndStates s 16 = some idx := by
    unfold findSlot
    have hcons : List.range' s (16 - s) = s :: List.range' (s + 1) (16 - s - 1) := by
      have : 16 - s = (16 - s - 1) + 1 := by omega
      rw [this, List.range'_succ]
      simp
    rw [hcons]
    have hst : (ksAt (Reset t).keyAndStates s).state ≠ State.FILLED := by
      have : ksAt (Reset t).keyAndStates s = default := by
        rw [hks]
        exact D0HashTable.d0_getD_replicate 16 s default
      rw [this]
      simp [default]
    simp only [searchSlot, hst, ne_eq, not_false_eq_true, if_true]
    exact ⟨s, rfl⟩
  obtain ⟨idx, hidx⟩ := hfind
  rw [hidx]
  simp [hvs]

/-! ### `Rehash` with an argument that does not grow the table -/

theorem d1_Rehash_small (digest : K → Nat) (t : D1HashTable K V) (n : Nat)
    (hlen : t.keyAndStates.length < 2 ^ 32) (hn : n ≤ t.keyAndStates.length) :
    Rehash digest t n = some t := by
  unfold Rehash
  simp only
  rw [Nat.mod_eq_of_lt hlen, if_pos hn]

open OpenAddr

/-! ### An `OLHashTable` in the layout of `D1HashTable` -/

/-- The `D1HashTable::State` that stands for a `BSTATE`. -/
def stateOf : BSTATE → State
  | BSTATE.BSTATE_Empty => State.EMPTY
  | BSTATE.BSTATE_Filled => State.FILLED
  | BSTATE.BSTATE_Removed => State.REMOVED

/-- The state and the key of a bucket. -/
def ksOf (b : Bucket K V) : KS K := ⟨stateOf b.state, b.key⟩

/-- The value of a bucket. -/
def valOf (b : Bucket K V) : V := b.value

/-- An `OLHashTable` without its stored hashes, as a `D1HashTable`. -/
def ofOL (o : OLHashTable K V) : D1HashTable K V :=
  { keyAndStates := o.buckets.map ksOf, values := o.buckets.map valOf, size_ := o.size }

theorem d1_stateOf_filled (s : BSTATE) :
    stateOf s = State.FILLED ↔ s = BSTATE.BSTATE_Filled := by
  cases s <;> simp [stateOf]

theorem d1_ksAt_map (bs : List (Bucket K V)) (i : Nat) :
    ksAt (bs.map ksOf) i = ksOf (bucketAt bs i) := by
  unfold ksAt bucketAt
  induction bs generalizing i with
  | nil => rfl
  | cons b bs ih =>
    cases i with
    | zero => rfl
    | succ i => simpa using ih i

theorem d1_getD_map (bs : List (Bucket K V)) (i : Nat) :
    (bs.map valOf).getD i default = (bucketAt bs i).value := by
  unfold bucketAt
  induction bs generalizing i with
  | nil => rfl
  | cons b bs ih =>
    cases i with
    | zero => rfl
    | succ i => simpa using ih i

theorem d1_set_self (bs : List (Bucket K V)) (i : Nat) :
    (bs.map valOf).set i (bucketAt bs i).value = bs.map valOf := by
  unfold bucketAt
  induction bs generalizing i with
  | nil => rfl
  | cons b bs ih =>
    cases i with
    | zero => rfl
    | succ i =>
      simp only [List.map_cons, List.set_cons_succ, List.getD_cons_succ]
      rw [ih i]

/-- A 32-bit hash is not changed by the mask `s_62Bits`. -/
theorem d1_hash_mask (digest : K → Nat) (k : K) :
    HashKey digest k &&& s_62Bits = HashKey digest k := by
  have h62 : s_62Bits = 2 ^ 62 - 1 := by norm_num [s_62Bits]
  rw [h62, Nat.and_pow_two_sub_one_eq_mod]
  apply Nat.mod_eq_of_lt
  have h1 : HashKey digest k < 2 ^ 32 := Nat.mod_lt _ (by norm_num)
  have h2 : (2 : Nat) ^ 32 ≤ 2 ^ 62 := Nat.pow_le_pow_right (by decide) (by decide)
  omega

theorem d1_searchSlot_map (bs : List (Bucket K V)) (ps : List Nat) :
    searchSlot (bs.map ksOf) ps = searchUnused bs ps := by
  induction ps with
  | nil => rfl
  | cons i rest ih =>
    simp only [searchSlot, searchUnused, d1_ksAt_map, ih]
    by_cases hf : (bucketAt bs i).state = BSTATE.BSTATE_Filled
    · have : (ksOf (bucketAt bs i)).state = State.FILLED := (d1_stateOf_filled _).mpr hf
      simp [hf, this]
    · have : (ksOf (bucketAt bs i)).state ≠ State.FILLED :=
        fun e => hf ((d1_stateOf_filled _).mp e)
      simp [hf, this]

theorem d1_findSlot_map (bs : List (Bucket K V)) (s n : Nat) :
    findSlot (bs.map ksOf) s n = OLHashTable.findTarget bs s n := by
  unfold findSlot OLHashTable.findTarget
  rw [d1_searchSlot_map, d1_searchSlot_map]

/-- The key scan of `D1HashTable` compares keys only; on buckets whose stored hash is the
hash of their key it finds what the scan of `OLHashTable` finds. -/
theorem d1_scanSlots_map (bs : List (Bucket K V)) (hash : Nat) (key : K)
    (hok : ∀ j, (bucketAt bs j).state = BSTATE.BSTATE_Filled → (bucketAt bs j).key = key →
      (bucketAt bs j).hash = hash) (ps : List Nat) :
    scanSlots (bs.map ksOf) key ps = scanKey bs hash key ps := by
  induction ps with
  | nil => rfl
  | cons i rest ih =>
    simp only [scanSlots, scanKey, d1_ksAt_map]
    cases hst : (bucketAt bs i).state with
    | BSTATE_Empty => simp [ksOf, hst, stateOf]
    | BSTATE_Removed => simp [ksOf, hst, stateOf, ih]
    | BSTATE_Filled =>
      simp only [ksOf, hst, stateOf, ih]
      by_cases hk : (bucketAt bs i).key = key
      · simp [hk, hok i hst hk]
      · simp [hk]

theorem d1_scanTwo_map (bs : List (Bucket K V)) (hash : Nat) (key : K)
    (hok : ∀ j, (bucketAt bs j).state = BSTATE.BSTATE_Filled → (bucketAt bs j).key = key →
      (bucketAt bs j).hash = hash) (s : Nat) :
    scanTwo (bs.map ksOf) key s bs.length = OLHashTable.scanTwo bs hash key s := by
  unfold scanTwo OLHashTable.scanTwo
  rw [d1_scanSlots_map bs hash key hok, d1_scanSlots_map bs hash key hok]

/-- Stored hashes are the hashes of the keys. -/
def HashOK (digest : K → Nat) (bs : List (Bucket K V)) : Prop :=
  ∀ j, (bucketAt bs j).state = BSTATE.BSTATE_Filled →
    (bucketAt bs j).hash = HashKey digest (bucketAt bs j).key

theorem d1_hashOK_of_wfd {digest : K → Nat} {o : OLHashTable K V}
    (h : OLHashTable.WFD digest o) : HashOK digest o.buckets := by
  intro j hj
  have := h.inv.hash_ok j hj
  rw [this, OLHashTable.hashOf, d1_hash_mask]

theorem d1_mask_len (h n : Nat) (hn : 0 < n) (hlt : n < 2 ^ 32) :
    h &&& ((n % 2 ^ 32 + 2 ^ 32 - 1) % 2 ^ 32) = h &&& (n - 1) := by
  rw [Nat.mod_eq_of_lt hlt]
  have : (n + 2 ^ 32 - 1) % 2 ^ 32 = n - 1 := by
    have e : n + 2 ^ 32 - 1 = (n - 1) + 2 ^ 32 := by omega
    rw [e, Nat.add_mod_right, Nat.mod_eq_of_lt (by omega)]
  rw [this]

/-- `Lookup` on the table without hashes. -/
theorem d1_Lookup_map (digest : K → Nat) (o : OLHashTable K V)
    (hok : HashOK digest o.buckets) (hpos : 0 < o.buckets.length)
    (hlen : o.buckets.length < 2 ^ 32) (k : K) :
    Lookup digest (ofOL o) k = some (OLHashTable.Lookup digest o k) := by
  unfold Lookup OLHashTable.Lookup
  simp only [ofOL, List.length_map]
  rw [d1_mask_len _ _ hpos hlen, Nat.mod_eq_of_lt hlen, d1_hash_mask,
    d1_scanTwo_map o.buckets (HashKey digest k) k (fun j hj hk => by rw [hok j hj, hk])]
  cases hs : OLHashTable.scanTwo o.buckets (HashKey digest k) k
      (HashKey digest k &&& (o.buckets.length - 1)) with
  | found i =>
    rw [OLHashTable.ol_scanTwo_eq] at hs
    obtain ⟨_, hst, _, _⟩ := scanKey_found _ _ _ _ _ hs
    have hi := filled_lt _ _ hst
    simp only [hi, if_true, d1_getD_map]
  | empty => rfl
  | exhausted => rfl

/-- `Remove` on the table without hashes. -/
theorem d1_Remove_map (digest : K → Nat) (o : OLHashTable K V)
    (hok : HashOK digest o.buckets) (hs : OLHashTable.Shape o)
    (hlen : o.buckets.length < 2 ^ 32) (k : K) :
    Remove digest (ofOL o) k =
      (ofOL (OLHashTable.Remove digest o k).1, (OLHashTable.Remove digest o k).2) := by
  have hpos := hs.pos
  unfold Remove OLHashTable.Remove
  simp only [ofOL, List.length_map]
  rw [d1_mask_len _ _ hpos hlen, Nat.mod_eq_of_lt hlen, d1_hash_mask,
    d1_scanTwo_map o.buckets (HashKey digest k) k (fun j hj hk => by rw [hok j hj, hk])]
  cases hsc : OLHashTable.scanTwo o.buckets (HashKey digest k) k
      (HashKey digest k &&& (o.buckets.length - 1)) with
  | found i =>
    rw [OLHashTable.ol_scanTwo_eq] at hsc
    obtain ⟨_, hst, _, _⟩ := scanKey_found _ _ _ _ _ hsc
    have hi := filled_lt _ _ hst
    have hcnt := filledCount_set_unfill o.buckets i
      ⟨0, BSTATE.BSTATE_Removed, (bucketAt o.buckets i).key, (bucketAt o.buckets i).value⟩
      hi hst (by simp)
    have hle := filledCount_le o.buckets
    have hsz : 1 ≤ o.size ∧ o.size < 2 ^ 32 := by
      rw [hs.size_eq]; omega
    have hmod : (o.size + 2 ^ 32 - 1) % 2 ^ 32 = o.size - 1 := by
      have e : o.size + 2 ^ 32 - 1 = (o.size - 1) + 2 ^ 32 := by omega
      rw [e, Nat.add_mod_right, Nat.mod_eq_of_lt (by omega)]
    simp only [List.map_set, d1_ksAt_map, hmod]
    have hv : valOf (⟨0, BSTATE.BSTATE_Removed, (bucketAt o.buckets i).key,
        (bucketAt o.buckets i).value⟩ : Bucket K V) = (bucketAt o.buckets i).value := rfl
    rw [hv, d1_set_self]
    rfl
  | empty => rfl
  | exhausted => rfl

/-! ### `Rehash` and `Insert` on the table without hashes -/

theorem d1_bucketAt_mid (pre rest : List (Bucket K V)) (b : Bucket K V) :
    bucketAt (pre ++ b :: rest) pre.length = b := by
  unfold bucketAt
  induction pre with
  | nil => rfl
  | cons a pre ih => simpa using ih

/-- The loop of `Rehash` hashes the keys again and places the entries where the loop of
`OLHashTable::Rehash` places them from their stored hashes. -/
theorem d1_rehashLoop_map (digest : K → Nat) (n : Nat) :
    ∀ (rest pre acc res : List (Bucket K V)),
      (∀ b ∈ rest, b.state = BSTATE.BSTATE_Filled → b.hash = HashKey digest b.key) →
      OLHashTable.rehashLoop n rest acc = some res →
      rehashLoop digest ((pre ++ rest).map valOf) n pre.length (rest.map ksOf)
          (acc.map ksOf, acc.map valOf) =
        some (res.map ksOf, res.map valOf) := by
  intro rest
  induction rest with
  | nil =>
    intro pre acc res _ hr
    simp only [OLHashTable.rehashLoop, Option.some.injEq] at hr
    subst hr
    rfl
  | cons b rest ih =>
    intro pre acc res hok hr
    have hnext := ih (pre ++ [b]) 
    have hpre : pre ++ b :: rest = (pre ++ [b]) ++ rest := by simp
    have hlen1 : (pre ++ [b]).length = pre.length + 1 := by simp
    by_cases hb : b.state = BSTATE.BSTATE_Filled
    · have hks : (ksOf b).state = State.FILLED := (d1_stateOf_filled _).mpr hb
      simp only [OLHashTable.rehashLoop, hb, ne_eq, not_true_eq_false, if_false] at hr
      simp only [List.map_cons, rehashLoop, hks, ne_eq, not_true_eq_false, if_false]
      have hk : (ksOf b).key = b.key := rfl
      rw [hk, ← hok b (List.mem_cons_self _ _) hb, d1_findSlot_map]
      cases hf : OLHashTable.findTarget acc (b.hash &&& (n - 1)) n with
      | none => rw [hf] at hr; cases hr
      | some j =>
        rw [hf] at hr
        simp only at hr ⊢
        have hi : pre.length < ((pre ++ b :: rest).map valOf).length := by simp
        rw [if_pos hi]
        have hv : ((pre ++ b :: rest).map valOf).getD pre.length default = b.value := by
          rw [d1_getD_map, d1_bucketAt_mid]
        rw [hv]
        have := hnext (acc.set j ⟨b.hash, BSTATE.BSTATE_Filled, b.key, b.value⟩) res
          (fun c hc => hok c (List.mem_cons_of_mem _ hc)) hr
        rw [hlen1, ← hpre, List.map_set, List.map_set] at this
        exact this
    · have hks : (ksOf b).state ≠ State.FILLED := fun e => hb ((d1_stateOf_filled _).mp e)
      simp only [OLHashTable.rehashLoop, hb, ne_eq, not_false_eq_true, if_true] at hr
      simp only [List.map_cons, rehashLoop, hks, ne_eq, not_false_eq_true, if_true]
      have := hnext acc res (fun c hc => hok c (List.mem_cons_of_mem _ hc)) hr
      rw [hlen1, ← hpre] at this
      exact this

/-- `Rehash` to more slots, at least 16 and fewer than `2 ^ 32`, on the table without
hashes. -/
theorem d1_Rehash_map (digest : K → Nat) (o : OLHashTable K V)
    (hok : HashOK digest o.buckets) (hs : OLHashTable.Shape o) (n : Nat)
    (hgrow : o.buckets.length < n) (h16 : 16 ≤ n) (hn : n < 2 ^ 32) :
    ∃ o1, OLHashTable.Rehash o n = some o1 ∧ Rehash digest (ofOL o) n = some (ofOL o1) := by
  obtain ⟨o1, h1, _, _, _⟩ := OLHashTable.ol_Rehash_shape hs n
  refine ⟨o1, h1, ?_⟩
  have hle := filledCount_le o.buckets
  rw [← hs.size_eq] at hle
  have hmax : max (max n o.size) s_hashTableInitialSize = n := by
    simp only [s_hashTableInitialSize]; omega
  unfold OLHashTable.Rehash at h1
  simp only [hmax] at h1
  cases hr : OLHashTable.rehashLoop n o.buckets (List.replicate n default) with
  | none => rw [hr] at h1; cases h1
  | some res =>
    rw [hr] at h1
    simp only [Option.some.injEq] at h1
    subst h1
    have hmap := d1_rehashLoop_map digest n o.buckets [] (List.replicate n default) res
      (by
        intro b hb hst
        obtain ⟨j, hj, rfl⟩ := List.getElem_of_mem hb
        have := hok j (by rw [bucketAt_eq_getElem o.buckets j hj]; exact hst)
        rwa [bucketAt_eq_getElem o.buckets j hj] at this) hr
    unfold Rehash
    simp only [ofOL, List.length_map]
    rw [Nat.mod_eq_of_lt (by omega), if_neg (by omega)]
    have htake : (o.buckets.map ksOf).take o.buckets.length = o.buckets.map ksOf := by
      rw [List.take_of_length_le (by simp)]
    rw [htake]
    have hinit : (List.replicate n (default : KS K), List.replicate n (default : V)) =
        ((List.replicate n (default : Bucket K V)).map ksOf,
          (List.replicate n (default : Bucket K V)).map valOf) := by
      simp only [List.map_replicate]
      rfl
    rw [hinit]
    simp only [List.nil_append, List.length_nil] at hmap
    rw [hmap]

/-- `Insert` on the table without hashes, while `size_ * 3` does not overflow. -/
theorem d1_Insert_map (digest : K → Nat) (o : OLHashTable K V)
    (hok : HashOK digest o.buckets) (hs : OLHashTable.Shape o)
    (h16 : 16 ≤ o.buckets.length) (hlen : o.buckets.length < 2 ^ 32)
    (hsz : o.size * 3 < 2 ^ 32) (k : K) (v : V) :
    ∃ o1, OLHashTable.Insert digest o k v = some o1 ∧
      Insert digest (ofOL o) k v = some (ofOL o1) := by
  obtain ⟨o0, i, _, _, h0, hfind, hi, _, _, _⟩ := OLHashTable.ol_Insert_first digest hs k
  obtain ⟨_, h0b, hs0, hsz0, _, hlen0⟩ := OLHashTable.ol_grow_shape hs
  rw [h0] at h0b
  have e0 := Option.some.inj h0b
  subst e0
  have hI : OLHashTable.Insert digest o k v =
      some ⟨o0.buckets.set i ⟨HashKey digest k &&& s_62Bits, BSTATE.BSTATE_Filled, k, v⟩,
        o0.size + 1⟩ := by
    simp only [OLHashTable.Insert, h0, hfind]
  refine ⟨_, hI, ?_⟩
  have hgrow : (if (ofOL o).size_ * 3 % 2 ^ 32 > (ofOL o).keyAndStates.length * 2 then
      Rehash digest (ofOL o) ((ofOL o).keyAndStates.length * 2 % 2 ^ 32) else some (ofOL o)) =
      some (ofOL o0) := by
    simp only [ofOL, List.length_map]
    rw [Nat.mod_eq_of_lt hsz]
    by_cases hc : o.size * 3 > o.buckets.length * 2
    · rw [if_pos hc] at h0 ⊢
      rw [Nat.mod_eq_of_lt (by omega)]
      obtain ⟨o2, h2, h3⟩ := d1_Rehash_map digest o hok hs (o.buckets.length * 2)
        (by omega) (by omega) (by omega)
      rw [h0] at h2
      rw [← Option.some.inj h2] at h3
      exact h3
    · rw [if_neg hc] at h0 ⊢
      rw [← Option.some.inj h0]
  have hlen0b : o0.buckets.length < 2 ^ 32 := by
    rcases hlen0 with hl | ⟨hc, hl⟩
    · rw [hl]; exact hlen
    · rw [hl]; simp only [s_hashTableInitialSize]; omega
  have hmod : (o0.size + 1) % 2 ^ 32 = o0.size + 1 := Nat.mod_eq_of_lt (by omega)
  rw [d1_hash_mask] at hfind
  unfold Insert
  rw [hgrow]
  simp only [ofOL, List.length_map]
  rw [d1_mask_len _ _ hs0.pos hlen0b, Nat.mod_eq_of_lt hlen0b, d1_findSlot_map, hfind]
  simp only [hi, and_self, if_true, hmod, List.map_set]
  rfl

/-! ### The two tables in lock-step -/

/-- An `OLHashTable` reached by calls while it never held more than 1431655766 entries:
its bucket count is a power of two that is 16 or was last doubled when the table held
more than 2/3 of half as many entries, at most 1431655765. -/
structure Within (digest : K → Nat) (o : OLHashTable K V) : Prop where
  wfd : OLHashTable.WFD digest o
  pow : OLHashTable.Pow2 o
  len : o.buckets.length = 16 ∨ o.buckets.length + 3 < 3 * 1431655766

theorem d1_within_new (digest : K → Nat) : Within digest (OLHashTable.new : OLHashTable K V) :=
  ⟨OLHashTable.ol_wfd_new digest, OLHashTable.ol_pow2_new, Or.inl rfl⟩

theorem d1_new_eq : (new : D1HashTable K V) = ofOL OLHashTable.new := by
  simp only [new, ofOL, OLHashTable.new, s_hashTableInitialSize, List.map_replicate]
  rfl

theorem d1_within_len {digest : K → Nat} {o : OLHashTable K V} (h : Within digest o) :
    16 ≤ o.buckets.length ∧ o.buckets.length < 2 ^ 32 := by
  obtain ⟨j, hj4, hj⟩ := h.pow
  have h16 : 16 ≤ o.buckets.length := by
    rw [hj]
    calc 16 = 2 ^ 4 := rfl
      _ ≤ 2 ^ j := Nat.pow_le_pow_right (by decide) hj4
  refine ⟨h16, ?_⟩
  rcases h.len with hl | hl
  · rw [hl]; norm_num
  · omega

/-- One `Insert` on both tables, while the table holds fewer than 1431655766 entries. -/
theorem d1_Insert_step (digest : K → Nat) {o : OLHashTable K V} (h : Within digest o)
    (hm : o.size + 1 ≤ 1431655766) (k : K) (v : V) :
    ∃ o1, OLHashTable.Insert digest o k v = some o1 ∧
      Insert digest (ofOL o) k v = some (ofOL o1) ∧ Within digest o1 ∧
      o1.size = o.size + 1 := by
  obtain ⟨h16, hlen⟩ := d1_within_len h
  have hs := h.wfd.ol_shapeD
  obtain ⟨o1, h1, h2⟩ := d1_Insert_map digest o (d1_hashOK_of_wfd h.wfd) hs h16 hlen
    (by omega) k v
  obtain ⟨o2, h3, hw2, _⟩ := OLHashTable.ol_Insert_dup digest h.wfd k v
  obtain ⟨o3, h4, _, hsz3, hlen3⟩ := OLHashTable.ol_Insert_length digest hs k v
  obtain ⟨o4, h5, _, hp4⟩ := OLHashTable.ol_Insert_pow2 digest hs h.pow k v
  rw [h1] at h3 h4 h5
  have e2 := Option.some.inj h3
  have e3 := Option.some.inj h4
  have e4 := Option.some.inj h5
  subst e2
  subst e3
  subst e4
  refine ⟨o1, h1, h2, ⟨hw2, hp4, ?_⟩, hsz3⟩
  have hlen0 := h.len
  rcases hlen3 with hl | ⟨hc, hl⟩
  · rw [hl]; exact hlen0
  · right
    rw [hl]
    simp only [s_hashTableInitialSize]
    omega

/-- One `Remove` on both tables. -/
theorem d1_Remove_step (digest : K → Nat) {o : OLHashTable K V} (h : Within digest o)
    (k : K) :
    Remove digest (ofOL o) k =
        (ofOL (OLHashTable.Remove digest o k).1, (OLHashTable.Remove digest o k).2) ∧
      Within digest (OLHashTable.Remove digest o k).1 := by
  obtain ⟨h16, hlen⟩ := d1_within_len h
  have hs := h.wfd.ol_shapeD
  refine ⟨d1_Remove_map digest o (d1_hashOK_of_wfd h.wfd) hs hlen k,
    OLHashTable.ol_Remove_dup digest h.wfd k, ?_, ?_⟩
  · obtain ⟨j, hj4, hj⟩ := h.pow
    exact ⟨j, hj4, by rw [OLHashTable.ol_Remove_length, hj]⟩
  · rw [OLHashTable.ol_Remove_length]
    exact h.len

/-- Every sequence of `Insert` and `Remove` calls during which the tables never hold
more than 1431655766 entries returns on both tables, with the same `Remove` results, and
leaves the `D1HashTable` the `OLHashTable` without its hashes. -/
theorem d1_run_map (digest : K → Nat) :
    ∀ (ops : List (Op K V)) (o : OLHashTable K V) (cnt : K → Nat), Within digest o →
      (∀ k, keyCount o.buckets k = cnt k) →
      Model.fitsDup 1431655766 cnt o.size ops = true →
      ∃ o1 rs, OLHashTable.run digest o ops = some (o1, rs) ∧
        run digest (ofOL o) ops = some (ofOL o1, rs) ∧ Within digest o1 := by
  intro ops
  induction ops with
  | nil =>
    intro o cnt h _ _
    exact ⟨o, [], rfl, rfl, h⟩
  | cons op rest ih =>
    intro o cnt h hcnt hfit
    cases op with
    | insert k v =>
      simp only [Model.fitsDup, Bool.and_eq_true, decide_eq_true_eq] at hfit
      obtain ⟨o1, h1, h2, hw1, hsz1⟩ := d1_Insert_step digest h hfit.1 k v
      have hk1 : ∀ x, keyCount o1.buckets x = Model.stepCount cnt (Op.insert k v : Op K V) x := by
        intro x
        rw [OLHashTable.ol_Insert_keyCount digest h.wfd.ol_shapeD k v h1 x, hcnt]
        simp only [Model.stepCount]
        by_cases hx : x = k
        · rw [if_pos hx, if_pos hx.symm]
        · rw [if_neg hx, if_neg (fun e => hx e.symm)]
          rfl
      obtain ⟨o2, rs, h3, h4, hw2⟩ := ih o1 _ hw1 hk1 (by rw [hsz1]; exact hfit.2)
      refine ⟨o2, rs, ?_, ?_, hw2⟩
      · unfold OLHashTable.run at h3 ⊢
        simp only [runOps, h1]
        exact h3
      · unfold run at h4 ⊢
        simp only [runOps, h2]
        exact h4
    | remove k =>
      simp only [Model.fitsDup] at hfit
      obtain ⟨h2, hw1⟩ := d1_Remove_step digest h k
      obtain ⟨_, hk, hsz⟩ := OLHashTable.ol_Remove_keyCount digest h.wfd k
      have hk1 : ∀ x, keyCount (OLHashTable.Remove digest o k).1.buckets x =
          Model.stepCount cnt (Op.remove k : Op K V) x := by
        intro x
        rw [hk x]
        simp only [Model.stepCount, hcnt]
      obtain ⟨o2, rs, h3, h4, hw2⟩ := ih _ _ hw1 hk1 (by rw [hsz, hcnt]; exact hfit)
      refine ⟨o2, (OLHashTable.Remove digest o k).2 :: rs, ?_, ?_, hw2⟩
      · unfold OLHashTable.run at h3 ⊢
        simp only [runOps, h3]
      · unfold run at h4 ⊢
        simp only [runOps, h2, h4]

/-! ### The overflow of `size_ * 3` -/

/-- The table after `m` insertions, `m` up to 1431655766. -/
theorem d1_fill_spec (digest : Nat → Nat) :
    ∀ m, m ≤ 1431655766 →
      ∃ o, OLHashTable.run digest OLHashTable.new (D0HashTable.fill m) = some (o, []) ∧
        run digest (new : D1HashTable Nat Nat) (D0HashTable.fill m) = some (ofOL o, []) ∧
        Within digest o ∧ o.size = m := by
  intro m
  induction m with
  | zero =>
    intro _
    exact ⟨OLHashTable.new, rfl, by rw [d1_new_eq]; rfl, d1_within_new digest, rfl⟩
  | succ m ih =>
    intro hm
    obtain ⟨o, h1, h2, hw, hsz⟩ := ih (by omega)
    obtain ⟨o1, h3, h4, hw1, hsz1⟩ := d1_Insert_step digest hw (by omega) m m
    refine ⟨o1, ?_, ?_, hw1, by omega⟩
    · rw [D0HashTable.d0_fill_succ]
      unfold OLHashTable.run at h1 ⊢
      rw [D0HashTable.d0_runOps_snoc _ _ _ _ (D0HashTable.fill m) _ o [] h1, h3]
      rfl
    · rw [D0HashTable.d0_fill_succ]
      unfold run at h2 ⊢
      rw [D0HashTable.d0_runOps_snoc _ _ _ _ (D0HashTable.fill m) _ (ofOL o) [] h2, h4]
      rfl

/-- With 1431655766 entries `size_ * 3` is 2 in `uint32_t`: the next `Insert` does not
grow the `D1HashTable`, while the `OLHashTable` doubles its bucket count. -/
theorem d1_fill_overflow (digest : Nat → Nat) :
    ∃ d o, run digest (new : D1HashTable Nat Nat) (D0HashTable.fill 1431655767) =
        some (d, []) ∧
      OLHashTable.run digest OLHashTable.new (D0HashTable.fill 1431655767) = some (o, []) ∧
      o.buckets.length = 2 * d.keyAndStates.length ∧ 16 ≤ d.keyAndStates.length := by
  obtain ⟨o, h1, h2, hw, hsz⟩ := d1_fill_spec digest 1431655766 (le_refl _)
  obtain ⟨h16, hlen⟩ := d1_within_len hw
  have hs := hw.wfd.ol_shapeD
  have hlen31 : o.buckets.length ≤ 2 ^ 31 := by
    obtain ⟨j, _, hj⟩ := hw.pow
    rw [hj] at hlen ⊢
    have hj32 : j < 32 := (Nat.pow_lt_pow_iff_right (by norm_num)).mp hlen
    exact Nat.pow_le_pow_right (by decide) (by omega)
  have hc : o.size * 3 > o.buckets.length * 2 := by
    rw [hsz]
    have e : (2 : Nat) ^ 31 = 2147483648 := by norm_num
    omega
  obtain ⟨o0, i, _, _, h0, hfind, hi, _, _, _⟩ :=
    OLHashTable.ol_Insert_first digest hs 1431655766
  rw [if_pos hc] at h0
  obtain ⟨o0b, h0b, _, _, hlen0⟩ := OLHashTable.ol_Rehash_shape hs (o.buckets.length * 2)
  rw [h0] at h0b
  have e0 := Option.some.inj h0b
  subst e0
  have hle := filledCount_le o.buckets
  rw [← hs.size_eq] at hle
  have hlen0b : o0.buckets.length = 2 * o.buckets.length := by
    rw [hlen0]
    simp only [s_hashTableInitialSize]
    omega
  have hI : ∃ o2, OLHashTable.Insert digest o 1431655766 1431655766 = some o2 ∧
      o2.buckets.length = 2 * o.buckets.length := by
    refine ⟨⟨o0.buckets.set i
        ⟨HashKey digest 1431655766 &&& s_62Bits, BSTATE.BSTATE_Filled, 1431655766,
          1431655766⟩, o0.size + 1⟩, ?_, ?_⟩
    · simp only [OLHashTable.Insert, if_pos hc, h0, hfind]
    · simp only [List.length_set]
      exact hlen0b
  obtain ⟨o2, hI, hI2⟩ := hI
  have hmod : o.size * 3 % 2 ^ 32 = 2 := by
    rw [hsz]
    norm_num
  have hD : ∃ d, Insert digest (ofOL o) 1431655766 1431655766 = some d ∧
      d.keyAndStates.length = o.buckets.length := by
    unfold Insert
    simp only [ofOL, List.length_map]
    rw [hmod, if_neg (by omega)]
    simp only [List.length_map]
    rw [d1_mask_len _ _ hs.pos hlen, Nat.mod_eq_of_lt hlen, d1_findSlot_map]
    cases hf : OLHashTable.findTarget o.buckets
        (HashKey digest 1431655766 &&& (o.buckets.length - 1)) o.buckets.length with
    | none => exact ⟨_, rfl, by simp⟩
    | some idx =>
      have hidx := OLHashTable.ol_findTarget_lt _ _ _ _ (start_lt _ _ hs.pos) hf
      simp only [hidx, and_self, if_true]
      exact ⟨_, rfl, by simp⟩
  obtain ⟨d, hd1, hd2⟩ := hD
  have e : (1431655767 : Nat) = 1431655766 + 1 := rfl
  refine ⟨d, o2, ?_, ?_, ?_, by rw [hd2]; exact h16⟩
  · rw [e, D0HashTable.d0_fill_succ]
    unfold run at h2 ⊢
    rw [D0HashTable.d0_runOps_snoc _ _ _ _ (D0HashTable.fill 1431655766) _ (ofOL o) [] h2, hd1]
    rfl
  · rw [e, D0HashTable.d0_fill_succ]
    unfold OLHashTable.run at h1 ⊢
    rw [D0HashTable.d0_runOps_snoc _ _ _ _ (D0HashTable.fill 1431655766) _ o [] h1, hI]
    rfl
  · rw [hI2, hd2]

/-- The insertions `Insert(0, 0)`, ..., `Insert(m - 1, m - 1)` keep within `cap` live
entries when `m ≤ cap`. -/
theorem d1_fill_fits (cap : Nat) :
    ∀ (n m : Nat) (cnt : Nat → Nat) (live : Nat), live + n ≤ cap →
      Model.fitsDup cap cnt live
        ((List.range' m n).map (fun i => (Op.insert i i : Op Nat Nat))) = true := by
  intro n
  induction n with
  | zero => intro m cnt live _; rfl
  | succ n ih =>
    intro m cnt live h
    simp only [List.range'_succ, List.map_cons, Model.fitsDup, Bool.and_eq_true,
      decide_eq_true_eq]
    exact ⟨by omega, ih (m + 1) _ (live + 1) (by omega)⟩

end D1HashTable

/-! ## Claims -/

/-! ## Part XI. DO1HashTable and DO2HashTable -/

namespace DataOriented

variable {K V : Type} [Inhabited K] [Inhabited V] [DecidableEq K]

/-- The `OLHashTable` bucket array that holds what the parallel arrays hold: bucket `j`
of `bs`, counted from `i`, with key `keyAt j` and value `valAt j`. -/
def merge (keyAt : Nat → K) (valAt : Nat → V) :
    Nat → List DataOriented.Bucket → List (HashTableTests.Bucket K V)
  | _, [] => []
  | i, b :: rest => ⟨b.hash, b.state, keyAt i, valAt i⟩ :: merge keyAt valAt (i + 1) rest

theorem length_merge (keyAt : Nat → K) (valAt : Nat → V) (i : Nat)
    (bs : List DataOriented.Bucket) : (merge keyAt valAt i bs).length = bs.length := by
  induction bs generalizing i with
  | nil => rfl
  | cons b rest ih => simp [merge, ih]

theorem bucketAt_merge (keyAt : Nat → K) (valAt : Nat → V) (i : Nat)
    (bs : List DataOriented.Bucket) (j : Nat) :
    (HashTableTests.bucketAt (merge keyAt valAt i bs) j).state = (bucketAt bs j).state ∧
      (HashTableTests.bucketAt (merge keyAt valAt i bs) j).hash = (bucketAt bs j).hash := by
  induction bs generalizing i j with
  | nil => exact ⟨rfl, rfl⟩
  | cons b rest ih =>
    cases j with
    | zero => exact ⟨rfl, rfl⟩
    | succ j =>
      have := ih (i + 1) j
      simpa [merge, HashTableTests.bucketAt, bucketAt] using this

theorem bucketAt_merge_kv (keyAt : Nat → K) (valAt : Nat → V) (i : Nat)
    (bs : List DataOriented.Bucket) (j : Nat) (hj : j < bs.length) :
    (HashTableTests.bucketAt (merge keyAt valAt i bs) j).key = keyAt (i + j) ∧
      (HashTableTests.bucketAt (merge keyAt valAt i bs) j).value = valAt (i + j) := by
  induction bs generalizing i j with
  | nil => simp at hj
  | cons b rest ih =>
    cases j with
    | zero => exact ⟨rfl, rfl⟩
    | succ j =>
      have := ih (i + 1) j (by simpa using hj)
      rw [show i + (j + 1) = i + 1 + j by omega]
      simpa [merge, HashTableTests.bucketAt] using this

theorem do_lt_of_filled (bs : List DataOriented.Bucket) (j : Nat)
    (h : (bucketAt bs j).state = BSTATE.BSTATE_Filled) : j < bs.length := by
  by_contra hge
  have : bucketAt bs j = default := by
    unfold bucketAt
    rw [List.getD_eq_default _ _ (by omega)]
  rw [this] at h
  cases h

theorem searchUnused_merge (keyAt : Nat → K) (valAt : Nat → V)
    (bs : List DataOriented.Bucket) (ps : List Nat) :
    HashTableTests.searchUnused (merge keyAt valAt 0 bs) ps = searchUnused bs ps := by
  induction ps with
  | nil => rfl
  | cons p rest ih =>
    simp only [HashTableTests.searchUnused, searchUnused, (bucketAt_merge keyAt valAt 0 bs p).1,
      ih]

theorem findTarget_merge (keyAt : Nat → K) (valAt : Nat → V)
    (bs : List DataOriented.Bucket) (s n : Nat) :
    OLHashTable.findTarget (merge keyAt valAt 0 bs) s n = findTarget bs s n := by
  simp only [OLHashTable.findTarget, findTarget, searchUnused_merge]

theorem scanKey_merge (keyAt : Nat → K) (valAt : Nat → V)
    (bs : List DataOriented.Bucket) (hash : Nat) (key : K) (ps : List Nat) :
    HashTableTests.scanKey (merge keyAt valAt 0 bs) hash key ps =
      scanKey bs keyAt hash key ps := by
  induction ps with
  | nil => rfl
  | cons p rest ih =>
    simp only [HashTableTests.scanKey, scanKey, (bucketAt_merge keyAt valAt 0 bs p).1,
      (bucketAt_merge keyAt valAt 0 bs p).2, ih]
    cases hst : (bucketAt bs p).state with
    | BSTATE_Empty => rfl
    | BSTATE_Removed => rfl
    | BSTATE_Filled =>
      have hk := (bucketAt_merge_kv keyAt valAt 0 bs p (do_lt_of_filled bs p hst)).1
      rw [Nat.zero_add] at hk
      simp only [hk]

theorem scanTwo_merge (keyAt : Nat → K) (valAt : Nat → V)
    (bs : List DataOriented.Bucket) (hash : Nat) (key : K) (s : Nat) :
    OLHashTable.scanTwo (merge keyAt valAt 0 bs) hash key s =
      scanTwo bs keyAt hash key s := by
  simp only [OLHashTable.scanTwo, scanTwo, scanKey_merge, length_merge]

/-- The scan stops only at Filled buckets, which are inside the table. -/
theorem do_scanKey_found (bs : List DataOriented.Bucket) (keyAt : Nat → K) (hash : Nat)
    (key : K) (ps : List Nat) (i : Nat) (h : scanKey bs keyAt hash key ps = Scan.found i) :
    i < bs.length := by
  induction ps with
  | nil => simp [scanKey] at h
  | cons p rest ih =>
    simp only [scanKey] at h
    cases hst : (bucketAt bs p).state with
    | BSTATE_Empty => rw [hst] at h; cases h
    | BSTATE_Removed => rw [hst] at h; exact ih h
    | BSTATE_Filled =>
      rw [hst] at h
      simp only at h
      split at h
      · rw [← Scan.found.inj h]
        exact do_lt_of_filled bs p hst
      · exact ih h

theorem do_scanTwo_found (bs : List DataOriented.Bucket) (keyAt : Nat → K) (hash : Nat)
    (key : K) (s i : Nat) (h : scanTwo bs keyAt hash key s = Scan.found i) :
    i < bs.length := by
  unfold scanTwo at h
  split at h
  · exact do_scanKey_found _ _ _ _ _ _ h
  · rename_i r hr
    exact do_scanKey_found _ _ _ _ _ _ h

/-- Writing bucket `j` and its key and value in the parallel arrays writes bucket `j`
of the merged array. -/
theorem merge_set (keyAt keyAt1 : Nat → K) (valAt valAt1 : Nat → V) (h : Nat) (s : BSTATE)
    (k : K) (v : V) :
    ∀ (bs : List DataOriented.Bucket) (i j : Nat), j < bs.length →
      keyAt1 (i + j) = k → valAt1 (i + j) = v →
      (∀ x, x ≠ i + j → keyAt1 x = keyAt x ∧ valAt1 x = valAt x) →
      (merge keyAt valAt i bs).set j ⟨h, s, k, v⟩ =
        merge keyAt1 valAt1 i (bs.set j ⟨h, s⟩) := by
  intro bs
  induction bs with
  | nil => intro i j hj; simp at hj
  | cons b rest ih =>
    intro i j hj hk hv hne
    cases j with
    | zero =>
      simp only [merge, List.set_cons_zero, Nat.add_zero] at hk hv ⊢
      rw [hk, hv]
      congr 1
      clear hj ih
      have hne1 : ∀ x, i + 1 ≤ x → keyAt1 x = keyAt x ∧ valAt1 x = valAt x :=
        fun x hx => hne x (by omega)
      generalize i + 1 = i1 at hne1
      induction rest generalizing i1 with
      | nil => rfl
      | cons c rest2 ih2 =>
        simp only [merge]
        rw [(hne1 i1 (Nat.le_refl _)).1, (hne1 i1 (Nat.le_refl _)).2,
          ih2 (i1 + 1) (fun x hx => hne1 x (by omega))]
    | succ j =>
      simp only [merge, List.set_cons_succ]
      rw [(hne i (by omega)).1, (hne i (by omega)).2]
      congr 1
      exact ih (i + 1) j (by simpa using hj) (by rw [← hk]; congr 1; omega)
        (by rw [← hv]; congr 1; omega) (fun x hx => hne x (by omega))

theorem merge_replicate (keyAt : Nat → K) (valAt : Nat → V)
    (hk : ∀ x, keyAt x = default) (hv : ∀ x, valAt x = default) (n i : Nat) :
    merge keyAt valAt i (List.replicate n default) =
      List.replicate n (default : HashTableTests.Bucket K V) := by
  induction n generalizing i with
  | zero => rfl
  | succ n ih =>
    simp only [List.replicate_succ, merge, ih, hk, hv]
    rfl

theorem bucketAt_merge_default (keyAt : Nat → K) (valAt : Nat → V)
    (bs : List DataOriented.Bucket) (j : Nat) (hj : bs.length ≤ j) :
    (HashTableTests.bucketAt (merge keyAt valAt 0 bs) j).key = default ∧
      (HashTableTests.bucketAt (merge keyAt valAt 0 bs) j).value = default := by
  have : HashTableTests.bucketAt (merge keyAt valAt 0 bs) j = default := by
    unfold HashTableTests.bucketAt
    rw [List.getD_eq_default _ _ (by rw [length_merge]; exact hj)]
  rw [this]
  exact ⟨rfl, rfl⟩

end DataOriented

namespace DO1HashTable

open DataOriented

variable {K V : Type} [Inhabited K] [Inhabited V] [DecidableEq K]

/-- `keyvals[i].key`. -/
def keyOf (kvs : List (KV K V)) : Nat → K := fun i => (kvAt kvs i).key

/-- `keyvals[i].value`. -/
def valOf (kvs : List (KV K V)) : Nat → V := fun i => (kvAt kvs i).value

/-- The table holds what the `OLHashTable` `o` holds: the same size, and in every
bucket the same stored hash, state, key and value. -/
structure Sim (d : DO1HashTable K V) (o : OLHashTable K V) : Prop where
  buckets_eq : o.buckets = merge (keyOf d.keyvals) (valOf d.keyvals) 0 d.buckets
  klen : d.keyvals.length = d.buckets.length
  size_eq : o.size = d.size

theorem do1_kvAt_set (kvs : List (KV K V)) (j x : Nat) (kv : KV K V) (hj : j < kvs.length) :
    kvAt (kvs.set j kv) x = if x = j then kv else kvAt kvs x := by
  unfold kvAt
  by_cases h : x = j
  · subst h; simp [List.getD_eq_getElem?_getD, List.getElem?_set_self hj]
  · have h2 : j ≠ x := fun e => h e.symm
    simp [List.getD_eq_getElem?_getD, List.getElem?_set_ne h2, h]

theorem do1_kvAt_replicate (n x : Nat) :
    kvAt (List.replicate n (default : KV K V)) x = default := by
  unfold kvAt
  by_cases h : x < n
  · simp [List.getD_eq_getElem?_getD, List.getElem?_replicate, h]
  · simp [List.getD_eq_getElem?_getD, List.getElem?_replicate, h]

theorem do1_merge_fill (bs : List DataOriented.Bucket) (kvs : List (KV K V)) (j h : Nat)
    (k : K) (v : V) (hj : j < bs.length) (hlen : kvs.length = bs.length) :
    (merge (keyOf kvs) (valOf kvs) 0 bs).set j ⟨h, BSTATE.BSTATE_Filled, k, v⟩ =
      merge (keyOf (kvs.set j ⟨k, v⟩)) (valOf (kvs.set j ⟨k, v⟩)) 0
        (bs.set j ⟨h, BSTATE.BSTATE_Filled⟩) := by
  apply merge_set _ _ _ _ _ _ _ _ bs 0 j hj
  · simp [keyOf, do1_kvAt_set _ _ _ _ (hlen ▸ hj)]
  · simp [valOf, do1_kvAt_set _ _ _ _ (hlen ▸ hj)]
  · intro x hx
    rw [Nat.zero_add] at hx
    simp [keyOf, valOf, do1_kvAt_set _ _ _ _ (hlen ▸ hj), hx]

theorem do1_sim_new : Sim (new : DO1HashTable K V) (OLHashTable.new : OLHashTable K V) := by
  refine ⟨?_, rfl, rfl⟩
  simp only [new, OLHashTable.new]
  rw [merge_replicate]
  · intro x; simp [keyOf, do1_kvAt_replicate]; rfl
  · intro x; simp [valOf, do1_kvAt_replicate]; rfl

/-- The loop of `Rehash` follows the loop of `OLHashTable::Rehash` step by step. -/
theorem do1_rehashLoop_sim (keyvals : List (KV K V)) (n : Nat) (hn : 0 < n) :
    ∀ (old : List DataOriented.Bucket) (i : Nat) (accB : List DataOriented.Bucket)
      (accKV : List (KV K V)) (res : List (HashTableTests.Bucket K V)),
      accKV.length = accB.length → accB.length = n →
      OLHashTable.rehashLoop n (merge (keyOf keyvals) (valOf keyvals) i old)
        (merge (keyOf accKV) (valOf accKV) 0 accB) = some res →
      ∃ rb rkv, rehashLoop keyvals n i old accB accKV = some (rb, rkv) ∧
        res = merge (keyOf rkv) (valOf rkv) 0 rb ∧ rkv.length = rb.length ∧
        rb.length = n := by
  intro old
  induction old with
  | nil =>
    intro i accB accKV res hk hb h
    simp only [merge, OLHashTable.rehashLoop, Option.some.injEq] at h
    exact ⟨accB, accKV, rfl, h.symm, hk, hb⟩
  | cons b rest ih =>
    intro i accB accKV res hk hb h
    simp only [merge, OLHashTable.rehashLoop, rehashLoop] at h ⊢
    by_cases hst : b.state ≠ BSTATE.BSTATE_Filled
    · rw [if_pos hst] at h ⊢
      exact ih (i + 1) accB accKV res hk hb h
    · rw [if_neg hst] at h ⊢
      rw [findTarget_merge] at h
      cases hft : findTarget accB (b.hash &&& (n - 1)) n with
      | none => rw [hft] at h; cases h
      | some j =>
        rw [hft] at h
        simp only at h ⊢
        have hj : j < n := by
          have := OLHashTable.ol_findTarget_lt
            (merge (keyOf accKV) (valOf accKV) 0 accB) (b.hash &&& (n - 1)) n j
            (OpenAddr.start_lt _ _ hn) (by rw [findTarget_merge]; exact hft)
          exact this
        rw [do1_merge_fill accB accKV j b.hash _ _ (hb ▸ hj) hk] at h
        exact ih (i + 1) _ _ res (by simp [hk]) (by simp [hb]) h

theorem do1_merge_zero_eq (d : DO1HashTable K V) (o : OLHashTable K V) (h : Sim d o) :
    o.buckets.length = d.buckets.length := by
  rw [h.buckets_eq, length_merge]

theorem do1_Rehash_sim {d : DO1HashTable K V} {o o1 : OLHashTable K V} (h : Sim d o)
    (n : Nat) (ho : OLHashTable.Rehash o n = some o1) :
    ∃ d1, Rehash d n = some d1 ∧ Sim d1 o1 := by
  unfold OLHashTable.Rehash at ho
  simp only at ho
  have hpos : 0 < max (max n d.size) s_hashTableInitialSize := by
    simp [s_hashTableInitialSize]
  cases hl : OLHashTable.rehashLoop (max (max n o.size) s_hashTableInitialSize) o.buckets
      (List.replicate (max (max n o.size) s_hashTableInitialSize) default) with
  | none => rw [hl] at ho; cases ho
  | some res =>
    rw [hl] at ho
    simp only [Option.some.injEq] at ho
    subst ho
    rw [h.size_eq, h.buckets_eq] at hl
    have hrep : (List.replicate (max (max n d.size) s_hashTableInitialSize)
        (default : HashTableTests.Bucket K V)) =
        merge (keyOf (List.replicate (max (max n d.size) s_hashTableInitialSize)
            (default : KV K V)))
          (valOf (List.replicate (max (max n d.size) s_hashTableInitialSize)
            (default : KV K V))) 0
          (List.replicate (max (max n d.size) s_hashTableInitialSize) default) := by
      rw [merge_replicate]
      · intro x; simp [keyOf, do1_kvAt_replicate]; rfl
      · intro x; simp [valOf, do1_kvAt_replicate]; rfl
    rw [hrep] at hl
    obtain ⟨rb, rkv, hr, hres, hk1, hb1⟩ := do1_rehashLoop_sim d.keyvals _ hpos d.buckets 0
      _ _ res (by simp) (by simp) hl
    refine ⟨⟨rb, rkv, d.size⟩, ?_, ⟨hres, hk1, h.size_eq⟩⟩
    simp only [Rehash, hr]

theorem do1_Insert_sim (digest : K → Nat) {d : DO1HashTable K V} {o o1 : OLHashTable K V}
    (h : Sim d o) (hsh : OLHashTable.Shape o) (k : K) (v : V)
    (ho : OLHashTable.Insert digest o k v = some o1) :
    ∃ d1, Insert digest d k v = some d1 ∧ Sim d1 o1 := by
  have hlen := do1_merge_zero_eq d o h
  unfold OLHashTable.Insert at ho
  obtain ⟨o0, hg, hsh0, _⟩ := OLHashTable.ol_grow_shape hsh
  have hpos0 := hsh0.pos
  obtain ⟨d0, hgd, hs0⟩ : ∃ d0,
      (if d.size * 3 > d.buckets.length * 2 then Rehash d (d.buckets.length * 2)
        else some d) = some d0 ∧ Sim d0 o0 := by
    by_cases hc : o.size * 3 > o.buckets.length * 2
    · rw [if_pos hc] at hg
      obtain ⟨d0, hd0, hs0⟩ := do1_Rehash_sim h _ hg
      refine ⟨d0, ?_, hs0⟩
      rw [if_pos (by rw [← h.size_eq, ← hlen]; exact hc), ← hlen]
      exact hd0
    · rw [if_neg hc] at hg
      cases hg
      exact ⟨d, by rw [if_neg (by rw [← h.size_eq, ← hlen]; exact hc)], h⟩
  rw [hg] at ho
  simp only at ho
  have hlen0 := do1_merge_zero_eq d0 o0 hs0
  cases hft : OLHashTable.findTarget o0.buckets
      ((HashKey digest k &&& s_62Bits) &&& (o0.buckets.length - 1)) o0.buckets.length with
  | none => rw [hft] at ho; cases ho
  | some j =>
    rw [hft] at ho
    simp only [Option.some.injEq] at ho
    subst ho
    have hj := OLHashTable.ol_findTarget_lt _ _ _ _ (OpenAddr.start_lt _ _ hpos0) hft
    rw [hs0.buckets_eq, findTarget_merge, length_merge] at hft
    refine ⟨⟨d0.buckets.set j ⟨HashKey digest k &&& s_62Bits, BSTATE.BSTATE_Filled⟩,
      d0.keyvals.set j ⟨k, v⟩, d0.size + 1⟩, ?_, ⟨?_, ?_, ?_⟩⟩
    · simp only [Insert, hgd, hft]
    · simp only
      rw [hs0.buckets_eq]
      exact do1_merge_fill _ _ _ _ _ _ (hlen0 ▸ hj) hs0.klen
    · simp [hs0.klen]
    · simp [hs0.size_eq]

theorem do1_Lookup_sim (digest : K → Nat) {d : DO1HashTable K V} {o : OLHashTable K V}
    (h : Sim d o) (k : K) : Lookup digest d k = OLHashTable.Lookup digest o k := by
  unfold Lookup OLHashTable.Lookup
  simp only
  rw [h.buckets_eq, scanTwo_merge, length_merge]
  cases hs : scanTwo d.buckets (keyOf d.keyvals) (HashKey digest k &&& s_62Bits) k
      ((HashKey digest k &&& s_62Bits) &&& (d.buckets.length - 1)) with
  | found i =>
    have hi := do_scanTwo_found _ _ _ _ _ _ hs
    have hv := (bucketAt_merge_kv (keyOf d.keyvals) (valOf d.keyvals) 0 d.buckets i hi).2
    rw [Nat.zero_add] at hv
    have hs1 : scanTwo d.buckets (fun i => (kvAt d.keyvals i).key)
        (HashKey digest k &&& s_62Bits) k
        ((HashKey digest k &&& s_62Bits) &&& (d.buckets.length - 1)) = Scan.found i := hs
    simp only [hs1, hv]
    rfl
  | empty =>
    have hs1 : scanTwo d.buckets (fun i => (kvAt d.keyvals i).key)
        (HashKey digest k &&& s_62Bits) k
        ((HashKey digest k &&& s_62Bits) &&& (d.buckets.length - 1)) = Scan.empty := hs
    simp only [hs1]
  | exhausted =>
    have hs1 : scanTwo d.buckets (fun i => (kvAt d.keyvals i).key)
        (HashKey digest k &&& s_62Bits) k
        ((HashKey digest k &&& s_62Bits) &&& (d.buckets.length - 1)) = Scan.exhausted := hs
    simp only [hs1]

theorem do1_Remove_sim (digest : K → Nat) {d : DO1HashTable K V} {o : OLHashTable K V}
    (h : Sim d o) (k : K) :
    Sim (Remove digest d k).1 (OLHashTable.Remove digest o k).1 ∧
      (Remove digest d k).2 = (OLHashTable.Remove digest o k).2 := by
  unfold Remove OLHashTable.Remove
  simp only
  rw [h.buckets_eq, scanTwo_merge, length_merge]
  cases hs : scanTwo d.buckets (keyOf d.keyvals) (HashKey digest k &&& s_62Bits) k
      ((HashKey digest k &&& s_62Bits) &&& (d.buckets.length - 1)) with
  | found i =>
    have hi := do_scanTwo_found _ _ _ _ _ _ hs
    have hs1 : scanTwo d.buckets (fun i => (kvAt d.keyvals i).key)
        (HashKey digest k &&& s_62Bits) k
        ((HashKey digest k &&& s_62Bits) &&& (d.buckets.length - 1)) = Scan.found i := hs
    simp only [hs1]
    refine ⟨⟨?_, by simpa using h.klen, by simp [h.size_eq]⟩, trivial⟩
    simp only
    have hkv := bucketAt_merge_kv (keyOf d.keyvals) (valOf d.keyvals) 0 d.buckets i hi
    rw [Nat.zero_add] at hkv
    exact merge_set _ _ _ _ _ _ _ _ d.buckets 0 i hi (by rw [Nat.zero_add]; exact hkv.1.symm)
      (by rw [Nat.zero_add]; exact hkv.2.symm) (fun x _ => ⟨rfl, rfl⟩)
  | empty =>
    have hs1 : scanTwo d.buckets (fun i => (kvAt d.keyvals i).key)
        (HashKey digest k &&& s_62Bits) k
        ((HashKey digest k &&& s_62Bits) &&& (d.buckets.length - 1)) = Scan.empty := hs
    simp only [hs1]
    exact ⟨⟨h.buckets_eq ▸ rfl, h.klen, h.size_eq⟩, trivial⟩
  | exhausted =>
    have hs1 : scanTwo d.buckets (fun i => (kvAt d.keyvals i).key)
        (HashKey digest k &&& s_62Bits) k
        ((HashKey digest k &&& s_62Bits) &&& (d.buckets.length - 1)) = Scan.exhausted := hs
    simp only [hs1]
    exact ⟨⟨h.buckets_eq ▸ rfl, h.klen, h.size_eq⟩, trivial⟩

/-- Every sequence of calls on which the `OLHashTable` returns is followed call by
call. -/
theorem do1_calls_sim (digest : K → Nat) :
    ∀ (calls : List (Call K V)) (d : DO1HashTable K V) (o o1 : OLHashTable K V),
      Sim d o → OLHashTable.Shape o → OLHashTable.runCalls digest o calls = some o1 →
      ∃ d1, runCalls digest d calls = some d1 ∧ Sim d1 o1 := by
  intro calls
  induction calls with
  | nil =>
    intro d o o1 h _ hr
    cases hr
    exact ⟨d, rfl, h⟩
  | cons c rest ih =>
    intro d o o1 h hsh hr
    cases c with
    | insert k v =>
      simp only [OLHashTable.runCalls] at hr
      obtain ⟨o2, ho2, hsh2, _⟩ := OLHashTable.ol_Insert_shape digest hsh k v
      rw [ho2] at hr
      obtain ⟨d2, hd2, hs2⟩ := do1_Insert_sim digest h hsh k v ho2
      obtain ⟨d1, hd1, hs1⟩ := ih d2 o2 o1 hs2 hsh2 hr
      exact ⟨d1, by simp only [runCalls, hd2]; exact hd1, hs1⟩
    | remove k =>
      simp only [OLHashTable.runCalls] at hr
      obtain ⟨d1, hd1, hs1⟩ := ih _ _ o1 (do1_Remove_sim digest h k).1
        (OLHashTable.ol_Remove_shape digest hsh k) hr
      exact ⟨d1, by simp only [runCalls]; exact hd1, hs1⟩
    | reserve n =>
      simp only [OLHashTable.runCalls, OLHashTable.Reserve] at hr
      obtain ⟨o2, ho2, hsh2, _⟩ := OLHashTable.ol_Rehash_shape hsh (smear (n * 3 % 2 ^ 64 / 2))
      rw [ho2] at hr
      obtain ⟨d2, hd2, hs2⟩ := do1_Rehash_sim h _ ho2
      obtain ⟨d1, hd1, hs1⟩ := ih d2 o2 o1 hs2 hsh2 hr
      exact ⟨d1, by simp only [runCalls, Reserve, hd2]; exact hd1, hs1⟩
    | rehash n =>
      simp only [OLHashTable.runCalls] at hr
      obtain ⟨o2, ho2, hsh2, _⟩ := OLHashTable.ol_Rehash_shape hsh n
      rw [ho2] at hr
      obtain ⟨d2, hd2, hs2⟩ := do1_Rehash_sim h _ ho2
      obtain ⟨d1, hd1, hs1⟩ := ih d2 o2 o1 hs2 hsh2 hr
      exact ⟨d1, by simp only [runCalls, hd2]; exact hd1, hs1⟩
    | reset =>
      simp only [OLHashTable.runCalls] at hr
      obtain ⟨d1, hd1, hs1⟩ := ih (Reset d) (OLHashTable.Reset o) o1 do1_sim_new
        OLHashTable.ol_shape_new hr
      exact ⟨d1, by simp only [runCalls]; exact hd1, hs1⟩

/-- What the simulation says bucket by bucket. -/
theorem do1_sim_at {d : DO1HashTable K V} {o : OLHashTable K V} (h : Sim d o) (i : Nat) :
    (DataOriented.bucketAt d.buckets i).state = (HashTableTests.bucketAt o.buckets i).state ∧
      (DataOriented.bucketAt d.buckets i).hash = (HashTableTests.bucketAt o.buckets i).hash ∧
      (kvAt d.keyvals i).key = (HashTableTests.bucketAt o.buckets i).key ∧
      (kvAt d.keyvals i).value = (HashTableTests.bucketAt o.buckets i).value := by
  rw [h.buckets_eq]
  obtain ⟨h1, h2⟩ := bucketAt_merge (keyOf d.keyvals) (valOf d.keyvals) 0 d.buckets i
  refine ⟨h1.symm, h2.symm, ?_⟩
  by_cases hi : i < d.buckets.length
  · obtain ⟨h3, h4⟩ := bucketAt_merge_kv (keyOf d.keyvals) (valOf d.keyvals) 0 d.buckets i hi
    rw [Nat.zero_add] at h3 h4
    exact ⟨h3.symm, h4.symm⟩
  · obtain ⟨h3, h4⟩ := bucketAt_merge_default (keyOf d.keyvals) (valOf d.keyvals) d.buckets i
      (by omega)
    have : kvAt d.keyvals i = default := by
      unfold kvAt
      rw [List.getD_eq_default _ _ (by rw [h.klen]; omega)]
    rw [h3, h4, this]
    exact ⟨rfl, rfl⟩

end DO1HashTable

namespace DO2HashTable

open DataOriented

variable {K V : Type} [Inhabited K] [Inhabited V] [DecidableEq K]

/-- The table holds what the `OLHashTable` `o` holds: the same size, and in every
bucket the same stored hash, state, key and value. -/
structure Sim (d : DO2HashTable K V) (o : OLHashTable K V) : Prop where
  buckets_eq : o.buckets = merge (keyAt d.keys) (valAt d.values) 0 d.buckets
  klen : d.keys.length = d.buckets.length
  vlen : d.values.length = d.buckets.length
  size_eq : o.size = d.size

theorem do2_keyAt_set (ks : List K) (j x : Nat) (k : K) (hj : j < ks.length) :
    keyAt (ks.set j k) x = if x = j then k else keyAt ks x := by
  unfold keyAt
  by_cases h : x = j
  · subst h; simp [List.getD_eq_getElem?_getD, List.getElem?_set_self hj]
  · have h2 : j ≠ x := fun e => h e.symm
    simp [List.getD_eq_getElem?_getD, List.getElem?_set_ne h2, h]

theorem do2_valAt_set (vs : List V) (j x : Nat) (v : V) (hj : j < vs.length) :
    valAt (vs.set j v) x = if x = j then v else valAt vs x := by
  unfold valAt
  by_cases h : x = j
  · subst h; simp [List.getD_eq_getElem?_getD, List.getElem?_set_self hj]
  · have h2 : j ≠ x := fun e => h e.symm
    simp [List.getD_eq_getElem?_getD, List.getElem?_set_ne h2, h]

theorem do2_keyAt_replicate (n x : Nat) :
    keyAt (List.replicate n (default : K)) x = default := by
  unfold keyAt
  by_cases h : x < n
  · simp [List.getD_eq_getElem?_getD, List.getElem?_replicate, h]
  · simp [List.getD_eq_getElem?_getD, List.getElem?_replicate, h]

theorem do2_valAt_replicate (n x : Nat) :
    valAt (List.replicate n (default : V)) x = default := by
  unfold valAt
  by_cases h : x < n
  · simp [List.getD_eq_getElem?_getD, List.getElem?_replicate, h]
  · simp [List.getD_eq_getElem?_getD, List.getElem?_replicate, h]

theorem do2_merge_fill (bs : List DataOriented.Bucket) (ks : List K) (vs : List V)
    (j h : Nat) (k : K) (v : V) (hj : j < bs.length) (hk : ks.length = bs.length)
    (hv : vs.length = bs.length) :
    (merge (keyAt ks) (valAt vs) 0 bs).set j ⟨h, BSTATE.BSTATE_Filled, k, v⟩ =
      merge (keyAt (ks.set j k)) (valAt (vs.set j v)) 0
        (bs.set j ⟨h, BSTATE.BSTATE_Filled⟩) := by
  apply merge_set _ _ _ _ _ _ _ _ bs 0 j hj
  · simp [do2_keyAt_set _ _ _ _ (hk ▸ hj)]
  · simp [do2_valAt_set _ _ _ _ (hv ▸ hj)]
  · intro x hx
    rw [Nat.zero_add] at hx
    simp [do2_keyAt_set _ _ _ _ (hk ▸ hj), do2_valAt_set _ _ _ _ (hv ▸ hj), hx]

theorem do2_merge_new (n : Nat) :
    (List.replicate n (default : HashTableTests.Bucket K V)) =
      merge (keyAt (List.replicate n (default : K))) (valAt (List.replicate n (default : V)))
        0 (List.replicate n default) := by
  rw [merge_replicate]
  · exact do2_keyAt_replicate n
  · exact do2_valAt_replicate n

theorem do2_sim_new : Sim (new : DO2HashTable K V) (OLHashTable.new : OLHashTable K V) :=
  ⟨do2_merge_new _, by simp [new], by simp [new], rfl⟩

/-- The loop of `Rehash` follows the loop of `OLHashTable::Rehash` step by step. -/
theorem do2_rehashLoop_sim (keys : List K) (values : List V) (n : Nat) (hn : 0 < n) :
    ∀ (old : List DataOriented.Bucket) (i : Nat) (accB : List DataOriented.Bucket)
      (accK : List K) (accV : List V) (res : List (HashTableTests.Bucket K V)),
      accK.length = accB.length → accV.length = accB.length → accB.length = n →
      OLHashTable.rehashLoop n (merge (keyAt keys) (valAt values) i old)
        (merge (keyAt accK) (valAt accV) 0 accB) = some res →
      ∃ rb rk rv, rehashLoop keys values n i old accB accK accV = some (rb, rk, rv) ∧
        res = merge (keyAt rk) (valAt rv) 0 rb ∧ rk.length = rb.length ∧
        rv.length = rb.length ∧ rb.length = n := by
  intro old
  induction old with
  | nil =>
    intro i accB accK accV res hk hv hb h
    simp only [merge, OLHashTable.rehashLoop, Option.some.injEq] at h
    exact ⟨accB, accK, accV, rfl, h.symm, hk, hv, hb⟩
  | cons b rest ih =>
    intro i accB accK accV res hk hv hb h
    simp only [merge, OLHashTable.rehashLoop, rehashLoop] at h ⊢
    by_cases hst : b.state ≠ BSTATE.BSTATE_Filled
    · rw [if_pos hst] at h ⊢
      exact ih (i + 1) accB accK accV res hk hv hb h
    · rw [if_neg hst] at h ⊢
      rw [findTarget_merge] at h
      cases hft : findTarget accB (b.hash &&& (n - 1)) n with
      | none => rw [hft] at h; cases h
      | some j =>
        rw [hft] at h
        simp only at h ⊢
        have hj : j < n :=
          OLHashTable.ol_findTarget_lt
            (merge (keyAt accK) (valAt accV) 0 accB) (b.hash &&& (n - 1)) n j
            (OpenAddr.start_lt _ _ hn) (by rw [findTarget_merge]; exact hft)
        rw [do2_merge_fill accB accK accV j b.hash _ _ (hb ▸ hj) hk hv] at h
        exact ih (i + 1) _ _ _ res (by simp [hk]) (by simp [hv]) (by simp [hb]) h

theorem do2_length_eq (d : DO2HashTable K V) (o : OLHashTable K V) (h : Sim d o) :
    o.buckets.length = d.buckets.length := by
  rw [h.buckets_eq, length_merge]

theorem do2_Rehash_sim {d : DO2HashTable K V} {o o1 : OLHashTable K V} (h : Sim d o)
    (n : Nat) (ho : OLHashTable.Rehash o n = some o1) :
    ∃ d1, Rehash d n = some d1 ∧ Sim d1 o1 := by
  unfold OLHashTable.Rehash at ho
  simp only at ho
  have hpos : 0 < max (max n d.size) s_hashTableInitialSize := by
    simp [s_hashTableInitialSize]
  cases hl : OLHashTable.rehashLoop (max (max n o.size) s_hashTableInitialSize) o.buckets
      (List.replicate (max (max n o.size) s_hashTableInitialSize) default) with
  | none => rw [hl] at ho; cases ho
  | some res =>
    rw [hl] at ho
    simp only [Option.some.injEq] at ho
    subst ho
    rw [h.size_eq, h.buckets_eq, do2_merge_new] at hl
    obtain ⟨rb, rk, rv, hr, hres, hk1, hv1, hb1⟩ :=
      do2_rehashLoop_sim d.keys d.values _ hpos d.buckets 0 _ _ _ res (by simp) (by simp)
        (by simp) hl
    refine ⟨⟨rb, rk, rv, d.size⟩, ?_, ⟨hres, hk1, hv1, h.size_eq⟩⟩
    simp only [Rehash, hr]

theorem do2_Insert_sim (digest : K → Nat) {d : DO2HashTable K V} {o o1 : OLHashTable K V}
    (h : Sim d o) (hsh : OLHashTable.Shape o) (k : K) (v : V)
    (ho : OLHashTable.Insert digest o k v = some o1) :
    ∃ d1, Insert digest d k v = some d1 ∧ Sim d1 o1 := by
  have hlen := do2_length_eq d o h
  unfold OLHashTable.Insert at ho
  obtain ⟨o0, hg, hsh0, _⟩ := OLHashTable.ol_grow_shape hsh
  have hpos0 := hsh0.pos
  obtain ⟨d0, hgd, hs0⟩ : ∃ d0,
      (if d.size * 3 > d.buckets.length * 2 then Rehash d (d.buckets.length * 2)
        else some d) = some d0 ∧ Sim d0 o0 := by
    by_cases hc : o.size * 3 > o.buckets.length * 2
    · rw [if_pos hc] at hg
      obtain ⟨d0, hd0, hs0⟩ := do2_Rehash_sim h _ hg
      refine ⟨d0, ?_, hs0⟩
      rw [if_pos (by rw [← h.size_eq, ← hlen]; exact hc), ← hlen]
      exact hd0
    · rw [if_neg hc] at hg
      cases hg
      exact ⟨d, by rw [if_neg (by rw [← h.size_eq, ← hlen]; exact hc)], h⟩
  rw [hg] at ho
  simp only at ho
  have hlen0 := do2_length_eq d0 o0 hs0
  cases hft : OLHashTable.findTarget o0.buckets
      ((HashKey digest k &&& s_62Bits) &&& (o0.buckets.length - 1)) o0.buckets.length with
  | none => rw [hft] at ho; cases ho
  | some j =>
    rw [hft] at ho
    simp only [Option.some.injEq] at ho
    subst ho
    have hj := OLHashTable.ol_findTarget_lt _ _ _ _ (OpenAddr.start_lt _ _ hpos0) hft
    rw [hs0.buckets_eq, findTarget_merge, length_merge] at hft
    refine ⟨⟨d0.buckets.set j ⟨HashKey digest k &&& s_62Bits, BSTATE.BSTATE_Filled⟩,
      d0.keys.set j k, d0.values.set j v, d0.size + 1⟩, ?_, ⟨?_, ?_, ?_, ?_⟩⟩
    · simp only [Insert, hgd, hft]
    · simp only
      rw [hs0.buckets_eq]
      exact do2_merge_fill _ _ _ _ _ _ _ (hlen0 ▸ hj) hs0.klen hs0.vlen
    · simp [hs0.klen]
    · simp [hs0.vlen]
    · simp [hs0.size_eq]

theorem do2_Lookup_sim (digest : K → Nat) {d : DO2HashTable K V} {o : OLHashTable K V}
    (h : Sim d o) (k : K) : Lookup digest d k = OLHashTable.Lookup digest o k := by
  unfold Lookup OLHashTable.Lookup
  simp only
  rw [h.buckets_eq, scanTwo_merge, length_merge]
  cases hs : scanTwo d.buckets (keyAt d.keys) (HashKey digest k &&& s_62Bits) k
      ((HashKey digest k &&& s_62Bits) &&& (d.buckets.length - 1)) with
  | found i =>
    have hi := do_scanTwo_found _ _ _ _ _ _ hs
    have hv := (bucketAt_merge_kv (keyAt d.keys) (valAt d.values) 0 d.buckets i hi).2
    rw [Nat.zero_add] at hv
    simp only [hv]
  | empty => rfl
  | exhausted => rfl

theorem do2_Remove_sim (digest : K → Nat) {d : DO2HashTable K V} {o : OLHashTable K V}
    (h : Sim d o) (k : K) :
    Sim (Remove digest d k).1 (OLHashTable.Remove digest o k).1 ∧
      (Remove digest d k).2 = (OLHashTable.Remove digest o k).2 := by
  unfold Remove OLHashTable.Remove
  simp only
  rw [h.buckets_eq, scanTwo_merge, length_merge]
  cases hs : scanTwo d.buckets (keyAt d.keys) (HashKey digest k &&& s_62Bits) k
      ((HashKey digest k &&& s_62Bits) &&& (d.buckets.length - 1)) with
  | found i =>
    have hi := do_scanTwo_found _ _ _ _ _ _ hs
    refine ⟨⟨?_, by simpa using h.klen, by simpa using h.vlen, by simp [h.size_eq]⟩, rfl⟩
    simp only
    have hkv := bucketAt_merge_kv (keyAt d.keys) (valAt d.values) 0 d.buckets i hi
    rw [Nat.zero_add] at hkv
    exact merge_set _ _ _ _ _ _ _ _ d.buckets 0 i hi (by rw [Nat.zero_add]; exact hkv.1.symm)
      (by rw [Nat.zero_add]; exact hkv.2.symm) (fun x _ => ⟨rfl, rfl⟩)
  | empty => exact ⟨⟨h.buckets_eq ▸ rfl, h.klen, h.vlen, h.size_eq⟩, rfl⟩
  | exhausted => exact ⟨⟨h.buckets_eq ▸ rfl, h.klen, h.vlen, h.size_eq⟩, rfl⟩

/-- Every sequence of calls on which the `OLHashTable` returns is followed call by
call. -/
theorem do2_calls_sim (digest : K → Nat) :
    ∀ (calls : List (Call K V)) (d : DO2HashTable K V) (o o1 : OLHashTable K V),
      Sim d o → OLHashTable.Shape o → OLHashTable.runCalls digest o calls = some o1 →
      ∃ d1, runCalls digest d calls = some d1 ∧ Sim d1 o1 := by
  intro calls
  induction calls with
  | nil =>
    intro d o o1 h _ hr
    cases hr
    exact ⟨d, rfl, h⟩
  | cons c rest ih =>
    intro d o o1 h hsh hr
    cases c with
    | insert k v =>
      simp only [OLHashTable.runCalls] at hr
      obtain ⟨o2, ho2, hsh2, _⟩ := OLHashTable.ol_Insert_shape digest hsh k v
      rw [ho2] at hr
      obtain ⟨d2, hd2, hs2⟩ := do2_Insert_sim digest h hsh k v ho2
      obtain ⟨d1, hd1, hs1⟩ := ih d2 o2 o1 hs2 hsh2 hr
      exact ⟨d1, by simp only [runCalls, hd2]; exact hd1, hs1⟩
    | remove k =>
      simp only [OLHashTable.runCalls] at hr
      obtain ⟨d1, hd1, hs1⟩ := ih _ _ o1 (do2_Remove_sim digest h k).1
        (OLHashTable.ol_Remove_shape digest hsh k) hr
      exact ⟨d1, by simp only [runCalls]; exact hd1, hs1⟩
    | reserve n =>
      simp only [OLHashTable.runCalls, OLHashTable.Reserve] at hr
      obtain ⟨o2, ho2, hsh2, _⟩ := OLHashTable.ol_Rehash_shape hsh (smear (n * 3 % 2 ^ 64 / 2))
      rw [ho2] at hr
      obtain ⟨d2, hd2, hs2⟩ := do2_Rehash_sim h _ ho2
      obtain ⟨d1, hd1, hs1⟩ := ih d2 o2 o1 hs2 hsh2 hr
      exact ⟨d1, by simp only [runCalls, Reserve, hd2]; exact hd1, hs1⟩
    | rehash n =>
      simp only [OLHashTable.runCalls] at hr
      obtain ⟨o2, ho2, hsh2, _⟩ := OLHashTable.ol_Rehash_shape hsh n
      rw [ho2] at hr
      obtain ⟨d2, hd2, hs2⟩ := do2_Rehash_sim h _ ho2
      obtain ⟨d1, hd1, hs1⟩ := ih d2 o2 o1 hs2 hsh2 hr
      exact ⟨d1, by simp only [runCalls, hd2]; exact hd1, hs1⟩
    | reset =>
      simp only [OLHashTable.runCalls] at hr
      obtain ⟨d1, hd1, hs1⟩ := ih (Reset d) (OLHashTable.Reset o) o1 do2_sim_new
        OLHashTable.ol_shape_new hr
      exact ⟨d1, by simp only [runCalls]; exact hd1, hs1⟩

/-- What the simulation says bucket by bucket. -/
theorem do2_sim_at {d : DO2HashTable K V} {o : OLHashTable K V} (h : Sim d o) (i : Nat) :
    (DataOriented.bucketAt d.buckets i).state = (HashTableTests.bucketAt o.buckets i).state ∧
      (DataOriented.bucketAt d.buckets i).hash = (HashTableTests.bucketAt o.buckets i).hash ∧
      keyAt d.keys i = (HashTableTests.bucketAt o.buckets i).key ∧
      valAt d.values i = (HashTableTests.bucketAt o.buckets i).value := by
  rw [h.buckets_eq]
  obtain ⟨h1, h2⟩ := bucketAt_merge (keyAt d.keys) (valAt d.values) 0 d.buckets i
  refine ⟨h1.symm, h2.symm, ?_⟩
  by_cases hi : i < d.buckets.length
  · obtain ⟨h3, h4⟩ := bucketAt_merge_kv (keyAt d.keys) (valAt d.values) 0 d.buckets i hi
    rw [Nat.zero_add] at h3 h4
    exact ⟨h3.symm, h4.symm⟩
  · obtain ⟨h3, h4⟩ := bucketAt_merge_default (keyAt d.keys) (valAt d.values) d.buckets i
      (by omega)
    have hk : keyAt d.keys i = default := by
      unfold keyAt
      rw [List.getD_eq_default _ _ (by rw [h.klen]; omega)]
    have hv : valAt d.values i = default := by
      unfold valAt
      rw [List.getD_eq_default _ _ (by rw [h.vlen]; omega)]
    rw [h3, h4, hk, hv]
    exact ⟨rfl, rfl⟩

end DO2HashTable

section Claims

variable {K V : Type} [Inhabited K] [Inhabited V] [DecidableEq K]

/-- C1. `OLHashTable` behaves as a finite map under duplicate-free use: for every
digest function and every sequence of `Insert` and `Remove` calls on a freshly
constructed table in which `Insert(k, v)` is never called while an entry for `k` is
live, every call succeeds, each `Remove(k)` returns `true` exactly when `k` was live,
and afterwards `Lookup(k)` is the value of the latest `Insert(k)` when `k` was
inserted and not removed since, and absent otherwise. -/
theorem ol_finite_map (digest : K → Nat) (ops : List (Op K V))
    (hd : Model.dupFree Model.empty ops = true) :
    ∃ t, OLHashTable.run digest OLHashTable.new ops =
        some (t, Model.removes Model.empty ops) ∧
      ∀ k, OLHashTable.Lookup digest t k = Model.run Model.empty ops k := by
  obtain ⟨t, h1, _, h2⟩ := OLHashTable.ol_run_spec digest ops hd
  exact ⟨t, h1, h2⟩

/-- Witness of C1: keys 1, 17 and 33 collide in a 16-bucket table; 1 is removed and
inserted again. -/
theorem ol_finite_map_witness :
    Model.dupFree Model.empty
        [Op.insert 1 10, Op.insert 17 20, Op.insert 33 30, Op.remove 1, Op.remove 5,
          Op.insert 1 40] = true ∧
      ∃ t, OLHashTable.run (fun k : Nat => k) OLHashTable.new
          [Op.insert 1 10, Op.insert 17 20, Op.insert 33 30, Op.remove 1, Op.remove 5,
            Op.insert 1 40] =
          some (t, Model.removes Model.empty
            [Op.insert 1 10, Op.insert 17 20, Op.insert 33 30, Op.remove 1, Op.remove 5,
              Op.insert 1 (40 : Nat)]) ∧
        ∀ k, OLHashTable.Lookup (fun k : Nat => k) t k =
          Model.run Model.empty
            [Op.insert 1 10, Op.insert 17 20, Op.insert 33 30, Op.remove 1, Op.remove 5,
              Op.insert 1 40] k :=
  ⟨by decide, ol_finite_map (fun k : Nat => k) _ (by decide)⟩

/-- C7 as stated fails: after eleven `Insert` calls on a fresh table `size` is 11 and
there are 16 buckets, so `3 * size = 33 > 32 = 2 * buckets.size()`. -/
theorem ol_load_factor_counterexample :
    ∃ t rs t1, OLHashTable.run (fun k : Nat => k) OLHashTable.new
          ((List.range 10).map (fun i => Op.insert i (0 : Nat))) = some (t, rs) ∧
      OLHashTable.Insert (fun k : Nat => k) t 10 0 = some t1 ∧
      ¬ (3 * t1.size ≤ 2 * t1.buckets.length) := by
  exact ⟨_, _, _, rfl, rfl, by decide⟩

/-- C7, amended. In every `OLHashTable` state reached from a fresh table by `Insert`
and `Remove` calls (duplicates allowed), `Insert` succeeds and immediately after it
`3 * (size - 1) <= 2 * buckets.size()`: the live-entry count exceeds 2/3 of the bucket
count by at most the entry just inserted. -/
theorem ol_load_factor (digest : K → Nat) (ops : List (Op K V)) (t : OLHashTable K V)
    (rs : List Bool) (k : K) (v : V)
    (h : OLHashTable.run digest OLHashTable.new ops = some (t, rs)) :
    ∃ t1, OLHashTable.Insert digest t k v = some t1 ∧
      3 * (t1.size - 1) ≤ 2 * t1.buckets.length := by
  obtain ⟨t1, h1, _, _, h2⟩ :=
    OLHashTable.ol_Insert_shape digest (OLHashTable.ol_run_shape digest ops t rs h) k v
  exact ⟨t1, h1, by omega⟩

/-- Witness of the amended C7: the table holding keys 0..9, where the eleventh entry
brings `size` to 11 in 16 buckets. -/
theorem ol_load_factor_witness :
    OLHashTable.run (fun k : Nat => k) OLHashTable.new
        ((List.range 10).map (fun i => Op.insert i (0 : Nat))) =
        some (⟨(List.range 16).map (fun i =>
          if i < 10 then ⟨i, BSTATE.BSTATE_Filled, i, 0⟩ else default), 10⟩, []) ∧
      ∃ t1, OLHashTable.Insert (fun k : Nat => k)
          (⟨(List.range 16).map (fun i =>
            if i < 10 then ⟨i, BSTATE.BSTATE_Filled, i, 0⟩ else default), 10⟩ :
            OLHashTable Nat Nat) 10 0 = some t1 ∧
        3 * (t1.size - 1) ≤ 2 * t1.buckets.length :=
  ⟨by decide, ol_load_factor (fun k : Nat => k)
    ((List.range 10).map (fun i => Op.insert i (0 : Nat))) _ [] 10 0 (by decide)⟩

/-- C5. Insert-then-lookup round trip for `OQHashTable`: for every digest function
and every list of pairwise distinct keys with values, inserted in order into a freshly
constructed table (growth included), every `Insert` succeeds and afterwards
`Lookup(k_i)` returns `v_i` for every pair of the list. -/
theorem oq_round_trip (digest : K → Nat) (kvs : List (K × V))
    (hnd : (kvs.map Prod.fst).Nodup) :
    ∃ t, OQHashTable.run digest OQHashTable.new (kvs.map (fun p => Op.insert p.1 p.2)) =
        some (t, []) ∧
      ∀ p ∈ kvs, OQHashTable.Lookup digest t p.1 = some p.2 := by
  obtain ⟨t, h1, _, h2⟩ := OQHashTable.oq_run_spec digest
    (kvs.map (fun p : K × V => Op.insert p.1 p.2))
    (model_dupFree_inserts Model.empty kvs hnd (fun _ _ => rfl))
  rw [model_removes_inserts] at h1
  refine ⟨t, h1, ?_⟩
  intro p hp
  rw [h2, model_run_inserts _ kvs hnd p hp]

/-- Witness of C5: three keys with the same start bucket. -/
theorem oq_round_trip_witness :
    ([((1 : Nat), (10 : Nat)), (17, 20), (33, 30)].map Prod.fst).Nodup ∧
      ∃ t, OQHashTable.run (fun k : Nat => k) OQHashTable.new
          ([((1 : Nat), (10 : Nat)), (17, 20), (33, 30)].map (fun p => Op.insert p.1 p.2)) =
          some (t, []) ∧
        ∀ p ∈ [((1 : Nat), (10 : Nat)), (17, 20), (33, 30)],
          OQHashTable.Lookup (fun k : Nat => k) t p.1 = some p.2 :=
  ⟨by decide, oq_round_trip (fun k : Nat => k) [(1, 10), (17, 20), (33, 30)] (by decide)⟩

/-- C6. Tombstone correctness for `OQHashTable`: in every state reached from a fresh
table by a duplicate-free sequence of `Insert` and `Remove` calls, for every live key
`k`, `Remove(k)` returns `true`, afterwards `Lookup(k)` is absent, and `Lookup` of every
other key returns what it returned before the `Remove`. -/
theorem oq_tombstone (digest : K → Nat) (ops : List (Op K V))
    (hd : Model.dupFree Model.empty ops = true) (t : OQHashTable K V) (rs : List Bool)
    (h : OQHashTable.run digest OQHashTable.new ops = some (t, rs)) (k : K)
    (hk : (Model.run Model.empty ops k).isSome = true) :
    (OQHashTable.Remove digest t k).2 = true ∧
      OQHashTable.Lookup digest (OQHashTable.Remove digest t k).1 k = none ∧
      ∀ k1, k1 ≠ k → OQHashTable.Lookup digest (OQHashTable.Remove digest t k).1 k1 =
        OQHashTable.Lookup digest t k1 := by
  obtain ⟨t0, h0, hw, hl⟩ := OQHashTable.oq_run_spec digest ops hd
  rw [h] at h0
  simp only [Option.some.injEq, Prod.mk.injEq] at h0
  rw [← h0.1] at hw hl
  obtain ⟨h1, _, h3⟩ := OQHashTable.oq_Remove_spec digest hw k
  refine ⟨by rw [h1, hl, hk], by rw [h3, if_pos rfl], ?_⟩
  intro k1 hk1
  rw [h3, if_neg hk1]

/-- Witness of C6: keys 1 and 17 start at bucket 1; removing 1 leaves a tombstone
before 17. -/
theorem oq_tombstone_witness :
    Model.dupFree Model.empty [Op.insert 1 10, Op.insert 17 (20 : Nat)] = true ∧
      OQHashTable.run (fun k : Nat => k) OQHashTable.new
        [Op.insert 1 10, Op.insert 17 20] =
        some (⟨(List.range 16).map (fun i =>
          if i = 1 then ⟨1, BSTATE.BSTATE_Filled, 1, 10⟩
          else if i = 2 then ⟨17, BSTATE.BSTATE_Filled, 17, 20⟩ else default), 2⟩, []) ∧
      (Model.run Model.empty [Op.insert 1 10, Op.insert 17 (20 : Nat)] 1).isSome = true ∧
      (OQHashTable.Remove (fun k : Nat => k) (⟨(List.range 16).map (fun i =>
          if i = 1 then ⟨1, BSTATE.BSTATE_Filled, 1, 10⟩
          else if i = 2 then ⟨17, BSTATE.BSTATE_Filled, 17, 20⟩ else default), 2⟩ :
          OQHashTable Nat Nat) 1).2 = true ∧
      OQHashTable.Lookup (fun k : Nat => k)
        (OQHashTable.Remove (fun k : Nat => k) (⟨(List.range 16).map (fun i =>
          if i = 1 then ⟨1, BSTATE.BSTATE_Filled, 1, 10⟩
          else if i = 2 then ⟨17, BSTATE.BSTATE_Filled, 17, 20⟩ else default), 2⟩ :
          OQHashTable Nat Nat) 1).1 1 = none ∧
      ∀ k1, k1 ≠ 1 → OQHashTable.Lookup (fun k : Nat => k)
        (OQHashTable.Remove (fun k : Nat => k) (⟨(List.range 16).map (fun i =>
          if i = 1 then ⟨1, BSTATE.BSTATE_Filled, 1, 10⟩
          else if i = 2 then ⟨17, BSTATE.BSTATE_Filled, 17, 20⟩ else default), 2⟩ :
          OQHashTable Nat Nat) 1).1 k1 =
        OQHashTable.Lookup (fun k : Nat => k) (⟨(List.range 16).map (fun i =>
          if i = 1 then ⟨1, BSTATE.BSTATE_Filled, 1, 10⟩
          else if i = 2 then ⟨17, BSTATE.BSTATE_Filled, 17, 20⟩ else default), 2⟩ :
          OQHashTable Nat Nat) k1 :=
  ⟨by decide, by decide, by decide,
    oq_tombstone (fun k : Nat => k) [Op.insert 1 10, Op.insert 17 20] (by decide) _ []
      (by decide) 1 (by decide)⟩

/-- C8. Quadratic probe coverage: for every `n`, capacity `C = 2 ^ n` and start index
`s` (in particular every `s < C`), the probe function `i ↦ (s + (i + i*i) / 2) mod C`
maps `{0, ..., C-1}` bijectively onto `{0, ..., C-1}`: one pass of the probing loop
visits every bucket exactly once. -/
theorem oq_probe_bijective (n s : Nat) :
    Set.BijOn (fun i => OQHashTable.probe s i (2 ^ n)) (Set.Iio (2 ^ n)) (Set.Iio (2 ^ n)) := by
  refine ⟨fun i _ => Nat.mod_lt _ (Nat.two_pow_pos n), OQHashTable.probe_injOn n s, ?_⟩
  intro j hj
  obtain ⟨i, hi, e⟩ := OQHashTable.probe_surj n s j hj
  exact ⟨i, hi, e⟩

/-- C2. `C0HashTable` behaves as a finite map under duplicate-free use: for every
digest function and every sequence of `Insert` and `Remove` calls on a freshly
constructed table in which `Insert(k, v)` is never called while an entry for `k` is
live (growth by pool exhaustion included), every call returns, each `Remove(k)` returns
`true` exactly when `k` was live, and afterwards `Lookup(k)` returns the value of the
latest `Insert(k)` when `k` was inserted and not removed since, and absent otherwise. -/
theorem c0_finite_map (digest : K → Nat) (ops : List (Op K V))
    (hd : Model.dupFree Model.empty ops = true) :
    ∃ t, C0HashTable.run digest C0HashTable.new ops =
        some (t, Model.removes Model.empty ops) ∧
      ∀ k, C0HashTable.Lookup digest t k = some (Model.run Model.empty ops k) := by
  obtain ⟨t, h1, _, h2⟩ := C0HashTable.c0_run_spec digest ops hd
  exact ⟨t, h1, h2⟩

/-- Witness of C2: seventeen keys of one bucket, which exhausts the pool of 16
elements and grows the table, then a removal and a new insertion of one of them. -/
theorem c0_finite_map_witness :
    Model.dupFree Model.empty
        ((List.range 17).map (fun i => Op.insert (16 * i) i) ++
          [Op.remove 32, Op.insert 32 99]) = true ∧
      ∃ t, C0HashTable.run (fun k : Nat => k) C0HashTable.new
          ((List.range 17).map (fun i => Op.insert (16 * i) i) ++
            [Op.remove 32, Op.insert 32 99]) =
          some (t, Model.removes Model.empty
            ((List.range 17).map (fun i => Op.insert (16 * i) i) ++
              [Op.remove 32, Op.insert 32 (99 : Nat)])) ∧
        ∀ k, C0HashTable.Lookup (fun k : Nat => k) t k =
          some (Model.run Model.empty
            ((List.range 17).map (fun i => Op.insert (16 * i) i) ++
              [Op.remove 32, Op.insert 32 99]) k) :=
  ⟨by decide, c0_finite_map (fun k : Nat => k)
    ((List.range 17).map (fun i => Op.insert (16 * i) i) ++ [Op.remove 32, Op.insert 32 99])
    (by decide)⟩

/-- Counterexample to C4 as stated: the `2 ^ 31 + 1` calls `Insert(0, 0)`, ...,
`Insert(2 ^ 31, 2 ^ 31)` never insert a live key, and the last of them finds `2 ^ 31`
entries in `2 ^ 31` buckets with an empty free list, calls `Rehash` with
`static_cast<uint32_t>(2 ^ 32)`, which is 0 and does nothing, and then indexes
`keyAndNexts` with `-1`: the run does not yield a table. -/
theorem d0_finite_map_counterexample :
    Model.dupFree Model.empty ((List.range (2 ^ 31 + 1)).map (fun i => Op.insert i i)) = true ∧
      D0HashTable.run (fun k : Nat => k) D0HashTable.new
        ((List.range (2 ^ 31 + 1)).map (fun i => Op.insert i i)) = none := by
  have h1 := D0HashTable.d0_fill_dupFree (2 ^ 31 + 1)
  have h2 := D0HashTable.d0_fill_overflow (fun k : Nat => k)
  unfold D0HashTable.fill at h1 h2
  exact ⟨h1, h2⟩

/-- C4, amended. `D0HashTable` (index-linked chaining) behaves as a finite map under
duplicate-free use while it holds at most `2 ^ 31` entries: for every digest function and
every sequence of `Insert` and `Remove` calls on a freshly constructed table in which
`Insert(k, v)` is never called while an entry for `k` is live and the number of live
entries never exceeds `2 ^ 31` (the in-place relinking `Rehash` triggered when the free
list is exhausted included), every call returns, each `Remove(k)` returns `true` exactly
when `k` was live, and afterwards `Lookup(k)` returns the value of the latest `Insert(k)`
when `k` was inserted and not removed since, and absent otherwise. -/
theorem d0_finite_map (digest : K → Nat) (ops : List (Op K V))
    (hd : Model.dupFree Model.empty ops = true)
    (hf : Model.fits (2 ^ 31) Model.empty 0 ops = true) :
    ∃ t, D0HashTable.run digest D0HashTable.new ops =
        some (t, Model.removes Model.empty ops) ∧
      ∀ k, D0HashTable.Lookup digest t k = some (Model.run Model.empty ops k) := by
  obtain ⟨t, _, h1, _, h2⟩ := D0HashTable.d0_run_spec digest ops hd hf
  exact ⟨t, h1, h2⟩

/-- Witness of C4: seventeen keys of one bucket, which exhausts the 16 nodes and relinks
the chains in a pool of 32, then a removal and a new insertion of one of them. -/
theorem d0_finite_map_witness :
    Model.dupFree Model.empty
        ((List.range 17).map (fun i => Op.insert (16 * i) i) ++
          [Op.remove 32, Op.insert 32 99]) = true ∧
      Model.fits (2 ^ 31) Model.empty 0
        ((List.range 17).map (fun i => Op.insert (16 * i) i) ++
          [Op.remove 32, Op.insert 32 99]) = true ∧
      ∃ t, D0HashTable.run (fun k : Nat => k) D0HashTable.new
          ((List.range 17).map (fun i => Op.insert (16 * i) i) ++
            [Op.remove 32, Op.insert 32 99]) =
          some (t, Model.removes Model.empty
            ((List.range 17).map (fun i => Op.insert (16 * i) i) ++
              [Op.remove 32, Op.insert 32 (99 : Nat)])) ∧
        ∀ k, D0HashTable.Lookup (fun k : Nat => k) t k =
          some (Model.run Model.empty
            ((List.range 17).map (fun i => Op.insert (16 * i) i) ++
              [Op.remove 32, Op.insert 32 99]) k) :=
  ⟨by decide, by decide, d0_finite_map (fun k : Nat => k)
    ((List.range 17).map (fun i => Op.insert (16 * i) i) ++ [Op.remove 32, Op.insert 32 99])
    (by decide) (by decide)⟩

/-- C3. `C1HashTable` (one inline element per bucket) behaves as a finite map under
duplicate-free use: for every digest function and every sequence of `Insert` and
`Remove` calls on a freshly constructed table in which `Insert(k, v)` is never called
while an entry for `k` is live, every call returns, each `Remove(k)` returns `true`
exactly when `k` was live, and afterwards `Lookup(k)` returns the value of the latest
`Insert(k)` when `k` was inserted and not removed since, and absent otherwise. In
particular a further `Remove(k)` of any key, the inline element of a bucket included,
makes `k` absent and keeps what `Lookup` returns for every other key. -/
theorem c1_finite_map (digest : K → Nat) (ops : List (Op K V))
    (hd : Model.dupFree Model.empty ops = true) :
    ∃ t, C1HashTable.run digest C1HashTable.new ops =
        some (t, Model.removes Model.empty ops) ∧
      (∀ k, C1HashTable.Lookup digest t k = some (Model.run Model.empty ops k)) ∧
      ∀ k, ∃ t1, C1HashTable.Remove digest t k =
          some (t1, (Model.run Model.empty ops k).isSome) ∧
        ∀ x, C1HashTable.Lookup digest t1 x =
          if x = k then some none else some (Model.run Model.empty ops x) := by
  obtain ⟨t, h1, hw, h2⟩ := C1HashTable.c1_run_spec digest ops hd
  refine ⟨t, h1, h2, ?_⟩
  intro k
  obtain ⟨t1, h3, _, h4⟩ := C1HashTable.c1_Remove_spec digest hw.1 k
  refine ⟨t1, ?_, ?_⟩
  · rw [h3, h2]
    rfl
  · intro x
    rw [h4, h2]

/-- Witness of C3: ten keys of one bucket, one inline and nine chained, which exhausts
the pool of 8 elements and grows the table, then the removal of the inline key and a
new insertion of it. -/
theorem c1_finite_map_witness :
    Model.dupFree Model.empty
        ((List.range 10).map (fun i => Op.insert (16 * i) i) ++
          [Op.remove 0, Op.insert 0 99]) = true ∧
      ∃ t, C1HashTable.run (fun k : Nat => k) C1HashTable.new
          ((List.range 10).map (fun i => Op.insert (16 * i) i) ++
            [Op.remove 0, Op.insert 0 99]) =
          some (t, Model.removes Model.empty
            ((List.range 10).map (fun i => Op.insert (16 * i) i) ++
              [Op.remove 0, Op.insert 0 (99 : Nat)])) ∧
        (∀ k, C1HashTable.Lookup (fun k : Nat => k) t k =
          some (Model.run Model.empty
            ((List.range 10).map (fun i => Op.insert (16 * i) i) ++
              [Op.remove 0, Op.insert 0 99]) k)) ∧
        ∀ k, ∃ t1, C1HashTable.Remove (fun k : Nat => k) t k =
            some (t1, (Model.run Model.empty
              ((List.range 10).map (fun i => Op.insert (16 * i) i) ++
                [Op.remove 0, Op.insert 0 99]) k).isSome) ∧
          ∀ x, C1HashTable.Lookup (fun k : Nat => k) t1 x =
            if x = k then some none
            else some (Model.run Model.empty
              ((List.range 10).map (fun i => Op.insert (16 * i) i) ++
                [Op.remove 0, Op.insert 0 99]) x) :=
  ⟨by decide, c1_finite_map (fun k : Nat => k)
    ((List.range 10).map (fun i => Op.insert (16 * i) i) ++ [Op.remove 0, Op.insert 0 99])
    (by decide)⟩

/-- C10. `Rehash` preserves membership in `C1HashTable`, escape hatch included: for
every table reached from a fresh one by calls of `Insert`, `Remove`, `Reserve`, `Rehash`
and `Reset` that never insert a key while an entry for it is live, every argument `n`
and every key `k`, `Rehash(n)` returns, by the first pass or by the retry at double the
capacity when the first pass overflows the new element pool, and `Lookup(k)` returns
the same presence and value after it as before. -/
theorem c1_rehash_preserves (digest : K → Nat) (calls : List (Call K V))
    (t : C1HashTable K V) (hone : C1HashTable.oneLive (fun _ => none) calls = true)
    (hrun : C1HashTable.runCalls digest C1HashTable.new calls = some t) (n : Nat) :
    ∃ t1, C1HashTable.Rehash t n = some t1 ∧
      ∀ k, C1HashTable.Lookup digest t k =
          some (C1HashTable.mapAfter (fun _ => none) calls k) ∧
        C1HashTable.Lookup digest t1 k =
          some (C1HashTable.mapAfter (fun _ => none) calls k) := by
  obtain ⟨hw, hl⟩ := C1HashTable.c1_calls_spec digest calls C1HashTable.new t (fun _ => none)
    (C1HashTable.c1_wf_new digest) (fun x => C1HashTable.c1_Lookup_new digest x) hone hrun
  obtain ⟨t1, h3, _, h4⟩ := C1HashTable.c1_Rehash_lookup hw n
  exact ⟨t1, h3, fun k => ⟨hl k, by rw [h4, hl]⟩⟩

/-- Witness of C10: ten keys of one bucket, then `Rehash(0)`, whose first pass with
16 buckets and a pool of 8 elements needs a ninth element and takes the escape hatch. -/
theorem c1_rehash_preserves_witness :
    C1HashTable.oneLive (fun _ => none)
        ((List.range 10).map (fun i => Call.insert i i)) = true ∧
      ∃ t, C1HashTable.runCalls (fun _ : Nat => 0) C1HashTable.new
          ((List.range 10).map (fun i => Call.insert i i)) = some t ∧
        ∃ t1, C1HashTable.Rehash t 0 = some t1 ∧
          ∀ k, C1HashTable.Lookup (fun _ : Nat => 0) t k =
              some (C1HashTable.mapAfter (fun _ => none)
                ((List.range 10).map (fun i => Call.insert i i)) k) ∧
            C1HashTable.Lookup (fun _ : Nat => 0) t1 k =
              some (C1HashTable.mapAfter (fun _ => none)
                ((List.range 10).map (fun i => Call.insert i i)) k) :=
  ⟨by decide, _, rfl, c1_rehash_preserves (fun _ : Nat => 0)
    ((List.range 10).map (fun i => Call.insert i i)) _ (by decide)
    (by exact rfl) 0⟩

/-- The escape hatch is taken on the input of the witness of C10: the first pass of
`Rehash(0)` over the table of ten keys of one bucket overflows the pool of 8 elements,
and the pass at double the capacity places every entry. -/
theorem c1_rehash_escape_taken :
    ∃ t, C1HashTable.runCalls (fun _ : Nat => 0) C1HashTable.new
        ((List.range 10).map (fun i => Call.insert i i)) = some t ∧
      C1HashTable.rehashBuckets t.elemPool 16 t.buckets
        (List.replicate 16 default, List.replicate 8 default, 0) = C1HashTable.Pass.escape ∧
      ∃ st, C1HashTable.rehashBuckets t.elemPool 32 t.buckets
        (List.replicate 32 default, List.replicate 16 default, 0) = C1HashTable.Pass.ok st :=
  ⟨_, rfl, rfl, _, rfl⟩

/-- C11 (the code departs from the claim). After `Reset()` the bucket heads of a
`D0HashTable` are the index 0, where the constructor writes the end marker: `Lookup`
of the default-constructed key finds node 0 of the free list and returns its value,
whereas a freshly constructed table reports the key absent. -/
theorem d0_reset_not_fresh (digest : K → Nat) (t : D0HashTable K V) :
    D0HashTable.Lookup digest (D0HashTable.Reset t) default = some (some default) ∧
      D0HashTable.Lookup digest (D0HashTable.new : D0HashTable K V) default = some none :=
  ⟨D0HashTable.d0_Reset_lookup digest t, D0HashTable.d0_Lookup_new digest default⟩

/-- After `Reset()` and one `Insert(7, 70)`, node 0 is its own successor in every
bucket of the `D0HashTable`: `Lookup(7)` finds the value and the chain walk of
`Lookup(5)` does not end. -/
theorem d0_reset_insert_loops :
    ∃ t1, D0HashTable.Insert (fun k : Nat => k)
        (D0HashTable.Reset (D0HashTable.new : D0HashTable Nat Nat)) 7 70 = some t1 ∧
      D0HashTable.Lookup (fun k : Nat => k) t1 7 = some (some 70) ∧
      D0HashTable.Lookup (fun k : Nat => k) t1 5 = none :=
  D0HashTable.d0_Reset_insert (fun k : Nat => k) D0HashTable.new 7 70 5 (by decide)

/-- C12. `Reset()` of an `OLHashTable` yields the freshly constructed state, whatever
the state before: 16 buckets, all Empty, `size` 0; `Lookup(k)` is absent for every key,
and a second `Reset()` changes nothing. -/
theorem ol_reset_fresh (digest : K → Nat) (t : OLHashTable K V) :
    OLHashTable.Reset t = OLHashTable.new ∧ (OLHashTable.Reset t).buckets.length = 16 ∧
      (∀ i, (bucketAt (OLHashTable.Reset t).buckets i).state = BSTATE.BSTATE_Empty) ∧
      (OLHashTable.Reset t).size = 0 ∧
      (∀ k, OLHashTable.Lookup digest (OLHashTable.Reset t) k = none) ∧
      OLHashTable.Reset (OLHashTable.Reset t) = OLHashTable.Reset t := by
  refine ⟨rfl, rfl, ?_, rfl, ?_, rfl⟩
  · intro i
    have : (OLHashTable.Reset t).buckets = List.replicate 16 default := rfl
    rw [this, OpenAddr.bucketAt_replicate]
  · intro k
    rw [OLHashTable.ol_Reset_eq]
    exact OLHashTable.ol_Lookup_new digest k

/-- C13 (the code departs from the claim). `Reset()` of a `D1HashTable` leaves the
`values` vector empty, where the constructor gives it 16 slots: the state differs from
the freshly constructed one, and the following `Insert(k, v)` writes `values[idx]`
outside the vector. -/
theorem d1_reset_drops_values (digest : K → Nat) (t : D1HashTable K V) (k : K) (v : V) :
    (D1HashTable.Reset t).keyAndStates.length = 16 ∧ (D1HashTable.Reset t).size_ = 0 ∧
      (D1HashTable.Reset t).values.length = 0 ∧
      (D1HashTable.new : D1HashTable K V).values.length = 16 ∧
      D1HashTable.Insert digest (D1HashTable.Reset t) k v = none :=
  ⟨rfl, rfl, rfl, rfl, D1HashTable.d1_Reset_insert digest t k v⟩

/-- C14 (the code departs from the claim). `Reserve(17)` and `Reserve(16)` on a fresh
`C0HashTable` both give 31 buckets and a pool of 31 elements, not the powers of two 32
and 16: the bit smearing of `Reserve` is passed to `Rehash` as it is. -/
theorem c0_reserve_not_pow2 :
    (C0HashTable.Reserve (C0HashTable.new : C0HashTable Nat Nat) 17).map
        (fun t => (t.buckets.length, t.elemPool.length)) = some (31, 31) ∧
      (C0HashTable.Reserve (C0HashTable.new : C0HashTable Nat Nat) 16).map
        (fun t => (t.buckets.length, t.elemPool.length)) = some (31, 31) := by
  decide

/-- Counterexample to C15: `Rehash(17)` on a fresh `OLHashTable` gives 17 buckets, which
is not a power of two. -/
theorem ol_capacity_pow2_counterexample :
    ∃ t : OLHashTable Nat Nat,
      OLHashTable.runCalls (fun k : Nat => k) OLHashTable.new [Call.rehash 17] = some t ∧
      t.buckets.length = 17 ∧ ¬ ∃ j, t.buckets.length = 2 ^ j := by
  refine ⟨_, rfl, rfl, ?_⟩
  rintro ⟨j, hj⟩
  have h17 : (2 : Nat) ^ j = 17 := hj.symm
  rcases Nat.lt_or_ge j 5 with h | h
  · have : (2 : Nat) ^ j ≤ 2 ^ 4 := Nat.pow_le_pow_right (by decide) (by omega)
    omega
  · have : (2 : Nat) ^ 5 ≤ 2 ^ j := Nat.pow_le_pow_right (by decide) h
    omega

/-- C15, amended. In every `OLHashTable` state reached from a freshly constructed table
by `Insert`, `Remove` and `Reset` calls and by `Rehash` calls whose argument is a power
of two not below the number of live entries, `buckets.size()` is a power of two, at
least 16. -/
theorem ol_capacity_pow2 (digest : K → Nat) (calls : List (Call K V)) (t : OLHashTable K V)
    (hok : OLHashTable.pow2Calls digest OLHashTable.new calls = true)
    (hrun : OLHashTable.runCalls digest OLHashTable.new calls = some t) :
    ∃ j, 4 ≤ j ∧ t.buckets.length = 2 ^ j :=
  OLHashTable.ol_calls_pow2 digest calls OLHashTable.new t OLHashTable.ol_shape_new
    OLHashTable.ol_pow2_new hok hrun

/-- Witness of C15: twelve insertions double the table to 32 buckets, `Rehash(64)`
gives 64, `Rehash(1)` goes back to 16, and `Reset` and one more insertion follow. -/
theorem ol_capacity_pow2_witness :
    OLHashTable.pow2Calls (fun k : Nat => k) OLHashTable.new
        ((List.range 12).map (fun i => Call.insert i i) ++
          [Call.remove 3, Call.rehash 64, Call.rehash 16, Call.reset, Call.insert 5 50]) = true ∧
      ∃ t, OLHashTable.runCalls (fun k : Nat => k) OLHashTable.new
          ((List.range 12).map (fun i => Call.insert i i) ++
            [Call.remove 3, Call.rehash 64, Call.rehash 16, Call.reset, Call.insert 5 50]) =
            some t ∧
        ∃ j, 4 ≤ j ∧ t.buckets.length = 2 ^ j :=
  ⟨by decide, _, rfl, ol_capacity_pow2 (fun k : Nat => k)
    ((List.range 12).map (fun i => Call.insert i i) ++
      [Call.remove 3, Call.rehash 64, Call.rehash 16, Call.reset, Call.insert 5 50]) _
    (by decide) (by exact rfl)⟩

/-- Counterexample to C16: after twelve insertions an `OLHashTable` has 32 buckets, and
`Rehash(0)` rebuilds it with 16. -/
theorem ol_rehash_shrinks_counterexample :
    ∃ t t1 : OLHashTable Nat Nat,
      OLHashTable.runCalls (fun k : Nat => k) OLHashTable.new
        ((List.range 12).map (fun i => Call.insert i i)) = some t ∧
      OLHashTable.Rehash t 0 = some t1 ∧ t.buckets.length = 32 ∧ t1.buckets.length = 16 ∧
      t1.buckets ≠ t.buckets :=
  ⟨_, _, rfl, rfl, rfl, rfl, by decide⟩

/-- C17. Reserve guarantee of `OLHashTable`: for every digest function and every
`n < 2 ^ 32`, `Reserve(n)` on a freshly constructed table returns, and any sequence of
at most `n` `Insert` calls that follows returns without growth: the bucket count after
it is the bucket count right after `Reserve`. -/
theorem ol_reserve_guarantee (digest : K → Nat) (n : Nat) (hn : n < 2 ^ 32)
    (kvs : List (K × V)) (hlen : kvs.length ≤ n) :
    ∃ t0 t, OLHashTable.Reserve (OLHashTable.new : OLHashTable K V) n = some t0 ∧
      OLHashTable.runCalls digest t0 (inserts kvs) = some t ∧
      t.buckets.length = t0.buckets.length ∧ t.size = kvs.length := by
  obtain ⟨t0, h0, hs0, hsz0, hlen0⟩ := OLHashTable.ol_Reserve_new (K := K) (V := V) n hn
  have hle := le_smear (n * 3 / 2)
  obtain ⟨t, h1, _, hlen1, hsz1⟩ := OLHashTable.ol_inserts_fit digest kvs t0 hs0 (by
    rw [hsz0, hlen0]
    have : smear (n * 3 / 2) ≤ max (smear (n * 3 / 2)) s_hashTableInitialSize :=
      Nat.le_max_left _ _
    omega)
  exact ⟨t0, t, h0, h1, hlen1, by rw [hsz1, hsz0, Nat.zero_add]⟩

/-- Witness of C17: `Reserve(12)` gives 31 buckets, and twelve insertions, a fresh table
would grow at the twelfth, leave the 31 buckets. -/
theorem ol_reserve_guarantee_witness :
    12 < 2 ^ 32 ∧ ((List.range 12).map (fun i => (i, i))).length ≤ 12 ∧
      ∃ t0 t, OLHashTable.Reserve (OLHashTable.new : OLHashTable Nat Nat) 12 = some t0 ∧
        OLHashTable.runCalls (fun k : Nat => k) t0
          (inserts ((List.range 12).map (fun i => (i, i)))) = some t ∧
        t.buckets.length = t0.buckets.length ∧
        t.size = ((List.range 12).map (fun i => (i, i))).length :=
  ⟨by decide, by decide, ol_reserve_guarantee (fun k : Nat => k) 12 (by decide)
    ((List.range 12).map (fun i => (i, i))) (by decide)⟩

/-- Counterexample to C18: one key inserted ten times. `Reserve(10)` on a fresh
`C1HashTable` gives 16 buckets and a pool of 8 elements; the first entry is stored in
the bucket, eight more use up the pool, and the tenth `Insert` finds the bucket filled
and the free list empty and calls `Rehash(32)`. -/
theorem c1_reserve_guarantee_counterexample :
    ∃ t0 t : C1HashTable Nat Nat,
      C1HashTable.Reserve (C1HashTable.new : C1HashTable Nat Nat) 10 = some t0 ∧
      C1HashTable.runCalls (fun k : Nat => k) t0
        (inserts ((List.range 10).map (fun i => (5, i)))) = some t ∧
      t0.buckets.length = 16 ∧ t.buckets.length = 32 :=
  ⟨_, _, rfl, rfl, rfl, rfl⟩

/-- C18, amended. For every digest function and every `n`, `Reserve(n)` on a freshly
constructed `C1HashTable` returns a table of `B` buckets with a pool of `B / 2` free
elements, and any sequence of at most `B / 2 + 1` `Insert` calls that follows returns
without growth: the bucket count stays `B`. -/
theorem c1_reserve_guarantee (digest : K → Nat) (n : Nat) (kvs : List (K × V))
    (hlen : kvs.length ≤ max (smear n) s_hashTableInitialSize / 2 + 1) :
    ∃ t0 t, C1HashTable.Reserve (C1HashTable.new : C1HashTable K V) n = some t0 ∧
      t0.buckets.length = max (smear n) s_hashTableInitialSize ∧
      t0.elemPool.length = t0.buckets.length / 2 ∧
      C1HashTable.runCalls digest t0 (inserts kvs) = some t ∧
      t.buckets.length = t0.buckets.length ∧ t.size = kvs.length := by
  obtain ⟨t0, F, h0, hf, hsz0, hlen0, hpl, hF, hfc⟩ :=
    C1HashTable.c1_Reserve_new (V := V) digest n
  obtain ⟨t, h1, hlen1, hsz1⟩ := C1HashTable.c1_inserts_free digest kvs t0 F hf
    (by rw [hF, hsz0, hfc]; omega)
    (by rw [hsz0, hpl, hlen0]; omega)
  exact ⟨t0, t, h0, hlen0, hpl, h1, hlen1, by rw [hsz1, hsz0, Nat.zero_add]⟩

/-- Witness of C18: `Reserve(10)` gives 16 buckets, and nine insertions of one key use
the inline slot of its bucket and the 8 elements of the pool. -/
theorem c1_reserve_guarantee_witness :
    ((List.range 9).map (fun i => ((5 : Nat), i))).length ≤
        max (smear 10) s_hashTableInitialSize / 2 + 1 ∧
      ∃ t0 t, C1HashTable.Reserve (C1HashTable.new : C1HashTable Nat Nat) 10 = some t0 ∧
        t0.buckets.length = max (smear 10) s_hashTableInitialSize ∧
        t0.elemPool.length = t0.buckets.length / 2 ∧
        C1HashTable.runCalls (fun k : Nat => k) t0
          (inserts ((List.range 9).map (fun i => (5, i)))) = some t ∧
        t.buckets.length = t0.buckets.length ∧
        t.size = ((List.range 9).map (fun i => (5, i))).length :=
  ⟨by decide, c1_reserve_guarantee (fun k : Nat => k) 10
    ((List.range 9).map (fun i => (5, i))) (by decide)⟩

/-- C19. `Insert` of `OQHashTable` never fails on tables grown by doubling: for every
digest function and every sequence of `Insert`, `Remove` and `Reset` calls on a freshly
constructed table, repeated keys included, every call returns, so no `assert(bTarget)`
fails, in `Insert` or in the `Rehash` that `Insert` calls, and one more `Insert` of any
key finds a bucket that is not Filled. The bucket count is a power of two throughout. -/
theorem oq_insert_never_fails (digest : K → Nat) (calls : List (Call K V))
    (hb : calls.all Call.basic = true) (k : K) (v : V) :
    ∃ t t1, OQHashTable.runCalls digest OQHashTable.new calls = some t ∧
      (∃ m, t.buckets.length = 2 ^ m) ∧ OQHashTable.Insert digest t k v = some t1 := by
  obtain ⟨t, h1, hg⟩ := OQHashTable.oq_calls_grown digest calls OQHashTable.new
    OQHashTable.oq_grown_new hb
  obtain ⟨t1, h2, _⟩ := OQHashTable.oq_Insert_grown digest hg k v
  obtain ⟨m, _, hm⟩ := hg.pow2
  exact ⟨t, t1, h1, ⟨m, hm⟩, h2⟩

/-- Witness of C19: twelve insertions of keys of one start bucket, which double the
table, a removal, a repeated key and a `Reset`. -/
theorem oq_insert_never_fails_witness :
    ((List.range 12).map (fun i => Call.insert (16 * i) i) ++
        [Call.remove 16, Call.insert 32 7, Call.reset, Call.insert 1 1]).all Call.basic = true ∧
      ∃ t t1, OQHashTable.runCalls (fun k : Nat => k) OQHashTable.new
          ((List.range 12).map (fun i => Call.insert (16 * i) i) ++
            [Call.remove 16, Call.insert 32 7, Call.reset, Call.insert 1 1]) = some t ∧
        (∃ m, t.buckets.length = 2 ^ m) ∧
        OQHashTable.Insert (fun k : Nat => k) t 17 3 = some t1 :=
  ⟨by decide, oq_insert_never_fails (fun k : Nat => k)
    ((List.range 12).map (fun i => Call.insert (16 * i) i) ++
      [Call.remove 16, Call.insert 32 7, Call.reset, Call.insert 1 1]) (by decide) 17 3⟩

/-- C20 (the code departs from the claim). `Reserve(11)` on a fresh `OQHashTable` gives
31 buckets, of which the probe sequence of a key reaches 16. Sixteen insertions of one
key fill these, and the probe loop of the seventeenth `Insert` finds no bucket, at a
load of 16 in 31: `assert(bTarget)` fails. The same happens after `Rehash(24)`. -/
theorem oq_reserve_insert_fails :
    (OQHashTable.runCalls (fun k : Nat => k) (OQHashTable.new : OQHashTable Nat Nat)
        (Call.reserve 11 :: (List.range 16).map (fun i => Call.insert 5 i))).map
        (fun t => (t.buckets.length, t.size)) = some (31, 16) ∧
      OQHashTable.runCalls (fun k : Nat => k) (OQHashTable.new : OQHashTable Nat Nat)
        (Call.reserve 11 :: (List.range 17).map (fun i => Call.insert 5 i)) = none ∧
      OQHashTable.runCalls (fun k : Nat => k) (OQHashTable.new : OQHashTable Nat Nat)
        (Call.rehash 24 :: (List.range 17).map (fun i => Call.insert 5 i)) = none := by
  decide

/-- C22 as stated fails: after `Insert(1, 10)` and `Insert(1, 20)` on a fresh
`OLHashTable` the second entry lies one bucket after the first on the probe path, and
`Lookup(1)` returns 10, the value of the first `Insert`, not of the most recent one. -/
theorem ol_repeated_round_trip_counterexample :
    ∃ t, OLHashTable.runCalls (fun k : Nat => k) OLHashTable.new
          (inserts [(1, 10), (1, 20)]) = some t ∧
      OLHashTable.Lookup (fun k : Nat => k) t 1 = some 10 :=
  ⟨_, rfl, by decide⟩

/-- C22, amended. For every digest function and every sequence of `Insert` calls on a
fresh `OLHashTable`, repeated keys allowed, all calls return, and `Lookup(k)` is absent
exactly when `k` was never inserted and otherwise returns the value of one of the
`Insert(k)` calls. -/
theorem ol_repeated_round_trip (digest : K → Nat) (kvs : List (K × V)) (k : K) :
    ∃ t, OLHashTable.runCalls digest OLHashTable.new (inserts kvs) = some t ∧
      match OLHashTable.Lookup digest t k with
      | none => ∀ v, (k, v) ∉ kvs
      | some v => (k, v) ∈ kvs := by
  obtain ⟨t, h1, hw, hl⟩ :=
    OLHashTable.ol_inserts_dup digest kvs OLHashTable.new (OLHashTable.ol_wfd_new digest)
  have hnew : ∀ x (w : V), ¬ OpenAddr.Live (OLHashTable.new : OLHashTable K V).buckets x w :=
    fun x w => OpenAddr.not_live_replicate _ x w
  refine ⟨t, h1, ?_⟩
  rw [OLHashTable.ol_Lookup_eq]
  cases hlk : OpenAddr.lookupG OLHashTable.linProbes t.buckets
      (OLHashTable.hashOf digest k) k with
  | none =>
    intro v hv
    obtain ⟨w, hw1⟩ := OpenAddr.lookupG_of_live hw.inv k v ((hl k v).mpr (Or.inl hv))
    rw [hlk] at hw1
    cases hw1
  | some v =>
    rcases (hl k v).mp (OpenAddr.lookupG_live _ _ _ _ _ hlk) with h | h
    · exact h
    · exact absurd h (hnew k v)

/-- C25. `Insert` of `OLHashTable` always adds: in every state reached from a fresh
table by `Insert`, `Remove`, `Reserve`, `Rehash` and `Reset` calls, for every key `k`,
live or not, and value `v`, `Insert(k, v)` returns with `size` one larger, and its
bucket array is the one left by the growth step, which is the array before the call
when the load factor does not trigger growth, with one bucket that was not Filled
overwritten by the Filled entry `(k, v)`; the number of Filled buckets grows by one. -/
theorem ol_insert_adds (digest : K → Nat) (calls : List (Call K V)) (k : K) (v : V) :
    ∃ t t0 t1 i, OLHashTable.runCalls digest OLHashTable.new calls = some t ∧
      (if t.size * 3 > t.buckets.length * 2 then OLHashTable.Rehash t (t.buckets.length * 2)
        else some t) = some t0 ∧
      OLHashTable.Insert digest t k v = some t1 ∧ t1.size = t.size + 1 ∧
      i < t0.buckets.length ∧
      (bucketAt t0.buckets i).state ≠ BSTATE.BSTATE_Filled ∧
      t1.buckets =
        t0.buckets.set i ⟨OLHashTable.hashOf digest k, BSTATE.BSTATE_Filled, k, v⟩ ∧
      OpenAddr.filledCount t1.buckets = OpenAddr.filledCount t.buckets + 1 := by
  obtain ⟨t, h1, hs⟩ :=
    OLHashTable.ol_calls_shape digest calls OLHashTable.new OLHashTable.ol_shape_new
  obtain ⟨t0, t1, i, h0, h2, _, h3, h4, h5, h6, h7⟩ := OLHashTable.ol_Insert_adds digest hs k v
  exact ⟨t, t0, t1, i, h1, h0, h2, h3, h4, h5, h6, h7⟩

/-- C28. Count bound of `OLHashTable`: for every digest function, every sequence of
`Insert`, `Remove`, `Reserve`, `Rehash` and `Reset` calls on a fresh table returns, and
in the state it reaches `size` is the number of buckets in state Filled, hence at most
`buckets.size()`. -/
theorem ol_count_bound (digest : K → Nat) (calls : List (Call K V)) :
    ∃ t, OLHashTable.runCalls digest OLHashTable.new calls = some t ∧
      t.size = OpenAddr.filledCount t.buckets ∧ t.size ≤ t.buckets.length := by
  obtain ⟨t, h1, hs⟩ :=
    OLHashTable.ol_calls_shape digest calls OLHashTable.new OLHashTable.ol_shape_new
  exact ⟨t, h1, hs.size_eq, by rw [hs.size_eq]; exact OpenAddr.filledCount_le _⟩

/-- C26. The data-oriented layouts follow `OLHashTable`: for every digest function and
every sequence of `Insert`, `Remove`, `Reserve`, `Rehash` and `Reset` calls, the
sequence returns on a fresh `OLHashTable`, a fresh `DO1HashTable` and a fresh
`DO2HashTable`, and the three tables reached have the same bucket count (which is also
the length of `keyvals`, `keys` and `values`), the same `size`, in every bucket index
the same state, stored hash, key and value, the same `Lookup` result for every key and
the same `Remove` result for every key. A `Lookup` or `Remove` call anywhere in a
sequence acts on the tables reached by the calls before it. -/
theorem do_layouts_equivalent (digest : K → Nat) (calls : List (Call K V)) :
    ∃ (o : OLHashTable K V) (d1 : DO1HashTable K V) (d2 : DO2HashTable K V),
      OLHashTable.runCalls digest OLHashTable.new calls = some o ∧
      DO1HashTable.runCalls digest DO1HashTable.new calls = some d1 ∧
      DO2HashTable.runCalls digest DO2HashTable.new calls = some d2 ∧
      (d1.buckets.length = o.buckets.length ∧ d1.keyvals.length = o.buckets.length ∧
        d2.buckets.length = o.buckets.length ∧ d2.keys.length = o.buckets.length ∧
        d2.values.length = o.buckets.length) ∧
      (d1.size = o.size ∧ d2.size = o.size) ∧
      (∀ i, (DataOriented.bucketAt d1.buckets i).state = (bucketAt o.buckets i).state ∧
        (DataOriented.bucketAt d1.buckets i).hash = (bucketAt o.buckets i).hash ∧
        (DO1HashTable.kvAt d1.keyvals i).key = (bucketAt o.buckets i).key ∧
        (DO1HashTable.kvAt d1.keyvals i).value = (bucketAt o.buckets i).value) ∧
      (∀ i, (DataOriented.bucketAt d2.buckets i).state = (bucketAt o.buckets i).state ∧
        (DataOriented.bucketAt d2.buckets i).hash = (bucketAt o.buckets i).hash ∧
        DO2HashTable.keyAt d2.keys i = (bucketAt o.buckets i).key ∧
        DO2HashTable.valAt d2.values i = (bucketAt o.buckets i).value) ∧
      (∀ k, DO1HashTable.Lookup digest d1 k = OLHashTable.Lookup digest o k ∧
        DO2HashTable.Lookup digest d2 k = OLHashTable.Lookup digest o k) ∧
      (∀ k, (DO1HashTable.Remove digest d1 k).2 = (OLHashTable.Remove digest o k).2 ∧
        (DO2HashTable.Remove digest d2 k).2 = (OLHashTable.Remove digest o k).2) := by
  obtain ⟨o, ho, _⟩ :=
    OLHashTable.ol_calls_shape digest calls OLHashTable.new OLHashTable.ol_shape_new
  obtain ⟨d1, hd1, hs1⟩ := DO1HashTable.do1_calls_sim digest calls DO1HashTable.new
    OLHashTable.new o DO1HashTable.do1_sim_new OLHashTable.ol_shape_new ho
  obtain ⟨d2, hd2, hs2⟩ := DO2HashTable.do2_calls_sim digest calls DO2HashTable.new
    OLHashTable.new o DO2HashTable.do2_sim_new OLHashTable.ol_shape_new ho
  have hl1 := DO1HashTable.do1_merge_zero_eq d1 o hs1
  have hl2 := DO2HashTable.do2_length_eq d2 o hs2
  exact ⟨o, d1, d2, ho, hd1, hd2,
    ⟨hl1.symm, by rw [hs1.klen, hl1], hl2.symm, by rw [hs2.klen, hl2],
      by rw [hs2.vlen, hl2]⟩,
    ⟨hs1.size_eq.symm, hs2.size_eq.symm⟩,
    fun i => DO1HashTable.do1_sim_at hs1 i, fun i => DO2HashTable.do2_sim_at hs2 i,
    fun k => ⟨DO1HashTable.do1_Lookup_sim digest hs1 k,
      DO2HashTable.do2_Lookup_sim digest hs2 k⟩,
    fun k => ⟨(DO1HashTable.do1_Remove_sim digest hs1 k).2,
      (DO2HashTable.do2_Remove_sim digest hs2 k).2⟩⟩

/-- C23 as stated fails: `Insert(1, 10)`, `Insert(1, 20)` and fifteen further `Insert`
calls on a fresh `C0HashTable`. The seventeenth call finds the free list empty and
rehashes into 32 buckets, which reverses the order of the two entries for key 1, and
`Lookup(1)` returns 10, the value of the first `Insert(1)`. -/
theorem c0_repeated_round_trip_counterexample :
    ∃ t, C0HashTable.runCalls (fun k : Nat => k) C0HashTable.new
          (inserts ([(1, 10), (1, 20)] ++ (List.range 15).map (fun i => (i + 2, 0)))) =
        some t ∧
      t.buckets.length = 32 ∧
      C0HashTable.Lookup (fun k : Nat => k) t 1 = some (some 10) :=
  ⟨_, rfl, rfl, rfl⟩

/-- C23, amended. For every digest function and every sequence of `Insert` calls on a
fresh `C0HashTable`, repeated keys allowed, all calls return and `Lookup(k)` returns
the first value of the shadowing order of `k` computed by `Model.shadow`: `Insert(k, v)`
puts `v` in front of the order and each growth, at an `Insert` made while `size` equals
the bucket count, reverses it. The order holds exactly the values inserted for `k`, so
`Lookup(k)` is absent exactly when `k` was never inserted; and for the first sixteen
calls, before any growth, it is most recent first. -/
theorem c0_repeated_round_trip (digest : K → Nat) (kvs : List (K × V)) (k : K) :
    ∃ t, C0HashTable.runCalls digest C0HashTable.new (inserts kvs) = some t ∧
      C0HashTable.Lookup digest t k = some (Model.shadow k kvs 0 16 []).head? ∧
      (∀ v, v ∈ Model.shadow k kvs 0 16 [] ↔ (k, v) ∈ kvs) ∧
      Model.shadow k (kvs.take 16) 0 16 [] =
        (((kvs.take 16).filter (fun p => decide (p.1 = k))).map Prod.snd).reverse := by
  obtain ⟨L, F, used, hs⟩ := C0HashTable.c0_shape_new (V := V) digest
  obtain ⟨t, L1, F1, used1, h1, hs1, hh⟩ :=
    C0HashTable.c0_inserts_hist digest kvs C0HashTable.new L F used hs
      (by simp [C0HashTable.new, s_hashTableInitialSize])
  refine ⟨t, h1, ?_, ?_, ?_⟩
  · rw [C0HashTable.c0_Lookup_hist hs1 k, hh k, C0HashTable.c0_hist_empty hs rfl k]
    rfl
  · intro v
    rw [C0HashTable.c0_mem_shadow]
    simp
  · rw [C0HashTable.c0_shadow_fit k (kvs.take 16) 0 16 [] (by simp)]
    simp

/-- C30. `Remove` of `C0HashTable` removes the entry that shadows the others: in every
state reached from a fresh table by `Insert`, `Remove`, `Reserve`, `Rehash` and `Reset`
calls, repeated keys allowed, and for every key `k` for which `Lookup(k)` returns a
value `v`, `Remove(k)` returns `true`; the chain of the bucket of `k` was
`pre ++ (k, v) :: post` with no entry for `k` in `pre` and becomes `pre ++ post`; the
chains of the other buckets are unchanged; `size` drops by one; and `Lookup(k)` then
returns the value of the first entry for `k` in `post`, absent when there is none. -/
theorem c0_remove_first (digest : K → Nat) (calls : List (Call K V)) (t : C0HashTable K V)
    (hrun : C0HashTable.runCalls digest C0HashTable.new calls = some t) (k : K) (v : V)
    (hlive : C0HashTable.Lookup digest t k = some (some v)) :
    ∃ t1 pre post, C0HashTable.Remove digest t k = some (t1, true) ∧
      C0HashTable.chainOf t (C0HashTable.bucketOf digest t k) = pre ++ (k, v) :: post ∧
      (∀ p ∈ pre, p.1 ≠ k) ∧
      C0HashTable.chainOf t1 (C0HashTable.bucketOf digest t k) = pre ++ post ∧
      (∀ b, b < t.buckets.length → b ≠ C0HashTable.bucketOf digest t k →
        C0HashTable.chainOf t1 b = C0HashTable.chainOf t b) ∧
      t1.buckets.length = t.buckets.length ∧ t1.size + 1 = t.size ∧
      C0HashTable.Lookup digest t1 k =
        some ((post.find? (fun p => decide (p.1 = k))).map Prod.snd) := by
  obtain ⟨t0, h0, L, F, used, hs⟩ := C0HashTable.c0_calls_shape digest calls C0HashTable.new
    (C0HashTable.c0_shape_new digest)
  rw [hrun] at h0
  cases h0
  exact C0HashTable.c0_Remove_first digest hs k v hlive

/-- Witness of C30: key 1 inserted with 10 and then with 20, key 17 in the same bucket
inserted last. `Lookup(1)` returns 20, and `Remove(1)` takes the entry `(1, 20)` out of
the chain `(17, 30), (1, 20), (1, 10)`. -/
theorem c0_remove_first_witness :
    ∃ t, C0HashTable.runCalls (fun k : Nat => k) C0HashTable.new
          [Call.insert 1 10, Call.insert 1 20, Call.insert 17 30] = some t ∧
      C0HashTable.Lookup (fun k : Nat => k) t 1 = some (some 20) ∧
      ∃ t1 pre post, C0HashTable.Remove (fun k : Nat => k) t 1 = some (t1, true) ∧
        C0HashTable.chainOf t (C0HashTable.bucketOf (fun k : Nat => k) t 1) =
          pre ++ (1, 20) :: post ∧
        (∀ p ∈ pre, p.1 ≠ 1) ∧
        C0HashTable.chainOf t1 (C0HashTable.bucketOf (fun k : Nat => k) t 1) = pre ++ post ∧
        (∀ b, b < t.buckets.length → b ≠ C0HashTable.bucketOf (fun k : Nat => k) t 1 →
          C0HashTable.chainOf t1 b = C0HashTable.chainOf t b) ∧
        t1.buckets.length = t.buckets.length ∧ t1.size + 1 = t.size ∧
        C0HashTable.Lookup (fun k : Nat => k) t1 1 =
          some ((post.find? (fun p => decide (p.1 = 1))).map Prod.snd) :=
  ⟨_, rfl, rfl, c0_remove_first (fun k : Nat => k)
    [Call.insert 1 10, Call.insert 1 20, Call.insert 17 30] _ (by exact rfl) 1 20
    (by exact rfl)⟩

/-- C21. `Insert` of `C1HashTable` finds a free pool element when it needs one: for
every digest function and every sequence of `Insert`, `Remove` and `Reset` calls on a
fresh table, repeated keys allowed, the sequence returns, and for every key `k` and
value `v` the growth step of `Insert(k, v)`, which is `Rehash` to twice the bucket count
when the bucket of `k` is filled and the free list is empty, returns; when the bucket
of `k` is filled after it the free list is not empty; and `Insert(k, v)` returns, so
`assert(pElemFreeHead)` holds. -/
theorem c1_insert_finds_free (digest : K → Nat) (calls : List (Call K V))
    (hb : calls.all Call.basic = true) (k : K) (v : V) :
    ∃ t t0 t1, C1HashTable.runCalls digest C1HashTable.new calls = some t ∧
      (if (C1HashTable.bucketAt t.buckets (C1HashTable.bucketOf digest t k)).filled = true ∧
          t.pElemFreeHead = none then C1HashTable.Rehash t (t.buckets.length * 2)
        else some t) = some t0 ∧
      ((C1HashTable.bucketAt t0.buckets (C1HashTable.bucketOf digest t0 k)).filled = true →
        t0.pElemFreeHead ≠ none) ∧
      C1HashTable.Insert digest t k v = some t1 := by
  obtain ⟨t, t1, h1, h2, _⟩ := C1HashTable.c1_basic_insert digest calls hb k v
  obtain ⟨t0, h3, h4⟩ := C1HashTable.c1_Insert_free_of_some digest t t1 k v h2
  exact ⟨t, t0, t1, h1, h3, h4, h2⟩

/-- Witness of C21: one key inserted nine times fills its bucket and the pool of 8
elements; the tenth `Insert` of the key grows the table to 32 buckets and finds a free
element. -/
theorem c1_insert_finds_free_witness :
    (inserts ((List.range 9).map (fun i => ((5 : Nat), i)))).all Call.basic = true ∧
      ∃ t t0 t1, C1HashTable.runCalls (fun k : Nat => k) C1HashTable.new
          (inserts ((List.range 9).map (fun i => (5, i)))) = some t ∧
        (if (C1HashTable.bucketAt t.buckets
              (C1HashTable.bucketOf (fun k : Nat => k) t 5)).filled = true ∧
            t.pElemFreeHead = none then C1HashTable.Rehash t (t.buckets.length * 2)
          else some t) = some t0 ∧
        ((C1HashTable.bucketAt t0.buckets
            (C1HashTable.bucketOf (fun k : Nat => k) t0 5)).filled = true →
          t0.pElemFreeHead ≠ none) ∧
        C1HashTable.Insert (fun k : Nat => k) t 5 9 = some t1 :=
  ⟨by decide, c1_insert_finds_free (fun k : Nat => k)
    (inserts ((List.range 9).map (fun i => (5, i)))) (by decide) 5 9⟩

/-- C24. `Remove` of `C1HashTable` reports presence and leaves the table alone on a
miss: in every state reached from a fresh table by `Insert`, `Remove`, `Reserve`,
`Rehash` and `Reset` calls that return, repeated keys allowed, and for every key `k`,
`Remove(k)` returns, with `true` exactly when `Lookup(k)` finds an entry; when it
returns `false` the table is unchanged, and when it returns `true` `size` is one less. -/
theorem c1_remove_reports (digest : K → Nat) (calls : List (Call K V)) (t : C1HashTable K V)
    (hrun : C1HashTable.runCalls digest C1HashTable.new calls = some t) (k : K) :
    ∃ t1, C1HashTable.Remove digest t k =
        some (t1, (C1HashTable.Lookup digest t k).join.isSome) ∧
      ((C1HashTable.Lookup digest t k).join.isSome = false → t1 = t) ∧
      ((C1HashTable.Lookup digest t k).join.isSome = true → t1.size + 1 = t.size) := by
  obtain ⟨L, F, used, hs⟩ := C1HashTable.c1_calls_shape digest calls t hrun
  exact C1HashTable.c1_Remove_result digest hs k

/-- Witness of C24: key 1 inserted twice and key 17 once, all in bucket 1, then
`Remove(1)`; the table holds one entry for key 1 and one for key 17. -/
theorem c1_remove_reports_witness :
    ∃ t, C1HashTable.runCalls (fun k : Nat => k) C1HashTable.new
          [Call.insert 1 10, Call.insert 1 20, Call.insert 17 30, Call.remove 1] = some t ∧
      ∃ t1, C1HashTable.Remove (fun k : Nat => k) t 1 =
          some (t1, (C1HashTable.Lookup (fun k : Nat => k) t 1).join.isSome) ∧
        ((C1HashTable.Lookup (fun k : Nat => k) t 1).join.isSome = false → t1 = t) ∧
        ((C1HashTable.Lookup (fun k : Nat => k) t 1).join.isSome = true →
          t1.size + 1 = t.size) :=
  ⟨_, rfl, c1_remove_reports (fun k : Nat => k)
    [Call.insert 1 10, Call.insert 1 20, Call.insert 17 30, Call.remove 1] _ (by exact rfl) 1⟩

/-- C27 as stated fails: after nine `Insert` calls on a fresh `C1HashTable`, here of one
key, `size` is 9 and the element pool has 8 elements; one entry is stored in the
bucket. -/
theorem c1_count_bound_counterexample :
    ∃ t, C1HashTable.runCalls (fun k : Nat => k) C1HashTable.new
          (inserts ((List.range 9).map (fun i => ((5 : Nat), i)))) = some t ∧
      t.size = 9 ∧ t.elemPool.length = 8 ∧ ¬ t.size ≤ t.elemPool.length :=
  ⟨_, rfl, rfl, rfl, by decide⟩

/-- C27, amended. In every `C1HashTable` state reached from a fresh table by `Insert`,
`Remove`, `Reserve`, `Rehash` and `Reset` calls that return, `size` is at most the
number of filled buckets plus `elemPool.size()`, the number of filled buckets is at most
`buckets.size()`, and `elemPool.size()` is `buckets.size() / 2`. -/
theorem c1_count_bound (digest : K → Nat) (calls : List (Call K V)) (t : C1HashTable K V)
    (hrun : C1HashTable.runCalls digest C1HashTable.new calls = some t) :
    t.size ≤ C1HashTable.filledCount t.buckets + t.elemPool.length ∧
      C1HashTable.filledCount t.buckets ≤ t.buckets.length ∧
      t.elemPool.length = t.buckets.length / 2 := by
  obtain ⟨L, F, used, hs⟩ := C1HashTable.c1_calls_shape digest calls t hrun
  have h1 := hs.size_eq
  have h2 := hs.cover
  exact ⟨by omega, C1HashTable.c1_filledCount_le _, hs.pool_len⟩

/-- Witness of the amended C27: the nine insertions of one key, which give `size` 9 with
one filled bucket and a pool of 8 elements. -/
theorem c1_count_bound_witness :
    ∃ t, C1HashTable.runCalls (fun k : Nat => k) C1HashTable.new
          (inserts ((List.range 9).map (fun i => ((5 : Nat), i)))) = some t ∧
      t.size ≤ C1HashTable.filledCount t.buckets + t.elemPool.length ∧
      C1HashTable.filledCount t.buckets ≤ t.buckets.length ∧
      t.elemPool.length = t.buckets.length / 2 :=
  ⟨_, rfl, c1_count_bound (fun k : Nat => k)
    (inserts ((List.range 9).map (fun i => (5, i)))) _ (by exact rfl)⟩

/-- C29. Inline invariant of `C1HashTable`: in every state reached from a fresh table
by `Insert`, `Remove`, `Reserve`, `Rehash` and `Reset` calls that return, repeated keys
allowed, every bucket `b` that is not filled has `pHead = nullptr`, the hash `h` stored
in a filled bucket `b` has `h & (buckets.size() - 1) = b`, and so has the hash stored
in every element of the chain of `b`. -/
theorem c1_inline_invariant (digest : K → Nat) (calls : List (Call K V))
    (t : C1HashTable K V)
    (hrun : C1HashTable.runCalls digest C1HashTable.new calls = some t) (b : Nat)
    (hb : b < t.buckets.length) :
    ((C1HashTable.bucketAt t.buckets b).filled = false →
        (C1HashTable.bucketAt t.buckets b).pHead = none) ∧
      ((C1HashTable.bucketAt t.buckets b).filled = true →
        (C1HashTable.bucketAt t.buckets b).hash &&& (t.buckets.length - 1) = b) ∧
      ∀ e ∈ C0HashTable.walk (C0HashTable.nextOf t.elemPool) t.elemPool.length
          (C1HashTable.bucketAt t.buckets b).pHead,
        (C0HashTable.elemAt t.elemPool e).hash &&& (t.buckets.length - 1) = b := by
  obtain ⟨L, F, used, hs⟩ := C1HashTable.c1_calls_shape digest calls t hrun
  refine ⟨?_, hs.homeB b hb, ?_⟩
  · intro hf
    have := hs.chain b hb
    rw [hs.empty b hb hf] at this
    exact this
  · rw [C0HashTable.c0_walk_eq _ (L b) _ _ (hs.chain b hb) (C1HashTable.c1_chain_length_le hs b hb)]
    exact hs.home b hb

/-- Witness of C29: bucket 1 of the table that holds key 1 twice and key 17, after a
`Rehash` to 64 buckets and the removal of one entry for key 1. -/
theorem c1_inline_invariant_witness :
    ∃ t, C1HashTable.runCalls (fun k : Nat => k) C1HashTable.new
          [Call.insert 1 10, Call.insert 1 20, Call.insert 17 30, Call.rehash 64,
            Call.remove 1] = some t ∧
      1 < t.buckets.length ∧
      ((C1HashTable.bucketAt t.buckets 1).filled = false →
          (C1HashTable.bucketAt t.buckets 1).pHead = none) ∧
        ((C1HashTable.bucketAt t.buckets 1).filled = true →
          (C1HashTable.bucketAt t.buckets 1).hash &&& (t.buckets.length - 1) = 1) ∧
        ∀ e ∈ C0HashTable.walk (C0HashTable.nextOf t.elemPool) t.elemPool.length
            (C1HashTable.bucketAt t.buckets 1).pHead,
          (C0HashTable.elemAt t.elemPool e).hash &&& (t.buckets.length - 1) = 1 :=
  ⟨_, rfl, by decide, c1_inline_invariant (fun k : Nat => k)
    [Call.insert 1 10, Call.insert 1 20, Call.insert 17 30, Call.rehash 64, Call.remove 1]
    _ (by exact rfl) 1 (by decide)⟩

/-- C31. `Rehash` of `OLHashTable` discards all tombstones: for every digest function,
every state reached from a fresh table by `Insert`, `Remove`, `Reserve`, `Rehash` and
`Reset` calls and every argument `n`, `Rehash(n)` returns, no bucket of the result is in
state Removed, the number of Filled buckets of the result equals its `size`, which is the
`size` before the call, and the `(hash, key, value)` triples held in Filled buckets are
a permutation of those held before the call (the same multiset). -/
theorem ol_rehash_drops_tombstones (digest : K → Nat) (calls : List (Call K V)) (n : Nat) :
    ∃ t t1, OLHashTable.runCalls digest OLHashTable.new calls = some t ∧
      OLHashTable.Rehash t n = some t1 ∧
      (∀ j, (bucketAt t1.buckets j).state ≠ BSTATE.BSTATE_Removed) ∧
      OpenAddr.filledCount t1.buckets = t1.size ∧ t1.size = t.size ∧
      (OpenAddr.filledTriples t1.buckets).Perm (OpenAddr.filledTriples t.buckets) := by
  obtain ⟨t, h1, hs⟩ :=
    OLHashTable.ol_calls_shape digest calls OLHashTable.new OLHashTable.ol_shape_new
  obtain ⟨t1, h2, hs1, hsz, _, h3, h4⟩ := OLHashTable.ol_Rehash_triples hs n
  exact ⟨t, t1, h1, h2, h3, hs1.size_eq.symm, hsz, h4⟩

/-- C32. `Insert` of `OLHashTable` never fails: for every digest function, in every state
reached from a fresh table by `Insert`, `Remove`, `Reserve`, `Rehash` and `Reset` calls
(the bucket count may be no power of two, or equal to `size`), for every key and value,
the load-factor check returns a table `t0`, the two search loops find a bucket `i` of
`t0` that is not Filled (`assert(bTarget)` holds), every bucket before `i` in the cyclic
order `linProbes`, which is `iBucketStart, ..., buckets.size() - 1, 0, ...,
iBucketStart - 1`, is Filled, and `Insert` returns. -/
theorem ol_insert_never_fails (digest : K → Nat) (calls : List (Call K V)) (k : K) (v : V) :
    ∃ t t0 t1 i pre post, OLHashTable.runCalls digest OLHashTable.new calls = some t ∧
      (if t.size * 3 > t.buckets.length * 2 then OLHashTable.Rehash t (t.buckets.length * 2)
        else some t) = some t0 ∧
      OLHashTable.findTarget t0.buckets
        ((HashKey digest k &&& s_62Bits) &&& (t0.buckets.length - 1)) t0.buckets.length =
        some i ∧
      i < t0.buckets.length ∧ (bucketAt t0.buckets i).state ≠ BSTATE.BSTATE_Filled ∧
      OLHashTable.linProbes t0.buckets.length
        ((HashKey digest k &&& s_62Bits) &&& (t0.buckets.length - 1)) = pre ++ i :: post ∧
      (∀ x ∈ pre, (bucketAt t0.buckets x).state = BSTATE.BSTATE_Filled) ∧
      OLHashTable.Insert digest t k v = some t1 := by
  obtain ⟨t, h1, hs⟩ :=
    OLHashTable.ol_calls_shape digest calls OLHashTable.new OLHashTable.ol_shape_new
  obtain ⟨t0, i, pre, post, h0, h2, h3, h4, h5, h6⟩ := OLHashTable.ol_Insert_first digest hs k
  obtain ⟨t1, h7, _⟩ := OLHashTable.ol_Insert_shape digest hs k v
  exact ⟨t, t0, t1, i, pre, post, h1, h0, h2, h3, h4, h5, h6, h7⟩

/-- C36. Probe-path invariant of `OLHashTable`: for every digest function, every
sequence of `Insert`, `Remove`, `Reserve`, `Rehash` and `Reset` calls on a fresh table
returns, and in the state reached, for every Filled bucket at index `j` with stored hash
`h`, the cyclic linear path `linProbes` from `h & (buckets.size() - 1)` reaches `j` and
no bucket on it before `j` is in state Empty. -/
theorem ol_probe_path (digest : K → Nat) (calls : List (Call K V)) :
    ∃ t, OLHashTable.runCalls digest OLHashTable.new calls = some t ∧
      ∀ j, (bucketAt t.buckets j).state = BSTATE.BSTATE_Filled →
        ∃ pre post,
          OLHashTable.linProbes t.buckets.length
            ((bucketAt t.buckets j).hash &&& (t.buckets.length - 1)) = pre ++ j :: post ∧
          ∀ i ∈ pre, (bucketAt t.buckets i).state ≠ BSTATE.BSTATE_Empty := by
  obtain ⟨t, h1, hw⟩ :=
    OLHashTable.ol_calls_dup digest calls OLHashTable.new (OLHashTable.ol_wfd_new digest)
  exact ⟨t, h1, fun j hj => hw.inv.path j hj⟩

/-- C37. Pool accounting invariant of `C0HashTable`: for every digest function, every
sequence of `Insert`, `Remove`, `Reserve`, `Rehash` and `Reset` calls on a fresh table
returns, and in the state reached `elemPool.size() = buckets.size()`; the walk along
`pNext` from every bucket head and from the head of the free list ends at a null
pointer within `elemPool.size()` nodes (`IsChain`: the list walked is the whole chain);
the free list followed by the chains of all buckets is a permutation of the indices
`0, ..., elemPool.size() - 1` (every pool node is in exactly one of them, once); `size`
is the total length of the chains; the free list has `elemPool.size() - size` nodes; and
the free list is empty exactly when `size = elemPool.size()`. -/
theorem c0_pool_accounting (digest : K → Nat) (calls : List (Call K V)) :
    ∃ t, C0HashTable.runCalls digest C0HashTable.new calls = some t ∧
      t.elemPool.length = t.buckets.length ∧
      (∀ b, b < t.buckets.length →
        Chain.IsChain (C0HashTable.nextOf t.elemPool) (C0HashTable.headAt t.buckets b)
          (C0HashTable.walk (C0HashTable.nextOf t.elemPool) t.elemPool.length
            (C0HashTable.headAt t.buckets b))) ∧
      Chain.IsChain (C0HashTable.nextOf t.elemPool) t.pElemFreeHead
        (C0HashTable.walk (C0HashTable.nextOf t.elemPool) t.elemPool.length
          t.pElemFreeHead) ∧
      (C0HashTable.walk (C0HashTable.nextOf t.elemPool) t.elemPool.length t.pElemFreeHead ++
          (List.range t.buckets.length).flatMap (fun b =>
            C0HashTable.walk (C0HashTable.nextOf t.elemPool) t.elemPool.length
              (C0HashTable.headAt t.buckets b))).Perm (List.range t.elemPool.length) ∧
      t.size = ((List.range t.buckets.length).flatMap (fun b =>
        C0HashTable.walk (C0HashTable.nextOf t.elemPool) t.elemPool.length
          (C0HashTable.headAt t.buckets b))).length ∧
      (C0HashTable.walk (C0HashTable.nextOf t.elemPool) t.elemPool.length
        t.pElemFreeHead).length = t.elemPool.length - t.size ∧
      (t.pElemFreeHead = none ↔ t.size = t.elemPool.length) := by
  obtain ⟨t, h1, L, F, used, hs⟩ :=
    C0HashTable.c0_calls_shape digest calls C0HashTable.new (C0HashTable.c0_shape_new digest)
  obtain ⟨hw, hf, ht, hp⟩ := C0HashTable.c0_pool_partition hs
  have hc := hs.cover
  have hsz := hs.size_eq
  refine ⟨t, h1, hs.pool_len, ?_, ?_, ?_, ?_, ?_, ?_⟩
  · intro b hb
    rw [hw b hb]
    exact hs.chain b hb
  · rw [hf]
    exact hs.free
  · rw [hf, ht]
    exact hp
  · rw [ht, C0HashTable.c0_length_traversal hs]
  · rw [hf]
    omega
  · rw [hs.pool_len]
    exact C0HashTable.c0_free_none_iff hs

/-- C39. Bit smearing in `Reserve`: for every 32-bit `n ≥ 1`, the value `smear n`
obtained by `m = n; m |= m >> 1; m |= m >> 2; m |= m >> 4; m |= m >> 8; m |= m >> 16`,
which `D0HashTable::Reserve(n)` passes to `Rehash`, equals `2 ^ b - 1` where `b` is the
bit length of `n` (`2 ^ (b - 1) ≤ n < 2 ^ b`); hence it is at least `n`, below `2 * n`
and below `2 ^ 32`, and it is a power of two only when `n = 1`. -/
theorem reserve_smear_bits (digest : K → Nat) (t : D0HashTable K V) (n : Nat) (h1 : 1 ≤ n)
    (h32 : n < 2 ^ 32) :
    ∃ b, 1 ≤ b ∧ b ≤ 32 ∧ 2 ^ (b - 1) ≤ n ∧ n < 2 ^ b ∧ smear n = 2 ^ b - 1 ∧
      D0HashTable.Reserve digest t n = D0HashTable.Rehash digest t (2 ^ b - 1) ∧
      n ≤ smear n ∧ smear n < 2 * n ∧ smear n < 2 ^ 32 ∧
      ((∃ j, smear n = 2 ^ j) ↔ n = 1) := by
  obtain ⟨b, hb1, hb32, hge, hlt, hs⟩ := smear_spec n h1 h32
  have hpow : 2 ^ b = 2 * 2 ^ (b - 1) := by
    rw [← pow_succ']; congr 1; omega
  have hle : 2 ^ b ≤ 2 ^ 32 := Nat.pow_le_pow_right (by decide) hb32
  refine ⟨b, hb1, hb32, hge, hlt, hs, ?_, le_smear n, by omega, by omega, ?_⟩
  · unfold D0HashTable.Reserve
    rw [hs]
  · constructor
    · rintro ⟨j, hj⟩
      by_contra hn
      have hb2 : 2 ≤ b := by
        by_contra hc
        have hb : b = 1 := by omega
        subst hb
        simp at hlt
        omega
      rw [hs] at hj
      exact pow_sub_one_pow b j hb2 hj
    · intro hn
      subst hn
      exact ⟨0, by decide⟩

/-- Witness of C39: `n = 17` has 5 bits and is smeared to 31. -/
theorem reserve_smear_bits_witness :
    ∃ b, 1 ≤ b ∧ b ≤ 32 ∧ 2 ^ (b - 1) ≤ 17 ∧ 17 < 2 ^ b ∧ smear 17 = 2 ^ b - 1 ∧
      D0HashTable.Reserve (fun k : Nat => k) (D0HashTable.new : D0HashTable Nat Nat) 17 =
        D0HashTable.Rehash (fun k : Nat => k) D0HashTable.new (2 ^ b - 1) ∧
      17 ≤ smear 17 ∧ smear 17 < 2 * 17 ∧ smear 17 < 2 ^ 32 ∧
      ((∃ j, smear 17 = 2 ^ j) ↔ 17 = 1) :=
  reserve_smear_bits (fun k : Nat => k) D0HashTable.new 17 (by decide) (by decide)

/-- C34. The escape-hatch recursion of `C1HashTable::Rehash` terminates: in every state
`t` reached from a fresh table by `Insert`, `Remove`, `Reserve`, `Rehash` and `Reset`
calls that return, repeated keys allowed, and for every argument `n`, `Rehash(n)`
returns after `j ≤ 1` recursive calls `Rehash(bucketCountNew * 2)`: the passes over
`max(n, size, 16) * 2 ^ i` buckets for `i < j` take the escape hatch, the pass over
`max(n, size, 16) * 2 ^ j` buckets places every entry, and the table returned has
`max(n, size, 16) * 2 ^ j` buckets; and no pass over `m > 0` buckets whose new pool of
`m / 2` elements is at least `size` takes the escape hatch. -/
theorem c1_rehash_terminates (digest : K → Nat) (calls : List (Call K V))
    (t : C1HashTable K V)
    (hrun : C1HashTable.runCalls digest C1HashTable.new calls = some t) (n : Nat) :
    (∃ j t1, j ≤ 1 ∧ C1HashTable.Rehash t n = some t1 ∧
      t1.buckets.length = max (max n t.size) s_hashTableInitialSize * 2 ^ j ∧
      (∀ i, i < j →
        C1HashTable.rehashBuckets t.elemPool
          (max (max n t.size) s_hashTableInitialSize * 2 ^ i) t.buckets
          (List.replicate (max (max n t.size) s_hashTableInitialSize * 2 ^ i) default,
            List.replicate (max (max n t.size) s_hashTableInitialSize * 2 ^ i / 2) default,
            0) = C1HashTable.Pass.escape) ∧
      ∃ st, C1HashTable.rehashBuckets t.elemPool
          (max (max n t.size) s_hashTableInitialSize * 2 ^ j) t.buckets
          (List.replicate (max (max n t.size) s_hashTableInitialSize * 2 ^ j) default,
            List.replicate (max (max n t.size) s_hashTableInitialSize * 2 ^ j / 2) default,
            0) = C1HashTable.Pass.ok st) ∧
    ∀ m, 0 < m → t.size ≤ m / 2 →
      ∃ st, C1HashTable.rehashBuckets t.elemPool m t.buckets
        (List.replicate m default, List.replicate (m / 2) default, 0) =
          C1HashTable.Pass.ok st := by
  rw [← C1HashTable.c1_untag_new] at hrun
  obtain ⟨t2, N2, h2, hw, _⟩ :=
    C1HashTable.c1_tagged_calls digest calls C1HashTable.new 0 t
      (C1HashTable.c1_wf_new (C1HashTable.tagged digest)) (C1HashTable.c1_fresh_new digest) hrun
  subst h2
  exact ⟨C1HashTable.c1_Rehash_retries hw n,
    fun m hm hroom => C1HashTable.c1_pass_room hw m hm (by
      have : (C1HashTable.untag t2).size = t2.size := rfl
      omega)⟩

/-- Witness of C34: seventeen entries for one key, which share a bucket in every table;
`Rehash(0)` first tries 17 buckets with a pool of 8 elements. -/
theorem c1_rehash_terminates_witness :
    ∃ t, C1HashTable.runCalls (fun k : Nat => k) C1HashTable.new
          (inserts ((List.range 17).map (fun i => ((0 : Nat), i)))) = some t ∧
    (∃ j t1, j ≤ 1 ∧ C1HashTable.Rehash t 0 = some t1 ∧
      t1.buckets.length = max (max 0 t.size) s_hashTableInitialSize * 2 ^ j ∧
      (∀ i, i < j →
        C1HashTable.rehashBuckets t.elemPool
          (max (max 0 t.size) s_hashTableInitialSize * 2 ^ i) t.buckets
          (List.replicate (max (max 0 t.size) s_hashTableInitialSize * 2 ^ i) default,
            List.replicate (max (max 0 t.size) s_hashTableInitialSize * 2 ^ i / 2) default,
            0) = C1HashTable.Pass.escape) ∧
      ∃ st, C1HashTable.rehashBuckets t.elemPool
          (max (max 0 t.size) s_hashTableInitialSize * 2 ^ j) t.buckets
          (List.replicate (max (max 0 t.size) s_hashTableInitialSize * 2 ^ j) default,
            List.replicate (max (max 0 t.size) s_hashTableInitialSize * 2 ^ j / 2) default,
            0) = C1HashTable.Pass.ok st) ∧
    ∀ m, 0 < m → t.size ≤ m / 2 →
      ∃ st, C1HashTable.rehashBuckets t.elemPool m t.buckets
        (List.replicate m default, List.replicate (m / 2) default, 0) =
          C1HashTable.Pass.ok st :=
  ⟨_, rfl, c1_rehash_terminates (fun k : Nat => k)
    (inserts ((List.range 17).map (fun i => (0, i)))) _ (by exact rfl) 0⟩

/-- C33. `Rehash` with a non-growing argument is a no-op in the index-based engines:
for every digest function, every `D0HashTable` state `d0` and every `n ≤ buckets.size()`,
`Rehash(n)` returns and leaves `buckets`, `keyAndNexts`, `values` and `nextFree`
unchanged; and for every `D1HashTable` state `d1` and every `m ≤ keyAndStates.size()`,
`Rehash(m)` returns and leaves `keyAndStates`, `values` and `size_` unchanged. The
vectors have fewer than `2 ^ 32` elements, as every vector that the constructors,
`Reset` and `Rehash`, whose argument is a `uint32_t`, build. -/
theorem rehash_not_growing (digest : K → Nat) (d0 : D0HashTable K V) (d1 : D1HashTable K V)
    (n m : Nat) (h0 : d0.buckets.length < 2 ^ 32) (hn : n ≤ d0.buckets.length)
    (h1 : d1.keyAndStates.length < 2 ^ 32) (hm : m ≤ d1.keyAndStates.length) :
    D0HashTable.Rehash digest d0 n = some d0 ∧ D1HashTable.Rehash digest d1 m = some d1 :=
  ⟨D0HashTable.d0_Rehash_small digest d0 n h0 hn, D1HashTable.d1_Rehash_small digest d1 m h1 hm⟩

/-- Witness of C33: `Rehash(16)` on a fresh `D0HashTable` and `Rehash(5)` on a fresh
`D1HashTable`, both of 16 slots. -/
theorem rehash_not_growing_witness :
    D0HashTable.Rehash (fun k : Nat => k) (D0HashTable.new : D0HashTable Nat Nat) 16 =
        some D0HashTable.new ∧
      D1HashTable.Rehash (fun k : Nat => k) (D1HashTable.new : D1HashTable Nat Nat) 5 =
        some D1HashTable.new :=
  rehash_not_growing (fun k : Nat => k) D0HashTable.new D1HashTable.new 16 5
    (by simp [D0HashTable.new]) (by simp [D0HashTable.new])
    (by simp [D1HashTable.new]) (by simp [D1HashTable.new])

/-- C35 (the code departs from the claim). The chains of a `D0HashTable` are not always
finite: in the state reached by `Reset()` and `Insert(k, v)`, from any state, every
bucket head is node 0 and node 0 is its own successor, so the walk along `next` from
any bucket head meets node 0 at every step and never reaches the end marker
`0xFFFFFFFF`, and `Lookup(x)` and `Remove(x)` do not return for any key `x` other than
`k`. -/
theorem d0_reset_chain_cyclic (digest : K → Nat) (t : D0HashTable K V) (k : K) (v : V) :
    ∃ t1, D0HashTable.Insert digest (D0HashTable.Reset t) k v = some t1 ∧
      (∀ b, D0HashTable.indexAt t1.buckets b = 0) ∧
      D0HashTable.knAt t1.keyAndNexts 0 = ⟨k, 0⟩ ∧
      (∀ b fuel, C0HashTable.walk (D0HashTable.nextOf t1.keyAndNexts) fuel
          (D0HashTable.link (D0HashTable.indexAt t1.buckets b)) = List.replicate fuel 0) ∧
      ∀ x, x ≠ k → D0HashTable.Lookup digest t1 x = none ∧
        D0HashTable.Remove digest t1 x = none := by
  obtain ⟨t1, h1, h2, h3⟩ := D0HashTable.d0_Reset_cycle digest t k v
  obtain ⟨h4, h5⟩ := D0HashTable.d0_cycle_loops digest t1 h2 (by rw [h3])
  exact ⟨t1, h1, h2, h3, h4, fun x hx => h5 x (by rw [h3]; exact hx)⟩

/-- C9. `Rehash` preserves membership in `OLHashTable`: for every digest function and
every sequence of `Insert`, `Remove`, `Reserve`, `Rehash` and `Reset` calls on a fresh
table that never inserts a key while an entry for it is live (`oneLive`, a property of
the sequence alone), the sequence returns a table `t`, whose bucket count may be no power
of two, and for every argument `n`, smaller than the bucket count or not a power of two
included, `Rehash(n)` returns, leaves `size` unchanged, and `Lookup(k)` returns after it
what it returned before, for every key `k`: the value of the finite map of the calls
(`mapAfter`). -/
theorem ol_rehash_preserves (digest : K → Nat) (calls : List (Call K V))
    (hone : C1HashTable.oneLive (fun _ => none) calls = true) (n : Nat) :
    ∃ t t1, OLHashTable.runCalls digest OLHashTable.new calls = some t ∧
      OLHashTable.Rehash t n = some t1 ∧ t1.size = t.size ∧
      ∀ k, OLHashTable.Lookup digest t1 k = OLHashTable.Lookup digest t k ∧
        OLHashTable.Lookup digest t k = C1HashTable.mapAfter (fun _ => none) calls k := by
  obtain ⟨t, h1, hw, hl⟩ := OLHashTable.ol_calls_spec digest calls OLHashTable.new
    (fun _ => none) (OLHashTable.ol_wf_new digest) (fun x => OLHashTable.ol_Lookup_new digest x)
    hone
  obtain ⟨t1, h2, _, hsz, _, hl1⟩ := OLHashTable.ol_Rehash_spec hw n
  exact ⟨t, t1, h1, h2, hsz, fun k => ⟨hl1 k, hl k⟩⟩

/-- Witness of C9: `Reserve(12)` gives 31 buckets; with two colliding keys and a
tombstone the table is rehashed to 21 buckets. -/
theorem ol_rehash_preserves_witness :
    C1HashTable.oneLive (fun _ => none)
        [Call.reserve 12, Call.insert 1 10, Call.insert 17 20, Call.insert 33 (30 : Nat),
          Call.remove 1, Call.rehash 17, Call.insert 1 40] = true ∧
      ∃ t t1, OLHashTable.runCalls (fun k : Nat => k) OLHashTable.new
          [Call.reserve 12, Call.insert 1 10, Call.insert 17 20, Call.insert 33 (30 : Nat),
            Call.remove 1, Call.rehash 17, Call.insert 1 40] = some t ∧
        OLHashTable.Rehash t 21 = some t1 ∧ t1.size = t.size ∧
        ∀ k, OLHashTable.Lookup (fun k : Nat => k) t1 k =
            OLHashTable.Lookup (fun k : Nat => k) t k ∧
          OLHashTable.Lookup (fun k : Nat => k) t k =
            C1HashTable.mapAfter (fun _ => none)
              [Call.reserve 12, Call.insert 1 10, Call.insert 17 20,
                Call.insert 33 (30 : Nat), Call.remove 1, Call.rehash 17, Call.insert 1 40] k :=
  ⟨by decide, ol_rehash_preserves (fun k : Nat => k)
    [Call.reserve 12, Call.insert 1 10, Call.insert 17 20, Call.insert 33 30,
      Call.remove 1, Call.rehash 17, Call.insert 1 40] (by decide) 21⟩

/-- C16, amended. For every `OLHashTable` state reached from a freshly constructed table
by `Insert`, `Remove`, `Reserve`, `Rehash` and `Reset` calls and every argument `n`,
`Rehash(n)` returns and builds a bucket array of exactly `max(n, size, 16)` buckets,
where `size`, the number of live entries, is unchanged: the bucket count after the call
is at least `n`, at least `size` and at least 16, and it is at least the bucket count
before the call whenever `n` is. -/
theorem ol_rehash_count (digest : K → Nat) (calls : List (Call K V)) (t : OLHashTable K V)
    (hrun : OLHashTable.runCalls digest OLHashTable.new calls = some t) (n : Nat) :
    ∃ t1, OLHashTable.Rehash t n = some t1 ∧
      t1.buckets.length = max (max n t.size) s_hashTableInitialSize ∧
      n ≤ t1.buckets.length ∧ t.size ≤ t1.buckets.length ∧ 16 ≤ t1.buckets.length ∧
      (t.buckets.length ≤ n → t.buckets.length ≤ t1.buckets.length) ∧
      t1.size = t.size := by
  obtain ⟨t0, h0, hs⟩ := OLHashTable.ol_calls_shape digest calls OLHashTable.new
    OLHashTable.ol_shape_new
  rw [hrun] at h0
  rw [← Option.some.inj h0] at hs
  obtain ⟨t1, h1, _, hsz, hlen⟩ := OLHashTable.ol_Rehash_shape hs n
  refine ⟨t1, h1, hlen, ?_, ?_, ?_, ?_, hsz⟩ <;> rw [hlen] <;>
    simp only [s_hashTableInitialSize] <;> omega

/-- Witness of C16: twelve insertions, then `Rehash(40)` gives 40 buckets. -/
theorem ol_rehash_count_witness :
    ∃ t, OLHashTable.runCalls (fun k : Nat => k) OLHashTable.new
        ((List.range 12).map (fun i => Call.insert i i)) = some t ∧
      ∃ t1, OLHashTable.Rehash t 40 = some t1 ∧
        t1.buckets.length = max (max 40 t.size) s_hashTableInitialSize ∧
        40 ≤ t1.buckets.length ∧ t.size ≤ t1.buckets.length ∧ 16 ≤ t1.buckets.length ∧
        (t.buckets.length ≤ 40 → t.buckets.length ≤ t1.buckets.length) ∧
        t1.size = t.size :=
  ⟨_, rfl, ol_rehash_count (fun k : Nat => k)
    ((List.range 12).map (fun i => Call.insert i i)) _ (by exact rfl) 40⟩

/-- Counterexample to C38 as stated: after the 1431655767 calls `Insert(0, 0)`, ...,
`Insert(1431655766, 1431655766)` on fresh tables the `OLHashTable` has twice as many
slots as the `D1HashTable`. Before the last call both hold 1431655766 entries;
`size_ * 3` is 2 in `uint32_t`, so the `D1HashTable` does not grow, while `size * 3` in
`size_t` exceeds twice the bucket count and the `OLHashTable` doubles it. The first
1431655766 calls keep within 1431655766 live entries. -/
theorem d1_follows_ol_counterexample :
    ∃ d o, D1HashTable.run (fun k : Nat => k) D1HashTable.new
          ((List.range 1431655767).map (fun i => Op.insert i i)) = some (d, []) ∧
      OLHashTable.run (fun k : Nat => k) OLHashTable.new
          ((List.range 1431655767).map (fun i => Op.insert i i)) = some (o, []) ∧
      o.buckets.length = 2 * d.keyAndStates.length ∧
      d.keyAndStates.length ≠ o.buckets.length ∧
      Model.fitsDup 1431655766 (fun _ => 0) 0
        ((List.range' 0 1431655766).map (fun i => (Op.insert i i : Op Nat Nat))) = true := by
  obtain ⟨d, o, h1, h2, h3, h4⟩ := D1HashTable.d1_fill_overflow (fun k : Nat => k)
  unfold D0HashTable.fill at h1 h2
  exact ⟨d, o, h1, h2, h3, by omega,
    D1HashTable.d1_fill_fits 1431655766 1431655766 0 (fun _ => 0) 0 (by omega)⟩

/-- C38, amended. `D1HashTable` follows `OLHashTable` although it stores no hash and
hashes the keys again in `Rehash`, as long as `size_ * 3` fits `uint32_t`: for every
digest function and every sequence of `Insert` and `Remove` calls during which the
number of live entries never exceeds 1431655766 (`Model.fitsDup`: an `Insert` adds an
entry, also for a key that has one, and a `Remove` of a key that has an entry takes one
away), applied to a fresh `D1HashTable` and a fresh `OLHashTable`, both runs return with
the same `Remove` results, and the tables reached have the same slot count (also the
length of `values`), the same live count, the same occupancy state at every index, the
same key and value at every Filled index, and the same `Lookup` and `Remove` result for
every key. A `Lookup` call anywhere in a sequence acts on the tables reached by the
calls before it and changes nothing. -/
theorem d1_follows_ol (digest : K → Nat) (ops : List (Op K V))
    (hfit : Model.fitsDup 1431655766 (fun _ => 0) 0 ops = true) :
    ∃ d o rs, D1HashTable.run digest D1HashTable.new ops = some (d, rs) ∧
      OLHashTable.run digest OLHashTable.new ops = some (o, rs) ∧
      d.keyAndStates.length = o.buckets.length ∧ d.values.length = o.buckets.length ∧
      d.size_ = o.size ∧
      (∀ i, (D1HashTable.ksAt d.keyAndStates i).state =
        D1HashTable.stateOf (bucketAt o.buckets i).state) ∧
      (∀ i, (bucketAt o.buckets i).state = BSTATE.BSTATE_Filled →
        (D1HashTable.ksAt d.keyAndStates i).key = (bucketAt o.buckets i).key ∧
          d.values.getD i default = (bucketAt o.buckets i).value) ∧
      (∀ k, D1HashTable.Lookup digest d k = some (OLHashTable.Lookup digest o k)) ∧
      ∀ k, (D1HashTable.Remove digest d k).2 = (OLHashTable.Remove digest o k).2 := by
  obtain ⟨o, rs, h1, h2, hw⟩ := D1HashTable.d1_run_map digest ops OLHashTable.new
    (fun _ => 0) (D1HashTable.d1_within_new digest)
    (fun k => OpenAddr.keyCount_replicate _ k) hfit
  rw [← D1HashTable.d1_new_eq] at h2
  obtain ⟨h16, hlen⟩ := D1HashTable.d1_within_len hw
  have hs := hw.wfd.ol_shapeD
  have hok := D1HashTable.d1_hashOK_of_wfd hw.wfd
  refine ⟨D1HashTable.ofOL o, o, rs, h2, h1, ?_, ?_, rfl, ?_, ?_, ?_, ?_⟩
  · simp only [D1HashTable.ofOL, List.length_map]
  · simp only [D1HashTable.ofOL, List.length_map]
  · intro i
    simp only [D1HashTable.ofOL, D1HashTable.d1_ksAt_map]
    rfl
  · intro i _
    exact ⟨by simp only [D1HashTable.ofOL, D1HashTable.d1_ksAt_map]; rfl,
      D1HashTable.d1_getD_map o.buckets i⟩
  · intro k
    exact D1HashTable.d1_Lookup_map digest o hok hs.pos hlen k
  · intro k
    rw [D1HashTable.d1_Remove_map digest o hok hs hlen k]

/-- Witness of C38: seventeen entries, which make both tables grow to 32 slots, a second
entry for key 3, then entries for key 3 removed and inserted again and again, and the
removal of the absent key 99. -/
theorem d1_follows_ol_witness :
    ∃ d o rs, D1HashTable.run (fun k : Nat => k) D1HashTable.new
          ((List.range 17).map (fun i => Op.insert i (10 * i)) ++
            [Op.insert 3 7, Op.remove 3, Op.remove 3, Op.remove 3, Op.insert 3 8,
              Op.remove 3, Op.insert 3 9, Op.remove 99]) = some (d, rs) ∧
      OLHashTable.run (fun k : Nat => k) OLHashTable.new
          ((List.range 17).map (fun i => Op.insert i (10 * i)) ++
            [Op.insert 3 7, Op.remove 3, Op.remove 3, Op.remove 3, Op.insert 3 8,
              Op.remove 3, Op.insert 3 9, Op.remove 99]) = some (o, rs) ∧
      d.keyAndStates.length = o.buckets.length ∧ d.values.length = o.buckets.length ∧
      d.size_ = o.size ∧
      (∀ i, (D1HashTable.ksAt d.keyAndStates i).state =
        D1HashTable.stateOf (bucketAt o.buckets i).state) ∧
      (∀ i, (bucketAt o.buckets i).state = BSTATE.BSTATE_Filled →
        (D1HashTable.ksAt d.keyAndStates i).key = (bucketAt o.buckets i).key ∧
          d.values.getD i default = (bucketAt o.buckets i).value) ∧
      (∀ k, D1HashTable.Lookup (fun k : Nat => k) d k =
        some (OLHashTable.Lookup (fun k : Nat => k) o k)) ∧
      ∀ k, (D1HashTable.Remove (fun k : Nat => k) d k).2 =
        (OLHashTable.Remove (fun k : Nat => k) o k).2 :=
  d1_follows_ol (fun k : Nat => k)
    ((List.range 17).map (fun i => Op.insert i (10 * i)) ++
      [Op.insert 3 7, Op.remove 3, Op.remove 3, Op.remove 3, Op.insert 3 8,
        Op.remove 3, Op.insert 3 9, Op.remove 99]) (by decide)

end Claims

end HashTableTests
